import Mathlib

/-!
# Flood fill (deiflou/floodfill_mt): a shallow embedding of `floodfill.cpp`

The four entry points `floodFill`, `floodFillScanLine`, `floodFillMT` and
`floodFillScanLineMT` and the two tile workers are translated function by function.

* A `QImage` of format `Grayscale8` is its width, height, scan-line stride
  (`bytesPerLine`) and the flat byte buffer `bits`; `scanLine y` is the offset
  `y * bytesPerLine`, and `getPixel` / `setPixel` dereference `scanLine(y) + x`.
* A load or store outside the byte buffer, an index outside the `tileData` array and a
  division by zero are undefined behaviour in C++; here they are the results
  `Fault.outOfBounds` and `Fault.divByZero`.
* Loops are recursive functions on a step budget; `Fault.outOfFuel` is the result of an
  exhausted budget, and the theorems show that the budgets used are never exhausted.
* `qint32` coordinates are `Int` (they stay within the image size plus one, so 32-bit
  wrap-around does not occur); `quint8` values are `Nat` reduced `% 256` where the
  source converts to `quint8`.
* The tasks of one round of the tile-parallel variants are run one after the other, in the
  iteration order of the propagation queue.
-/

namespace FloodFill

/-! ## Data model -/

/-- Ways in which a run leaves defined behaviour, or exhausts its step budget. -/
inductive Fault where
  | outOfBounds
  | divByZero
  | outOfFuel
  deriving DecidableEq

/-- A point with `qint32` coordinates. -/
structure QPoint where
  x : Int
  y : Int
  deriving DecidableEq

/-- A rectangle stored, as in Qt, by its inclusive corners. -/
structure QRect where
  left : Int
  top : Int
  right : Int
  bottom : Int
  deriving DecidableEq

/-- A `Grayscale8` image: the bytes of row `y` start at offset `y * bytesPerLine`. -/
structure QImage where
  width : Nat
  height : Nat
  bytesPerLine : Nat
  bits : List Nat
  deriving DecidableEq

instance : DecidableEq (Except Fault QImage)
  | .ok a, .ok b =>
    if h : a = b then isTrue (by rw [h]) else isFalse (fun h' => h (Except.ok.inj h'))
  | .error a, .error b =>
    if h : a = b then isTrue (by rw [h]) else isFalse (fun h' => h (Except.error.inj h'))
  | .ok _, .error _ => isFalse (fun h => by cases h)
  | .error _, .ok _ => isFalse (fun h => by cases h)

instance {α : Type} [DecidableEq α] : DecidableEq (Except Fault α)
  | .ok a, .ok b =>
    if h : a = b then isTrue (by rw [h]) else isFalse (fun h' => h (Except.ok.inj h'))
  | .error a, .error b =>
    if h : a = b then isTrue (by rw [h]) else isFalse (fun h' => h (Except.error.inj h'))
  | .ok _, .error _ => isFalse (fun h => by cases h)
  | .error _, .ok _ => isFalse (fun h => by cases h)

/-- The span of the scan-line fill. -/
structure Span where
  x1 : Int
  x2 : Int
  y : Int
  dy : Int
  deriving DecidableEq

/-- Qt pads every scan line to a multiple of four bytes (depth 8). -/
def qtBytesPerLine (width : Nat) : Nat := ((width * 8 + 31) / 32) * 4

/-- Model of `QRect(x, y, w, h)`. -/
def QRect.mk4 (x y w h : Int) : QRect := ⟨x, y, x + w - 1, y + h - 1⟩

/-- Model of `QRect::contains(QPoint)` for a rectangle with `left ≤ right + 1`, `top ≤ bottom + 1`. -/
def QRect.contains (r : QRect) (p : QPoint) : Bool :=
  decide (r.left ≤ p.x) && decide (p.x ≤ r.right) && decide (r.top ≤ p.y) && decide (p.y ≤ r.bottom)

/-- Model of `QRect::intersected`: the null rectangle `(0,0,-1,-1)` when the two do not meet. -/
def QRect.intersected (a b : QRect) : QRect :=
  if a.right < a.left ∨ a.bottom < a.top ∨ b.right < b.left ∨ b.bottom < b.top then ⟨0, 0, -1, -1⟩
  else if a.left > b.right ∨ b.left > a.right ∨ a.top > b.bottom ∨ b.top > a.bottom then
    ⟨0, 0, -1, -1⟩
  else ⟨max a.left b.left, max a.top b.top, min a.right b.right, min a.bottom b.bottom⟩

/-- Model of `QImage::rect()`. -/
def QImage.rect (img : QImage) : QRect := QRect.mk4 0 0 img.width img.height

/-- Model of `QImage(size, format)` followed by `fill(0)`: same geometry, every byte zero. -/
def QImage.blank (img : QImage) : QImage :=
  { width := img.width, height := img.height, bytesPerLine := img.bytesPerLine,
    bits := List.replicate (img.bytesPerLine * img.height) 0 }

/-- A well-formed 8-bit image: the buffer has `bytesPerLine * height` bytes, a row fits in
its scan line, and every entry is a byte. -/
def QImage.WF (img : QImage) : Prop :=
  img.bits.length = img.bytesPerLine * img.height ∧ img.width ≤ img.bytesPerLine ∧
    ∀ v ∈ img.bits, v < 256

instance (img : QImage) : Decidable img.WF := by
  unfold QImage.WF; exact inferInstance

/-- Reading the byte at a flat offset. -/
def QImage.load (img : QImage) (a : Int) : Except Fault Nat :=
  if 0 ≤ a ∧ a < img.bits.length then .ok (img.bits.getD a.toNat 0) else .error .outOfBounds

/-- Writing the byte at a flat offset. -/
def QImage.store (img : QImage) (a : Int) (v : Nat) : Except Fault QImage :=
  if 0 ≤ a ∧ a < img.bits.length then .ok { img with bits := img.bits.set a.toNat v }
  else .error .outOfBounds

/-- Model of `image.scanLine(y)` as an offset into the byte buffer. -/
def scanLine (img : QImage) (y : Int) : Int := y * img.bytesPerLine

/-- Model of `getPixel`: `*(image.scanLine(point.y()) + point.x())`. -/
def getPixel (image : QImage) (point : QPoint) : Except Fault Nat :=
  image.load (scanLine image point.y + point.x)

/-- Model of `setPixel`: `*(image.scanLine(point.y()) + point.x()) = value`. -/
def setPixel (image : QImage) (point : QPoint) (value : Nat) : Except Fault QImage :=
  image.store (scanLine image point.y + point.x) value

/-- Model of `qAbs(value - seedValue)` computed in `int`. -/
def qAbs (value seedValue : Nat) : Nat := ((value : Int) - (seedValue : Int)).natAbs

/-- Model of `const quint8 difference = qAbs(value - seedValue)`. -/
def difference8 (value seedValue : Nat) : Nat := qAbs value seedValue % 256

/-- Model of `const quint8 selectionValue = 255 - (difference * 255 / threshold)`: an `int`
computation converted to `quint8`; the division faults for `threshold = 0`. -/
def selectionValue (difference threshold : Nat) : Except Fault Nat :=
  if threshold = 0 then .error .divByZero
  else .ok (((255 : Int) - ((difference * 255 / threshold : Nat) : Int)) % 256).toNat

/-! ## `floodFill` (floodfill.cpp, lines 58-112) -/

/-- Lines 95-106: the four guarded pushes of the neighbours of `p`; the head of the list is
the top of the `QStack`. -/
def pushNeighbours (referenceImage : QImage) (p : QPoint) (nodes : List QPoint) :
    List QPoint :=
  let nodes := if p.x > 0 then ⟨p.x - 1, p.y⟩ :: nodes else nodes
  let nodes := if p.x < (referenceImage.width : Int) - 1 then ⟨p.x + 1, p.y⟩ :: nodes else nodes
  let nodes := if p.y > 0 then ⟨p.x, p.y - 1⟩ :: nodes else nodes
  if p.y < (referenceImage.height : Int) - 1 then ⟨p.x, p.y + 1⟩ :: nodes else nodes

/-- One iteration of `while (!nodes.isEmpty())` for the popped point `p`. -/
def floodFillStep (referenceImage : QImage) (seedValue threshold : Nat)
    (fillMaskImage : QImage) (p : QPoint) (nodes : List QPoint) :
    Except Fault (QImage × List QPoint) :=
  match getPixel fillMaskImage p with
  | .error e => .error e
  | .ok m =>
    if m > 0 then .ok (fillMaskImage, nodes)
    else
      match getPixel referenceImage p with
      | .error e => .error e
      | .ok value =>
        if difference8 value seedValue ≥ threshold then .ok (fillMaskImage, nodes)
        else
          match selectionValue (difference8 value seedValue) threshold with
          | .error e => .error e
          | .ok sel =>
            match setPixel fillMaskImage p sel with
            | .error e => .error e
            | .ok fillMaskImage => .ok (fillMaskImage, pushNeighbours referenceImage p nodes)

/-- The loop `while (!nodes.isEmpty())` of `floodFill`. -/
def floodFillLoop (referenceImage : QImage) (seedValue threshold : Nat) :
    Nat → QImage → List QPoint → Except Fault QImage
  | _, fillMaskImage, [] => .ok fillMaskImage
  | 0, _, _ :: _ => .error .outOfFuel
  | fuel + 1, fillMaskImage, p :: nodes =>
    match floodFillStep referenceImage seedValue threshold fillMaskImage p nodes with
    | .error e => .error e
    | .ok (fillMaskImage, nodes) =>
      floodFillLoop referenceImage seedValue threshold fuel fillMaskImage nodes

/-- Model of `floodFill(referenceImage, seedPoint, threshold)`. -/
def floodFill (referenceImage : QImage) (seedPoint : QPoint) (threshold : Nat) :
    Except Fault QImage :=
  let fillMaskImage := referenceImage.blank
  if !referenceImage.rect.contains seedPoint then .ok fillMaskImage
  else
    match getPixel referenceImage seedPoint with
    | .error e => .error e
    | .ok seedValue =>
      floodFillLoop referenceImage seedValue threshold
        (4 * (referenceImage.bytesPerLine * referenceImage.height) + 1) fillMaskImage [seedPoint]

/-! ## `floodFillScanLine` (floodfill.cpp, lines 114-200) -/

/-- The left extension `while (true)` of lines 145-161 on row `y`, from column `x1`;
returns the mask and the final `x1`. -/
def scanLineLeft (referenceImage : QImage) (seedValue threshold : Nat) (y : Int) :
    Nat → QImage → Int → Except Fault (QImage × Int)
  | 0, _, _ => .error .outOfFuel
  | fuel + 1, fillMaskImage, x1 =>
    if x1 - 1 < 0 then .ok (fillMaskImage, x1)
    else
      match getPixel fillMaskImage ⟨x1 - 1, y⟩ with
      | .error e => .error e
      | .ok m =>
        if m > 0 then .ok (fillMaskImage, x1)
        else
          match getPixel referenceImage ⟨x1 - 1, y⟩ with
          | .error e => .error e
          | .ok value =>
            if difference8 value seedValue ≥ threshold then .ok (fillMaskImage, x1)
            else
              match selectionValue (difference8 value seedValue) threshold with
              | .error e => .error e
              | .ok sel =>
                match setPixel fillMaskImage ⟨x1 - 1, y⟩ sel with
                | .error e => .error e
                | .ok fillMaskImage =>
                  scanLineLeft referenceImage seedValue threshold y fuel fillMaskImage (x1 - 1)

/-- The right extension `while (true)` of lines 165-181 on row `y`, from column `x2`;
returns the mask and the final `x2`. -/
def scanLineRight (referenceImage : QImage) (seedValue threshold : Nat) (y : Int) :
    Nat → QImage → Int → Except Fault (QImage × Int)
  | 0, _, _ => .error .outOfFuel
  | fuel + 1, fillMaskImage, x2 =>
    if x2 ≥ (referenceImage.width : Int) then .ok (fillMaskImage, x2)
    else
      match getPixel fillMaskImage ⟨x2, y⟩ with
      | .error e => .error e
      | .ok m =>
        if m > 0 then .ok (fillMaskImage, x2)
        else
          match getPixel referenceImage ⟨x2, y⟩ with
          | .error e => .error e
          | .ok value =>
            if difference8 value seedValue ≥ threshold then .ok (fillMaskImage, x2)
            else
              match selectionValue (difference8 value seedValue) threshold with
              | .error e => .error e
              | .ok sel =>
                match setPixel fillMaskImage ⟨x2, y⟩ sel with
                | .error e => .error e
                | .ok fillMaskImage =>
                  scanLineRight referenceImage seedValue threshold y fuel fillMaskImage (x2 + 1)

/-- The skip loop of lines 187-192; the conjuncts are evaluated left to right. -/
def scanLineSkip (referenceImage : QImage) (seedValue threshold : Nat) (fillMaskImage : QImage)
    (span : Span) : Nat → Int → Except Fault Int
  | 0, _ => .error .outOfFuel
  | fuel + 1, x2 =>
    if x2 < span.x2 ∧ x2 < (referenceImage.width : Int) then
      match getPixel fillMaskImage ⟨x2, span.y⟩ with
      | .error e => .error e
      | .ok m =>
        if m > 0 then
          match getPixel referenceImage ⟨x2, span.y⟩ with
          | .error e => .error e
          | .ok value =>
            if qAbs value seedValue ≥ threshold then
              scanLineSkip referenceImage seedValue threshold fillMaskImage span fuel (x2 + 1)
            else .ok x2
        else .ok x2
    else .ok x2

/-- The loop `while (x2 <= span.x2)` of lines 164-194. -/
def scanLineOuter (referenceImage : QImage) (seedValue threshold : Nat) (span : Span) :
    Nat → QImage → List Span → Int → Int → Except Fault (QImage × List Span)
  | 0, _, _, _, _ => .error .outOfFuel
  | fuel + 1, fillMaskImage, spans, x1, x2 =>
    if x2 ≤ span.x2 then
      match scanLineRight referenceImage seedValue threshold span.y
          ((referenceImage.width : Int) - x2).toNat.succ fillMaskImage x2 with
      | .error e => .error e
      | .ok (fillMaskImage, x2) =>
        let spans :=
          if x2 > x1 then
            (⟨x1, x2 - 1, span.y + span.dy, span.dy⟩ : Span) ::
              ⟨x1, x2 - 1, span.y - span.dy, -span.dy⟩ :: spans
          else spans
        match scanLineSkip referenceImage seedValue threshold fillMaskImage span
            (span.x2 - (x2 + 1)).toNat.succ (x2 + 1) with
        | .error e => .error e
        | .ok x2 =>
          scanLineOuter referenceImage seedValue threshold span fuel fillMaskImage spans x2 x2
    else .ok (fillMaskImage, spans)

/-- One iteration of `while (!spans.isEmpty())` for the popped `span`. -/
def floodFillScanLineStep (referenceImage : QImage) (seedValue threshold : Nat)
    (fillMaskImage : QImage) (span : Span) (spans : List Span) :
    Except Fault (QImage × List Span) :=
  if span.y < 0 ∨ span.y ≥ (referenceImage.height : Int) then .ok (fillMaskImage, spans)
  else
    match getPixel fillMaskImage ⟨span.x1, span.y⟩ with
    | .error e => .error e
    | .ok m =>
      match (if m = 0 then
              match getPixel referenceImage ⟨span.x1, span.y⟩ with
              | .error e => .error e
              | .ok value => .ok (decide (qAbs value seedValue < threshold))
             else .ok false : Except Fault Bool) with
      | .error e => .error e
      | .ok extend =>
        match (if extend then
                scanLineLeft referenceImage seedValue threshold span.y span.x1.toNat.succ
                  fillMaskImage span.x1
               else .ok (fillMaskImage, span.x1)) with
        | .error e => .error e
        | .ok (fillMaskImage, x1) =>
          scanLineOuter referenceImage seedValue threshold span
            (span.x2 - span.x1 + 1).toNat.succ fillMaskImage spans x1 span.x1

/-- The loop `while (!spans.isEmpty())` of `floodFillScanLine`. -/
def floodFillScanLineLoop (referenceImage : QImage) (seedValue threshold : Nat) :
    Nat → QImage → List Span → Except Fault QImage
  | _, fillMaskImage, [] => .ok fillMaskImage
  | 0, _, _ :: _ => .error .outOfFuel
  | fuel + 1, fillMaskImage, span :: spans =>
    match floodFillScanLineStep referenceImage seedValue threshold fillMaskImage span spans with
    | .error e => .error e
    | .ok (fillMaskImage, spans) =>
      floodFillScanLineLoop referenceImage seedValue threshold fuel fillMaskImage spans

/-- Model of `floodFillScanLine(referenceImage, seedPoint, threshold)`. -/
def floodFillScanLine (referenceImage : QImage) (seedPoint : QPoint) (threshold : Nat) :
    Except Fault QImage :=
  let fillMaskImage := referenceImage.blank
  if !referenceImage.rect.contains seedPoint then .ok fillMaskImage
  else
    match getPixel referenceImage seedPoint with
    | .error e => .error e
    | .ok seedValue =>
      floodFillScanLineLoop referenceImage seedValue threshold
        (2 * (referenceImage.bytesPerLine * referenceImage.height) + 1) fillMaskImage
        [⟨seedPoint.x, seedPoint.x, seedPoint.y, 1⟩]

/-! ## Tiles (floodfill.cpp, lines 23-36) -/

/-- A size, as `QSize`. -/
structure QSize where
  width : Nat
  height : Nat
  deriving DecidableEq

/-- Model of `using TileId = QPoint`. -/
abbrev TileId := QPoint

/-- Model of `using SeedPointList = QVector<QPoint>`. -/
abbrev SeedPointList := List QPoint

/-- Model of `using SeedSpanList = QVector<Span>`. -/
abbrev SeedSpanList := List Span

/-- Model of `QHash<TileId, SeedPointList>`, as the list of its entries in order of insertion. -/
abbrev TilePropagationInfo := List (TileId × SeedPointList)

/-- Model of `QHash<TileId, SeedSpanList>`, as the list of its entries in order of insertion. -/
abbrev TilePropagationInfoScanLine := List (TileId × SeedSpanList)

/-- Model of `static constexpr QSize tileSize {64, 64}`. -/
def tileSize : QSize := ⟨64, 64⟩

/-- Model of `static constexpr QSize tileSizeScanLine {64, 64}`. -/
def tileSizeScanLine : QSize := ⟨64, 64⟩

/-- One cell of the working buffer of a tile worker. -/
structure TileData where
  referencePixel : Nat
  fillMaskPixel : Nat
  deriving DecidableEq

/-- Model of `hash[key].append(values)`: `operator[]` inserts an empty list for a new key. -/
def hashAppend {α : Type} (key : TileId) (values : List α) :
    List (TileId × List α) → List (TileId × List α)
  | [] => [(key, values)]
  | (k, l) :: rest =>
    if k = key then (k, l ++ values) :: rest else (k, l) :: hashAppend key values rest

/-- The local array `TileData tileData[tileSize.width() * tileSize.height()]`. -/
def newTileData (ts : QSize) : List TileData :=
  List.replicate (ts.width * ts.height) ⟨0, 0⟩

/-- Reading `tileData[i]`. -/
def tileAt (tileData : List TileData) (i : Int) : Except Fault TileData :=
  if 0 ≤ i ∧ i < tileData.length then .ok (tileData.getD i.toNat ⟨0, 0⟩)
  else .error .outOfBounds

/-- Assigning `tileData[i].referencePixel = v`. -/
def tileSetReference (tileData : List TileData) (i : Int) (v : Nat) :
    Except Fault (List TileData) :=
  if 0 ≤ i ∧ i < tileData.length then
    .ok (tileData.set i.toNat ⟨v, (tileData.getD i.toNat ⟨0, 0⟩).fillMaskPixel⟩)
  else .error .outOfBounds

/-- Assigning `tileData[i].fillMaskPixel = v`. -/
def tileSetFillMask (tileData : List TileData) (i : Int) (v : Nat) :
    Except Fault (List TileData) :=
  if 0 ≤ i ∧ i < tileData.length then
    .ok (tileData.set i.toNat ⟨(tileData.getD i.toNat ⟨0, 0⟩).referencePixel, v⟩)
  else .error .outOfBounds

/-- The pairs `(y, x)` visited by the nested loops
`for (quint32 y = tileRect.top(); y <= tileRect.bottom(); ++y)` /
`for (quint32 x = 0; x < tileSize.width(); ++x)`, in order (for `0 ≤ top ≤ bottom`). -/
def tileCells (ts : QSize) (tileRect : QRect) : List (Int × Int) :=
  (List.range (tileRect.bottom + 1 - tileRect.top).toNat).flatMap fun (r : Nat) =>
    (List.range ts.width).map fun (x : Nat) => (tileRect.top + (r : Int), (x : Int))

/-- The first copy loop (lines 221-227): `referenceImage.scanLine(y) + tileRect.left()`,
advanced `x` times, is the address of the point `(tileRect.left() + x, y)`. -/
def copyReference (ts : QSize) (referenceImage : QImage) (tileRect : QRect)
    (tileData : List TileData) : Except Fault (List TileData) :=
  (tileCells ts tileRect).foldlM (fun tileData c =>
    match getPixel referenceImage ⟨tileRect.left + c.2, c.1⟩ with
    | .error e => .error e
    | .ok v => tileSetReference tileData ((c.1 - tileRect.top) * ts.width + c.2) v) tileData

/-- The second copy loop: mask bytes into the working buffer (lines 228-234). -/
def copyFillMask (ts : QSize) (fillMaskImage : QImage) (tileRect : QRect)
    (tileData : List TileData) : Except Fault (List TileData) :=
  (tileCells ts tileRect).foldlM (fun tileData c =>
    match getPixel fillMaskImage ⟨tileRect.left + c.2, c.1⟩ with
    | .error e => .error e
    | .ok v => tileSetFillMask tileData ((c.1 - tileRect.top) * ts.width + c.2) v) tileData

/-- The write-back loop: working buffer into the shared mask (lines 291-297). -/
def writeBack (ts : QSize) (fillMaskImage : QImage) (tileRect : QRect)
    (tileData : List TileData) : Except Fault QImage :=
  (tileCells ts tileRect).foldlM (fun fillMaskImage c =>
    match tileAt tileData ((c.1 - tileRect.top) * ts.width + c.2) with
    | .error e => .error e
    | .ok t => setPixel fillMaskImage ⟨tileRect.left + c.2, c.1⟩ t.fillMaskPixel)
    fillMaskImage

/-- The positions `(x, y)` that the two copy loops (lines 221-234 and 414-427) read, of the
reference image and of the shared mask, in order: `(tileRect.left() + x, y)` for each
visited cell. -/
def copyInPositions (ts : QSize) (tileRect : QRect) : List QPoint :=
  (tileCells ts tileRect).map fun c => ⟨tileRect.left + c.2, c.1⟩

/-- The positions `(x, y)`, column and row of the shared mask, that the write-back loop
stores to, in order: `(tileRect.left() + x, y)` for each visited cell. -/
def writeBackPositions (ts : QSize) (tileRect : QRect) : List QPoint :=
  (tileCells ts tileRect).map fun c => ⟨tileRect.left + c.2, c.1⟩

/-- Model of `QRect(id.x * w, id.y * h, w, h).intersected(globalRect)`: the rectangle the
orchestrators pass as `tileRect`. -/
def tileRectOf (ts : QSize) (globalRect : QRect) (tileId : TileId) : QRect :=
  (QRect.mk4 (tileId.x * ts.width) (tileId.y * ts.height) ts.width ts.height).intersected
    globalRect

/-- The grid size `ceil(width / tileWidth), ceil(height / tileHeight)`. -/
def tileGridSizeOf (ts : QSize) (globalRect : QRect) : QSize :=
  ⟨((globalRect.right - globalRect.left + 1).toNat + ts.width - 1) / ts.width,
   ((globalRect.bottom - globalRect.top + 1).toNat + ts.height - 1) / ts.height⟩

/-- The merge of lines 369-389: the entries of every result, in order, are appended to the
new queue unless the key is outside the grid or the list is empty. -/
def mergePropagation {α : Type} (tileGridSize : QSize) (results : List (List (TileId × List α))) :
    List (TileId × List α) :=
  results.foldl (fun queue result =>
    result.foldl (fun queue entry =>
      if entry.1.x < 0 ∨ entry.1.x ≥ (tileGridSize.width : Int) ∨
          entry.1.y < 0 ∨ entry.1.y ≥ (tileGridSize.height : Int) then queue
      else if entry.2.isEmpty then queue
      else hashAppend entry.1 entry.2 queue) queue) []

/-- The tasks of one round (lines 339-364 and 572-597, the same code for both orchestrators)
in the execution in which they run one after another: one call of the tile worker `tile` for
every entry of the queue, each finished before the next one starts, in the queue's iteration
order on the shared mask; returns the mask and the results of the tasks, in the same order.
The source starts the tasks with `QtConcurrent::run`, so they may also overlap; the
executions with overlapping tasks are those of `runEvents`. -/
def runRound {α : Type}
    (tile : QImage → TileId → List α → Except Fault (QImage × List (TileId × List α))) :
    QImage → List (TileId × List α) → Except Fault (QImage × List (List (TileId × List α)))
  | fillMaskImage, [] => .ok (fillMaskImage, [])
  | fillMaskImage, (tileId, seeds) :: rest =>
    match tile fillMaskImage tileId seeds with
    | .error e => .error e
    | .ok (fillMaskImage, result) =>
      match runRound tile fillMaskImage rest with
      | .error e => .error e
      | .ok (fillMaskImage, results) => .ok (fillMaskImage, result :: results)

/-- The loop `while (!tilePropagationInfo.isEmpty())` (lines 334-392 and 567-625): a round
of tasks, run one after another as in `runRound`, then the merge of their results into the
queue of the next round. -/
def runRounds {α : Type}
    (tile : QImage → TileId → List α → Except Fault (QImage × List (TileId × List α)))
    (tileGridSize : QSize) : Nat → QImage → List (TileId × List α) → Except Fault QImage
  | _, fillMaskImage, [] => .ok fillMaskImage
  | 0, _, _ :: _ => .error .outOfFuel
  | fuel + 1, fillMaskImage, entry :: queue =>
    match runRound tile fillMaskImage (entry :: queue) with
    | .error e => .error e
    | .ok (fillMaskImage, results) =>
      runRounds tile tileGridSize fuel fillMaskImage (mergePropagation tileGridSize results)

/-! ## `floodFillTile` and `floodFillMT` (floodfill.cpp, lines 202-399) -/

/-- One of the four blocks of lines 261-288 for the neighbour `q` of the popped point:
nothing across an edge of `globalRect` (`inGlobal` false), a push inside the tile
(`inTile` true), and otherwise an entry filed for the neighbouring tile `key`. -/
def tileNeighbour (inGlobal inTile : Bool) (q : QPoint) (key : TileId)
    (state : List QPoint × TilePropagationInfo) : List QPoint × TilePropagationInfo :=
  if inGlobal then
    if inTile then (q :: state.1, state.2) else (state.1, hashAppend key [q] state.2)
  else state

/-- One iteration of `while (!nodes.isEmpty())` of `floodFillTile` for the popped `p`. -/
def floodFillTileStep (ts : QSize) (originalSeedValue : Nat) (currentTileId : TileId)
    (globalRect tileRect : QRect) (threshold : Nat) (tileData : List TileData)
    (tilePropagationInfo : TilePropagationInfo) (p : QPoint) (nodes : List QPoint) :
    Except Fault (List TileData × TilePropagationInfo × List QPoint) :=
  match tileAt tileData ((p.y - tileRect.top) * ts.width + (p.x - tileRect.left)) with
  | .error e => .error e
  | .ok tilePixel =>
    if tilePixel.fillMaskPixel > 0 then .ok (tileData, tilePropagationInfo, nodes)
    else if difference8 tilePixel.referencePixel originalSeedValue ≥ threshold then
      .ok (tileData, tilePropagationInfo, nodes)
    else
      match selectionValue (difference8 tilePixel.referencePixel originalSeedValue) threshold with
      | .error e => .error e
      | .ok sel =>
        match tileSetFillMask tileData
            ((p.y - tileRect.top) * ts.width + (p.x - tileRect.left)) sel with
        | .error e => .error e
        | .ok tileData =>
          let state := tileNeighbour (decide (p.y > globalRect.top)) (decide (p.y > tileRect.top))
            ⟨p.x, p.y - 1⟩ ⟨currentTileId.x, currentTileId.y - 1⟩ (nodes, tilePropagationInfo)
          let state := tileNeighbour (decide (p.y < globalRect.bottom))
            (decide (p.y < tileRect.bottom)) ⟨p.x, p.y + 1⟩
            ⟨currentTileId.x, currentTileId.y + 1⟩ state
          let state := tileNeighbour (decide (p.x > globalRect.left))
            (decide (p.x > tileRect.left)) ⟨p.x - 1, p.y⟩
            ⟨currentTileId.x - 1, currentTileId.y⟩ state
          let state := tileNeighbour (decide (p.x < globalRect.right))
            (decide (p.x < tileRect.right)) ⟨p.x + 1, p.y⟩
            ⟨currentTileId.x + 1, currentTileId.y⟩ state
          .ok (tileData, state.2, state.1)

/-- The loop `while (!nodes.isEmpty())` of `floodFillTile`. -/
def floodFillTileLoop (ts : QSize) (originalSeedValue : Nat) (currentTileId : TileId)
    (globalRect tileRect : QRect) (threshold : Nat) :
    Nat → List TileData → TilePropagationInfo → List QPoint →
      Except Fault (List TileData × TilePropagationInfo)
  | _, tileData, info, [] => .ok (tileData, info)
  | 0, _, _, _ :: _ => .error .outOfFuel
  | fuel + 1, tileData, info, p :: nodes =>
    match floodFillTileStep ts originalSeedValue currentTileId globalRect tileRect threshold
        tileData info p nodes with
    | .error e => .error e
    | .ok (tileData, info, nodes) =>
      floodFillTileLoop ts originalSeedValue currentTileId globalRect tileRect threshold fuel
        tileData info nodes

/-- Model of `floodFillTile`, with the tile size `ts` in place of the constant `tileSize`; the result
is the updated shared mask together with the returned propagation table.  (The parameter
`tileGridSize` of the source is not used by it.) -/
def floodFillTile (ts : QSize) (referenceImage fillMaskImage : QImage)
    (seedPoints : SeedPointList) (originalSeedValue : Nat) (currentTileId : TileId)
    (globalRect tileRect : QRect) (threshold : Nat) :
    Except Fault (QImage × TilePropagationInfo) :=
  let tilePropagationInfo : TilePropagationInfo :=
    [(⟨currentTileId.x - 1, currentTileId.y⟩, []), (⟨currentTileId.x + 1, currentTileId.y⟩, []),
     (⟨currentTileId.x, currentTileId.y - 1⟩, []), (⟨currentTileId.x, currentTileId.y + 1⟩, [])]
  match copyReference ts referenceImage tileRect (newTileData ts) with
  | .error e => .error e
  | .ok tileData =>
    match copyFillMask ts fillMaskImage tileRect tileData with
    | .error e => .error e
    | .ok tileData =>
      match floodFillTileLoop ts originalSeedValue currentTileId globalRect tileRect threshold
          (seedPoints.length + 4 * (ts.width * ts.height) + 1) tileData tilePropagationInfo
          seedPoints.reverse with
      | .error e => .error e
      | .ok (tileData, tilePropagationInfo) =>
        match writeBack ts fillMaskImage tileRect tileData with
        | .error e => .error e
        | .ok fillMaskImage => .ok (fillMaskImage, tilePropagationInfo)

/-- Model of `floodFillMT` with the tile size as a parameter, in the execution in which the
tasks of every round run one after another. -/
def floodFillMTWith (ts : QSize) (referenceImage : QImage) (seedPoint : QPoint)
    (threshold : Nat) : Except Fault QImage :=
  let fillMaskImage := referenceImage.blank
  if !referenceImage.rect.contains seedPoint then .ok fillMaskImage
  else
    match getPixel referenceImage seedPoint with
    | .error e => .error e
    | .ok originalSeedValue =>
      let globalRect := referenceImage.rect
      let tileGridSize := tileGridSizeOf ts globalRect
      let seedPointTileId : TileId :=
        ⟨seedPoint.x.tdiv ts.width, seedPoint.y.tdiv ts.height⟩
      runRounds
        (fun fillMaskImage tileId seedPoints =>
          floodFillTile ts referenceImage fillMaskImage seedPoints originalSeedValue tileId
            globalRect (tileRectOf ts globalRect tileId) threshold)
        tileGridSize (referenceImage.bytesPerLine * referenceImage.height + 1) fillMaskImage
        [(seedPointTileId, [seedPoint])]

/-- Model of `floodFillMT(referenceImage, seedPoint, threshold)` in the execution in which
the tasks of every round run one after another, in the order of the lists; the executions
with overlapping tasks are those of `floodFillMTEvents`. -/
def floodFillMT (referenceImage : QImage) (seedPoint : QPoint) (threshold : Nat) :
    Except Fault QImage :=
  floodFillMTWith tileSize referenceImage seedPoint threshold

/-! ## `floodFillTileScanLine` and `floodFillScanLineMT` (floodfill.cpp, lines 401-632) -/

/-- The left extension `while (true)` of lines 447-468 on row `span.y`. -/
def tileScanLeft (ts : QSize) (originalSeedValue : Nat) (currentTileId : TileId)
    (globalRect tileRect : QRect) (threshold : Nat) (span : Span) :
    Nat → List TileData → TilePropagationInfoScanLine → Int →
      Except Fault (List TileData × TilePropagationInfoScanLine × Int)
  | 0, _, _, _ => .error .outOfFuel
  | fuel + 1, tileData, info, x1 =>
    let i : Int := (span.y - tileRect.top) * ts.width + (x1 - 1 - tileRect.left)
    if x1 - 1 < globalRect.left then .ok (tileData, info, x1)
    else if x1 - 1 < tileRect.left then
      .ok (tileData, hashAppend ⟨currentTileId.x - 1, currentTileId.y⟩
        [⟨x1 - 1, x1 - 1, span.y, span.dy⟩] info, x1)
    else
      match tileAt tileData i with
      | .error e => .error e
      | .ok tilePixel =>
        if tilePixel.fillMaskPixel > 0 then .ok (tileData, info, x1)
        else if difference8 tilePixel.referencePixel originalSeedValue ≥ threshold then
          .ok (tileData, info, x1)
        else
          match selectionValue (difference8 tilePixel.referencePixel originalSeedValue)
              threshold with
          | .error e => .error e
          | .ok sel =>
            match tileSetFillMask tileData i sel with
            | .error e => .error e
            | .ok tileData =>
              tileScanLeft ts originalSeedValue currentTileId globalRect tileRect threshold span
                fuel tileData info (x1 - 1)

/-- The right extension `while (true)` of lines 472-493 on row `span.y`. -/
def tileScanRight (ts : QSize) (originalSeedValue : Nat) (currentTileId : TileId)
    (globalRect tileRect : QRect) (threshold : Nat) (span : Span) :
    Nat → List TileData → TilePropagationInfoScanLine → Int →
      Except Fault (List TileData × TilePropagationInfoScanLine × Int)
  | 0, _, _, _ => .error .outOfFuel
  | fuel + 1, tileData, info, x2 =>
    let i : Int := (span.y - tileRect.top) * ts.width + (x2 - tileRect.left)
    if x2 > globalRect.right then .ok (tileData, info, x2)
    else if x2 > tileRect.right then
      .ok (tileData, hashAppend ⟨currentTileId.x + 1, currentTileId.y⟩
        [⟨x2, x2, span.y, span.dy⟩] info, x2)
    else
      match tileAt tileData i with
      | .error e => .error e
      | .ok tilePixel =>
        if tilePixel.fillMaskPixel > 0 then .ok (tileData, info, x2)
        else if difference8 tilePixel.referencePixel originalSeedValue ≥ threshold then
          .ok (tileData, info, x2)
        else
          match selectionValue (difference8 tilePixel.referencePixel originalSeedValue)
              threshold with
          | .error e => .error e
          | .ok sel =>
            match tileSetFillMask tileData i sel with
            | .error e => .error e
            | .ok tileData =>
              tileScanRight ts originalSeedValue currentTileId globalRect tileRect threshold span
                fuel tileData info (x2 + 1)

/-- The skip loop of lines 513-519; the conjuncts are evaluated left to right. -/
def tileScanSkip (ts : QSize) (originalSeedValue : Nat) (globalRect tileRect : QRect)
    (threshold : Nat) (tileData : List TileData) (span : Span) : Nat → Int → Except Fault Int
  | 0, _ => .error .outOfFuel
  | fuel + 1, x2 =>
    if x2 < span.x2 ∧ x2 ≤ globalRect.right ∧ x2 ≤ tileRect.right then
      match tileAt tileData ((span.y - tileRect.top) * ts.width + (x2 - tileRect.left)) with
      | .error e => .error e
      | .ok tilePixel =>
        if tilePixel.fillMaskPixel > 0 ∧
            qAbs tilePixel.referencePixel originalSeedValue ≥ threshold then
          tileScanSkip ts originalSeedValue globalRect tileRect threshold tileData span fuel
            (x2 + 1)
        else .ok x2
    else .ok x2

/-- Lines 494-511: the two child spans of the run `[x1, x2 - 1]`, each pushed on the local
stack or filed for the tile above or below. -/
def tileScanChildren (currentTileId : TileId) (tileRect : QRect) (span : Span) (x1 x2 : Int)
    (info : TilePropagationInfoScanLine) (spans : List Span) :
    TilePropagationInfoScanLine × List Span :=
  let spanY1 := span.y - span.dy
  let spanY2 := span.y + span.dy
  let (info, spans) : TilePropagationInfoScanLine × List Span :=
    if spanY1 < tileRect.top then
      (hashAppend ⟨currentTileId.x, currentTileId.y - 1⟩ [⟨x1, x2 - 1, spanY1, -span.dy⟩] info,
        spans)
    else if spanY1 > tileRect.bottom then
      (hashAppend ⟨currentTileId.x, currentTileId.y + 1⟩ [⟨x1, x2 - 1, spanY1, -span.dy⟩] info,
        spans)
    else (info, ⟨x1, x2 - 1, spanY1, -span.dy⟩ :: spans)
  if spanY2 < tileRect.top then
    (hashAppend ⟨currentTileId.x, currentTileId.y - 1⟩ [⟨x1, x2 - 1, spanY2, span.dy⟩] info,
      spans)
  else if spanY2 > tileRect.bottom then
    (hashAppend ⟨currentTileId.x, currentTileId.y + 1⟩ [⟨x1, x2 - 1, spanY2, span.dy⟩] info,
      spans)
  else (info, ⟨x1, x2 - 1, spanY2, span.dy⟩ :: spans)

/-- The loop `while (x2 <= span.x2)` of lines 471-521. -/
def tileScanOuter (ts : QSize) (originalSeedValue : Nat) (currentTileId : TileId)
    (globalRect tileRect : QRect) (threshold : Nat) (span : Span) :
    Nat → List TileData → TilePropagationInfoScanLine → List Span → Int → Int →
      Except Fault (List TileData × TilePropagationInfoScanLine × List Span)
  | 0, _, _, _, _, _ => .error .outOfFuel
  | fuel + 1, tileData, info, spans, x1, x2 =>
    if x2 ≤ span.x2 then
      match tileScanRight ts originalSeedValue currentTileId globalRect tileRect threshold span
          (tileRect.right + 1 - x2).toNat.succ tileData info x2 with
      | .error e => .error e
      | .ok (tileData, info, x2) =>
        let (info, spans) : TilePropagationInfoScanLine × List Span :=
          if x2 > x1 then tileScanChildren currentTileId tileRect span x1 x2 info spans
          else (info, spans)
        match tileScanSkip ts originalSeedValue globalRect tileRect threshold tileData span
            (span.x2 - (x2 + 1)).toNat.succ (x2 + 1) with
        | .error e => .error e
        | .ok x2 =>
          tileScanOuter ts originalSeedValue currentTileId globalRect tileRect threshold span
            fuel tileData info spans x2 x2
    else .ok (tileData, info, spans)

/-- One iteration of `while (!spans.isEmpty())` of `floodFillTileScanLine`. -/
def floodFillTileScanLineStep (ts : QSize) (originalSeedValue : Nat) (currentTileId : TileId)
    (globalRect tileRect : QRect) (threshold : Nat) (tileData : List TileData)
    (info : TilePropagationInfoScanLine) (span : Span) (spans : List Span) :
    Except Fault (List TileData × TilePropagationInfoScanLine × List Span) :=
  if span.y < globalRect.top ∨ span.y > globalRect.bottom then .ok (tileData, info, spans)
  else
    match tileAt tileData
        ((span.y - tileRect.top) * ts.width + (span.x1 - tileRect.left)) with
    | .error e => .error e
    | .ok tilePixel =>
      match (if tilePixel.fillMaskPixel = 0 ∧
                qAbs tilePixel.referencePixel originalSeedValue < threshold then
              tileScanLeft ts originalSeedValue currentTileId globalRect tileRect threshold span
                (span.x1 - tileRect.left).toNat.succ.succ tileData info span.x1
             else .ok (tileData, info, span.x1)) with
      | .error e => .error e
      | .ok (tileData, info, x1) =>
        tileScanOuter ts originalSeedValue currentTileId globalRect tileRect threshold span
          (span.x2 - span.x1 + 1).toNat.succ tileData info spans x1 span.x1

/-- The loop `while (!spans.isEmpty())` of `floodFillTileScanLine`. -/
def floodFillTileScanLineLoop (ts : QSize) (originalSeedValue : Nat) (currentTileId : TileId)
    (globalRect tileRect : QRect) (threshold : Nat) :
    Nat → List TileData → TilePropagationInfoScanLine → List Span →
      Except Fault (List TileData × TilePropagationInfoScanLine)
  | _, tileData, info, [] => .ok (tileData, info)
  | 0, _, _, _ :: _ => .error .outOfFuel
  | fuel + 1, tileData, info, span :: spans =>
    match floodFillTileScanLineStep ts originalSeedValue currentTileId globalRect tileRect
        threshold tileData info span spans with
    | .error e => .error e
    | .ok (tileData, info, spans) =>
      floodFillTileScanLineLoop ts originalSeedValue currentTileId globalRect tileRect threshold
        fuel tileData info spans

/-- Model of `floodFillTileScanLine`, with the tile size `ts` in place of the constant
`tileSizeScanLine`; the result is the updated shared mask together with the returned
propagation table. -/
def floodFillTileScanLine (ts : QSize) (referenceImage fillMaskImage : QImage)
    (seedSpans : SeedSpanList) (originalSeedValue : Nat) (currentTileId : TileId)
    (globalRect tileRect : QRect) (threshold : Nat) :
    Except Fault (QImage × TilePropagationInfoScanLine) :=
  match copyReference ts referenceImage tileRect (newTileData ts) with
  | .error e => .error e
  | .ok tileData =>
    match copyFillMask ts fillMaskImage tileRect tileData with
    | .error e => .error e
    | .ok tileData =>
      match floodFillTileScanLineLoop ts originalSeedValue currentTileId globalRect tileRect
          threshold (seedSpans.length + 2 * (ts.width * ts.height) + 1) tileData []
          seedSpans.reverse with
      | .error e => .error e
      | .ok (tileData, tilePropagationInfo) =>
        match writeBack ts fillMaskImage tileRect tileData with
        | .error e => .error e
        | .ok fillMaskImage => .ok (fillMaskImage, tilePropagationInfo)

/-- Model of `floodFillScanLineMT` with the tile size as a parameter, in the execution in
which the tasks of every round run one after another. -/
def floodFillScanLineMTWith (ts : QSize) (referenceImage : QImage) (seedPoint : QPoint)
    (threshold : Nat) : Except Fault QImage :=
  let fillMaskImage := referenceImage.blank
  if !referenceImage.rect.contains seedPoint then .ok fillMaskImage
  else
    match getPixel referenceImage seedPoint with
    | .error e => .error e
    | .ok originalSeedValue =>
      let globalRect := referenceImage.rect
      let tileGridSize := tileGridSizeOf ts globalRect
      let seedPointTileId : TileId :=
        ⟨seedPoint.x.tdiv ts.width, seedPoint.y.tdiv ts.height⟩
      runRounds
        (fun fillMaskImage tileId seedSpans =>
          floodFillTileScanLine ts referenceImage fillMaskImage seedSpans originalSeedValue
            tileId globalRect (tileRectOf ts globalRect tileId) threshold)
        tileGridSize (referenceImage.bytesPerLine * referenceImage.height + 1) fillMaskImage
        [(seedPointTileId, [⟨seedPoint.x, seedPoint.x, seedPoint.y, 1⟩])]

/-- Model of `floodFillScanLineMT(referenceImage, seedPoint, threshold)` in the execution in
which the tasks of every round run one after another, in the order of the lists. -/
def floodFillScanLineMT (referenceImage : QImage) (seedPoint : QPoint) (threshold : Nat) :
    Except Fault QImage :=
  floodFillScanLineMTWith tileSizeScanLine referenceImage seedPoint threshold

/-! ## The orders that the source leaves open

`QHash` iterates in an unspecified order: the order in which a round creates its tasks
(lines 339-364 and 572-597), the order in which the merge walks the entries of a returned
table, and with them the order in which the seeds of a tile are appended. -/

/-- The iteration orders of a run of an orchestrator: for the round with `n` rounds of the
budget left, how the queue is walked when the tasks are created, in which order the results
of the tasks are merged, and how the entries of one result are walked. -/
structure Schedule (α : Type) where
  queueOrder : Nat → List (TileId × List α) → List (TileId × List α)
  resultOrder : Nat → List (List (TileId × List α)) → List (List (TileId × List α))
  entryOrder : Nat → List (TileId × List α) → List (TileId × List α)

/-- The schedule of `runRounds`: every table is walked in the order of its list. -/
def Schedule.listOrder (α : Type) : Schedule α :=
  ⟨fun _ l => l, fun _ l => l, fun _ l => l⟩

/-- The schedule that walks every table backwards. -/
def Schedule.backwards (α : Type) : Schedule α :=
  ⟨fun _ l => l.reverse, fun _ l => l.reverse, fun _ l => l.reverse⟩

/-- The loop `while (!tilePropagationInfo.isEmpty())` under a schedule: `runRounds` with the
queue, the results and the entries of each result walked in the orders of the schedule. The
tasks of a round run one after another, as in `runRound`: a schedule fixes the order of
whole tasks and no overlap of them. -/
def runRoundsOrd {α : Type} (sched : Schedule α)
    (tile : QImage → TileId → List α → Except Fault (QImage × List (TileId × List α)))
    (tileGridSize : QSize) : Nat → QImage → List (TileId × List α) → Except Fault QImage
  | _, fillMaskImage, [] => .ok fillMaskImage
  | 0, _, _ :: _ => .error .outOfFuel
  | fuel + 1, fillMaskImage, entry :: queue =>
    match runRound tile fillMaskImage (sched.queueOrder fuel (entry :: queue)) with
    | .error e => .error e
    | .ok (fillMaskImage, results) =>
      runRoundsOrd sched tile tileGridSize fuel fillMaskImage
        (mergePropagation tileGridSize
          ((sched.resultOrder fuel results).map (sched.entryOrder fuel)))

/-- Model of `floodFillMT` under a schedule, with the tile size as a parameter. -/
def floodFillMTOrd (sched : Schedule QPoint) (ts : QSize) (referenceImage : QImage)
    (seedPoint : QPoint) (threshold : Nat) : Except Fault QImage :=
  let fillMaskImage := referenceImage.blank
  if !referenceImage.rect.contains seedPoint then .ok fillMaskImage
  else
    match getPixel referenceImage seedPoint with
    | .error e => .error e
    | .ok originalSeedValue =>
      let globalRect := referenceImage.rect
      let tileGridSize := tileGridSizeOf ts globalRect
      let seedPointTileId : TileId :=
        ⟨seedPoint.x.tdiv ts.width, seedPoint.y.tdiv ts.height⟩
      runRoundsOrd sched
        (fun fillMaskImage tileId seedPoints =>
          floodFillTile ts referenceImage fillMaskImage seedPoints originalSeedValue tileId
            globalRect (tileRectOf ts globalRect tileId) threshold)
        tileGridSize (referenceImage.bytesPerLine * referenceImage.height + 1) fillMaskImage
        [(seedPointTileId, [seedPoint])]

/-- Model of `floodFillScanLineMT` under a schedule, with the tile size as a parameter. -/
def floodFillScanLineMTOrd (sched : Schedule Span) (ts : QSize) (referenceImage : QImage)
    (seedPoint : QPoint) (threshold : Nat) : Except Fault QImage :=
  let fillMaskImage := referenceImage.blank
  if !referenceImage.rect.contains seedPoint then .ok fillMaskImage
  else
    match getPixel referenceImage seedPoint with
    | .error e => .error e
    | .ok originalSeedValue =>
      let globalRect := referenceImage.rect
      let tileGridSize := tileGridSizeOf ts globalRect
      let seedPointTileId : TileId :=
        ⟨seedPoint.x.tdiv ts.width, seedPoint.y.tdiv ts.height⟩
      runRoundsOrd sched
        (fun fillMaskImage tileId seedSpans =>
          floodFillTileScanLine ts referenceImage fillMaskImage seedSpans originalSeedValue
            tileId globalRect (tileRectOf ts globalRect tileId) threshold)
        tileGridSize (referenceImage.bytesPerLine * referenceImage.height + 1) fillMaskImage
        [(seedPointTileId, [⟨seedPoint.x, seedPoint.x, seedPoint.y, 1⟩])]

end FloodFill

namespace FloodFill

/-! ## Vocabulary of the statements -/

/-- The point lies inside `image.rect()`. -/
def QImage.inImage (img : QImage) (p : QPoint) : Prop :=
  0 ≤ p.x ∧ p.x < (img.width : Int) ∧ 0 ≤ p.y ∧ p.y < (img.height : Int)

instance (img : QImage) (p : QPoint) : Decidable (img.inImage p) := by
  unfold QImage.inImage; exact inferInstance

/-- The offset `scanLine(p.y) + p.x` of a point in the byte buffer. -/
def QImage.offset (img : QImage) (p : QPoint) : Int := scanLine img p.y + p.x

/-- The byte of the buffer at the offset of `p` (`0` outside the buffer). -/
def QImage.pix (img : QImage) (p : QPoint) : Nat := img.bits.getD (img.offset p).toNat 0

/-- The image after storing `v` at the offset of `p`. -/
def QImage.mark (img : QImage) (p : QPoint) (v : Nat) : QImage :=
  { img with bits := img.bits.set (img.offset p).toNat v }

/-- The number of zero bytes of the buffer. -/
def QImage.zeros (img : QImage) : Nat := img.bits.count 0

/-- The mask has the geometry of the reference image and a full buffer. -/
def SameGeometry (referenceImage mask : QImage) : Prop :=
  mask.width = referenceImage.width ∧ mask.height = referenceImage.height ∧
    mask.bytesPerLine = referenceImage.bytesPerLine ∧
    mask.bits.length = referenceImage.bytesPerLine * referenceImage.height

/-- The inclusion test `|pixel − seedValue| < threshold`. -/
def includable (referenceImage : QImage) (seedValue threshold : Nat) (p : QPoint) : Prop :=
  qAbs (referenceImage.pix p) seedValue < threshold

instance (referenceImage : QImage) (seedValue threshold : Nat) (p : QPoint) :
    Decidable (includable referenceImage seedValue threshold p) := by
  unfold includable; exact inferInstance

/-- The points `p` and `q` are 4-neighbours. -/
def adjacent (p q : QPoint) : Prop :=
  (q.y = p.y ∧ (q.x = p.x + 1 ∨ q.x = p.x - 1)) ∨ (q.x = p.x ∧ (q.y = p.y + 1 ∨ q.y = p.y - 1))

/-- The point is joined to the seed by a 4-connected path of pixels of the image that all
pass the inclusion test against the seed's value (the seed and the point included). -/
inductive Connected (referenceImage : QImage) (seedPoint : QPoint) (threshold : Nat) :
    QPoint → Prop
  | seed : referenceImage.inImage seedPoint →
      includable referenceImage (referenceImage.pix seedPoint) threshold seedPoint →
      Connected referenceImage seedPoint threshold seedPoint
  | step (p q : QPoint) : Connected referenceImage seedPoint threshold p → adjacent p q →
      referenceImage.inImage q →
      includable referenceImage (referenceImage.pix seedPoint) threshold q →
      Connected referenceImage seedPoint threshold q

/-- The point `p` is joined to the seed by a 4-connected path: a list of pixels of the image
from the seed to `p`, each next to its successor, that all pass the inclusion test, the
seed and `p` included. -/
def Joined (referenceImage : QImage) (seedPoint : QPoint) (threshold : Nat) (p : QPoint) :
    Prop :=
  ∃ path : List QPoint, path.head? = some seedPoint ∧ path.getLast? = some p ∧
    List.Chain' adjacent path ∧
    ∀ q ∈ path, referenceImage.inImage q ∧
      includable referenceImage (referenceImage.pix seedPoint) threshold q

/-- The selection value `255 − (difference × 255 / threshold)` with integer division. -/
def gradedValue (difference threshold : Nat) : Nat := 255 - difference * 255 / threshold

/-- Every non-zero byte of the mask is the graded value of a pixel joined to the seed. -/
def MaskSound (referenceImage : QImage) (seedPoint : QPoint) (threshold : Nat)
    (mask : QImage) : Prop :=
  ∀ i : Nat, mask.bits.getD i 0 ≠ 0 →
    ∃ p, referenceImage.inImage p ∧ (referenceImage.offset p).toNat = i ∧
      Connected referenceImage seedPoint threshold p ∧
      mask.bits.getD i 0 =
        gradedValue (qAbs (referenceImage.pix p) (referenceImage.pix seedPoint)) threshold

/-- The loop invariant of `floodFill`. -/
structure NaiveInv (referenceImage : QImage) (seedPoint : QPoint) (threshold : Nat)
    (mask : QImage) (nodes : List QPoint) : Prop where
  geometry : SameGeometry referenceImage mask
  sound : MaskSound referenceImage seedPoint threshold mask
  nodesIn : ∀ n ∈ nodes, referenceImage.inImage n
  nodesJust : ∀ n ∈ nodes, n = seedPoint ∨
    ∃ p, referenceImage.inImage p ∧ adjacent p n ∧ mask.pix p ≠ 0
  seedDone : mask.pix seedPoint ≠ 0 ∨
    ¬ includable referenceImage (referenceImage.pix seedPoint) threshold seedPoint ∨
    seedPoint ∈ nodes
  closed : ∀ p q, referenceImage.inImage p → mask.pix p ≠ 0 → adjacent p q →
    referenceImage.inImage q →
    mask.pix q ≠ 0 ∨ ¬ includable referenceImage (referenceImage.pix seedPoint) threshold q ∨
      q ∈ nodes

/-- The point is the seed or a 4-neighbour of a marked pixel. -/
def Just (referenceImage mask : QImage) (seedPoint q : QPoint) : Prop :=
  q = seedPoint ∨ ∃ p, referenceImage.inImage p ∧ adjacent p q ∧ mask.pix p ≠ 0

/-- The point lies on one of the spans of the stack. -/
def Covered (spans : List Span) (q : QPoint) : Prop :=
  ∃ s ∈ spans, s.y = q.y ∧ s.x1 ≤ q.x ∧ q.x ≤ s.x2

/-- A span of the stack lies within the columns of the image, has direction `±1`, and each
of its pixels is the seed or lies next to a marked pixel. -/
def SpanOK (referenceImage mask : QImage) (seedPoint : QPoint) (s : Span) : Prop :=
  0 ≤ s.x1 ∧ s.x1 ≤ s.x2 ∧ s.x2 < (referenceImage.width : Int) ∧ (s.dy = 1 ∨ s.dy = -1) ∧
    ∀ x, s.x1 ≤ x → x ≤ s.x2 → 0 ≤ s.y → s.y < (referenceImage.height : Int) →
      Just referenceImage mask seedPoint ⟨x, s.y⟩

/-- The invariant of the scan-line fill, up to a set `E` of points that the span being
processed still has to deal with. -/
structure ScanCore (referenceImage : QImage) (seedPoint : QPoint) (threshold : Nat)
    (mask : QImage) (spans : List Span) (E : QPoint → Prop) : Prop where
  geometry : SameGeometry referenceImage mask
  sound : MaskSound referenceImage seedPoint threshold mask
  spansOK : ∀ s ∈ spans, SpanOK referenceImage mask seedPoint s
  front : ∀ q, referenceImage.inImage q → Just referenceImage mask seedPoint q →
    mask.pix q ≠ 0 ∨ ¬ includable referenceImage (referenceImage.pix seedPoint) threshold q ∨
      Covered spans q ∨ E q

/-- The pending points of a span `s` under processing: on the rows above and below, the
columns `a ≤ x < b` of the current run; on its own row, the columns `c .. s.x2` and those
accepted by `extra`. -/
def RowExc (s : Span) (a b c : Int) (extra : Int → Prop) (q : QPoint) : Prop :=
  (q.y = s.y ∧ ((c ≤ q.x ∧ q.x ≤ s.x2) ∨ extra q.x)) ∨
    ((q.y = s.y + 1 ∨ q.y = s.y - 1) ∧ a ≤ q.x ∧ q.x < b)

/-- The pixel left of column `a` on row `y`, if it is in the image, is marked or excluded,
unless the pixel at column `a` itself is marked or excluded. -/
def LeftOK (referenceImage mask : QImage) (seedValue threshold : Nat) (y a : Int) : Prop :=
  referenceImage.inImage ⟨a - 1, y⟩ →
    mask.pix ⟨a - 1, y⟩ ≠ 0 ∨ ¬ includable referenceImage seedValue threshold ⟨a - 1, y⟩ ∨
      mask.pix ⟨a, y⟩ ≠ 0 ∨ ¬ includable referenceImage seedValue threshold ⟨a, y⟩

/-- The facts about the popped span that hold while it is processed. -/
structure SpanCtx (referenceImage : QImage) (threshold : Nat) (s : Span) : Prop where
  wf : referenceImage.WF
  ht : threshold ≤ 255
  y0 : 0 ≤ s.y
  y1 : s.y < (referenceImage.height : Int)
  x0 : 0 ≤ s.x1
  x12 : s.x1 ≤ s.x2
  x2w : s.x2 < (referenceImage.width : Int)
  dy : s.dy = 1 ∨ s.dy = -1

/-- The invariant of the right extension at column `x2`, for a run that starts at `x1`. -/
structure RightInv (referenceImage : QImage) (seedPoint : QPoint) (threshold : Nat)
    (s : Span) (spans : List Span) (x1 : Int) (mask : QImage) (x2 : Int) : Prop where
  core : ScanCore referenceImage seedPoint threshold mask spans
    (RowExc s x1 x2 x2 (fun x => x = x2))
  x1_nonneg : 0 ≤ x1
  le : x1 ≤ x2
  le_w : x2 ≤ (referenceImage.width : Int)
  pend : ∀ x, x1 ≤ x → x < x2 → mask.pix ⟨x, s.y⟩ ≠ 0
  conn : x2 < (referenceImage.width : Int) →
    includable referenceImage (referenceImage.pix seedPoint) threshold ⟨x2, s.y⟩ →
    Connected referenceImage seedPoint threshold ⟨x2, s.y⟩
  leftOK : LeftOK referenceImage mask (referenceImage.pix seedPoint) threshold s.y x1

/-- What the right extension establishes when it stops at column `x2'`. -/
structure RightPost (referenceImage : QImage) (seedPoint : QPoint) (threshold : Nat)
    (s : Span) (spans : List Span) (x1 : Int) (mask : QImage) (x2 : Int) (mask' : QImage)
    (x2' : Int) : Prop where
  core : ScanCore referenceImage seedPoint threshold mask' spans
    (RowExc s x1 x2' (x2' + 1) (fun _ => False))
  le : x2 ≤ x2'
  le_w : x2' ≤ (referenceImage.width : Int)
  pend : ∀ x, x1 ≤ x → x < x2' → mask'.pix ⟨x, s.y⟩ ≠ 0
  mono : ∀ q, mask.pix q ≠ 0 → mask'.pix q ≠ 0
  zeros : mask'.zeros + (x2' - x2).toNat = mask.zeros
  stop : x2' < (referenceImage.width : Int) →
    mask'.pix ⟨x2', s.y⟩ ≠ 0 ∨
      ¬ includable referenceImage (referenceImage.pix seedPoint) threshold ⟨x2', s.y⟩

/-- The invariant of the left extension at column `x1`, for a span whose first pixel is
unmarked and joined to the seed. -/
structure LeftInv (referenceImage : QImage) (seedPoint : QPoint) (threshold : Nat)
    (s : Span) (spans : List Span) (mask : QImage) (x1 : Int) : Prop where
  core : ScanCore referenceImage seedPoint threshold mask spans
    (RowExc s x1 s.x1 s.x1 (fun x => x = x1 - 1))
  x1_nonneg : 0 ≤ x1
  le : x1 ≤ s.x1
  pend : ∀ x, x1 ≤ x → x < s.x1 → mask.pix ⟨x, s.y⟩ ≠ 0
  first : mask.pix ⟨s.x1, s.y⟩ = 0
  conn : Connected referenceImage seedPoint threshold ⟨x1, s.y⟩

/-- What the left extension establishes when it stops at column `x1'`. -/
structure LeftPost (referenceImage : QImage) (seedPoint : QPoint) (threshold : Nat)
    (s : Span) (spans : List Span) (mask : QImage) (x1 : Int) (mask' : QImage) (x1' : Int) :
    Prop where
  core : ScanCore referenceImage seedPoint threshold mask' spans
    (RowExc s x1' s.x1 s.x1 (fun _ => False))
  x1_nonneg : 0 ≤ x1'
  le : x1' ≤ x1
  pend : ∀ x, x1' ≤ x → x < s.x1 → mask'.pix ⟨x, s.y⟩ ≠ 0
  first : mask'.pix ⟨s.x1, s.y⟩ = 0
  mono : ∀ q, mask.pix q ≠ 0 → mask'.pix q ≠ 0
  zeros : mask'.zeros + (x1 - x1').toNat = mask.zeros
  stop : referenceImage.inImage ⟨x1' - 1, s.y⟩ →
    mask'.pix ⟨x1' - 1, s.y⟩ ≠ 0 ∨
      ¬ includable referenceImage (referenceImage.pix seedPoint) threshold ⟨x1' - 1, s.y⟩

/-- The invariant at the head of the loop `while (x2 <= span.x2)`. -/
structure OuterInv (referenceImage : QImage) (seedPoint : QPoint) (threshold : Nat)
    (s : Span) (mask : QImage) (spans : List Span) (x1 x2 : Int) : Prop where
  core : ScanCore referenceImage seedPoint threshold mask spans
    (RowExc s x1 x2 x2 (fun _ => False))
  x1_nonneg : 0 ≤ x1
  le : x1 ≤ x2
  lo : s.x1 ≤ x2
  pend : ∀ x, x1 ≤ x → x < x2 → mask.pix ⟨x, s.y⟩ ≠ 0
  pendNext : x1 < x2 → x2 ≤ s.x2
  spanJust : ∀ x, s.x1 ≤ x → x ≤ s.x2 → Just referenceImage mask seedPoint ⟨x, s.y⟩
  leftOK : LeftOK referenceImage mask (referenceImage.pix seedPoint) threshold s.y x1

/-- The mask of a finished fill: the graded value on the pixels joined to the seed, zero on
every other byte of the buffer. -/
structure FillResult (referenceImage : QImage) (seedPoint : QPoint) (threshold : Nat)
    (mask : QImage) : Prop where
  geometry : SameGeometry referenceImage mask
  sound : MaskSound referenceImage seedPoint threshold mask
  complete : ∀ p, Connected referenceImage seedPoint threshold p → mask.pix p ≠ 0

end FloodFill

namespace FloodFill

/-! ## Vocabulary of the tile workers -/

/-- The point lies inside the rectangle. -/
def QRect.has (r : QRect) (p : QPoint) : Prop :=
  r.left ≤ p.x ∧ p.x ≤ r.right ∧ r.top ≤ p.y ∧ p.y ≤ r.bottom

/-- The index of the cell of a point in the working buffer of a tile. -/
def tileIndex (ts : QSize) (tileRect : QRect) (p : QPoint) : Int :=
  (p.y - tileRect.top) * ts.width + (p.x - tileRect.left)

/-- The number of cells of a working buffer whose mask byte is zero. -/
def tileZeros (tileData : List TileData) : Nat :=
  tileData.countP (fun t => t.fillMaskPixel == 0)

/-- A tile rectangle that lies inside the image and is at most one tile wide and high. -/
structure TileOK (ts : QSize) (referenceImage : QImage) (tileRect : QRect) : Prop where
  left0 : 0 ≤ tileRect.left
  leftRight : tileRect.left ≤ tileRect.right
  rightW : tileRect.right < (referenceImage.width : Int)
  cols : tileRect.right - tileRect.left < (ts.width : Int)
  top0 : 0 ≤ tileRect.top
  topBottom : tileRect.top ≤ tileRect.bottom
  bottomH : tileRect.bottom < (referenceImage.height : Int)
  rows : tileRect.bottom - tileRect.top < (ts.height : Int)

/-- The tile id addresses a tile of the grid of the image. -/
def InGrid (ts : QSize) (referenceImage : QImage) (tileId : TileId) : Prop :=
  0 ≤ tileId.x ∧ tileId.x * (ts.width : Int) < (referenceImage.width : Int) ∧
    0 ≤ tileId.y ∧ tileId.y * (ts.height : Int) < (referenceImage.height : Int)

/-- The tile id passes the test of the merge against the size of the grid. -/
def InFilter (tileGridSize : QSize) (tileId : TileId) : Prop :=
  0 ≤ tileId.x ∧ tileId.x < (tileGridSize.width : Int) ∧
    0 ≤ tileId.y ∧ tileId.y < (tileGridSize.height : Int)

/-- The working buffer `td` of a tile worker, started from the buffer `td0` copied in from
the shared mask `mask`, seen as the mask `vm` that the write-back is going to produce. -/
structure TileState (ts : QSize) (referenceImage : QImage) (seedPoint : QPoint)
    (threshold : Nat) (tileRect : QRect) (mask : QImage) (td0 td : List TileData)
    (vm : QImage) : Prop where
  len : td.length = ts.width * ts.height
  geometry : SameGeometry referenceImage vm
  rep : ∀ p, tileRect.has p →
    td.getD (tileIndex ts tileRect p).toNat ⟨0, 0⟩ = ⟨referenceImage.pix p, vm.pix p⟩
  frameTd : ∀ j, (∀ p, tileRect.has p → (tileIndex ts tileRect p).toNat ≠ j) →
    td.getD j ⟨0, 0⟩ = td0.getD j ⟨0, 0⟩
  frameVm : ∀ i, (∀ p, tileRect.has p → (referenceImage.offset p).toNat ≠ i) →
    vm.bits.getD i 0 = mask.bits.getD i 0
  mono : ∀ q, mask.pix q ≠ 0 → vm.pix q ≠ 0
  sound : MaskSound referenceImage seedPoint threshold vm
  zerosLe : vm.zeros ≤ mask.zeros

/-- The pixel is marked or fails the inclusion test. -/
def Done (referenceImage : QImage) (seedPoint : QPoint) (threshold : Nat) (mask : QImage)
    (p : QPoint) : Prop :=
  mask.pix p ≠ 0 ∨ ¬ includable referenceImage (referenceImage.pix seedPoint) threshold p

/-- A seed point filed for the tile `key`: the tile is in the grid, the point lies in the
rectangle of the tile, and it is the seed of the fill or next to a marked pixel. -/
def PointOK (ts : QSize) (referenceImage : QImage) (seedPoint : QPoint) (mask : QImage)
    (key : TileId) (q : QPoint) : Prop :=
  InGrid ts referenceImage key ∧ (tileRectOf ts referenceImage.rect key).has q ∧
    Just referenceImage mask seedPoint q

/-- The loop invariant of `floodFillTile`. -/
structure NaiveTileInv (ts : QSize) (referenceImage : QImage) (seedPoint : QPoint)
    (threshold : Nat) (tileRect : QRect) (mask : QImage) (td0 td : List TileData)
    (vm : QImage) (nodes : List QPoint) (info : TilePropagationInfo) : Prop where
  state : TileState ts referenceImage seedPoint threshold tileRect mask td0 td vm
  nodesOK : ∀ n ∈ nodes, tileRect.has n ∧ Just referenceImage vm seedPoint n
  infoOK : ∀ e ∈ info, ∀ q ∈ e.2, PointOK ts referenceImage seedPoint vm e.1 q
  progress : (∃ e ∈ info, e.2 ≠ []) → vm.zeros < mask.zeros

/-- A pixel that, if it passes the inclusion test, is joined to the seed. -/
def Near (referenceImage : QImage) (seedPoint : QPoint) (threshold : Nat) (q : QPoint) :
    Prop :=
  includable referenceImage (referenceImage.pix seedPoint) threshold q →
    Connected referenceImage seedPoint threshold q

/-- The span lies in the rectangle and has direction `±1`. -/
def SpanIn (tileRect : QRect) (s : Span) : Prop :=
  tileRect.left ≤ s.x1 ∧ s.x1 ≤ s.x2 ∧ s.x2 ≤ tileRect.right ∧ tileRect.top ≤ s.y ∧
    s.y ≤ tileRect.bottom ∧ (s.dy = 1 ∨ s.dy = -1)

/-- Every pixel of the span that passes the inclusion test is joined to the seed. -/
def SpanNear (referenceImage : QImage) (seedPoint : QPoint) (threshold : Nat) (s : Span) :
    Prop :=
  ∀ x, s.x1 ≤ x → x ≤ s.x2 → Near referenceImage seedPoint threshold ⟨x, s.y⟩

/-- Some pixel of the span is the seed or is next to a pixel joined to the seed. -/
def SpanJust (referenceImage : QImage) (seedPoint : QPoint) (threshold : Nat) (s : Span) :
    Prop :=
  ∃ x, s.x1 ≤ x ∧ x ≤ s.x2 ∧
    ((⟨x, s.y⟩ : QPoint) = seedPoint ∨
      ∃ p, Connected referenceImage seedPoint threshold p ∧ adjacent p ⟨x, s.y⟩)

/-- A seed span filed for the tile `key`: when the tile is in the grid, the span lies in the
rectangle of the tile, its pixels that pass the inclusion test are joined to the seed, and
one of its pixels is the seed or next to a pixel joined to the seed. -/
def SpanSeedOK (ts : QSize) (referenceImage : QImage) (seedPoint : QPoint) (threshold : Nat)
    (_mask : QImage) (key : TileId) (s : Span) : Prop :=
  InGrid ts referenceImage key →
    SpanIn (tileRectOf ts referenceImage.rect key) s ∧
      SpanNear referenceImage seedPoint threshold s ∧
      SpanJust referenceImage seedPoint threshold s

/-- The first pixel of the span is marked or fails the inclusion test. -/
def SpanDone (referenceImage : QImage) (seedPoint : QPoint) (threshold : Nat) (mask : QImage)
    (s : Span) : Prop :=
  Done referenceImage seedPoint threshold mask ⟨s.x1, s.y⟩

/-- The loop invariant of `floodFillTileScanLine`. -/
structure ScanTileInv (ts : QSize) (referenceImage : QImage) (seedPoint : QPoint)
    (threshold : Nat) (tileRect : QRect) (mask : QImage) (td0 td : List TileData)
    (vm : QImage) (spans : List Span) (info : TilePropagationInfoScanLine) : Prop where
  state : TileState ts referenceImage seedPoint threshold tileRect mask td0 td vm
  spansOK : ∀ s ∈ spans, SpanIn tileRect s ∧ SpanNear referenceImage seedPoint threshold s
  infoOK : ∀ e ∈ info, ∀ s ∈ e.2, SpanSeedOK ts referenceImage seedPoint threshold vm e.1 s
  progress : (∃ e ∈ info, e.2 ≠ []) → vm.zeros < mask.zeros

/-- What one call of a tile worker on the shared mask `mask` with the seeds `seeds`
establishes for the mask `mask'` and the propagation table `info` it returns. -/
structure TilePost {α : Type} (referenceImage : QImage) (seedPoint : QPoint)
    (threshold : Nat) (SeedOK : QImage → TileId → α → Prop) (SeedDone : QImage → α → Prop)
    (mask : QImage) (seeds : List α) (mask' : QImage) (info : List (TileId × List α)) :
    Prop where
  geometry : SameGeometry referenceImage mask'
  sound : MaskSound referenceImage seedPoint threshold mask'
  mono : ∀ q, mask.pix q ≠ 0 → mask'.pix q ≠ 0
  zerosLe : mask'.zeros ≤ mask.zeros
  infoOK : ∀ e ∈ info, ∀ a ∈ e.2, SeedOK mask' e.1 a
  progress : (∃ e ∈ info, e.2 ≠ []) → mask'.zeros < mask.zeros
  seedsDone : ∀ a ∈ seeds, SeedDone mask' a

/-- What one round of tile tasks on the shared mask `mask` with the queue `queue`
establishes for the mask `mask'` and the list `results` of returned tables. -/
structure RoundPost {α : Type} (referenceImage : QImage) (seedPoint : QPoint)
    (threshold : Nat) (SeedOK : QImage → TileId → α → Prop) (SeedDone : QImage → α → Prop)
    (mask : QImage) (queue : List (TileId × List α)) (mask' : QImage)
    (results : List (List (TileId × List α))) : Prop where
  geometry : SameGeometry referenceImage mask'
  sound : MaskSound referenceImage seedPoint threshold mask'
  mono : ∀ q, mask.pix q ≠ 0 → mask'.pix q ≠ 0
  zerosLe : mask'.zeros ≤ mask.zeros
  infoOK : ∀ info ∈ results, ∀ e ∈ info, ∀ a ∈ e.2, SeedOK mask' e.1 a
  progress : (∃ info ∈ results, ∃ e ∈ info, e.2 ≠ []) → mask'.zeros < mask.zeros
  seedsDone : ∀ e ∈ queue, ∀ a ∈ e.2, SeedDone mask' a

/-- The seeds filed under the key `key` in a list of entries, in the order of the list. -/
def seedsFor {α : Type} (key : TileId) (entries : List (TileId × List α)) : List α :=
  (entries.filter (fun e => e.1 = key)).flatMap (fun e => e.2)

/-- The state of the merge: the queue built from the entries `processed` so far. -/
def MergeInv {α : Type} (tileGridSize : QSize) (queue processed : List (TileId × List α)) :
    Prop :=
  (queue.map (fun e => e.1)).Nodup ∧
    (∀ e ∈ queue, InFilter tileGridSize e.1 ∧ e.2 ≠ []) ∧
    ∀ key, InFilter tileGridSize key → seedsFor key queue = seedsFor key processed

/-- The mask `mask'` arises from `mask` by a sequence of stores, each to a byte that is 0
at the time of the store and each of a non-zero value. -/
inductive Marked : QImage → QImage → Prop
  | refl (mask : QImage) : Marked mask mask
  | store (mask mask1 mask' : QImage) (p : QPoint) (v : Nat) :
      getPixel mask p = .ok 0 → v ≠ 0 → setPixel mask p v = .ok mask1 → Marked mask1 mask' →
      Marked mask mask'

/-- The working buffer `td'` arises from `td` by a sequence of assignments to
`fillMaskPixel`, each to a cell whose `fillMaskPixel` is 0 at the time of the assignment and
each of a non-zero value. -/
inductive TileMarked : List TileData → List TileData → Prop
  | refl (td : List TileData) : TileMarked td td
  | store (td td1 td' : List TileData) (i : Int) (t : TileData) (v : Nat) :
      tileAt td i = .ok t → t.fillMaskPixel = 0 → v ≠ 0 →
      tileSetFillMask td i v = .ok td1 → TileMarked td1 td' → TileMarked td td'

/-- The mask `mask'` has the geometry of `mask`, and every byte of `mask` that is not zero
has the same value in `mask'`. -/
def Keeps (mask mask' : QImage) : Prop :=
  mask'.width = mask.width ∧ mask'.height = mask.height ∧
    mask'.bytesPerLine = mask.bytesPerLine ∧ mask'.bits.length = mask.bits.length ∧
    ∀ i, mask.bits.getD i 0 ≠ 0 → mask'.bits.getD i 0 = mask.bits.getD i 0

/-- A point `q` filed under `key` by the call of `floodFillTile` for the tile `k`, whose
working buffer was `td0` after the copy loops and is `td` now: the tile `key` is a tile of the
grid next to `k`, its rectangle holds `q`, and `q` is next to a pixel `p` of the tile `k`
whose mask byte was 0 in `td0` and is not 0 in `td`. -/
def EmittedPoint (ts : QSize) (referenceImage : QImage) (k : TileId) (td0 td : List TileData)
    (key : TileId) (q : QPoint) : Prop :=
  InGrid ts referenceImage key ∧ (tileRectOf ts referenceImage.rect key).has q ∧
    (key = ⟨k.x - 1, k.y⟩ ∨ key = ⟨k.x + 1, k.y⟩ ∨ key = ⟨k.x, k.y - 1⟩ ∨
      key = ⟨k.x, k.y + 1⟩) ∧
    ∃ p, (tileRectOf ts referenceImage.rect k).has p ∧ adjacent p q ∧
      (td0.getD (tileIndex ts (tileRectOf ts referenceImage.rect k) p).toNat
        ⟨0, 0⟩).fillMaskPixel = 0 ∧
      (td.getD (tileIndex ts (tileRectOf ts referenceImage.rect k) p).toNat
        ⟨0, 0⟩).fillMaskPixel ≠ 0

/-- The invariant of the loop of `floodFillTile` for an arbitrary mask: what the loop does
to the working buffer, where its stack points lie and what it has filed. -/
structure TileLight (ts : QSize) (referenceImage : QImage) (k : TileId)
    (td0 td : List TileData) (nodes : List QPoint) (info : TilePropagationInfo) : Prop where
  len : td.length = ts.width * ts.height
  marked : TileMarked td0 td
  frameTd : ∀ j, (∀ p, (tileRectOf ts referenceImage.rect k).has p →
      (tileIndex ts (tileRectOf ts referenceImage.rect k) p).toNat ≠ j) →
    td.getD j ⟨0, 0⟩ = td0.getD j ⟨0, 0⟩
  nodesIn : ∀ n ∈ nodes, (tileRectOf ts referenceImage.rect k).has n
  infoOK : ∀ e ∈ info, ∀ q ∈ e.2, EmittedPoint ts referenceImage k td0 td e.1 q

instance (tileGridSize : QSize) (tileId : TileId) : Decidable (InFilter tileGridSize tileId) := by
  unfold InFilter; exact inferInstance

instance (referenceImage mask : QImage) : Decidable (SameGeometry referenceImage mask) := by
  unfold SameGeometry; exact inferInstance

instance (tileRect : QRect) (s : Span) : Decidable (SpanIn tileRect s) := by
  unfold SpanIn; exact inferInstance

/-- A span `s` filed under `key` by a call of `floodFillTileScanLine` for the tile `k`: its
direction is `±1`; filed for the tile on the left or right, that tile is a tile of the grid
and the span lies in its rectangle; filed for the tile above or below, the span lies in the
columns of the tile `k`, in the row above its first or below its last row, and in the
rectangle of the tile `key` if that is a tile of the grid. -/
def EmittedSpan (ts : QSize) (referenceImage : QImage) (k key : TileId) (s : Span) : Prop :=
  (s.dy = 1 ∨ s.dy = -1) ∧
    (((key = ⟨k.x - 1, k.y⟩ ∨ key = ⟨k.x + 1, k.y⟩) ∧ InGrid ts referenceImage key ∧
        SpanIn (tileRectOf ts referenceImage.rect key) s) ∨
      ((key = ⟨k.x, k.y - 1⟩ ∧ s.y = (tileRectOf ts referenceImage.rect k).top - 1 ∨
          key = ⟨k.x, k.y + 1⟩ ∧ s.y = (tileRectOf ts referenceImage.rect k).bottom + 1) ∧
        (tileRectOf ts referenceImage.rect k).left ≤ s.x1 ∧ s.x1 ≤ s.x2 ∧
        s.x2 ≤ (tileRectOf ts referenceImage.rect k).right ∧
        (InGrid ts referenceImage key → SpanIn (tileRectOf ts referenceImage.rect key) s)))

/-- The invariant of the loop of `floodFillTileScanLine` for an arbitrary mask. -/
structure ScanLight (ts : QSize) (referenceImage : QImage) (k : TileId)
    (td0 td : List TileData) (spans : List Span) (info : TilePropagationInfoScanLine) :
    Prop where
  len : td.length = ts.width * ts.height
  marked : TileMarked td0 td
  spansIn : ∀ s ∈ spans, SpanIn (tileRectOf ts referenceImage.rect k) s
  infoOK : ∀ e ∈ info, ∀ s ∈ e.2, EmittedSpan ts referenceImage k e.1 s

/-- Every order of the schedule is an order of the very entries it is given. -/
def Schedule.Valid {α : Type} (sched : Schedule α) : Prop :=
  (∀ n l, (sched.queueOrder n l).Perm l) ∧ (∀ n l, (sched.resultOrder n l).Perm l) ∧
    ∀ n l, (sched.entryOrder n l).Perm l

/-- The mask byte of the pixel `p`, as a tile worker for the rectangle `tileRect` that was
called on the shared mask `mask` and has the working buffer `td` sees it, is not zero: the
cell of the buffer for a pixel of the tile, the byte of the shared mask otherwise. -/
def TileSees (ts : QSize) (tileRect : QRect) (mask : QImage) (td : List TileData)
    (p : QPoint) : Prop :=
  (tileRect.has p ∧ (td.getD (tileIndex ts tileRect p).toNat ⟨0, 0⟩).fillMaskPixel ≠ 0) ∨
    (¬ tileRect.has p ∧ mask.pix p ≠ 0)

/-- The set `M` of marked pixels is closed up to the sets `X` and `Pend`: every pixel of the
image next to a marked pixel of the image is marked, is in `X` (the pixels that fail the
inclusion test, say), or is in `Pend`. -/
def Front (referenceImage : QImage) (X M Pend : QPoint → Prop) : Prop :=
  ∀ p q, referenceImage.inImage p → referenceImage.inImage q → adjacent p q → M p →
    M q ∨ X q ∨ Pend q

/-- The pixel `q` is covered, in the sense of `Cov`, by a seed of the table. -/
def Pending {α : Type} (Cov : α → QPoint → Prop) (info : List (TileId × List α))
    (q : QPoint) : Prop :=
  ∃ e ∈ info, ∃ a ∈ e.2, Cov a q

/-- A seed point covers itself. -/
def pointCov (a q : QPoint) : Prop := a = q

/-- A seed span covers the pixels of its row from `x1` to `x2`. -/
def spanCov (s : Span) (q : QPoint) : Prop := s.y = q.y ∧ s.x1 ≤ q.x ∧ q.x ≤ s.x2

/-- The working buffer `td` of a tile worker, started from the buffer `td0` after the copy
loops: its size, the reference pixels of the cells of the tile, and the cells that belong to
no pixel of the tile, which are as in `td0`. -/
structure TileBuf (ts : QSize) (referenceImage : QImage) (tileRect : QRect)
    (td0 td : List TileData) : Prop where
  len : td.length = ts.width * ts.height
  refs : ∀ p, tileRect.has p →
    (td.getD (tileIndex ts tileRect p).toNat ⟨0, 0⟩).referencePixel = referenceImage.pix p
  frame : ∀ j, (∀ p, tileRect.has p → (tileIndex ts tileRect p).toNat ≠ j) →
    td.getD j ⟨0, 0⟩ = td0.getD j ⟨0, 0⟩

/-- The pixel left of the run that starts at column `a` of row `y` is settled (marked, in
`X`, or pending), or the first pixel of the run is marked or fails the inclusion test. -/
def TileLeftOK (referenceImage : QImage) (seedValue threshold : Nat)
    (X M Pend : QPoint → Prop) (y a : Int) : Prop :=
  referenceImage.inImage ⟨a - 1, y⟩ →
    (M ⟨a, y⟩ ∨ ¬ includable referenceImage seedValue threshold ⟨a, y⟩) ∨
      M ⟨a - 1, y⟩ ∨ X ⟨a - 1, y⟩ ∨ Pend ⟨a - 1, y⟩

/-- What one call of a tile worker does to the closure of the marked pixels: whatever was
pending outside the seeds of the call stays pending, and the seeds are replaced by the seeds
that the call files for tiles of the grid. -/
def TileCloses {α : Type} (referenceImage : QImage) (X : QPoint → Prop)
    (tileGridSize : QSize) (Cov : α → QPoint → Prop) (mask : QImage) (seeds : List α)
    (mask' : QImage) (info : List (TileId × List α)) : Prop :=
  ∀ Pend : QPoint → Prop,
    Front referenceImage X (fun p => mask.pix p ≠ 0)
      (fun q => Pend q ∨ ∃ a ∈ seeds, Cov a q) →
    Front referenceImage X (fun p => mask'.pix p ≠ 0)
      (fun q => Pend q ∨ ∃ e ∈ info, InFilter tileGridSize e.1 ∧ ∃ a ∈ e.2, Cov a q)

/-- The positions that the copy loops and the write-back loop of a tile worker visit for
the rectangle `tileRect` lie in the buffer of an image of the geometry of the reference
image. -/
def TileFits (ts : QSize) (referenceImage : QImage) (tileRect : QRect) : Prop :=
  ∀ c ∈ tileCells ts tileRect,
    0 ≤ referenceImage.offset ⟨tileRect.left + c.2, c.1⟩ ∧
      referenceImage.offset ⟨tileRect.left + c.2, c.1⟩ <
        ((referenceImage.bytesPerLine * referenceImage.height : Nat) : Int)

/-- A tile that the fill from the seed visits: a tile of the grid whose rectangle holds the
seed or a pixel next to a pixel joined to the seed. -/
def TileNeeded (ts : QSize) (referenceImage : QImage) (seedPoint : QPoint) (threshold : Nat)
    (k : TileId) : Prop :=
  InGrid ts referenceImage k ∧ ∃ q, (tileRectOf ts referenceImage.rect k).has q ∧
    (q = seedPoint ∨ ∃ p, Connected referenceImage seedPoint threshold p ∧ adjacent p q)

/-- The result of a run is a fault of the memory model or a value with the property `P`:
in particular neither an exhausted step budget nor a division by zero. -/
def OkOr {α : Type} (r : Except Fault α) (P : α → Prop) : Prop :=
  r = .error .outOfBounds ∨ ∃ a, r = .ok a ∧ P a

end FloodFill

namespace FloodFill

/-! ## Vocabulary of the runs of a row -/

/-- The pixel at column `x` of row `y` stops a scan: it is outside the image, marked in
`mask`, or excluded by the inclusion test. -/
def Stops (referenceImage : QImage) (seedValue threshold : Nat) (mask : QImage) (y x : Int) :
    Prop :=
  x < 0 ∨ (referenceImage.width : Int) ≤ x ∨ mask.pix ⟨x, y⟩ ≠ 0 ∨
    ¬ includable referenceImage seedValue threshold ⟨x, y⟩

/-- The columns `a .. b` of row `y` are a run that the step from `mask` to `mask'` has
marked: a non-empty range of columns of the image whose pixels are unmarked in `mask`, pass
the inclusion test and carry their selection value in `mask'`, and that is maximal: the
pixels at `a − 1` and at `b + 1` are outside the image, marked in `mask`, or excluded. -/
structure MarkedRun (referenceImage : QImage) (seedValue threshold : Nat)
    (mask mask' : QImage) (y a b : Int) : Prop where
  bounds : 0 ≤ a ∧ a ≤ b ∧ b < (referenceImage.width : Int)
  marked : ∀ x, a ≤ x → x ≤ b →
    mask.pix ⟨x, y⟩ = 0 ∧ includable referenceImage seedValue threshold ⟨x, y⟩ ∧
      mask'.pix ⟨x, y⟩ = gradedValue (qAbs (referenceImage.pix ⟨x, y⟩) seedValue) threshold
  left : Stops referenceImage seedValue threshold mask y (a - 1)
  right : Stops referenceImage seedValue threshold mask y (b + 1)

/-- The stack after the pushes for the runs `runs` of the span `span`, taken from left to
right: for each run `(a, b)` first `(a, b, y − dy, −dy)`, then `(a, b, y + dy, dy)`; the
head of the list is the top of the stack. -/
def runChildren (span : Span) (runs : List (Int × Int)) (spans : List Span) : List Span :=
  runs.foldl (fun spans r =>
    (⟨r.1, r.2, span.y + span.dy, span.dy⟩ : Span) ::
      ⟨r.1, r.2, span.y - span.dy, -span.dy⟩ :: spans) spans

/-! ## The serial fills with checked coordinates

The functions of `floodFill` and `floodFillScanLine` once more, with every call of `getPixel`
and `setPixel` replaced by a call that tests the coordinates against the rectangle of the
image first, and every push of a span by a push that tests its columns; a failed test ends
the run with a fault. -/

/-- The call `getPixel(image, point)` with the test `0 ≤ x < width ∧ 0 ≤ y < height`. -/
def getPixelChecked (image : QImage) (point : QPoint) : Except Fault Nat :=
  if image.rect.contains point then getPixel image point else .error .outOfBounds

/-- The call `setPixel(image, point, value)` with the test `0 ≤ x < width ∧ 0 ≤ y < height`. -/
def setPixelChecked (image : QImage) (point : QPoint) (value : Nat) : Except Fault QImage :=
  if image.rect.contains point then setPixel image point value else .error .outOfBounds

/-- The push of a span with the test `0 ≤ x1 ≤ x2 < width`. -/
def pushChecked (referenceImage : QImage) (span : Span) (spans : List Span) :
    Except Fault (List Span) :=
  if 0 ≤ span.x1 ∧ span.x1 ≤ span.x2 ∧ span.x2 < (referenceImage.width : Int) then
    .ok (span :: spans)
  else .error .outOfBounds

/-- The function `floodFillStep` with checked coordinates. -/
def floodFillStepChecked (referenceImage : QImage) (seedValue threshold : Nat)
    (fillMaskImage : QImage) (p : QPoint) (nodes : List QPoint) :
    Except Fault (QImage × List QPoint) :=
  match getPixelChecked fillMaskImage p with
  | .error e => .error e
  | .ok m =>
    if m > 0 then .ok (fillMaskImage, nodes)
    else
      match getPixelChecked referenceImage p with
      | .error e => .error e
      | .ok value =>
        if difference8 value seedValue ≥ threshold then .ok (fillMaskImage, nodes)
        else
          match selectionValue (difference8 value seedValue) threshold with
          | .error e => .error e
          | .ok sel =>
            match setPixelChecked fillMaskImage p sel with
            | .error e => .error e
            | .ok fillMaskImage => .ok (fillMaskImage, pushNeighbours referenceImage p nodes)

/-- The function `floodFillLoop` with checked coordinates. -/
def floodFillLoopChecked (referenceImage : QImage) (seedValue threshold : Nat) :
    Nat → QImage → List QPoint → Except Fault QImage
  | _, fillMaskImage, [] => .ok fillMaskImage
  | 0, _, _ :: _ => .error .outOfFuel
  | fuel + 1, fillMaskImage, p :: nodes =>
    match floodFillStepChecked referenceImage seedValue threshold fillMaskImage p nodes with
    | .error e => .error e
    | .ok (fillMaskImage, nodes) =>
      floodFillLoopChecked referenceImage seedValue threshold fuel fillMaskImage nodes

/-- The function `floodFill` with checked coordinates. -/
def floodFillChecked (referenceImage : QImage) (seedPoint : QPoint) (threshold : Nat) :
    Except Fault QImage :=
  let fillMaskImage := referenceImage.blank
  if !referenceImage.rect.contains seedPoint then .ok fillMaskImage
  else
    match getPixelChecked referenceImage seedPoint with
    | .error e => .error e
    | .ok seedValue =>
      floodFillLoopChecked referenceImage seedValue threshold
        (4 * (referenceImage.bytesPerLine * referenceImage.height) + 1) fillMaskImage [seedPoint]

/-- The function `scanLineLeft` with checked coordinates. -/
def scanLineLeftChecked (referenceImage : QImage) (seedValue threshold : Nat) (y : Int) :
    Nat → QImage → Int → Except Fault (QImage × Int)
  | 0, _, _ => .error .outOfFuel
  | fuel + 1, fillMaskImage, x1 =>
    if x1 - 1 < 0 then .ok (fillMaskImage, x1)
    else
      match getPixelChecked fillMaskImage ⟨x1 - 1, y⟩ with
      | .error e => .error e
      | .ok m =>
        if m > 0 then .ok (fillMaskImage, x1)
        else
          match getPixelChecked referenceImage ⟨x1 - 1, y⟩ with
          | .error e => .error e
          | .ok value =>
            if difference8 value seedValue ≥ threshold then .ok (fillMaskImage, x1)
            else
              match selectionValue (difference8 value seedValue) threshold with
              | .error e => .error e
              | .ok sel =>
                match setPixelChecked fillMaskImage ⟨x1 - 1, y⟩ sel with
                | .error e => .error e
                | .ok fillMaskImage =>
                  scanLineLeftChecked referenceImage seedValue threshold y fuel fillMaskImage
                    (x1 - 1)

/-- The function `scanLineRight` with checked coordinates. -/
def scanLineRightChecked (referenceImage : QImage) (seedValue threshold : Nat) (y : Int) :
    Nat → QImage → Int → Except Fault (QImage × Int)
  | 0, _, _ => .error .outOfFuel
  | fuel + 1, fillMaskImage, x2 =>
    if x2 ≥ (referenceImage.width : Int) then .ok (fillMaskImage, x2)
    else
      match getPixelChecked fillMaskImage ⟨x2, y⟩ with
      | .error e => .error e
      | .ok m =>
        if m > 0 then .ok (fillMaskImage, x2)
        else
          match getPixelChecked referenceImage ⟨x2, y⟩ with
          | .error e => .error e
          | .ok value =>
            if difference8 value seedValue ≥ threshold then .ok (fillMaskImage, x2)
            else
              match selectionValue (difference8 value seedValue) threshold with
              | .error e => .error e
              | .ok sel =>
                match setPixelChecked fillMaskImage ⟨x2, y⟩ sel with
                | .error e => .error e
                | .ok fillMaskImage =>
                  scanLineRightChecked referenceImage seedValue threshold y fuel fillMaskImage
                    (x2 + 1)

/-- The function `scanLineSkip` with checked coordinates. -/
def scanLineSkipChecked (referenceImage : QImage) (seedValue threshold : Nat)
    (fillMaskImage : QImage) (span : Span) : Nat → Int → Except Fault Int
  | 0, _ => .error .outOfFuel
  | fuel + 1, x2 =>
    if x2 < span.x2 ∧ x2 < (referenceImage.width : Int) then
      match getPixelChecked fillMaskImage ⟨x2, span.y⟩ with
      | .error e => .error e
      | .ok m =>
        if m > 0 then
          match getPixelChecked referenceImage ⟨x2, span.y⟩ with
          | .error e => .error e
          | .ok value =>
            if qAbs value seedValue ≥ threshold then
              scanLineSkipChecked referenceImage seedValue threshold fillMaskImage span fuel
                (x2 + 1)
            else .ok x2
        else .ok x2
    else .ok x2

/-- The function `scanLineOuter` with checked coordinates and checked pushes. -/
def scanLineOuterChecked (referenceImage : QImage) (seedValue threshold : Nat) (span : Span) :
    Nat → QImage → List Span → Int → Int → Except Fault (QImage × List Span)
  | 0, _, _, _, _ => .error .outOfFuel
  | fuel + 1, fillMaskImage, spans, x1, x2 =>
    if x2 ≤ span.x2 then
      match scanLineRightChecked referenceImage seedValue threshold span.y
          ((referenceImage.width : Int) - x2).toNat.succ fillMaskImage x2 with
      | .error e => .error e
      | .ok (fillMaskImage, x2) =>
        match (if x2 > x1 then
                match pushChecked referenceImage ⟨x1, x2 - 1, span.y - span.dy, -span.dy⟩
                    spans with
                | .error e => .error e
                | .ok spans =>
                  pushChecked referenceImage ⟨x1, x2 - 1, span.y + span.dy, span.dy⟩ spans
               else .ok spans : Except Fault (List Span)) with
        | .error e => .error e
        | .ok spans =>
          match scanLineSkipChecked referenceImage seedValue threshold fillMaskImage span
              (span.x2 - (x2 + 1)).toNat.succ (x2 + 1) with
          | .error e => .error e
          | .ok x2 =>
            scanLineOuterChecked referenceImage seedValue threshold span fuel fillMaskImage
              spans x2 x2
    else .ok (fillMaskImage, spans)

/-- The function `floodFillScanLineStep` with checked coordinates. -/
def floodFillScanLineStepChecked (referenceImage : QImage) (seedValue threshold : Nat)
    (fillMaskImage : QImage) (span : Span) (spans : List Span) :
    Except Fault (QImage × List Span) :=
  if span.y < 0 ∨ span.y ≥ (referenceImage.height : Int) then .ok (fillMaskImage, spans)
  else
    match getPixelChecked fillMaskImage ⟨span.x1, span.y⟩ with
    | .error e => .error e
    | .ok m =>
      match (if m = 0 then
              match getPixelChecked referenceImage ⟨span.x1, span.y⟩ with
              | .error e => .error e
              | .ok value => .ok (decide (qAbs value seedValue < threshold))
             else .ok false : Except Fault Bool) with
      | .error e => .error e
      | .ok extend =>
        match (if extend then
                scanLineLeftChecked referenceImage seedValue threshold span.y
                  span.x1.toNat.succ fillMaskImage span.x1
               else .ok (fillMaskImage, span.x1)) with
        | .error e => .error e
        | .ok (fillMaskImage, x1) =>
          scanLineOuterChecked referenceImage seedValue threshold span
            (span.x2 - span.x1 + 1).toNat.succ fillMaskImage spans x1 span.x1

/-- The function `floodFillScanLineLoop` with checked coordinates. -/
def floodFillScanLineLoopChecked (referenceImage : QImage) (seedValue threshold : Nat) :
    Nat → QImage → List Span → Except Fault QImage
  | _, fillMaskImage, [] => .ok fillMaskImage
  | 0, _, _ :: _ => .error .outOfFuel
  | fuel + 1, fillMaskImage, span :: spans =>
    match floodFillScanLineStepChecked referenceImage seedValue threshold fillMaskImage span
        spans with
    | .error e => .error e
    | .ok (fillMaskImage, spans) =>
      floodFillScanLineLoopChecked referenceImage seedValue threshold fuel fillMaskImage spans

/-- The function `floodFillScanLine` with checked coordinates and checked pushes. -/
def floodFillScanLineChecked (referenceImage : QImage) (seedPoint : QPoint) (threshold : Nat) :
    Except Fault QImage :=
  let fillMaskImage := referenceImage.blank
  if !referenceImage.rect.contains seedPoint then .ok fillMaskImage
  else
    match getPixelChecked referenceImage seedPoint with
    | .error e => .error e
    | .ok seedValue =>
      match pushChecked referenceImage ⟨seedPoint.x, seedPoint.x, seedPoint.y, 1⟩ [] with
      | .error e => .error e
      | .ok spans =>
        floodFillScanLineLoopChecked referenceImage seedValue threshold
          (2 * (referenceImage.bytesPerLine * referenceImage.height) + 1) fillMaskImage spans

/-! ## The states of the loops -/

/-- The states `(rounds left, mask, queue)` at the head of the loop
`while (!queue.isEmpty())` of an orchestrator that runs under the schedule `sched` with the
tile worker `tile`, started with `fuel0` rounds, the mask `mask0` and the queue `queue0`:
the start, and the state after every round that has returned. -/
inductive RoundsReach {α : Type} (sched : Schedule α)
    (tile : QImage → TileId → List α → Except Fault (QImage × List (TileId × List α)))
    (tileGridSize : QSize) (fuel0 : Nat) (mask0 : QImage) (queue0 : List (TileId × List α)) :
    Nat → QImage → List (TileId × List α) → Prop
  | start : RoundsReach sched tile tileGridSize fuel0 mask0 queue0 fuel0 mask0 queue0
  | round {fuel : Nat} {mask : QImage} {entry : TileId × List α}
      {queue : List (TileId × List α)} {mask' : QImage}
      {results : List (List (TileId × List α))} :
      RoundsReach sched tile tileGridSize fuel0 mask0 queue0 (fuel + 1) mask (entry :: queue) →
      runRound tile mask (sched.queueOrder fuel (entry :: queue)) = .ok (mask', results) →
      RoundsReach sched tile tileGridSize fuel0 mask0 queue0 fuel mask'
        (mergePropagation tileGridSize
          ((sched.resultOrder fuel results).map (sched.entryOrder fuel)))

end FloodFill

namespace FloodFill

/-! ## The tasks of a round as concurrent tasks

The orchestrators start the tasks of a round with `QtConcurrent::run` (lines 343-362 and
576-595) and wait for all of them (`waitForFinished`, lines 364 and 597); every task works
on the one shared `fillMaskImage`. A call of a tile worker reads the shared mask in its
copy loops only and stores to it in its write-back loop only; `runRound` is the execution
in which every task has written back before the next one copies in. The definitions below
let the copy loops and the write-back loops of the tasks of a round come in any order. Each
of the two parts of a task is one step here, so these executions are among those of the
source, which may also interleave the single loads and stores of the loops. -/

/-- The copy loops of `floodFillTile` (lines 221-234): the part of a call that reads the
shared mask. -/
def floodFillTileCopyIn (ts : QSize) (referenceImage fillMaskImage : QImage)
    (tileRect : QRect) : Except Fault (List TileData) :=
  match copyReference ts referenceImage tileRect (newTileData ts) with
  | .error e => .error e
  | .ok tileData => copyFillMask ts fillMaskImage tileRect tileData

/-- The rest of a call of `floodFillTile` (lines 236-299) on the working buffer that the
copy loops have produced: the fill of the buffer, and the write-back loop, which stores to
the shared mask. -/
def floodFillTileFinish (ts : QSize) (fillMaskImage : QImage) (tileData : List TileData)
    (seedPoints : SeedPointList) (originalSeedValue : Nat) (currentTileId : TileId)
    (globalRect tileRect : QRect) (threshold : Nat) :
    Except Fault (QImage × TilePropagationInfo) :=
  let tilePropagationInfo : TilePropagationInfo :=
    [(⟨currentTileId.x - 1, currentTileId.y⟩, []), (⟨currentTileId.x + 1, currentTileId.y⟩, []),
     (⟨currentTileId.x, currentTileId.y - 1⟩, []), (⟨currentTileId.x, currentTileId.y + 1⟩, [])]
  match floodFillTileLoop ts originalSeedValue currentTileId globalRect tileRect threshold
      (seedPoints.length + 4 * (ts.width * ts.height) + 1) tileData tilePropagationInfo
      seedPoints.reverse with
  | .error e => .error e
  | .ok (tileData, tilePropagationInfo) =>
    match writeBack ts fillMaskImage tileRect tileData with
    | .error e => .error e
    | .ok fillMaskImage => .ok (fillMaskImage, tilePropagationInfo)

/-- A step of a task of a round: the task with the number `task` (its place in the iteration
of the queue, lines 339-341) runs its copy loops, or runs its fill and its write-back
loop. -/
inductive TaskEvent where
  | copyIn (task : Nat)
  | writeBack (task : Nat)
  deriving DecidableEq

/-- The state of a round: the shared mask, the working buffers of the tasks that have copied
in, and the tables returned by the tasks that have written back. -/
structure RoundState (α β : Type) where
  fillMaskImage : QImage
  buffers : List (Nat × β)
  results : List (Nat × List (TileId × List α))

/-- One step of a task on the state of the round, for a worker given by its two parts. A
step of a task that the queue does not have, and a write-back of a task that has not
copied in, do nothing. -/
def runEvent {α β : Type} (copyIn : QImage → TileId → List α → Except Fault β)
    (finish : QImage → β → TileId → List α → Except Fault (QImage × List (TileId × List α)))
    (queue : List (TileId × List α)) (state : RoundState α β) :
    TaskEvent → Except Fault (RoundState α β)
  | .copyIn task =>
    match queue[task]? with
    | none => .ok state
    | some (tileId, seeds) =>
      match copyIn state.fillMaskImage tileId seeds with
      | .error e => .error e
      | .ok buffer =>
        .ok ⟨state.fillMaskImage, (task, buffer) :: state.buffers, state.results⟩
  | .writeBack task =>
    match queue[task]?, state.buffers.lookup task with
    | some (tileId, seeds), some buffer =>
      match finish state.fillMaskImage buffer tileId seeds with
      | .error e => .error e
      | .ok (fillMaskImage, result) =>
        .ok ⟨fillMaskImage, state.buffers, (task, result) :: state.results⟩
    | _, _ => .ok state

/-- The steps of the tasks of a round, in the order of the list. -/
def runEvents {α β : Type} (copyIn : QImage → TileId → List α → Except Fault β)
    (finish : QImage → β → TileId → List α → Except Fault (QImage × List (TileId × List α)))
    (queue : List (TileId × List α)) :
    List TaskEvent → RoundState α β → Except Fault (RoundState α β)
  | [], state => .ok state
  | event :: events, state =>
    match runEvent copyIn finish queue state event with
    | .error e => .error e
    | .ok state => runEvents copyIn finish queue events state

/-- The steps are an execution of a round of `n` tasks: every task copies in once and writes
back once, and copies in before it writes back. -/
def EventsValid (n : Nat) (events : List TaskEvent) : Prop :=
  events.Perm ((List.range n).flatMap fun i => [TaskEvent.copyIn i, TaskEvent.writeBack i]) ∧
    ∀ i, i < n →
      events.indexOf (TaskEvent.copyIn i) < events.indexOf (TaskEvent.writeBack i)

instance (n : Nat) (events : List TaskEvent) : Decidable (EventsValid n events) := by
  unfold EventsValid; exact inferInstance

/-- A task that runs with no step of another task in between: its copy loops, and the rest
on the mask that it has copied from. -/
def runTask {α β : Type} (copyIn : QImage → TileId → List α → Except Fault β)
    (finish : QImage → β → TileId → List α → Except Fault (QImage × List (TileId × List α))) :
    QImage → TileId → List α → Except Fault (QImage × List (TileId × List α)) :=
  fun fillMaskImage tileId seeds =>
    match copyIn fillMaskImage tileId seeds with
    | .error e => .error e
    | .ok buffer => finish fillMaskImage buffer tileId seeds

/-- The steps of a round of `n` tasks in which every task has written back before the next
one copies in. -/
def sequentialEvents (n : Nat) : List TaskEvent :=
  (List.range n).flatMap fun i => [TaskEvent.copyIn i, TaskEvent.writeBack i]

/-- The tables returned by the tasks of a round of `n` tasks, in the order of the futures
(lines 371-372), which is the order in which the tasks were created. -/
def roundResults {α β : Type} (n : Nat) (state : RoundState α β) :
    List (List (TileId × List α)) :=
  (List.range n).filterMap fun i => state.results.lookup i

/-- The loop `while (!tilePropagationInfo.isEmpty())` for the listed rounds, each given by
the steps of its tasks: the steps of a round, then the merge of the returned tables into
the queue of the next round. The result is the shared mask and the queue after the listed
rounds, and whether the steps of every listed round were an execution of its tasks; the run
of the orchestrator is over when the queue is empty. -/
def runRoundsEvents {α β : Type} (copyIn : QImage → TileId → List α → Except Fault β)
    (finish : QImage → β → TileId → List α → Except Fault (QImage × List (TileId × List α)))
    (tileGridSize : QSize) :
    List (List TaskEvent) → Bool → QImage → List (TileId × List α) →
      Except Fault (QImage × List (TileId × List α) × Bool)
  | [], valid, fillMaskImage, queue => .ok (fillMaskImage, queue, valid)
  | events :: rounds, valid, fillMaskImage, queue =>
    match runEvents copyIn finish queue events ⟨fillMaskImage, [], []⟩ with
    | .error e => .error e
    | .ok state =>
      runRoundsEvents copyIn finish tileGridSize rounds
        (valid && decide (EventsValid queue.length events)) state.fillMaskImage
        (mergePropagation tileGridSize (roundResults queue.length state))

/-- The copy loops of the task that `floodFillMT` creates for an entry of the queue (lines
343-362): the copy loops of the call of `floodFillTile` for the tile. -/
def tileTaskCopyIn (ts : QSize) (referenceImage : QImage) :
    QImage → TileId → SeedPointList → Except Fault (List TileData) :=
  fun fillMaskImage tileId _ =>
    floodFillTileCopyIn ts referenceImage fillMaskImage
      (tileRectOf ts referenceImage.rect tileId)

/-- The rest of the task that `floodFillMT` creates for an entry of the queue, on the working
buffer of the task: the fill and the write-back loop of the call of `floodFillTile`. -/
def tileTaskFinish (ts : QSize) (referenceImage : QImage) (originalSeedValue threshold : Nat) :
    QImage → List TileData → TileId → SeedPointList →
      Except Fault (QImage × TilePropagationInfo) :=
  fun fillMaskImage tileData tileId seedPoints =>
    floodFillTileFinish ts fillMaskImage tileData seedPoints originalSeedValue tileId
      referenceImage.rect (tileRectOf ts referenceImage.rect tileId) threshold

/-- Model of `floodFillMT` with the tasks of every round run concurrently: the listed rounds
under the given steps of their tasks. -/
def floodFillMTEvents (rounds : List (List TaskEvent)) (ts : QSize) (referenceImage : QImage)
    (seedPoint : QPoint) (threshold : Nat) :
    Except Fault (QImage × List (TileId × SeedPointList) × Bool) :=
  let fillMaskImage := referenceImage.blank
  if !referenceImage.rect.contains seedPoint then .ok (fillMaskImage, [], true)
  else
    match getPixel referenceImage seedPoint with
    | .error e => .error e
    | .ok originalSeedValue =>
      let globalRect := referenceImage.rect
      let tileGridSize := tileGridSizeOf ts globalRect
      let seedPointTileId : TileId :=
        ⟨seedPoint.x.tdiv ts.width, seedPoint.y.tdiv ts.height⟩
      runRoundsEvents (tileTaskCopyIn ts referenceImage)
        (tileTaskFinish ts referenceImage originalSeedValue threshold)
        tileGridSize rounds true fillMaskImage [(seedPointTileId, [seedPoint])]

/-- The 65×65 image (scan lines of 68 bytes) whose first row and first column have the value
7 and whose other bytes are 0. -/
def raceImage : QImage :=
  ⟨65, 65, 68, (List.range 4420).map fun i => if i < 65 ∨ i % 68 = 0 then 7 else 0⟩

end FloodFill

namespace FloodFill

/-! ## Basic facts: offsets, loads and stores -/

theorem offset_nonneg {img : QImage} {p : QPoint} (hp : img.inImage p) : 0 ≤ img.offset p := by
  obtain ⟨h1, _, h3, _⟩ := hp
  unfold QImage.offset scanLine
  have : 0 ≤ p.y * (img.bytesPerLine : Int) := Int.mul_nonneg h3 (Int.ofNat_nonneg _)
  omega

theorem offset_lt {img : QImage} {p : QPoint} (hp : img.inImage p)
    (hw : img.width ≤ img.bytesPerLine) :
    img.offset p < (img.bytesPerLine : Int) * img.height := by
  obtain ⟨h1, h2, h3, h4⟩ := hp
  unfold QImage.offset scanLine
  have hb : (0 : Int) ≤ img.bytesPerLine := Int.ofNat_nonneg _
  have h5 : (p.y + 1) * (img.bytesPerLine : Int) ≤ (img.height : Int) * img.bytesPerLine :=
    Int.mul_le_mul_of_nonneg_right (by omega) hb
  have hw' : (img.width : Int) ≤ img.bytesPerLine := by exact_mod_cast hw
  nlinarith

theorem offset_inj {img : QImage} {p q : QPoint} (hp : img.inImage p) (hq : img.inImage q)
    (hw : img.width ≤ img.bytesPerLine) (h : img.offset p = img.offset q) : p = q := by
  obtain ⟨p1, p2, p3, p4⟩ := hp
  obtain ⟨q1, q2, q3, q4⟩ := hq
  unfold QImage.offset scanLine at h
  have hw' : (img.width : Int) ≤ img.bytesPerLine := by exact_mod_cast hw
  have hb : (0 : Int) ≤ img.bytesPerLine := Int.ofNat_nonneg _
  have hy : p.y = q.y := by
    rcases lt_trichotomy p.y q.y with hlt | heq | hgt
    · have : (p.y + 1) * (img.bytesPerLine : Int) ≤ q.y * img.bytesPerLine :=
        Int.mul_le_mul_of_nonneg_right (by omega) hb
      nlinarith
    · exact heq
    · have : (q.y + 1) * (img.bytesPerLine : Int) ≤ p.y * img.bytesPerLine :=
        Int.mul_le_mul_of_nonneg_right (by omega) hb
      nlinarith
  have hx : p.x = q.x := by rw [hy] at h; omega
  cases p; cases q; simp_all

theorem offset_geometry {a b : QImage} (h : a.bytesPerLine = b.bytesPerLine) (p : QPoint) :
    a.offset p = b.offset p := by
  unfold QImage.offset scanLine; rw [h]

theorem getPixel_eq {img : QImage} {p : QPoint} (h0 : 0 ≤ img.offset p)
    (h1 : img.offset p < img.bits.length) : getPixel img p = .ok (img.pix p) := by
  unfold getPixel QImage.load QImage.pix
  rw [if_pos ⟨h0, h1⟩]; rfl

theorem setPixel_eq {img : QImage} {p : QPoint} (v : Nat) (h0 : 0 ≤ img.offset p)
    (h1 : img.offset p < img.bits.length) : setPixel img p v = .ok (img.mark p v) := by
  unfold setPixel QImage.store QImage.mark
  rw [if_pos ⟨h0, h1⟩]; rfl

theorem getD_set (l : List Nat) (i j v : Nat) :
    (l.set i v).getD j 0 = if i = j ∧ i < l.length then v else l.getD j 0 := by
  simp only [List.getD_eq_getElem?_getD, List.getElem?_set]
  by_cases hij : i = j
  · subst hij
    by_cases hl : i < l.length
    · simp [hl]
    · simp [hl, List.getElem?_eq_none (Nat.le_of_not_lt hl)]
  · simp [hij]

theorem count_zero_set (l : List Nat) (i v : Nat) (hi : i < l.length) (h0 : l.getD i 0 = 0)
    (hv : v ≠ 0) : (l.set i v).count 0 + 1 = l.count 0 := by
  have hget : l[i] = 0 := by rw [← List.getD_eq_getElem l 0 hi]; exact h0
  have hpos : 0 < l.count 0 := by
    rw [List.count_pos_iff]
    exact hget ▸ List.getElem_mem hi
  rw [List.count_set (h := hi)]
  simp [hget, hv]
  omega

theorem gradedValue_bounds {d t : Nat} (h : d < t) (ht : t ≤ 255) :
    1 ≤ gradedValue d t ∧ gradedValue d t ≤ 255 := by
  unfold gradedValue
  have : d * 255 / t < 255 := by
    rw [Nat.div_lt_iff_lt_mul (by omega)]
    nlinarith
  generalize d * 255 / t = e at this ⊢
  constructor <;> omega

theorem selectionValue_eq {d t : Nat} (h : d < t) (ht : t ≤ 255) :
    selectionValue d t = .ok (gradedValue d t) := by
  have hb := gradedValue_bounds h ht
  unfold selectionValue
  rw [if_neg (by omega)]
  unfold gradedValue at *
  congr 1
  generalize d * 255 / t = e at hb ⊢
  omega

theorem qAbs_lt_256 {v s : Nat} (hv : v < 256) (hs : s < 256) : qAbs v s < 256 := by
  unfold qAbs; omega

theorem difference8_eq {v s : Nat} (hv : v < 256) (hs : s < 256) :
    difference8 v s = qAbs v s := by
  unfold difference8
  exact Nat.mod_eq_of_lt (qAbs_lt_256 hv hs)

theorem pix_lt_256 {img : QImage} (hwf : img.WF) (p : QPoint) : img.pix p < 256 := by
  unfold QImage.pix
  rw [List.getD_eq_getElem?_getD]
  cases h : img.bits[(img.offset p).toNat]? with
  | none => simp
  | some v =>
    simp only [Option.getD_some]
    exact hwf.2.2 v (List.getElem?_mem h)

theorem blank_geometry (img : QImage) : SameGeometry img img.blank := by
  unfold SameGeometry QImage.blank; simp

theorem blank_getD (img : QImage) (i : Nat) : img.blank.bits.getD i 0 = 0 := by
  unfold QImage.blank
  simp only [List.getD_eq_getElem?_getD]
  cases h : (List.replicate (img.bytesPerLine * img.height) 0)[i]? with
  | none => rfl
  | some v =>
    have := List.getElem?_mem h
    simp only [List.mem_replicate] at this
    simp [this.2]

theorem blank_pix (img : QImage) (p : QPoint) : img.blank.pix p = 0 := blank_getD img _

theorem blank_zeros (img : QImage) : img.blank.zeros = img.bytesPerLine * img.height := by
  unfold QImage.zeros QImage.blank; simp

theorem contains_rect (img : QImage) (p : QPoint) :
    img.rect.contains p = true ↔ img.inImage p := by
  unfold QImage.rect QRect.mk4 QRect.contains QImage.inImage
  simp only [Bool.and_eq_true, decide_eq_true_eq]
  constructor <;> intro h <;> omega

section MaskFacts

variable {referenceImage mask : QImage}

theorem mask_offset_range (hg : SameGeometry referenceImage mask)
    (hw : referenceImage.width ≤ referenceImage.bytesPerLine) {p : QPoint}
    (hp : referenceImage.inImage p) :
    0 ≤ mask.offset p ∧ mask.offset p < mask.bits.length := by
  obtain ⟨_, _, g3, g4⟩ := hg
  rw [offset_geometry g3 p, g4]
  refine ⟨offset_nonneg hp, ?_⟩
  have := offset_lt hp hw
  push_cast
  exact this

theorem ref_offset_range (hwf : referenceImage.WF) {p : QPoint}
    (hp : referenceImage.inImage p) :
    0 ≤ referenceImage.offset p ∧ referenceImage.offset p < referenceImage.bits.length := by
  refine ⟨offset_nonneg hp, ?_⟩
  have := offset_lt hp hwf.2.1
  rw [hwf.1]; push_cast; exact this

theorem mark_geometry (hg : SameGeometry referenceImage mask) (p : QPoint) (v : Nat) :
    SameGeometry referenceImage (mask.mark p v) := by
  obtain ⟨g1, g2, g3, g4⟩ := hg
  exact ⟨g1, g2, g3, by simp [QImage.mark, g4]⟩

theorem mark_getD (p : QPoint) (v i : Nat) (h0 : 0 ≤ mask.offset p)
    (h1 : mask.offset p < mask.bits.length) :
    (mask.mark p v).bits.getD i 0 =
      if (mask.offset p).toNat = i then v else mask.bits.getD i 0 := by
  unfold QImage.mark
  simp only [getD_set]
  have : (mask.offset p).toNat < mask.bits.length := by omega
  by_cases h : (mask.offset p).toNat = i
  · rw [if_pos ⟨h, this⟩, if_pos h]
  · rw [if_neg (fun hh => h hh.1), if_neg h]

theorem mark_pix_self (p : QPoint) (v : Nat) (h0 : 0 ≤ mask.offset p)
    (h1 : mask.offset p < mask.bits.length) : (mask.mark p v).pix p = v := by
  have := mark_getD p v (mask.offset p).toNat h0 h1
  unfold QImage.pix
  have ho : (mask.mark p v).offset p = mask.offset p := rfl
  rw [ho, this]; simp

theorem mark_pix_of_ne_zero (p q : QPoint) (v : Nat) (hv : v ≠ 0) (h0 : 0 ≤ mask.offset p)
    (h1 : mask.offset p < mask.bits.length) (h : mask.pix q ≠ 0) :
    (mask.mark p v).pix q ≠ 0 := by
  have := mark_getD p v (mask.offset q).toNat h0 h1
  unfold QImage.pix at *
  have ho : (mask.mark p v).offset q = mask.offset q := rfl
  rw [ho, this]
  split <;> assumption

theorem mark_pix_ne (p a : QPoint) (v : Nat) (h0 : 0 ≤ mask.offset p)
    (h1 : mask.offset p < mask.bits.length)
    (hne : (mask.offset p).toNat ≠ (mask.offset a).toNat) :
    (mask.mark p v).pix a = mask.pix a := by
  have := mark_getD p v (mask.offset a).toNat h0 h1
  rw [if_neg hne] at this
  exact this

theorem mark_zeros (p : QPoint) (v : Nat) (hv : v ≠ 0) (h0 : 0 ≤ mask.offset p)
    (h1 : mask.offset p < mask.bits.length) (hz : mask.pix p = 0) :
    (mask.mark p v).zeros + 1 = mask.zeros := by
  unfold QImage.zeros QImage.mark
  exact count_zero_set _ _ _ (by omega) hz hv

end MaskFacts

end FloodFill

namespace FloodFill

/-! ## `floodFill`: the loop invariant and its consequences -/

theorem mem_pushNeighbours {referenceImage : QImage} {p : QPoint} {nodes : List QPoint}
    {n : QPoint} :
    n ∈ pushNeighbours referenceImage p nodes ↔
      n ∈ nodes ∨ (p.x > 0 ∧ n = ⟨p.x - 1, p.y⟩) ∨
        (p.x < (referenceImage.width : Int) - 1 ∧ n = ⟨p.x + 1, p.y⟩) ∨
        (p.y > 0 ∧ n = ⟨p.x, p.y - 1⟩) ∨
        (p.y < (referenceImage.height : Int) - 1 ∧ n = ⟨p.x, p.y + 1⟩) := by
  unfold pushNeighbours
  by_cases h1 : p.x > 0 <;> by_cases h2 : p.x < (referenceImage.width : Int) - 1 <;>
    by_cases h3 : p.y > 0 <;> by_cases h4 : p.y < (referenceImage.height : Int) - 1 <;>
    simp only [h1, h2, h3, h4, if_true, if_false, List.mem_cons, true_and, false_and,
      or_false, false_or] <;> tauto

theorem length_pushNeighbours (referenceImage : QImage) (p : QPoint) (nodes : List QPoint) :
    (pushNeighbours referenceImage p nodes).length ≤ nodes.length + 4 := by
  unfold pushNeighbours
  by_cases h1 : p.x > 0 <;> by_cases h2 : p.x < (referenceImage.width : Int) - 1 <;>
    by_cases h3 : p.y > 0 <;> by_cases h4 : p.y < (referenceImage.height : Int) - 1 <;>
    simp only [h1, h2, h3, h4, if_true, if_false, List.length_cons] <;> omega

theorem pushNeighbours_adjacent {referenceImage : QImage} {p n : QPoint} {nodes : List QPoint}
    (hp : referenceImage.inImage p) (h : n ∈ pushNeighbours referenceImage p nodes) :
    n ∈ nodes ∨ (adjacent p n ∧ referenceImage.inImage n) := by
  rw [mem_pushNeighbours] at h
  obtain ⟨p1, p2, p3, p4⟩ := hp
  unfold adjacent QImage.inImage
  rcases h with h | ⟨h, rfl⟩ | ⟨h, rfl⟩ | ⟨h, rfl⟩ | ⟨h, rfl⟩
  · exact Or.inl h
  · exact Or.inr ⟨Or.inl ⟨rfl, Or.inr rfl⟩, by simp only; omega, by simp only; omega, p3, p4⟩
  · exact Or.inr ⟨Or.inl ⟨rfl, Or.inl rfl⟩, by simp only; omega, by simp only; omega, p3, p4⟩
  · exact Or.inr ⟨Or.inr ⟨rfl, Or.inr rfl⟩, p1, p2, by simp only; omega, by simp only; omega⟩
  · exact Or.inr ⟨Or.inr ⟨rfl, Or.inl rfl⟩, p1, p2, by simp only; omega, by simp only; omega⟩

theorem adjacent_mem_pushNeighbours {referenceImage : QImage} {p q : QPoint}
    (nodes : List QPoint) (ha : adjacent p q) (hq : referenceImage.inImage q) :
    q ∈ pushNeighbours referenceImage p nodes := by
  rw [mem_pushNeighbours]
  obtain ⟨q1, q2, q3, q4⟩ := hq
  obtain ⟨qx, qy⟩ := q
  simp only at q1 q2 q3 q4
  simp only [QPoint.mk.injEq]
  unfold adjacent at ha
  simp only at ha
  rcases ha with ⟨hy, hx | hx⟩ | ⟨hx, hy | hy⟩
  · exact Or.inr (Or.inr (Or.inl ⟨by omega, hx, hy⟩))
  · exact Or.inr (Or.inl ⟨by omega, hx, hy⟩)
  · exact Or.inr (Or.inr (Or.inr (Or.inr ⟨by omega, hx, hy⟩)))
  · exact Or.inr (Or.inr (Or.inr (Or.inl ⟨by omega, hx, hy⟩)))

/-- A marked pixel of the image is joined to the seed and carries its graded value. -/
theorem sound_pix {referenceImage mask : QImage} {seedPoint : QPoint} {threshold : Nat}
    (hg : SameGeometry referenceImage mask)
    (hw : referenceImage.width ≤ referenceImage.bytesPerLine)
    (hs : MaskSound referenceImage seedPoint threshold mask) {p : QPoint}
    (hp : referenceImage.inImage p) (hm : mask.pix p ≠ 0) :
    Connected referenceImage seedPoint threshold p ∧
      mask.pix p =
        gradedValue (qAbs (referenceImage.pix p) (referenceImage.pix seedPoint)) threshold := by
  obtain ⟨q, hq, hoff, hc, hv⟩ := hs _ hm
  have hpq : q = p := by
    apply offset_inj hq hp hw
    have h1 := offset_nonneg hq
    have h2 := offset_nonneg hp
    rw [offset_geometry hg.2.2.1 p] at hoff
    omega
  subst hpq
  exact ⟨hc, hv⟩

/-- Marking an includable pixel that is the seed or next to a marked pixel keeps the mask
sound. -/
theorem sound_mark {referenceImage mask : QImage} {seedPoint : QPoint} {threshold : Nat}
    (hg : SameGeometry referenceImage mask)
    (hw : referenceImage.width ≤ referenceImage.bytesPerLine)
    (hs : MaskSound referenceImage seedPoint threshold mask) {p : QPoint}
    (hp : referenceImage.inImage p)
    (hc : Connected referenceImage seedPoint threshold p) :
    MaskSound referenceImage seedPoint threshold
      (mask.mark p
        (gradedValue (qAbs (referenceImage.pix p) (referenceImage.pix seedPoint)) threshold)) := by
  intro i hi
  obtain ⟨r0, r1⟩ := mask_offset_range hg hw hp
  rw [mark_getD p _ i r0 r1] at hi ⊢
  by_cases h : (mask.offset p).toNat = i
  · rw [if_pos h]
    refine ⟨p, hp, ?_, hc, rfl⟩
    rw [← offset_geometry hg.2.2.1 p]; exact h
  · rw [if_neg h] at hi ⊢
    exact hs i hi

/-- A point that is the seed or next to a marked pixel is joined to the seed as soon as it
passes the inclusion test. -/
theorem connected_of_just {referenceImage mask : QImage} {seedPoint : QPoint}
    {threshold : Nat} (hg : SameGeometry referenceImage mask)
    (hw : referenceImage.width ≤ referenceImage.bytesPerLine)
    (hs : MaskSound referenceImage seedPoint threshold mask) {n : QPoint}
    (hn : referenceImage.inImage n)
    (hi : includable referenceImage (referenceImage.pix seedPoint) threshold n)
    (hj : n = seedPoint ∨ ∃ p, referenceImage.inImage p ∧ adjacent p n ∧ mask.pix p ≠ 0) :
    Connected referenceImage seedPoint threshold n := by
  rcases hj with rfl | ⟨p, hp, ha, hm⟩
  · exact Connected.seed hn hi
  · exact Connected.step p n (sound_pix hg hw hs hp hm).1 ha hn hi

theorem floodFillStep_spec {referenceImage mask : QImage} {seedPoint p : QPoint}
    {threshold : Nat} {nodes : List QPoint} (hwf : referenceImage.WF)
    (ht : threshold ≤ 255)
    (inv : NaiveInv referenceImage seedPoint threshold mask (p :: nodes)) :
    ∃ mask' nodes',
      floodFillStep referenceImage (referenceImage.pix seedPoint) threshold mask p nodes =
        .ok (mask', nodes') ∧
      NaiveInv referenceImage seedPoint threshold mask' nodes' ∧
      4 * mask'.zeros + nodes'.length < 4 * mask.zeros + (p :: nodes).length := by
  have hw := hwf.2.1
  have hp : referenceImage.inImage p := inv.nodesIn p (List.mem_cons_self _ _)
  obtain ⟨m0, m1⟩ := mask_offset_range inv.geometry hw hp
  obtain ⟨r0, r1⟩ := ref_offset_range hwf hp
  -- the two ways of skipping the popped point
  have skip : (mask.pix p ≠ 0 ∨
      ¬ includable referenceImage (referenceImage.pix seedPoint) threshold p) →
      NaiveInv referenceImage seedPoint threshold mask nodes := by
    intro hdone
    refine ⟨inv.geometry, inv.sound, fun n hn => inv.nodesIn n (List.mem_cons_of_mem _ hn),
      fun n hn => inv.nodesJust n (List.mem_cons_of_mem _ hn), ?_, ?_⟩
    · rcases inv.seedDone with h | h | h
      · exact Or.inl h
      · exact Or.inr (Or.inl h)
      · rcases List.mem_cons.1 h with rfl | h
        · rcases hdone with h | h
          · exact Or.inl h
          · exact Or.inr (Or.inl h)
        · exact Or.inr (Or.inr h)
    · intro a q ha hm hadj hq
      rcases inv.closed a q ha hm hadj hq with h | h | h
      · exact Or.inl h
      · exact Or.inr (Or.inl h)
      · rcases List.mem_cons.1 h with rfl | h
        · rcases hdone with h | h
          · exact Or.inl h
          · exact Or.inr (Or.inl h)
        · exact Or.inr (Or.inr h)
  unfold floodFillStep
  rw [getPixel_eq m0 m1]
  simp only
  by_cases hm : mask.pix p > 0
  · rw [if_pos hm]
    exact ⟨mask, nodes, rfl, skip (Or.inl (by omega)), by simp⟩
  rw [if_neg hm, getPixel_eq r0 r1]
  simp only
  rw [difference8_eq (pix_lt_256 hwf p) (pix_lt_256 hwf seedPoint)]
  by_cases hd : qAbs (referenceImage.pix p) (referenceImage.pix seedPoint) ≥ threshold
  · rw [if_pos hd]
    refine ⟨mask, nodes, rfl, skip (Or.inr ?_), by simp⟩
    unfold includable; omega
  rw [if_neg hd]
  have hincl : includable referenceImage (referenceImage.pix seedPoint) threshold p := by
    unfold includable; omega
  rw [selectionValue_eq (by omega) ht]
  simp only
  rw [setPixel_eq _ m0 m1]
  simp only
  have hz : mask.pix p = 0 := by omega
  have hv := (gradedValue_bounds (Nat.lt_of_not_le hd) ht).1
  have hv0 : gradedValue (qAbs (referenceImage.pix p) (referenceImage.pix seedPoint))
      threshold ≠ 0 := by omega
  have hconn : Connected referenceImage seedPoint threshold p :=
    connected_of_just inv.geometry hw inv.sound hp hincl
      (inv.nodesJust p (List.mem_cons_self _ _))
  refine ⟨_, _, rfl, ⟨mark_geometry inv.geometry _ _, sound_mark inv.geometry hw inv.sound hp hconn,
    ?_, ?_, ?_, ?_⟩, ?_⟩
  · intro n hn
    rcases pushNeighbours_adjacent hp hn with h | h
    · exact inv.nodesIn n (List.mem_cons_of_mem _ h)
    · exact h.2
  · intro n hn
    rcases pushNeighbours_adjacent hp hn with h | h
    · rcases inv.nodesJust n (List.mem_cons_of_mem _ h) with h | ⟨a, ha, hadj, hma⟩
      · exact Or.inl h
      · exact Or.inr ⟨a, ha, hadj, mark_pix_of_ne_zero p a _ hv0 m0 m1 hma⟩
    · exact Or.inr ⟨p, hp, h.1, by rw [mark_pix_self p _ m0 m1]; exact hv0⟩
  · rcases inv.seedDone with h | h | h
    · exact Or.inl (mark_pix_of_ne_zero p _ _ hv0 m0 m1 h)
    · exact Or.inr (Or.inl h)
    · rcases List.mem_cons.1 h with rfl | h
      · exact Or.inl (by rw [mark_pix_self _ _ m0 m1]; exact hv0)
      · exact Or.inr (Or.inr (mem_pushNeighbours.2 (Or.inl h)))
  · intro a q ha hma hadj hq
    by_cases hap : a = p
    · subst hap
      exact Or.inr (Or.inr (adjacent_mem_pushNeighbours nodes hadj hq))
    · have hma' : mask.pix a ≠ 0 := by
        have hne : (mask.offset p).toNat ≠ (mask.offset a).toNat := by
          intro he
          apply hap
          apply offset_inj ha hp hw
          have h1 := offset_nonneg ha
          have h2 := offset_nonneg hp
          rw [offset_geometry inv.geometry.2.2.1 p, offset_geometry inv.geometry.2.2.1 a] at he
          omega
        rw [mark_pix_ne p a _ m0 m1 hne] at hma
        exact hma
      rcases inv.closed a q ha hma' hadj hq with h | h | h
      · exact Or.inl (mark_pix_of_ne_zero p _ _ hv0 m0 m1 h)
      · exact Or.inr (Or.inl h)
      · rcases List.mem_cons.1 h with rfl | h
        · exact Or.inl (by rw [mark_pix_self _ _ m0 m1]; exact hv0)
        · exact Or.inr (Or.inr (mem_pushNeighbours.2 (Or.inl h)))
  · have h1 := mark_zeros p _ hv0 m0 m1 hz
    have h2 := length_pushNeighbours referenceImage p nodes
    simp only [List.length_cons]
    omega

theorem floodFillLoop_spec {referenceImage : QImage} {seedPoint : QPoint} {threshold : Nat}
    (hwf : referenceImage.WF) (ht : threshold ≤ 255) :
    ∀ (fuel : Nat) (mask : QImage) (nodes : List QPoint),
      NaiveInv referenceImage seedPoint threshold mask nodes →
      4 * mask.zeros + nodes.length ≤ fuel →
      ∃ mask', floodFillLoop referenceImage (referenceImage.pix seedPoint) threshold fuel mask
          nodes = .ok mask' ∧ NaiveInv referenceImage seedPoint threshold mask' [] := by
  intro fuel
  induction fuel with
  | zero =>
    intro mask nodes inv hf
    cases nodes with
    | nil => exact ⟨mask, rfl, inv⟩
    | cons p nodes => simp at hf
  | succ fuel ih =>
    intro mask nodes inv hf
    cases nodes with
    | nil => exact ⟨mask, rfl, inv⟩
    | cons p nodes =>
      obtain ⟨mask', nodes', hstep, inv', hlt⟩ := floodFillStep_spec hwf ht inv
      obtain ⟨mask'', hloop, inv''⟩ := ih mask' nodes' inv' (by omega)
      refine ⟨mask'', ?_, inv''⟩
      simp only [floodFillLoop, hstep]
      exact hloop

/-- With an empty stack the invariant closes the marked set under includable neighbours. -/
theorem naiveInv_complete {referenceImage mask : QImage} {seedPoint : QPoint}
    {threshold : Nat} (inv : NaiveInv referenceImage seedPoint threshold mask []) (p : QPoint)
    (hc : Connected referenceImage seedPoint threshold p) : mask.pix p ≠ 0 := by
  induction hc with
  | seed hin hincl =>
    rcases inv.seedDone with h | h | h
    · exact h
    · exact absurd hincl h
    · simp at h
  | step a q _ hadj hq hincl ih =>
    have ha : referenceImage.inImage a := by
      rename_i hca
      cases hca with
      | seed h _ => exact h
      | step _ _ _ _ h _ => exact h
    rcases inv.closed a q ha ih hadj hq with h | h | h
    · exact h
    · exact absurd hincl h
    · simp at h

theorem initial_naiveInv (referenceImage : QImage) (seedPoint : QPoint) (threshold : Nat)
    (hs : referenceImage.inImage seedPoint) :
    NaiveInv referenceImage seedPoint threshold referenceImage.blank [seedPoint] := by
  refine ⟨blank_geometry _, ?_, ?_, ?_, ?_, ?_⟩
  · intro i hi; exact absurd (blank_getD _ i) hi
  · intro n hn; rw [List.mem_singleton.1 hn]; exact hs
  · intro n hn; exact Or.inl (List.mem_singleton.1 hn)
  · exact Or.inr (Or.inr (List.mem_singleton_self _))
  · intro p q _ hm; exact absurd (blank_pix _ p) hm

theorem floodFill_result {referenceImage : QImage} {seedPoint : QPoint} {threshold : Nat}
    (hwf : referenceImage.WF) (ht : threshold ≤ 255) (hs : referenceImage.inImage seedPoint) :
    ∃ mask, floodFill referenceImage seedPoint threshold = .ok mask ∧
      FillResult referenceImage seedPoint threshold mask := by
  obtain ⟨r0, r1⟩ := ref_offset_range hwf hs
  obtain ⟨mask, hloop, inv⟩ := floodFillLoop_spec hwf ht
    (4 * (referenceImage.bytesPerLine * referenceImage.height) + 1) referenceImage.blank
    [seedPoint] (initial_naiveInv referenceImage seedPoint threshold hs)
    (by rw [blank_zeros]; simp)
  refine ⟨mask, ?_, inv.geometry, inv.sound, naiveInv_complete inv⟩
  unfold floodFill
  simp only [(contains_rect referenceImage seedPoint).2 hs, Bool.not_true, Bool.false_eq_true,
    if_false, getPixel_eq r0 r1]
  exact hloop

end FloodFill

namespace FloodFill

/-! ## `floodFillScanLine`: the invariant of the span stack -/

section ScanLine

variable {referenceImage : QImage} {seedPoint : QPoint} {threshold : Nat}

theorem QPoint.eq_mk {q : QPoint} {x y : Int} (hx : q.x = x) (hy : q.y = y) : q = ⟨x, y⟩ := by
  cases q; simp_all

theorem Connected.inImage {p : QPoint} (h : Connected referenceImage seedPoint threshold p) :
    referenceImage.inImage p := by
  cases h with
  | seed h _ => exact h
  | step _ _ _ _ h _ => exact h

theorem Connected.includable {p : QPoint}
    (h : Connected referenceImage seedPoint threshold p) :
    includable referenceImage (referenceImage.pix seedPoint) threshold p := by
  cases h with
  | seed _ h => exact h
  | step _ _ _ _ _ h => exact h

theorem just_mono {mask mask' : QImage} {q : QPoint}
    (hm : ∀ p, mask.pix p ≠ 0 → mask'.pix p ≠ 0)
    (h : Just referenceImage mask seedPoint q) : Just referenceImage mask' seedPoint q := by
  rcases h with h | ⟨p, hp, ha, hpm⟩
  · exact Or.inl h
  · exact Or.inr ⟨p, hp, ha, hm p hpm⟩

theorem spanOK_mono {mask mask' : QImage} {s : Span}
    (hm : ∀ p, mask.pix p ≠ 0 → mask'.pix p ≠ 0)
    (h : SpanOK referenceImage mask seedPoint s) : SpanOK referenceImage mask' seedPoint s := by
  obtain ⟨h1, h2, h3, h4, h5⟩ := h
  exact ⟨h1, h2, h3, h4, fun x a b c d => just_mono hm (h5 x a b c d)⟩

theorem ScanCore.weaken {mask : QImage} {spans : List Span} {E E' : QPoint → Prop}
    (core : ScanCore referenceImage seedPoint threshold mask spans E)
    (h : ∀ q, referenceImage.inImage q → E q →
      mask.pix q ≠ 0 ∨ ¬ includable referenceImage (referenceImage.pix seedPoint) threshold q ∨
        Covered spans q ∨ E' q) :
    ScanCore referenceImage seedPoint threshold mask spans E' := by
  refine ⟨core.geometry, core.sound, core.spansOK, ?_⟩
  intro q hq hj
  rcases core.front q hq hj with h1 | h1 | h1 | h1
  · exact Or.inl h1
  · exact Or.inr (Or.inl h1)
  · exact Or.inr (Or.inr (Or.inl h1))
  · exact h q hq h1

/-- Marking an unmarked pixel joined to the seed keeps the invariant, for any exception set
that accounts for the neighbours of the pixel. -/
theorem ScanCore.mark {mask : QImage} {spans : List Span} {E : QPoint → Prop}
    (core : ScanCore referenceImage seedPoint threshold mask spans E) (E' : QPoint → Prop)
    (hw : referenceImage.width ≤ referenceImage.bytesPerLine) (ht : threshold ≤ 255)
    {p : QPoint} (hc : Connected referenceImage seedPoint threshold p)
    (hE : ∀ q, referenceImage.inImage q → E q → q = p ∨ E' q)
    (hN : ∀ q, referenceImage.inImage q → adjacent p q →
      mask.pix q ≠ 0 ∨ ¬ includable referenceImage (referenceImage.pix seedPoint) threshold q ∨
        Covered spans q ∨ E' q) :
    ScanCore referenceImage seedPoint threshold
      (mask.mark p
        (gradedValue (qAbs (referenceImage.pix p) (referenceImage.pix seedPoint)) threshold))
      spans E' := by
  have hp := hc.inImage
  obtain ⟨m0, m1⟩ := mask_offset_range core.geometry hw hp
  have hv0 : gradedValue (qAbs (referenceImage.pix p) (referenceImage.pix seedPoint))
      threshold ≠ 0 := by
    have := (gradedValue_bounds hc.includable ht).1
    omega
  have mono : ∀ a, mask.pix a ≠ 0 → (mask.mark p (gradedValue (qAbs (referenceImage.pix p)
      (referenceImage.pix seedPoint)) threshold)).pix a ≠ 0 :=
    fun a ha => mark_pix_of_ne_zero p a _ hv0 m0 m1 ha
  have self : (mask.mark p (gradedValue (qAbs (referenceImage.pix p)
      (referenceImage.pix seedPoint)) threshold)).pix p ≠ 0 := by
    rw [mark_pix_self p _ m0 m1]; exact hv0
  have lift : ∀ q, (mask.pix q ≠ 0 ∨
      ¬ includable referenceImage (referenceImage.pix seedPoint) threshold q ∨
        Covered spans q ∨ E' q) →
      ((mask.mark p (gradedValue (qAbs (referenceImage.pix p)
        (referenceImage.pix seedPoint)) threshold)).pix q ≠ 0 ∨
      ¬ includable referenceImage (referenceImage.pix seedPoint) threshold q ∨
        Covered spans q ∨ E' q) := by
    intro q h
    rcases h with h | h
    · exact Or.inl (mono q h)
    · exact Or.inr h
  refine ⟨mark_geometry core.geometry _ _, sound_mark core.geometry hw core.sound hp hc,
    fun s hs => spanOK_mono mono (core.spansOK s hs), ?_⟩
  intro q hq hj
  have old : Just referenceImage mask seedPoint q →
      ((mask.mark p (gradedValue (qAbs (referenceImage.pix p)
        (referenceImage.pix seedPoint)) threshold)).pix q ≠ 0 ∨
      ¬ includable referenceImage (referenceImage.pix seedPoint) threshold q ∨
        Covered spans q ∨ E' q) := fun hj' => by
    rcases core.front q hq hj' with h | h | h | h
    · exact Or.inl (mono q h)
    · exact Or.inr (Or.inl h)
    · exact Or.inr (Or.inr (Or.inl h))
    · rcases hE q hq h with rfl | h
      · exact Or.inl self
      · exact Or.inr (Or.inr (Or.inr h))
  rcases hj with h | ⟨a, ha, hadj, hma⟩
  · exact old (Or.inl h)
  · by_cases hap : a = p
    · subst hap
      exact lift q (hN q hq hadj)
    · have hne : (mask.offset p).toNat ≠ (mask.offset a).toNat := by
        intro he
        apply hap
        apply offset_inj ha hp hw
        have h1 := offset_nonneg ha
        have h2 := offset_nonneg hp
        rw [offset_geometry core.geometry.2.2.1 p,
          offset_geometry core.geometry.2.2.1 a] at he
        omega
      rw [mark_pix_ne p a _ m0 m1 hne] at hma
      exact old (Or.inr ⟨a, ha, hadj, hma⟩)

/-- The code of one marking step: the four results on an unmarked includable pixel. -/
theorem mark_code (seedPoint : QPoint) {mask : QImage} (hwf : referenceImage.WF) (ht : threshold ≤ 255)
    (hg : SameGeometry referenceImage mask) {p : QPoint} (hp : referenceImage.inImage p) :
    getPixel mask p = .ok (mask.pix p) ∧ getPixel referenceImage p = .ok (referenceImage.pix p) ∧
    difference8 (referenceImage.pix p) (referenceImage.pix seedPoint) =
      qAbs (referenceImage.pix p) (referenceImage.pix seedPoint) ∧
    (includable referenceImage (referenceImage.pix seedPoint) threshold p →
      selectionValue (qAbs (referenceImage.pix p) (referenceImage.pix seedPoint)) threshold =
        .ok (gradedValue (qAbs (referenceImage.pix p) (referenceImage.pix seedPoint))
          threshold)) ∧
    ∀ v, setPixel mask p v = .ok (mask.mark p v) := by
  obtain ⟨m0, m1⟩ := mask_offset_range hg hwf.2.1 hp
  obtain ⟨r0, r1⟩ := ref_offset_range hwf hp
  exact ⟨getPixel_eq m0 m1, getPixel_eq r0 r1,
    difference8_eq (pix_lt_256 hwf p) (pix_lt_256 hwf seedPoint),
    fun hi => selectionValue_eq hi ht, fun v => setPixel_eq v m0 m1⟩

theorem mark_zeros' (seedPoint : QPoint) {mask : QImage} (hw : referenceImage.width ≤ referenceImage.bytesPerLine)
    (ht : threshold ≤ 255) (hg : SameGeometry referenceImage mask) {p : QPoint}
    (hp : referenceImage.inImage p) (hz : mask.pix p = 0)
    (hi : includable referenceImage (referenceImage.pix seedPoint) threshold p) :
    (mask.mark p (gradedValue (qAbs (referenceImage.pix p) (referenceImage.pix seedPoint))
      threshold)).zeros + 1 = mask.zeros ∧
    ∀ a, mask.pix a ≠ 0 → (mask.mark p (gradedValue (qAbs (referenceImage.pix p)
      (referenceImage.pix seedPoint)) threshold)).pix a ≠ 0 := by
  obtain ⟨m0, m1⟩ := mask_offset_range hg hw hp
  have hv0 : gradedValue (qAbs (referenceImage.pix p) (referenceImage.pix seedPoint))
      threshold ≠ 0 := by
    have := (gradedValue_bounds hi ht).1
    omega
  exact ⟨mark_zeros p _ hv0 m0 m1 hz, fun a ha => mark_pix_of_ne_zero p a _ hv0 m0 m1 ha⟩

theorem mark_pix_inImage_ne {mask : QImage} (hg : SameGeometry referenceImage mask)
    (hw : referenceImage.width ≤ referenceImage.bytesPerLine) {p a : QPoint} {v : Nat}
    (hp : referenceImage.inImage p) (ha : referenceImage.inImage a) (hne : a ≠ p) :
    (mask.mark p v).pix a = mask.pix a := by
  obtain ⟨m0, m1⟩ := mask_offset_range hg hw hp
  apply mark_pix_ne p a v m0 m1
  intro he
  apply hne
  apply offset_inj ha hp hw
  have h1 := offset_nonneg ha
  have h2 := offset_nonneg hp
  rw [offset_geometry hg.2.2.1 p, offset_geometry hg.2.2.1 a] at he
  omega

end ScanLine

end FloodFill

namespace FloodFill

section ScanLineLoops

variable {referenceImage : QImage} {seedPoint : QPoint} {threshold : Nat}

theorem leftOK_mono {mask mask' : QImage} {y a : Int}
    (hm : ∀ p, mask.pix p ≠ 0 → mask'.pix p ≠ 0)
    (h : LeftOK referenceImage mask (referenceImage.pix seedPoint) threshold y a) :
    LeftOK referenceImage mask' (referenceImage.pix seedPoint) threshold y a := by
  intro hin
  rcases h hin with h | h | h | h
  · exact Or.inl (hm _ h)
  · exact Or.inr (Or.inl h)
  · exact Or.inr (Or.inr (Or.inl (hm _ h)))
  · exact Or.inr (Or.inr (Or.inr h))

theorem inImage_row {s : Span} (ctx : SpanCtx referenceImage threshold s) {x : Int}
    (h0 : 0 ≤ x) (h1 : x < (referenceImage.width : Int)) :
    referenceImage.inImage ⟨x, s.y⟩ :=
  ⟨h0, h1, ctx.y0, ctx.y1⟩

theorem scanLineRight_spec {s : Span} (ctx : SpanCtx referenceImage threshold s)
    {spans : List Span} {x1 : Int} :
    ∀ (fuel : Nat) (mask : QImage) (x2 : Int),
      RightInv referenceImage seedPoint threshold s spans x1 mask x2 →
      ((referenceImage.width : Int) - x2).toNat < fuel →
      ∃ mask' x2',
        scanLineRight referenceImage (referenceImage.pix seedPoint) threshold s.y fuel mask x2 =
          .ok (mask', x2') ∧
        RightPost referenceImage seedPoint threshold s spans x1 mask x2 mask' x2' := by
  intro fuel
  induction fuel with
  | zero => intro mask x2 _ hf; omega
  | succ fuel ih =>
    intro mask x2 inv hf
    unfold scanLineRight
    by_cases hx : x2 ≥ (referenceImage.width : Int)
    · rw [if_pos hx]
      refine ⟨mask, x2, rfl, ?_, le_refl _, inv.le_w, inv.pend, fun _ h => h, by simp,
        fun h => by omega⟩
      apply inv.core.weaken
      intro q hq he
      obtain ⟨_, q2, _, _⟩ := hq
      refine Or.inr (Or.inr (Or.inr ?_))
      unfold RowExc at he ⊢
      rcases he with ⟨hy, h | h⟩ | h
      · omega
      · omega
      · exact Or.inr h
    rw [if_neg hx]
    have hp : referenceImage.inImage ⟨x2, s.y⟩ :=
      inImage_row ctx (by have := inv.x1_nonneg; have := inv.le; omega) (by omega)
    obtain ⟨c1, c2, c3, c4, c5⟩ :=
      mark_code seedPoint ctx.wf ctx.ht inv.core.geometry hp
    -- the scan stops at a marked or excluded pixel
    have stopHere : (mask.pix ⟨x2, s.y⟩ ≠ 0 ∨
        ¬ includable referenceImage (referenceImage.pix seedPoint) threshold ⟨x2, s.y⟩) →
        RightPost referenceImage seedPoint threshold s spans x1 mask x2 mask x2 := by
      intro hdone
      refine ⟨?_, le_refl _, inv.le_w, inv.pend, fun _ h => h, by simp, fun _ => hdone⟩
      apply inv.core.weaken
      intro q hq he
      unfold RowExc at he
      have hcase : q = ⟨x2, s.y⟩ ∨ RowExc s x1 x2 (x2 + 1) (fun _ => False) q := by
        unfold RowExc
        rcases he with ⟨hy, h | h⟩ | h
        · by_cases hqx : q.x = x2
          · exact Or.inl (QPoint.eq_mk hqx hy)
          · exact Or.inr (Or.inl ⟨hy, Or.inl ⟨by omega, h.2⟩⟩)
        · exact Or.inl (QPoint.eq_mk h hy)
        · exact Or.inr (Or.inr h)
      rcases hcase with rfl | h
      · rcases hdone with h | h
        · exact Or.inl h
        · exact Or.inr (Or.inl h)
      · exact Or.inr (Or.inr (Or.inr h))
    rw [c1]
    simp only
    by_cases hm : mask.pix ⟨x2, s.y⟩ > 0
    · rw [if_pos hm]
      exact ⟨mask, x2, rfl, stopHere (Or.inl (by omega))⟩
    rw [if_neg hm, c2]
    simp only
    rw [c3]
    by_cases hd : qAbs (referenceImage.pix ⟨x2, s.y⟩) (referenceImage.pix seedPoint) ≥ threshold
    · rw [if_pos hd]
      exact ⟨mask, x2, rfl, stopHere (Or.inr (by unfold includable; omega))⟩
    rw [if_neg hd]
    have hincl : includable referenceImage (referenceImage.pix seedPoint) threshold
        ⟨x2, s.y⟩ := by unfold includable; omega
    have hz : mask.pix ⟨x2, s.y⟩ = 0 := by omega
    have hconn := inv.conn (by omega) hincl
    rw [c4 hincl]
    simp only
    rw [c5]
    simp only
    obtain ⟨z1, mono1⟩ := mark_zeros' seedPoint ctx.wf.2.1 ctx.ht
      inv.core.geometry hp hz hincl
    have core' := inv.core.mark (RowExc s x1 (x2 + 1) (x2 + 1) (fun x => x = x2 + 1))
      ctx.wf.2.1 ctx.ht hconn
      (by
        intro q _ he
        unfold RowExc at he ⊢
        rcases he with ⟨hy, h | h⟩ | h
        · by_cases hqx : q.x = x2
          · exact Or.inl (QPoint.eq_mk hqx hy)
          · exact Or.inr (Or.inl ⟨hy, Or.inl ⟨by omega, h.2⟩⟩)
        · exact Or.inl (QPoint.eq_mk h hy)
        · exact Or.inr (Or.inr ⟨h.1, h.2.1, by omega⟩))
      (by
        intro q hq hadj
        unfold adjacent at hadj
        simp only at hadj
        rcases hadj with ⟨hy, hx | hx⟩ | ⟨hx, hy⟩
        · exact Or.inr (Or.inr (Or.inr (Or.inl ⟨hy, Or.inr hx⟩)))
        · have hq' : q = ⟨x2 - 1, s.y⟩ := QPoint.eq_mk hx hy
          by_cases hrun : x1 ≤ x2 - 1
          · exact Or.inl (by rw [hq']; exact inv.pend _ hrun (by omega))
          · have hx1 : x1 = x2 := by have := inv.le; omega
            have hl := inv.leftOK
            rw [hx1] at hl
            rcases hl (hq' ▸ hq) with h | h | h | h
            · exact Or.inl (hq' ▸ h)
            · exact Or.inr (Or.inl (hq' ▸ h))
            · exact absurd hz h
            · exact absurd hincl h
        · refine Or.inr (Or.inr (Or.inr (Or.inr ⟨hy, ?_, ?_⟩)))
          · have := inv.le; omega
          · omega)
    have inv' : RightInv referenceImage seedPoint threshold s spans x1
        (mask.mark ⟨x2, s.y⟩ (gradedValue (qAbs (referenceImage.pix ⟨x2, s.y⟩)
          (referenceImage.pix seedPoint)) threshold)) (x2 + 1) := by
      refine ⟨core', inv.x1_nonneg, by have := inv.le; omega, by omega, ?_, ?_,
        leftOK_mono mono1 inv.leftOK⟩
      · intro x h1 h2
        by_cases hx2 : x = x2
        · subst hx2
          obtain ⟨m0, m1⟩ := mask_offset_range inv.core.geometry ctx.wf.2.1 hp
          rw [mark_pix_self _ _ m0 m1]
          have := (gradedValue_bounds hincl ctx.ht).1
          omega
        · exact mono1 _ (inv.pend x h1 (by omega))
      · intro hw hi
        exact Connected.step _ _ hconn (Or.inl ⟨rfl, Or.inl rfl⟩)
          (inImage_row ctx (by have := hp.1; simp only at this; omega) hw) hi
    obtain ⟨mask'', x2', hrun, post⟩ := ih _ (x2 + 1) inv' (by omega)
    refine ⟨mask'', x2', hrun, post.core, by have := post.le; omega, post.le_w, post.pend,
      fun q h => post.mono q (mono1 q h), ?_, post.stop⟩
    have := post.zeros
    have := post.le
    omega

theorem scanLineLeft_spec {s : Span} (ctx : SpanCtx referenceImage threshold s)
    {spans : List Span} :
    ∀ (fuel : Nat) (mask : QImage) (x1 : Int),
      LeftInv referenceImage seedPoint threshold s spans mask x1 →
      x1.toNat < fuel →
      ∃ mask' x1',
        scanLineLeft referenceImage (referenceImage.pix seedPoint) threshold s.y fuel mask x1 =
          .ok (mask', x1') ∧
        LeftPost referenceImage seedPoint threshold s spans mask x1 mask' x1' := by
  intro fuel
  induction fuel with
  | zero => intro mask x1 _ hf; omega
  | succ fuel ih =>
    intro mask x1 inv hf
    unfold scanLineLeft
    by_cases hx : x1 - 1 < 0
    · rw [if_pos hx]
      refine ⟨mask, x1, rfl, ?_, inv.x1_nonneg, le_refl _, inv.pend, inv.first, fun _ h => h,
        by simp, fun h => by have := h.1; simp only at this; omega⟩
      apply inv.core.weaken
      intro q hq he
      obtain ⟨q1, _, _, _⟩ := hq
      refine Or.inr (Or.inr (Or.inr ?_))
      unfold RowExc at he ⊢
      rcases he with ⟨hy, h | h⟩ | h
      · exact Or.inl ⟨hy, Or.inl h⟩
      · omega
      · exact Or.inr h
    rw [if_neg hx]
    have hp : referenceImage.inImage ⟨x1 - 1, s.y⟩ :=
      inImage_row ctx (by omega) (by have := inv.le; have := ctx.x12; have := ctx.x2w; omega)
    obtain ⟨c1, c2, c3, c4, c5⟩ :=
      mark_code seedPoint ctx.wf ctx.ht inv.core.geometry hp
    have stopHere : (mask.pix ⟨x1 - 1, s.y⟩ ≠ 0 ∨
        ¬ includable referenceImage (referenceImage.pix seedPoint) threshold ⟨x1 - 1, s.y⟩) →
        LeftPost referenceImage seedPoint threshold s spans mask x1 mask x1 := by
      intro hdone
      refine ⟨?_, inv.x1_nonneg, le_refl _, inv.pend, inv.first, fun _ h => h, by simp,
        fun _ => hdone⟩
      apply inv.core.weaken
      intro q hq he
      unfold RowExc at he
      have hcase : q = ⟨x1 - 1, s.y⟩ ∨ RowExc s x1 s.x1 s.x1 (fun _ => False) q := by
        unfold RowExc
        rcases he with ⟨hy, h | h⟩ | h
        · exact Or.inr (Or.inl ⟨hy, Or.inl h⟩)
        · exact Or.inl (QPoint.eq_mk h hy)
        · exact Or.inr (Or.inr h)
      rcases hcase with rfl | h
      · rcases hdone with h | h
        · exact Or.inl h
        · exact Or.inr (Or.inl h)
      · exact Or.inr (Or.inr (Or.inr h))
    rw [c1]
    simp only
    by_cases hm : mask.pix ⟨x1 - 1, s.y⟩ > 0
    · rw [if_pos hm]
      exact ⟨mask, x1, rfl, stopHere (Or.inl (by omega))⟩
    rw [if_neg hm, c2]
    simp only
    rw [c3]
    by_cases hd : qAbs (referenceImage.pix ⟨x1 - 1, s.y⟩) (referenceImage.pix seedPoint) ≥
        threshold
    · rw [if_pos hd]
      exact ⟨mask, x1, rfl, stopHere (Or.inr (by unfold includable; omega))⟩
    rw [if_neg hd]
    have hincl : includable referenceImage (referenceImage.pix seedPoint) threshold
        ⟨x1 - 1, s.y⟩ := by unfold includable; omega
    have hz : mask.pix ⟨x1 - 1, s.y⟩ = 0 := by omega
    have hconn : Connected referenceImage seedPoint threshold ⟨x1 - 1, s.y⟩ :=
      Connected.step _ _ inv.conn (Or.inl ⟨rfl, Or.inr rfl⟩) hp hincl
    rw [c4 hincl]
    simp only
    rw [c5]
    simp only
    obtain ⟨z1, mono1⟩ := mark_zeros' seedPoint ctx.wf.2.1 ctx.ht
      inv.core.geometry hp hz hincl
    have core' := inv.core.mark
      (RowExc s (x1 - 1) s.x1 s.x1 (fun x => x = x1 - 1 - 1))
      ctx.wf.2.1 ctx.ht hconn
      (by
        intro q _ he
        unfold RowExc at he ⊢
        rcases he with ⟨hy, h | h⟩ | h
        · exact Or.inr (Or.inl ⟨hy, Or.inl h⟩)
        · exact Or.inl (QPoint.eq_mk h hy)
        · exact Or.inr (Or.inr ⟨h.1, by omega, h.2.2⟩))
      (by
        intro q hq hadj
        unfold adjacent at hadj
        simp only at hadj
        rcases hadj with ⟨hy, hx | hx⟩ | ⟨hx, hy⟩
        · have hq' : q = ⟨x1, s.y⟩ := QPoint.eq_mk (by omega) hy
          by_cases hrun : x1 < s.x1
          · exact Or.inl (by rw [hq']; exact inv.pend _ (le_refl _) hrun)
          · refine Or.inr (Or.inr (Or.inr (Or.inl ⟨hy, Or.inl ⟨?_, ?_⟩⟩)))
            · have := inv.le; omega
            · have := inv.le; have := ctx.x12; omega
        · exact Or.inr (Or.inr (Or.inr (Or.inl ⟨hy, Or.inr hx⟩)))
        · refine Or.inr (Or.inr (Or.inr (Or.inr ⟨hy, by omega, ?_⟩)))
          have := inv.le; omega)
    have inv' : LeftInv referenceImage seedPoint threshold s spans
        (mask.mark ⟨x1 - 1, s.y⟩ (gradedValue (qAbs (referenceImage.pix ⟨x1 - 1, s.y⟩)
          (referenceImage.pix seedPoint)) threshold)) (x1 - 1) := by
      refine ⟨core', by omega, by have := inv.le; omega, ?_, ?_, hconn⟩
      · intro x h1 h2
        by_cases hx2 : x = x1 - 1
        · subst hx2
          obtain ⟨m0, m1⟩ := mask_offset_range inv.core.geometry ctx.wf.2.1 hp
          rw [mark_pix_self _ _ m0 m1]
          have := (gradedValue_bounds hincl ctx.ht).1
          omega
        · exact mono1 _ (inv.pend x (by omega) h2)
      · rw [mark_pix_inImage_ne inv.core.geometry ctx.wf.2.1 hp
          (inImage_row ctx ctx.x0 (by have := ctx.x12; have := ctx.x2w; omega))]
        · exact inv.first
        · intro he
          have := congrArg QPoint.x he
          simp only at this
          have := inv.le
          omega
    obtain ⟨mask'', x1', hrun, post⟩ := ih _ (x1 - 1) inv' (by omega)
    refine ⟨mask'', x1', hrun, post.core, post.x1_nonneg, by have := post.le; omega,
      post.pend, post.first, fun q h => post.mono q (mono1 q h), ?_, post.stop⟩
    have := post.zeros
    have := post.le
    omega

theorem scanLineSkip_spec (seedPoint : QPoint) {s : Span} (ctx : SpanCtx referenceImage threshold s)
    {mask : QImage} (hg : SameGeometry referenceImage mask) :
    ∀ (fuel : Nat) (x2 : Int), 0 ≤ x2 → (s.x2 - x2).toNat < fuel →
      ∃ x2', scanLineSkip referenceImage (referenceImage.pix seedPoint) threshold mask s fuel
          x2 = .ok x2' ∧ x2 ≤ x2' ∧ ∀ x, x2 ≤ x → x < x2' → mask.pix ⟨x, s.y⟩ ≠ 0 := by
  intro fuel
  induction fuel with
  | zero => intro x2 _ hf; omega
  | succ fuel ih =>
    intro x2 h0 hf
    unfold scanLineSkip
    by_cases hc : x2 < s.x2 ∧ x2 < (referenceImage.width : Int)
    · rw [if_pos hc]
      have hp : referenceImage.inImage ⟨x2, s.y⟩ := inImage_row ctx h0 hc.2
      obtain ⟨c1, c2, _, _, _⟩ := mark_code seedPoint ctx.wf ctx.ht hg hp
      rw [c1]
      simp only
      by_cases hm : mask.pix ⟨x2, s.y⟩ > 0
      · rw [if_pos hm, c2]
        simp only
        by_cases hd : qAbs (referenceImage.pix ⟨x2, s.y⟩) (referenceImage.pix seedPoint) ≥
            threshold
        · rw [if_pos hd]
          obtain ⟨x2', hrun, hle, hall⟩ := ih (x2 + 1) (by omega) (by omega)
          refine ⟨x2', hrun, by omega, ?_⟩
          intro x h1 h2
          by_cases hx : x = x2
          · subst hx; omega
          · exact hall x (by omega) h2
        · rw [if_neg hd]
          exact ⟨x2, rfl, le_refl _, fun x h1 h2 => by omega⟩
      · rw [if_neg hm]
        exact ⟨x2, rfl, le_refl _, fun x h1 h2 => by omega⟩
    · rw [if_neg hc]
      exact ⟨x2, rfl, le_refl _, fun x h1 h2 => by omega⟩

end ScanLineLoops

end FloodFill

namespace FloodFill

section ScanLineOuter

variable {referenceImage : QImage} {seedPoint : QPoint} {threshold : Nat}

/-- Pushing the two child spans of a marked run covers the rows above and below it. -/
theorem ScanCore.pushChildren {s : Span} (ctx : SpanCtx referenceImage threshold s)
    {mask : QImage} {spans : List Span} {x1 x2 c : Int}
    (core : ScanCore referenceImage seedPoint threshold mask spans
      (RowExc s x1 x2 c (fun _ => False)))
    (h0 : 0 ≤ x1) (hlt : x1 < x2) (hw : x2 ≤ (referenceImage.width : Int))
    (pend : ∀ x, x1 ≤ x → x < x2 → mask.pix ⟨x, s.y⟩ ≠ 0) :
    ScanCore referenceImage seedPoint threshold mask
      ((⟨x1, x2 - 1, s.y + s.dy, s.dy⟩ : Span) :: ⟨x1, x2 - 1, s.y - s.dy, -s.dy⟩ :: spans)
      (RowExc s c c c (fun _ => False)) := by
  have child : ∀ y' : Int, (y' = s.y + 1 ∨ y' = s.y - 1) → ∀ x, x1 ≤ x → x ≤ x2 - 1 →
      Just referenceImage mask seedPoint ⟨x, y'⟩ := by
    intro y' hy' x hx1 hx2
    exact Or.inr ⟨⟨x, s.y⟩, inImage_row ctx (by omega) (by omega), Or.inr ⟨rfl, hy'⟩,
      pend x hx1 (by omega)⟩
  refine ⟨core.geometry, core.sound, ?_, ?_⟩
  · intro t ht
    rcases List.mem_cons.1 ht with rfl | ht
    · refine ⟨h0, by simp only; omega, by simp only; omega, ctx.dy, ?_⟩
      intro x hx1 hx2 _ _
      exact child _ (by have := ctx.dy; simp only; omega) x hx1 hx2
    rcases List.mem_cons.1 ht with rfl | ht
    · refine ⟨h0, by simp only; omega, by simp only; omega, by have := ctx.dy; simp only; omega,
        ?_⟩
      intro x hx1 hx2 _ _
      exact child _ (by have := ctx.dy; simp only; omega) x hx1 hx2
    · exact core.spansOK t ht
  · intro q hq hj
    rcases core.front q hq hj with h | h | h | h
    · exact Or.inl h
    · exact Or.inr (Or.inl h)
    · obtain ⟨t, ht, hc⟩ := h
      exact Or.inr (Or.inr (Or.inl ⟨t, List.mem_cons_of_mem _ (List.mem_cons_of_mem _ ht), hc⟩))
    · unfold RowExc at h
      rcases h with ⟨hy, h | h⟩ | ⟨hy, ha, hb⟩
      · exact Or.inr (Or.inr (Or.inr (Or.inl ⟨hy, Or.inl h⟩)))
      · exact absurd h id
      · refine Or.inr (Or.inr (Or.inl ?_))
        have hdy := ctx.dy
        by_cases hfirst : q.y = s.y + s.dy
        · exact ⟨_, List.mem_cons_self _ _, by simp only; omega, by simp only; omega,
            by simp only; omega⟩
        · exact ⟨_, List.mem_cons_of_mem _ (List.mem_cons_self _ _), by simp only; omega,
            by simp only; omega, by simp only; omega⟩

theorem scanLineOuter_spec {s : Span} (ctx : SpanCtx referenceImage threshold s) :
    ∀ (fuel : Nat) (mask : QImage) (spans : List Span) (x1 x2 : Int),
      OuterInv referenceImage seedPoint threshold s mask spans x1 x2 →
      (s.x2 - x2 + 1).toNat < fuel →
      ∃ mask' spans',
        scanLineOuter referenceImage (referenceImage.pix seedPoint) threshold s fuel mask spans
          x1 x2 = .ok (mask', spans') ∧
        ScanCore referenceImage seedPoint threshold mask' spans' (fun _ => False) ∧
        2 * mask'.zeros + spans'.length ≤
          2 * mask.zeros + spans.length + (if x1 < x2 then 2 else 0) := by
  intro fuel
  induction fuel with
  | zero => intro mask spans x1 x2 _ hf; omega
  | succ fuel ih =>
    intro mask spans x1 x2 inv hf
    unfold scanLineOuter
    by_cases hx : x2 ≤ s.x2
    · rw [if_pos hx]
      have hx2w := ctx.x2w
      have rinv : RightInv referenceImage seedPoint threshold s spans x1 mask x2 := by
        refine ⟨?_, inv.x1_nonneg, inv.le, by omega, inv.pend, ?_, inv.leftOK⟩
        · apply inv.core.weaken
          intro q _ he
          refine Or.inr (Or.inr (Or.inr ?_))
          unfold RowExc at he ⊢
          rcases he with ⟨hy, h | h⟩ | h
          · exact Or.inl ⟨hy, Or.inl h⟩
          · exact absurd h id
          · exact Or.inr h
        · intro hw hi
          exact connected_of_just inv.core.geometry ctx.wf.2.1 inv.core.sound
            (inImage_row ctx (by have := inv.x1_nonneg; have := inv.le; omega) hw) hi
            (inv.spanJust x2 inv.lo hx)
      obtain ⟨mask', x2', hright, post⟩ := scanLineRight_spec ctx
        ((referenceImage.width : Int) - x2).toNat.succ mask x2 rinv (Nat.lt_succ_self _)
      rw [hright]
      simp only
      -- the stack after the conditional push
      obtain ⟨spans', hspans', hcore', hlen'⟩ : ∃ spans' : List Span,
          spans' = (if x2' > x1 then
            (⟨x1, x2' - 1, s.y + s.dy, s.dy⟩ : Span) :: ⟨x1, x2' - 1, s.y - s.dy, -s.dy⟩ :: spans
            else spans) ∧
          ScanCore referenceImage seedPoint threshold mask' spans'
            (RowExc s (x2' + 1) (x2' + 1) (x2' + 1) (fun _ => False)) ∧
          spans'.length = spans.length + (if x2' > x1 then 2 else 0) := by
        by_cases hpush : x2' > x1
        · refine ⟨_, rfl, ?_, ?_⟩
          · rw [if_pos hpush]
            exact post.core.pushChildren ctx inv.x1_nonneg hpush post.le_w post.pend
          · rw [if_pos hpush, if_pos hpush]; simp
        · refine ⟨_, rfl, ?_, ?_⟩
          · rw [if_neg hpush]
            apply post.core.weaken
            intro q _ he
            refine Or.inr (Or.inr (Or.inr ?_))
            unfold RowExc at he ⊢
            rcases he with ⟨hy, h | h⟩ | h
            · exact Or.inl ⟨hy, Or.inl h⟩
            · exact absurd h id
            · omega
          · rw [if_neg hpush, if_neg hpush]; simp
      rw [← hspans']
      have hx2'0 : 0 ≤ x2' + 1 := by
        have := inv.x1_nonneg; have := inv.le; have := post.le; omega
      obtain ⟨x2'', hskip, hle'', hskipped⟩ := scanLineSkip_spec seedPoint ctx
        hcore'.geometry (s.x2 - (x2' + 1)).toNat.succ (x2' + 1) hx2'0 (Nat.lt_succ_self _)
      rw [hskip]
      simp only
      have oinv : OuterInv referenceImage seedPoint threshold s mask' spans' x2'' x2'' := by
        refine ⟨?_, by omega, le_refl _, by have := inv.lo; have := post.le; omega,
          fun x h1 h2 => by omega, fun h => by omega,
          fun x h1 h2 => just_mono post.mono (inv.spanJust x h1 h2), ?_⟩
        · apply hcore'.weaken
          intro q _ he
          unfold RowExc at he
          rcases he with ⟨hy, h | h⟩ | h
          · by_cases hq : q.x < x2''
            · have : q = ⟨q.x, s.y⟩ := QPoint.eq_mk rfl hy
              rw [this]
              exact Or.inl (hskipped q.x h.1 hq)
            · exact Or.inr (Or.inr (Or.inr (Or.inl ⟨hy, Or.inl ⟨by omega, h.2⟩⟩)))
          · exact absurd h id
          · omega
        · intro hin
          by_cases hq : x2'' = x2' + 1
          · have hw : x2' < (referenceImage.width : Int) := by
              have := hin.2.1; simp only at this; omega
            have hx : x2'' - 1 = x2' := by omega
            rw [hx]
            rcases post.stop hw with h | h
            · exact Or.inl h
            · exact Or.inr (Or.inl h)
          · exact Or.inl (hskipped _ (by omega) (by omega))
      obtain ⟨mask3, spans3, hrest, hcore3, hpot3⟩ := ih mask' spans' x2'' x2'' oinv
        (by have := post.le; omega)
      refine ⟨mask3, spans3, hrest, hcore3, ?_⟩
      rw [if_neg (lt_irrefl _)] at hpot3
      have hz := post.zeros
      have hle := post.le
      have hile := inv.le
      by_cases hpush : x2' > x1
      · rw [if_pos hpush] at hlen'
        by_cases hpend : x1 < x2
        · rw [if_pos hpend]; omega
        · rw [if_neg hpend]
          have : 1 ≤ (x2' - x2).toNat := by omega
          omega
      · rw [if_neg hpush] at hlen'
        omega
    · rw [if_neg hx]
      refine ⟨mask, spans, rfl, ?_, by omega⟩
      apply inv.core.weaken
      intro q _ he
      have hpn := inv.pendNext
      unfold RowExc at he
      rcases he with ⟨hy, h | h⟩ | h
      · omega
      · exact absurd h id
      · omega

theorem floodFillScanLineStep_spec {mask : QImage} {s : Span} {spans : List Span}
    (hwf : referenceImage.WF) (ht : threshold ≤ 255)
    (core : ScanCore referenceImage seedPoint threshold mask (s :: spans) (fun _ => False)) :
    ∃ mask' spans',
      floodFillScanLineStep referenceImage (referenceImage.pix seedPoint) threshold mask s
        spans = .ok (mask', spans') ∧
      ScanCore referenceImage seedPoint threshold mask' spans' (fun _ => False) ∧
      2 * mask'.zeros + spans'.length < 2 * mask.zeros + (s :: spans).length := by
  have hsOK := core.spansOK s (List.mem_cons_self _ _)
  obtain ⟨sx0, sx12, sx2w, sdy, sjust⟩ := hsOK
  have restOK : ∀ t ∈ spans, SpanOK referenceImage mask seedPoint t :=
    fun t ht => core.spansOK t (List.mem_cons_of_mem _ ht)
  unfold floodFillScanLineStep
  by_cases hy : s.y < 0 ∨ s.y ≥ (referenceImage.height : Int)
  · rw [if_pos hy]
    refine ⟨mask, spans, rfl, ⟨core.geometry, core.sound, restOK, ?_⟩, by simp⟩
    intro q hq hj
    rcases core.front q hq hj with h | h | h | h
    · exact Or.inl h
    · exact Or.inr (Or.inl h)
    · obtain ⟨t, ht, hc⟩ := h
      rcases List.mem_cons.1 ht with rfl | ht
      · obtain ⟨_, _, q3, q4⟩ := hq
        omega
      · exact Or.inr (Or.inr (Or.inl ⟨t, ht, hc⟩))
    · exact absurd h id
  rw [if_neg hy]
  have ctx : SpanCtx referenceImage threshold s :=
    ⟨hwf, ht, by omega, by omega, sx0, sx12, sx2w, sdy⟩
  have hp : referenceImage.inImage ⟨s.x1, s.y⟩ := inImage_row ctx sx0 (by omega)
  obtain ⟨c1, c2, _, _, _⟩ := mark_code seedPoint hwf ht core.geometry hp
  have spanJust : ∀ x, s.x1 ≤ x → x ≤ s.x2 → Just referenceImage mask seedPoint ⟨x, s.y⟩ :=
    fun x h1 h2 => sjust x h1 h2 ctx.y0 ctx.y1
  -- the invariant once the span is popped
  have core0 : ScanCore referenceImage seedPoint threshold mask spans
      (RowExc s s.x1 s.x1 s.x1 (fun _ => False)) := by
    refine ⟨core.geometry, core.sound, restOK, ?_⟩
    intro q hq hj
    rcases core.front q hq hj with h | h | h | h
    · exact Or.inl h
    · exact Or.inr (Or.inl h)
    · obtain ⟨t, ht, hc⟩ := h
      rcases List.mem_cons.1 ht with rfl | ht
      · exact Or.inr (Or.inr (Or.inr (Or.inl ⟨hc.1.symm, Or.inl hc.2⟩)))
      · exact Or.inr (Or.inr (Or.inl ⟨t, ht, hc⟩))
    · exact absurd h id
  rw [c1]
  simp only
  by_cases hext : mask.pix ⟨s.x1, s.y⟩ = 0 ∧
      includable referenceImage (referenceImage.pix seedPoint) threshold ⟨s.x1, s.y⟩
  · obtain ⟨hz, hincl⟩ := hext
    rw [if_pos hz, c2]
    simp only
    have hdec : decide (qAbs (referenceImage.pix ⟨s.x1, s.y⟩) (referenceImage.pix seedPoint) <
        threshold) = true := decide_eq_true hincl
    rw [hdec]
    simp only [if_true]
    have linv : LeftInv referenceImage seedPoint threshold s spans mask s.x1 := by
      refine ⟨?_, sx0, le_refl _, fun x h1 h2 => by omega, hz,
        connected_of_just core.geometry hwf.2.1 core.sound hp hincl
          (spanJust s.x1 (le_refl _) sx12)⟩
      apply core0.weaken
      intro q _ he
      refine Or.inr (Or.inr (Or.inr ?_))
      unfold RowExc at he ⊢
      rcases he with ⟨hy, h | h⟩ | h
      · exact Or.inl ⟨hy, Or.inl h⟩
      · exact absurd h id
      · exact Or.inr h
    obtain ⟨mask', x1', hleft, post⟩ :=
      scanLineLeft_spec ctx s.x1.toNat.succ mask s.x1 linv (Nat.lt_succ_self _)
    rw [hleft]
    simp only
    have oinv : OuterInv referenceImage seedPoint threshold s mask' spans x1' s.x1 := by
      refine ⟨post.core, post.x1_nonneg, post.le, le_refl _, post.pend, fun _ => sx12,
        fun x h1 h2 => just_mono post.mono (spanJust x h1 h2), ?_⟩
      intro hin
      rcases post.stop hin with h | h
      · exact Or.inl h
      · exact Or.inr (Or.inl h)
    obtain ⟨mask2, spans2, hout, hcore2, hpot⟩ := scanLineOuter_spec ctx
      (s.x2 - s.x1 + 1).toNat.succ mask' spans x1' s.x1 oinv (Nat.lt_succ_self _)
    refine ⟨mask2, spans2, hout, hcore2, ?_⟩
    have hz' := post.zeros
    have hle := post.le
    simp only [List.length_cons]
    by_cases hpend : x1' < s.x1
    · rw [if_pos hpend] at hpot
      have : 1 ≤ (s.x1 - x1').toNat := by omega
      omega
    · rw [if_neg hpend] at hpot
      omega
  · have oinv : OuterInv referenceImage seedPoint threshold s mask spans s.x1 s.x1 := by
      refine ⟨core0, sx0, le_refl _, le_refl _, fun x h1 h2 => by omega, fun h => by omega,
        spanJust, ?_⟩
      intro _
      by_cases hz : mask.pix ⟨s.x1, s.y⟩ = 0
      · exact Or.inr (Or.inr (Or.inr (fun h => hext ⟨hz, h⟩)))
      · exact Or.inr (Or.inr (Or.inl hz))
    obtain ⟨mask2, spans2, hout, hcore2, hpot⟩ := scanLineOuter_spec ctx
      (s.x2 - s.x1 + 1).toNat.succ mask spans s.x1 s.x1 oinv (Nat.lt_succ_self _)
    rw [if_neg (lt_irrefl _)] at hpot
    refine ⟨mask2, spans2, ?_, hcore2, by simp only [List.length_cons]; omega⟩
    by_cases hz : mask.pix ⟨s.x1, s.y⟩ = 0
    · rw [if_pos hz, c2]
      simp only
      have : ¬ qAbs (referenceImage.pix ⟨s.x1, s.y⟩) (referenceImage.pix seedPoint) <
          threshold := fun h => hext ⟨hz, h⟩
      rw [decide_eq_false this]
      simp only [Bool.false_eq_true, if_false]
      exact hout
    · rw [if_neg hz]
      simp only [Bool.false_eq_true, if_false]
      exact hout

theorem floodFillScanLineLoop_spec (hwf : referenceImage.WF) (ht : threshold ≤ 255) :
    ∀ (fuel : Nat) (mask : QImage) (spans : List Span),
      ScanCore referenceImage seedPoint threshold mask spans (fun _ => False) →
      2 * mask.zeros + spans.length ≤ fuel →
      ∃ mask', floodFillScanLineLoop referenceImage (referenceImage.pix seedPoint) threshold
          fuel mask spans = .ok mask' ∧
        ScanCore referenceImage seedPoint threshold mask' [] (fun _ => False) := by
  intro fuel
  induction fuel with
  | zero =>
    intro mask spans core hf
    cases spans with
    | nil => exact ⟨mask, rfl, core⟩
    | cons s spans => simp at hf
  | succ fuel ih =>
    intro mask spans core hf
    cases spans with
    | nil => exact ⟨mask, rfl, core⟩
    | cons s spans =>
      obtain ⟨mask', spans', hstep, core', hlt⟩ := floodFillScanLineStep_spec hwf ht core
      obtain ⟨mask'', hloop, core''⟩ := ih mask' spans' core' (by omega)
      refine ⟨mask'', ?_, core''⟩
      simp only [floodFillScanLineLoop, hstep]
      exact hloop

/-- With an empty stack the scan-line invariant closes the marked set. -/
theorem scanCore_complete {mask : QImage}
    (core : ScanCore referenceImage seedPoint threshold mask [] (fun _ => False)) (p : QPoint)
    (hc : Connected referenceImage seedPoint threshold p) : mask.pix p ≠ 0 := by
  have done : ∀ q, referenceImage.inImage q →
      includable referenceImage (referenceImage.pix seedPoint) threshold q →
      Just referenceImage mask seedPoint q → mask.pix q ≠ 0 := by
    intro q hq hi hj
    rcases core.front q hq hj with h | h | h | h
    · exact h
    · exact absurd hi h
    · obtain ⟨t, ht, _⟩ := h
      simp at ht
    · exact absurd h id
  induction hc with
  | seed hin hincl => exact done _ hin hincl (Or.inl rfl)
  | step a q hca hadj hq hincl ih => exact done q hq hincl (Or.inr ⟨a, hca.inImage, hadj, ih⟩)

theorem floodFillScanLine_result (hwf : referenceImage.WF) (ht : threshold ≤ 255)
    (hs : referenceImage.inImage seedPoint) :
    ∃ mask, floodFillScanLine referenceImage seedPoint threshold = .ok mask ∧
      FillResult referenceImage seedPoint threshold mask := by
  obtain ⟨r0, r1⟩ := ref_offset_range hwf hs
  have core0 : ScanCore referenceImage seedPoint threshold referenceImage.blank
      [⟨seedPoint.x, seedPoint.x, seedPoint.y, 1⟩] (fun _ => False) := by
    refine ⟨blank_geometry _, ?_, ?_, ?_⟩
    · intro i hi; exact absurd (blank_getD _ i) hi
    · intro t ht'
      rw [List.mem_singleton.1 ht']
      refine ⟨hs.1, le_refl _, hs.2.1, Or.inl rfl, ?_⟩
      intro x h1 h2 _ _
      simp only at h1 h2
      have : x = seedPoint.x := by omega
      subst this
      exact Or.inl rfl
    · intro q _ hj
      rcases hj with rfl | ⟨p, _, _, hm⟩
      · exact Or.inr (Or.inr (Or.inl ⟨_, List.mem_singleton_self _, rfl, le_refl _, le_refl _⟩))
      · exact absurd (blank_pix _ p) hm
  obtain ⟨mask, hloop, core⟩ := floodFillScanLineLoop_spec hwf ht
    (2 * (referenceImage.bytesPerLine * referenceImage.height) + 1) referenceImage.blank
    [⟨seedPoint.x, seedPoint.x, seedPoint.y, 1⟩] core0 (by rw [blank_zeros]; simp)
  refine ⟨mask, ?_, core.geometry, core.sound, scanCore_complete core⟩
  unfold floodFillScanLine
  simp only [(contains_rect referenceImage seedPoint).2 hs, Bool.not_true, Bool.false_eq_true,
    if_false, getPixel_eq r0 r1]
  exact hloop

/-- Two finished fills of the same image, seed and threshold are the same mask. -/
theorem FillResult.unique {mask₁ mask₂ : QImage}
    (hw : referenceImage.width ≤ referenceImage.bytesPerLine)
    (h₁ : FillResult referenceImage seedPoint threshold mask₁)
    (h₂ : FillResult referenceImage seedPoint threshold mask₂) : mask₁ = mask₂ := by
  have key : ∀ {a b : QImage}, FillResult referenceImage seedPoint threshold a →
      FillResult referenceImage seedPoint threshold b → ∀ i, a.bits.getD i 0 ≠ 0 →
      a.bits.getD i 0 = b.bits.getD i 0 := by
    intro a b ha hb i hi
    obtain ⟨p, hp, hoff, hc, hv⟩ := ha.sound i hi
    have hbp := hb.complete p hc
    have hval := (sound_pix hb.geometry hw hb.sound hp hbp).2
    have hb2 : b.pix p = b.bits.getD i 0 := by
      unfold QImage.pix
      rw [offset_geometry hb.geometry.2.2.1 p, hoff]
    rw [hv, ← hb2, hval]
  have hbits : mask₁.bits = mask₂.bits := by
    apply List.ext_getElem
    · rw [h₁.geometry.2.2.2, h₂.geometry.2.2.2]
    · intro i hi₁ hi₂
      rw [← List.getD_eq_getElem _ 0 hi₁, ← List.getD_eq_getElem _ 0 hi₂]
      by_cases ha : mask₁.bits.getD i 0 = 0
      · by_cases hb : mask₂.bits.getD i 0 = 0
        · rw [ha, hb]
        · rw [← key h₂ h₁ i hb]
      · exact key h₁ h₂ i ha
  obtain ⟨a1, a2, a3, _⟩ := h₁.geometry
  obtain ⟨b1, b2, b3, _⟩ := h₂.geometry
  cases mask₁; cases mask₂
  simp_all

end ScanLineOuter

end FloodFill

namespace FloodFill

/-! ## Paths -/

theorem connected_iff_joined {referenceImage : QImage} {seedPoint : QPoint} {threshold : Nat}
    {p : QPoint} :
    Connected referenceImage seedPoint threshold p ↔
      Joined referenceImage seedPoint threshold p := by
  constructor
  · intro h
    induction h with
    | seed hin hincl =>
      refine ⟨[seedPoint], rfl, rfl, List.chain'_singleton _, ?_⟩
      intro q hq
      rw [List.mem_singleton.1 hq]
      exact ⟨hin, hincl⟩
    | step a q _ hadj hq hincl ih =>
      obtain ⟨path, hhead, hlast, hchain, hall⟩ := ih
      refine ⟨path ++ [q], ?_, by simp, ?_, ?_⟩
      · cases path with
        | nil => simp at hhead
        | cons b rest => simpa using hhead
      · apply List.Chain'.append hchain (List.chain'_singleton _)
        intro x hx y hy
        rw [hlast] at hx
        simp only [Option.mem_def, Option.some.injEq] at hx
        simp only [List.head?_cons, Option.mem_def, Option.some.injEq] at hy
        subst hx; subst hy
        exact hadj
      · intro r hr
        rcases List.mem_append.1 hr with h | h
        · exact hall r h
        · rw [List.mem_singleton.1 h]; exact ⟨hq, hincl⟩
  · rintro ⟨path, hhead, hlast, hchain, hall⟩
    induction path using List.reverseRecOn generalizing p with
    | nil => simp at hhead
    | append_singleton init a ih =>
      have hap : a = p := by simpa using hlast
      subst hap
      have ha := hall a (by simp)
      cases init with
      | nil =>
        have : a = seedPoint := by simpa using hhead
        subst this
        exact Connected.seed ha.1 ha.2
      | cons b rest =>
        obtain ⟨h1, _, h3⟩ := List.chain'_append.1 hchain
        have hne : (b :: rest) ≠ [] := by simp
        have hl : (b :: rest).getLast? = some ((b :: rest).getLast hne) :=
          List.getLast?_eq_getLast _ hne
        have hconn := ih (p := (b :: rest).getLast hne) (by simpa using hhead) hl h1
          (fun q hq => hall q (List.mem_append_left _ hq))
        exact Connected.step _ _ hconn (h3 _ hl a (by simp)) ha.1 ha.2

end FloodFill

namespace FloodFill

/-! ## The copy loops of the tile workers -/

theorem foldlM_ok_induction {σ α : Type} (f : σ → α → Except Fault σ) (R : α → α → Prop)
    (Inv : List α → σ → Prop) (l : List α) (hpw : l.Pairwise R) (s0 s' : σ) (h0 : Inv [] s0)
    (hstep : ∀ done a s s1, Inv done s → a ∈ l → (∀ c ∈ done, c ∈ l ∧ R c a) →
      f s a = .ok s1 → Inv (done ++ [a]) s1)
    (hrun : l.foldlM f s0 = .ok s') : Inv l s' := by
  have main : ∀ (rest done : List α) (s : σ), done ++ rest = l → Inv done s →
      rest.foldlM f s = .ok s' → Inv l s' := by
    intro rest
    induction rest with
    | nil =>
      intro done s hl hinv hr
      simp only [List.foldlM_nil, pure, Except.pure, Except.ok.injEq] at hr
      rw [← hl, List.append_nil, ← hr]
      exact hinv
    | cons a rest ih =>
      intro done s hl hinv hr
      rw [List.foldlM_cons] at hr
      cases hfa : f s a with
      | error e => rw [hfa] at hr; cases hr
      | ok s1 =>
        rw [hfa] at hr
        have hmem : a ∈ l := by rw [← hl]; simp
        have hbefore : ∀ c ∈ done, c ∈ l ∧ R c a := by
          intro c hc
          rw [← hl] at hpw ⊢
          exact ⟨List.mem_append_left _ hc,
            (List.pairwise_append.1 hpw).2.2 c hc a (List.mem_cons_self _ _)⟩
        exact ih (done ++ [a]) s1 (by rw [← hl]; simp) (hstep done a s s1 hinv hmem hbefore hfa)
          hr
  exact main l [] s0 rfl h0 hrun

theorem getD_set_gen {α : Type} (l : List α) (i j : Nat) (v d : α) :
    (l.set i v).getD j d = if i = j ∧ i < l.length then v else l.getD j d := by
  simp only [List.getD_eq_getElem?_getD, List.getElem?_set]
  by_cases hij : i = j
  · subst hij
    by_cases hl : i < l.length
    · simp [hl]
    · simp [hl, List.getElem?_eq_none (Nat.le_of_not_lt hl)]
  · simp [hij]

section Cells

variable {ts : QSize} {tileRect : QRect}

theorem mem_tileCells {c : Int × Int} (h : tileRect.top ≤ tileRect.bottom + 1) :
    c ∈ tileCells ts tileRect ↔
      tileRect.top ≤ c.1 ∧ c.1 ≤ tileRect.bottom ∧ 0 ≤ c.2 ∧ c.2 < (ts.width : Int) := by
  unfold tileCells
  simp only [List.mem_flatMap, List.mem_map, List.mem_range]
  constructor
  · rintro ⟨r, hr, x, hx, rfl⟩
    simp only
    omega
  · rintro ⟨h1, h2, h3, h4⟩
    obtain ⟨c1, c2⟩ := c
    simp only at h1 h2 h3 h4
    refine ⟨(c1 - tileRect.top).toNat, by omega, c2.toNat, by omega, ?_⟩
    simp only [Prod.mk.injEq]
    constructor <;> omega

/-- The cells are visited row by row, and within a row by increasing column. -/
theorem tileCells_pairwise (ts : QSize) (tileRect : QRect) :
    (tileCells ts tileRect).Pairwise
      (fun c c' => c.1 < c'.1 ∨ (c.1 = c'.1 ∧ c.2 < c'.2)) := by
  unfold tileCells
  rw [List.pairwise_flatMap]
  constructor
  · intro r _
    rw [List.pairwise_map]
    apply (List.pairwise_lt_range _).imp
    intro a b hab
    exact Or.inr ⟨rfl, by simp only; omega⟩
  · apply (List.pairwise_lt_range _).imp
    intro a b hab x hx y hy
    simp only [List.mem_map, List.mem_range] at hx hy
    obtain ⟨_, _, rfl⟩ := hx
    obtain ⟨_, _, rfl⟩ := hy
    left
    simp only
    omega

/-- Distinct cells have distinct indices in the working buffer. -/
theorem cell_index_inj (W top : Int) {c c' : Int × Int} (h2 : 0 ≤ c.2) (h3 : c.2 < W)
    (h2' : 0 ≤ c'.2) (h3' : c'.2 < W)
    (h : (c.1 - top) * W + c.2 = (c'.1 - top) * W + c'.2) : c = c' := by
  have hW : 0 ≤ W := by omega
  have h1 : c.1 = c'.1 := by
    rcases lt_trichotomy c.1 c'.1 with hlt | heq | hgt
    · have : (c.1 - top + 1) * W ≤ (c'.1 - top) * W :=
        Int.mul_le_mul_of_nonneg_right (by omega) hW
      nlinarith
    · exact heq
    · have : (c'.1 - top + 1) * W ≤ (c.1 - top) * W :=
        Int.mul_le_mul_of_nonneg_right (by omega) hW
      nlinarith
  obtain ⟨a, b⟩ := c
  obtain ⟨a', b'⟩ := c'
  simp only at h1 h
  subst h1
  simp only [Prod.mk.injEq, true_and]
  omega

theorem cell_index_range {W H top bottom : Int} {c : Int × Int} (h0 : top ≤ c.1)
    (h1 : c.1 ≤ bottom) (hH : bottom - top < H) (h2 : 0 ≤ c.2) (h3 : c.2 < W) :
    0 ≤ (c.1 - top) * W + c.2 ∧ (c.1 - top) * W + c.2 < W * H := by
  have hW : 0 ≤ W := by omega
  constructor
  · have : 0 ≤ (c.1 - top) * W := Int.mul_nonneg (by omega) hW
    omega
  · have : (c.1 - top + 1) * W ≤ H * W := Int.mul_le_mul_of_nonneg_right (by omega) hW
    nlinarith

end Cells

section TileAccess

theorem tileAt_ok {tileData : List TileData} {i : Int} {t : TileData}
    (h : tileAt tileData i = .ok t) :
    0 ≤ i ∧ i < tileData.length ∧ t = tileData.getD i.toNat ⟨0, 0⟩ := by
  unfold tileAt at h
  by_cases hc : 0 ≤ i ∧ i < tileData.length
  · rw [if_pos hc] at h
    exact ⟨hc.1, hc.2, (Except.ok.inj h).symm⟩
  · rw [if_neg hc] at h; cases h

theorem tileAt_eq {tileData : List TileData} {i : Int} (h0 : 0 ≤ i)
    (h1 : i < tileData.length) : tileAt tileData i = .ok (tileData.getD i.toNat ⟨0, 0⟩) := by
  unfold tileAt; rw [if_pos ⟨h0, h1⟩]

theorem tileSetFillMask_eq {tileData : List TileData} {i : Int} (v : Nat) (h0 : 0 ≤ i)
    (h1 : i < tileData.length) :
    tileSetFillMask tileData i v =
      .ok (tileData.set i.toNat ⟨(tileData.getD i.toNat ⟨0, 0⟩).referencePixel, v⟩) := by
  unfold tileSetFillMask; rw [if_pos ⟨h0, h1⟩]

theorem tileSetFillMask_ok {tileData td' : List TileData} {i : Int} {v : Nat}
    (h : tileSetFillMask tileData i v = .ok td') :
    0 ≤ i ∧ i < tileData.length ∧
      td' = tileData.set i.toNat ⟨(tileData.getD i.toNat ⟨0, 0⟩).referencePixel, v⟩ := by
  unfold tileSetFillMask at h
  by_cases hc : 0 ≤ i ∧ i < tileData.length
  · rw [if_pos hc] at h
    exact ⟨hc.1, hc.2, (Except.ok.inj h).symm⟩
  · rw [if_neg hc] at h; cases h

theorem tileSetReference_ok {tileData td' : List TileData} {i : Int} {v : Nat}
    (h : tileSetReference tileData i v = .ok td') :
    0 ≤ i ∧ i < tileData.length ∧
      td' = tileData.set i.toNat ⟨v, (tileData.getD i.toNat ⟨0, 0⟩).fillMaskPixel⟩ := by
  unfold tileSetReference at h
  by_cases hc : 0 ≤ i ∧ i < tileData.length
  · rw [if_pos hc] at h
    exact ⟨hc.1, hc.2, (Except.ok.inj h).symm⟩
  · rw [if_neg hc] at h; cases h

theorem getPixel_ok {img : QImage} {p : QPoint} {v : Nat} (h : getPixel img p = .ok v) :
    0 ≤ img.offset p ∧ img.offset p < img.bits.length ∧ v = img.pix p := by
  unfold getPixel QImage.load at h
  by_cases hc : 0 ≤ scanLine img p.y + p.x ∧ scanLine img p.y + p.x < img.bits.length
  · rw [if_pos hc] at h
    exact ⟨hc.1, hc.2, (Except.ok.inj h).symm⟩
  · rw [if_neg hc] at h; cases h

theorem setPixel_ok {img img' : QImage} {p : QPoint} {v : Nat}
    (h : setPixel img p v = .ok img') :
    0 ≤ img.offset p ∧ img.offset p < img.bits.length ∧ img' = img.mark p v := by
  unfold setPixel QImage.store at h
  by_cases hc : 0 ≤ scanLine img p.y + p.x ∧ scanLine img p.y + p.x < img.bits.length
  · rw [if_pos hc] at h
    exact ⟨hc.1, hc.2, (Except.ok.inj h).symm⟩
  · rw [if_neg hc] at h; cases h

end TileAccess

section CopyLoops

variable {ts : QSize} {referenceImage : QImage} {tileRect : QRect}

theorem cell_toNat_inj (hok : TileOK ts referenceImage tileRect) {c c' : Int × Int}
    (hc : c ∈ tileCells ts tileRect) (hc' : c' ∈ tileCells ts tileRect)
    (h : ((c.1 - tileRect.top) * (ts.width : Int) + c.2).toNat =
      ((c'.1 - tileRect.top) * (ts.width : Int) + c'.2).toNat) : c = c' := by
  have htb := hok.topBottom
  obtain ⟨a1, a2, a3, a4⟩ := (mem_tileCells (by omega)).1 hc
  obtain ⟨b1, b2, b3, b4⟩ := (mem_tileCells (by omega)).1 hc'
  have r1 := (cell_index_range a1 a2 hok.rows a3 a4).1
  have r2 := (cell_index_range b1 b2 hok.rows b3 b4).1
  exact cell_index_inj (ts.width : Int) tileRect.top a3 a4 b3 b4 (by omega)

theorem copyReference_spec (hok : TileOK ts referenceImage tileRect)
    {td0 td1 : List TileData}
    (hrun : copyReference ts referenceImage tileRect td0 = .ok td1) :
    td1.length = td0.length ∧
      (∀ j, (td1.getD j ⟨0, 0⟩).fillMaskPixel = (td0.getD j ⟨0, 0⟩).fillMaskPixel) ∧
      ∀ c ∈ tileCells ts tileRect,
        (td1.getD ((c.1 - tileRect.top) * (ts.width : Int) + c.2).toNat ⟨0, 0⟩).referencePixel =
          referenceImage.pix ⟨tileRect.left + c.2, c.1⟩ := by
  unfold copyReference at hrun
  have key := foldlM_ok_induction _ _
    (fun (done : List (Int × Int)) (td : List TileData) =>
      td.length = td0.length ∧
      (∀ j, (td.getD j ⟨0, 0⟩).fillMaskPixel = (td0.getD j ⟨0, 0⟩).fillMaskPixel) ∧
      ∀ c ∈ done, c ∈ tileCells ts tileRect ∧
        (td.getD ((c.1 - tileRect.top) * (ts.width : Int) + c.2).toNat ⟨0, 0⟩).referencePixel =
          referenceImage.pix ⟨tileRect.left + c.2, c.1⟩)
    (tileCells ts tileRect) (tileCells_pairwise ts tileRect) td0 td1
    ⟨rfl, fun _ => rfl, fun c hc => by simp at hc⟩ ?_ hrun
  · exact ⟨key.1, key.2.1, fun c hc => (key.2.2 c hc).2⟩
  · intro done a td s1 inv ha _ hf
    obtain ⟨ilen, imask, icells⟩ := inv
    simp only at hf
    cases hg : getPixel referenceImage ⟨tileRect.left + a.2, a.1⟩ with
    | error e => rw [hg] at hf; cases hf
    | ok v =>
      rw [hg] at hf
      simp only at hf
      obtain ⟨_, _, hv⟩ := getPixel_ok hg
      obtain ⟨i0, i1, rfl⟩ := tileSetReference_ok hf
      have hlt : ((a.1 - tileRect.top) * (ts.width : Int) + a.2).toNat < td.length := by omega
      refine ⟨by rw [List.length_set]; exact ilen, ?_, ?_⟩
      · intro j
        rw [getD_set_gen]
        by_cases hj : ((a.1 - tileRect.top) * (ts.width : Int) + a.2).toNat = j ∧
            ((a.1 - tileRect.top) * (ts.width : Int) + a.2).toNat < td.length
        · rw [if_pos hj, ← hj.1]; exact imask _
        · rw [if_neg hj]; exact imask j
      · intro c hc
        rcases List.mem_append.1 hc with hc | hc
        · obtain ⟨hcm, hcv⟩ := icells c hc
          refine ⟨hcm, ?_⟩
          rw [getD_set_gen]
          by_cases hj : ((a.1 - tileRect.top) * (ts.width : Int) + a.2).toNat =
              ((c.1 - tileRect.top) * (ts.width : Int) + c.2).toNat ∧
              ((a.1 - tileRect.top) * (ts.width : Int) + a.2).toNat < td.length
          · rw [if_pos hj]
            have := cell_toNat_inj hok ha hcm hj.1
            rw [← this, hv]
          · rw [if_neg hj]; exact hcv
        · rw [List.mem_singleton.1 hc]
          refine ⟨ha, ?_⟩
          rw [getD_set_gen, if_pos ⟨rfl, hlt⟩, hv]

theorem copyFillMask_spec (hok : TileOK ts referenceImage tileRect) {mask : QImage}
    {td0 td1 : List TileData}
    (hrun : copyFillMask ts mask tileRect td0 = .ok td1) :
    td1.length = td0.length ∧
      (∀ j, (td1.getD j ⟨0, 0⟩).referencePixel = (td0.getD j ⟨0, 0⟩).referencePixel) ∧
      ∀ c ∈ tileCells ts tileRect,
        (td1.getD ((c.1 - tileRect.top) * (ts.width : Int) + c.2).toNat ⟨0, 0⟩).fillMaskPixel =
          mask.pix ⟨tileRect.left + c.2, c.1⟩ := by
  unfold copyFillMask at hrun
  have key := foldlM_ok_induction _ _
    (fun (done : List (Int × Int)) (td : List TileData) =>
      td.length = td0.length ∧
      (∀ j, (td.getD j ⟨0, 0⟩).referencePixel = (td0.getD j ⟨0, 0⟩).referencePixel) ∧
      ∀ c ∈ done, c ∈ tileCells ts tileRect ∧
        (td.getD ((c.1 - tileRect.top) * (ts.width : Int) + c.2).toNat ⟨0, 0⟩).fillMaskPixel =
          mask.pix ⟨tileRect.left + c.2, c.1⟩)
    (tileCells ts tileRect) (tileCells_pairwise ts tileRect) td0 td1
    ⟨rfl, fun _ => rfl, fun c hc => by simp at hc⟩ ?_ hrun
  · exact ⟨key.1, key.2.1, fun c hc => (key.2.2 c hc).2⟩
  · intro done a td s1 inv ha _ hf
    obtain ⟨ilen, iref, icells⟩ := inv
    simp only at hf
    cases hg : getPixel mask ⟨tileRect.left + a.2, a.1⟩ with
    | error e => rw [hg] at hf; cases hf
    | ok v =>
      rw [hg] at hf
      simp only at hf
      obtain ⟨_, _, hv⟩ := getPixel_ok hg
      obtain ⟨i0, i1, rfl⟩ := tileSetFillMask_ok hf
      have hlt : ((a.1 - tileRect.top) * (ts.width : Int) + a.2).toNat < td.length := by omega
      refine ⟨by rw [List.length_set]; exact ilen, ?_, ?_⟩
      · intro j
        rw [getD_set_gen]
        by_cases hj : ((a.1 - tileRect.top) * (ts.width : Int) + a.2).toNat = j ∧
            ((a.1 - tileRect.top) * (ts.width : Int) + a.2).toNat < td.length
        · rw [if_pos hj, ← hj.1]; exact iref _
        · rw [if_neg hj]; exact iref j
      · intro c hc
        rcases List.mem_append.1 hc with hc | hc
        · obtain ⟨hcm, hcv⟩ := icells c hc
          refine ⟨hcm, ?_⟩
          rw [getD_set_gen]
          by_cases hj : ((a.1 - tileRect.top) * (ts.width : Int) + a.2).toNat =
              ((c.1 - tileRect.top) * (ts.width : Int) + c.2).toNat ∧
              ((a.1 - tileRect.top) * (ts.width : Int) + a.2).toNat < td.length
          · rw [if_pos hj]
            have := cell_toNat_inj hok ha hcm hj.1
            rw [← this, hv]
          · rw [if_neg hj]; exact hcv
        · rw [List.mem_singleton.1 hc]
          refine ⟨ha, ?_⟩
          rw [getD_set_gen, if_pos ⟨rfl, hlt⟩, hv]

/-- A cell of the tile proper is stored to before every later cell of the loop reaches
its address. -/
theorem offset_lt_of_earlier (hok : TileOK ts referenceImage tileRect)
    (hw : referenceImage.width ≤ referenceImage.bytesPerLine) {c a : Int × Int}
    (hc : c ∈ tileCells ts tileRect) (ha : a ∈ tileCells ts tileRect)
    (hcol : c.2 ≤ tileRect.right - tileRect.left)
    (hlex : c.1 < a.1 ∨ (c.1 = a.1 ∧ c.2 < a.2)) :
    referenceImage.offset ⟨tileRect.left + c.2, c.1⟩ <
      referenceImage.offset ⟨tileRect.left + a.2, a.1⟩ := by
  have htb := hok.topBottom
  obtain ⟨a1, a2, a3, a4⟩ := (mem_tileCells (by omega)).1 ha
  obtain ⟨c1, c2, c3, c4⟩ := (mem_tileCells (by omega)).1 hc
  have hl := hok.left0
  have hr := hok.rightW
  have hw' : (referenceImage.width : Int) ≤ referenceImage.bytesPerLine := by exact_mod_cast hw
  have hb : (0 : Int) ≤ referenceImage.bytesPerLine := Int.ofNat_nonneg _
  unfold QImage.offset scanLine
  simp only
  rcases hlex with h | ⟨h1, h2⟩
  · have : (c.1 + 1) * (referenceImage.bytesPerLine : Int) ≤ a.1 * referenceImage.bytesPerLine :=
      Int.mul_le_mul_of_nonneg_right (by omega) hb
    nlinarith
  · rw [h1]; omega

theorem writeBack_spec (hok : TileOK ts referenceImage tileRect)
    (hw : referenceImage.width ≤ referenceImage.bytesPerLine) {mask mask' : QImage}
    (hg : SameGeometry referenceImage mask) {td : List TileData}
    (hsnap : ∀ c ∈ tileCells ts tileRect, tileRect.right - tileRect.left < c.2 →
      (td.getD ((c.1 - tileRect.top) * (ts.width : Int) + c.2).toNat ⟨0, 0⟩).fillMaskPixel =
        mask.pix ⟨tileRect.left + c.2, c.1⟩)
    (hrun : writeBack ts mask tileRect td = .ok mask') :
    SameGeometry referenceImage mask' ∧
      (∀ p, tileRect.has p →
        mask'.pix p = (td.getD (tileIndex ts tileRect p).toNat ⟨0, 0⟩).fillMaskPixel) ∧
      ∀ i, (∀ p, tileRect.has p → (referenceImage.offset p).toNat ≠ i) →
        mask'.bits.getD i 0 = mask.bits.getD i 0 := by
  unfold writeBack at hrun
  have htb := hok.topBottom
  have key := foldlM_ok_induction _ _
    (fun (done : List (Int × Int)) (m : QImage) =>
      SameGeometry referenceImage m ∧
      (∀ c ∈ done, c.2 ≤ tileRect.right - tileRect.left →
        m.bits.getD (referenceImage.offset ⟨tileRect.left + c.2, c.1⟩).toNat 0 =
          (td.getD ((c.1 - tileRect.top) * (ts.width : Int) + c.2).toNat ⟨0, 0⟩).fillMaskPixel) ∧
      ∀ i, (∀ p, tileRect.has p → (referenceImage.offset p).toNat ≠ i) →
        m.bits.getD i 0 = mask.bits.getD i 0)
    (tileCells ts tileRect) (tileCells_pairwise ts tileRect) mask mask'
    ⟨hg, fun c hc => by simp at hc, fun _ _ => rfl⟩ ?_ hrun
  · refine ⟨key.1, ?_, key.2.2⟩
    intro p hp
    obtain ⟨p1, p2, p3, p4⟩ := hp
    have hcell : (p.y, p.x - tileRect.left) ∈ tileCells ts tileRect := by
      rw [mem_tileCells (by omega)]
      have := hok.cols
      exact ⟨p3, p4, by simp only; omega, by simp only; omega⟩
    have := key.2.1 _ hcell (by simp only; omega)
    simp only at this
    have hpe : (⟨tileRect.left + (p.x - tileRect.left), p.y⟩ : QPoint) = p := by
      cases p; simp
    rw [hpe] at this
    unfold QImage.pix
    rw [offset_geometry key.1.2.2.1 p]
    exact this
  · intro done a m m1 inv ha hbefore hf
    obtain ⟨ig, icells, iframe⟩ := inv
    simp only at hf
    cases ht : tileAt td ((a.1 - tileRect.top) * (ts.width : Int) + a.2) with
    | error e => rw [ht] at hf; cases hf
    | ok t =>
      rw [ht] at hf
      simp only at hf
      obtain ⟨_, _, rfl⟩ := tileAt_ok ht
      obtain ⟨o0, o1, rfl⟩ := setPixel_ok hf
      have hoff : m.offset ⟨tileRect.left + a.2, a.1⟩ =
          referenceImage.offset ⟨tileRect.left + a.2, a.1⟩ := offset_geometry ig.2.2.1 _
      refine ⟨mark_geometry ig _ _, ?_, ?_⟩
      · intro c hc hcol
        rw [mark_getD _ _ _ o0 o1]
        rcases List.mem_append.1 hc with hc | hc
        · have hlt := offset_lt_of_earlier hok hw (hbefore c hc).1 ha hcol (hbefore c hc).2
          have hc0 : 0 ≤ referenceImage.offset ⟨tileRect.left + c.2, c.1⟩ := by
            obtain ⟨c1, c2, c3, c4⟩ := (mem_tileCells (by omega)).1 (hbefore c hc).1
            have := hok.left0
            have := hok.top0
            exact offset_nonneg ⟨by simp only; omega, by
              have := hok.rightW; simp only; omega, by simp only; omega, by
              have := hok.bottomH; simp only; omega⟩
          rw [if_neg (by rw [hoff]; omega)]
          exact icells c hc hcol
        · rw [List.mem_singleton.1 hc, if_pos (by rw [hoff])]
      · intro i hi
        rw [mark_getD _ _ _ o0 o1]
        by_cases he : (m.offset ⟨tileRect.left + a.2, a.1⟩).toNat = i
        · rw [if_pos he]
          obtain ⟨a1, a2, a3, a4⟩ := (mem_tileCells (by omega)).1 ha
          have hspill : tileRect.right - tileRect.left < a.2 := by
            by_contra hcon
            apply hi ⟨tileRect.left + a.2, a.1⟩ ⟨by simp only; omega, by simp only; omega, a1, a2⟩
            rw [← hoff]; exact he
          rw [hsnap a ha hspill]
          unfold QImage.pix
          have hm : mask.offset ⟨tileRect.left + a.2, a.1⟩ =
              m.offset ⟨tileRect.left + a.2, a.1⟩ := by
            rw [offset_geometry hg.2.2.1, hoff]
          rw [hm, he]
        · rw [if_neg he]; exact iframe i hi

/-- The write-back produces the mask that agrees with the working buffer on the tile and
with the old mask at every other byte. -/
theorem writeBack_eq (hok : TileOK ts referenceImage tileRect)
    (hw : referenceImage.width ≤ referenceImage.bytesPerLine) {mask mask' vm : QImage}
    (hg : SameGeometry referenceImage mask) {td : List TileData}
    (hsnap : ∀ c ∈ tileCells ts tileRect, tileRect.right - tileRect.left < c.2 →
      (td.getD ((c.1 - tileRect.top) * (ts.width : Int) + c.2).toNat ⟨0, 0⟩).fillMaskPixel =
        mask.pix ⟨tileRect.left + c.2, c.1⟩)
    (hvg : SameGeometry referenceImage vm)
    (hrep : ∀ p, tileRect.has p →
      (td.getD (tileIndex ts tileRect p).toNat ⟨0, 0⟩).fillMaskPixel = vm.pix p)
    (hframe : ∀ i, (∀ p, tileRect.has p → (referenceImage.offset p).toNat ≠ i) →
      vm.bits.getD i 0 = mask.bits.getD i 0)
    (hrun : writeBack ts mask tileRect td = .ok mask') : mask' = vm := by
  obtain ⟨g', hin, hout⟩ := writeBack_spec hok hw hg hsnap hrun
  have hbits : mask'.bits = vm.bits := by
    apply List.ext_getElem
    · rw [g'.2.2.2, hvg.2.2.2]
    · intro i h1 h2
      rw [← List.getD_eq_getElem _ 0 h1, ← List.getD_eq_getElem _ 0 h2]
      by_cases hex : ∃ p, tileRect.has p ∧ (referenceImage.offset p).toNat = i
      · obtain ⟨p, hp, hpi⟩ := hex
        have h3 := hin p hp
        rw [hrep p hp] at h3
        unfold QImage.pix at h3
        rw [offset_geometry g'.2.2.1 p, offset_geometry hvg.2.2.1 p, hpi] at h3
        exact h3
      · have hno : ∀ p, tileRect.has p → (referenceImage.offset p).toNat ≠ i :=
          fun p hp he => hex ⟨p, hp, he⟩
        rw [hout i hno, hframe i hno]
  obtain ⟨a1, a2, a3, _⟩ := g'
  obtain ⟨b1, b2, b3, _⟩ := hvg
  cases mask'; cases vm
  simp_all

end CopyLoops

end FloodFill

namespace FloodFill

/-! ## The working buffer of a tile worker -/

section TileStateFacts

variable {ts : QSize} {referenceImage : QImage} {seedPoint : QPoint} {threshold : Nat}
  {tileRect : QRect}

theorem has_inImage (hok : TileOK ts referenceImage tileRect) {p : QPoint}
    (hp : tileRect.has p) : referenceImage.inImage p := by
  obtain ⟨p1, p2, p3, p4⟩ := hp
  have := hok.left0; have := hok.rightW; have := hok.top0; have := hok.bottomH
  exact ⟨by omega, by omega, by omega, by omega⟩

theorem has_cell (hok : TileOK ts referenceImage tileRect) {p : QPoint}
    (hp : tileRect.has p) : (p.y, p.x - tileRect.left) ∈ tileCells ts tileRect := by
  obtain ⟨p1, p2, p3, p4⟩ := hp
  have := hok.cols; have := hok.topBottom
  rw [mem_tileCells (by omega)]
  exact ⟨p3, p4, by simp only; omega, by simp only; omega⟩

theorem tileIndex_range (hok : TileOK ts referenceImage tileRect) {p : QPoint}
    (hp : tileRect.has p) :
    0 ≤ tileIndex ts tileRect p ∧
      tileIndex ts tileRect p < ((ts.width * ts.height : Nat) : Int) := by
  obtain ⟨p1, p2, p3, p4⟩ := hp
  have := hok.cols
  have h := cell_index_range (W := (ts.width : Int)) (H := (ts.height : Int))
    (c := (p.y, p.x - tileRect.left)) p3 p4 hok.rows (by simp only; omega) (by simp only; omega)
  unfold tileIndex
  push_cast
  exact h

theorem tileIndex_inj (hok : TileOK ts referenceImage tileRect) {p q : QPoint}
    (hp : tileRect.has p) (hq : tileRect.has q)
    (h : (tileIndex ts tileRect p).toNat = (tileIndex ts tileRect q).toNat) : p = q := by
  have := cell_toNat_inj hok (has_cell hok hp) (has_cell hok hq) h
  simp only [Prod.mk.injEq] at this
  cases p; cases q
  simp only [QPoint.mk.injEq]
  simp only at this
  omega

theorem tileZeros_le (td : List TileData) : tileZeros td ≤ td.length := by
  unfold tileZeros; exact List.countP_le_length _

theorem tileZeros_set {td : List TileData} {i : Nat} {r v : Nat} (hi : i < td.length)
    (hz : (td.getD i ⟨0, 0⟩).fillMaskPixel = 0) (hv : v ≠ 0) :
    tileZeros (td.set i ⟨r, v⟩) + 1 = tileZeros td := by
  unfold tileZeros
  have hget : td[i].fillMaskPixel = 0 := by
    rw [← List.getD_eq_getElem td ⟨0, 0⟩ hi]; exact hz
  have hpos : 0 < List.countP (fun t => t.fillMaskPixel == 0) td := by
    rw [List.countP_pos_iff]
    exact ⟨td[i], List.getElem_mem hi, by simp [hget]⟩
  rw [List.countP_set (h := hi)]
  simp [hget, hv]
  omega

/-- Marking a cell of the tile in the working buffer is marking the pixel in the mask that
the write-back produces. -/
theorem TileState.markCell {mask vm : QImage} {td0 td : List TileData}
    (st : TileState ts referenceImage seedPoint threshold tileRect mask td0 td vm)
    (hok : TileOK ts referenceImage tileRect)
    (hw : referenceImage.width ≤ referenceImage.bytesPerLine) (ht : threshold ≤ 255)
    {p : QPoint} (hp : tileRect.has p) (hz : vm.pix p = 0)
    (hc : Connected referenceImage seedPoint threshold p) :
    TileState ts referenceImage seedPoint threshold tileRect mask td0
      (td.set (tileIndex ts tileRect p).toNat
        ⟨referenceImage.pix p,
          gradedValue (qAbs (referenceImage.pix p) (referenceImage.pix seedPoint)) threshold⟩)
      (vm.mark p
        (gradedValue (qAbs (referenceImage.pix p) (referenceImage.pix seedPoint)) threshold)) ∧
    (vm.mark p (gradedValue (qAbs (referenceImage.pix p) (referenceImage.pix seedPoint))
      threshold)).zeros + 1 = vm.zeros ∧
    tileZeros (td.set (tileIndex ts tileRect p).toNat
        ⟨referenceImage.pix p,
          gradedValue (qAbs (referenceImage.pix p) (referenceImage.pix seedPoint)) threshold⟩) + 1 =
      tileZeros td ∧
    (∀ q, vm.pix q ≠ 0 → (vm.mark p (gradedValue (qAbs (referenceImage.pix p)
      (referenceImage.pix seedPoint)) threshold)).pix q ≠ 0) ∧
    (vm.mark p (gradedValue (qAbs (referenceImage.pix p) (referenceImage.pix seedPoint))
      threshold)).pix p ≠ 0 := by
  have hpi := has_inImage hok hp
  obtain ⟨m0, m1⟩ := mask_offset_range st.geometry hw hpi
  obtain ⟨i0, i1⟩ := tileIndex_range hok hp
  have hlt : (tileIndex ts tileRect p).toNat < td.length := by
    rw [st.len]; omega
  have hv0 : gradedValue (qAbs (referenceImage.pix p) (referenceImage.pix seedPoint))
      threshold ≠ 0 := by
    have := (gradedValue_bounds hc.includable ht).1
    omega
  obtain ⟨z1, mono1⟩ := mark_zeros' seedPoint hw ht st.geometry hpi hz hc.includable
  have hself : (vm.mark p (gradedValue (qAbs (referenceImage.pix p)
      (referenceImage.pix seedPoint)) threshold)).pix p =
      gradedValue (qAbs (referenceImage.pix p) (referenceImage.pix seedPoint)) threshold :=
    mark_pix_self p _ m0 m1
  refine ⟨⟨?_, mark_geometry st.geometry _ _, ?_, ?_, ?_, fun q h => mono1 q (st.mono q h),
    sound_mark st.geometry hw st.sound hpi hc, by have := st.zerosLe; omega⟩, z1, ?_, mono1,
    by rw [hself]; exact hv0⟩
  · rw [List.length_set]; exact st.len
  · intro q hq
    rw [getD_set_gen]
    by_cases hqp : q = p
    · subst hqp
      rw [if_pos ⟨rfl, hlt⟩, hself]
    · rw [if_neg (fun h => hqp (tileIndex_inj hok hq hp h.1.symm)), st.rep q hq,
        mark_pix_inImage_ne st.geometry hw hpi (has_inImage hok hq) hqp]
  · intro j hj
    rw [getD_set_gen, if_neg (fun h => hj p hp h.1)]
    exact st.frameTd j hj
  · intro i hi
    rw [mark_getD p _ i m0 m1, if_neg]
    · exact st.frameVm i hi
    · rw [offset_geometry st.geometry.2.2.1 p]
      exact hi p hp
  · apply tileZeros_set hlt _ hv0
    rw [st.rep p hp]
    exact hz

/-- The code of one access to the cell of a point of the tile. -/
theorem tile_code {mask vm : QImage} {td0 td : List TileData}
    (st : TileState ts referenceImage seedPoint threshold tileRect mask td0 td vm)
    (hok : TileOK ts referenceImage tileRect) {p : QPoint} (hp : tileRect.has p) :
    tileAt td ((p.y - tileRect.top) * (ts.width : Int) + (p.x - tileRect.left)) =
        .ok ⟨referenceImage.pix p, vm.pix p⟩ ∧
      ∀ v, tileSetFillMask td
          ((p.y - tileRect.top) * (ts.width : Int) + (p.x - tileRect.left)) v =
        .ok (td.set (tileIndex ts tileRect p).toNat ⟨referenceImage.pix p, v⟩) := by
  obtain ⟨i0, i1⟩ := tileIndex_range hok hp
  have hlen : tileIndex ts tileRect p < (td.length : Int) := by rw [st.len]; exact i1
  have hrep := st.rep p hp
  constructor
  · have := tileAt_eq i0 hlen
    rw [hrep] at this
    exact this
  · intro v
    have := tileSetFillMask_eq v i0 hlen
    rw [hrep] at this
    exact this

end TileStateFacts

/-! ## The propagation table -/

section HashAppend

variable {α : Type}

theorem mem_hashAppend {key : TileId} {values : List α} {info : List (TileId × List α)}
    {e : TileId × List α} (h : e ∈ hashAppend key values info) :
    e ∈ info ∨ (e.1 = key ∧ ∀ q ∈ e.2, q ∈ values ∨ ∃ e' ∈ info, e'.1 = key ∧ q ∈ e'.2) := by
  induction info with
  | nil =>
    simp only [hashAppend, List.mem_singleton] at h
    subst h
    exact Or.inr ⟨rfl, fun q hq => Or.inl hq⟩
  | cons hd tl ih =>
    obtain ⟨k, l⟩ := hd
    simp only [hashAppend] at h
    by_cases hk : k = key
    · rw [if_pos hk] at h
      rcases List.mem_cons.1 h with rfl | h
      · refine Or.inr ⟨hk, ?_⟩
        intro q hq
        rcases List.mem_append.1 hq with hq | hq
        · exact Or.inr ⟨(k, l), List.mem_cons_self _ _, hk, hq⟩
        · exact Or.inl hq
      · exact Or.inl (List.mem_cons_of_mem _ h)
    · rw [if_neg hk] at h
      rcases List.mem_cons.1 h with rfl | h
      · exact Or.inl (List.mem_cons_self _ _)
      · rcases ih h with h | ⟨h1, h2⟩
        · exact Or.inl (List.mem_cons_of_mem _ h)
        · refine Or.inr ⟨h1, ?_⟩
          intro q hq
          rcases h2 q hq with h | ⟨e', he', h3, h4⟩
          · exact Or.inl h
          · exact Or.inr ⟨e', List.mem_cons_of_mem _ he', h3, h4⟩

/-- Appending to the table keeps a property of the filed seeds that holds for the new
ones. -/
theorem hashAppend_all {P : TileId → α → Prop} {key : TileId} {values : List α}
    {info : List (TileId × List α)} (hinfo : ∀ e ∈ info, ∀ q ∈ e.2, P e.1 q)
    (hnew : ∀ q ∈ values, P key q) :
    ∀ e ∈ hashAppend key values info, ∀ q ∈ e.2, P e.1 q := by
  intro e he q hq
  rcases mem_hashAppend he with h | ⟨h1, h2⟩
  · exact hinfo e h q hq
  · rw [h1]
    rcases h2 q hq with h | ⟨e', he', h3, h4⟩
    · exact hnew q h
    · rw [← h3]; exact hinfo e' he' q h4

theorem hashAppend_ne_nil (key : TileId) (values : List α) (info : List (TileId × List α)) :
    hashAppend key values info ≠ [] := by
  cases info with
  | nil => simp [hashAppend]
  | cons hd tl =>
    obtain ⟨k, l⟩ := hd
    simp only [hashAppend]
    split <;> simp

end HashAppend

end FloodFill

namespace FloodFill

/-! ## The tile grid -/

section Grid

variable {ts : QSize} {referenceImage : QImage}

theorem rect_eq (referenceImage : QImage) :
    referenceImage.rect =
      ⟨0, 0, (referenceImage.width : Int) - 1, (referenceImage.height : Int) - 1⟩ := by
  unfold QImage.rect QRect.mk4
  simp

theorem tileRectOf_eq {k : TileId} (hk : InGrid ts referenceImage k) (hW : 1 ≤ ts.width)
    (hH : 1 ≤ ts.height) :
    tileRectOf ts referenceImage.rect k =
      ⟨k.x * (ts.width : Int), k.y * (ts.height : Int),
        min (k.x * (ts.width : Int) + ts.width - 1) ((referenceImage.width : Int) - 1),
        min (k.y * (ts.height : Int) + ts.height - 1) ((referenceImage.height : Int) - 1)⟩ := by
  obtain ⟨k1, k2, k3, k4⟩ := hk
  have hx : 0 ≤ k.x * (ts.width : Int) := Int.mul_nonneg k1 (Int.ofNat_nonneg _)
  have hy : 0 ≤ k.y * (ts.height : Int) := Int.mul_nonneg k3 (Int.ofNat_nonneg _)
  have hW' : (1 : Int) ≤ ts.width := by exact_mod_cast hW
  have hH' : (1 : Int) ≤ ts.height := by exact_mod_cast hH
  rw [rect_eq]
  unfold tileRectOf QRect.mk4 QRect.intersected
  simp only
  rw [if_neg (by omega), if_neg (by omega)]
  simp only [QRect.mk.injEq]
  exact ⟨by omega, by omega, trivial, trivial⟩

theorem tileOK_of_inGrid {k : TileId} (hk : InGrid ts referenceImage k) (hW : 1 ≤ ts.width)
    (hH : 1 ≤ ts.height) : TileOK ts referenceImage (tileRectOf ts referenceImage.rect k) := by
  rw [tileRectOf_eq hk hW hH]
  obtain ⟨k1, k2, k3, k4⟩ := hk
  have hx : 0 ≤ k.x * (ts.width : Int) := Int.mul_nonneg k1 (Int.ofNat_nonneg _)
  have hy : 0 ≤ k.y * (ts.height : Int) := Int.mul_nonneg k3 (Int.ofNat_nonneg _)
  have hW' : (1 : Int) ≤ ts.width := by exact_mod_cast hW
  have hH' : (1 : Int) ≤ ts.height := by exact_mod_cast hH
  constructor <;> simp only <;> omega

theorem pos_of_mul_pos {a b : Int} (ha : 0 ≤ a) (h : 0 < a * b) : 1 ≤ a := by
  by_cases h1 : 0 < a
  · omega
  · have : a = 0 := by omega
    rw [this] at h
    simp at h

/-- The neighbour above the top row of a tile lies in the tile above. -/
theorem emit_up {k : TileId} (hk : InGrid ts referenceImage k) (hW : 1 ≤ ts.width)
    (hH : 1 ≤ ts.height) {p : QPoint} (hp : (tileRectOf ts referenceImage.rect k).has p)
    (h1 : p.y > 0) (h2 : ¬ p.y > (tileRectOf ts referenceImage.rect k).top) :
    InGrid ts referenceImage ⟨k.x, k.y - 1⟩ ∧
      (tileRectOf ts referenceImage.rect ⟨k.x, k.y - 1⟩).has ⟨p.x, p.y - 1⟩ := by
  rw [tileRectOf_eq hk hW hH] at hp h2
  obtain ⟨p1, p2, p3, p4⟩ := hp
  simp only at p1 p2 p3 p4 h2
  obtain ⟨k1, k2, k3, k4⟩ := hk
  have hky : 1 ≤ k.y := pos_of_mul_pos (b := (ts.height : Int)) k3 (by omega)
  have hmul : (k.y - 1) * (ts.height : Int) = k.y * ts.height - ts.height := by ring
  have hH' : (1 : Int) ≤ ts.height := by exact_mod_cast hH
  have hk' : InGrid ts referenceImage ⟨k.x, k.y - 1⟩ :=
    ⟨k1, k2, by simp only; omega, by simp only; omega⟩
  refine ⟨hk', ?_⟩
  rw [tileRectOf_eq hk' hW hH]
  unfold QRect.has
  simp only
  refine ⟨p1, p2, ?_, ?_⟩ <;> omega

/-- The neighbour below the bottom row of a tile lies in the tile below. -/
theorem emit_down {k : TileId} (hk : InGrid ts referenceImage k) (hW : 1 ≤ ts.width)
    (hH : 1 ≤ ts.height) {p : QPoint} (hp : (tileRectOf ts referenceImage.rect k).has p)
    (h1 : p.y < referenceImage.rect.bottom)
    (h2 : ¬ p.y < (tileRectOf ts referenceImage.rect k).bottom) :
    InGrid ts referenceImage ⟨k.x, k.y + 1⟩ ∧
      (tileRectOf ts referenceImage.rect ⟨k.x, k.y + 1⟩).has ⟨p.x, p.y + 1⟩ := by
  rw [rect_eq] at h1
  rw [tileRectOf_eq hk hW hH] at hp h2
  obtain ⟨p1, p2, p3, p4⟩ := hp
  simp only at p1 p2 p3 p4 h1 h2
  obtain ⟨k1, k2, k3, k4⟩ := hk
  have hmul : (k.y + 1) * (ts.height : Int) = k.y * ts.height + ts.height := by ring
  have hH' : (1 : Int) ≤ ts.height := by exact_mod_cast hH
  have hk' : InGrid ts referenceImage ⟨k.x, k.y + 1⟩ :=
    ⟨k1, k2, by simp only; omega, by simp only; omega⟩
  refine ⟨hk', ?_⟩
  rw [tileRectOf_eq hk' hW hH]
  unfold QRect.has
  simp only
  refine ⟨p1, p2, ?_, ?_⟩ <;> omega

/-- The neighbour left of the first column of a tile lies in the tile on the left. -/
theorem emit_left {k : TileId} (hk : InGrid ts referenceImage k) (hW : 1 ≤ ts.width)
    (hH : 1 ≤ ts.height) {p : QPoint} (hp : (tileRectOf ts referenceImage.rect k).has p)
    (h1 : p.x > 0) (h2 : ¬ p.x > (tileRectOf ts referenceImage.rect k).left) :
    InGrid ts referenceImage ⟨k.x - 1, k.y⟩ ∧
      (tileRectOf ts referenceImage.rect ⟨k.x - 1, k.y⟩).has ⟨p.x - 1, p.y⟩ := by
  rw [tileRectOf_eq hk hW hH] at hp h2
  obtain ⟨p1, p2, p3, p4⟩ := hp
  simp only at p1 p2 p3 p4 h2
  obtain ⟨k1, k2, k3, k4⟩ := hk
  have hkx : 1 ≤ k.x := pos_of_mul_pos (b := (ts.width : Int)) k1 (by omega)
  have hmul : (k.x - 1) * (ts.width : Int) = k.x * ts.width - ts.width := by ring
  have hW' : (1 : Int) ≤ ts.width := by exact_mod_cast hW
  have hk' : InGrid ts referenceImage ⟨k.x - 1, k.y⟩ :=
    ⟨by simp only; omega, by simp only; omega, k3, k4⟩
  refine ⟨hk', ?_⟩
  rw [tileRectOf_eq hk' hW hH]
  unfold QRect.has
  simp only
  refine ⟨?_, ?_, p3, p4⟩ <;> omega

/-- The neighbour right of the last column of a tile lies in the tile on the right. -/
theorem emit_right {k : TileId} (hk : InGrid ts referenceImage k) (hW : 1 ≤ ts.width)
    (hH : 1 ≤ ts.height) {p : QPoint} (hp : (tileRectOf ts referenceImage.rect k).has p)
    (h1 : p.x < referenceImage.rect.right)
    (h2 : ¬ p.x < (tileRectOf ts referenceImage.rect k).right) :
    InGrid ts referenceImage ⟨k.x + 1, k.y⟩ ∧
      (tileRectOf ts referenceImage.rect ⟨k.x + 1, k.y⟩).has ⟨p.x + 1, p.y⟩ := by
  rw [rect_eq] at h1
  rw [tileRectOf_eq hk hW hH] at hp h2
  obtain ⟨p1, p2, p3, p4⟩ := hp
  simp only at p1 p2 p3 p4 h1 h2
  obtain ⟨k1, k2, k3, k4⟩ := hk
  have hmul : (k.x + 1) * (ts.width : Int) = k.x * ts.width + ts.width := by ring
  have hW' : (1 : Int) ≤ ts.width := by exact_mod_cast hW
  have hk' : InGrid ts referenceImage ⟨k.x + 1, k.y⟩ :=
    ⟨by simp only; omega, by simp only; omega, k3, k4⟩
  refine ⟨hk', ?_⟩
  rw [tileRectOf_eq hk' hW hH]
  unfold QRect.has
  simp only
  refine ⟨?_, ?_, p3, p4⟩ <;> omega

end Grid

end FloodFill

namespace FloodFill

/-! ## `floodFillTile`: the loop invariant -/

section NaiveTileLoop

variable {ts : QSize} {referenceImage : QImage} {seedPoint : QPoint} {threshold : Nat}

theorem tileNeighbour_spec {NodeOK : QPoint → Prop} {SeedOK : TileId → QPoint → Prop}
    (inGlobal inTile : Bool) (q : QPoint) (key : TileId)
    (state : List QPoint × TilePropagationInfo)
    (hn : ∀ n ∈ state.1, NodeOK n) (hi : ∀ e ∈ state.2, ∀ a ∈ e.2, SeedOK e.1 a)
    (hpush : inGlobal = true → inTile = true → NodeOK q)
    (hemit : inGlobal = true → inTile = false → SeedOK key q) :
    (∀ n ∈ (tileNeighbour inGlobal inTile q key state).1, NodeOK n) ∧
      (∀ e ∈ (tileNeighbour inGlobal inTile q key state).2, ∀ a ∈ e.2, SeedOK e.1 a) ∧
      (tileNeighbour inGlobal inTile q key state).1.length ≤ state.1.length + 1 ∧
      ∀ n ∈ state.1, n ∈ (tileNeighbour inGlobal inTile q key state).1 := by
  unfold tileNeighbour
  cases inGlobal with
  | false => exact ⟨hn, hi, by simp, fun n h => h⟩
  | true =>
    cases inTile with
    | true =>
      simp only [if_true]
      refine ⟨?_, hi, by simp, fun n h => List.mem_cons_of_mem _ h⟩
      intro n hn'
      rcases List.mem_cons.1 hn' with rfl | h
      · exact hpush rfl rfl
      · exact hn n h
    | false =>
      simp only [if_true, Bool.false_eq_true, if_false]
      refine ⟨hn, ?_, by simp, fun n h => h⟩
      apply hashAppend_all hi
      intro a ha
      rw [List.mem_singleton.1 ha]
      exact hemit rfl rfl

theorem done_mono {mask mask' : QImage} {p : QPoint}
    (hm : ∀ q, mask.pix q ≠ 0 → mask'.pix q ≠ 0)
    (h : Done referenceImage seedPoint threshold mask p) :
    Done referenceImage seedPoint threshold mask' p := by
  rcases h with h | h
  · exact Or.inl (hm p h)
  · exact Or.inr h

theorem floodFillTileStep_spec {k : TileId} {mask vm : QImage} {td0 td : List TileData}
    {p : QPoint} {nodes : List QPoint} {info : TilePropagationInfo}
    (hwf : referenceImage.WF) (ht : threshold ≤ 255) (hW : 1 ≤ ts.width) (hH : 1 ≤ ts.height)
    (hk : InGrid ts referenceImage k)
    (inv : NaiveTileInv ts referenceImage seedPoint threshold
      (tileRectOf ts referenceImage.rect k) mask td0 td vm (p :: nodes) info) :
    ∃ td' info' nodes' vm',
      floodFillTileStep ts (referenceImage.pix seedPoint) k referenceImage.rect
        (tileRectOf ts referenceImage.rect k) threshold td info p nodes =
        .ok (td', info', nodes') ∧
      NaiveTileInv ts referenceImage seedPoint threshold
        (tileRectOf ts referenceImage.rect k) mask td0 td' vm' nodes' info' ∧
      4 * tileZeros td' + nodes'.length < 4 * tileZeros td + (p :: nodes).length ∧
      (∀ q, vm.pix q ≠ 0 → vm'.pix q ≠ 0) ∧
      Done referenceImage seedPoint threshold vm' p ∧ ∀ n ∈ nodes, n ∈ nodes' := by
  have hok := tileOK_of_inGrid hk hW hH
  have hw := hwf.2.1
  obtain ⟨hpR, hpJ⟩ := inv.nodesOK p (List.mem_cons_self _ _)
  have hpi := has_inImage hok hpR
  obtain ⟨c1, c2⟩ := tile_code inv.state hok hpR
  have skip : Done referenceImage seedPoint threshold vm p →
      NaiveTileInv ts referenceImage seedPoint threshold
        (tileRectOf ts referenceImage.rect k) mask td0 td vm nodes info ∧
      4 * tileZeros td + nodes.length < 4 * tileZeros td + (p :: nodes).length ∧
      (∀ q, vm.pix q ≠ 0 → vm.pix q ≠ 0) ∧
      Done referenceImage seedPoint threshold vm p ∧ ∀ n ∈ nodes, n ∈ nodes := by
    intro hd
    exact ⟨⟨inv.state, fun n hn => inv.nodesOK n (List.mem_cons_of_mem _ hn), inv.infoOK,
      inv.progress⟩, by simp, fun _ h => h, hd, fun _ h => h⟩
  unfold floodFillTileStep
  rw [c1]
  simp only
  by_cases hm : vm.pix p > 0
  · rw [if_pos hm]
    exact ⟨td, info, nodes, vm, rfl, skip (Or.inl (by omega))⟩
  rw [if_neg hm, difference8_eq (pix_lt_256 hwf p) (pix_lt_256 hwf seedPoint)]
  by_cases hd : qAbs (referenceImage.pix p) (referenceImage.pix seedPoint) ≥ threshold
  · rw [if_pos hd]
    exact ⟨td, info, nodes, vm, rfl, skip (Or.inr (by unfold includable; omega))⟩
  rw [if_neg hd]
  have hincl : includable referenceImage (referenceImage.pix seedPoint) threshold p := by
    unfold includable; omega
  have hz : vm.pix p = 0 := by omega
  have hconn := connected_of_just inv.state.geometry hw inv.state.sound hpi hincl hpJ
  rw [selectionValue_eq hincl ht]
  simp only
  rw [c2]
  simp only
  obtain ⟨st', z1, tz1, mono1, hself⟩ := inv.state.markCell hok hw ht hpR hz hconn
  -- the marked pixel justifies its four neighbours
  have hjust : ∀ q, adjacent p q → Just referenceImage
      (vm.mark p (gradedValue (qAbs (referenceImage.pix p) (referenceImage.pix seedPoint))
        threshold)) seedPoint q := fun q hadj => Or.inr ⟨p, hpi, hadj, hself⟩
  obtain ⟨p1, p2, p3, p4⟩ := hpR
  have hrect := rect_eq referenceImage
  have n0 : ∀ n ∈ nodes, (tileRectOf ts referenceImage.rect k).has n ∧ Just referenceImage
      (vm.mark p (gradedValue (qAbs (referenceImage.pix p) (referenceImage.pix seedPoint))
        threshold)) seedPoint n := fun n hn =>
    ⟨(inv.nodesOK n (List.mem_cons_of_mem _ hn)).1,
      just_mono mono1 (inv.nodesOK n (List.mem_cons_of_mem _ hn)).2⟩
  have i0 : ∀ e ∈ info, ∀ a ∈ e.2, PointOK ts referenceImage seedPoint
      (vm.mark p (gradedValue (qAbs (referenceImage.pix p) (referenceImage.pix seedPoint))
        threshold)) e.1 a := fun e he a ha =>
    ⟨(inv.infoOK e he a ha).1, (inv.infoOK e he a ha).2.1,
      just_mono mono1 (inv.infoOK e he a ha).2.2⟩
  have s1 := tileNeighbour_spec (decide (p.y > referenceImage.rect.top))
    (decide (p.y > (tileRectOf ts referenceImage.rect k).top)) ⟨p.x, p.y - 1⟩
    ⟨k.x, k.y - 1⟩ (nodes, info) n0 i0
    (fun _ h2 => ⟨⟨p1, p2, by have := of_decide_eq_true h2; simp only; omega,
      by simp only; omega⟩, hjust _ (Or.inr ⟨rfl, Or.inr rfl⟩)⟩)
    (fun h1 h2 => by
      have h1' := of_decide_eq_true h1
      have h2' := of_decide_eq_false h2
      rw [hrect] at h1'
      have := emit_up hk hW hH ⟨p1, p2, p3, p4⟩ h1' h2'
      exact ⟨this.1, this.2, hjust _ (Or.inr ⟨rfl, Or.inr rfl⟩)⟩)
  have s2 := tileNeighbour_spec (decide (p.y < referenceImage.rect.bottom))
    (decide (p.y < (tileRectOf ts referenceImage.rect k).bottom)) ⟨p.x, p.y + 1⟩
    ⟨k.x, k.y + 1⟩ _ s1.1 s1.2.1
    (fun _ h2 => ⟨⟨p1, p2, by simp only; omega,
      by have := of_decide_eq_true h2; simp only; omega⟩, hjust _ (Or.inr ⟨rfl, Or.inl rfl⟩)⟩)
    (fun h1 h2 => by
      have := emit_down hk hW hH ⟨p1, p2, p3, p4⟩ (of_decide_eq_true h1)
        (of_decide_eq_false h2)
      exact ⟨this.1, this.2, hjust _ (Or.inr ⟨rfl, Or.inl rfl⟩)⟩)
  have s3 := tileNeighbour_spec (decide (p.x > referenceImage.rect.left))
    (decide (p.x > (tileRectOf ts referenceImage.rect k).left)) ⟨p.x - 1, p.y⟩
    ⟨k.x - 1, k.y⟩ _ s2.1 s2.2.1
    (fun _ h2 => ⟨⟨by have := of_decide_eq_true h2; simp only; omega, by simp only; omega,
      p3, p4⟩, hjust _ (Or.inl ⟨rfl, Or.inr rfl⟩)⟩)
    (fun h1 h2 => by
      have h1' := of_decide_eq_true h1
      have h2' := of_decide_eq_false h2
      rw [hrect] at h1'
      have := emit_left hk hW hH ⟨p1, p2, p3, p4⟩ h1' h2'
      exact ⟨this.1, this.2, hjust _ (Or.inl ⟨rfl, Or.inr rfl⟩)⟩)
  have s4 := tileNeighbour_spec (decide (p.x < referenceImage.rect.right))
    (decide (p.x < (tileRectOf ts referenceImage.rect k).right)) ⟨p.x + 1, p.y⟩
    ⟨k.x + 1, k.y⟩ _ s3.1 s3.2.1
    (fun _ h2 => ⟨⟨by simp only; omega, by have := of_decide_eq_true h2; simp only; omega,
      p3, p4⟩, hjust _ (Or.inl ⟨rfl, Or.inl rfl⟩)⟩)
    (fun h1 h2 => by
      have := emit_right hk hW hH ⟨p1, p2, p3, p4⟩ (of_decide_eq_true h1)
        (of_decide_eq_false h2)
      exact ⟨this.1, this.2, hjust _ (Or.inl ⟨rfl, Or.inl rfl⟩)⟩)
  refine ⟨_, _, _, _, rfl, ⟨st', s4.1, s4.2.1, fun _ => by have := inv.state.zerosLe; omega⟩,
    ?_, mono1, Or.inl hself, ?_⟩
  · have l1 := s1.2.2.1
    have l2 := s2.2.2.1
    have l3 := s3.2.2.1
    have l4 := s4.2.2.1
    simp only [List.length_cons] at l1 ⊢
    omega
  · intro n hn
    exact s4.2.2.2 n (s3.2.2.2 n (s2.2.2.2 n (s1.2.2.2 n hn)))

theorem floodFillTileLoop_spec {k : TileId} {mask : QImage} {td0 : List TileData}
    (hwf : referenceImage.WF) (ht : threshold ≤ 255) (hW : 1 ≤ ts.width) (hH : 1 ≤ ts.height)
    (hk : InGrid ts referenceImage k) :
    ∀ (fuel : Nat) (td : List TileData) (vm : QImage) (nodes : List QPoint)
      (info : TilePropagationInfo),
      NaiveTileInv ts referenceImage seedPoint threshold
        (tileRectOf ts referenceImage.rect k) mask td0 td vm nodes info →
      4 * tileZeros td + nodes.length ≤ fuel →
      ∃ td' info' vm',
        floodFillTileLoop ts (referenceImage.pix seedPoint) k referenceImage.rect
          (tileRectOf ts referenceImage.rect k) threshold fuel td info nodes =
          .ok (td', info') ∧
        NaiveTileInv ts referenceImage seedPoint threshold
          (tileRectOf ts referenceImage.rect k) mask td0 td' vm' [] info' ∧
        (∀ q, vm.pix q ≠ 0 → vm'.pix q ≠ 0) ∧
        ∀ n ∈ nodes, Done referenceImage seedPoint threshold vm' n := by
  intro fuel
  induction fuel with
  | zero =>
    intro td vm nodes info inv hf
    cases nodes with
    | nil => exact ⟨td, info, vm, rfl, inv, fun _ h => h, fun n hn => by simp at hn⟩
    | cons p nodes => simp at hf
  | succ fuel ih =>
    intro td vm nodes info inv hf
    cases nodes with
    | nil => exact ⟨td, info, vm, rfl, inv, fun _ h => h, fun n hn => by simp at hn⟩
    | cons p nodes =>
      obtain ⟨td1, info1, nodes1, vm1, hstep, inv1, hlt, mono1, hdone, hsub⟩ :=
        floodFillTileStep_spec hwf ht hW hH hk inv
      obtain ⟨td2, info2, vm2, hloop, inv2, mono2, hdone2⟩ :=
        ih td1 vm1 nodes1 info1 inv1 (by omega)
      refine ⟨td2, info2, vm2, ?_, inv2, fun q h => mono2 q (mono1 q h), ?_⟩
      · simp only [floodFillTileLoop, hstep]
        exact hloop
      · intro n hn
        rcases List.mem_cons.1 hn with rfl | hn
        · exact done_mono mono2 hdone
        · exact hdone2 n (hsub n hn)

end NaiveTileLoop

end FloodFill

namespace FloodFill

/-! ## `floodFillTile`: one call on the shared mask -/

section TileCall

variable {ts : QSize} {referenceImage : QImage} {seedPoint : QPoint} {threshold : Nat}

theorem foldlM_error {σ α : Type} (f : σ → α → Except Fault σ)
    (hf : ∀ s a e, f s a = .error e → e = .outOfBounds) :
    ∀ (l : List α) (s : σ) (e : Fault), l.foldlM f s = .error e → e = .outOfBounds := by
  intro l
  induction l with
  | nil => intro s e h; simp [List.foldlM_nil, pure, Except.pure] at h
  | cons a l ih =>
    intro s e h
    rw [List.foldlM_cons] at h
    cases hfa : f s a with
    | error e' =>
      rw [hfa] at h
      have : e' = e := by
        simp only [bind, Except.bind] at h
        exact Except.error.inj h
      rw [← this]
      exact hf s a e' hfa
    | ok s1 =>
      rw [hfa] at h
      exact ih s1 e h

theorem getPixel_error {img : QImage} {p : QPoint} {e : Fault}
    (h : getPixel img p = .error e) : e = .outOfBounds := by
  unfold getPixel QImage.load at h
  split at h
  · cases h
  · exact (Except.error.inj h).symm

theorem setPixel_error {img : QImage} {p : QPoint} {v : Nat} {e : Fault}
    (h : setPixel img p v = .error e) : e = .outOfBounds := by
  unfold setPixel QImage.store at h
  split at h
  · cases h
  · exact (Except.error.inj h).symm

theorem tileAt_error {td : List TileData} {i : Int} {e : Fault}
    (h : tileAt td i = .error e) : e = .outOfBounds := by
  unfold tileAt at h
  split at h
  · cases h
  · exact (Except.error.inj h).symm

theorem tileSetReference_error {td : List TileData} {i : Int} {v : Nat} {e : Fault}
    (h : tileSetReference td i v = .error e) : e = .outOfBounds := by
  unfold tileSetReference at h
  split at h
  · cases h
  · exact (Except.error.inj h).symm

theorem tileSetFillMask_error {td : List TileData} {i : Int} {v : Nat} {e : Fault}
    (h : tileSetFillMask td i v = .error e) : e = .outOfBounds := by
  unfold tileSetFillMask at h
  split at h
  · cases h
  · exact (Except.error.inj h).symm

theorem copyReference_error {tileRect : QRect} {td : List TileData} {e : Fault}
    (h : copyReference ts referenceImage tileRect td = .error e) : e = .outOfBounds := by
  unfold copyReference at h
  refine foldlM_error _ ?_ _ _ _ h
  intro s a e' hf
  simp only at hf
  cases hg : getPixel referenceImage ⟨tileRect.left + a.2, a.1⟩ with
  | error e'' =>
    rw [hg] at hf
    rw [← Except.error.inj hf]
    exact getPixel_error hg
  | ok v =>
    rw [hg] at hf
    exact tileSetReference_error hf

theorem copyFillMask_error {mask : QImage} {tileRect : QRect} {td : List TileData} {e : Fault}
    (h : copyFillMask ts mask tileRect td = .error e) : e = .outOfBounds := by
  unfold copyFillMask at h
  refine foldlM_error _ ?_ _ _ _ h
  intro s a e' hf
  simp only at hf
  cases hg : getPixel mask ⟨tileRect.left + a.2, a.1⟩ with
  | error e'' =>
    rw [hg] at hf
    rw [← Except.error.inj hf]
    exact getPixel_error hg
  | ok v =>
    rw [hg] at hf
    exact tileSetFillMask_error hf

theorem writeBack_error {mask : QImage} {tileRect : QRect} {td : List TileData} {e : Fault}
    (h : writeBack ts mask tileRect td = .error e) : e = .outOfBounds := by
  unfold writeBack at h
  refine foldlM_error _ ?_ _ _ _ h
  intro s a e' hf
  simp only at hf
  cases hg : tileAt td ((a.1 - tileRect.top) * (ts.width : Int) + a.2) with
  | error e'' =>
    rw [hg] at hf
    rw [← Except.error.inj hf]
    exact tileAt_error hg
  | ok v =>
    rw [hg] at hf
    exact setPixel_error hf

/-- The working buffer after the two copy loops represents the shared mask. -/
theorem copyIn_state {k : TileId} {mask : QImage} {td1 td0 : List TileData}
    (hW : 1 ≤ ts.width) (hH : 1 ≤ ts.height) (hk : InGrid ts referenceImage k)
    (hg : SameGeometry referenceImage mask)
    (hs : MaskSound referenceImage seedPoint threshold mask)
    (h1 : copyReference ts referenceImage (tileRectOf ts referenceImage.rect k)
      (newTileData ts) = .ok td1)
    (h2 : copyFillMask ts mask (tileRectOf ts referenceImage.rect k) td1 = .ok td0) :
    TileState ts referenceImage seedPoint threshold (tileRectOf ts referenceImage.rect k) mask
        td0 td0 mask ∧
      ∀ c ∈ tileCells ts (tileRectOf ts referenceImage.rect k),
        (td0.getD ((c.1 - (tileRectOf ts referenceImage.rect k).top) * (ts.width : Int) +
          c.2).toNat ⟨0, 0⟩).fillMaskPixel =
          mask.pix ⟨(tileRectOf ts referenceImage.rect k).left + c.2, c.1⟩ := by
  have hok := tileOK_of_inGrid hk hW hH
  obtain ⟨l1, _, r1⟩ := copyReference_spec hok h1
  obtain ⟨l2, r2, m2⟩ := copyFillMask_spec hok h2
  refine ⟨⟨?_, hg, ?_, fun _ _ => rfl, fun _ _ => rfl, fun _ h => h, hs, le_refl _⟩, m2⟩
  · rw [l2, l1]; unfold newTileData; simp
  · intro p hp
    have hc := has_cell hok hp
    have hr := r1 _ hc
    have hm := m2 _ hc
    rw [← r2] at hr
    simp only at hr hm
    have hpe : (⟨(tileRectOf ts referenceImage.rect k).left +
        (p.x - (tileRectOf ts referenceImage.rect k).left), p.y⟩ : QPoint) = p := by
      cases p; simp
    rw [hpe] at hr hm
    unfold tileIndex
    generalize td0.getD ((p.y - (tileRectOf ts referenceImage.rect k).top) * (ts.width : Int) +
      (p.x - (tileRectOf ts referenceImage.rect k).left)).toNat ⟨0, 0⟩ = t at hr hm
    cases t
    simp only at hr hm
    rw [hr, hm]

/-- The write-back after a tile loop stores the mask of the loop's final state. -/
theorem writeBack_state {k : TileId} {mask mask' vm : QImage} {td0 td : List TileData}
    (hwf : referenceImage.WF) (hW : 1 ≤ ts.width) (hH : 1 ≤ ts.height)
    (hk : InGrid ts referenceImage k) (hg : SameGeometry referenceImage mask)
    (hcells : ∀ c ∈ tileCells ts (tileRectOf ts referenceImage.rect k),
        (td0.getD ((c.1 - (tileRectOf ts referenceImage.rect k).top) * (ts.width : Int) +
          c.2).toNat ⟨0, 0⟩).fillMaskPixel =
          mask.pix ⟨(tileRectOf ts referenceImage.rect k).left + c.2, c.1⟩)
    (st : TileState ts referenceImage seedPoint threshold
      (tileRectOf ts referenceImage.rect k) mask td0 td vm)
    (hrun : writeBack ts mask (tileRectOf ts referenceImage.rect k) td = .ok mask') :
    mask' = vm := by
  have hok := tileOK_of_inGrid hk hW hH
  apply writeBack_eq hok hwf.2.1 hg ?_ st.geometry ?_ st.frameVm hrun
  · intro c hc hspill
    rw [st.frameTd]
    · exact hcells c hc
    · intro p hp he
      have := cell_toNat_inj hok (has_cell hok hp) hc he
      rw [← this] at hspill
      simp only at hspill
      have := hp.2.1
      omega
  · intro p hp
    rw [st.rep p hp]

theorem floodFillTile_spec {k : TileId} {mask : QImage} {seeds : SeedPointList}
    (hwf : referenceImage.WF) (ht : threshold ≤ 255) (hW : 1 ≤ ts.width) (hH : 1 ≤ ts.height)
    (hk : InGrid ts referenceImage k) (hg : SameGeometry referenceImage mask)
    (hs : MaskSound referenceImage seedPoint threshold mask)
    (hseeds : ∀ q ∈ seeds, PointOK ts referenceImage seedPoint mask k q) :
    OkOr (floodFillTile ts referenceImage mask seeds (referenceImage.pix seedPoint) k
        referenceImage.rect (tileRectOf ts referenceImage.rect k) threshold)
      (fun r => TilePost referenceImage seedPoint threshold
        (PointOK ts referenceImage seedPoint) (Done referenceImage seedPoint threshold)
        mask seeds r.1 r.2) := by
  unfold floodFillTile OkOr
  simp only
  cases h1 : copyReference ts referenceImage (tileRectOf ts referenceImage.rect k)
      (newTileData ts) with
  | error e => left; rw [copyReference_error h1]
  | ok td1 =>
    simp only
    cases h2 : copyFillMask ts mask (tileRectOf ts referenceImage.rect k) td1 with
    | error e => left; rw [copyFillMask_error h2]
    | ok td0 =>
      simp only
      obtain ⟨st0, hcells⟩ := copyIn_state hW hH hk hg hs h1 h2
      have inv0 : NaiveTileInv ts referenceImage seedPoint threshold
          (tileRectOf ts referenceImage.rect k) mask td0 td0 mask seeds.reverse
          [(⟨k.x - 1, k.y⟩, []), (⟨k.x + 1, k.y⟩, []), (⟨k.x, k.y - 1⟩, []),
            (⟨k.x, k.y + 1⟩, [])] := by
        refine ⟨st0, ?_, ?_, ?_⟩
        · intro n hn
          have := hseeds n (List.mem_reverse.1 hn)
          exact ⟨this.2.1, this.2.2⟩
        · intro e he q hq
          simp only [List.mem_cons, List.mem_singleton, List.not_mem_nil, or_false] at he
          rcases he with rfl | rfl | rfl | rfl <;> simp at hq
        · rintro ⟨e, he, hne⟩
          simp only [List.mem_cons, List.mem_singleton, List.not_mem_nil, or_false] at he
          rcases he with rfl | rfl | rfl | rfl <;> simp at hne
      obtain ⟨td', info', vm', hloop, inv', mono', hdone⟩ :=
        floodFillTileLoop_spec hwf ht hW hH hk
          (seeds.length + 4 * (ts.width * ts.height) + 1) td0 mask seeds.reverse _ inv0 (by
            have := tileZeros_le td0
            rw [st0.len] at this
            simp only [List.length_reverse]
            omega)
      rw [hloop]
      simp only
      cases h3 : writeBack ts mask (tileRectOf ts referenceImage.rect k) td' with
      | error e => left; rw [writeBack_error h3]
      | ok mask' =>
        right
        have hvm := writeBack_state hwf hW hH hk hg hcells inv'.state h3
        subst hvm
        exact ⟨_, rfl, inv'.state.geometry, inv'.state.sound, mono', inv'.state.zerosLe,
          inv'.infoOK, inv'.progress, fun a ha => hdone a (List.mem_reverse.2 ha)⟩

end TileCall

end FloodFill

namespace FloodFill

/-! ## The rounds of the tile-parallel fills -/

section Merge

variable {α : Type}

theorem mergeStep_all {P : TileId → α → Prop} (tileGridSize : QSize) :
    ∀ (result queue : List (TileId × List α)),
      (∀ e ∈ queue, InFilter tileGridSize e.1 ∧ e.2 ≠ [] ∧ ∀ a ∈ e.2, P e.1 a) →
      (∀ e ∈ result, ∀ a ∈ e.2, P e.1 a) →
      ∀ e ∈ result.foldl (fun queue entry =>
          if entry.1.x < 0 ∨ entry.1.x ≥ (tileGridSize.width : Int) ∨
              entry.1.y < 0 ∨ entry.1.y ≥ (tileGridSize.height : Int) then queue
          else if entry.2.isEmpty then queue
          else hashAppend entry.1 entry.2 queue) queue,
        InFilter tileGridSize e.1 ∧ e.2 ≠ [] ∧ ∀ a ∈ e.2, P e.1 a := by
  intro result
  induction result with
  | nil => intro queue hq _; exact hq
  | cons entry rest ih =>
    intro queue hq hr
    rw [List.foldl_cons]
    apply ih
    · split
      · exact hq
      · split
        · exact hq
        · rename_i hflt hne
          have hne' : entry.2 ≠ [] := by
            intro h
            apply hne
            rw [h]; rfl
          intro e he
          rcases mem_hashAppend he with h | ⟨h1, h2⟩
          · exact hq e h
          · refine ⟨?_, ?_, ?_⟩
            · rw [h1]; unfold InFilter; omega
            · intro hnil
              -- the list of the entry for `key` ends with the appended seeds
              have : ∀ (info : List (TileId × List α)), ∀ e ∈ hashAppend entry.1 entry.2 info,
                  e ∈ info ∨ e.2 ≠ [] := by
                intro info
                induction info with
                | nil =>
                  intro e he
                  simp only [hashAppend, List.mem_singleton] at he
                  rw [he]; exact Or.inr hne'
                | cons hd tl ih2 =>
                  intro e he
                  obtain ⟨k, l⟩ := hd
                  simp only [hashAppend] at he
                  split at he
                  · rcases List.mem_cons.1 he with rfl | he
                    · right; simp only; intro h
                      exact hne' (List.append_eq_nil.1 h).2
                    · exact Or.inl (List.mem_cons_of_mem _ he)
                  · rcases List.mem_cons.1 he with rfl | he
                    · exact Or.inl (List.mem_cons_self _ _)
                    · rcases ih2 e he with h | h
                      · exact Or.inl (List.mem_cons_of_mem _ h)
                      · exact Or.inr h
              rcases this queue e he with h | h
              · exact (hq e h).2.1 hnil
              · exact h hnil
            · intro a ha
              rw [h1]
              rcases h2 a ha with h | ⟨e', he', h3, h4⟩
              · exact hr entry (List.mem_cons_self _ _) a h
              · rw [← h3]; exact (hq e' he').2.2 a h4
    · intro e he
      exact hr e (List.mem_cons_of_mem _ he)

theorem mergeStep_nonempty (tileGridSize : QSize) :
    ∀ (result queue : List (TileId × List α)),
      result.foldl (fun queue entry =>
          if entry.1.x < 0 ∨ entry.1.x ≥ (tileGridSize.width : Int) ∨
              entry.1.y < 0 ∨ entry.1.y ≥ (tileGridSize.height : Int) then queue
          else if entry.2.isEmpty then queue
          else hashAppend entry.1 entry.2 queue) queue ≠ [] →
      queue ≠ [] ∨ ∃ e ∈ result, e.2 ≠ [] := by
  intro result
  induction result with
  | nil => intro queue h; exact Or.inl h
  | cons entry rest ih =>
    intro queue h
    rw [List.foldl_cons] at h
    rcases ih _ h with h1 | ⟨e, he, hne⟩
    · split at h1
      · exact Or.inl h1
      · split at h1
        · exact Or.inl h1
        · rename_i hne
          refine Or.inr ⟨entry, List.mem_cons_self _ _, ?_⟩
          intro h
          apply hne
          rw [h]; rfl
    · exact Or.inr ⟨e, List.mem_cons_of_mem _ he, hne⟩

theorem merge_all {P : TileId → α → Prop} (tileGridSize : QSize)
    (results : List (List (TileId × List α)))
    (h : ∀ info ∈ results, ∀ e ∈ info, ∀ a ∈ e.2, P e.1 a) :
    ∀ e ∈ mergePropagation tileGridSize results,
      InFilter tileGridSize e.1 ∧ e.2 ≠ [] ∧ ∀ a ∈ e.2, P e.1 a := by
  unfold mergePropagation
  have main : ∀ (rs : List (List (TileId × List α))) (queue : List (TileId × List α)),
      (∀ e ∈ queue, InFilter tileGridSize e.1 ∧ e.2 ≠ [] ∧ ∀ a ∈ e.2, P e.1 a) →
      (∀ info ∈ rs, ∀ e ∈ info, ∀ a ∈ e.2, P e.1 a) →
      ∀ e ∈ rs.foldl (fun queue result =>
          result.foldl (fun queue entry =>
            if entry.1.x < 0 ∨ entry.1.x ≥ (tileGridSize.width : Int) ∨
                entry.1.y < 0 ∨ entry.1.y ≥ (tileGridSize.height : Int) then queue
            else if entry.2.isEmpty then queue
            else hashAppend entry.1 entry.2 queue) queue) queue,
        InFilter tileGridSize e.1 ∧ e.2 ≠ [] ∧ ∀ a ∈ e.2, P e.1 a := by
    intro rs
    induction rs with
    | nil => intro queue hq _; exact hq
    | cons r rs ih =>
      intro queue hq hr
      rw [List.foldl_cons]
      exact ih _ (mergeStep_all tileGridSize r queue hq (hr r (List.mem_cons_self _ _)))
        (fun info hi => hr info (List.mem_cons_of_mem _ hi))
  exact main results [] (fun e he => by simp at he) h

theorem merge_nonempty (tileGridSize : QSize) (results : List (List (TileId × List α)))
    (h : mergePropagation tileGridSize results ≠ []) :
    ∃ info ∈ results, ∃ e ∈ info, e.2 ≠ [] := by
  unfold mergePropagation at h
  have main : ∀ (rs : List (List (TileId × List α))) (queue : List (TileId × List α)),
      rs.foldl (fun queue result =>
          result.foldl (fun queue entry =>
            if entry.1.x < 0 ∨ entry.1.x ≥ (tileGridSize.width : Int) ∨
                entry.1.y < 0 ∨ entry.1.y ≥ (tileGridSize.height : Int) then queue
            else if entry.2.isEmpty then queue
            else hashAppend entry.1 entry.2 queue) queue) queue ≠ [] →
      queue ≠ [] ∨ ∃ info ∈ rs, ∃ e ∈ info, e.2 ≠ [] := by
    intro rs
    induction rs with
    | nil => intro queue h; exact Or.inl h
    | cons r rs ih =>
      intro queue h
      rw [List.foldl_cons] at h
      rcases ih _ h with h1 | ⟨info, hi, e, he, hne⟩
      · rcases mergeStep_nonempty tileGridSize r queue h1 with h2 | ⟨e, he, hne⟩
        · exact Or.inl h2
        · exact Or.inr ⟨r, List.mem_cons_self _ _, e, he, hne⟩
      · exact Or.inr ⟨info, List.mem_cons_of_mem _ hi, e, he, hne⟩
  rcases main results [] h with h1 | h1
  · exact absurd rfl h1
  · exact h1

end Merge

section Rounds

variable {α : Type} {referenceImage : QImage} {seedPoint : QPoint} {threshold : Nat}
  {SeedOK : QImage → TileId → α → Prop} {SeedDone : QImage → α → Prop}
  {tile : QImage → TileId → List α → Except Fault (QImage × List (TileId × List α))}
  {tileGridSize : QSize}

theorem runRound_spec
    (hOK : ∀ m m' k a, (∀ q, m.pix q ≠ 0 → m'.pix q ≠ 0) → SeedOK m k a → SeedOK m' k a)
    (hDone : ∀ m m' a, (∀ q, m.pix q ≠ 0 → m'.pix q ≠ 0) → SeedDone m a → SeedDone m' a)
    (htile : ∀ mask k seeds, SameGeometry referenceImage mask →
      MaskSound referenceImage seedPoint threshold mask → InFilter tileGridSize k →
      seeds ≠ [] → (∀ a ∈ seeds, SeedOK mask k a) →
      OkOr (tile mask k seeds) (fun r =>
        TilePost referenceImage seedPoint threshold SeedOK SeedDone mask seeds r.1 r.2)) :
    ∀ (queue : List (TileId × List α)) (mask : QImage), SameGeometry referenceImage mask →
      MaskSound referenceImage seedPoint threshold mask →
      (∀ e ∈ queue, InFilter tileGridSize e.1 ∧ e.2 ≠ [] ∧ ∀ a ∈ e.2, SeedOK mask e.1 a) →
      OkOr (runRound tile mask queue) (fun r =>
        RoundPost referenceImage seedPoint threshold SeedOK SeedDone mask queue r.1 r.2) := by
  intro queue
  induction queue with
  | nil =>
    intro mask hg hs _
    exact Or.inr ⟨(mask, []), rfl, hg, hs, fun _ h => h, le_refl _,
      fun info hi => by simp at hi, fun ⟨info, hi, _⟩ => by simp at hi,
      fun e he => by simp at he⟩
  | cons entry rest ih =>
    intro mask hg hs hq
    obtain ⟨k, seeds⟩ := entry
    have hk := hq (k, seeds) (List.mem_cons_self _ _)
    unfold runRound
    rcases htile mask k seeds hg hs hk.1 hk.2.1 hk.2.2 with h1 | ⟨⟨mask1, info1⟩, h1, post1⟩
    · left; rw [h1]
    · rw [h1]
      simp only
      have hq' : ∀ e ∈ rest, InFilter tileGridSize e.1 ∧ e.2 ≠ [] ∧
          ∀ a ∈ e.2, SeedOK mask1 e.1 a := fun e he =>
        ⟨(hq e (List.mem_cons_of_mem _ he)).1, (hq e (List.mem_cons_of_mem _ he)).2.1,
          fun a ha =>
            hOK mask mask1 e.1 a post1.mono ((hq e (List.mem_cons_of_mem _ he)).2.2 a ha)⟩
      rcases ih mask1 post1.geometry post1.sound hq' with h2 | ⟨⟨mask2, results⟩, h2, post2⟩
      · left; rw [h2]
      · right
        rw [h2]
        refine ⟨_, rfl, post2.geometry, post2.sound, fun q h => post2.mono q (post1.mono q h),
          le_trans post2.zerosLe post1.zerosLe, ?_, ?_, ?_⟩
        · intro info hi e he a ha
          rcases List.mem_cons.1 hi with rfl | hi
          · exact hOK mask1 mask2 e.1 a post2.mono (post1.infoOK e he a ha)
          · exact post2.infoOK info hi e he a ha
        · rintro ⟨info, hi, e, he, hne⟩
          rcases List.mem_cons.1 hi with rfl | hi
          · have := post1.progress ⟨e, he, hne⟩
            have := post2.zerosLe
            simp only at *
            omega
          · have := post2.progress ⟨info, hi, e, he, hne⟩
            have := post1.zerosLe
            simp only at *
            omega
        · intro e he a ha
          rcases List.mem_cons.1 he with rfl | he
          · exact hDone mask1 mask2 a post2.mono (post1.seedsDone a ha)
          · exact post2.seedsDone e he a ha

theorem runRounds_spec
    (hOK : ∀ m m' k a, (∀ q, m.pix q ≠ 0 → m'.pix q ≠ 0) → SeedOK m k a → SeedOK m' k a)
    (hDone : ∀ m m' a, (∀ q, m.pix q ≠ 0 → m'.pix q ≠ 0) → SeedDone m a → SeedDone m' a)
    (htile : ∀ mask k seeds, SameGeometry referenceImage mask →
      MaskSound referenceImage seedPoint threshold mask → InFilter tileGridSize k →
      seeds ≠ [] → (∀ a ∈ seeds, SeedOK mask k a) →
      OkOr (tile mask k seeds) (fun r =>
        TilePost referenceImage seedPoint threshold SeedOK SeedDone mask seeds r.1 r.2)) :
    ∀ (fuel : Nat) (mask : QImage) (queue : List (TileId × List α)),
      SameGeometry referenceImage mask → MaskSound referenceImage seedPoint threshold mask →
      (∀ e ∈ queue, InFilter tileGridSize e.1 ∧ e.2 ≠ [] ∧ ∀ a ∈ e.2, SeedOK mask e.1 a) →
      (queue ≠ [] → mask.zeros < fuel) →
      OkOr (runRounds tile tileGridSize fuel mask queue) (fun mask' =>
        SameGeometry referenceImage mask' ∧ MaskSound referenceImage seedPoint threshold mask' ∧
        (∀ q, mask.pix q ≠ 0 → mask'.pix q ≠ 0) ∧ ∀ e ∈ queue, ∀ a ∈ e.2, SeedDone mask' a) := by
  intro fuel
  induction fuel with
  | zero =>
    intro mask queue hg hs hq hf
    cases queue with
    | nil => exact Or.inr ⟨mask, rfl, hg, hs, fun _ h => h, fun e he => by simp at he⟩
    | cons entry rest => exact absurd (hf (by simp)) (by omega)
  | succ fuel ih =>
    intro mask queue hg hs hq hf
    cases queue with
    | nil => exact Or.inr ⟨mask, rfl, hg, hs, fun _ h => h, fun e he => by simp at he⟩
    | cons entry rest =>
      unfold runRounds
      rcases runRound_spec hOK hDone htile (entry :: rest) mask hg hs hq with
        h1 | ⟨⟨mask1, results⟩, h1, post⟩
      · left; rw [h1]
      · rw [h1]
        simp only
        have hq1 := merge_all tileGridSize results (post.infoOK)
        have hf1 : mergePropagation tileGridSize results ≠ [] → mask1.zeros < fuel := by
          intro hne
          have := post.progress (merge_nonempty tileGridSize results hne)
          have := hf (by simp)
          simp only at *
          omega
        rcases ih mask1 _ post.geometry post.sound hq1 hf1 with h2 | ⟨mask2, h2, g2, s2, m2, _⟩
        · left; rw [h2]
        · right
          refine ⟨mask2, h2, g2, s2, fun q h => m2 q (post.mono q h), ?_⟩
          intro e he a ha
          exact hDone mask1 mask2 a m2 (post.seedsDone e he a ha)

end Rounds

end FloodFill

namespace FloodFill

/-! ## `floodFillMT` -/

section NaiveMT

variable {ts : QSize} {referenceImage : QImage} {seedPoint : QPoint} {threshold : Nat}

theorem lt_ceilDiv_iff (n w W : Nat) (hW : 1 ≤ W) : n < (w + W - 1) / W ↔ n * W < w := by
  rw [Nat.lt_iff_add_one_le, Nat.le_div_iff_mul_le (by omega), Nat.add_mul]
  omega

/-- The test of the merge against the grid size selects the tiles of the grid. -/
theorem inGrid_iff_inFilter (hW : 1 ≤ ts.width) (hH : 1 ≤ ts.height) (k : TileId) :
    InGrid ts referenceImage k ↔ InFilter (tileGridSizeOf ts referenceImage.rect) k := by
  rw [rect_eq]
  unfold InGrid InFilter tileGridSizeOf
  simp only
  have e1 : ((referenceImage.width : Int) - 1 - 0 + 1).toNat = referenceImage.width := by omega
  have e2 : ((referenceImage.height : Int) - 1 - 0 + 1).toNat = referenceImage.height := by
    omega
  rw [e1, e2]
  have key : ∀ (a : Int) (w W : Nat), 1 ≤ W → 0 ≤ a →
      (a * (W : Int) < (w : Int) ↔ a < (((w + W - 1) / W : Nat) : Int)) := by
    intro a w W hW ha
    obtain ⟨n, rfl⟩ := Int.eq_ofNat_of_zero_le ha
    rw [Int.ofNat_lt, lt_ceilDiv_iff n w W hW, ← Int.ofNat_lt]
    push_cast
    rfl
  constructor
  · rintro ⟨h1, h2, h3, h4⟩
    exact ⟨h1, (key _ _ _ hW h1).1 h2, h3, (key _ _ _ hH h3).1 h4⟩
  · rintro ⟨h1, h2, h3, h4⟩
    exact ⟨h1, (key _ _ _ hW h1).2 h2, h3, (key _ _ _ hH h3).2 h4⟩

/-- The tile of the seed is a tile of the grid, and its rectangle holds the seed. -/
theorem home_tile (hW : 1 ≤ ts.width) (hH : 1 ≤ ts.height)
    (hin : referenceImage.inImage seedPoint) :
    InGrid ts referenceImage ⟨seedPoint.x.tdiv ts.width, seedPoint.y.tdiv ts.height⟩ ∧
      (tileRectOf ts referenceImage.rect
        ⟨seedPoint.x.tdiv ts.width, seedPoint.y.tdiv ts.height⟩).has seedPoint := by
  obtain ⟨h1, h2, h3, h4⟩ := hin
  have hW' : (0 : Int) < ts.width := by exact_mod_cast hW
  have hH' : (0 : Int) < ts.height := by exact_mod_cast hH
  rw [Int.tdiv_eq_ediv h1 (le_of_lt hW'), Int.tdiv_eq_ediv h3 (le_of_lt hH')]
  have a1 := Int.ediv_mul_le seedPoint.x (ne_of_gt hW')
  have a2 := Int.lt_ediv_add_one_mul_self seedPoint.x hW'
  have a3 := Int.ediv_nonneg h1 (le_of_lt hW')
  have b1 := Int.ediv_mul_le seedPoint.y (ne_of_gt hH')
  have b2 := Int.lt_ediv_add_one_mul_self seedPoint.y hH'
  have b3 := Int.ediv_nonneg h3 (le_of_lt hH')
  rw [Int.add_mul] at a2 b2
  have hk : InGrid ts referenceImage ⟨seedPoint.x / ts.width, seedPoint.y / ts.height⟩ :=
    ⟨a3, by simp only; omega, b3, by simp only; omega⟩
  refine ⟨hk, ?_⟩
  rw [tileRectOf_eq hk hW hH]
  unfold QRect.has
  simp only
  omega

theorem pointOK_mono {m m' : QImage} {k : TileId} {q : QPoint}
    (hm : ∀ q, m.pix q ≠ 0 → m'.pix q ≠ 0)
    (h : PointOK ts referenceImage seedPoint m k q) :
    PointOK ts referenceImage seedPoint m' k q :=
  ⟨h.1, h.2.1, just_mono hm h.2.2⟩

/-- The run of `floodFillMT` on a seed inside the image never exhausts the rounds it is
given and never divides by zero: it leaves the buffer of an image, or it returns a mask of
the geometry of the image whose nonzero bytes are the graded values of pixels joined to the
seed, and in which the seed is marked unless it fails the inclusion test. -/
theorem floodFillMTWith_spec (hwf : referenceImage.WF) (ht : threshold ≤ 255)
    (hW : 1 ≤ ts.width) (hH : 1 ≤ ts.height) (hin : referenceImage.inImage seedPoint) :
    OkOr (floodFillMTWith ts referenceImage seedPoint threshold) (fun mask =>
      SameGeometry referenceImage mask ∧ MaskSound referenceImage seedPoint threshold mask ∧
      Done referenceImage seedPoint threshold mask seedPoint) := by
  unfold floodFillMTWith
  simp only
  obtain ⟨r0, r1⟩ := ref_offset_range hwf hin
  simp only [(contains_rect referenceImage seedPoint).2 hin, Bool.not_true, Bool.false_eq_true,
    if_false, getPixel_eq r0 r1]
  obtain ⟨hk, hhas⟩ := @home_tile ts referenceImage seedPoint hW hH hin
  have hg0 := blank_geometry referenceImage
  have hs0 : MaskSound referenceImage seedPoint threshold referenceImage.blank :=
    fun i hi => absurd (blank_getD _ i) hi
  have := @runRounds_spec _ referenceImage seedPoint threshold
    (PointOK ts referenceImage seedPoint) (Done referenceImage seedPoint threshold)
    (fun fillMaskImage tileId seedPoints =>
      floodFillTile ts referenceImage fillMaskImage seedPoints (referenceImage.pix seedPoint)
        tileId referenceImage.rect (tileRectOf ts referenceImage.rect tileId) threshold)
    (tileGridSizeOf ts referenceImage.rect)
    (fun m m' k a hm h => pointOK_mono hm h)
    (fun m m' a hm h => done_mono hm h)
    (fun mask k seeds hg hs hf hne hseeds =>
      floodFillTile_spec hwf ht hW hH ((inGrid_iff_inFilter hW hH k).2 hf) hg hs hseeds)
    (referenceImage.bytesPerLine * referenceImage.height + 1) referenceImage.blank
    [(⟨seedPoint.x.tdiv ts.width, seedPoint.y.tdiv ts.height⟩, [seedPoint])] hg0 hs0
    (by
      intro e he
      rw [List.mem_singleton.1 he]
      refine ⟨(inGrid_iff_inFilter hW hH _).1 hk, by simp, ?_⟩
      intro a ha
      rw [List.mem_singleton.1 ha]
      exact ⟨hk, hhas, Or.inl rfl⟩)
    (by
      intro _
      rw [blank_zeros]
      omega)
  rcases this with h | ⟨mask, h, g, s, _, d⟩
  · exact Or.inl h
  · exact Or.inr ⟨mask, h, g, s, d _ (List.mem_singleton.2 rfl) _ (List.mem_singleton.2 rfl)⟩

end NaiveMT

end FloodFill

namespace FloodFill

/-! ## `floodFillTileScanLine`: the scans of a row -/

section ScanTileRow

variable {ts : QSize} {referenceImage : QImage} {seedPoint : QPoint} {threshold : Nat}

theorem near_of_adjacent {p q : QPoint}
    (hc : Connected referenceImage seedPoint threshold p) (hadj : adjacent p q)
    (hq : referenceImage.inImage q) : Near referenceImage seedPoint threshold q :=
  fun hi => Connected.step p q hc hadj hq hi

/-- The span of one pixel filed for the tile on the right. -/
theorem emit_right_span {k : TileId} (hk : InGrid ts referenceImage k) (hW : 1 ≤ ts.width)
    (hH : 1 ≤ ts.height) {mask : QImage} {x y dy : Int}
    (hy : (tileRectOf ts referenceImage.rect k).top ≤ y ∧
      y ≤ (tileRectOf ts referenceImage.rect k).bottom)
    (hx : x = (tileRectOf ts referenceImage.rect k).right + 1)
    (hg : x ≤ referenceImage.rect.right) (hdy : dy = 1 ∨ dy = -1)
    (hc : Connected referenceImage seedPoint threshold ⟨x - 1, y⟩) :
    SpanSeedOK ts referenceImage seedPoint threshold mask ⟨k.x + 1, k.y⟩ ⟨x, x, y, dy⟩ := by
  intro _
  have hok := tileOK_of_inGrid hk hW hH
  have hp : (tileRectOf ts referenceImage.rect k).has ⟨x - 1, y⟩ :=
    ⟨by have := hok.leftRight; simp only; omega, by simp only; omega, hy.1, hy.2⟩
  obtain ⟨hk', hhas⟩ := emit_right hk hW hH hp (by simp only; omega) (by simp only; omega)
  simp only at hhas
  have hxx : x - 1 + 1 = x := by omega
  rw [hxx] at hhas
  obtain ⟨a1, a2, a3, a4⟩ := hhas
  refine ⟨⟨a1, le_refl _, a2, a3, a4, hdy⟩, ?_,
    ⟨x, le_refl _, le_refl _, Or.inr ⟨_, hc, Or.inl ⟨rfl, Or.inl (by simp)⟩⟩⟩⟩
  intro x' h1 h2
  simp only at h1 h2
  have : x' = x := by omega
  subst this
  exact near_of_adjacent hc (Or.inl ⟨rfl, Or.inl (by simp)⟩)
    (has_inImage (tileOK_of_inGrid hk' hW hH) ⟨a1, a2, a3, a4⟩)

/-- The span of one pixel filed for the tile on the left. -/
theorem emit_left_span {k : TileId} (hk : InGrid ts referenceImage k) (hW : 1 ≤ ts.width)
    (hH : 1 ≤ ts.height) {mask : QImage} {x y dy : Int}
    (hy : (tileRectOf ts referenceImage.rect k).top ≤ y ∧
      y ≤ (tileRectOf ts referenceImage.rect k).bottom)
    (hx : x = (tileRectOf ts referenceImage.rect k).left)
    (hg : ¬ x - 1 < referenceImage.rect.left) (hdy : dy = 1 ∨ dy = -1)
    (hc : Connected referenceImage seedPoint threshold ⟨x, y⟩) :
    SpanSeedOK ts referenceImage seedPoint threshold mask ⟨k.x - 1, k.y⟩
      ⟨x - 1, x - 1, y, dy⟩ := by
  intro _
  have hok := tileOK_of_inGrid hk hW hH
  rw [rect_eq] at hg
  simp only at hg
  have hp : (tileRectOf ts referenceImage.rect k).has ⟨x, y⟩ :=
    ⟨by simp only; omega, by have := hok.leftRight; simp only; omega, hy.1, hy.2⟩
  obtain ⟨hk', hhas⟩ := emit_left hk hW hH hp (by simp only; omega) (by simp only; omega)
  simp only at hhas
  obtain ⟨a1, a2, a3, a4⟩ := hhas
  refine ⟨⟨a1, le_refl _, a2, a3, a4, hdy⟩, ?_,
    ⟨x - 1, le_refl _, le_refl _, Or.inr ⟨_, hc, Or.inl ⟨rfl, Or.inr rfl⟩⟩⟩⟩
  intro x' h1 h2
  simp only at h1 h2
  have : x' = x - 1 := by omega
  subst this
  exact near_of_adjacent hc (Or.inl ⟨rfl, Or.inr rfl⟩)
    (has_inImage (tileOK_of_inGrid hk' hW hH) ⟨a1, a2, a3, a4⟩)

theorem tileScanRight_spec {k : TileId} {mask : QImage} {td0 : List TileData} {span : Span}
    (hwf : referenceImage.WF) (ht : threshold ≤ 255) (hW : 1 ≤ ts.width) (hH : 1 ≤ ts.height)
    (hk : InGrid ts referenceImage k)
    (hy : (tileRectOf ts referenceImage.rect k).top ≤ span.y ∧
      span.y ≤ (tileRectOf ts referenceImage.rect k).bottom)
    (hdy : span.dy = 1 ∨ span.dy = -1) :
    ∀ (fuel : Nat) (td : List TileData) (vm : QImage) (info : TilePropagationInfoScanLine)
      (x2 : Int),
      TileState ts referenceImage seedPoint threshold (tileRectOf ts referenceImage.rect k)
        mask td0 td vm →
      (∀ e ∈ info, ∀ s ∈ e.2, SpanSeedOK ts referenceImage seedPoint threshold vm e.1 s) →
      (tileRectOf ts referenceImage.rect k).left ≤ x2 →
      x2 ≤ (tileRectOf ts referenceImage.rect k).right + 1 →
      (x2 ≤ (tileRectOf ts referenceImage.rect k).right →
        Near referenceImage seedPoint threshold ⟨x2, span.y⟩) →
      ((tileRectOf ts referenceImage.rect k).right < x2 →
        Connected referenceImage seedPoint threshold ⟨x2 - 1, span.y⟩) →
      ((tileRectOf ts referenceImage.rect k).right + 1 - x2).toNat + 1 ≤ fuel →
      ∃ td' info' x2' vm',
        tileScanRight ts (referenceImage.pix seedPoint) k referenceImage.rect
          (tileRectOf ts referenceImage.rect k) threshold span fuel td info x2 =
          .ok (td', info', x2') ∧
        TileState ts referenceImage seedPoint threshold (tileRectOf ts referenceImage.rect k)
          mask td0 td' vm' ∧
        (∀ e ∈ info', ∀ s ∈ e.2, SpanSeedOK ts referenceImage seedPoint threshold vm' e.1 s) ∧
        x2 ≤ x2' ∧ x2' ≤ (tileRectOf ts referenceImage.rect k).right + 1 ∧
        (∀ x, x2 ≤ x → x < x2' → vm'.pix ⟨x, span.y⟩ ≠ 0 ∧
          Connected referenceImage seedPoint threshold ⟨x, span.y⟩) ∧
        (∀ q, vm.pix q ≠ 0 → vm'.pix q ≠ 0) ∧
        tileZeros td' + (x2' - x2).toNat = tileZeros td ∧
        vm'.zeros + (x2' - x2).toNat = vm.zeros ∧
        (x2 ≤ (tileRectOf ts referenceImage.rect k).right → x2' = x2 →
          td' = td ∧ info' = info ∧ vm' = vm) ∧
        (x2 ≤ (tileRectOf ts referenceImage.rect k).right → vm.pix ⟨x2, span.y⟩ = 0 →
          includable referenceImage (referenceImage.pix seedPoint) threshold ⟨x2, span.y⟩ →
          x2 < x2') := by
  have hok := tileOK_of_inGrid hk hW hH
  have hw := hwf.2.1
  have hrect := rect_eq referenceImage
  intro fuel
  induction fuel with
  | zero => intro td vm info x2 _ _ _ _ _ _ hf; omega
  | succ fuel ih =>
    intro td vm info x2 st hinfo hl hr hnear hprev hf
    have stop : ∃ td' info' x2' vm',
        (Except.ok (td, info, x2) : Except Fault _) = .ok (td', info', x2') ∧
        TileState ts referenceImage seedPoint threshold (tileRectOf ts referenceImage.rect k)
          mask td0 td' vm' ∧
        (∀ e ∈ info', ∀ s ∈ e.2, SpanSeedOK ts referenceImage seedPoint threshold vm' e.1 s) ∧
        x2 ≤ x2' ∧ x2' ≤ (tileRectOf ts referenceImage.rect k).right + 1 ∧
        (∀ x, x2 ≤ x → x < x2' → vm'.pix ⟨x, span.y⟩ ≠ 0 ∧
          Connected referenceImage seedPoint threshold ⟨x, span.y⟩) ∧
        (∀ q, vm.pix q ≠ 0 → vm'.pix q ≠ 0) ∧
        tileZeros td' + (x2' - x2).toNat = tileZeros td ∧
        vm'.zeros + (x2' - x2).toNat = vm.zeros ∧
        (x2 ≤ (tileRectOf ts referenceImage.rect k).right → x2' = x2 →
          td' = td ∧ info' = info ∧ vm' = vm) :=
      ⟨td, info, x2, vm, rfl, st, hinfo, le_refl _, hr, fun x a b => by omega, fun _ h => h,
        by simp, by simp, fun _ _ => ⟨rfl, rfl, rfl⟩⟩
    unfold tileScanRight
    simp only
    by_cases hgl : x2 > referenceImage.rect.right
    · rw [if_pos hgl]
      obtain ⟨td', info', x2', vm', e, r⟩ := stop
      refine ⟨td', info', x2', vm', e, r.1, r.2.1, r.2.2.1, r.2.2.2.1, r.2.2.2.2.1,
        r.2.2.2.2.2.1, r.2.2.2.2.2.2.1, r.2.2.2.2.2.2.2.1, r.2.2.2.2.2.2.2.2, ?_⟩
      intro h
      have := hok.rightW
      rw [hrect] at hgl
      simp only at hgl
      omega
    rw [if_neg hgl]
    by_cases htl : x2 > (tileRectOf ts referenceImage.rect k).right
    · rw [if_pos htl]
      refine ⟨td, _, x2, vm, rfl, st, ?_, le_refl _, hr, fun x a b => by omega, fun _ h => h,
        by simp, by simp, fun h => by omega, fun h => by omega⟩
      apply hashAppend_all hinfo
      intro s hs
      rw [List.mem_singleton.1 hs]
      exact emit_right_span hk hW hH hy (by omega) (by omega) hdy (hprev htl)
    rw [if_neg htl]
    have hpR : (tileRectOf ts referenceImage.rect k).has ⟨x2, span.y⟩ :=
      ⟨hl, by simp only; omega, hy.1, hy.2⟩
    have hpi := has_inImage hok hpR
    obtain ⟨c1, c2⟩ := tile_code st hok hpR
    simp only at c1 c2
    rw [c1]
    simp only
    by_cases hm : vm.pix ⟨x2, span.y⟩ > 0
    · rw [if_pos hm]
      obtain ⟨td', info', x2', vm', e, r⟩ := stop
      exact ⟨td', info', x2', vm', e, r.1, r.2.1, r.2.2.1, r.2.2.2.1, r.2.2.2.2.1,
        r.2.2.2.2.2.1, r.2.2.2.2.2.2.1, r.2.2.2.2.2.2.2.1, r.2.2.2.2.2.2.2.2,
        fun _ h => by omega⟩
    rw [if_neg hm, difference8_eq (pix_lt_256 hwf _) (pix_lt_256 hwf seedPoint)]
    by_cases hd : qAbs (referenceImage.pix ⟨x2, span.y⟩) (referenceImage.pix seedPoint) ≥
        threshold
    · rw [if_pos hd]
      obtain ⟨td', info', x2', vm', e, r⟩ := stop
      exact ⟨td', info', x2', vm', e, r.1, r.2.1, r.2.2.1, r.2.2.2.1, r.2.2.2.2.1,
        r.2.2.2.2.2.1, r.2.2.2.2.2.2.1, r.2.2.2.2.2.2.2.1, r.2.2.2.2.2.2.2.2,
        fun _ _ h => by unfold includable at h; omega⟩
    rw [if_neg hd]
    have hincl : includable referenceImage (referenceImage.pix seedPoint) threshold
        ⟨x2, span.y⟩ := by
      unfold includable; omega
    have hz : vm.pix ⟨x2, span.y⟩ = 0 := by omega
    have hconn := hnear (by omega) hincl
    rw [selectionValue_eq hincl ht]
    simp only
    rw [c2]
    simp only
    obtain ⟨st', z1, tz1, mono1, hself⟩ := st.markCell hok hw ht hpR hz hconn
    have hxx : x2 + 1 - 1 = x2 := by omega
    obtain ⟨td2, info2, x2', vm2, hrun, st2, hinfo2, b1, b2, hpix, mono2, tz2, z2, _, _⟩ :=
      ih _ _ info (x2 + 1) st' hinfo (by omega) (by omega)
        (fun h => near_of_adjacent hconn (Or.inl ⟨rfl, Or.inl rfl⟩)
          (has_inImage hok ⟨by simp only; omega, h, hy.1, hy.2⟩))
        (fun _ => by rw [hxx]; exact hconn) (by omega)
    refine ⟨td2, info2, x2', vm2, hrun, st2, hinfo2, by omega, b2, ?_,
      fun q h => mono2 q (mono1 q h), by omega, by omega, fun _ h => by omega,
      fun _ _ _ => by omega⟩
    intro x a b
    by_cases hx : x = x2
    · subst hx
      exact ⟨mono2 _ hself, hconn⟩
    · exact hpix x (by omega) b

theorem tileScanLeft_spec {k : TileId} {mask : QImage} {td0 : List TileData} {span : Span}
    (hwf : referenceImage.WF) (ht : threshold ≤ 255) (hW : 1 ≤ ts.width) (hH : 1 ≤ ts.height)
    (hk : InGrid ts referenceImage k)
    (hy : (tileRectOf ts referenceImage.rect k).top ≤ span.y ∧
      span.y ≤ (tileRectOf ts referenceImage.rect k).bottom)
    (hdy : span.dy = 1 ∨ span.dy = -1) :
    ∀ (fuel : Nat) (td : List TileData) (vm : QImage) (info : TilePropagationInfoScanLine)
      (x1 : Int),
      TileState ts referenceImage seedPoint threshold (tileRectOf ts referenceImage.rect k)
        mask td0 td vm →
      (∀ e ∈ info, ∀ s ∈ e.2, SpanSeedOK ts referenceImage seedPoint threshold vm e.1 s) →
      (tileRectOf ts referenceImage.rect k).left ≤ x1 →
      x1 ≤ (tileRectOf ts referenceImage.rect k).right →
      Connected referenceImage seedPoint threshold ⟨x1, span.y⟩ →
      (x1 - (tileRectOf ts referenceImage.rect k).left).toNat + 1 ≤ fuel →
      ∃ td' info' x1' vm',
        tileScanLeft ts (referenceImage.pix seedPoint) k referenceImage.rect
          (tileRectOf ts referenceImage.rect k) threshold span fuel td info x1 =
          .ok (td', info', x1') ∧
        TileState ts referenceImage seedPoint threshold (tileRectOf ts referenceImage.rect k)
          mask td0 td' vm' ∧
        (∀ e ∈ info', ∀ s ∈ e.2, SpanSeedOK ts referenceImage seedPoint threshold vm' e.1 s) ∧
        (tileRectOf ts referenceImage.rect k).left ≤ x1' ∧ x1' ≤ x1 ∧
        (∀ x, x1' ≤ x → x < x1 → vm'.pix ⟨x, span.y⟩ ≠ 0 ∧
          Connected referenceImage seedPoint threshold ⟨x, span.y⟩) ∧
        (∀ q, vm.pix q ≠ 0 → vm'.pix q ≠ 0) ∧
        tileZeros td' + (x1 - x1').toNat = tileZeros td ∧
        vm'.zeros + (x1 - x1').toNat = vm.zeros ∧
        (∀ q, referenceImage.inImage q → x1 ≤ q.x → vm'.pix q = vm.pix q) := by
  have hok := tileOK_of_inGrid hk hW hH
  have hw := hwf.2.1
  intro fuel
  induction fuel with
  | zero => intro td vm info x1 _ _ _ _ _ hf; omega
  | succ fuel ih =>
    intro td vm info x1 st hinfo hl hr hconn hf
    have stop : ∃ td' info' x1' vm',
        (Except.ok (td, info, x1) : Except Fault _) = .ok (td', info', x1') ∧
        TileState ts referenceImage seedPoint threshold (tileRectOf ts referenceImage.rect k)
          mask td0 td' vm' ∧
        (∀ e ∈ info', ∀ s ∈ e.2, SpanSeedOK ts referenceImage seedPoint threshold vm' e.1 s) ∧
        (tileRectOf ts referenceImage.rect k).left ≤ x1' ∧ x1' ≤ x1 ∧
        (∀ x, x1' ≤ x → x < x1 → vm'.pix ⟨x, span.y⟩ ≠ 0 ∧
          Connected referenceImage seedPoint threshold ⟨x, span.y⟩) ∧
        (∀ q, vm.pix q ≠ 0 → vm'.pix q ≠ 0) ∧
        tileZeros td' + (x1 - x1').toNat = tileZeros td ∧
        vm'.zeros + (x1 - x1').toNat = vm.zeros ∧
        (∀ q, referenceImage.inImage q → x1 ≤ q.x → vm'.pix q = vm.pix q) :=
      ⟨td, info, x1, vm, rfl, st, hinfo, hl, le_refl _, fun x a b => by omega, fun _ h => h,
        by simp, by simp, fun _ _ _ => rfl⟩
    unfold tileScanLeft
    simp only
    by_cases hgl : x1 - 1 < referenceImage.rect.left
    · rw [if_pos hgl]
      exact stop
    rw [if_neg hgl]
    by_cases htl : x1 - 1 < (tileRectOf ts referenceImage.rect k).left
    · rw [if_pos htl]
      refine ⟨td, _, x1, vm, rfl, st, ?_, hl, le_refl _, fun x a b => by omega, fun _ h => h,
        by simp, by simp, fun _ _ _ => rfl⟩
      apply hashAppend_all hinfo
      intro s hs
      rw [List.mem_singleton.1 hs]
      exact emit_left_span hk hW hH hy (by omega) hgl hdy hconn
    rw [if_neg htl]
    have hpR : (tileRectOf ts referenceImage.rect k).has ⟨x1 - 1, span.y⟩ :=
      ⟨by simp only; omega, by simp only; omega, hy.1, hy.2⟩
    have hpi := has_inImage hok hpR
    obtain ⟨c1, c2⟩ := tile_code st hok hpR
    simp only at c1 c2
    rw [c1]
    simp only
    by_cases hm : vm.pix ⟨x1 - 1, span.y⟩ > 0
    · rw [if_pos hm]
      exact stop
    rw [if_neg hm, difference8_eq (pix_lt_256 hwf _) (pix_lt_256 hwf seedPoint)]
    by_cases hd : qAbs (referenceImage.pix ⟨x1 - 1, span.y⟩) (referenceImage.pix seedPoint) ≥
        threshold
    · rw [if_pos hd]
      exact stop
    rw [if_neg hd]
    have hincl : includable referenceImage (referenceImage.pix seedPoint) threshold
        ⟨x1 - 1, span.y⟩ := by
      unfold includable; omega
    have hz : vm.pix ⟨x1 - 1, span.y⟩ = 0 := by omega
    have hconn' := near_of_adjacent hconn (q := ⟨x1 - 1, span.y⟩) (Or.inl ⟨rfl, Or.inr rfl⟩)
      hpi hincl
    rw [selectionValue_eq hincl ht]
    simp only
    rw [c2]
    simp only
    obtain ⟨st', z1, tz1, mono1, hself⟩ := st.markCell hok hw ht hpR hz hconn'
    obtain ⟨td2, info2, x1', vm2, hrun, st2, hinfo2, b1, b2, hpix, mono2, tz2, z2, hfr⟩ :=
      ih _ _ info (x1 - 1) st' hinfo (by omega) (by omega) hconn' (by omega)
    refine ⟨td2, info2, x1', vm2, hrun, st2, hinfo2, b1, by omega, ?_,
      fun q h => mono2 q (mono1 q h), by omega, by omega, ?_⟩
    · intro x a b
      by_cases hx : x = x1 - 1
      · subst hx
        exact ⟨mono2 _ hself, hconn'⟩
      · exact hpix x a (by omega)
    · intro q hq hqx
      rw [hfr q hq (by omega)]
      apply mark_pix_inImage_ne st.geometry hw hpi hq
      intro h
      rw [h] at hqx
      simp only at hqx
      omega

theorem tileScanSkip_spec {k : TileId} {mask vm : QImage} {td0 td : List TileData}
    {span : Span} (hW : 1 ≤ ts.width) (hH : 1 ≤ ts.height) (hk : InGrid ts referenceImage k)
    (hy : (tileRectOf ts referenceImage.rect k).top ≤ span.y ∧
      span.y ≤ (tileRectOf ts referenceImage.rect k).bottom)
    (st : TileState ts referenceImage seedPoint threshold (tileRectOf ts referenceImage.rect k)
      mask td0 td vm) :
    ∀ (fuel : Nat) (x2 : Int), (tileRectOf ts referenceImage.rect k).left ≤ x2 →
      (span.x2 - x2).toNat + 1 ≤ fuel →
      ∃ r, tileScanSkip ts (referenceImage.pix seedPoint) referenceImage.rect
          (tileRectOf ts referenceImage.rect k) threshold td span fuel x2 = .ok r ∧
        x2 ≤ r ∧ (r = x2 ∨ r ≤ span.x2) := by
  have hok := tileOK_of_inGrid hk hW hH
  intro fuel
  induction fuel with
  | zero => intro x2 _ hf; omega
  | succ fuel ih =>
    intro x2 hl hf
    unfold tileScanSkip
    by_cases hc : x2 < span.x2 ∧ x2 ≤ referenceImage.rect.right ∧
        x2 ≤ (tileRectOf ts referenceImage.rect k).right
    · rw [if_pos hc]
      have hpR : (tileRectOf ts referenceImage.rect k).has ⟨x2, span.y⟩ :=
        ⟨hl, hc.2.2, hy.1, hy.2⟩
      obtain ⟨c1, _⟩ := tile_code st hok hpR
      simp only at c1
      rw [c1]
      simp only
      split
      · obtain ⟨r, hr, r1, r2⟩ := ih (x2 + 1) (by omega) (by omega)
        exact ⟨r, hr, by omega, by omega⟩
      · exact ⟨x2, rfl, le_refl _, Or.inl rfl⟩
    · rw [if_neg hc]
      exact ⟨x2, rfl, le_refl _, Or.inl rfl⟩

end ScanTileRow

end FloodFill

namespace FloodFill

/-! ## `floodFillTileScanLine`: the child spans -/

section ScanTileChildren

variable {ts : QSize} {referenceImage : QImage} {seedPoint : QPoint} {threshold : Nat}

/-- A child span on the row above or below a run of joined pixels of the tile, placed as
lines 497-510 place it: filed for the tile above, filed for the tile below, or pushed. -/
theorem child_place {k : TileId} (hk : InGrid ts referenceImage k) (hW : 1 ≤ ts.width)
    (hH : 1 ≤ ts.height) (mask : QImage) {y : Int} (s : Span)
    (hcols : (tileRectOf ts referenceImage.rect k).left ≤ s.x1 ∧ s.x1 ≤ s.x2 ∧
      s.x2 ≤ (tileRectOf ts referenceImage.rect k).right)
    (hy : (tileRectOf ts referenceImage.rect k).top ≤ y ∧
      y ≤ (tileRectOf ts referenceImage.rect k).bottom)
    (hy' : s.y = y + 1 ∨ s.y = y - 1) (hd : s.dy = 1 ∨ s.dy = -1)
    (hconn : ∀ x, s.x1 ≤ x → x ≤ s.x2 →
      Connected referenceImage seedPoint threshold ⟨x, y⟩)
    (info : TilePropagationInfoScanLine) (spans : List Span)
    (hinfo : ∀ e ∈ info, ∀ a ∈ e.2,
      SpanSeedOK ts referenceImage seedPoint threshold mask e.1 a)
    (hspans : ∀ a ∈ spans, SpanIn (tileRectOf ts referenceImage.rect k) a ∧
      SpanNear referenceImage seedPoint threshold a) :
    (∀ e ∈ (if s.y < (tileRectOf ts referenceImage.rect k).top then
          (hashAppend ⟨k.x, k.y - 1⟩ [s] info, spans)
        else if s.y > (tileRectOf ts referenceImage.rect k).bottom then
          (hashAppend ⟨k.x, k.y + 1⟩ [s] info, spans)
        else (info, s :: spans)).1, ∀ a ∈ e.2,
      SpanSeedOK ts referenceImage seedPoint threshold mask e.1 a) ∧
    (∀ a ∈ (if s.y < (tileRectOf ts referenceImage.rect k).top then
          (hashAppend ⟨k.x, k.y - 1⟩ [s] info, spans)
        else if s.y > (tileRectOf ts referenceImage.rect k).bottom then
          (hashAppend ⟨k.x, k.y + 1⟩ [s] info, spans)
        else (info, s :: spans)).2,
      SpanIn (tileRectOf ts referenceImage.rect k) a ∧
        SpanNear referenceImage seedPoint threshold a) ∧
    (if s.y < (tileRectOf ts referenceImage.rect k).top then
          (hashAppend ⟨k.x, k.y - 1⟩ [s] info, spans)
        else if s.y > (tileRectOf ts referenceImage.rect k).bottom then
          (hashAppend ⟨k.x, k.y + 1⟩ [s] info, spans)
        else (info, s :: spans)).2.length ≤ spans.length + 1 ∧
    ∀ a ∈ spans, a ∈ (if s.y < (tileRectOf ts referenceImage.rect k).top then
          (hashAppend ⟨k.x, k.y - 1⟩ [s] info, spans)
        else if s.y > (tileRectOf ts referenceImage.rect k).bottom then
          (hashAppend ⟨k.x, k.y + 1⟩ [s] info, spans)
        else (info, s :: spans)).2 := by
  have hok := tileOK_of_inGrid hk hW hH
  have e := tileRectOf_eq hk hW hH
  have hH' : (1 : Int) ≤ ts.height := by exact_mod_cast hH
  -- the pixels of the child lie next to the joined pixels of the run
  have near : ∀ k' : TileId, InGrid ts referenceImage k' →
      SpanIn (tileRectOf ts referenceImage.rect k') s →
      SpanNear referenceImage seedPoint threshold s := by
    intro k' hk' hin x h1 h2
    obtain ⟨a1, a2, a3, a4, a5, _⟩ := hin
    exact near_of_adjacent (hconn x h1 h2) (Or.inr ⟨rfl, hy'⟩)
      (has_inImage (tileOK_of_inGrid hk' hW hH) ⟨by simp only; omega, by simp only; omega,
        a4, a5⟩)
  have just : SpanJust referenceImage seedPoint threshold s :=
    ⟨s.x1, le_refl _, hcols.2.1,
      Or.inr ⟨⟨s.x1, y⟩, hconn s.x1 (le_refl _) hcols.2.1, Or.inr ⟨rfl, hy'⟩⟩⟩
  by_cases hup : s.y < (tileRectOf ts referenceImage.rect k).top
  · rw [if_pos hup]
    refine ⟨?_, hspans, by simp, fun a h => h⟩
    apply hashAppend_all hinfo
    intro a ha
    rw [List.mem_singleton.1 ha]
    intro hk'
    have hin : SpanIn (tileRectOf ts referenceImage.rect ⟨k.x, k.y - 1⟩) s := by
      rw [tileRectOf_eq hk' hW hH]
      rw [e] at hcols hy hup
      obtain ⟨k1, k2, k3, k4⟩ := hk
      obtain ⟨_, _, k3', _⟩ := hk'
      have hmul : (k.y - 1) * (ts.height : Int) = k.y * ts.height - ts.height := by ring
      have := hok.bottomH
      rw [e] at this
      simp only at hcols hy hup this k3' ⊢
      unfold SpanIn
      simp only
      rw [hmul]
      refine ⟨hcols.1, hcols.2.1, hcols.2.2, ?_, ?_, hd⟩ <;> omega
    exact ⟨hin, near _ hk' hin, just⟩
  rw [if_neg hup]
  by_cases hdown : s.y > (tileRectOf ts referenceImage.rect k).bottom
  · rw [if_pos hdown]
    refine ⟨?_, hspans, by simp, fun a h => h⟩
    apply hashAppend_all hinfo
    intro a ha
    rw [List.mem_singleton.1 ha]
    intro hk'
    have hin : SpanIn (tileRectOf ts referenceImage.rect ⟨k.x, k.y + 1⟩) s := by
      rw [tileRectOf_eq hk' hW hH]
      rw [e] at hcols hy hdown
      obtain ⟨k1, k2, k3, k4⟩ := hk
      obtain ⟨_, _, _, k4'⟩ := hk'
      have hmul : (k.y + 1) * (ts.height : Int) = k.y * ts.height + ts.height := by ring
      simp only at hcols hy hdown k4' ⊢
      unfold SpanIn
      simp only
      rw [hmul] at k4' ⊢
      refine ⟨hcols.1, hcols.2.1, hcols.2.2, ?_, ?_, hd⟩ <;> omega
    exact ⟨hin, near _ hk' hin, just⟩
  rw [if_neg hdown]
  have hin : SpanIn (tileRectOf ts referenceImage.rect k) s :=
    ⟨hcols.1, hcols.2.1, hcols.2.2, by omega, by omega, hd⟩
  refine ⟨hinfo, ?_, by simp, fun a h => List.mem_cons_of_mem _ h⟩
  intro a ha
  rcases List.mem_cons.1 ha with rfl | ha
  · exact ⟨hin, near _ hk hin⟩
  · exact hspans a ha

theorem tileScanChildren_spec {k : TileId} (hk : InGrid ts referenceImage k)
    (hW : 1 ≤ ts.width) (hH : 1 ≤ ts.height) {mask : QImage} {span : Span} {x1 x2 : Int}
    (hcols : (tileRectOf ts referenceImage.rect k).left ≤ x1 ∧ x1 < x2 ∧
      x2 - 1 ≤ (tileRectOf ts referenceImage.rect k).right)
    (hy : (tileRectOf ts referenceImage.rect k).top ≤ span.y ∧
      span.y ≤ (tileRectOf ts referenceImage.rect k).bottom)
    (hdy : span.dy = 1 ∨ span.dy = -1)
    (hconn : ∀ x, x1 ≤ x → x < x2 →
      Connected referenceImage seedPoint threshold ⟨x, span.y⟩)
    (info : TilePropagationInfoScanLine) (spans : List Span)
    (hinfo : ∀ e ∈ info, ∀ a ∈ e.2,
      SpanSeedOK ts referenceImage seedPoint threshold mask e.1 a)
    (hspans : ∀ a ∈ spans, SpanIn (tileRectOf ts referenceImage.rect k) a ∧
      SpanNear referenceImage seedPoint threshold a) :
    (∀ e ∈ (tileScanChildren k (tileRectOf ts referenceImage.rect k) span x1 x2 info spans).1,
      ∀ a ∈ e.2, SpanSeedOK ts referenceImage seedPoint threshold mask e.1 a) ∧
    (∀ a ∈ (tileScanChildren k (tileRectOf ts referenceImage.rect k) span x1 x2 info spans).2,
      SpanIn (tileRectOf ts referenceImage.rect k) a ∧
        SpanNear referenceImage seedPoint threshold a) ∧
    (tileScanChildren k (tileRectOf ts referenceImage.rect k) span x1 x2 info spans).2.length ≤
      spans.length + 2 ∧
    ∀ a ∈ spans,
      a ∈ (tileScanChildren k (tileRectOf ts referenceImage.rect k) span x1 x2 info spans).2 := by
  have c1 := child_place hk hW hH mask (y := span.y)
    ⟨x1, x2 - 1, span.y - span.dy, -span.dy⟩ ⟨hcols.1, by simp only; omega, hcols.2.2⟩ hy
    (by simp only; omega) (by simp only; omega)
    (fun x a b => hconn x a (by simp only at b; omega)) info spans hinfo hspans
  simp only at c1
  generalize hr1 : (if span.y - span.dy < (tileRectOf ts referenceImage.rect k).top then
          (hashAppend ⟨k.x, k.y - 1⟩ [(⟨x1, x2 - 1, span.y - span.dy, -span.dy⟩ : Span)] info,
            spans)
        else if span.y - span.dy > (tileRectOf ts referenceImage.rect k).bottom then
          (hashAppend ⟨k.x, k.y + 1⟩ [(⟨x1, x2 - 1, span.y - span.dy, -span.dy⟩ : Span)] info,
            spans)
        else (info, (⟨x1, x2 - 1, span.y - span.dy, -span.dy⟩ : Span) :: spans)) = r1 at c1
  obtain ⟨info1, spans1⟩ := r1
  have c2 := child_place hk hW hH mask (y := span.y)
    ⟨x1, x2 - 1, span.y + span.dy, span.dy⟩ ⟨hcols.1, by simp only; omega, hcols.2.2⟩ hy
    (by simp only; omega) hdy
    (fun x a b => hconn x a (by simp only at b; omega)) info1 spans1 c1.1 c1.2.1
  simp only at c2
  unfold tileScanChildren
  simp only
  rw [hr1]
  simp only
  refine ⟨c2.1, c2.2.1, ?_, ?_⟩
  · have := c1.2.2.1
    have := c2.2.2.1
    simp only at *
    omega
  · intro a ha
    exact c2.2.2.2 a (c1.2.2.2 a ha)

end ScanTileChildren

end FloodFill

namespace FloodFill

/-! ## `floodFillTileScanLine`: the loop invariant -/

section ScanTileLoop

variable {ts : QSize} {referenceImage : QImage} {seedPoint : QPoint} {threshold : Nat}

theorem tileScanOuter_spec {k : TileId} {mask : QImage} {td0 : List TileData} {span : Span}
    (hwf : referenceImage.WF) (ht : threshold ≤ 255) (hW : 1 ≤ ts.width) (hH : 1 ≤ ts.height)
    (hk : InGrid ts referenceImage k)
    (hspan : SpanIn (tileRectOf ts referenceImage.rect k) span)
    (hnear : SpanNear referenceImage seedPoint threshold span) :
    ∀ (fuel : Nat) (td : List TileData) (vm : QImage) (info : TilePropagationInfoScanLine)
      (spans : List Span) (x1 x2 : Int),
      TileState ts referenceImage seedPoint threshold (tileRectOf ts referenceImage.rect k)
        mask td0 td vm →
      (∀ e ∈ info, ∀ s ∈ e.2, SpanSeedOK ts referenceImage seedPoint threshold vm e.1 s) →
      (∀ s ∈ spans, SpanIn (tileRectOf ts referenceImage.rect k) s ∧
        SpanNear referenceImage seedPoint threshold s) →
      (tileRectOf ts referenceImage.rect k).left ≤ x1 → x1 ≤ x2 → span.x1 ≤ x2 →
      (x1 < x2 → x2 ≤ span.x2) →
      (∀ x, x1 ≤ x → x < x2 → Connected referenceImage seedPoint threshold ⟨x, span.y⟩) →
      (x1 < x2 → vm.zeros < mask.zeros) →
      ((∃ e ∈ info, e.2 ≠ []) → vm.zeros < mask.zeros ∨
        (x2 ≤ span.x2 ∧ vm.pix ⟨x2, span.y⟩ = 0 ∧
          includable referenceImage (referenceImage.pix seedPoint) threshold ⟨x2, span.y⟩)) →
      (span.x2 - x2 + 1).toNat + 1 ≤ fuel →
      ∃ td' info' spans' vm',
        tileScanOuter ts (referenceImage.pix seedPoint) k referenceImage.rect
          (tileRectOf ts referenceImage.rect k) threshold span fuel td info spans x1 x2 =
          .ok (td', info', spans') ∧
        ScanTileInv ts referenceImage seedPoint threshold (tileRectOf ts referenceImage.rect k)
          mask td0 td' vm' spans' info' ∧
        (∀ q, vm.pix q ≠ 0 → vm'.pix q ≠ 0) ∧
        2 * tileZeros td' + spans'.length ≤
          2 * tileZeros td + spans.length + (if x1 < x2 then 2 else 0) ∧
        (∀ s ∈ spans, s ∈ spans') ∧
        (x2 ≤ span.x2 → vm.pix ⟨x2, span.y⟩ = 0 →
          includable referenceImage (referenceImage.pix seedPoint) threshold ⟨x2, span.y⟩ →
          vm'.pix ⟨x2, span.y⟩ ≠ 0) := by
  obtain ⟨s1, s2, s3, s4, s5, s6⟩ := hspan
  intro fuel
  induction fuel with
  | zero => intro td vm info spans x1 x2 _ _ _ _ _ _ _ _ _ _ hf; omega
  | succ fuel ih =>
    intro td vm info spans x1 x2 st hinfo hspans hl h12 hs2 hrange hconn hstrict hprog hf
    unfold tileScanOuter
    by_cases hle : x2 ≤ span.x2
    · rw [if_pos hle]
      obtain ⟨td1, info1, x2', vm1, hrun, st1, hinfo1, b1, b2, hpix, mono1, tz1, z1, same,
        first⟩ := tileScanRight_spec hwf ht hW hH hk ⟨s4, s5⟩ s6
          ((tileRectOf ts referenceImage.rect k).right + 1 - x2).toNat.succ td vm info x2 st
          hinfo (by omega) (by omega) (fun _ => hnear x2 hs2 hle) (fun h => by omega)
          (Nat.le_refl _)
      rw [hrun]
      simp only
      have hz1 := st.zerosLe
      have prog1 : (∃ e ∈ info1, e.2 ≠ []) → vm1.zeros < mask.zeros := by
        intro h
        by_cases hx : x2' = x2
        · obtain ⟨_, e2, e3⟩ := same (by omega) hx
          rw [e2] at h
          rw [e3]
          rcases hprog h with h' | ⟨_, hz, hi⟩
          · exact h'
          · have := first (by omega) hz hi
            omega
        · omega
      -- the children of the run `[x1, x2' - 1]`
      have hch : ∃ info2 spans2,
          (if x2' > x1 then
              tileScanChildren k (tileRectOf ts referenceImage.rect k) span x1 x2' info1 spans
            else (info1, spans)) = (info2, spans2) ∧
          (∀ e ∈ info2, ∀ a ∈ e.2,
            SpanSeedOK ts referenceImage seedPoint threshold vm1 e.1 a) ∧
          (∀ a ∈ spans2, SpanIn (tileRectOf ts referenceImage.rect k) a ∧
            SpanNear referenceImage seedPoint threshold a) ∧
          spans2.length ≤ spans.length + (if x2' > x1 then 2 else 0) ∧
          (∀ a ∈ spans, a ∈ spans2) ∧
          ((∃ e ∈ info2, e.2 ≠ []) → vm1.zeros < mask.zeros) := by
        by_cases hc : x2' > x1
        · rw [if_pos hc, if_pos hc]
          have c := @tileScanChildren_spec ts referenceImage seedPoint threshold k hk hW hH vm1 span x1 x2'
            ⟨hl, hc, by omega⟩ ⟨s4, s5⟩ s6
            (fun x a b => by
              by_cases hx : x < x2
              · exact hconn x a hx
              · exact (hpix x (by omega) b).2)
            info1 spans hinfo1 hspans
          refine ⟨_, _, rfl, c.1, c.2.1, c.2.2.1, c.2.2.2, fun _ => ?_⟩
          by_cases hx : x1 < x2
          · have := hstrict hx
            omega
          · omega
        · rw [if_neg hc, if_neg hc]
          exact ⟨info1, spans, rfl, hinfo1, hspans, by simp, fun a h => h, prog1⟩
      obtain ⟨info2, spans2, hch1, hinfo2, hspans2, hlen2, hsub2, prog2⟩ := hch
      rw [hch1]
      simp only
      obtain ⟨r, hskip, r1, r2⟩ := tileScanSkip_spec hW hH hk ⟨s4, s5⟩ st1
        (span.x2 - (x2' + 1)).toNat.succ (x2' + 1) (by omega) (Nat.le_refl _)
      rw [hskip]
      simp only
      obtain ⟨td3, info3, spans3, vm3, hrec, inv3, mono3, pot3, hsub3, _⟩ :=
        ih td1 vm1 info2 spans2 r r st1 hinfo2 hspans2 (by omega) (le_refl _) (by omega)
          (fun h => by omega) (fun x a b => by omega) (fun h => by omega)
          (fun h => Or.inl (prog2 h)) (by omega)
      refine ⟨td3, info3, spans3, vm3, hrec, inv3, fun q h => mono3 q (mono1 q h), ?_,
        fun s hs => hsub3 s (hsub2 s hs), ?_⟩
      · rw [if_neg (lt_irrefl r)] at pot3
        split at hlen2 <;> split <;> omega
      · intro _ hz hi
        have := first (by omega) hz hi
        exact mono3 _ (hpix x2 (le_refl _) this).1
    · rw [if_neg hle]
      refine ⟨td, info, spans, vm, rfl, ⟨st, hspans, hinfo, ?_⟩, fun _ h => h, by omega,
        fun _ h => h, fun h => by omega⟩
      intro h
      rcases hprog h with h' | ⟨h', _⟩
      · exact h'
      · omega

theorem floodFillTileScanLineStep_spec {k : TileId} {mask vm : QImage}
    {td0 td : List TileData} {span : Span} {spans : List Span}
    {info : TilePropagationInfoScanLine}
    (hwf : referenceImage.WF) (ht : threshold ≤ 255) (hW : 1 ≤ ts.width) (hH : 1 ≤ ts.height)
    (hk : InGrid ts referenceImage k)
    (inv : ScanTileInv ts referenceImage seedPoint threshold
      (tileRectOf ts referenceImage.rect k) mask td0 td vm (span :: spans) info) :
    ∃ td' info' spans' vm',
      floodFillTileScanLineStep ts (referenceImage.pix seedPoint) k referenceImage.rect
        (tileRectOf ts referenceImage.rect k) threshold td info span spans =
        .ok (td', info', spans') ∧
      ScanTileInv ts referenceImage seedPoint threshold (tileRectOf ts referenceImage.rect k)
        mask td0 td' vm' spans' info' ∧
      2 * tileZeros td' + spans'.length < 2 * tileZeros td + (span :: spans).length ∧
      (∀ q, vm.pix q ≠ 0 → vm'.pix q ≠ 0) ∧
      SpanDone referenceImage seedPoint threshold vm' span ∧ ∀ s ∈ spans, s ∈ spans' := by
  have hok := tileOK_of_inGrid hk hW hH
  obtain ⟨hin, hnear⟩ := inv.spansOK span (List.mem_cons_self _ _)
  have hspans : ∀ s ∈ spans, SpanIn (tileRectOf ts referenceImage.rect k) s ∧
      SpanNear referenceImage seedPoint threshold s :=
    fun s hs => inv.spansOK s (List.mem_cons_of_mem _ hs)
  obtain ⟨s1, s2, s3, s4, s5, s6⟩ := hin
  have hpR : (tileRectOf ts referenceImage.rect k).has ⟨span.x1, span.y⟩ :=
    ⟨s1, by simp only; omega, s4, s5⟩
  obtain ⟨c1, _⟩ := tile_code inv.state hok hpR
  simp only at c1
  unfold floodFillTileScanLineStep
  have hrow : ¬ (span.y < referenceImage.rect.top ∨ span.y > referenceImage.rect.bottom) := by
    rw [rect_eq]
    simp only
    have := hok.top0
    have := hok.bottomH
    omega
  rw [if_neg hrow, c1]
  simp only
  by_cases hc : vm.pix ⟨span.x1, span.y⟩ = 0 ∧
      qAbs (referenceImage.pix ⟨span.x1, span.y⟩) (referenceImage.pix seedPoint) < threshold
  · rw [if_pos hc]
    have hincl : includable referenceImage (referenceImage.pix seedPoint) threshold
        ⟨span.x1, span.y⟩ := hc.2
    have hconn := hnear span.x1 (le_refl _) s2 hincl
    obtain ⟨td1, info1, x1', vm1, hrun, st1, hinfo1, b1, b2, hpix, mono1, tz1, z1, hfr⟩ :=
      tileScanLeft_spec hwf ht hW hH hk ⟨s4, s5⟩ s6
        (span.x1 - (tileRectOf ts referenceImage.rect k).left).toNat.succ.succ td vm info
        span.x1 inv.state inv.infoOK s1 (by omega) hconn (Nat.le_succ _)
    rw [hrun]
    simp only
    have hz1 := inv.state.zerosLe
    have hpz : vm1.pix ⟨span.x1, span.y⟩ = 0 := by
      rw [hfr _ (has_inImage hok hpR) (le_refl _)]
      exact hc.1
    obtain ⟨td2, info2, spans2, vm2, hrun2, inv2, mono2, pot2, hsub2, hfirst⟩ :=
      tileScanOuter_spec hwf ht hW hH hk ⟨s1, s2, s3, s4, s5, s6⟩ hnear
        (span.x2 - span.x1 + 1).toNat.succ td1 vm1 info1 spans x1' span.x1 st1 hinfo1 hspans
        b1 b2 (le_refl _) (fun _ => s2) (fun x a b => (hpix x a b).2) (fun h => by omega)
        (fun _ => Or.inr ⟨s2, hpz, hincl⟩) (Nat.le_refl _)
    refine ⟨td2, info2, spans2, vm2, hrun2, inv2, ?_, fun q h => mono2 q (mono1 q h),
      Or.inl (hfirst s2 hpz hincl), hsub2⟩
    simp only [List.length_cons]
    split at pot2 <;> omega
  · rw [if_neg hc]
    simp only
    obtain ⟨td2, info2, spans2, vm2, hrun2, inv2, mono2, pot2, hsub2, _⟩ :=
      tileScanOuter_spec hwf ht hW hH hk ⟨s1, s2, s3, s4, s5, s6⟩ hnear
        (span.x2 - span.x1 + 1).toNat.succ td vm info spans span.x1 span.x1 inv.state
        inv.infoOK hspans s1 (le_refl _) (le_refl _) (fun h => by omega)
        (fun x a b => by omega) (fun h => by omega) (fun h => Or.inl (inv.progress h))
        (Nat.le_refl _)
    refine ⟨td2, info2, spans2, vm2, hrun2, inv2, ?_, mono2, ?_, hsub2⟩
    · rw [if_neg (lt_irrefl _)] at pot2
      simp only [List.length_cons]
      omega
    · apply done_mono mono2
      by_cases hz : vm.pix ⟨span.x1, span.y⟩ = 0
      · right
        unfold includable
        intro h
        exact hc ⟨hz, h⟩
      · exact Or.inl hz

theorem floodFillTileScanLineLoop_spec {k : TileId} {mask : QImage} {td0 : List TileData}
    (hwf : referenceImage.WF) (ht : threshold ≤ 255) (hW : 1 ≤ ts.width) (hH : 1 ≤ ts.height)
    (hk : InGrid ts referenceImage k) :
    ∀ (fuel : Nat) (td : List TileData) (vm : QImage) (spans : List Span)
      (info : TilePropagationInfoScanLine),
      ScanTileInv ts referenceImage seedPoint threshold
        (tileRectOf ts referenceImage.rect k) mask td0 td vm spans info →
      2 * tileZeros td + spans.length ≤ fuel →
      ∃ td' info' vm',
        floodFillTileScanLineLoop ts (referenceImage.pix seedPoint) k referenceImage.rect
          (tileRectOf ts referenceImage.rect k) threshold fuel td info spans =
          .ok (td', info') ∧
        ScanTileInv ts referenceImage seedPoint threshold
          (tileRectOf ts referenceImage.rect k) mask td0 td' vm' [] info' ∧
        (∀ q, vm.pix q ≠ 0 → vm'.pix q ≠ 0) ∧
        ∀ s ∈ spans, SpanDone referenceImage seedPoint threshold vm' s := by
  intro fuel
  induction fuel with
  | zero =>
    intro td vm spans info inv hf
    cases spans with
    | nil => exact ⟨td, info, vm, rfl, inv, fun _ h => h, fun n hn => by simp at hn⟩
    | cons p spans => simp at hf
  | succ fuel ih =>
    intro td vm spans info inv hf
    cases spans with
    | nil => exact ⟨td, info, vm, rfl, inv, fun _ h => h, fun n hn => by simp at hn⟩
    | cons p spans =>
      obtain ⟨td1, info1, spans1, vm1, hstep, inv1, hlt, mono1, hdone, hsub⟩ :=
        floodFillTileScanLineStep_spec hwf ht hW hH hk inv
      obtain ⟨td2, info2, vm2, hloop, inv2, mono2, hdone2⟩ :=
        ih td1 vm1 spans1 info1 inv1 (by omega)
      refine ⟨td2, info2, vm2, ?_, inv2, fun q h => mono2 q (mono1 q h), ?_⟩
      · simp only [floodFillTileScanLineLoop, hstep]
        exact hloop
      · intro n hn
        rcases List.mem_cons.1 hn with rfl | hn
        · exact done_mono mono2 hdone
        · exact hdone2 n (hsub n hn)

theorem floodFillTileScanLine_spec {k : TileId} {mask : QImage} {seeds : SeedSpanList}
    (hwf : referenceImage.WF) (ht : threshold ≤ 255) (hW : 1 ≤ ts.width) (hH : 1 ≤ ts.height)
    (hk : InGrid ts referenceImage k) (hg : SameGeometry referenceImage mask)
    (hs : MaskSound referenceImage seedPoint threshold mask)
    (hseeds : ∀ s ∈ seeds, SpanSeedOK ts referenceImage seedPoint threshold mask k s) :
    OkOr (floodFillTileScanLine ts referenceImage mask seeds (referenceImage.pix seedPoint) k
        referenceImage.rect (tileRectOf ts referenceImage.rect k) threshold)
      (fun r => TilePost referenceImage seedPoint threshold
        (SpanSeedOK ts referenceImage seedPoint threshold)
        (SpanDone referenceImage seedPoint threshold) mask seeds r.1 r.2) := by
  unfold floodFillTileScanLine OkOr
  simp only
  cases h1 : copyReference ts referenceImage (tileRectOf ts referenceImage.rect k)
      (newTileData ts) with
  | error e => left; rw [copyReference_error h1]
  | ok td1 =>
    simp only
    cases h2 : copyFillMask ts mask (tileRectOf ts referenceImage.rect k) td1 with
    | error e => left; rw [copyFillMask_error h2]
    | ok td0 =>
      simp only
      obtain ⟨st0, hcells⟩ := copyIn_state hW hH hk hg hs h1 h2
      have inv0 : ScanTileInv ts referenceImage seedPoint threshold
          (tileRectOf ts referenceImage.rect k) mask td0 td0 mask seeds.reverse [] :=
        ⟨st0, fun s hs' => ⟨(hseeds s (List.mem_reverse.1 hs') hk).1,
            (hseeds s (List.mem_reverse.1 hs') hk).2.1⟩,
          fun e he => by simp at he, fun ⟨e, he, _⟩ => by simp at he⟩
      obtain ⟨td', info', vm', hloop, inv', mono', hdone⟩ :=
        floodFillTileScanLineLoop_spec hwf ht hW hH hk
          (seeds.length + 2 * (ts.width * ts.height) + 1) td0 mask seeds.reverse _ inv0 (by
            have := tileZeros_le td0
            rw [st0.len] at this
            simp only [List.length_reverse]
            omega)
      rw [hloop]
      simp only
      cases h3 : writeBack ts mask (tileRectOf ts referenceImage.rect k) td' with
      | error e => left; rw [writeBack_error h3]
      | ok mask' =>
        right
        have hvm := writeBack_state hwf hW hH hk hg hcells inv'.state h3
        subst hvm
        exact ⟨_, rfl, inv'.state.geometry, inv'.state.sound, mono', inv'.state.zerosLe,
          inv'.infoOK, inv'.progress, fun a ha => hdone a (List.mem_reverse.2 ha)⟩

end ScanTileLoop

end FloodFill

namespace FloodFill

/-! ## `floodFillScanLineMT` -/

section ScanMT

variable {ts : QSize} {referenceImage : QImage} {seedPoint : QPoint} {threshold : Nat}

/-- The run of `floodFillScanLineMT` on a seed inside the image never exhausts the rounds it
is given and never divides by zero: it leaves the buffer of an image, or it returns a mask
of the geometry of the image whose nonzero bytes are the graded values of pixels joined to
the seed, and in which the seed is marked unless it fails the inclusion test. -/
theorem floodFillScanLineMTWith_spec (hwf : referenceImage.WF) (ht : threshold ≤ 255)
    (hW : 1 ≤ ts.width) (hH : 1 ≤ ts.height) (hin : referenceImage.inImage seedPoint) :
    OkOr (floodFillScanLineMTWith ts referenceImage seedPoint threshold) (fun mask =>
      SameGeometry referenceImage mask ∧ MaskSound referenceImage seedPoint threshold mask ∧
      Done referenceImage seedPoint threshold mask seedPoint) := by
  unfold floodFillScanLineMTWith
  obtain ⟨r0, r1⟩ := ref_offset_range hwf hin
  simp only [(contains_rect referenceImage seedPoint).2 hin, Bool.not_true, Bool.false_eq_true,
    if_false, getPixel_eq r0 r1]
  obtain ⟨hk, hhas⟩ := @home_tile ts referenceImage seedPoint hW hH hin
  have hg0 := blank_geometry referenceImage
  have hs0 : MaskSound referenceImage seedPoint threshold referenceImage.blank :=
    fun i hi => absurd (blank_getD _ i) hi
  have := @runRounds_spec _ referenceImage seedPoint threshold
    (SpanSeedOK ts referenceImage seedPoint threshold)
    (SpanDone referenceImage seedPoint threshold)
    (fun fillMaskImage tileId seedSpans =>
      floodFillTileScanLine ts referenceImage fillMaskImage seedSpans
        (referenceImage.pix seedPoint) tileId referenceImage.rect
        (tileRectOf ts referenceImage.rect tileId) threshold)
    (tileGridSizeOf ts referenceImage.rect)
    (fun m m' k a _ h => h)
    (fun m m' a hm h => done_mono hm h)
    (fun mask k seeds hg hs hf hne hseeds =>
      floodFillTileScanLine_spec hwf ht hW hH ((inGrid_iff_inFilter hW hH k).2 hf) hg hs
        hseeds)
    (referenceImage.bytesPerLine * referenceImage.height + 1) referenceImage.blank
    [(⟨seedPoint.x.tdiv ts.width, seedPoint.y.tdiv ts.height⟩,
      [⟨seedPoint.x, seedPoint.x, seedPoint.y, 1⟩])] hg0 hs0
    (by
      intro e he
      rw [List.mem_singleton.1 he]
      refine ⟨(inGrid_iff_inFilter hW hH _).1 hk, by simp, ?_⟩
      intro a ha
      rw [List.mem_singleton.1 ha]
      intro _
      obtain ⟨a1, a2, a3, a4⟩ := hhas
      refine ⟨⟨a1, le_refl _, a2, a3, a4, Or.inl rfl⟩, ?_,
        ⟨seedPoint.x, le_refl _, le_refl _, Or.inl rfl⟩⟩
      intro x h1 h2 hi
      simp only at h1 h2
      have hx : x = seedPoint.x := by omega
      subst hx
      exact Connected.seed hin hi)
    (by
      intro _
      rw [blank_zeros]
      omega)
  rcases this with h | ⟨mask, h, g, s, _, d⟩
  · exact Or.inl h
  · exact Or.inr ⟨mask, h, g, s, d _ (List.mem_singleton.2 rfl) _ (List.mem_singleton.2 rfl)⟩

end ScanMT

end FloodFill

namespace FloodFill

/-! ## The values of a returned mask -/

section Values

variable {referenceImage : QImage} {seedPoint : QPoint} {threshold : Nat}

theorem okOr_mono {α : Type} {r : Except Fault α} {P Q : α → Prop} (h : OkOr r P)
    (hPQ : ∀ a, P a → Q a) : OkOr r Q := by
  rcases h with h | ⟨a, h, hp⟩
  · exact Or.inl h
  · exact Or.inr ⟨a, h, hPQ a hp⟩

theorem blank_sound (referenceImage : QImage) (seedPoint : QPoint) (threshold : Nat) :
    MaskSound referenceImage seedPoint threshold referenceImage.blank :=
  fun i hi => absurd (blank_getD _ i) hi

/-- With a seed outside the image each of the four fills returns the zero-filled mask. -/
theorem outside_blank (referenceImage : QImage) (seedPoint : QPoint) (threshold : Nat)
    (hout : ¬ referenceImage.inImage seedPoint) :
    floodFill referenceImage seedPoint threshold = .ok referenceImage.blank ∧
    floodFillScanLine referenceImage seedPoint threshold = .ok referenceImage.blank ∧
    floodFillMT referenceImage seedPoint threshold = .ok referenceImage.blank ∧
    floodFillScanLineMT referenceImage seedPoint threshold = .ok referenceImage.blank := by
  have hc : referenceImage.rect.contains seedPoint = false := by
    cases h : referenceImage.rect.contains seedPoint with
    | false => rfl
    | true => exact absurd ((contains_rect _ _).1 h) hout
  refine ⟨?_, ?_, ?_, ?_⟩
  · unfold floodFill; simp [hc]
  · unfold floodFillScanLine; simp [hc]
  · unfold floodFillMT floodFillMTWith; simp [hc]
  · unfold floodFillScanLineMT floodFillScanLineMTWith; simp [hc]

/-- With the threshold 0 no pixel passes the inclusion test, so a sound mask is the
zero-filled one. -/
theorem sound_zero_threshold {mask : QImage} (hg : SameGeometry referenceImage mask)
    (hs : MaskSound referenceImage seedPoint 0 mask) : mask = referenceImage.blank := by
  obtain ⟨g1, g2, g3, g4⟩ := hg
  have hbits : mask.bits = List.replicate (referenceImage.bytesPerLine * referenceImage.height)
      0 := by
    rw [List.eq_replicate_iff]
    refine ⟨g4, ?_⟩
    intro b hb
    by_contra hne
    obtain ⟨i, hi, rfl⟩ := List.getElem_of_mem hb
    have hget : mask.bits.getD i 0 = mask.bits[i] := List.getD_eq_getElem _ _ hi
    obtain ⟨p, _, _, hc, _⟩ := hs i (by rw [hget]; exact hne)
    have := hc.includable
    unfold includable at this
    omega
  cases mask
  unfold QImage.blank
  simp only at g1 g2 g3 hbits
  simp only [QImage.mk.injEq]
  exact ⟨g1, g2, g3, hbits⟩

theorem tileSize_pos : 1 ≤ tileSize.width ∧ 1 ≤ tileSize.height := by decide

theorem tileSizeScanLine_pos : 1 ≤ tileSizeScanLine.width ∧ 1 ≤ tileSizeScanLine.height := by
  decide

/-- The run of `floodFillMT` leaves a buffer or returns a sound mask of the geometry of the
image, in which the seed, if it lies in the image, is marked unless it fails the test. -/
theorem floodFillMT_sound (hwf : referenceImage.WF) (ht : threshold ≤ 255) :
    OkOr (floodFillMT referenceImage seedPoint threshold) (fun mask =>
      SameGeometry referenceImage mask ∧ MaskSound referenceImage seedPoint threshold mask ∧
      (referenceImage.inImage seedPoint →
        Done referenceImage seedPoint threshold mask seedPoint)) := by
  by_cases hin : referenceImage.inImage seedPoint
  · exact okOr_mono (floodFillMTWith_spec hwf ht tileSize_pos.1 tileSize_pos.2 hin)
      (fun a h => ⟨h.1, h.2.1, fun _ => h.2.2⟩)
  · exact Or.inr ⟨_, (outside_blank referenceImage seedPoint threshold hin).2.2.1,
      blank_geometry _, blank_sound _ _ _, fun h => absurd h hin⟩

/-- The run of `floodFillScanLineMT` leaves a buffer or returns a sound mask of the geometry
of the image, in which the seed, if it lies in the image, is marked unless it fails the
test. -/
theorem floodFillScanLineMT_sound (hwf : referenceImage.WF) (ht : threshold ≤ 255) :
    OkOr (floodFillScanLineMT referenceImage seedPoint threshold) (fun mask =>
      SameGeometry referenceImage mask ∧ MaskSound referenceImage seedPoint threshold mask ∧
      (referenceImage.inImage seedPoint →
        Done referenceImage seedPoint threshold mask seedPoint)) := by
  by_cases hin : referenceImage.inImage seedPoint
  · exact okOr_mono (floodFillScanLineMTWith_spec hwf ht tileSizeScanLine_pos.1
      tileSizeScanLine_pos.2 hin) (fun a h => ⟨h.1, h.2.1, fun _ => h.2.2⟩)
  · exact Or.inr ⟨_, (outside_blank referenceImage seedPoint threshold hin).2.2.2,
      blank_geometry _, blank_sound _ _ _, fun h => absurd h hin⟩

/-- The serial fills return one and the same mask: a sound mask of the geometry of the
image in which every pixel joined to the seed is marked. -/
theorem serial_result (hwf : referenceImage.WF) (ht : threshold ≤ 255) :
    ∃ mask, floodFill referenceImage seedPoint threshold = .ok mask ∧
      floodFillScanLine referenceImage seedPoint threshold = .ok mask ∧
      SameGeometry referenceImage mask ∧ MaskSound referenceImage seedPoint threshold mask ∧
      (referenceImage.inImage seedPoint →
        ∀ p, Connected referenceImage seedPoint threshold p → mask.pix p ≠ 0) := by
  by_cases hin : referenceImage.inImage seedPoint
  · obtain ⟨m₁, h₁, r₁⟩ := floodFill_result hwf ht hin
    obtain ⟨m₂, h₂, r₂⟩ := floodFillScanLine_result hwf ht hin
    exact ⟨m₁, h₁, by rw [h₂, FillResult.unique hwf.2.1 r₂ r₁], r₁.geometry, r₁.sound,
      fun _ => r₁.complete⟩
  · obtain ⟨o1, o2, _, _⟩ := outside_blank referenceImage seedPoint threshold hin
    exact ⟨_, o1, o2, blank_geometry _, blank_sound _ _ _, fun h => absurd h hin⟩

/-- With the threshold 0 the serial fills return the zero-filled mask, and so do the
tile-parallel fills unless they leave a buffer; none of them divides by the threshold. -/
theorem threshold_zero_masks (hwf : referenceImage.WF) :
    floodFill referenceImage seedPoint 0 = .ok referenceImage.blank ∧
    floodFillScanLine referenceImage seedPoint 0 = .ok referenceImage.blank ∧
    OkOr (floodFillMT referenceImage seedPoint 0) (fun mask => mask = referenceImage.blank) ∧
    OkOr (floodFillScanLineMT referenceImage seedPoint 0)
      (fun mask => mask = referenceImage.blank) := by
  obtain ⟨mask, h1, h2, hg, hs, _⟩ :=
    @serial_result referenceImage seedPoint 0 hwf (by omega)
  have hb := sound_zero_threshold hg hs
  rw [hb] at h1 h2
  exact ⟨h1, h2,
    okOr_mono (floodFillMT_sound hwf (by omega)) (fun a h => sound_zero_threshold h.1 h.2.1),
    okOr_mono (floodFillScanLineMT_sound hwf (by omega))
      (fun a h => sound_zero_threshold h.1 h.2.1)⟩

/-- On a 128×1 image of two full tiles the tile-parallel fills return the mask of the serial
fill: the fill started in the left tile crosses into the right one. -/
theorem two_tile_row :
    floodFill ⟨128, 1, 128, List.replicate 128 7⟩ ⟨0, 0⟩ 1 =
      .ok ⟨128, 1, 128, List.replicate 128 255⟩ ∧
    floodFillMT ⟨128, 1, 128, List.replicate 128 7⟩ ⟨0, 0⟩ 1 =
      .ok ⟨128, 1, 128, List.replicate 128 255⟩ ∧
    floodFillScanLineMT ⟨128, 1, 128, List.replicate 128 7⟩ ⟨0, 0⟩ 1 =
      .ok ⟨128, 1, 128, List.replicate 128 255⟩ := by
  refine ⟨?_, ?_, ?_⟩ <;> decide!

end Values

end FloodFill

namespace FloodFill

/-! ## The tiles partition the image -/

section Partition

variable {ts : QSize} {referenceImage : QImage}

theorem contains_iff_has (r : QRect) (p : QPoint) : r.contains p = true ↔ r.has p := by
  unfold QRect.contains QRect.has
  simp only [Bool.and_eq_true, decide_eq_true_eq]
  constructor
  · rintro ⟨⟨⟨h1, h2⟩, h3⟩, h4⟩
    exact ⟨h1, h2, h3, h4⟩
  · rintro ⟨h1, h2, h3, h4⟩
    exact ⟨⟨⟨h1, h2⟩, h3⟩, h4⟩

theorem ediv_unique {a q : Int} {W : Nat} (hW : 1 ≤ W) (h1 : q * (W : Int) ≤ a)
    (h2 : a < q * (W : Int) + W) : a / (W : Int) = q := by
  have hW' : (0 : Int) < W := by exact_mod_cast hW
  have l1 : q ≤ a / (W : Int) := (Int.le_ediv_iff_mul_le hW').2 h1
  have l2 : a / (W : Int) < q + 1 := by
    rw [Int.ediv_lt_iff_lt_mul hW', Int.add_mul]
    omega
  omega

/-- A pixel of the image lies in the rectangle of a tile of the grid exactly when the tile
is the one with the id `(x / tileWidth, y / tileHeight)`. -/
theorem has_iff_home (hW : 1 ≤ ts.width) (hH : 1 ≤ ts.height) {k : TileId}
    (hk : InGrid ts referenceImage k) {p : QPoint} (hp : referenceImage.inImage p) :
    (tileRectOf ts referenceImage.rect k).has p ↔
      k = ⟨p.x.tdiv ts.width, p.y.tdiv ts.height⟩ := by
  obtain ⟨hk0, hhas⟩ := @home_tile ts referenceImage p hW hH hp
  constructor
  · intro h
    rw [tileRectOf_eq hk hW hH] at h
    obtain ⟨a1, a2, a3, a4⟩ := h
    simp only at a1 a2 a3 a4
    obtain ⟨p1, p2, p3, p4⟩ := hp
    have hW' : (0 : Int) ≤ ts.width := Int.ofNat_nonneg _
    have hH' : (0 : Int) ≤ ts.height := Int.ofNat_nonneg _
    rw [Int.tdiv_eq_ediv p1 hW', Int.tdiv_eq_ediv p3 hH']
    have e1 := ediv_unique hW a1 (by omega)
    have e2 := ediv_unique hH a3 (by omega)
    cases k
    simp only [QPoint.mk.injEq]
    simp only at e1 e2
    exact ⟨e1.symm, e2.symm⟩
  · intro h
    rw [h]
    exact hhas

end Partition

end FloodFill

namespace FloodFill

/-! ## The merge of a round, exactly -/

section MergeExact

variable {α : Type}

theorem seedsFor_nil (key : TileId) : seedsFor key ([] : List (TileId × List α)) = [] := rfl

theorem seedsFor_cons (key k : TileId) (l : List α) (rest : List (TileId × List α)) :
    seedsFor key ((k, l) :: rest) = (if k = key then l else []) ++ seedsFor key rest := by
  unfold seedsFor
  by_cases h : k = key
  · simp [List.filter_cons, h]
  · simp [List.filter_cons, h]

theorem seedsFor_append (key : TileId) (a b : List (TileId × List α)) :
    seedsFor key (a ++ b) = seedsFor key a ++ seedsFor key b := by
  unfold seedsFor
  simp [List.filter_append]

theorem seedsFor_of_not_mem (key : TileId) (q : List (TileId × List α))
    (h : key ∉ q.map (fun e => e.1)) : seedsFor key q = [] := by
  induction q with
  | nil => rfl
  | cons hd tl ih =>
    obtain ⟨k, l⟩ := hd
    simp only [List.map_cons, List.mem_cons, not_or] at h
    rw [seedsFor_cons, if_neg (fun e => h.1 e.symm), ih h.2]
    rfl

theorem keys_hashAppend (key : TileId) (values : List α) (q : List (TileId × List α)) :
    (hashAppend key values q).map (fun e => e.1) =
      if key ∈ q.map (fun e => e.1) then q.map (fun e => e.1)
      else q.map (fun e => e.1) ++ [key] := by
  induction q with
  | nil => simp [hashAppend]
  | cons hd tl ih =>
    obtain ⟨k, l⟩ := hd
    simp only [hashAppend]
    by_cases hk : k = key
    · rw [if_pos hk]
      simp [hk]
    · rw [if_neg hk]
      simp only [List.map_cons, ih, List.mem_cons]
      by_cases hm : key ∈ tl.map (fun e => e.1)
      · rw [if_pos hm, if_pos (Or.inr hm)]
      · rw [if_neg hm, if_neg (by
          intro h
          rcases h with h | h
          · exact hk h.symm
          · exact hm h)]
        rfl

theorem nodup_hashAppend (key : TileId) (values : List α) (q : List (TileId × List α))
    (h : (q.map (fun e => e.1)).Nodup) :
    ((hashAppend key values q).map (fun e => e.1)).Nodup := by
  rw [keys_hashAppend]
  split
  · exact h
  · rename_i hm
    rw [List.nodup_append]
    refine ⟨h, List.nodup_singleton _, ?_⟩
    intro a ha hb
    rw [List.mem_singleton] at hb
    rw [hb] at ha
    exact hm ha

theorem seedsFor_hashAppend (key k : TileId) (values : List α) (q : List (TileId × List α))
    (h : (q.map (fun e => e.1)).Nodup) :
    seedsFor key (hashAppend k values q) =
      seedsFor key q ++ (if k = key then values else []) := by
  induction q with
  | nil =>
    simp only [hashAppend, seedsFor_cons, seedsFor_nil, List.append_nil, List.nil_append]
  | cons hd tl ih =>
    obtain ⟨k', l⟩ := hd
    simp only [List.map_cons, List.nodup_cons] at h
    simp only [hashAppend]
    by_cases hk : k' = k
    · rw [if_pos hk, seedsFor_cons, seedsFor_cons]
      subst hk
      by_cases hkey : k' = key
      · subst hkey
        rw [if_pos rfl, if_pos rfl, seedsFor_of_not_mem _ _ h.1]
        simp
      · rw [if_neg hkey]
        simp [hkey]
    · rw [if_neg hk, seedsFor_cons, seedsFor_cons, ih h.2, List.append_assoc]

theorem hashAppend_nonempty {key : TileId} {values : List α} (hv : values ≠ []) :
    ∀ (q : List (TileId × List α)), (∀ e ∈ q, e.2 ≠ []) →
      ∀ e ∈ hashAppend key values q, e.2 ≠ [] := by
  intro q
  induction q with
  | nil =>
    intro _ e he
    simp only [hashAppend, List.mem_singleton] at he
    rw [he]; exact hv
  | cons hd tl ih =>
    intro hq e he
    obtain ⟨k, l⟩ := hd
    simp only [hashAppend] at he
    split at he
    · rcases List.mem_cons.1 he with rfl | he
      · simp only
        intro h
        exact hv (List.append_eq_nil.1 h).2
      · exact hq e (List.mem_cons_of_mem _ he)
    · rcases List.mem_cons.1 he with rfl | he
      · exact hq _ (List.mem_cons_self _ _)
      · exact ih (fun e' he' => hq e' (List.mem_cons_of_mem _ he')) e he

theorem mergeInv_step (tileGridSize : QSize) :
    ∀ (result queue processed : List (TileId × List α)),
      MergeInv tileGridSize queue processed →
      MergeInv tileGridSize (result.foldl (fun queue entry =>
          if entry.1.x < 0 ∨ entry.1.x ≥ (tileGridSize.width : Int) ∨
              entry.1.y < 0 ∨ entry.1.y ≥ (tileGridSize.height : Int) then queue
          else if entry.2.isEmpty then queue
          else hashAppend entry.1 entry.2 queue) queue) (processed ++ result) := by
  intro result
  induction result with
  | nil => intro queue processed h; simpa using h
  | cons entry rest ih =>
    intro queue processed h
    obtain ⟨k, l⟩ := entry
    rw [List.foldl_cons]
    have hp : processed ++ (k, l) :: rest = (processed ++ [(k, l)]) ++ rest := by simp
    rw [hp]
    apply ih
    obtain ⟨h1, h2, h3⟩ := h
    simp only
    by_cases hout : k.x < 0 ∨ k.x ≥ (tileGridSize.width : Int) ∨
        k.y < 0 ∨ k.y ≥ (tileGridSize.height : Int)
    · rw [if_pos hout]
      refine ⟨h1, h2, ?_⟩
      intro key hkey
      rw [seedsFor_append, seedsFor_cons, seedsFor_nil, h3 key hkey]
      have hne : k ≠ key := by
        intro e
        rw [← e] at hkey
        unfold InFilter at hkey
        omega
      rw [if_neg hne]
      simp
    · rw [if_neg hout]
      by_cases hemp : l.isEmpty = true
      · rw [if_pos hemp]
        refine ⟨h1, h2, ?_⟩
        intro key hkey
        rw [seedsFor_append, seedsFor_cons, seedsFor_nil, h3 key hkey]
        have : l = [] := List.isEmpty_iff.1 hemp
        rw [this]
        simp
      · rw [if_neg hemp]
        have hl : l ≠ [] := fun e => hemp (by rw [e]; rfl)
        have hin : InFilter tileGridSize k := by unfold InFilter; omega
        refine ⟨nodup_hashAppend _ _ _ h1, ?_, ?_⟩
        · intro e he
          refine ⟨?_, hashAppend_nonempty hl queue (fun e' he' => (h2 e' he').2) e he⟩
          rcases mem_hashAppend he with h | ⟨e1, _⟩
          · exact (h2 e h).1
          · rw [e1]; exact hin
        · intro key hkey
          rw [seedsFor_hashAppend _ _ _ _ h1, seedsFor_append, seedsFor_cons, seedsFor_nil,
            h3 key hkey]
          simp

theorem mergeInv_merge (tileGridSize : QSize) (results : List (List (TileId × List α))) :
    MergeInv tileGridSize (mergePropagation tileGridSize results) results.flatten := by
  unfold mergePropagation
  have main : ∀ (rs : List (List (TileId × List α))) (queue processed : List (TileId × List α)),
      MergeInv tileGridSize queue processed →
      MergeInv tileGridSize (rs.foldl (fun queue result =>
          result.foldl (fun queue entry =>
            if entry.1.x < 0 ∨ entry.1.x ≥ (tileGridSize.width : Int) ∨
                entry.1.y < 0 ∨ entry.1.y ≥ (tileGridSize.height : Int) then queue
            else if entry.2.isEmpty then queue
            else hashAppend entry.1 entry.2 queue) queue) queue) (processed ++ rs.flatten) := by
    intro rs
    induction rs with
    | nil => intro queue processed h; simpa using h
    | cons r rs ih =>
      intro queue processed h
      rw [List.foldl_cons, List.flatten_cons, ← List.append_assoc]
      exact ih _ _ (mergeInv_step tileGridSize r queue processed h)
  have := main results [] [] ⟨by simp, fun e he => by simp at he, fun _ _ => rfl⟩
  simpa using this

/-- The queue after the merge: one entry for each tile id inside the grid for which the
results hold a seed, with exactly the seeds filed for it, in the order of the results. -/
theorem merge_exact (tileGridSize : QSize) (results : List (List (TileId × List α))) :
    ((mergePropagation tileGridSize results).map (fun e => e.1)).Nodup ∧
    (∀ e ∈ mergePropagation tileGridSize results,
      InFilter tileGridSize e.1 ∧ e.2 ≠ [] ∧ e.2 = seedsFor e.1 results.flatten) ∧
    (∀ key, InFilter tileGridSize key → seedsFor key results.flatten ≠ [] →
      ∃ e ∈ mergePropagation tileGridSize results, e.1 = key) := by
  obtain ⟨h1, h2, h3⟩ := mergeInv_merge tileGridSize results
  -- with distinct keys, the seeds of a key are the list of its one entry
  have one : ∀ (q : List (TileId × List α)), (q.map (fun e => e.1)).Nodup →
      ∀ e ∈ q, seedsFor e.1 q = e.2 := by
    intro q
    induction q with
    | nil => intro _ e he; simp at he
    | cons hd tl ih =>
      intro hn e he
      obtain ⟨k, l⟩ := hd
      simp only [List.map_cons, List.nodup_cons] at hn
      rcases List.mem_cons.1 he with rfl | he
      · rw [seedsFor_cons, if_pos rfl, seedsFor_of_not_mem _ _ hn.1]
        simp
      · have hne : k ≠ e.1 := by
          intro h
          apply hn.1
          rw [h]
          exact List.mem_map_of_mem _ he
        rw [seedsFor_cons, if_neg hne, ih hn.2 e he]
        rfl
  refine ⟨h1, ?_, ?_⟩
  · intro e he
    exact ⟨(h2 e he).1, (h2 e he).2, by rw [← h3 e.1 (h2 e he).1, one _ h1 e he]⟩
  · intro key hkey hne
    rw [← h3 key hkey] at hne
    by_contra hno
    apply hne
    apply seedsFor_of_not_mem
    intro hm
    obtain ⟨e, he, hk⟩ := List.mem_map.1 hm
    exact hno ⟨e, he, hk⟩

end MergeExact

end FloodFill

namespace FloodFill

/-! ## A byte of the mask is stored to once -/

section OnceSerial

variable {referenceImage : QImage} {seedValue threshold : Nat}

theorem marked_chain {a b c : QImage} (h1 : Marked a b) (h2 : Marked b c) : Marked a c := by
  induction h1 with
  | refl _ => exact h2
  | store m m1 m' p v hz hv hs _ ih => exact Marked.store m m1 c p v hz hv hs (ih h2)

theorem tileMarked_chain {a b c : List TileData} (h1 : TileMarked a b) (h2 : TileMarked b c) :
    TileMarked a c := by
  induction h1 with
  | refl _ => exact h2
  | store td td1 td' i t v ht hz hv hs _ ih =>
    exact TileMarked.store td td1 c i t v ht hz hv hs (ih h2)

/-- The selection value of a difference below the threshold is not zero. -/
theorem selectionValue_ne_zero {d t v : Nat} (h : selectionValue d t = .ok v) (hd : d < t) :
    v ≠ 0 := by
  unfold selectionValue at h
  rw [if_neg (by omega)] at h
  have hq : d * 255 / t < 255 := by
    rw [Nat.div_lt_iff_lt_mul (by omega)]
    nlinarith
  have := Except.ok.inj h
  generalize d * 255 / t = e at hq this
  omega

/-- The bytes of a mask that are not zero keep their value under later stores. -/
theorem marked_keeps {mask mask' : QImage} (h : Marked mask mask') :
    mask'.width = mask.width ∧ mask'.height = mask.height ∧
      mask'.bytesPerLine = mask.bytesPerLine ∧ mask'.bits.length = mask.bits.length ∧
      ∀ i, mask.bits.getD i 0 ≠ 0 → mask'.bits.getD i 0 = mask.bits.getD i 0 := by
  induction h with
  | refl _ => exact ⟨rfl, rfl, rfl, rfl, fun _ _ => rfl⟩
  | store m m1 m' p v hz hv hs _ ih =>
    obtain ⟨z0, z1, z2⟩ := getPixel_ok hz
    obtain ⟨s0, s1, s2⟩ := setPixel_ok hs
    subst s2
    obtain ⟨g1, g2, g3, g4, g5⟩ := ih
    refine ⟨g1, g2, g3, by rw [g4]; simp [QImage.mark], ?_⟩
    intro i hi
    have hne : (m.offset p).toNat ≠ i := by
      intro e
      apply hi
      rw [← e]
      exact z2.symm
    have hm : (m.mark p v).bits.getD i 0 = m.bits.getD i 0 := by
      rw [mark_getD p v i s0 s1, if_neg hne]
    rw [g5 i (by rw [hm]; exact hi), hm]

/-- The cells of a working buffer whose mask byte is not zero keep their content under
later assignments. -/
theorem tileMarked_keeps {td td' : List TileData} (h : TileMarked td td') :
    td'.length = td.length ∧
      (∀ j, (td'.getD j ⟨0, 0⟩).referencePixel = (td.getD j ⟨0, 0⟩).referencePixel) ∧
      ∀ j, (td.getD j ⟨0, 0⟩).fillMaskPixel ≠ 0 →
        (td'.getD j ⟨0, 0⟩).fillMaskPixel = (td.getD j ⟨0, 0⟩).fillMaskPixel := by
  induction h with
  | refl _ => exact ⟨rfl, fun _ => rfl, fun _ _ => rfl⟩
  | store td td1 td' i t v ht hz hv hs _ ih =>
    obtain ⟨t0, t1, t2⟩ := tileAt_ok ht
    obtain ⟨_, _, s2⟩ := tileSetFillMask_ok hs
    subst s2
    obtain ⟨g1, g2, g3⟩ := ih
    refine ⟨by rw [g1]; simp, ?_, ?_⟩
    · intro j
      rw [g2 j, getD_set_gen]
      split
      · rename_i h
        rw [h.1]
      · rfl
    · intro j hj
      have hne : ¬ (i.toNat = j ∧ i.toNat < td.length) := by
        rintro ⟨e, _⟩
        apply hj
        rw [← e, ← t2]
        exact hz
      have hm : (td.set i.toNat ⟨(td.getD i.toNat ⟨0, 0⟩).referencePixel, v⟩).getD j ⟨0, 0⟩ =
          td.getD j ⟨0, 0⟩ := by
        rw [getD_set_gen, if_neg hne]
      rw [g3 j (by rw [hm]; exact hj), hm]

theorem floodFillStep_marked {mask mask' : QImage} {p : QPoint} {nodes nodes' : List QPoint}
    (h : floodFillStep referenceImage seedValue threshold mask p nodes = .ok (mask', nodes')) :
    Marked mask mask' := by
  unfold floodFillStep at h
  cases hm : getPixel mask p with
  | error e => rw [hm] at h; cases h
  | ok m =>
    rw [hm] at h
    simp only at h
    by_cases hpos : m > 0
    · rw [if_pos hpos] at h
      have := Except.ok.inj h
      simp only [Prod.mk.injEq] at this
      rw [← this.1]
      exact Marked.refl _
    rw [if_neg hpos] at h
    have hm0 : m = 0 := by omega
    subst hm0
    cases hv : getPixel referenceImage p with
    | error e => rw [hv] at h; cases h
    | ok value =>
      rw [hv] at h
      simp only at h
      by_cases hd : difference8 value seedValue ≥ threshold
      · rw [if_pos hd] at h
        have := Except.ok.inj h
        simp only [Prod.mk.injEq] at this
        rw [← this.1]
        exact Marked.refl _
      rw [if_neg hd] at h
      cases hs : selectionValue (difference8 value seedValue) threshold with
      | error e => rw [hs] at h; cases h
      | ok sel =>
        rw [hs] at h
        simp only at h
        cases hset : setPixel mask p sel with
        | error e => rw [hset] at h; cases h
        | ok m1 =>
          rw [hset] at h
          have := Except.ok.inj h
          simp only [Prod.mk.injEq] at this
          rw [← this.1]
          exact Marked.store mask m1 m1 p sel hm (selectionValue_ne_zero hs (by omega)) hset
            (Marked.refl _)

theorem floodFillLoop_marked :
    ∀ (fuel : Nat) (mask mask' : QImage) (nodes : List QPoint),
      floodFillLoop referenceImage seedValue threshold fuel mask nodes = .ok mask' →
      Marked mask mask' := by
  intro fuel
  induction fuel with
  | zero =>
    intro mask mask' nodes h
    cases nodes with
    | nil =>
      simp only [floodFillLoop] at h
      rw [Except.ok.inj h]
      exact Marked.refl _
    | cons p nodes => simp [floodFillLoop] at h
  | succ fuel ih =>
    intro mask mask' nodes h
    cases nodes with
    | nil =>
      simp only [floodFillLoop] at h
      rw [Except.ok.inj h]
      exact Marked.refl _
    | cons p nodes =>
      simp only [floodFillLoop] at h
      cases hs : floodFillStep referenceImage seedValue threshold mask p nodes with
      | error e => rw [hs] at h; cases h
      | ok r =>
        obtain ⟨m1, nodes1⟩ := r
        rw [hs] at h
        exact marked_chain (floodFillStep_marked hs) (ih m1 mask' nodes1 h)

theorem scanLineLeft_marked {y : Int} :
    ∀ (fuel : Nat) (mask mask' : QImage) (x1 x1' : Int),
      scanLineLeft referenceImage seedValue threshold y fuel mask x1 = .ok (mask', x1') →
      Marked mask mask' := by
  intro fuel
  induction fuel with
  | zero => intro mask mask' x1 x1' h; simp [scanLineLeft] at h
  | succ fuel ih =>
    intro mask mask' x1 x1' h
    unfold scanLineLeft at h
    have stop : (Except.ok (mask, x1) : Except Fault (QImage × Int)) = .ok (mask', x1') →
        Marked mask mask' := by
      intro h
      have := Except.ok.inj h
      simp only [Prod.mk.injEq] at this
      rw [← this.1]
      exact Marked.refl _
    by_cases hb : x1 - 1 < 0
    · rw [if_pos hb] at h
      exact stop h
    rw [if_neg hb] at h
    cases hm : getPixel mask ⟨x1 - 1, y⟩ with
    | error e => rw [hm] at h; cases h
    | ok m =>
      rw [hm] at h
      simp only at h
      by_cases hpos : m > 0
      · rw [if_pos hpos] at h
        exact stop h
      rw [if_neg hpos] at h
      have hm0 : m = 0 := by omega
      subst hm0
      cases hv : getPixel referenceImage ⟨x1 - 1, y⟩ with
      | error e => rw [hv] at h; cases h
      | ok value =>
        rw [hv] at h
        simp only at h
        by_cases hd : difference8 value seedValue ≥ threshold
        · rw [if_pos hd] at h
          exact stop h
        rw [if_neg hd] at h
        cases hs : selectionValue (difference8 value seedValue) threshold with
        | error e => rw [hs] at h; cases h
        | ok sel =>
          rw [hs] at h
          simp only at h
          cases hset : setPixel mask ⟨x1 - 1, y⟩ sel with
          | error e => rw [hset] at h; cases h
          | ok m1 =>
            rw [hset] at h
            simp only at h
            exact Marked.store mask m1 mask' _ sel hm (selectionValue_ne_zero hs (by omega))
              hset (ih m1 mask' (x1 - 1) x1' h)

theorem scanLineRight_marked {y : Int} :
    ∀ (fuel : Nat) (mask mask' : QImage) (x2 x2' : Int),
      scanLineRight referenceImage seedValue threshold y fuel mask x2 = .ok (mask', x2') →
      Marked mask mask' := by
  intro fuel
  induction fuel with
  | zero => intro mask mask' x2 x2' h; simp [scanLineRight] at h
  | succ fuel ih =>
    intro mask mask' x2 x2' h
    unfold scanLineRight at h
    have stop : (Except.ok (mask, x2) : Except Fault (QImage × Int)) = .ok (mask', x2') →
        Marked mask mask' := by
      intro h
      have := Except.ok.inj h
      simp only [Prod.mk.injEq] at this
      rw [← this.1]
      exact Marked.refl _
    by_cases hb : x2 ≥ (referenceImage.width : Int)
    · rw [if_pos hb] at h
      exact stop h
    rw [if_neg hb] at h
    cases hm : getPixel mask ⟨x2, y⟩ with
    | error e => rw [hm] at h; cases h
    | ok m =>
      rw [hm] at h
      simp only at h
      by_cases hpos : m > 0
      · rw [if_pos hpos] at h
        exact stop h
      rw [if_neg hpos] at h
      have hm0 : m = 0 := by omega
      subst hm0
      cases hv : getPixel referenceImage ⟨x2, y⟩ with
      | error e => rw [hv] at h; cases h
      | ok value =>
        rw [hv] at h
        simp only at h
        by_cases hd : difference8 value seedValue ≥ threshold
        · rw [if_pos hd] at h
          exact stop h
        rw [if_neg hd] at h
        cases hs : selectionValue (difference8 value seedValue) threshold with
        | error e => rw [hs] at h; cases h
        | ok sel =>
          rw [hs] at h
          simp only at h
          cases hset : setPixel mask ⟨x2, y⟩ sel with
          | error e => rw [hset] at h; cases h
          | ok m1 =>
            rw [hset] at h
            simp only at h
            exact Marked.store mask m1 mask' _ sel hm (selectionValue_ne_zero hs (by omega))
              hset (ih m1 mask' (x2 + 1) x2' h)

theorem scanLineOuter_marked {span : Span} :
    ∀ (fuel : Nat) (mask mask' : QImage) (spans spans' : List Span) (x1 x2 : Int),
      scanLineOuter referenceImage seedValue threshold span fuel mask spans x1 x2 =
        .ok (mask', spans') →
      Marked mask mask' := by
  intro fuel
  induction fuel with
  | zero => intro mask mask' spans spans' x1 x2 h; simp [scanLineOuter] at h
  | succ fuel ih =>
    intro mask mask' spans spans' x1 x2 h
    unfold scanLineOuter at h
    by_cases hle : x2 ≤ span.x2
    · rw [if_pos hle] at h
      cases hr : scanLineRight referenceImage seedValue threshold span.y
          ((referenceImage.width : Int) - x2).toNat.succ mask x2 with
      | error e => rw [hr] at h; cases h
      | ok r =>
        obtain ⟨m1, x2'⟩ := r
        rw [hr] at h
        simp only at h
        cases hk : scanLineSkip referenceImage seedValue threshold m1 span
            (span.x2 - (x2' + 1)).toNat.succ (x2' + 1) with
        | error e => rw [hk] at h; cases h
        | ok x3 =>
          rw [hk] at h
          simp only at h
          exact marked_chain (scanLineRight_marked _ _ _ _ _ hr) (ih m1 mask' _ spans' x3 x3 h)
    · rw [if_neg hle] at h
      have := Except.ok.inj h
      simp only [Prod.mk.injEq] at this
      rw [← this.1]
      exact Marked.refl _

theorem floodFillScanLineStep_marked {mask mask' : QImage} {span : Span}
    {spans spans' : List Span}
    (h : floodFillScanLineStep referenceImage seedValue threshold mask span spans =
      .ok (mask', spans')) :
    Marked mask mask' := by
  unfold floodFillScanLineStep at h
  by_cases hrow : span.y < 0 ∨ span.y ≥ (referenceImage.height : Int)
  · rw [if_pos hrow] at h
    have := Except.ok.inj h
    simp only [Prod.mk.injEq] at this
    rw [← this.1]
    exact Marked.refl _
  rw [if_neg hrow] at h
  cases hm : getPixel mask ⟨span.x1, span.y⟩ with
  | error e => rw [hm] at h; cases h
  | ok m =>
    rw [hm] at h
    simp only at h
    split at h
    · cases h
    · rename_i extend _
      split at h
      · cases h
      · rename_i m1 x1' hl
        have hleft : Marked mask m1 := by
          cases extend with
          | false =>
            simp only [Bool.false_eq_true, if_false] at hl
            have := Except.ok.inj hl
            simp only [Prod.mk.injEq] at this
            rw [← this.1]
            exact Marked.refl _
          | true =>
            simp only [if_true] at hl
            exact scanLineLeft_marked _ _ _ _ _ hl
        exact marked_chain hleft (scanLineOuter_marked _ _ _ _ _ _ _ h)

theorem floodFillScanLineLoop_marked :
    ∀ (fuel : Nat) (mask mask' : QImage) (spans : List Span),
      floodFillScanLineLoop referenceImage seedValue threshold fuel mask spans = .ok mask' →
      Marked mask mask' := by
  intro fuel
  induction fuel with
  | zero =>
    intro mask mask' spans h
    cases spans with
    | nil =>
      simp only [floodFillScanLineLoop] at h
      rw [Except.ok.inj h]
      exact Marked.refl _
    | cons p spans => simp [floodFillScanLineLoop] at h
  | succ fuel ih =>
    intro mask mask' spans h
    cases spans with
    | nil =>
      simp only [floodFillScanLineLoop] at h
      rw [Except.ok.inj h]
      exact Marked.refl _
    | cons p spans =>
      simp only [floodFillScanLineLoop] at h
      cases hs : floodFillScanLineStep referenceImage seedValue threshold mask p spans with
      | error e => rw [hs] at h; cases h
      | ok r =>
        obtain ⟨m1, spans1⟩ := r
        rw [hs] at h
        exact marked_chain (floodFillScanLineStep_marked hs) (ih m1 mask' spans1 h)

end OnceSerial

end FloodFill

namespace FloodFill

/-! ## A cell of the working buffer is assigned once -/

section OnceTile

variable {ts : QSize} {originalSeedValue threshold : Nat} {currentTileId : TileId}
  {globalRect tileRect : QRect}

/-- The marking of one cell, as the tile workers do it: the cell is read, and if its mask
byte is 0 and the difference is below the threshold, the selection value is assigned. -/
theorem tileMark_marked {td td1 : List TileData} {i : Int} {t : TileData} {sel : Nat}
    (ht : tileAt td i = .ok t) (hz : ¬ t.fillMaskPixel > 0)
    (hd : ¬ difference8 t.referencePixel originalSeedValue ≥ threshold)
    (hs : selectionValue (difference8 t.referencePixel originalSeedValue) threshold = .ok sel)
    (hset : tileSetFillMask td i sel = .ok td1) : TileMarked td td1 :=
  TileMarked.store td td1 td1 i t sel ht (by omega) (selectionValue_ne_zero hs (by omega)) hset
    (TileMarked.refl _)

theorem floodFillTileStep_marked {td td' : List TileData} {info info' : TilePropagationInfo}
    {p : QPoint} {nodes nodes' : List QPoint}
    (h : floodFillTileStep ts originalSeedValue currentTileId globalRect tileRect threshold td
      info p nodes = .ok (td', info', nodes')) :
    TileMarked td td' := by
  unfold floodFillTileStep at h
  cases ht : tileAt td ((p.y - tileRect.top) * ts.width + (p.x - tileRect.left)) with
  | error e => rw [ht] at h; cases h
  | ok t =>
    rw [ht] at h
    simp only at h
    by_cases hpos : t.fillMaskPixel > 0
    · rw [if_pos hpos] at h
      have := Except.ok.inj h
      simp only [Prod.mk.injEq] at this
      rw [← this.1]
      exact TileMarked.refl _
    rw [if_neg hpos] at h
    by_cases hd : difference8 t.referencePixel originalSeedValue ≥ threshold
    · rw [if_pos hd] at h
      have := Except.ok.inj h
      simp only [Prod.mk.injEq] at this
      rw [← this.1]
      exact TileMarked.refl _
    rw [if_neg hd] at h
    cases hs : selectionValue (difference8 t.referencePixel originalSeedValue) threshold with
    | error e => rw [hs] at h; cases h
    | ok sel =>
      rw [hs] at h
      simp only at h
      cases hset : tileSetFillMask td
          ((p.y - tileRect.top) * ts.width + (p.x - tileRect.left)) sel with
      | error e => rw [hset] at h; cases h
      | ok td1 =>
        rw [hset] at h
        have := Except.ok.inj h
        simp only [Prod.mk.injEq] at this
        rw [← this.1]
        exact tileMark_marked ht hpos hd hs hset

theorem floodFillTileLoop_marked :
    ∀ (fuel : Nat) (td td' : List TileData) (info info' : TilePropagationInfo)
      (nodes : List QPoint),
      floodFillTileLoop ts originalSeedValue currentTileId globalRect tileRect threshold fuel
        td info nodes = .ok (td', info') →
      TileMarked td td' := by
  intro fuel
  induction fuel with
  | zero =>
    intro td td' info info' nodes h
    cases nodes with
    | nil =>
      simp only [floodFillTileLoop] at h
      have := Except.ok.inj h
      simp only [Prod.mk.injEq] at this
      rw [← this.1]
      exact TileMarked.refl _
    | cons p nodes => simp [floodFillTileLoop] at h
  | succ fuel ih =>
    intro td td' info info' nodes h
    cases nodes with
    | nil =>
      simp only [floodFillTileLoop] at h
      have := Except.ok.inj h
      simp only [Prod.mk.injEq] at this
      rw [← this.1]
      exact TileMarked.refl _
    | cons p nodes =>
      simp only [floodFillTileLoop] at h
      cases hs : floodFillTileStep ts originalSeedValue currentTileId globalRect tileRect
          threshold td info p nodes with
      | error e => rw [hs] at h; cases h
      | ok r =>
        obtain ⟨td1, info1, nodes1⟩ := r
        rw [hs] at h
        exact tileMarked_chain (floodFillTileStep_marked hs) (ih td1 td' info1 info' nodes1 h)

theorem tileScanLeft_marked {span : Span} :
    ∀ (fuel : Nat) (td td' : List TileData) (info info' : TilePropagationInfoScanLine)
      (x1 x1' : Int),
      tileScanLeft ts originalSeedValue currentTileId globalRect tileRect threshold span fuel
        td info x1 = .ok (td', info', x1') →
      TileMarked td td' := by
  intro fuel
  induction fuel with
  | zero => intro td td' info info' x1 x1' h; simp [tileScanLeft] at h
  | succ fuel ih =>
    intro td td' info info' x1 x1' h
    unfold tileScanLeft at h
    simp only at h
    have stop : ∀ (i : TilePropagationInfoScanLine),
        (Except.ok (td, i, x1) :
          Except Fault (List TileData × TilePropagationInfoScanLine × Int)) =
          .ok (td', info', x1') → TileMarked td td' := by
      intro i h
      have := Except.ok.inj h
      simp only [Prod.mk.injEq] at this
      rw [← this.1]
      exact TileMarked.refl _
    by_cases hg : x1 - 1 < globalRect.left
    · rw [if_pos hg] at h
      exact stop _ h
    rw [if_neg hg] at h
    by_cases hl : x1 - 1 < tileRect.left
    · rw [if_pos hl] at h
      exact stop _ h
    rw [if_neg hl] at h
    cases ht : tileAt td ((span.y - tileRect.top) * ts.width + (x1 - 1 - tileRect.left)) with
    | error e => rw [ht] at h; cases h
    | ok t =>
      rw [ht] at h
      simp only at h
      by_cases hpos : t.fillMaskPixel > 0
      · rw [if_pos hpos] at h
        exact stop _ h
      rw [if_neg hpos] at h
      by_cases hd : difference8 t.referencePixel originalSeedValue ≥ threshold
      · rw [if_pos hd] at h
        exact stop _ h
      rw [if_neg hd] at h
      cases hs : selectionValue (difference8 t.referencePixel originalSeedValue) threshold with
      | error e => rw [hs] at h; cases h
      | ok sel =>
        rw [hs] at h
        simp only at h
        cases hset : tileSetFillMask td
            ((span.y - tileRect.top) * ts.width + (x1 - 1 - tileRect.left)) sel with
        | error e => rw [hset] at h; cases h
        | ok td1 =>
          rw [hset] at h
          simp only at h
          exact tileMarked_chain (tileMark_marked ht hpos hd hs hset) (ih td1 td' info info' _ x1' h)

theorem tileScanRight_marked {span : Span} :
    ∀ (fuel : Nat) (td td' : List TileData) (info info' : TilePropagationInfoScanLine)
      (x2 x2' : Int),
      tileScanRight ts originalSeedValue currentTileId globalRect tileRect threshold span fuel
        td info x2 = .ok (td', info', x2') →
      TileMarked td td' := by
  intro fuel
  induction fuel with
  | zero => intro td td' info info' x2 x2' h; simp [tileScanRight] at h
  | succ fuel ih =>
    intro td td' info info' x2 x2' h
    unfold tileScanRight at h
    simp only at h
    have stop : ∀ (i : TilePropagationInfoScanLine),
        (Except.ok (td, i, x2) :
          Except Fault (List TileData × TilePropagationInfoScanLine × Int)) =
          .ok (td', info', x2') → TileMarked td td' := by
      intro i h
      have := Except.ok.inj h
      simp only [Prod.mk.injEq] at this
      rw [← this.1]
      exact TileMarked.refl _
    by_cases hg : x2 > globalRect.right
    · rw [if_pos hg] at h
      exact stop _ h
    rw [if_neg hg] at h
    by_cases hl : x2 > tileRect.right
    · rw [if_pos hl] at h
      exact stop _ h
    rw [if_neg hl] at h
    cases ht : tileAt td ((span.y - tileRect.top) * ts.width + (x2 - tileRect.left)) with
    | error e => rw [ht] at h; cases h
    | ok t =>
      rw [ht] at h
      simp only at h
      by_cases hpos : t.fillMaskPixel > 0
      · rw [if_pos hpos] at h
        exact stop _ h
      rw [if_neg hpos] at h
      by_cases hd : difference8 t.referencePixel originalSeedValue ≥ threshold
      · rw [if_pos hd] at h
        exact stop _ h
      rw [if_neg hd] at h
      cases hs : selectionValue (difference8 t.referencePixel originalSeedValue) threshold with
      | error e => rw [hs] at h; cases h
      | ok sel =>
        rw [hs] at h
        simp only at h
        cases hset : tileSetFillMask td
            ((span.y - tileRect.top) * ts.width + (x2 - tileRect.left)) sel with
        | error e => rw [hset] at h; cases h
        | ok td1 =>
          rw [hset] at h
          simp only at h
          exact tileMarked_chain (tileMark_marked ht hpos hd hs hset) (ih td1 td' info info' _ x2' h)

theorem tileScanOuter_marked {span : Span} :
    ∀ (fuel : Nat) (td td' : List TileData) (info info' : TilePropagationInfoScanLine)
      (spans spans' : List Span) (x1 x2 : Int),
      tileScanOuter ts originalSeedValue currentTileId globalRect tileRect threshold span fuel
        td info spans x1 x2 = .ok (td', info', spans') →
      TileMarked td td' := by
  intro fuel
  induction fuel with
  | zero => intro td td' info info' spans spans' x1 x2 h; simp [tileScanOuter] at h
  | succ fuel ih =>
    intro td td' info info' spans spans' x1 x2 h
    unfold tileScanOuter at h
    by_cases hle : x2 ≤ span.x2
    · rw [if_pos hle] at h
      cases hr : tileScanRight ts originalSeedValue currentTileId globalRect tileRect threshold
          span (tileRect.right + 1 - x2).toNat.succ td info x2 with
      | error e => rw [hr] at h; cases h
      | ok r =>
        obtain ⟨td1, info1, x2'⟩ := r
        rw [hr] at h
        simp only at h
        split at h
        · cases h
        · exact tileMarked_chain (tileScanRight_marked _ _ _ _ _ _ _ hr) (ih _ _ _ _ _ _ _ _ h)
    · rw [if_neg hle] at h
      have := Except.ok.inj h
      simp only [Prod.mk.injEq] at this
      rw [← this.1]
      exact TileMarked.refl _

theorem floodFillTileScanLineStep_marked {td td' : List TileData}
    {info info' : TilePropagationInfoScanLine} {span : Span} {spans spans' : List Span}
    (h : floodFillTileScanLineStep ts originalSeedValue currentTileId globalRect tileRect
      threshold td info span spans = .ok (td', info', spans')) :
    TileMarked td td' := by
  unfold floodFillTileScanLineStep at h
  by_cases hrow : span.y < globalRect.top ∨ span.y > globalRect.bottom
  · rw [if_pos hrow] at h
    have := Except.ok.inj h
    simp only [Prod.mk.injEq] at this
    rw [← this.1]
    exact TileMarked.refl _
  rw [if_neg hrow] at h
  split at h
  · cases h
  · rename_i t _
    split at h
    · cases h
    · rename_i td1 info1 x1' hl
      have hleft : TileMarked td td1 := by
        split at hl
        · exact tileScanLeft_marked _ _ _ _ _ _ _ hl
        · have := Except.ok.inj hl
          simp only [Prod.mk.injEq] at this
          rw [← this.1]
          exact TileMarked.refl _
      exact tileMarked_chain hleft (tileScanOuter_marked _ _ _ _ _ _ _ _ _ h)

theorem floodFillTileScanLineLoop_marked :
    ∀ (fuel : Nat) (td td' : List TileData) (info info' : TilePropagationInfoScanLine)
      (spans : List Span),
      floodFillTileScanLineLoop ts originalSeedValue currentTileId globalRect tileRect threshold
        fuel td info spans = .ok (td', info') →
      TileMarked td td' := by
  intro fuel
  induction fuel with
  | zero =>
    intro td td' info info' spans h
    cases spans with
    | nil =>
      simp only [floodFillTileScanLineLoop] at h
      have := Except.ok.inj h
      simp only [Prod.mk.injEq] at this
      rw [← this.1]
      exact TileMarked.refl _
    | cons p spans => simp [floodFillTileScanLineLoop] at h
  | succ fuel ih =>
    intro td td' info info' spans h
    cases spans with
    | nil =>
      simp only [floodFillTileScanLineLoop] at h
      have := Except.ok.inj h
      simp only [Prod.mk.injEq] at this
      rw [← this.1]
      exact TileMarked.refl _
    | cons p spans =>
      simp only [floodFillTileScanLineLoop] at h
      cases hs : floodFillTileScanLineStep ts originalSeedValue currentTileId globalRect tileRect
          threshold td info p spans with
      | error e => rw [hs] at h; cases h
      | ok r =>
        obtain ⟨td1, info1, spans1⟩ := r
        rw [hs] at h
        exact tileMarked_chain (floodFillTileScanLineStep_marked hs) (ih td1 td' info1 info' spans1 h)

end OnceTile

end FloodFill

namespace FloodFill

/-! ## The shared mask across the calls of the tile workers -/

section OnceCall

variable {ts : QSize} {referenceImage : QImage}

/-- The bytes of `mask` that are not zero keep their value in `mask'`. -/
theorem keeps_trans {a b c : List Nat}
    (h1 : ∀ i, a.getD i 0 ≠ 0 → b.getD i 0 = a.getD i 0)
    (h2 : ∀ i, b.getD i 0 ≠ 0 → c.getD i 0 = b.getD i 0) :
    ∀ i, a.getD i 0 ≠ 0 → c.getD i 0 = a.getD i 0 := by
  intro i hi
  rw [h2 i (by rw [h1 i hi]; exact hi), h1 i hi]

/-- The write-back of a working buffer that was copied in from the mask and then only
marked leaves every non-zero byte of the mask as it is. -/
theorem writeBack_keeps {tileRect : QRect} (hok : TileOK ts referenceImage tileRect)
    {mask mask' : QImage} {td1 td0 td' : List TileData}
    (hcopy : copyFillMask ts mask tileRect td1 = .ok td0) (hmarked : TileMarked td0 td')
    (hrun : writeBack ts mask tileRect td' = .ok mask') :
    mask'.width = mask.width ∧ mask'.height = mask.height ∧
      mask'.bytesPerLine = mask.bytesPerLine ∧ mask'.bits.length = mask.bits.length ∧
      ∀ i, mask.bits.getD i 0 ≠ 0 → mask'.bits.getD i 0 = mask.bits.getD i 0 := by
  obtain ⟨_, _, hcells⟩ := copyFillMask_spec hok hcopy
  obtain ⟨_, _, hkeep⟩ := tileMarked_keeps hmarked
  unfold writeBack at hrun
  exact foldlM_ok_induction _ (fun _ _ => True)
    (fun (_ : List (Int × Int)) (cur : QImage) =>
      cur.width = mask.width ∧ cur.height = mask.height ∧
      cur.bytesPerLine = mask.bytesPerLine ∧ cur.bits.length = mask.bits.length ∧
      ∀ i, mask.bits.getD i 0 ≠ 0 → cur.bits.getD i 0 = mask.bits.getD i 0)
    (tileCells ts tileRect) (List.pairwise_of_forall (fun _ _ => trivial)) mask mask'
    ⟨rfl, rfl, rfl, rfl, fun _ _ => rfl⟩
    (by
      intro done c cur s1 inv hc _ hf
      obtain ⟨i1, i2, i3, i4, i5⟩ := inv
      cases ht : tileAt td' ((c.1 - tileRect.top) * (ts.width : Int) + c.2) with
      | error e => rw [ht] at hf; cases hf
      | ok t =>
        rw [ht] at hf
        simp only at hf
        obtain ⟨_, _, t2⟩ := tileAt_ok ht
        obtain ⟨s0, s1', s2⟩ := setPixel_ok hf
        subst s2
        refine ⟨i1, i2, i3, by rw [← i4]; simp [QImage.mark], ?_⟩
        intro i hi
        rw [mark_getD _ _ i s0 s1']
        by_cases he : (cur.offset ⟨tileRect.left + c.2, c.1⟩).toNat = i
        · rw [if_pos he]
          have hoff : cur.offset ⟨tileRect.left + c.2, c.1⟩ =
              mask.offset ⟨tileRect.left + c.2, c.1⟩ := offset_geometry i3 _
          have hpix : mask.pix ⟨tileRect.left + c.2, c.1⟩ = mask.bits.getD i 0 := by
            unfold QImage.pix
            rw [← hoff, he]
          have hc0 := hcells c hc
          rw [hpix] at hc0
          rw [t2, hkeep _ (by rw [hc0]; exact hi), hc0]
        · rw [if_neg he]
          exact i5 i hi)
    hrun

/-- A call of `floodFillTile` for a tile of the grid leaves every non-zero byte of the
shared mask as it is. -/
theorem floodFillTile_keeps (hW : 1 ≤ ts.width) (hH : 1 ≤ ts.height) {k : TileId}
    (hk : InGrid ts referenceImage k) {mask mask' : QImage} {seeds : SeedPointList}
    {originalSeedValue threshold : Nat} {globalRect : QRect} {info : TilePropagationInfo}
    (h : floodFillTile ts referenceImage mask seeds originalSeedValue k globalRect
      (tileRectOf ts referenceImage.rect k) threshold = .ok (mask', info)) :
    mask'.width = mask.width ∧ mask'.height = mask.height ∧
      mask'.bytesPerLine = mask.bytesPerLine ∧ mask'.bits.length = mask.bits.length ∧
      ∀ i, mask.bits.getD i 0 ≠ 0 → mask'.bits.getD i 0 = mask.bits.getD i 0 := by
  have hok := tileOK_of_inGrid hk hW hH
  unfold floodFillTile at h
  split at h
  · cases h
  · rename_i td1 _
    split at h
    · cases h
    · rename_i td0 hcopy
      simp only at h
      split at h
      · cases h
      · rename_i td' info' hloop
        split at h
        · cases h
        · rename_i m hwb
          have := Except.ok.inj h
          simp only [Prod.mk.injEq] at this
          rw [← this.1]
          exact writeBack_keeps hok hcopy (floodFillTileLoop_marked _ _ _ _ _ _ hloop) hwb

/-- A call of `floodFillTileScanLine` for a tile of the grid leaves every non-zero byte of
the shared mask as it is. -/
theorem floodFillTileScanLine_keeps (hW : 1 ≤ ts.width) (hH : 1 ≤ ts.height) {k : TileId}
    (hk : InGrid ts referenceImage k) {mask mask' : QImage} {seeds : SeedSpanList}
    {originalSeedValue threshold : Nat} {globalRect : QRect}
    {info : TilePropagationInfoScanLine}
    (h : floodFillTileScanLine ts referenceImage mask seeds originalSeedValue k globalRect
      (tileRectOf ts referenceImage.rect k) threshold = .ok (mask', info)) :
    mask'.width = mask.width ∧ mask'.height = mask.height ∧
      mask'.bytesPerLine = mask.bytesPerLine ∧ mask'.bits.length = mask.bits.length ∧
      ∀ i, mask.bits.getD i 0 ≠ 0 → mask'.bits.getD i 0 = mask.bits.getD i 0 := by
  have hok := tileOK_of_inGrid hk hW hH
  unfold floodFillTileScanLine at h
  split at h
  · cases h
  · rename_i td1 _
    split at h
    · cases h
    · rename_i td0 hcopy
      split at h
      · cases h
      · rename_i td' info' hloop
        split at h
        · cases h
        · rename_i m hwb
          have := Except.ok.inj h
          simp only [Prod.mk.injEq] at this
          rw [← this.1]
          exact writeBack_keeps hok hcopy (floodFillTileScanLineLoop_marked _ _ _ _ _ _ hloop)
            hwb

theorem keeps_refl (mask : QImage) : Keeps mask mask :=
  ⟨rfl, rfl, rfl, rfl, fun _ _ => rfl⟩

theorem keeps_chain {a b c : QImage} (h1 : Keeps a b) (h2 : Keeps b c) : Keeps a c := by
  obtain ⟨a1, a2, a3, a4, a5⟩ := h1
  obtain ⟨b1, b2, b3, b4, b5⟩ := h2
  exact ⟨by rw [b1, a1], by rw [b2, a2], by rw [b3, a3], by rw [b4, a4], keeps_trans a5 b5⟩

section KeepsRounds

variable {α : Type}
  {tile : QImage → TileId → List α → Except Fault (QImage × List (TileId × List α))}
  {tileGridSize : QSize}

theorem runRound_keeps
    (htile : ∀ mask k seeds mask' info, InFilter tileGridSize k →
      tile mask k seeds = .ok (mask', info) → Keeps mask mask') :
    ∀ (queue : List (TileId × List α)) (mask mask' : QImage)
      (results : List (List (TileId × List α))),
      (∀ e ∈ queue, InFilter tileGridSize e.1) →
      runRound tile mask queue = .ok (mask', results) → Keeps mask mask' := by
  intro queue
  induction queue with
  | nil =>
    intro mask mask' results _ h
    simp only [runRound] at h
    have := Except.ok.inj h
    simp only [Prod.mk.injEq] at this
    rw [← this.1]
    exact keeps_refl _
  | cons entry rest ih =>
    intro mask mask' results hq h
    obtain ⟨k, seeds⟩ := entry
    simp only [runRound] at h
    cases ht : tile mask k seeds with
    | error e => rw [ht] at h; cases h
    | ok r =>
      obtain ⟨m1, info1⟩ := r
      rw [ht] at h
      simp only at h
      cases hr : runRound tile m1 rest with
      | error e => rw [hr] at h; cases h
      | ok r2 =>
        obtain ⟨m2, results2⟩ := r2
        rw [hr] at h
        have := Except.ok.inj h
        simp only [Prod.mk.injEq] at this
        rw [← this.1]
        exact keeps_chain (htile mask k seeds m1 info1 (hq (k, seeds) (List.mem_cons_self _ _)) ht)
          (ih m1 m2 results2 (fun e he => hq e (List.mem_cons_of_mem _ he)) hr)

theorem runRounds_keeps
    (htile : ∀ mask k seeds mask' info, InFilter tileGridSize k →
      tile mask k seeds = .ok (mask', info) → Keeps mask mask') :
    ∀ (fuel : Nat) (mask mask' : QImage) (queue : List (TileId × List α)),
      (∀ e ∈ queue, InFilter tileGridSize e.1) →
      runRounds tile tileGridSize fuel mask queue = .ok mask' → Keeps mask mask' := by
  intro fuel
  induction fuel with
  | zero =>
    intro mask mask' queue _ h
    cases queue with
    | nil =>
      simp only [runRounds] at h
      rw [Except.ok.inj h]
      exact keeps_refl _
    | cons e q => simp [runRounds] at h
  | succ fuel ih =>
    intro mask mask' queue hq h
    cases queue with
    | nil =>
      simp only [runRounds] at h
      rw [Except.ok.inj h]
      exact keeps_refl _
    | cons e q =>
      simp only [runRounds] at h
      cases hr : runRound tile mask (e :: q) with
      | error e' => rw [hr] at h; cases h
      | ok r =>
        obtain ⟨m1, results⟩ := r
        rw [hr] at h
        simp only at h
        exact keeps_chain (runRound_keeps htile _ _ _ _ hq hr)
          (ih m1 mask' _ (fun e' he' => ((merge_exact tileGridSize results).2.1 e' he').1) h)

end KeepsRounds

end OnceCall

end FloodFill

namespace FloodFill

/-! ## What a call of `floodFillTile` files for the neighbouring tiles -/

section NaiveLight

variable {ts : QSize} {referenceImage : QImage} {originalSeedValue threshold : Nat}

theorem selectionValue_exists {d t : Nat} (h : d < t) : ∃ sel, selectionValue d t = .ok sel := by
  unfold selectionValue
  rw [if_neg (by omega)]
  exact ⟨_, rfl⟩

theorem floodFillTileStep_light {k : TileId} {td0 td : List TileData} {p : QPoint}
    {nodes : List QPoint} {info : TilePropagationInfo}
    (hW : 1 ≤ ts.width) (hH : 1 ≤ ts.height) (hk : InGrid ts referenceImage k)
    (inv : TileLight ts referenceImage k td0 td (p :: nodes) info) :
    ∃ td' info' nodes',
      floodFillTileStep ts originalSeedValue k referenceImage.rect
        (tileRectOf ts referenceImage.rect k) threshold td info p nodes =
        .ok (td', info', nodes') ∧
      TileLight ts referenceImage k td0 td' nodes' info' ∧
      4 * tileZeros td' + nodes'.length < 4 * tileZeros td + (p :: nodes).length := by
  have hok := tileOK_of_inGrid hk hW hH
  have hpR := inv.nodesIn p (List.mem_cons_self _ _)
  obtain ⟨i0, i1⟩ := tileIndex_range hok hpR
  have hlen : tileIndex ts (tileRectOf ts referenceImage.rect k) p < (td.length : Int) := by
    rw [inv.len]; exact i1
  have hlt : (tileIndex ts (tileRectOf ts referenceImage.rect k) p).toNat < td.length := by
    omega
  have ht := tileAt_eq i0 hlen
  have skip : TileLight ts referenceImage k td0 td nodes info ∧
      4 * tileZeros td + nodes.length < 4 * tileZeros td + (p :: nodes).length :=
    ⟨⟨inv.len, inv.marked, inv.frameTd,
      fun n hn => inv.nodesIn n (List.mem_cons_of_mem _ hn), inv.infoOK⟩, by simp⟩
  unfold floodFillTileStep
  unfold tileIndex at ht hlen i0 hlt
  rw [ht]
  simp only
  by_cases hm :
      (td.getD ((p.y - (tileRectOf ts referenceImage.rect k).top) * (ts.width : Int) +
        (p.x - (tileRectOf ts referenceImage.rect k).left)).toNat ⟨0, 0⟩).fillMaskPixel > 0
  · rw [if_pos hm]
    exact ⟨td, info, nodes, rfl, skip⟩
  rw [if_neg hm]
  by_cases hd : difference8
      (td.getD ((p.y - (tileRectOf ts referenceImage.rect k).top) * (ts.width : Int) +
        (p.x - (tileRectOf ts referenceImage.rect k).left)).toNat ⟨0, 0⟩).referencePixel
      originalSeedValue ≥ threshold
  · rw [if_pos hd]
    exact ⟨td, info, nodes, rfl, skip⟩
  rw [if_neg hd]
  obtain ⟨sel, hs⟩ := selectionValue_exists (Nat.lt_of_not_le hd)
  have hv := selectionValue_ne_zero hs (Nat.lt_of_not_le hd)
  rw [hs]
  simp only
  have hset := tileSetFillMask_eq sel i0 hlen
  rw [hset]
  simp only
  have hz : (td.getD ((p.y - (tileRectOf ts referenceImage.rect k).top) * (ts.width : Int) +
      (p.x - (tileRectOf ts referenceImage.rect k).left)).toNat ⟨0, 0⟩).fillMaskPixel = 0 := by
    omega
  have hstep : TileMarked td (td.set
      ((p.y - (tileRectOf ts referenceImage.rect k).top) * (ts.width : Int) +
        (p.x - (tileRectOf ts referenceImage.rect k).left)).toNat
      ⟨(td.getD ((p.y - (tileRectOf ts referenceImage.rect k).top) * (ts.width : Int) +
        (p.x - (tileRectOf ts referenceImage.rect k).left)).toNat ⟨0, 0⟩).referencePixel,
        sel⟩) := tileMark_marked ht hm hd hs hset
  have hz0 : (td0.getD (tileIndex ts (tileRectOf ts referenceImage.rect k) p).toNat
      ⟨0, 0⟩).fillMaskPixel = 0 := by
    by_contra hne
    have := (tileMarked_keeps inv.marked).2.2 _ hne
    unfold tileIndex at this hne
    rw [this] at hz
    exact hne hz
  have hself : ((td.set
      ((p.y - (tileRectOf ts referenceImage.rect k).top) * (ts.width : Int) +
        (p.x - (tileRectOf ts referenceImage.rect k).left)).toNat
      ⟨(td.getD ((p.y - (tileRectOf ts referenceImage.rect k).top) * (ts.width : Int) +
        (p.x - (tileRectOf ts referenceImage.rect k).left)).toNat ⟨0, 0⟩).referencePixel,
        sel⟩).getD (tileIndex ts (tileRectOf ts referenceImage.rect k) p).toNat
      ⟨0, 0⟩).fillMaskPixel ≠ 0 := by
    unfold tileIndex
    rw [getD_set_gen, if_pos ⟨rfl, hlt⟩]
    exact hv
  -- the marked pixel and its neighbour across an edge of the tile
  have hemit : ∀ key q, InGrid ts referenceImage key →
      (tileRectOf ts referenceImage.rect key).has q → adjacent p q →
      (key = ⟨k.x - 1, k.y⟩ ∨ key = ⟨k.x + 1, k.y⟩ ∨ key = ⟨k.x, k.y - 1⟩ ∨
        key = ⟨k.x, k.y + 1⟩) →
      EmittedPoint ts referenceImage k td0 (td.set
        ((p.y - (tileRectOf ts referenceImage.rect k).top) * (ts.width : Int) +
          (p.x - (tileRectOf ts referenceImage.rect k).left)).toNat
        ⟨(td.getD ((p.y - (tileRectOf ts referenceImage.rect k).top) * (ts.width : Int) +
          (p.x - (tileRectOf ts referenceImage.rect k).left)).toNat ⟨0, 0⟩).referencePixel,
          sel⟩) key q :=
    fun key q h1 h2 h3 h4 => ⟨h1, h2, h4, p, hpR, h3, hz0, hself⟩
  obtain ⟨p1, p2, p3, p4⟩ := hpR
  have hrect := rect_eq referenceImage
  have n0 : ∀ n ∈ nodes, (tileRectOf ts referenceImage.rect k).has n :=
    fun n hn => inv.nodesIn n (List.mem_cons_of_mem _ hn)
  have i0' : ∀ e ∈ info, ∀ a ∈ e.2, EmittedPoint ts referenceImage k td0 (td.set
        ((p.y - (tileRectOf ts referenceImage.rect k).top) * (ts.width : Int) +
          (p.x - (tileRectOf ts referenceImage.rect k).left)).toNat
        ⟨(td.getD ((p.y - (tileRectOf ts referenceImage.rect k).top) * (ts.width : Int) +
          (p.x - (tileRectOf ts referenceImage.rect k).left)).toNat ⟨0, 0⟩).referencePixel,
          sel⟩) e.1 a := by
    intro e he a ha
    obtain ⟨a1, a2, a3, p', a4, a5, a6, a7⟩ := inv.infoOK e he a ha
    refine ⟨a1, a2, a3, p', a4, a5, a6, ?_⟩
    rw [(tileMarked_keeps hstep).2.2 _ a7]
    exact a7
  have s1 := tileNeighbour_spec (decide (p.y > referenceImage.rect.top))
    (decide (p.y > (tileRectOf ts referenceImage.rect k).top)) ⟨p.x, p.y - 1⟩
    ⟨k.x, k.y - 1⟩ (nodes, info) n0 i0'
    (fun _ h2 => ⟨p1, p2, by have := of_decide_eq_true h2; simp only; omega,
      by simp only; omega⟩)
    (fun h1 h2 => by
      have h1' := of_decide_eq_true h1
      have h2' := of_decide_eq_false h2
      rw [hrect] at h1'
      have := emit_up hk hW hH ⟨p1, p2, p3, p4⟩ h1' h2'
      exact hemit _ _ this.1 this.2 (Or.inr ⟨rfl, Or.inr rfl⟩) (Or.inr (Or.inr (Or.inl rfl))))
  have s2 := tileNeighbour_spec (decide (p.y < referenceImage.rect.bottom))
    (decide (p.y < (tileRectOf ts referenceImage.rect k).bottom)) ⟨p.x, p.y + 1⟩
    ⟨k.x, k.y + 1⟩ _ s1.1 s1.2.1
    (fun _ h2 => ⟨p1, p2, by simp only; omega,
      by have := of_decide_eq_true h2; simp only; omega⟩)
    (fun h1 h2 => by
      have := emit_down hk hW hH ⟨p1, p2, p3, p4⟩ (of_decide_eq_true h1)
        (of_decide_eq_false h2)
      exact hemit _ _ this.1 this.2 (Or.inr ⟨rfl, Or.inl rfl⟩) (Or.inr (Or.inr (Or.inr rfl))))
  have s3 := tileNeighbour_spec (decide (p.x > referenceImage.rect.left))
    (decide (p.x > (tileRectOf ts referenceImage.rect k).left)) ⟨p.x - 1, p.y⟩
    ⟨k.x - 1, k.y⟩ _ s2.1 s2.2.1
    (fun _ h2 => ⟨by have := of_decide_eq_true h2; simp only; omega, by simp only; omega,
      p3, p4⟩)
    (fun h1 h2 => by
      have h1' := of_decide_eq_true h1
      have h2' := of_decide_eq_false h2
      rw [hrect] at h1'
      have := emit_left hk hW hH ⟨p1, p2, p3, p4⟩ h1' h2'
      exact hemit _ _ this.1 this.2 (Or.inl ⟨rfl, Or.inr rfl⟩) (Or.inl rfl))
  have s4 := tileNeighbour_spec (decide (p.x < referenceImage.rect.right))
    (decide (p.x < (tileRectOf ts referenceImage.rect k).right)) ⟨p.x + 1, p.y⟩
    ⟨k.x + 1, k.y⟩ _ s3.1 s3.2.1
    (fun _ h2 => ⟨by simp only; omega, by have := of_decide_eq_true h2; simp only; omega,
      p3, p4⟩)
    (fun h1 h2 => by
      have := emit_right hk hW hH ⟨p1, p2, p3, p4⟩ (of_decide_eq_true h1)
        (of_decide_eq_false h2)
      exact hemit _ _ this.1 this.2 (Or.inl ⟨rfl, Or.inl rfl⟩) (Or.inr (Or.inl rfl)))
  refine ⟨_, _, _, rfl, ⟨?_, tileMarked_chain inv.marked hstep, ?_, s4.1, s4.2.1⟩, ?_⟩
  · rw [List.length_set]; exact inv.len
  · intro j hj
    rw [getD_set_gen, if_neg (fun h => hj p ⟨p1, p2, p3, p4⟩ (by unfold tileIndex; exact h.1))]
    exact inv.frameTd j hj
  · have tz := tileZeros_set (r := (td.getD
        ((p.y - (tileRectOf ts referenceImage.rect k).top) * (ts.width : Int) +
          (p.x - (tileRectOf ts referenceImage.rect k).left)).toNat ⟨0, 0⟩).referencePixel)
      hlt hz hv
    have l1 := s1.2.2.1
    have l2 := s2.2.2.1
    have l3 := s3.2.2.1
    have l4 := s4.2.2.1
    simp only [List.length_cons] at l1 ⊢
    omega

theorem floodFillTileLoop_light {k : TileId} {td0 : List TileData}
    (hW : 1 ≤ ts.width) (hH : 1 ≤ ts.height) (hk : InGrid ts referenceImage k) :
    ∀ (fuel : Nat) (td : List TileData) (nodes : List QPoint) (info : TilePropagationInfo),
      TileLight ts referenceImage k td0 td nodes info →
      4 * tileZeros td + nodes.length ≤ fuel →
      ∃ td' info',
        floodFillTileLoop ts originalSeedValue k referenceImage.rect
          (tileRectOf ts referenceImage.rect k) threshold fuel td info nodes =
          .ok (td', info') ∧
        TileLight ts referenceImage k td0 td' [] info' := by
  intro fuel
  induction fuel with
  | zero =>
    intro td nodes info inv hf
    cases nodes with
    | nil => exact ⟨td, info, rfl, inv⟩
    | cons p nodes => simp at hf
  | succ fuel ih =>
    intro td nodes info inv hf
    cases nodes with
    | nil => exact ⟨td, info, rfl, inv⟩
    | cons p nodes =>
      obtain ⟨td1, info1, nodes1, hstep, inv1, hlt⟩ :=
        @floodFillTileStep_light ts referenceImage originalSeedValue threshold k td0 td p nodes
          info hW hH hk inv
      obtain ⟨td2, info2, hloop, inv2⟩ := ih td1 nodes1 info1 inv1 (by omega)
      refine ⟨td2, info2, ?_, inv2⟩
      simp only [floodFillTileLoop, hstep]
      exact hloop

/-- The bytes of the mask at the pixels of the tile, before and after a call whose loop
kept the cells of the working buffer outside the tile as they were copied in. -/
theorem call_pixels {k : TileId} {mask mask' : QImage} {td1 td0 td' : List TileData}
    (hW : 1 ≤ ts.width) (hH : 1 ≤ ts.height)
    (hw : referenceImage.width ≤ referenceImage.bytesPerLine)
    (hk : InGrid ts referenceImage k) (hg : SameGeometry referenceImage mask)
    (hcopy : copyFillMask ts mask (tileRectOf ts referenceImage.rect k) td1 = .ok td0)
    (hframe : ∀ j, (∀ p, (tileRectOf ts referenceImage.rect k).has p →
        (tileIndex ts (tileRectOf ts referenceImage.rect k) p).toNat ≠ j) →
      td'.getD j ⟨0, 0⟩ = td0.getD j ⟨0, 0⟩)
    (hrun : writeBack ts mask (tileRectOf ts referenceImage.rect k) td' = .ok mask') :
    SameGeometry referenceImage mask' ∧
      ∀ p, (tileRectOf ts referenceImage.rect k).has p →
        mask.pix p = (td0.getD (tileIndex ts (tileRectOf ts referenceImage.rect k) p).toNat
          ⟨0, 0⟩).fillMaskPixel ∧
        mask'.pix p = (td'.getD (tileIndex ts (tileRectOf ts referenceImage.rect k) p).toNat
          ⟨0, 0⟩).fillMaskPixel := by
  have hok := tileOK_of_inGrid hk hW hH
  obtain ⟨_, _, hcells⟩ := copyFillMask_spec hok hcopy
  have hsnap : ∀ c ∈ tileCells ts (tileRectOf ts referenceImage.rect k),
      (tileRectOf ts referenceImage.rect k).right - (tileRectOf ts referenceImage.rect k).left <
        c.2 →
      (td'.getD ((c.1 - (tileRectOf ts referenceImage.rect k).top) * (ts.width : Int) +
        c.2).toNat ⟨0, 0⟩).fillMaskPixel =
        mask.pix ⟨(tileRectOf ts referenceImage.rect k).left + c.2, c.1⟩ := by
    intro c hc hspill
    rw [hframe]
    · exact hcells c hc
    · intro p hp he
      have := cell_toNat_inj hok (has_cell hok hp) hc he
      rw [← this] at hspill
      simp only at hspill
      have := hp.2.1
      omega
  obtain ⟨g', hin, _⟩ := writeBack_spec hok hw hg hsnap hrun
  refine ⟨g', fun p hp => ⟨?_, hin p hp⟩⟩
  have hm := hcells _ (has_cell hok hp)
  simp only at hm
  have hpe : (⟨(tileRectOf ts referenceImage.rect k).left +
      (p.x - (tileRectOf ts referenceImage.rect k).left), p.y⟩ : QPoint) = p := by
    cases p; simp
  rw [hpe] at hm
  unfold tileIndex
  exact hm.symm

/-- Every point that a call of `floodFillTile` for a tile of the grid with seeds inside the
tile files for another tile: that tile is one of the four neighbours and lies in the grid,
its rectangle holds the point, and the point is next to a pixel of the calling tile that
the call has marked. The call ends with its result or leaves a buffer. -/
theorem floodFillTile_emits {k : TileId} {mask : QImage} {seeds : SeedPointList}
    (hW : 1 ≤ ts.width) (hH : 1 ≤ ts.height)
    (hw : referenceImage.width ≤ referenceImage.bytesPerLine)
    (hk : InGrid ts referenceImage k) (hg : SameGeometry referenceImage mask)
    (hseeds : ∀ s ∈ seeds, (tileRectOf ts referenceImage.rect k).has s) :
    OkOr (floodFillTile ts referenceImage mask seeds originalSeedValue k referenceImage.rect
        (tileRectOf ts referenceImage.rect k) threshold)
      (fun r => ∀ e ∈ r.2, ∀ q ∈ e.2,
        InGrid ts referenceImage e.1 ∧ (tileRectOf ts referenceImage.rect e.1).has q ∧
        (e.1 = ⟨k.x - 1, k.y⟩ ∨ e.1 = ⟨k.x + 1, k.y⟩ ∨ e.1 = ⟨k.x, k.y - 1⟩ ∨
          e.1 = ⟨k.x, k.y + 1⟩) ∧
        ∃ p, (tileRectOf ts referenceImage.rect k).has p ∧ adjacent p q ∧
          mask.pix p = 0 ∧ r.1.pix p ≠ 0) := by
  have hok := tileOK_of_inGrid hk hW hH
  unfold floodFillTile OkOr
  simp only
  cases h1 : copyReference ts referenceImage (tileRectOf ts referenceImage.rect k)
      (newTileData ts) with
  | error e => left; rw [copyReference_error h1]
  | ok td1 =>
    simp only
    cases h2 : copyFillMask ts mask (tileRectOf ts referenceImage.rect k) td1 with
    | error e => left; rw [copyFillMask_error h2]
    | ok td0 =>
      simp only
      obtain ⟨l1, _, _⟩ := copyReference_spec hok h1
      obtain ⟨l2, _, _⟩ := copyFillMask_spec hok h2
      have hlen : td0.length = ts.width * ts.height := by
        rw [l2, l1]; unfold newTileData; simp
      have inv0 : TileLight ts referenceImage k td0 td0 seeds.reverse
          [(⟨k.x - 1, k.y⟩, []), (⟨k.x + 1, k.y⟩, []), (⟨k.x, k.y - 1⟩, []),
            (⟨k.x, k.y + 1⟩, [])] := by
        refine ⟨hlen, TileMarked.refl _, fun _ _ => rfl,
          fun n hn => hseeds n (List.mem_reverse.1 hn), ?_⟩
        intro e he q hq
        simp only [List.mem_cons, List.mem_singleton, List.not_mem_nil, or_false] at he
        rcases he with rfl | rfl | rfl | rfl <;> simp at hq
      obtain ⟨td', info', hloop, inv'⟩ :=
        @floodFillTileLoop_light ts referenceImage originalSeedValue threshold k td0 hW hH hk
          (seeds.length + 4 * (ts.width * ts.height) + 1) td0 seeds.reverse _ inv0 (by
            have := tileZeros_le td0
            rw [hlen] at this
            simp only [List.length_reverse]
            omega)
      rw [hloop]
      simp only
      cases h3 : writeBack ts mask (tileRectOf ts referenceImage.rect k) td' with
      | error e => left; rw [writeBack_error h3]
      | ok mask' =>
        right
        refine ⟨_, rfl, ?_⟩
        obtain ⟨_, hpix⟩ := call_pixels hW hH hw hk hg h2 inv'.frameTd h3
        intro e he q hq
        obtain ⟨a1, a2, a3, p, a4, a5, a6, a7⟩ := inv'.infoOK e he q hq
        refine ⟨a1, a2, a3, p, a4, a5, ?_, ?_⟩
        · rw [(hpix p a4).1]; exact a6
        · simp only
          rw [(hpix p a4).2]; exact a7

end NaiveLight

end FloodFill

namespace FloodFill

/-! ## What a call of `floodFillTileScanLine` files for the neighbouring tiles -/

section ScanLightRow

variable {ts : QSize} {referenceImage : QImage} {originalSeedValue threshold : Nat}

/-- The cell of a point of the tile in a working buffer of full length. -/
theorem light_code {k : TileId} {td : List TileData} (hW : 1 ≤ ts.width) (hH : 1 ≤ ts.height)
    (hk : InGrid ts referenceImage k) (hlen : td.length = ts.width * ts.height) {p : QPoint}
    (hp : (tileRectOf ts referenceImage.rect k).has p) :
    0 ≤ (p.y - (tileRectOf ts referenceImage.rect k).top) * (ts.width : Int) +
        (p.x - (tileRectOf ts referenceImage.rect k).left) ∧
      (p.y - (tileRectOf ts referenceImage.rect k).top) * (ts.width : Int) +
        (p.x - (tileRectOf ts referenceImage.rect k).left) < (td.length : Int) ∧
      ((p.y - (tileRectOf ts referenceImage.rect k).top) * (ts.width : Int) +
        (p.x - (tileRectOf ts referenceImage.rect k).left)).toNat < td.length := by
  have hok := tileOK_of_inGrid hk hW hH
  obtain ⟨i0, i1⟩ := tileIndex_range hok hp
  unfold tileIndex at i0 i1
  rw [hlen]
  refine ⟨i0, i1, ?_⟩
  omega

/-- The marking of the cell of a point of the tile whose mask byte is 0. -/
theorem light_mark {k : TileId} {td : List TileData} (hW : 1 ≤ ts.width) (hH : 1 ≤ ts.height)
    (hk : InGrid ts referenceImage k) (hlen : td.length = ts.width * ts.height) {p : QPoint}
    (hp : (tileRectOf ts referenceImage.rect k).has p)
    (hm : ¬ (td.getD ((p.y - (tileRectOf ts referenceImage.rect k).top) * (ts.width : Int) +
      (p.x - (tileRectOf ts referenceImage.rect k).left)).toNat ⟨0, 0⟩).fillMaskPixel > 0)
    (hd : ¬ difference8
      (td.getD ((p.y - (tileRectOf ts referenceImage.rect k).top) * (ts.width : Int) +
        (p.x - (tileRectOf ts referenceImage.rect k).left)).toNat ⟨0, 0⟩).referencePixel
      originalSeedValue ≥ threshold) :
    ∃ sel td1,
      selectionValue (difference8
        (td.getD ((p.y - (tileRectOf ts referenceImage.rect k).top) * (ts.width : Int) +
          (p.x - (tileRectOf ts referenceImage.rect k).left)).toNat ⟨0, 0⟩).referencePixel
        originalSeedValue) threshold = .ok sel ∧
      tileSetFillMask td ((p.y - (tileRectOf ts referenceImage.rect k).top) * (ts.width : Int) +
        (p.x - (tileRectOf ts referenceImage.rect k).left)) sel = .ok td1 ∧
      td1.length = ts.width * ts.height ∧ TileMarked td td1 ∧
      tileZeros td1 + 1 = tileZeros td := by
  obtain ⟨i0, i1, i2⟩ := light_code hW hH hk hlen hp
  obtain ⟨sel, hs⟩ := selectionValue_exists (Nat.lt_of_not_le hd)
  have hv := selectionValue_ne_zero hs (Nat.lt_of_not_le hd)
  have hset := tileSetFillMask_eq sel i0 i1
  refine ⟨sel, _, hs, hset, by rw [List.length_set]; exact hlen,
    tileMark_marked (tileAt_eq i0 i1) hm hd hs hset, ?_⟩
  exact tileZeros_set i2 (by omega) hv

theorem tileScanRight_light {k : TileId} {span : Span}
    (hW : 1 ≤ ts.width) (hH : 1 ≤ ts.height) (hk : InGrid ts referenceImage k)
    (hy : (tileRectOf ts referenceImage.rect k).top ≤ span.y ∧
      span.y ≤ (tileRectOf ts referenceImage.rect k).bottom)
    (hdy : span.dy = 1 ∨ span.dy = -1) :
    ∀ (fuel : Nat) (td : List TileData) (info : TilePropagationInfoScanLine) (x2 : Int),
      td.length = ts.width * ts.height →
      (∀ e ∈ info, ∀ s ∈ e.2, EmittedSpan ts referenceImage k e.1 s) →
      (tileRectOf ts referenceImage.rect k).left ≤ x2 →
      x2 ≤ (tileRectOf ts referenceImage.rect k).right + 1 →
      ((tileRectOf ts referenceImage.rect k).right + 1 - x2).toNat + 1 ≤ fuel →
      ∃ td' info' x2',
        tileScanRight ts originalSeedValue k referenceImage.rect
          (tileRectOf ts referenceImage.rect k) threshold span fuel td info x2 =
          .ok (td', info', x2') ∧
        td'.length = ts.width * ts.height ∧ TileMarked td td' ∧
        (∀ e ∈ info', ∀ s ∈ e.2, EmittedSpan ts referenceImage k e.1 s) ∧
        x2 ≤ x2' ∧ x2' ≤ (tileRectOf ts referenceImage.rect k).right + 1 ∧
        tileZeros td' + (x2' - x2).toNat = tileZeros td := by
  have hok := tileOK_of_inGrid hk hW hH
  intro fuel
  induction fuel with
  | zero => intro td info x2 _ _ _ _ hf; omega
  | succ fuel ih =>
    intro td info x2 hlen hinfo hl hr hf
    have stop : ∃ td' info' x2',
        (Except.ok (td, info, x2) : Except Fault _) = .ok (td', info', x2') ∧
        td'.length = ts.width * ts.height ∧ TileMarked td td' ∧
        (∀ e ∈ info', ∀ s ∈ e.2, EmittedSpan ts referenceImage k e.1 s) ∧
        x2 ≤ x2' ∧ x2' ≤ (tileRectOf ts referenceImage.rect k).right + 1 ∧
        tileZeros td' + (x2' - x2).toNat = tileZeros td :=
      ⟨td, info, x2, rfl, hlen, TileMarked.refl _, hinfo, le_refl _, hr, by simp⟩
    unfold tileScanRight
    simp only
    by_cases hgl : x2 > referenceImage.rect.right
    · rw [if_pos hgl]
      exact stop
    rw [if_neg hgl]
    by_cases htl : x2 > (tileRectOf ts referenceImage.rect k).right
    · rw [if_pos htl]
      refine ⟨td, _, x2, rfl, hlen, TileMarked.refl _, ?_, le_refl _, hr, by simp⟩
      apply hashAppend_all hinfo
      intro s hs
      rw [List.mem_singleton.1 hs]
      have hp : (tileRectOf ts referenceImage.rect k).has ⟨x2 - 1, span.y⟩ :=
        ⟨by have := hok.leftRight; simp only; omega, by simp only; omega, hy.1, hy.2⟩
      obtain ⟨hk', hhas⟩ := emit_right hk hW hH hp (by simp only; omega) (by simp only; omega)
      simp only at hhas
      have hxx : x2 - 1 + 1 = x2 := by omega
      rw [hxx] at hhas
      obtain ⟨a1, a2, a3, a4⟩ := hhas
      exact ⟨hdy, Or.inl ⟨Or.inr rfl, hk', a1, le_refl _, a2, a3, a4, hdy⟩⟩
    rw [if_neg htl]
    have hpR : (tileRectOf ts referenceImage.rect k).has ⟨x2, span.y⟩ :=
      ⟨hl, by simp only; omega, hy.1, hy.2⟩
    obtain ⟨i0, i1, _⟩ := light_code hW hH hk hlen hpR
    simp only at i0 i1
    rw [tileAt_eq i0 i1]
    simp only
    by_cases hm : (td.getD ((span.y - (tileRectOf ts referenceImage.rect k).top) *
        (ts.width : Int) + (x2 - (tileRectOf ts referenceImage.rect k).left)).toNat
        ⟨0, 0⟩).fillMaskPixel > 0
    · rw [if_pos hm]
      exact stop
    rw [if_neg hm]
    by_cases hd : difference8 (td.getD ((span.y - (tileRectOf ts referenceImage.rect k).top) *
        (ts.width : Int) + (x2 - (tileRectOf ts referenceImage.rect k).left)).toNat
        ⟨0, 0⟩).referencePixel originalSeedValue ≥ threshold
    · rw [if_pos hd]
      exact stop
    rw [if_neg hd]
    obtain ⟨sel, td1, hs, hset, hlen1, hmk, tz1⟩ := light_mark hW hH hk hlen hpR hm hd
    simp only at hs hset
    rw [hs]
    simp only
    rw [hset]
    simp only
    obtain ⟨td2, info2, x2', hrun, hlen2, hmk2, hinfo2, b1, b2, tz2⟩ :=
      ih td1 info (x2 + 1) hlen1 hinfo (by omega) (by omega) (by omega)
    exact ⟨td2, info2, x2', hrun, hlen2, tileMarked_chain hmk hmk2, hinfo2, by omega, b2,
      by omega⟩

theorem tileScanLeft_light {k : TileId} {span : Span}
    (hW : 1 ≤ ts.width) (hH : 1 ≤ ts.height) (hk : InGrid ts referenceImage k)
    (hy : (tileRectOf ts referenceImage.rect k).top ≤ span.y ∧
      span.y ≤ (tileRectOf ts referenceImage.rect k).bottom)
    (hdy : span.dy = 1 ∨ span.dy = -1) :
    ∀ (fuel : Nat) (td : List TileData) (info : TilePropagationInfoScanLine) (x1 : Int),
      td.length = ts.width * ts.height →
      (∀ e ∈ info, ∀ s ∈ e.2, EmittedSpan ts referenceImage k e.1 s) →
      (tileRectOf ts referenceImage.rect k).left ≤ x1 →
      x1 ≤ (tileRectOf ts referenceImage.rect k).right →
      (x1 - (tileRectOf ts referenceImage.rect k).left).toNat + 1 ≤ fuel →
      ∃ td' info' x1',
        tileScanLeft ts originalSeedValue k referenceImage.rect
          (tileRectOf ts referenceImage.rect k) threshold span fuel td info x1 =
          .ok (td', info', x1') ∧
        td'.length = ts.width * ts.height ∧ TileMarked td td' ∧
        (∀ e ∈ info', ∀ s ∈ e.2, EmittedSpan ts referenceImage k e.1 s) ∧
        (tileRectOf ts referenceImage.rect k).left ≤ x1' ∧ x1' ≤ x1 ∧
        tileZeros td' + (x1 - x1').toNat = tileZeros td := by
  have hok := tileOK_of_inGrid hk hW hH
  intro fuel
  induction fuel with
  | zero => intro td info x1 _ _ _ _ hf; omega
  | succ fuel ih =>
    intro td info x1 hlen hinfo hl hr hf
    have stop : ∃ td' info' x1',
        (Except.ok (td, info, x1) : Except Fault _) = .ok (td', info', x1') ∧
        td'.length = ts.width * ts.height ∧ TileMarked td td' ∧
        (∀ e ∈ info', ∀ s ∈ e.2, EmittedSpan ts referenceImage k e.1 s) ∧
        (tileRectOf ts referenceImage.rect k).left ≤ x1' ∧ x1' ≤ x1 ∧
        tileZeros td' + (x1 - x1').toNat = tileZeros td :=
      ⟨td, info, x1, rfl, hlen, TileMarked.refl _, hinfo, hl, le_refl _, by simp⟩
    unfold tileScanLeft
    simp only
    by_cases hgl : x1 - 1 < referenceImage.rect.left
    · rw [if_pos hgl]
      exact stop
    rw [if_neg hgl]
    by_cases htl : x1 - 1 < (tileRectOf ts referenceImage.rect k).left
    · rw [if_pos htl]
      refine ⟨td, _, x1, rfl, hlen, TileMarked.refl _, ?_, hl, le_refl _, by simp⟩
      apply hashAppend_all hinfo
      intro s hs
      rw [List.mem_singleton.1 hs]
      rw [rect_eq] at hgl
      simp only at hgl
      have hp : (tileRectOf ts referenceImage.rect k).has ⟨x1, span.y⟩ :=
        ⟨hl, hr, hy.1, hy.2⟩
      obtain ⟨hk', hhas⟩ := emit_left hk hW hH hp (by simp only; omega) (by simp only; omega)
      simp only at hhas
      obtain ⟨a1, a2, a3, a4⟩ := hhas
      exact ⟨hdy, Or.inl ⟨Or.inl rfl, hk', a1, le_refl _, a2, a3, a4, hdy⟩⟩
    rw [if_neg htl]
    have hpR : (tileRectOf ts referenceImage.rect k).has ⟨x1 - 1, span.y⟩ :=
      ⟨by simp only; omega, by simp only; omega, hy.1, hy.2⟩
    obtain ⟨i0, i1, _⟩ := light_code hW hH hk hlen hpR
    simp only at i0 i1
    rw [tileAt_eq i0 i1]
    simp only
    by_cases hm : (td.getD ((span.y - (tileRectOf ts referenceImage.rect k).top) *
        (ts.width : Int) + (x1 - 1 - (tileRectOf ts referenceImage.rect k).left)).toNat
        ⟨0, 0⟩).fillMaskPixel > 0
    · rw [if_pos hm]
      exact stop
    rw [if_neg hm]
    by_cases hd : difference8 (td.getD ((span.y - (tileRectOf ts referenceImage.rect k).top) *
        (ts.width : Int) + (x1 - 1 - (tileRectOf ts referenceImage.rect k).left)).toNat
        ⟨0, 0⟩).referencePixel originalSeedValue ≥ threshold
    · rw [if_pos hd]
      exact stop
    rw [if_neg hd]
    obtain ⟨sel, td1, hs, hset, hlen1, hmk, tz1⟩ := light_mark hW hH hk hlen hpR hm hd
    simp only at hs hset
    rw [hs]
    simp only
    rw [hset]
    simp only
    obtain ⟨td2, info2, x1', hrun, hlen2, hmk2, hinfo2, b1, b2, tz2⟩ :=
      ih td1 info (x1 - 1) hlen1 hinfo (by omega) (by omega) (by omega)
    exact ⟨td2, info2, x1', hrun, hlen2, tileMarked_chain hmk hmk2, hinfo2, b1, by omega,
      by omega⟩

theorem tileScanSkip_light {k : TileId} {td : List TileData} {span : Span}
    (hW : 1 ≤ ts.width) (hH : 1 ≤ ts.height) (hk : InGrid ts referenceImage k)
    (hy : (tileRectOf ts referenceImage.rect k).top ≤ span.y ∧
      span.y ≤ (tileRectOf ts referenceImage.rect k).bottom)
    (hlen : td.length = ts.width * ts.height) :
    ∀ (fuel : Nat) (x2 : Int), (tileRectOf ts referenceImage.rect k).left ≤ x2 →
      (span.x2 - x2).toNat + 1 ≤ fuel →
      ∃ r, tileScanSkip ts originalSeedValue referenceImage.rect
          (tileRectOf ts referenceImage.rect k) threshold td span fuel x2 = .ok r ∧
        x2 ≤ r ∧ (r = x2 ∨ r ≤ span.x2) := by
  intro fuel
  induction fuel with
  | zero => intro x2 _ hf; omega
  | succ fuel ih =>
    intro x2 hl hf
    unfold tileScanSkip
    by_cases hc : x2 < span.x2 ∧ x2 ≤ referenceImage.rect.right ∧
        x2 ≤ (tileRectOf ts referenceImage.rect k).right
    · rw [if_pos hc]
      have hpR : (tileRectOf ts referenceImage.rect k).has ⟨x2, span.y⟩ :=
        ⟨hl, hc.2.2, hy.1, hy.2⟩
      obtain ⟨i0, i1, _⟩ := light_code hW hH hk hlen hpR
      simp only at i0 i1
      rw [tileAt_eq i0 i1]
      simp only
      split
      · obtain ⟨r, hr, r1, r2⟩ := ih (x2 + 1) (by omega) (by omega)
        exact ⟨r, hr, by omega, by omega⟩
      · exact ⟨x2, rfl, le_refl _, Or.inl rfl⟩
    · rw [if_neg hc]
      exact ⟨x2, rfl, le_refl _, Or.inl rfl⟩

end ScanLightRow

end FloodFill

namespace FloodFill

/-! ## `floodFillTileScanLine` for an arbitrary mask: the loop -/

section ScanLightLoop

variable {ts : QSize} {referenceImage : QImage} {originalSeedValue threshold : Nat}

/-- A child span on the row above or below a run of the tile, placed as lines 497-510
place it. -/
theorem child_place_light {k : TileId} (hk : InGrid ts referenceImage k) (hW : 1 ≤ ts.width)
    (hH : 1 ≤ ts.height) {y : Int} (s : Span)
    (hcols : (tileRectOf ts referenceImage.rect k).left ≤ s.x1 ∧ s.x1 ≤ s.x2 ∧
      s.x2 ≤ (tileRectOf ts referenceImage.rect k).right)
    (hy : (tileRectOf ts referenceImage.rect k).top ≤ y ∧
      y ≤ (tileRectOf ts referenceImage.rect k).bottom)
    (hy' : s.y = y + 1 ∨ s.y = y - 1) (hd : s.dy = 1 ∨ s.dy = -1)
    (info : TilePropagationInfoScanLine) (spans : List Span)
    (hinfo : ∀ e ∈ info, ∀ a ∈ e.2, EmittedSpan ts referenceImage k e.1 a)
    (hspans : ∀ a ∈ spans, SpanIn (tileRectOf ts referenceImage.rect k) a) :
    (∀ e ∈ (if s.y < (tileRectOf ts referenceImage.rect k).top then
          (hashAppend ⟨k.x, k.y - 1⟩ [s] info, spans)
        else if s.y > (tileRectOf ts referenceImage.rect k).bottom then
          (hashAppend ⟨k.x, k.y + 1⟩ [s] info, spans)
        else (info, s :: spans)).1, ∀ a ∈ e.2, EmittedSpan ts referenceImage k e.1 a) ∧
    (∀ a ∈ (if s.y < (tileRectOf ts referenceImage.rect k).top then
          (hashAppend ⟨k.x, k.y - 1⟩ [s] info, spans)
        else if s.y > (tileRectOf ts referenceImage.rect k).bottom then
          (hashAppend ⟨k.x, k.y + 1⟩ [s] info, spans)
        else (info, s :: spans)).2, SpanIn (tileRectOf ts referenceImage.rect k) a) ∧
    (if s.y < (tileRectOf ts referenceImage.rect k).top then
          (hashAppend ⟨k.x, k.y - 1⟩ [s] info, spans)
        else if s.y > (tileRectOf ts referenceImage.rect k).bottom then
          (hashAppend ⟨k.x, k.y + 1⟩ [s] info, spans)
        else (info, s :: spans)).2.length ≤ spans.length + 1 := by
  have hok := tileOK_of_inGrid hk hW hH
  have e := tileRectOf_eq hk hW hH
  have hH' : (1 : Int) ≤ ts.height := by exact_mod_cast hH
  by_cases hup : s.y < (tileRectOf ts referenceImage.rect k).top
  · rw [if_pos hup]
    refine ⟨?_, hspans, by simp⟩
    apply hashAppend_all hinfo
    intro a ha
    rw [List.mem_singleton.1 ha]
    refine ⟨hd, Or.inr ⟨Or.inl ⟨rfl, by omega⟩, hcols.1, hcols.2.1, hcols.2.2, ?_⟩⟩
    intro hk'
    rw [tileRectOf_eq hk' hW hH]
    rw [e] at hcols hy hup
    obtain ⟨k1, k2, k3, k4⟩ := hk
    obtain ⟨_, _, k3', _⟩ := hk'
    have hmul : (k.y - 1) * (ts.height : Int) = k.y * ts.height - ts.height := by ring
    have := hok.bottomH
    rw [e] at this
    simp only at hcols hy hup this k3' ⊢
    unfold SpanIn
    simp only
    rw [hmul]
    refine ⟨hcols.1, hcols.2.1, hcols.2.2, ?_, ?_, hd⟩ <;> omega
  rw [if_neg hup]
  by_cases hdown : s.y > (tileRectOf ts referenceImage.rect k).bottom
  · rw [if_pos hdown]
    refine ⟨?_, hspans, by simp⟩
    apply hashAppend_all hinfo
    intro a ha
    rw [List.mem_singleton.1 ha]
    refine ⟨hd, Or.inr ⟨Or.inr ⟨rfl, by omega⟩, hcols.1, hcols.2.1, hcols.2.2, ?_⟩⟩
    intro hk'
    rw [tileRectOf_eq hk' hW hH]
    rw [e] at hcols hy hdown
    obtain ⟨k1, k2, k3, k4⟩ := hk
    obtain ⟨_, _, _, k4'⟩ := hk'
    have hmul : (k.y + 1) * (ts.height : Int) = k.y * ts.height + ts.height := by ring
    simp only at hcols hy hdown k4' ⊢
    unfold SpanIn
    simp only
    rw [hmul] at k4' ⊢
    refine ⟨hcols.1, hcols.2.1, hcols.2.2, ?_, ?_, hd⟩ <;> omega
  rw [if_neg hdown]
  refine ⟨hinfo, ?_, by simp⟩
  intro a ha
  rcases List.mem_cons.1 ha with rfl | ha
  · exact ⟨hcols.1, hcols.2.1, hcols.2.2, by omega, by omega, hd⟩
  · exact hspans a ha

theorem tileScanChildren_light {k : TileId} (hk : InGrid ts referenceImage k)
    (hW : 1 ≤ ts.width) (hH : 1 ≤ ts.height) (span : Span) (x1 x2 : Int)
    (hcols : (tileRectOf ts referenceImage.rect k).left ≤ x1 ∧ x1 < x2 ∧
      x2 - 1 ≤ (tileRectOf ts referenceImage.rect k).right)
    (hy : (tileRectOf ts referenceImage.rect k).top ≤ span.y ∧
      span.y ≤ (tileRectOf ts referenceImage.rect k).bottom)
    (hdy : span.dy = 1 ∨ span.dy = -1)
    (info : TilePropagationInfoScanLine) (spans : List Span)
    (hinfo : ∀ e ∈ info, ∀ a ∈ e.2, EmittedSpan ts referenceImage k e.1 a)
    (hspans : ∀ a ∈ spans, SpanIn (tileRectOf ts referenceImage.rect k) a) :
    (∀ e ∈ (tileScanChildren k (tileRectOf ts referenceImage.rect k) span x1 x2 info spans).1,
      ∀ a ∈ e.2, EmittedSpan ts referenceImage k e.1 a) ∧
    (∀ a ∈ (tileScanChildren k (tileRectOf ts referenceImage.rect k) span x1 x2 info spans).2,
      SpanIn (tileRectOf ts referenceImage.rect k) a) ∧
    (tileScanChildren k (tileRectOf ts referenceImage.rect k) span x1 x2 info spans).2.length ≤
      spans.length + 2 := by
  have c1 := child_place_light hk hW hH (y := span.y)
    ⟨x1, x2 - 1, span.y - span.dy, -span.dy⟩ ⟨hcols.1, by simp only; omega, hcols.2.2⟩ hy
    (by simp only; omega) (by simp only; omega) info spans hinfo hspans
  simp only at c1
  generalize hr1 : (if span.y - span.dy < (tileRectOf ts referenceImage.rect k).top then
          (hashAppend ⟨k.x, k.y - 1⟩ [(⟨x1, x2 - 1, span.y - span.dy, -span.dy⟩ : Span)] info,
            spans)
        else if span.y - span.dy > (tileRectOf ts referenceImage.rect k).bottom then
          (hashAppend ⟨k.x, k.y + 1⟩ [(⟨x1, x2 - 1, span.y - span.dy, -span.dy⟩ : Span)] info,
            spans)
        else (info, (⟨x1, x2 - 1, span.y - span.dy, -span.dy⟩ : Span) :: spans)) = r1 at c1
  obtain ⟨info1, spans1⟩ := r1
  have c2 := child_place_light hk hW hH (y := span.y)
    ⟨x1, x2 - 1, span.y + span.dy, span.dy⟩ ⟨hcols.1, by simp only; omega, hcols.2.2⟩ hy
    (by simp only; omega) hdy info1 spans1 c1.1 c1.2.1
  simp only at c2
  unfold tileScanChildren
  simp only
  rw [hr1]
  simp only
  refine ⟨c2.1, c2.2.1, ?_⟩
  have := c1.2.2
  have := c2.2.2
  simp only at *
  omega

theorem tileScanOuter_light {k : TileId} {td0 : List TileData} {span : Span}
    (hW : 1 ≤ ts.width) (hH : 1 ≤ ts.height) (hk : InGrid ts referenceImage k)
    (hspan : SpanIn (tileRectOf ts referenceImage.rect k) span) :
    ∀ (fuel : Nat) (td : List TileData) (info : TilePropagationInfoScanLine)
      (spans : List Span) (x1 x2 : Int),
      ScanLight ts referenceImage k td0 td spans info →
      (tileRectOf ts referenceImage.rect k).left ≤ x1 → x1 ≤ x2 → span.x1 ≤ x2 →
      (x1 < x2 → x2 ≤ span.x2) →
      (span.x2 - x2 + 1).toNat + 1 ≤ fuel →
      ∃ td' info' spans',
        tileScanOuter ts originalSeedValue k referenceImage.rect
          (tileRectOf ts referenceImage.rect k) threshold span fuel td info spans x1 x2 =
          .ok (td', info', spans') ∧
        ScanLight ts referenceImage k td0 td' spans' info' ∧
        2 * tileZeros td' + spans'.length ≤
          2 * tileZeros td + spans.length + (if x1 < x2 then 2 else 0) := by
  obtain ⟨s1, s2, s3, s4, s5, s6⟩ := hspan
  intro fuel
  induction fuel with
  | zero => intro td info spans x1 x2 _ _ _ _ _ hf; omega
  | succ fuel ih =>
    intro td info spans x1 x2 inv hl h12 hs2 hrange hf
    unfold tileScanOuter
    by_cases hle : x2 ≤ span.x2
    · rw [if_pos hle]
      obtain ⟨td1, info1, x2', hrun, hlen1, hmk1, hinfo1, b1, b2, tz1⟩ :=
        @tileScanRight_light ts referenceImage originalSeedValue threshold k span hW hH hk
          ⟨s4, s5⟩ s6 ((tileRectOf ts referenceImage.rect k).right + 1 - x2).toNat.succ td info
          x2 inv.len inv.infoOK (by omega) (by omega) (Nat.le_refl _)
      rw [hrun]
      simp only
      have hch : ∃ info2 spans2,
          (if x2' > x1 then
              tileScanChildren k (tileRectOf ts referenceImage.rect k) span x1 x2' info1 spans
            else (info1, spans)) = (info2, spans2) ∧
          (∀ e ∈ info2, ∀ a ∈ e.2, EmittedSpan ts referenceImage k e.1 a) ∧
          (∀ a ∈ spans2, SpanIn (tileRectOf ts referenceImage.rect k) a) ∧
          spans2.length ≤ spans.length + (if x2' > x1 then 2 else 0) := by
        by_cases hc : x2' > x1
        · rw [if_pos hc, if_pos hc]
          have c := tileScanChildren_light hk hW hH span x1 x2' ⟨hl, hc, by omega⟩ ⟨s4, s5⟩ s6
            info1 spans hinfo1 inv.spansIn
          exact ⟨_, _, rfl, c.1, c.2.1, c.2.2⟩
        · rw [if_neg hc, if_neg hc]
          exact ⟨info1, spans, rfl, hinfo1, inv.spansIn, by simp⟩
      obtain ⟨info2, spans2, hch1, hinfo2, hspans2, hlen2⟩ := hch
      rw [hch1]
      simp only
      obtain ⟨r, hskip, r1, r2⟩ :=
        @tileScanSkip_light ts referenceImage originalSeedValue threshold k td1 span hW hH hk
          ⟨s4, s5⟩ hlen1 (span.x2 - (x2' + 1)).toNat.succ (x2' + 1) (by omega) (Nat.le_refl _)
      rw [hskip]
      simp only
      obtain ⟨td3, info3, spans3, hrec, inv3, pot3⟩ :=
        ih td1 info2 spans2 r r ⟨hlen1, tileMarked_chain inv.marked hmk1, hspans2, hinfo2⟩
          (by omega) (le_refl _) (by omega) (fun h => by omega) (by omega)
      refine ⟨td3, info3, spans3, hrec, inv3, ?_⟩
      rw [if_neg (lt_irrefl r)] at pot3
      split at hlen2 <;> split <;> omega
    · rw [if_neg hle]
      exact ⟨td, info, spans, rfl, inv, by omega⟩

theorem floodFillTileScanLineStep_light {k : TileId} {td0 td : List TileData} {span : Span}
    {spans : List Span} {info : TilePropagationInfoScanLine}
    (hW : 1 ≤ ts.width) (hH : 1 ≤ ts.height) (hk : InGrid ts referenceImage k)
    (inv : ScanLight ts referenceImage k td0 td (span :: spans) info) :
    ∃ td' info' spans',
      floodFillTileScanLineStep ts originalSeedValue k referenceImage.rect
        (tileRectOf ts referenceImage.rect k) threshold td info span spans =
        .ok (td', info', spans') ∧
      ScanLight ts referenceImage k td0 td' spans' info' ∧
      2 * tileZeros td' + spans'.length < 2 * tileZeros td + (span :: spans).length := by
  have hok := tileOK_of_inGrid hk hW hH
  have hin := inv.spansIn span (List.mem_cons_self _ _)
  have hspans : ∀ s ∈ spans, SpanIn (tileRectOf ts referenceImage.rect k) s :=
    fun s hs => inv.spansIn s (List.mem_cons_of_mem _ hs)
  obtain ⟨s1, s2, s3, s4, s5, s6⟩ := hin
  have hpR : (tileRectOf ts referenceImage.rect k).has ⟨span.x1, span.y⟩ :=
    ⟨s1, by simp only; omega, s4, s5⟩
  obtain ⟨i0, i1, _⟩ := light_code hW hH hk inv.len hpR
  simp only at i0 i1
  unfold floodFillTileScanLineStep
  have hrow : ¬ (span.y < referenceImage.rect.top ∨ span.y > referenceImage.rect.bottom) := by
    rw [rect_eq]
    simp only
    have := hok.top0
    have := hok.bottomH
    omega
  rw [if_neg hrow, tileAt_eq i0 i1]
  simp only
  by_cases hc : (td.getD ((span.y - (tileRectOf ts referenceImage.rect k).top) *
        (ts.width : Int) + (span.x1 - (tileRectOf ts referenceImage.rect k).left)).toNat
        ⟨0, 0⟩).fillMaskPixel = 0 ∧
      qAbs (td.getD ((span.y - (tileRectOf ts referenceImage.rect k).top) *
        (ts.width : Int) + (span.x1 - (tileRectOf ts referenceImage.rect k).left)).toNat
        ⟨0, 0⟩).referencePixel originalSeedValue < threshold
  · rw [if_pos hc]
    obtain ⟨td1, info1, x1', hrun, hlen1, hmk1, hinfo1, b1, b2, tz1⟩ :=
      @tileScanLeft_light ts referenceImage originalSeedValue threshold k span hW hH hk
        ⟨s4, s5⟩ s6 (span.x1 - (tileRectOf ts referenceImage.rect k).left).toNat.succ.succ td
        info span.x1 inv.len inv.infoOK s1 (by omega) (Nat.le_succ _)
    rw [hrun]
    simp only
    obtain ⟨td2, info2, spans2, hrun2, inv2, pot2⟩ :=
      @tileScanOuter_light ts referenceImage originalSeedValue threshold k td0 span hW hH hk
        ⟨s1, s2, s3, s4, s5, s6⟩ (span.x2 - span.x1 + 1).toNat.succ td1 info1 spans x1'
        span.x1 ⟨hlen1, tileMarked_chain inv.marked hmk1, hspans, hinfo1⟩ b1 b2 (le_refl _)
        (fun _ => s2) (Nat.le_refl _)
    refine ⟨td2, info2, spans2, hrun2, inv2, ?_⟩
    simp only [List.length_cons]
    split at pot2 <;> omega
  · rw [if_neg hc]
    simp only
    obtain ⟨td2, info2, spans2, hrun2, inv2, pot2⟩ :=
      @tileScanOuter_light ts referenceImage originalSeedValue threshold k td0 span hW hH hk
        ⟨s1, s2, s3, s4, s5, s6⟩ (span.x2 - span.x1 + 1).toNat.succ td info spans span.x1
        span.x1 ⟨inv.len, inv.marked, hspans, inv.infoOK⟩ s1 (le_refl _) (le_refl _)
        (fun h => by omega) (Nat.le_refl _)
    refine ⟨td2, info2, spans2, hrun2, inv2, ?_⟩
    rw [if_neg (lt_irrefl _)] at pot2
    simp only [List.length_cons]
    omega

theorem floodFillTileScanLineLoop_light {k : TileId} {td0 : List TileData}
    (hW : 1 ≤ ts.width) (hH : 1 ≤ ts.height) (hk : InGrid ts referenceImage k) :
    ∀ (fuel : Nat) (td : List TileData) (spans : List Span)
      (info : TilePropagationInfoScanLine),
      ScanLight ts referenceImage k td0 td spans info →
      2 * tileZeros td + spans.length ≤ fuel →
      ∃ td' info',
        floodFillTileScanLineLoop ts originalSeedValue k referenceImage.rect
          (tileRectOf ts referenceImage.rect k) threshold fuel td info spans =
          .ok (td', info') ∧
        ScanLight ts referenceImage k td0 td' [] info' := by
  intro fuel
  induction fuel with
  | zero =>
    intro td spans info inv hf
    cases spans with
    | nil => exact ⟨td, info, rfl, inv⟩
    | cons p spans => simp at hf
  | succ fuel ih =>
    intro td spans info inv hf
    cases spans with
    | nil => exact ⟨td, info, rfl, inv⟩
    | cons p spans =>
      obtain ⟨td1, info1, spans1, hstep, inv1, hlt⟩ :=
        @floodFillTileScanLineStep_light ts referenceImage originalSeedValue threshold k td0 td
          p spans info hW hH hk inv
      obtain ⟨td2, info2, hloop, inv2⟩ := ih td1 spans1 info1 inv1 (by omega)
      refine ⟨td2, info2, ?_, inv2⟩
      simp only [floodFillTileScanLineLoop, hstep]
      exact hloop

/-- Every span that a call of `floodFillTileScanLine` for a tile of the grid with seed
spans inside the tile files for another tile is as `EmittedSpan` says. The call ends with
its result or leaves a buffer. -/
theorem floodFillTileScanLine_emits {k : TileId} {mask : QImage} {seeds : SeedSpanList}
    (hW : 1 ≤ ts.width) (hH : 1 ≤ ts.height) (hk : InGrid ts referenceImage k)
    (hseeds : ∀ s ∈ seeds, SpanIn (tileRectOf ts referenceImage.rect k) s) :
    OkOr (floodFillTileScanLine ts referenceImage mask seeds originalSeedValue k
        referenceImage.rect (tileRectOf ts referenceImage.rect k) threshold)
      (fun r => ∀ e ∈ r.2, ∀ s ∈ e.2, EmittedSpan ts referenceImage k e.1 s) := by
  have hok := tileOK_of_inGrid hk hW hH
  unfold floodFillTileScanLine OkOr
  simp only
  cases h1 : copyReference ts referenceImage (tileRectOf ts referenceImage.rect k)
      (newTileData ts) with
  | error e => left; rw [copyReference_error h1]
  | ok td1 =>
    simp only
    cases h2 : copyFillMask ts mask (tileRectOf ts referenceImage.rect k) td1 with
    | error e => left; rw [copyFillMask_error h2]
    | ok td0 =>
      simp only
      obtain ⟨l1, _, _⟩ := copyReference_spec hok h1
      obtain ⟨l2, _, _⟩ := copyFillMask_spec hok h2
      have hlen : td0.length = ts.width * ts.height := by
        rw [l2, l1]; unfold newTileData; simp
      have inv0 : ScanLight ts referenceImage k td0 td0 seeds.reverse [] :=
        ⟨hlen, TileMarked.refl _, fun s hs => hseeds s (List.mem_reverse.1 hs),
          fun e he => by simp at he⟩
      obtain ⟨td', info', hloop, inv'⟩ :=
        @floodFillTileScanLineLoop_light ts referenceImage originalSeedValue threshold k td0
          hW hH hk (seeds.length + 2 * (ts.width * ts.height) + 1) td0 seeds.reverse _ inv0 (by
            have := tileZeros_le td0
            rw [hlen] at this
            simp only [List.length_reverse]
            omega)
      rw [hloop]
      simp only
      cases h3 : writeBack ts mask (tileRectOf ts referenceImage.rect k) td' with
      | error e => left; rw [writeBack_error h3]
      | ok mask' =>
        right
        exact ⟨_, rfl, inv'.infoOK⟩

/-- A span filed by the worker lies in the columns of the image; its row is a row of the
image exactly when its tile is a tile of the grid, and then it lies in that tile. -/
theorem emittedSpan_global {k key : TileId} {s : Span} (hW : 1 ≤ ts.width)
    (hH : 1 ≤ ts.height) (hk : InGrid ts referenceImage k)
    (h : EmittedSpan ts referenceImage k key s) :
    referenceImage.rect.left ≤ s.x1 ∧ s.x1 ≤ s.x2 ∧ s.x2 ≤ referenceImage.rect.right ∧
      (InGrid ts referenceImage key ↔
        referenceImage.rect.top ≤ s.y ∧ s.y ≤ referenceImage.rect.bottom) ∧
      (InGrid ts referenceImage key → SpanIn (tileRectOf ts referenceImage.rect key) s) := by
  have hok := tileOK_of_inGrid hk hW hH
  have hH' : (1 : Int) ≤ ts.height := by exact_mod_cast hH
  have r1 : referenceImage.rect.left = 0 := by rw [rect_eq]
  have r2 : referenceImage.rect.right = (referenceImage.width : Int) - 1 := by rw [rect_eq]
  have r3 : referenceImage.rect.top = 0 := by rw [rect_eq]
  have r4 : referenceImage.rect.bottom = (referenceImage.height : Int) - 1 := by rw [rect_eq]
  rw [r1, r2, r3, r4]
  obtain ⟨_, h | h⟩ := h
  · obtain ⟨_, hkey, a1, a2, a3, a4, a5, a6⟩ := h
    have hok' := tileOK_of_inGrid hkey hW hH
    have := hok'.left0; have := hok'.rightW; have := hok'.top0; have := hok'.bottomH
    exact ⟨by omega, a2, by omega, ⟨fun _ => ⟨by omega, by omega⟩, fun _ => hkey⟩,
      fun _ => ⟨a1, a2, a3, a4, a5, a6⟩⟩
  · obtain ⟨hrow, c1, c2, c3, hin⟩ := h
    have := hok.left0; have := hok.rightW; have := hok.top0; have := hok.bottomH
    have e := tileRectOf_eq hk hW hH
    obtain ⟨k1, k2, k3, k4⟩ := hk
    refine ⟨by omega, c2, by omega, ?_, hin⟩
    rw [e] at hrow
    simp only at hrow
    rcases hrow with ⟨rfl, hy⟩ | ⟨rfl, hy⟩
    · unfold InGrid
      simp only
      have hmul : (k.y - 1) * (ts.height : Int) = k.y * ts.height - ts.height := by ring
      rw [hmul]
      constructor
      · intro ⟨_, _, h3, _⟩
        have h1 : 1 ≤ k.y := by omega
        have : 1 * (ts.height : Int) ≤ k.y * ts.height :=
          Int.mul_le_mul_of_nonneg_right h1 (by omega)
        rw [one_mul] at this
        omega
      · intro ⟨h1, _⟩
        refine ⟨k1, k2, ?_, by omega⟩
        by_contra hn
        have h0 : k.y = 0 := by omega
        rw [h0] at hy
        simp at hy
        omega
    · unfold InGrid
      simp only
      have hmul : (k.y + 1) * (ts.height : Int) = k.y * ts.height + ts.height := by ring
      rw [hmul]
      constructor
      · intro ⟨_, _, _, h4⟩
        have hp : 0 ≤ k.y * (ts.height : Int) := Int.mul_nonneg k3 (by omega)
        omega
      · intro ⟨_, h2⟩
        exact ⟨k1, k2, by omega, by omega⟩

end ScanLightLoop

end FloodFill

namespace FloodFill

/-! ## Closure of the marked pixels: the vocabulary -/

section Closure

variable {ts : QSize} {referenceImage : QImage} {seedValue threshold : Nat}
  {X : QPoint → Prop}

theorem front_weaken {M E E' : QPoint → Prop}
    (h : Front referenceImage X M E)
    (hE : ∀ q, referenceImage.inImage q → E q →
      M q ∨ X q ∨ E' q) :
    Front referenceImage X M E' := by
  intro p q hp hq hadj hm
  rcases h p q hp hq hadj hm with h1 | h1 | h1
  · exact Or.inl h1
  · exact Or.inr (Or.inl h1)
  · exact hE q hq h1

theorem front_congr {M M' E : QPoint → Prop}
    (h : Front referenceImage X M E)
    (hM : ∀ p, referenceImage.inImage p → (M p ↔ M' p)) :
    Front referenceImage X M' E := by
  intro p q hp hq hadj hm
  rcases h p q hp hq hadj ((hM p hp).2 hm) with h1 | h1 | h1
  · exact Or.inl ((hM q hq).1 h1)
  · exact Or.inr (Or.inl h1)
  · exact Or.inr (Or.inr h1)

/-- Marking the pixel `p` keeps the closure, for a pending set that accounts for the
neighbours of `p`. -/
theorem front_mark {M M' E E' : QPoint → Prop}
    (h : Front referenceImage X M E) (p : QPoint)
    (hM : ∀ a, M' a ↔ a = p ∨ M a)
    (hE : ∀ q, referenceImage.inImage q → E q → q = p ∨ E' q)
    (hN : ∀ q, referenceImage.inImage q → adjacent p q →
      M q ∨ X q ∨ E' q) :
    Front referenceImage X M' E' := by
  intro a q ha hq hadj hm
  have lift : (M q ∨ X q ∨ E' q) → (M' q ∨ X q ∨ E' q) := by
    rintro (h1 | h1 | h1)
    · exact Or.inl ((hM q).2 (Or.inr h1))
    · exact Or.inr (Or.inl h1)
    · exact Or.inr (Or.inr h1)
  rcases (hM a).1 hm with rfl | hm
  · exact lift (hN q hq hadj)
  · rcases h a q ha hq hadj hm with h1 | h1 | h1
    · exact lift (Or.inl h1)
    · exact Or.inr (Or.inl h1)
    · rcases hE q hq h1 with rfl | h2
      · exact Or.inl ((hM q).2 (Or.inl rfl))
      · exact Or.inr (Or.inr h2)

theorem pending_hashAppend_old {α : Type} {Cov : α → QPoint → Prop} (key : TileId)
    (values : List α) {info : List (TileId × List α)} {q : QPoint}
    (h : Pending Cov info q) : Pending Cov (hashAppend key values info) q := by
  obtain ⟨e, he, a, ha, hc⟩ := h
  induction info with
  | nil => simp at he
  | cons hd tl ih =>
    obtain ⟨k, l⟩ := hd
    simp only [hashAppend]
    by_cases hk : k = key
    · rw [if_pos hk]
      rcases List.mem_cons.1 he with rfl | he
      · exact ⟨(k, l ++ values), List.mem_cons_self _ _, a, List.mem_append_left _ ha, hc⟩
      · exact ⟨e, List.mem_cons_of_mem _ he, a, ha, hc⟩
    · rw [if_neg hk]
      rcases List.mem_cons.1 he with rfl | he
      · exact ⟨(k, l), List.mem_cons_self _ _, a, ha, hc⟩
      · obtain ⟨e', he', a', ha', hc'⟩ := ih he
        exact ⟨e', List.mem_cons_of_mem _ he', a', ha', hc'⟩

theorem pending_hashAppend_new {α : Type} {Cov : α → QPoint → Prop} (key : TileId)
    {values : List α} (info : List (TileId × List α)) {q : QPoint} {a : α}
    (ha : a ∈ values) (hc : Cov a q) : Pending Cov (hashAppend key values info) q := by
  induction info with
  | nil => exact ⟨(key, values), by simp [hashAppend], a, ha, hc⟩
  | cons hd tl ih =>
    obtain ⟨k, l⟩ := hd
    simp only [hashAppend]
    by_cases hk : k = key
    · rw [if_pos hk]
      exact ⟨(k, l ++ values), List.mem_cons_self _ _, a, List.mem_append_right _ ha, hc⟩
    · rw [if_neg hk]
      obtain ⟨e', he', a', ha', hc'⟩ := ih
      exact ⟨e', List.mem_cons_of_mem _ he', a', ha', hc'⟩

/-- The cell of a pixel of the tile: the read of the code, and what its tests say. -/
theorem closure_code {tileRect : QRect} {mask : QImage} {td0 td : List TileData}
    (hwf : referenceImage.WF) (hsv : seedValue < 256)
    (hok : TileOK ts referenceImage tileRect)
    (buf : TileBuf ts referenceImage tileRect td0 td) {p : QPoint} (hp : tileRect.has p) :
    tileAt td ((p.y - tileRect.top) * (ts.width : Int) + (p.x - tileRect.left)) =
        .ok (td.getD ((p.y - tileRect.top) * (ts.width : Int) +
          (p.x - tileRect.left)).toNat ⟨0, 0⟩) ∧
      ((td.getD ((p.y - tileRect.top) * (ts.width : Int) +
          (p.x - tileRect.left)).toNat ⟨0, 0⟩).fillMaskPixel > 0 ↔
        TileSees ts tileRect mask td p) ∧
      (difference8 (td.getD ((p.y - tileRect.top) * (ts.width : Int) +
          (p.x - tileRect.left)).toNat ⟨0, 0⟩).referencePixel seedValue ≥ threshold ↔
        ¬ includable referenceImage seedValue threshold p) ∧
      (qAbs (td.getD ((p.y - tileRect.top) * (ts.width : Int) +
          (p.x - tileRect.left)).toNat ⟨0, 0⟩).referencePixel seedValue < threshold ↔
        includable referenceImage seedValue threshold p) := by
  obtain ⟨i0, i1⟩ := tileIndex_range hok hp
  have hr := buf.refs p hp
  unfold tileIndex at i0 i1 hr
  have hlen : (p.y - tileRect.top) * (ts.width : Int) + (p.x - tileRect.left) <
      (td.length : Int) := by rw [buf.len]; exact i1
  refine ⟨tileAt_eq i0 hlen, ?_, ?_, ?_⟩
  · unfold TileSees tileIndex
    constructor
    · intro h; exact Or.inl ⟨hp, by omega⟩
    · rintro (⟨_, h⟩ | ⟨h, _⟩)
      · omega
      · exact absurd hp h
  · rw [hr, difference8_eq (pix_lt_256 hwf p) hsv]
    unfold includable
    omega
  · rw [hr]
    unfold includable
    exact Iff.rfl

/-- Marking the cell of a pixel of the tile. -/
theorem closure_set {tileRect : QRect} {mask : QImage} {td0 td td1 : List TileData}
    (hok : TileOK ts referenceImage tileRect)
    (buf : TileBuf ts referenceImage tileRect td0 td) {p : QPoint} (hp : tileRect.has p)
    {v : Nat} (hv : v ≠ 0)
    (hset : tileSetFillMask td
      ((p.y - tileRect.top) * (ts.width : Int) + (p.x - tileRect.left)) v = .ok td1) :
    TileBuf ts referenceImage tileRect td0 td1 ∧
      ∀ a, TileSees ts tileRect mask td1 a ↔ a = p ∨ TileSees ts tileRect mask td a := by
  obtain ⟨i0, i1⟩ := tileIndex_range hok hp
  obtain ⟨_, hlt, rfl⟩ := tileSetFillMask_ok hset
  have hr := buf.refs p hp
  unfold tileIndex at i0 i1 hr
  have hlt' : ((p.y - tileRect.top) * (ts.width : Int) + (p.x - tileRect.left)).toNat <
      td.length := by omega
  constructor
  · refine ⟨by rw [List.length_set]; exact buf.len, ?_, ?_⟩
    · intro a ha
      rw [getD_set_gen]
      by_cases he : ((p.y - tileRect.top) * (ts.width : Int) + (p.x - tileRect.left)).toNat =
          (tileIndex ts tileRect a).toNat
      · rw [if_pos ⟨he, hlt'⟩]
        have hpa : p = a := tileIndex_inj hok hp ha (by unfold tileIndex at he ⊢; exact he)
        simp only
        rw [hr, hpa]
      · rw [if_neg (fun h => he h.1)]
        exact buf.refs a ha
    · intro j hj
      rw [getD_set_gen]
      have hne : ((p.y - tileRect.top) * (ts.width : Int) + (p.x - tileRect.left)).toNat ≠ j :=
        hj p hp
      rw [if_neg (fun h => hne h.1)]
      exact buf.frame j hj
  · intro a
    unfold TileSees
    by_cases ha : tileRect.has a
    · by_cases hpa : a = p
      · subst hpa
        constructor
        · intro _; exact Or.inl rfl
        · intro _
          refine Or.inl ⟨ha, ?_⟩
          unfold tileIndex
          rw [getD_set_gen, if_pos ⟨rfl, hlt'⟩]
          exact hv
      · have hne : ((p.y - tileRect.top) * (ts.width : Int) + (p.x - tileRect.left)).toNat ≠
            (tileIndex ts tileRect a).toNat := by
          intro he
          exact hpa (tileIndex_inj hok hp ha (by unfold tileIndex at he ⊢; exact he)).symm
        rw [getD_set_gen, if_neg (fun h => hne h.1)]
        constructor
        · intro h; exact Or.inr h
        · rintro (h | h)
          · exact absurd h hpa
          · exact h
    · have hpa : a ≠ p := fun h => ha (h ▸ hp)
      constructor
      · rintro (⟨h, _⟩ | h)
        · exact absurd h ha
        · exact Or.inr (Or.inr h)
      · rintro (h | ⟨h, _⟩ | h)
        · exact absurd h hpa
        · exact absurd h ha
        · exact Or.inr h

end Closure

end FloodFill

namespace FloodFill

/-! ## `floodFillTile` keeps the marked pixels closed -/

section NaiveClose

variable {ts : QSize} {referenceImage : QImage} {seedValue threshold : Nat}
  {X : QPoint → Prop}

theorem tileNeighbour_closes (inGlobal inTile : Bool) (q : QPoint) (key : TileId)
    (state : List QPoint × TilePropagationInfo) :
    (∀ n ∈ state.1, n ∈ (tileNeighbour inGlobal inTile q key state).1) ∧
      (∀ x, Pending pointCov state.2 x →
        Pending pointCov (tileNeighbour inGlobal inTile q key state).2 x) ∧
      (inGlobal = true → q ∈ (tileNeighbour inGlobal inTile q key state).1 ∨
        Pending pointCov (tileNeighbour inGlobal inTile q key state).2 q) := by
  unfold tileNeighbour
  cases inGlobal with
  | false => exact ⟨fun n h => h, fun x h => h, fun h => by cases h⟩
  | true =>
    cases inTile with
    | true =>
      exact ⟨fun n h => List.mem_cons_of_mem _ h, fun x h => h,
        fun _ => Or.inl (List.mem_cons_self _ _)⟩
    | false =>
      exact ⟨fun n h => h, fun x h => pending_hashAppend_old key [q] h,
        fun _ => Or.inr (pending_hashAppend_new key _ (List.mem_singleton.2 rfl) rfl)⟩

theorem floodFillTileStep_closes {k : TileId} {mask : QImage} {td0 td td' : List TileData}
    {p : QPoint} {nodes nodes' : List QPoint} {info info' : TilePropagationInfo}
    {Pend : QPoint → Prop}
    (hwf : referenceImage.WF) (hsv : seedValue < 256) (hW : 1 ≤ ts.width)
    (hH : 1 ≤ ts.height) (hk : InGrid ts referenceImage k)
    (buf : TileBuf ts referenceImage (tileRectOf ts referenceImage.rect k) td0 td)
    (hX : ∀ q, (tileRectOf ts referenceImage.rect k).has q →
      ¬ includable referenceImage seedValue threshold q → X q)
    (hnodes : ∀ n ∈ p :: nodes, (tileRectOf ts referenceImage.rect k).has n)
    (front : Front referenceImage X
      (TileSees ts (tileRectOf ts referenceImage.rect k) mask td)
      (fun q => Pend q ∨ q ∈ p :: nodes ∨ Pending pointCov info q))
    (h : floodFillTileStep ts seedValue k referenceImage.rect
      (tileRectOf ts referenceImage.rect k) threshold td info p nodes =
      .ok (td', info', nodes')) :
    TileBuf ts referenceImage (tileRectOf ts referenceImage.rect k) td0 td' ∧
      (∀ n ∈ nodes', (tileRectOf ts referenceImage.rect k).has n) ∧
      Front referenceImage X
        (TileSees ts (tileRectOf ts referenceImage.rect k) mask td')
        (fun q => Pend q ∨ q ∈ nodes' ∨ Pending pointCov info' q) := by
  have hok := tileOK_of_inGrid hk hW hH
  have hpR := hnodes p (List.mem_cons_self _ _)
  have n0 : ∀ n ∈ nodes, (tileRectOf ts referenceImage.rect k).has n :=
    fun n hn => hnodes n (List.mem_cons_of_mem _ hn)
  obtain ⟨c1, c2, c3, _⟩ := @closure_code ts referenceImage seedValue threshold _ mask td0 td
    hwf hsv hok buf p hpR
  have skip : (TileSees ts (tileRectOf ts referenceImage.rect k) mask td p ∨ X p) →
      Front referenceImage X
        (TileSees ts (tileRectOf ts referenceImage.rect k) mask td)
        (fun q => Pend q ∨ q ∈ nodes ∨ Pending pointCov info q) := by
    intro hdone
    apply front_weaken front
    intro q _ hq
    rcases hq with hq | hq | hq
    · exact Or.inr (Or.inr (Or.inl hq))
    · rcases List.mem_cons.1 hq with rfl | hq
      · rcases hdone with hd | hd
        · exact Or.inl hd
        · exact Or.inr (Or.inl hd)
      · exact Or.inr (Or.inr (Or.inr (Or.inl hq)))
    · exact Or.inr (Or.inr (Or.inr (Or.inr hq)))
  unfold floodFillTileStep at h
  rw [c1] at h
  simp only at h
  by_cases hm : (td.getD ((p.y - (tileRectOf ts referenceImage.rect k).top) * (ts.width : Int) +
      (p.x - (tileRectOf ts referenceImage.rect k).left)).toNat ⟨0, 0⟩).fillMaskPixel > 0
  · rw [if_pos hm] at h
    simp only [Except.ok.injEq, Prod.mk.injEq] at h
    obtain ⟨rfl, rfl, rfl⟩ := h
    exact ⟨buf, n0, skip (Or.inl (c2.1 hm))⟩
  rw [if_neg hm] at h
  by_cases hd : difference8
      (td.getD ((p.y - (tileRectOf ts referenceImage.rect k).top) * (ts.width : Int) +
        (p.x - (tileRectOf ts referenceImage.rect k).left)).toNat ⟨0, 0⟩).referencePixel
      seedValue ≥ threshold
  · rw [if_pos hd] at h
    simp only [Except.ok.injEq, Prod.mk.injEq] at h
    obtain ⟨rfl, rfl, rfl⟩ := h
    exact ⟨buf, n0, skip (Or.inr (hX p hpR (c3.1 hd)))⟩
  rw [if_neg hd] at h
  obtain ⟨sel, hs⟩ := selectionValue_exists (Nat.lt_of_not_le hd)
  have hv := selectionValue_ne_zero hs (Nat.lt_of_not_le hd)
  rw [hs] at h
  simp only at h
  cases hset : tileSetFillMask td
      ((p.y - (tileRectOf ts referenceImage.rect k).top) * (ts.width : Int) +
        (p.x - (tileRectOf ts referenceImage.rect k).left)) sel with
  | error e => rw [hset] at h; cases h
  | ok td1 =>
    rw [hset] at h
    simp only [Except.ok.injEq, Prod.mk.injEq] at h
    obtain ⟨rfl, rfl, rfl⟩ := h
    obtain ⟨buf1, hsees⟩ := @closure_set ts referenceImage _ mask td0 td td1 hok buf p hpR sel
      hv hset
    obtain ⟨p1, p2, p3, p4⟩ := hpR
    have hrect := rect_eq referenceImage
    have s1 := @tileNeighbour_spec (tileRectOf ts referenceImage.rect k).has
      (fun _ _ => True) (decide (p.y > referenceImage.rect.top))
      (decide (p.y > (tileRectOf ts referenceImage.rect k).top)) ⟨p.x, p.y - 1⟩
      ⟨k.x, k.y - 1⟩ (nodes, info) n0 (fun _ _ _ _ => trivial)
      (fun _ h2 => ⟨p1, p2, by have := of_decide_eq_true h2; simp only; omega,
        by simp only; omega⟩) (fun _ _ => trivial)
    have t1 := tileNeighbour_closes (decide (p.y > referenceImage.rect.top))
      (decide (p.y > (tileRectOf ts referenceImage.rect k).top)) ⟨p.x, p.y - 1⟩
      ⟨k.x, k.y - 1⟩ (nodes, info)
    have s2 := @tileNeighbour_spec (tileRectOf ts referenceImage.rect k).has
      (fun _ _ => True) (decide (p.y < referenceImage.rect.bottom))
      (decide (p.y < (tileRectOf ts referenceImage.rect k).bottom)) ⟨p.x, p.y + 1⟩
      ⟨k.x, k.y + 1⟩ _ s1.1 (fun _ _ _ _ => trivial)
      (fun _ h2 => ⟨p1, p2, by simp only; omega,
        by have := of_decide_eq_true h2; simp only; omega⟩) (fun _ _ => trivial)
    have t2 := tileNeighbour_closes (decide (p.y < referenceImage.rect.bottom))
      (decide (p.y < (tileRectOf ts referenceImage.rect k).bottom)) ⟨p.x, p.y + 1⟩
      ⟨k.x, k.y + 1⟩
      (tileNeighbour (decide (p.y > referenceImage.rect.top))
        (decide (p.y > (tileRectOf ts referenceImage.rect k).top)) ⟨p.x, p.y - 1⟩
        ⟨k.x, k.y - 1⟩ (nodes, info))
    have s3 := @tileNeighbour_spec (tileRectOf ts referenceImage.rect k).has
      (fun _ _ => True) (decide (p.x > referenceImage.rect.left))
      (decide (p.x > (tileRectOf ts referenceImage.rect k).left)) ⟨p.x - 1, p.y⟩
      ⟨k.x - 1, k.y⟩ _ s2.1 (fun _ _ _ _ => trivial)
      (fun _ h2 => ⟨by have := of_decide_eq_true h2; simp only; omega, by simp only; omega,
        p3, p4⟩) (fun _ _ => trivial)
    have t3 := tileNeighbour_closes (decide (p.x > referenceImage.rect.left))
      (decide (p.x > (tileRectOf ts referenceImage.rect k).left)) ⟨p.x - 1, p.y⟩
      ⟨k.x - 1, k.y⟩
      (tileNeighbour (decide (p.y < referenceImage.rect.bottom))
        (decide (p.y < (tileRectOf ts referenceImage.rect k).bottom)) ⟨p.x, p.y + 1⟩
        ⟨k.x, k.y + 1⟩
        (tileNeighbour (decide (p.y > referenceImage.rect.top))
          (decide (p.y > (tileRectOf ts referenceImage.rect k).top)) ⟨p.x, p.y - 1⟩
          ⟨k.x, k.y - 1⟩ (nodes, info)))
    have s4 := @tileNeighbour_spec (tileRectOf ts referenceImage.rect k).has
      (fun _ _ => True) (decide (p.x < referenceImage.rect.right))
      (decide (p.x < (tileRectOf ts referenceImage.rect k).right)) ⟨p.x + 1, p.y⟩
      ⟨k.x + 1, k.y⟩ _ s3.1 (fun _ _ _ _ => trivial)
      (fun _ h2 => ⟨by simp only; omega, by have := of_decide_eq_true h2; simp only; omega,
        p3, p4⟩) (fun _ _ => trivial)
    have t4 := tileNeighbour_closes (decide (p.x < referenceImage.rect.right))
      (decide (p.x < (tileRectOf ts referenceImage.rect k).right)) ⟨p.x + 1, p.y⟩
      ⟨k.x + 1, k.y⟩
      (tileNeighbour (decide (p.x > referenceImage.rect.left))
        (decide (p.x > (tileRectOf ts referenceImage.rect k).left)) ⟨p.x - 1, p.y⟩
        ⟨k.x - 1, k.y⟩
        (tileNeighbour (decide (p.y < referenceImage.rect.bottom))
          (decide (p.y < (tileRectOf ts referenceImage.rect k).bottom)) ⟨p.x, p.y + 1⟩
          ⟨k.x, k.y + 1⟩
          (tileNeighbour (decide (p.y > referenceImage.rect.top))
            (decide (p.y > (tileRectOf ts referenceImage.rect k).top)) ⟨p.x, p.y - 1⟩
            ⟨k.x, k.y - 1⟩ (nodes, info))))
    refine ⟨buf1, s4.1, ?_⟩
    -- what one block has pushed or filed, the later blocks keep
    have keep1 : ∀ x, (x ∈ (tileNeighbour (decide (p.y > referenceImage.rect.top))
          (decide (p.y > (tileRectOf ts referenceImage.rect k).top)) ⟨p.x, p.y - 1⟩
          ⟨k.x, k.y - 1⟩ (nodes, info)).1 ∨
        Pending pointCov (tileNeighbour (decide (p.y > referenceImage.rect.top))
          (decide (p.y > (tileRectOf ts referenceImage.rect k).top)) ⟨p.x, p.y - 1⟩
          ⟨k.x, k.y - 1⟩ (nodes, info)).2 x) → _ ∨ _ :=
      fun x hx => hx.elim (fun h => Or.inl (t2.1 x h)) (fun h => Or.inr (t2.2.1 x h))
    have keep2 : ∀ x, (x ∈ (tileNeighbour (decide (p.y < referenceImage.rect.bottom))
          (decide (p.y < (tileRectOf ts referenceImage.rect k).bottom)) ⟨p.x, p.y + 1⟩
          ⟨k.x, k.y + 1⟩
          (tileNeighbour (decide (p.y > referenceImage.rect.top))
            (decide (p.y > (tileRectOf ts referenceImage.rect k).top)) ⟨p.x, p.y - 1⟩
            ⟨k.x, k.y - 1⟩ (nodes, info))).1 ∨
        Pending pointCov (tileNeighbour (decide (p.y < referenceImage.rect.bottom))
          (decide (p.y < (tileRectOf ts referenceImage.rect k).bottom)) ⟨p.x, p.y + 1⟩
          ⟨k.x, k.y + 1⟩
          (tileNeighbour (decide (p.y > referenceImage.rect.top))
            (decide (p.y > (tileRectOf ts referenceImage.rect k).top)) ⟨p.x, p.y - 1⟩
            ⟨k.x, k.y - 1⟩ (nodes, info))).2 x) → _ ∨ _ :=
      fun x hx => hx.elim (fun h => Or.inl (t3.1 x h)) (fun h => Or.inr (t3.2.1 x h))
    have keep3 : ∀ x, (x ∈ (tileNeighbour (decide (p.x > referenceImage.rect.left))
          (decide (p.x > (tileRectOf ts referenceImage.rect k).left)) ⟨p.x - 1, p.y⟩
          ⟨k.x - 1, k.y⟩
          (tileNeighbour (decide (p.y < referenceImage.rect.bottom))
            (decide (p.y < (tileRectOf ts referenceImage.rect k).bottom)) ⟨p.x, p.y + 1⟩
            ⟨k.x, k.y + 1⟩
            (tileNeighbour (decide (p.y > referenceImage.rect.top))
              (decide (p.y > (tileRectOf ts referenceImage.rect k).top)) ⟨p.x, p.y - 1⟩
              ⟨k.x, k.y - 1⟩ (nodes, info)))).1 ∨
        Pending pointCov (tileNeighbour (decide (p.x > referenceImage.rect.left))
          (decide (p.x > (tileRectOf ts referenceImage.rect k).left)) ⟨p.x - 1, p.y⟩
          ⟨k.x - 1, k.y⟩
          (tileNeighbour (decide (p.y < referenceImage.rect.bottom))
            (decide (p.y < (tileRectOf ts referenceImage.rect k).bottom)) ⟨p.x, p.y + 1⟩
            ⟨k.x, k.y + 1⟩
            (tileNeighbour (decide (p.y > referenceImage.rect.top))
              (decide (p.y > (tileRectOf ts referenceImage.rect k).top)) ⟨p.x, p.y - 1⟩
              ⟨k.x, k.y - 1⟩ (nodes, info)))).2 x) → _ ∨ _ :=
      fun x hx => hx.elim (fun h => Or.inl (t4.1 x h)) (fun h => Or.inr (t4.2.1 x h))
    apply front_mark front p hsees
    · intro q _ hq
      rcases hq with hq | hq | hq
      · exact Or.inr (Or.inl hq)
      · rcases List.mem_cons.1 hq with rfl | hq
        · exact Or.inl rfl
        · exact Or.inr (Or.inr (keep3 q (keep2 q (keep1 q (Or.inl (t1.1 q hq))))))
      · exact Or.inr (Or.inr (keep3 q (keep2 q (keep1 q (Or.inr (t1.2.1 q hq))))))
    · intro q hq hadj
      obtain ⟨q1, q2, q3, q4⟩ := hq
      refine Or.inr (Or.inr (Or.inr ?_))
      unfold adjacent at hadj
      rcases hadj with ⟨hy, hx | hx⟩ | ⟨hx, hy | hy⟩
      · have hq' : q = ⟨p.x + 1, p.y⟩ := QPoint.eq_mk hx hy
        rw [hq']
        exact t4.2.2 (decide_eq_true (by rw [hrect]; simp only; omega))
      · have hq' : q = ⟨p.x - 1, p.y⟩ := QPoint.eq_mk hx hy
        rw [hq']
        exact keep3 _ (t3.2.2 (decide_eq_true (by rw [hrect]; simp only; omega)))
      · have hq' : q = ⟨p.x, p.y + 1⟩ := QPoint.eq_mk hx hy
        rw [hq']
        exact keep3 _ (keep2 _ (t2.2.2 (decide_eq_true (by rw [hrect]; simp only; omega))))
      · have hq' : q = ⟨p.x, p.y - 1⟩ := QPoint.eq_mk hx hy
        rw [hq']
        exact keep3 _ (keep2 _ (keep1 _
          (t1.2.2 (decide_eq_true (by rw [hrect]; simp only; omega)))))

theorem floodFillTileLoop_closes {k : TileId} {mask : QImage} {td0 : List TileData}
    (Pend : QPoint → Prop)
    (hwf : referenceImage.WF) (hsv : seedValue < 256) (hW : 1 ≤ ts.width)
    (hH : 1 ≤ ts.height) (hk : InGrid ts referenceImage k)
    (hX : ∀ q, (tileRectOf ts referenceImage.rect k).has q →
      ¬ includable referenceImage seedValue threshold q → X q) :
    ∀ (fuel : Nat) (td : List TileData) (info : TilePropagationInfo) (nodes : List QPoint)
      (td' : List TileData) (info' : TilePropagationInfo),
      TileBuf ts referenceImage (tileRectOf ts referenceImage.rect k) td0 td →
      (∀ n ∈ nodes, (tileRectOf ts referenceImage.rect k).has n) →
      Front referenceImage X
        (TileSees ts (tileRectOf ts referenceImage.rect k) mask td)
        (fun q => Pend q ∨ q ∈ nodes ∨ Pending pointCov info q) →
      floodFillTileLoop ts seedValue k referenceImage.rect
        (tileRectOf ts referenceImage.rect k) threshold fuel td info nodes = .ok (td', info') →
      TileBuf ts referenceImage (tileRectOf ts referenceImage.rect k) td0 td' ∧
        Front referenceImage X
          (TileSees ts (tileRectOf ts referenceImage.rect k) mask td')
          (fun q => Pend q ∨ Pending pointCov info' q) := by
  intro fuel
  have done : ∀ (td : List TileData) (info : TilePropagationInfo),
      Front referenceImage X
        (TileSees ts (tileRectOf ts referenceImage.rect k) mask td)
        (fun q => Pend q ∨ q ∈ ([] : List QPoint) ∨ Pending pointCov info q) →
      Front referenceImage X
        (TileSees ts (tileRectOf ts referenceImage.rect k) mask td)
        (fun q => Pend q ∨ Pending pointCov info q) := by
    intro td info hf
    apply front_weaken hf
    intro q _ hq
    rcases hq with hq | hq | hq
    · exact Or.inr (Or.inr (Or.inl hq))
    · simp at hq
    · exact Or.inr (Or.inr (Or.inr hq))
  induction fuel with
  | zero =>
    intro td info nodes td' info' buf hn hf h
    cases nodes with
    | nil =>
      simp only [floodFillTileLoop, Except.ok.injEq, Prod.mk.injEq] at h
      obtain ⟨rfl, rfl⟩ := h
      exact ⟨buf, done _ _ hf⟩
    | cons p nodes => simp [floodFillTileLoop] at h
  | succ fuel ih =>
    intro td info nodes td' info' buf hn hf h
    cases nodes with
    | nil =>
      simp only [floodFillTileLoop, Except.ok.injEq, Prod.mk.injEq] at h
      obtain ⟨rfl, rfl⟩ := h
      exact ⟨buf, done _ _ hf⟩
    | cons p nodes =>
      simp only [floodFillTileLoop] at h
      cases hstep : floodFillTileStep ts seedValue k referenceImage.rect
          (tileRectOf ts referenceImage.rect k) threshold td info p nodes with
      | error e => rw [hstep] at h; cases h
      | ok r =>
        obtain ⟨td1, info1, nodes1⟩ := r
        rw [hstep] at h
        simp only at h
        obtain ⟨buf1, hn1, hf1⟩ := floodFillTileStep_closes hwf hsv hW hH hk buf hX hn hf hstep
        exact ih td1 info1 nodes1 td' info' buf1 hn1 hf1 h

end NaiveClose

end FloodFill

namespace FloodFill

/-! ## A call of `floodFillTile` keeps the marked pixels closed -/

section NaiveCall

variable {ts : QSize} {referenceImage : QImage} {seedValue threshold : Nat}
  {X : QPoint → Prop}

theorem okOr_ok {α : Type} {r : Except Fault α} {P : α → Prop} {a : α} (h : OkOr r P)
    (hr : r = .ok a) : P a := by
  rcases h with h | ⟨b, hb, hp⟩
  · rw [hr] at h; cases h
  · rw [hr] at hb
    cases hb
    exact hp

/-- The working buffer after the two copy loops. -/
theorem copyIn_buf {k : TileId} (mask : QImage) {td1 td0 : List TileData}
    (hW : 1 ≤ ts.width) (hH : 1 ≤ ts.height) (hk : InGrid ts referenceImage k)
    (h1 : copyReference ts referenceImage (tileRectOf ts referenceImage.rect k)
      (newTileData ts) = .ok td1)
    (h2 : copyFillMask ts mask (tileRectOf ts referenceImage.rect k) td1 = .ok td0) :
    TileBuf ts referenceImage (tileRectOf ts referenceImage.rect k) td0 td0 ∧
      ∀ p, TileSees ts (tileRectOf ts referenceImage.rect k) mask td0 p ↔ mask.pix p ≠ 0 := by
  have hok := tileOK_of_inGrid hk hW hH
  obtain ⟨l1, _, r1⟩ := copyReference_spec hok h1
  obtain ⟨l2, r2, m2⟩ := copyFillMask_spec hok h2
  have hpe : ∀ p : QPoint, (⟨(tileRectOf ts referenceImage.rect k).left +
      (p.x - (tileRectOf ts referenceImage.rect k).left), p.y⟩ : QPoint) = p := by
    intro p; cases p; simp
  refine ⟨⟨?_, ?_, fun _ _ => rfl⟩, ?_⟩
  · rw [l2, l1]; unfold newTileData; simp
  · intro p hp
    have hr := r1 _ (has_cell hok hp)
    simp only at hr
    rw [hpe] at hr
    unfold tileIndex
    rw [r2]
    exact hr
  · intro p
    unfold TileSees
    by_cases hp : (tileRectOf ts referenceImage.rect k).has p
    · have hm := m2 _ (has_cell hok hp)
      simp only at hm
      rw [hpe] at hm
      unfold tileIndex
      rw [hm]
      constructor
      · rintro (⟨_, h⟩ | ⟨h, _⟩)
        · exact h
        · exact absurd hp h
      · intro h; exact Or.inl ⟨hp, h⟩
    · constructor
      · rintro (⟨h, _⟩ | ⟨_, h⟩)
        · exact absurd h hp
        · exact h
      · intro h; exact Or.inr ⟨hp, h⟩

/-- The mask after the write-back, pixel by pixel. -/
theorem writeBack_sees {k : TileId} {mask mask' : QImage} {td1 td0 td' : List TileData}
    (hW : 1 ≤ ts.width) (hH : 1 ≤ ts.height)
    (hw : referenceImage.width ≤ referenceImage.bytesPerLine)
    (hk : InGrid ts referenceImage k) (hg : SameGeometry referenceImage mask)
    (hcopy : copyFillMask ts mask (tileRectOf ts referenceImage.rect k) td1 = .ok td0)
    (buf : TileBuf ts referenceImage (tileRectOf ts referenceImage.rect k) td0 td')
    (hrun : writeBack ts mask (tileRectOf ts referenceImage.rect k) td' = .ok mask') :
    ∀ p, referenceImage.inImage p →
      (TileSees ts (tileRectOf ts referenceImage.rect k) mask td' p ↔ mask'.pix p ≠ 0) := by
  have hok := tileOK_of_inGrid hk hW hH
  obtain ⟨_, _, hcells⟩ := copyFillMask_spec hok hcopy
  have hsnap : ∀ c ∈ tileCells ts (tileRectOf ts referenceImage.rect k),
      (tileRectOf ts referenceImage.rect k).right - (tileRectOf ts referenceImage.rect k).left <
        c.2 →
      (td'.getD ((c.1 - (tileRectOf ts referenceImage.rect k).top) * (ts.width : Int) +
        c.2).toNat ⟨0, 0⟩).fillMaskPixel =
        mask.pix ⟨(tileRectOf ts referenceImage.rect k).left + c.2, c.1⟩ := by
    intro c hc hspill
    rw [buf.frame]
    · exact hcells c hc
    · intro p hp he
      have := cell_toNat_inj hok (has_cell hok hp) hc he
      rw [← this] at hspill
      simp only at hspill
      have := hp.2.1
      omega
  obtain ⟨g', hin, hout⟩ := writeBack_spec hok hw hg hsnap hrun
  intro p hpi
  unfold TileSees
  by_cases hp : (tileRectOf ts referenceImage.rect k).has p
  · rw [hin p hp]
    constructor
    · rintro (⟨_, h⟩ | ⟨h, _⟩)
      · exact h
      · exact absurd hp h
    · intro h; exact Or.inl ⟨hp, h⟩
  · have he : mask'.pix p = mask.pix p := by
      unfold QImage.pix
      rw [offset_geometry g'.2.2.1 p, offset_geometry hg.2.2.1 p]
      apply hout
      intro a ha he
      apply hp
      have hai := has_inImage hok ha
      have h1 := offset_nonneg hai
      have h2 := offset_nonneg hpi
      have : a = p := offset_inj hai hpi hw (by omega)
      rw [← this]
      exact ha
    rw [he]
    constructor
    · rintro (⟨h, _⟩ | ⟨_, h⟩)
      · exact absurd h hp
      · exact h
    · intro h; exact Or.inr ⟨hp, h⟩

/-- A call of `floodFillTile` for a tile of the grid with seeds inside the tile keeps the
marked pixels closed: the seeds of the call are settled, and what is pending after the call
are the points that the call has filed for tiles of the grid. -/
theorem floodFillTile_closes {k : TileId} {mask mask' : QImage} {seeds : SeedPointList}
    {info : TilePropagationInfo}
    (hwf : referenceImage.WF) (hsv : seedValue < 256) (hW : 1 ≤ ts.width)
    (hH : 1 ≤ ts.height) (hk : InGrid ts referenceImage k)
    (hg : SameGeometry referenceImage mask)
    (hX : ∀ q, (tileRectOf ts referenceImage.rect k).has q →
      ¬ includable referenceImage seedValue threshold q → X q)
    (hseeds : ∀ s ∈ seeds, (tileRectOf ts referenceImage.rect k).has s)
    (h : floodFillTile ts referenceImage mask seeds seedValue k referenceImage.rect
      (tileRectOf ts referenceImage.rect k) threshold = .ok (mask', info)) :
    TileCloses referenceImage X (tileGridSizeOf ts referenceImage.rect)
      pointCov mask seeds mask' info := by
  have hemit := okOr_ok (@floodFillTile_emits ts referenceImage seedValue threshold k mask
    seeds hW hH hwf.2.1 hk hg hseeds) h
  simp only at hemit
  intro Pend front
  unfold floodFillTile at h
  simp only at h
  cases h1 : copyReference ts referenceImage (tileRectOf ts referenceImage.rect k)
      (newTileData ts) with
  | error e => rw [h1] at h; cases h
  | ok td1 =>
    rw [h1] at h
    simp only at h
    cases h2 : copyFillMask ts mask (tileRectOf ts referenceImage.rect k) td1 with
    | error e => rw [h2] at h; cases h
    | ok td0 =>
      rw [h2] at h
      simp only at h
      cases h3 : floodFillTileLoop ts seedValue k referenceImage.rect
          (tileRectOf ts referenceImage.rect k) threshold
          (seeds.length + 4 * (ts.width * ts.height) + 1) td0
          [(⟨k.x - 1, k.y⟩, []), (⟨k.x + 1, k.y⟩, []), (⟨k.x, k.y - 1⟩, []),
            (⟨k.x, k.y + 1⟩, [])] seeds.reverse with
      | error e => rw [h3] at h; cases h
      | ok r =>
        obtain ⟨td', info'⟩ := r
        rw [h3] at h
        simp only at h
        cases h4 : writeBack ts mask (tileRectOf ts referenceImage.rect k) td' with
        | error e => rw [h4] at h; cases h
        | ok m =>
          rw [h4] at h
          simp only [Except.ok.injEq, Prod.mk.injEq] at h
          obtain ⟨rfl, rfl⟩ := h
          obtain ⟨buf0, hsees0⟩ := copyIn_buf mask hW hH hk h1 h2
          have front0 : Front referenceImage X
              (TileSees ts (tileRectOf ts referenceImage.rect k) mask td0)
              (fun q => Pend q ∨ q ∈ seeds.reverse ∨
                Pending pointCov ([(⟨k.x - 1, k.y⟩, []), (⟨k.x + 1, k.y⟩, []),
                  (⟨k.x, k.y - 1⟩, []), (⟨k.x, k.y + 1⟩, [])] : TilePropagationInfo) q) := by
            apply front_weaken (front_congr front (fun p _ => (hsees0 p).symm))
            intro q _ hq
            rcases hq with hq | ⟨a, ha, hc⟩
            · exact Or.inr (Or.inr (Or.inl hq))
            · unfold pointCov at hc
              subst hc
              exact Or.inr (Or.inr (Or.inr (Or.inl (List.mem_reverse.2 ha))))
          obtain ⟨buf', front'⟩ := floodFillTileLoop_closes Pend hwf hsv hW hH hk hX _
            td0 _ seeds.reverse td' info' buf0
            (fun n hn => hseeds n (List.mem_reverse.1 hn)) front0 h3
          have hsees' := writeBack_sees hW hH hwf.2.1 hk hg h2 buf' h4
          apply front_weaken (front_congr front' hsees')
          intro q _ hq
          rcases hq with hq | ⟨e, he, a, ha, hc⟩
          · exact Or.inr (Or.inr (Or.inl hq))
          · refine Or.inr (Or.inr (Or.inr ⟨e, he, ?_, a, ha, hc⟩))
            exact (inGrid_iff_inFilter hW hH e.1).1 (hemit e he a ha).1

end NaiveCall

end FloodFill

namespace FloodFill

/-! ## The rounds under a schedule -/

section RoundsOrd

variable {α : Type} {referenceImage : QImage} {seedPoint : QPoint} {threshold : Nat}
  {X : QPoint → Prop}
  {SeedOK : QImage → TileId → α → Prop} {SeedDone : QImage → α → Prop}
  {Cov : α → QPoint → Prop}
  {tile : QImage → TileId → List α → Except Fault (QImage × List (TileId × List α))}
  {tileGridSize : QSize}

/-- With the schedule of the list order, `runRoundsOrd` is `runRounds`. -/
theorem runRoundsOrd_listOrder :
    ∀ (fuel : Nat) (mask : QImage) (queue : List (TileId × List α)),
      runRoundsOrd (Schedule.listOrder α) tile tileGridSize fuel mask queue =
        runRounds tile tileGridSize fuel mask queue := by
  intro fuel
  induction fuel with
  | zero =>
    intro mask queue
    cases queue with
    | nil => rfl
    | cons e q => rfl
  | succ fuel ih =>
    intro mask queue
    cases queue with
    | nil => rfl
    | cons e q =>
      unfold runRoundsOrd runRounds
      simp only [Schedule.listOrder, List.map_id_fun', id_eq]
      cases runRound tile mask (e :: q) with
      | error err => rfl
      | ok r =>
        simp only
        exact ih _ _

theorem mem_seedsFor {key : TileId} {a : α} {entries : List (TileId × List α)}
    {e : TileId × List α} (he : e ∈ entries) (hk : e.1 = key) (ha : a ∈ e.2) :
    a ∈ seedsFor key entries := by
  unfold seedsFor
  rw [List.mem_flatMap]
  exact ⟨e, List.mem_filter.2 ⟨he, by simp [hk]⟩, ha⟩

/-- Every seed that a result holds under a tile id inside the grid is in the merged queue. -/
theorem merge_covers (results : List (List (TileId × List α))) {q : QPoint}
    (h : ∃ info ∈ results, ∃ e ∈ info, InFilter tileGridSize e.1 ∧ ∃ a ∈ e.2, Cov a q) :
    Pending Cov (mergePropagation tileGridSize results) q := by
  obtain ⟨info, hi, e, he, hf, a, ha, hc⟩ := h
  obtain ⟨_, h2, h3⟩ := merge_exact tileGridSize results
  have hmem : a ∈ seedsFor e.1 results.flatten :=
    mem_seedsFor (List.mem_flatten.2 ⟨info, hi, he⟩) rfl ha
  obtain ⟨e', he', hk'⟩ := h3 e.1 hf (List.ne_nil_of_mem hmem)
  refine ⟨e', he', a, ?_, hc⟩
  rw [(h2 e' he').2.2, hk']
  exact hmem

/-- One round keeps the marked pixels closed: the seeds of the queue are replaced by the
seeds that the tasks of the round have filed for tiles of the grid. -/
theorem runRound_closes
    (hOK : ∀ m m' k a, (∀ q, m.pix q ≠ 0 → m'.pix q ≠ 0) → SeedOK m k a → SeedOK m' k a)
    (htile : ∀ mask k seeds, SameGeometry referenceImage mask →
      MaskSound referenceImage seedPoint threshold mask → InFilter tileGridSize k →
      seeds ≠ [] → (∀ a ∈ seeds, SeedOK mask k a) →
      OkOr (tile mask k seeds) (fun r =>
        TilePost referenceImage seedPoint threshold SeedOK SeedDone mask seeds r.1 r.2))
    (hcl : ∀ mask k seeds mask' info, SameGeometry referenceImage mask →
      MaskSound referenceImage seedPoint threshold mask → InFilter tileGridSize k →
      seeds ≠ [] → (∀ a ∈ seeds, SeedOK mask k a) → tile mask k seeds = .ok (mask', info) →
      TileCloses referenceImage X tileGridSize Cov mask seeds mask' info) :
    ∀ (queue : List (TileId × List α)) (mask mask' : QImage)
      (results : List (List (TileId × List α))) (Pend : QPoint → Prop),
      SameGeometry referenceImage mask →
      MaskSound referenceImage seedPoint threshold mask →
      (∀ e ∈ queue, InFilter tileGridSize e.1 ∧ e.2 ≠ [] ∧ ∀ a ∈ e.2, SeedOK mask e.1 a) →
      runRound tile mask queue = .ok (mask', results) →
      Front referenceImage X (fun p => mask.pix p ≠ 0)
        (fun q => Pend q ∨ Pending Cov queue q) →
      Front referenceImage X (fun p => mask'.pix p ≠ 0)
        (fun q => Pend q ∨
          ∃ info ∈ results, ∃ e ∈ info, InFilter tileGridSize e.1 ∧ ∃ a ∈ e.2, Cov a q) := by
  intro queue
  induction queue with
  | nil =>
    intro mask mask' results Pend _ _ _ h front
    simp only [runRound, Except.ok.injEq, Prod.mk.injEq] at h
    obtain ⟨rfl, rfl⟩ := h
    apply front_weaken front
    intro q _ hq
    rcases hq with hq | ⟨e, he, _⟩
    · exact Or.inr (Or.inr (Or.inl hq))
    · simp at he
  | cons entry rest ih =>
    intro mask mask' results Pend hg hs hq h front
    obtain ⟨k, seeds⟩ := entry
    have hk := hq (k, seeds) (List.mem_cons_self _ _)
    unfold runRound at h
    cases h1 : tile mask k seeds with
    | error e => rw [h1] at h; cases h
    | ok r1 =>
      obtain ⟨mask1, info1⟩ := r1
      rw [h1] at h
      simp only at h
      have post1 := okOr_ok (htile mask k seeds hg hs hk.1 hk.2.1 hk.2.2) h1
      simp only at post1
      have cl1 := hcl mask k seeds mask1 info1 hg hs hk.1 hk.2.1 hk.2.2 h1
      have hq' : ∀ e ∈ rest, InFilter tileGridSize e.1 ∧ e.2 ≠ [] ∧
          ∀ a ∈ e.2, SeedOK mask1 e.1 a := fun e he =>
        ⟨(hq e (List.mem_cons_of_mem _ he)).1, (hq e (List.mem_cons_of_mem _ he)).2.1,
          fun a ha =>
            hOK mask mask1 e.1 a post1.mono ((hq e (List.mem_cons_of_mem _ he)).2.2 a ha)⟩
      cases h2 : runRound tile mask1 rest with
      | error e => rw [h2] at h; cases h
      | ok r2 =>
        obtain ⟨mask2, results2⟩ := r2
        rw [h2] at h
        simp only [Except.ok.injEq, Prod.mk.injEq] at h
        obtain ⟨rfl, rfl⟩ := h
        have f1 := cl1 (fun q => Pend q ∨ Pending Cov rest q) (by
          apply front_weaken front
          intro q _ hq
          rcases hq with hq | ⟨e, he, a, ha, hc⟩
          · exact Or.inr (Or.inr (Or.inl (Or.inl hq)))
          · rcases List.mem_cons.1 he with rfl | he
            · exact Or.inr (Or.inr (Or.inr ⟨a, ha, hc⟩))
            · exact Or.inr (Or.inr (Or.inl (Or.inr ⟨e, he, a, ha, hc⟩))))
        have f2 := ih mask1 mask2 results2
          (fun q => Pend q ∨ ∃ e ∈ info1, InFilter tileGridSize e.1 ∧ ∃ a ∈ e.2, Cov a q)
          post1.geometry post1.sound hq' h2 (by
            apply front_weaken f1
            intro q _ hq
            rcases hq with (hq | hq) | hq
            · exact Or.inr (Or.inr (Or.inl (Or.inl hq)))
            · exact Or.inr (Or.inr (Or.inr hq))
            · exact Or.inr (Or.inr (Or.inl (Or.inr hq))))
        apply front_weaken f2
        intro q _ hq
        rcases hq with (hq | ⟨e, he, hr⟩) | ⟨info, hi, hr⟩
        · exact Or.inr (Or.inr (Or.inl hq))
        · exact Or.inr (Or.inr (Or.inr ⟨info1, List.mem_cons_self _ _, e, he, hr⟩))
        · exact Or.inr (Or.inr (Or.inr ⟨info, List.mem_cons_of_mem _ hi, hr⟩))

/-- The rounds under a valid schedule: the run never exhausts the rounds it is given; it
leaves a buffer, or it returns a sound mask in which the seeds of the queue are settled and
the marked pixels are closed: every pixel of the image next to a marked pixel is marked or
fails the inclusion test. -/
theorem runRoundsOrd_spec {sched : Schedule α} (hv : sched.Valid)
    (hOK : ∀ m m' k a, (∀ q, m.pix q ≠ 0 → m'.pix q ≠ 0) → SeedOK m k a → SeedOK m' k a)
    (hDone : ∀ m m' a, (∀ q, m.pix q ≠ 0 → m'.pix q ≠ 0) → SeedDone m a → SeedDone m' a)
    (htile : ∀ mask k seeds, SameGeometry referenceImage mask →
      MaskSound referenceImage seedPoint threshold mask → InFilter tileGridSize k →
      seeds ≠ [] → (∀ a ∈ seeds, SeedOK mask k a) →
      OkOr (tile mask k seeds) (fun r =>
        TilePost referenceImage seedPoint threshold SeedOK SeedDone mask seeds r.1 r.2))
    (hcl : ∀ mask k seeds mask' info, SameGeometry referenceImage mask →
      MaskSound referenceImage seedPoint threshold mask → InFilter tileGridSize k →
      seeds ≠ [] → (∀ a ∈ seeds, SeedOK mask k a) → tile mask k seeds = .ok (mask', info) →
      TileCloses referenceImage X tileGridSize Cov mask seeds mask' info) :
    ∀ (fuel : Nat) (mask : QImage) (queue : List (TileId × List α)),
      SameGeometry referenceImage mask → MaskSound referenceImage seedPoint threshold mask →
      (∀ e ∈ queue, InFilter tileGridSize e.1 ∧ e.2 ≠ [] ∧ ∀ a ∈ e.2, SeedOK mask e.1 a) →
      (queue ≠ [] → mask.zeros < fuel) →
      Front referenceImage X (fun p => mask.pix p ≠ 0) (Pending Cov queue) →
      OkOr (runRoundsOrd sched tile tileGridSize fuel mask queue) (fun mask' =>
        SameGeometry referenceImage mask' ∧ MaskSound referenceImage seedPoint threshold mask' ∧
        (∀ q, mask.pix q ≠ 0 → mask'.pix q ≠ 0) ∧
        (∀ e ∈ queue, ∀ a ∈ e.2, SeedDone mask' a) ∧
        Front referenceImage X (fun p => mask'.pix p ≠ 0)
          (fun _ => False)) := by
  obtain ⟨v1, v2, v3⟩ := hv
  intro fuel
  have base : ∀ (mask : QImage), SameGeometry referenceImage mask →
      MaskSound referenceImage seedPoint threshold mask →
      Front referenceImage X (fun p => mask.pix p ≠ 0)
        (Pending Cov ([] : List (TileId × List α))) →
      OkOr (Except.ok mask : Except Fault QImage) (fun mask' =>
        SameGeometry referenceImage mask' ∧ MaskSound referenceImage seedPoint threshold mask' ∧
        (∀ q, mask.pix q ≠ 0 → mask'.pix q ≠ 0) ∧
        (∀ e ∈ ([] : List (TileId × List α)), ∀ a ∈ e.2, SeedDone mask' a) ∧
        Front referenceImage X (fun p => mask'.pix p ≠ 0)
          (fun _ => False)) := by
    intro mask hg hs front
    refine Or.inr ⟨mask, rfl, hg, hs, fun _ h => h, fun e he => by simp at he, ?_⟩
    apply front_weaken front
    intro q _ hq
    obtain ⟨e, he, _⟩ := hq
    simp at he
  induction fuel with
  | zero =>
    intro mask queue hg hs hq hf front
    cases queue with
    | nil => exact base mask hg hs front
    | cons entry rest => exact absurd (hf (by simp)) (by omega)
  | succ fuel ih =>
    intro mask queue hg hs hq hf front
    cases queue with
    | nil => exact base mask hg hs front
    | cons entry rest =>
      unfold runRoundsOrd
      have hperm := v1 fuel (entry :: rest)
      have hq0 : ∀ e ∈ sched.queueOrder fuel (entry :: rest),
          InFilter tileGridSize e.1 ∧ e.2 ≠ [] ∧ ∀ a ∈ e.2, SeedOK mask e.1 a :=
        fun e he => hq e (hperm.mem_iff.1 he)
      rcases runRound_spec hOK hDone htile _ mask hg hs hq0 with
        h1 | ⟨⟨mask1, results⟩, h1, post⟩
      · left; rw [h1]
      · rw [h1]
        simp only
        simp only at post
        have hres : ∀ info ∈ (sched.resultOrder fuel results).map (sched.entryOrder fuel),
            ∃ info' ∈ results, ∀ e, e ∈ info ↔ e ∈ info' := by
          intro info hi
          obtain ⟨info', hi', rfl⟩ := List.mem_map.1 hi
          exact ⟨info', (v2 fuel results).mem_iff.1 hi', fun e => (v3 fuel info').mem_iff⟩
        have hres' : ∀ info' ∈ results,
            ∃ info ∈ (sched.resultOrder fuel results).map (sched.entryOrder fuel),
              ∀ e, e ∈ info ↔ e ∈ info' := by
          intro info' hi'
          exact ⟨sched.entryOrder fuel info',
            List.mem_map.2 ⟨info', (v2 fuel results).mem_iff.2 hi', rfl⟩,
            fun e => (v3 fuel info').mem_iff⟩
        have hq1 := merge_all tileGridSize
          ((sched.resultOrder fuel results).map (sched.entryOrder fuel))
          (P := fun k a => SeedOK mask1 k a) (by
            intro info hi e he a ha
            obtain ⟨info', hi', hiff⟩ := hres info hi
            exact post.infoOK info' hi' e ((hiff e).1 he) a ha)
        have hf1 : mergePropagation tileGridSize
            ((sched.resultOrder fuel results).map (sched.entryOrder fuel)) ≠ [] →
            mask1.zeros < fuel := by
          intro hne
          obtain ⟨info, hi, e, he, hne'⟩ := merge_nonempty tileGridSize _ hne
          obtain ⟨info', hi', hiff⟩ := hres info hi
          have := post.progress ⟨info', hi', e, (hiff e).1 he, hne'⟩
          have := hf (by simp)
          omega
        have front1 : Front referenceImage X (fun p => mask1.pix p ≠ 0)
            (Pending Cov (mergePropagation tileGridSize
              ((sched.resultOrder fuel results).map (sched.entryOrder fuel)))) := by
          have := runRound_closes hOK htile hcl _ mask
            mask1 results (fun _ => False) hg hs hq0 h1 (by
              apply front_weaken front
              intro q _ hq
              obtain ⟨e, he, hr⟩ := hq
              exact Or.inr (Or.inr (Or.inr ⟨e, hperm.mem_iff.2 he, hr⟩)))
          apply front_weaken this
          intro q _ hq
          rcases hq with hq | ⟨info', hi', e, he, hr⟩
          · exact absurd hq id
          · obtain ⟨info, hi, hiff⟩ := hres' info' hi'
            exact Or.inr (Or.inr (merge_covers _ ⟨info, hi, e, (hiff e).2 he, hr⟩))
        rcases ih mask1 _ post.geometry post.sound hq1 hf1 front1 with
          h2 | ⟨mask2, h2, g2, s2, m2, _, c2⟩
        · left; rw [h2]
        · right
          refine ⟨mask2, h2, g2, s2, fun q h => m2 q (post.mono q h), ?_, c2⟩
          intro e he a ha
          exact hDone mask1 mask2 a m2 (post.seedsDone e (hperm.mem_iff.2 he) a ha)

end RoundsOrd

end FloodFill

namespace FloodFill

/-! ## The tile-parallel fill under a schedule returns the mask of `floodFill` -/

section Complete

variable {ts : QSize} {referenceImage : QImage} {seedPoint : QPoint} {threshold : Nat}

/-- A sound mask in which the seed is settled and the marked pixels are closed is the mask
of the finished fill. -/
theorem closed_fillResult {mask : QImage} (hg : SameGeometry referenceImage mask)
    (hs : MaskSound referenceImage seedPoint threshold mask)
    (hd : Done referenceImage seedPoint threshold mask seedPoint)
    (hc : Front referenceImage
      (fun q => ¬ includable referenceImage (referenceImage.pix seedPoint) threshold q)
      (fun p => mask.pix p ≠ 0) (fun _ => False)) :
    FillResult referenceImage seedPoint threshold mask := by
  refine ⟨hg, hs, ?_⟩
  intro p hp
  induction hp with
  | seed _ hi =>
    rcases hd with h | h
    · exact h
    · exact absurd hi h
  | step a b ha hadj hb hi ih =>
    rcases hc a b ha.inImage hb hadj ih with h | h | h
    · exact h
    · exact absurd hi h
    · exact absurd h id

theorem blank_front (referenceImage : QImage) (X Pend : QPoint → Prop) :
    Front referenceImage X (fun p => referenceImage.blank.pix p ≠ 0) Pend :=
  fun p _ _ _ _ h => absurd (blank_pix referenceImage p) h

/-- The run of `floodFillMT` under a valid schedule, on a seed inside the image, leaves a
buffer or returns the mask of the finished fill. -/
theorem floodFillMTOrd_spec {sched : Schedule QPoint} (hv : sched.Valid)
    (hwf : referenceImage.WF) (ht : threshold ≤ 255)
    (hW : 1 ≤ ts.width) (hH : 1 ≤ ts.height) (hin : referenceImage.inImage seedPoint) :
    OkOr (floodFillMTOrd sched ts referenceImage seedPoint threshold)
      (FillResult referenceImage seedPoint threshold) := by
  unfold floodFillMTOrd
  simp only
  obtain ⟨r0, r1⟩ := ref_offset_range hwf hin
  simp only [(contains_rect referenceImage seedPoint).2 hin, Bool.not_true, Bool.false_eq_true,
    if_false, getPixel_eq r0 r1]
  obtain ⟨hk, hhas⟩ := @home_tile ts referenceImage seedPoint hW hH hin
  have hg0 := blank_geometry referenceImage
  have hs0 : MaskSound referenceImage seedPoint threshold referenceImage.blank :=
    fun i hi => absurd (blank_getD _ i) hi
  have := @runRoundsOrd_spec _ referenceImage seedPoint threshold
    (fun q => ¬ includable referenceImage (referenceImage.pix seedPoint) threshold q)
    (PointOK ts referenceImage seedPoint) (Done referenceImage seedPoint threshold) pointCov
    (fun fillMaskImage tileId seedPoints =>
      floodFillTile ts referenceImage fillMaskImage seedPoints (referenceImage.pix seedPoint)
        tileId referenceImage.rect (tileRectOf ts referenceImage.rect tileId) threshold)
    (tileGridSizeOf ts referenceImage.rect) sched hv
    (fun m m' k a hm h => pointOK_mono hm h)
    (fun m m' a hm h => done_mono hm h)
    (fun mask k seeds hg hs hf hne hseeds =>
      floodFillTile_spec hwf ht hW hH ((inGrid_iff_inFilter hW hH k).2 hf) hg hs hseeds)
    (fun mask k seeds mask' info hg hs hf hne hseeds h =>
      floodFillTile_closes hwf (pix_lt_256 hwf seedPoint) hW hH
        ((inGrid_iff_inFilter hW hH k).2 hf) hg (fun _ _ hn => hn)
        (fun s hs' => (hseeds s hs').2.1) h)
    (referenceImage.bytesPerLine * referenceImage.height + 1) referenceImage.blank
    [(⟨seedPoint.x.tdiv ts.width, seedPoint.y.tdiv ts.height⟩, [seedPoint])] hg0 hs0
    (by
      intro e he
      rw [List.mem_singleton.1 he]
      refine ⟨(inGrid_iff_inFilter hW hH _).1 hk, by simp, ?_⟩
      intro a ha
      rw [List.mem_singleton.1 ha]
      exact ⟨hk, hhas, Or.inl rfl⟩)
    (by
      intro _
      rw [blank_zeros]
      omega)
    (blank_front _ _ _)
  rcases this with h | ⟨mask, h, g, s, _, d, c⟩
  · exact Or.inl h
  · exact Or.inr ⟨mask, h, closed_fillResult g s
      (d _ (List.mem_singleton.2 rfl) _ (List.mem_singleton.2 rfl)) c⟩

end Complete

end FloodFill

namespace FloodFill

/-! ## `floodFillTileScanLine` keeps the marked pixels closed: the row scans -/

section ScanClose

variable {ts : QSize} {referenceImage : QImage} {seedValue threshold : Nat}
  {X : QPoint → Prop}

theorem tileLeftOK_mono {M M' P P' : QPoint → Prop} {y a : Int}
    (hM : ∀ q, M q → M' q) (hP : ∀ q, P q → P' q)
    (h : TileLeftOK referenceImage seedValue threshold X M P y a) :
    TileLeftOK referenceImage seedValue threshold X M' P' y a := by
  intro hin
  rcases h hin with (h | h) | h | h | h
  · exact Or.inl (Or.inl (hM _ h))
  · exact Or.inl (Or.inr h)
  · exact Or.inr (Or.inl (hM _ h))
  · exact Or.inr (Or.inr (Or.inl h))
  · exact Or.inr (Or.inr (Or.inr (hP _ h)))

theorem tileScanRight_closes {k : TileId} (mask : QImage) {td0 : List TileData} {s : Span}
    (P0 : QPoint → Prop) {x1 : Int}
    (hwf : referenceImage.WF) (hsv : seedValue < 256) (hW : 1 ≤ ts.width)
    (hH : 1 ≤ ts.height) (hk : InGrid ts referenceImage k)
    (hy : (tileRectOf ts referenceImage.rect k).top ≤ s.y ∧
      s.y ≤ (tileRectOf ts referenceImage.rect k).bottom)
    (hX : ∀ q, (tileRectOf ts referenceImage.rect k).has q →
      ¬ includable referenceImage seedValue threshold q → X q)
    (hlo : (tileRectOf ts referenceImage.rect k).left ≤ x1) :
    ∀ (fuel : Nat) (td : List TileData) (info : TilePropagationInfoScanLine) (x2 : Int)
      (td' : List TileData) (info' : TilePropagationInfoScanLine) (x2' : Int),
      TileBuf ts referenceImage (tileRectOf ts referenceImage.rect k) td0 td →
      x1 ≤ x2 → x2 ≤ (tileRectOf ts referenceImage.rect k).right + 1 →
      Front referenceImage X
        (TileSees ts (tileRectOf ts referenceImage.rect k) mask td)
        (fun q => P0 q ∨ Pending spanCov info q ∨ RowExc s x1 x2 x2 (fun x => x = x2) q) →
      (∀ x, x1 ≤ x → x < x2 →
        TileSees ts (tileRectOf ts referenceImage.rect k) mask td ⟨x, s.y⟩) →
      TileLeftOK referenceImage seedValue threshold X
        (TileSees ts (tileRectOf ts referenceImage.rect k) mask td)
        (fun q => P0 q ∨ Pending spanCov info q) s.y x1 →
      tileScanRight ts seedValue k referenceImage.rect (tileRectOf ts referenceImage.rect k)
        threshold s fuel td info x2 = .ok (td', info', x2') →
      TileBuf ts referenceImage (tileRectOf ts referenceImage.rect k) td0 td' ∧
        x2 ≤ x2' ∧ x2' ≤ (tileRectOf ts referenceImage.rect k).right + 1 ∧
        Front referenceImage X
          (TileSees ts (tileRectOf ts referenceImage.rect k) mask td')
          (fun q => P0 q ∨ Pending spanCov info' q ∨
            RowExc s x1 x2' (x2' + 1) (fun _ => False) q) ∧
        (∀ x, x1 ≤ x → x < x2' →
          TileSees ts (tileRectOf ts referenceImage.rect k) mask td' ⟨x, s.y⟩) ∧
        (∀ a, TileSees ts (tileRectOf ts referenceImage.rect k) mask td a →
          TileSees ts (tileRectOf ts referenceImage.rect k) mask td' a) ∧
        (∀ q, Pending spanCov info q → Pending spanCov info' q) ∧
        (referenceImage.inImage ⟨x2', s.y⟩ →
          TileSees ts (tileRectOf ts referenceImage.rect k) mask td' ⟨x2', s.y⟩ ∨
            X ⟨x2', s.y⟩ ∨
            Pending spanCov info' ⟨x2', s.y⟩) := by
  have hok := tileOK_of_inGrid hk hW hH
  have hrect := rect_eq referenceImage
  intro fuel
  induction fuel with
  | zero =>
    intro td info x2 td' info' x2' _ _ _ _ _ _ h
    simp [tileScanRight] at h
  | succ fuel ih =>
    intro td info x2 td' info' x2' buf hle hhi front pend leftOK h
    unfold tileScanRight at h
    simp only at h
    -- the scan stops at a pixel that is settled
    have stopHere : (referenceImage.inImage ⟨x2, s.y⟩ →
        TileSees ts (tileRectOf ts referenceImage.rect k) mask td ⟨x2, s.y⟩ ∨
          X ⟨x2, s.y⟩) →
        Front referenceImage X
          (TileSees ts (tileRectOf ts referenceImage.rect k) mask td)
          (fun q => P0 q ∨ Pending spanCov info q ∨
            RowExc s x1 x2 (x2 + 1) (fun _ => False) q) := by
      intro hdone
      apply front_weaken front
      intro q hq he
      rcases he with he | he | he
      · exact Or.inr (Or.inr (Or.inl he))
      · exact Or.inr (Or.inr (Or.inr (Or.inl he)))
      · unfold RowExc at he
        have hcase : q = ⟨x2, s.y⟩ ∨ RowExc s x1 x2 (x2 + 1) (fun _ => False) q := by
          unfold RowExc
          rcases he with ⟨hy', h' | h'⟩ | h'
          · by_cases hqx : q.x = x2
            · exact Or.inl (QPoint.eq_mk hqx hy')
            · exact Or.inr (Or.inl ⟨hy', Or.inl ⟨by omega, h'.2⟩⟩)
          · exact Or.inl (QPoint.eq_mk h' hy')
          · exact Or.inr (Or.inr h')
        rcases hcase with rfl | h'
        · rcases hdone hq with h'' | h''
          · exact Or.inl h''
          · exact Or.inr (Or.inl h'')
        · exact Or.inr (Or.inr (Or.inr (Or.inr h')))
    by_cases hgl : x2 > referenceImage.rect.right
    · rw [if_pos hgl] at h
      simp only [Except.ok.injEq, Prod.mk.injEq] at h
      obtain ⟨rfl, rfl, rfl⟩ := h
      have hout : ¬ referenceImage.inImage ⟨x2, s.y⟩ := by
        intro hi
        rw [hrect] at hgl
        have := hi.2.1
        simp only at hgl this
        omega
      exact ⟨buf, le_refl _, hhi, stopHere (fun hi => absurd hi hout), pend, fun _ h => h,
        fun _ h => h, fun hi => absurd hi hout⟩
    rw [if_neg hgl] at h
    by_cases htl : x2 > (tileRectOf ts referenceImage.rect k).right
    · rw [if_pos htl] at h
      simp only [Except.ok.injEq, Prod.mk.injEq] at h
      obtain ⟨rfl, rfl, rfl⟩ := h
      have hcov : Pending spanCov (hashAppend ⟨k.x + 1, k.y⟩ [(⟨x2, x2, s.y, s.dy⟩ : Span)] info)
          ⟨x2, s.y⟩ :=
        pending_hashAppend_new _ _ (List.mem_singleton.2 rfl)
          ⟨rfl, le_refl _, le_refl _⟩
      refine ⟨buf, le_refl _, hhi, ?_, pend, fun _ h => h,
        fun q hq => pending_hashAppend_old _ _ hq, fun _ => Or.inr (Or.inr hcov)⟩
      apply front_weaken front
      intro q hq he
      rcases he with he | he | he
      · exact Or.inr (Or.inr (Or.inl he))
      · exact Or.inr (Or.inr (Or.inr (Or.inl (pending_hashAppend_old _ _ he))))
      · unfold RowExc at he
        refine Or.inr (Or.inr (Or.inr ?_))
        rcases he with ⟨hy', h' | h'⟩ | h'
        · by_cases hqx : q.x = x2
          · rw [QPoint.eq_mk hqx hy']
            exact Or.inl hcov
          · exact Or.inr (Or.inl ⟨hy', Or.inl ⟨by omega, h'.2⟩⟩)
        · rw [QPoint.eq_mk h' hy']
          exact Or.inl hcov
        · exact Or.inr (Or.inr h')
    rw [if_neg htl] at h
    have hpR : (tileRectOf ts referenceImage.rect k).has ⟨x2, s.y⟩ :=
      ⟨by simp only; omega, by simp only; omega, hy.1, hy.2⟩
    obtain ⟨c1, c2, c3, _⟩ := @closure_code ts referenceImage seedValue threshold _ mask td0 td
      hwf hsv hok buf _ hpR
    simp only at c1 c2 c3
    rw [c1] at h
    simp only at h
    by_cases hm : (td.getD ((s.y - (tileRectOf ts referenceImage.rect k).top) *
        (ts.width : Int) + (x2 - (tileRectOf ts referenceImage.rect k).left)).toNat
        ⟨0, 0⟩).fillMaskPixel > 0
    · rw [if_pos hm] at h
      simp only [Except.ok.injEq, Prod.mk.injEq] at h
      obtain ⟨rfl, rfl, rfl⟩ := h
      exact ⟨buf, le_refl _, hhi, stopHere (fun _ => Or.inl (c2.1 hm)), pend, fun _ h => h,
        fun _ h => h, fun _ => Or.inl (c2.1 hm)⟩
    rw [if_neg hm] at h
    by_cases hd : difference8 (td.getD ((s.y - (tileRectOf ts referenceImage.rect k).top) *
        (ts.width : Int) + (x2 - (tileRectOf ts referenceImage.rect k).left)).toNat
        ⟨0, 0⟩).referencePixel seedValue ≥ threshold
    · rw [if_pos hd] at h
      simp only [Except.ok.injEq, Prod.mk.injEq] at h
      obtain ⟨rfl, rfl, rfl⟩ := h
      exact ⟨buf, le_refl _, hhi, stopHere (fun _ => Or.inr (hX _ hpR (c3.1 hd))), pend,
        fun _ h => h, fun _ h => h, fun _ => Or.inr (Or.inl (hX _ hpR (c3.1 hd)))⟩
    rw [if_neg hd] at h
    have hunmarked : ¬ TileSees ts (tileRectOf ts referenceImage.rect k) mask td ⟨x2, s.y⟩ :=
      fun hs => hm (c2.2 hs)
    have hincl : includable referenceImage seedValue threshold ⟨x2, s.y⟩ := by
      by_contra hn
      exact hd (c3.2 hn)
    obtain ⟨sel, hs⟩ := selectionValue_exists (Nat.lt_of_not_le hd)
    have hv := selectionValue_ne_zero hs (Nat.lt_of_not_le hd)
    rw [hs] at h
    simp only at h
    cases hset : tileSetFillMask td
        ((s.y - (tileRectOf ts referenceImage.rect k).top) * (ts.width : Int) +
          (x2 - (tileRectOf ts referenceImage.rect k).left)) sel with
    | error e => rw [hset] at h; cases h
    | ok td1 =>
      rw [hset] at h
      simp only at h
      obtain ⟨buf1, hsees⟩ := @closure_set ts referenceImage _ mask td0 td td1 hok buf _ hpR
        sel hv hset
      have mono1 : ∀ a, TileSees ts (tileRectOf ts referenceImage.rect k) mask td a →
          TileSees ts (tileRectOf ts referenceImage.rect k) mask td1 a :=
        fun a ha => (hsees a).2 (Or.inr ha)
      have front1 : Front referenceImage X
          (TileSees ts (tileRectOf ts referenceImage.rect k) mask td1)
          (fun q => P0 q ∨ Pending spanCov info q ∨
            RowExc s x1 (x2 + 1) (x2 + 1) (fun x => x = x2 + 1) q) := by
        apply front_mark front ⟨x2, s.y⟩ hsees
        · intro q _ he
          rcases he with he | he | he
          · exact Or.inr (Or.inl he)
          · exact Or.inr (Or.inr (Or.inl he))
          · unfold RowExc at he ⊢
            rcases he with ⟨hy', h' | h'⟩ | h'
            · by_cases hqx : q.x = x2
              · exact Or.inl (QPoint.eq_mk hqx hy')
              · exact Or.inr (Or.inr (Or.inr (Or.inl ⟨hy', Or.inl ⟨by omega, h'.2⟩⟩)))
            · exact Or.inl (QPoint.eq_mk h' hy')
            · exact Or.inr (Or.inr (Or.inr (Or.inr ⟨h'.1, h'.2.1, by omega⟩)))
        · intro q hq hadj
          unfold adjacent at hadj
          simp only at hadj
          rcases hadj with ⟨hy', hx | hx⟩ | ⟨hx, hy'⟩
          · exact Or.inr (Or.inr (Or.inr (Or.inr (Or.inl ⟨hy', Or.inr hx⟩))))
          · have hq' : q = ⟨x2 - 1, s.y⟩ := QPoint.eq_mk hx hy'
            by_cases hrun : x1 ≤ x2 - 1
            · exact Or.inl (by rw [hq']; exact pend _ hrun (by omega))
            · have hx1 : x1 = x2 := by omega
              rw [hx1] at leftOK
              rcases leftOK (hq' ▸ hq) with (h' | h') | h' | h' | h' | h'
              · exact absurd h' hunmarked
              · exact absurd hincl h'
              · exact Or.inl (hq' ▸ h')
              · exact Or.inr (Or.inl (hq' ▸ h'))
              · exact Or.inr (Or.inr (Or.inl (hq' ▸ h')))
              · exact Or.inr (Or.inr (Or.inr (Or.inl (hq' ▸ h'))))
          · refine Or.inr (Or.inr (Or.inr (Or.inr (Or.inr ⟨hy', ?_, ?_⟩)))) <;> omega
      obtain ⟨b1, b2, b3, b4, b5, b6, b7, b8⟩ := ih td1 info (x2 + 1) td' info' x2' buf1
        (by omega) (by omega) front1
        (by
          intro x h1 h2
          by_cases hx2 : x = x2
          · subst hx2
            exact (hsees _).2 (Or.inl rfl)
          · exact mono1 _ (pend x h1 (by omega)))
        (tileLeftOK_mono mono1 (fun _ h => h) leftOK) h
      exact ⟨b1, by omega, b3, b4, b5, fun a ha => b6 a (mono1 a ha), b7, b8⟩

theorem tileScanLeft_closes {k : TileId} (mask : QImage) {td0 : List TileData} {s : Span}
    (P0 : QPoint → Prop)
    (hwf : referenceImage.WF) (hsv : seedValue < 256) (hW : 1 ≤ ts.width)
    (hH : 1 ≤ ts.height) (hk : InGrid ts referenceImage k)
    (hy : (tileRectOf ts referenceImage.rect k).top ≤ s.y ∧
      s.y ≤ (tileRectOf ts referenceImage.rect k).bottom)
    (hX : ∀ q, (tileRectOf ts referenceImage.rect k).has q →
      ¬ includable referenceImage seedValue threshold q → X q)
    (hs12 : s.x1 ≤ s.x2) (hs1 : s.x1 ≤ (tileRectOf ts referenceImage.rect k).right) :
    ∀ (fuel : Nat) (td : List TileData) (info : TilePropagationInfoScanLine) (x1 : Int)
      (td' : List TileData) (info' : TilePropagationInfoScanLine) (x1' : Int),
      TileBuf ts referenceImage (tileRectOf ts referenceImage.rect k) td0 td →
      (tileRectOf ts referenceImage.rect k).left ≤ x1 → x1 ≤ s.x1 →
      Front referenceImage X
        (TileSees ts (tileRectOf ts referenceImage.rect k) mask td)
        (fun q => P0 q ∨ Pending spanCov info q ∨
          RowExc s x1 s.x1 s.x1 (fun x => x = x1 - 1) q) →
      (∀ x, x1 ≤ x → x < s.x1 →
        TileSees ts (tileRectOf ts referenceImage.rect k) mask td ⟨x, s.y⟩) →
      tileScanLeft ts seedValue k referenceImage.rect (tileRectOf ts referenceImage.rect k)
        threshold s fuel td info x1 = .ok (td', info', x1') →
      TileBuf ts referenceImage (tileRectOf ts referenceImage.rect k) td0 td' ∧
        (tileRectOf ts referenceImage.rect k).left ≤ x1' ∧ x1' ≤ x1 ∧
        Front referenceImage X
          (TileSees ts (tileRectOf ts referenceImage.rect k) mask td')
          (fun q => P0 q ∨ Pending spanCov info' q ∨
            RowExc s x1' s.x1 s.x1 (fun _ => False) q) ∧
        (∀ x, x1' ≤ x → x < s.x1 →
          TileSees ts (tileRectOf ts referenceImage.rect k) mask td' ⟨x, s.y⟩) ∧
        (∀ a, TileSees ts (tileRectOf ts referenceImage.rect k) mask td a →
          TileSees ts (tileRectOf ts referenceImage.rect k) mask td' a) ∧
        (∀ q, Pending spanCov info q → Pending spanCov info' q) ∧
        (referenceImage.inImage ⟨x1' - 1, s.y⟩ →
          TileSees ts (tileRectOf ts referenceImage.rect k) mask td' ⟨x1' - 1, s.y⟩ ∨
            X ⟨x1' - 1, s.y⟩ ∨
            Pending spanCov info' ⟨x1' - 1, s.y⟩) := by
  have hok := tileOK_of_inGrid hk hW hH
  have hrect := rect_eq referenceImage
  intro fuel
  induction fuel with
  | zero =>
    intro td info x1 td' info' x1' _ _ _ _ _ h
    simp [tileScanLeft] at h
  | succ fuel ih =>
    intro td info x1 td' info' x1' buf hlo hle front pend h
    unfold tileScanLeft at h
    simp only at h
    have stopHere : (referenceImage.inImage ⟨x1 - 1, s.y⟩ →
        TileSees ts (tileRectOf ts referenceImage.rect k) mask td ⟨x1 - 1, s.y⟩ ∨
          X ⟨x1 - 1, s.y⟩) →
        Front referenceImage X
          (TileSees ts (tileRectOf ts referenceImage.rect k) mask td)
          (fun q => P0 q ∨ Pending spanCov info q ∨
            RowExc s x1 s.x1 s.x1 (fun _ => False) q) := by
      intro hdone
      apply front_weaken front
      intro q hq he
      rcases he with he | he | he
      · exact Or.inr (Or.inr (Or.inl he))
      · exact Or.inr (Or.inr (Or.inr (Or.inl he)))
      · unfold RowExc at he
        have hcase : q = ⟨x1 - 1, s.y⟩ ∨ RowExc s x1 s.x1 s.x1 (fun _ => False) q := by
          unfold RowExc
          rcases he with ⟨hy', h' | h'⟩ | h'
          · exact Or.inr (Or.inl ⟨hy', Or.inl h'⟩)
          · exact Or.inl (QPoint.eq_mk h' hy')
          · exact Or.inr (Or.inr h')
        rcases hcase with rfl | h'
        · rcases hdone hq with h'' | h''
          · exact Or.inl h''
          · exact Or.inr (Or.inl h'')
        · exact Or.inr (Or.inr (Or.inr (Or.inr h')))
    by_cases hgl : x1 - 1 < referenceImage.rect.left
    · rw [if_pos hgl] at h
      simp only [Except.ok.injEq, Prod.mk.injEq] at h
      obtain ⟨rfl, rfl, rfl⟩ := h
      have hout : ¬ referenceImage.inImage ⟨x1 - 1, s.y⟩ := by
        intro hi
        rw [hrect] at hgl
        have := hi.1
        simp only at hgl this
        omega
      exact ⟨buf, hlo, le_refl _, stopHere (fun hi => absurd hi hout), pend, fun _ h => h,
        fun _ h => h, fun hi => absurd hi hout⟩
    rw [if_neg hgl] at h
    by_cases htl : x1 - 1 < (tileRectOf ts referenceImage.rect k).left
    · rw [if_pos htl] at h
      simp only [Except.ok.injEq, Prod.mk.injEq] at h
      obtain ⟨rfl, rfl, rfl⟩ := h
      have hcov : Pending spanCov
          (hashAppend ⟨k.x - 1, k.y⟩ [(⟨x1 - 1, x1 - 1, s.y, s.dy⟩ : Span)] info)
          ⟨x1 - 1, s.y⟩ :=
        pending_hashAppend_new _ _ (List.mem_singleton.2 rfl)
          ⟨rfl, le_refl _, le_refl _⟩
      refine ⟨buf, hlo, le_refl _, ?_, pend, fun _ h => h,
        fun q hq => pending_hashAppend_old _ _ hq, fun _ => Or.inr (Or.inr hcov)⟩
      apply front_weaken front
      intro q hq he
      rcases he with he | he | he
      · exact Or.inr (Or.inr (Or.inl he))
      · exact Or.inr (Or.inr (Or.inr (Or.inl (pending_hashAppend_old _ _ he))))
      · unfold RowExc at he
        refine Or.inr (Or.inr (Or.inr ?_))
        rcases he with ⟨hy', h' | h'⟩ | h'
        · exact Or.inr (Or.inl ⟨hy', Or.inl h'⟩)
        · rw [QPoint.eq_mk h' hy']
          exact Or.inl hcov
        · exact Or.inr (Or.inr h')
    rw [if_neg htl] at h
    have hpR : (tileRectOf ts referenceImage.rect k).has ⟨x1 - 1, s.y⟩ :=
      ⟨by simp only; omega, by simp only; omega, hy.1, hy.2⟩
    obtain ⟨c1, c2, c3, _⟩ := @closure_code ts referenceImage seedValue threshold _ mask td0 td
      hwf hsv hok buf _ hpR
    simp only at c1 c2 c3
    rw [c1] at h
    simp only at h
    by_cases hm : (td.getD ((s.y - (tileRectOf ts referenceImage.rect k).top) *
        (ts.width : Int) + (x1 - 1 - (tileRectOf ts referenceImage.rect k).left)).toNat
        ⟨0, 0⟩).fillMaskPixel > 0
    · rw [if_pos hm] at h
      simp only [Except.ok.injEq, Prod.mk.injEq] at h
      obtain ⟨rfl, rfl, rfl⟩ := h
      exact ⟨buf, hlo, le_refl _, stopHere (fun _ => Or.inl (c2.1 hm)), pend, fun _ h => h,
        fun _ h => h, fun _ => Or.inl (c2.1 hm)⟩
    rw [if_neg hm] at h
    by_cases hd : difference8 (td.getD ((s.y - (tileRectOf ts referenceImage.rect k).top) *
        (ts.width : Int) + (x1 - 1 - (tileRectOf ts referenceImage.rect k).left)).toNat
        ⟨0, 0⟩).referencePixel seedValue ≥ threshold
    · rw [if_pos hd] at h
      simp only [Except.ok.injEq, Prod.mk.injEq] at h
      obtain ⟨rfl, rfl, rfl⟩ := h
      exact ⟨buf, hlo, le_refl _, stopHere (fun _ => Or.inr (hX _ hpR (c3.1 hd))), pend,
        fun _ h => h, fun _ h => h, fun _ => Or.inr (Or.inl (hX _ hpR (c3.1 hd)))⟩
    rw [if_neg hd] at h
    obtain ⟨sel, hs⟩ := selectionValue_exists (Nat.lt_of_not_le hd)
    have hv := selectionValue_ne_zero hs (Nat.lt_of_not_le hd)
    rw [hs] at h
    simp only at h
    cases hset : tileSetFillMask td
        ((s.y - (tileRectOf ts referenceImage.rect k).top) * (ts.width : Int) +
          (x1 - 1 - (tileRectOf ts referenceImage.rect k).left)) sel with
    | error e => rw [hset] at h; cases h
    | ok td1 =>
      rw [hset] at h
      simp only at h
      obtain ⟨buf1, hsees⟩ := @closure_set ts referenceImage _ mask td0 td td1 hok buf _ hpR
        sel hv hset
      have mono1 : ∀ a, TileSees ts (tileRectOf ts referenceImage.rect k) mask td a →
          TileSees ts (tileRectOf ts referenceImage.rect k) mask td1 a :=
        fun a ha => (hsees a).2 (Or.inr ha)
      have front1 : Front referenceImage X
          (TileSees ts (tileRectOf ts referenceImage.rect k) mask td1)
          (fun q => P0 q ∨ Pending spanCov info q ∨
            RowExc s (x1 - 1) s.x1 s.x1 (fun x => x = x1 - 1 - 1) q) := by
        apply front_mark front ⟨x1 - 1, s.y⟩ hsees
        · intro q _ he
          rcases he with he | he | he
          · exact Or.inr (Or.inl he)
          · exact Or.inr (Or.inr (Or.inl he))
          · unfold RowExc at he ⊢
            rcases he with ⟨hy', h' | h'⟩ | h'
            · exact Or.inr (Or.inr (Or.inr (Or.inl ⟨hy', Or.inl h'⟩)))
            · exact Or.inl (QPoint.eq_mk h' hy')
            · exact Or.inr (Or.inr (Or.inr (Or.inr ⟨h'.1, by omega, h'.2.2⟩)))
        · intro q hq hadj
          unfold adjacent at hadj
          simp only at hadj
          rcases hadj with ⟨hy', hx | hx⟩ | ⟨hx, hy'⟩
          · have hq' : q = ⟨x1, s.y⟩ := QPoint.eq_mk (by omega) hy'
            by_cases hrun : x1 < s.x1
            · exact Or.inl (by rw [hq']; exact pend _ (le_refl _) hrun)
            · refine Or.inr (Or.inr (Or.inr (Or.inr (Or.inl ⟨hy', Or.inl ⟨?_, ?_⟩⟩)))) <;>
                omega
          · exact Or.inr (Or.inr (Or.inr (Or.inr (Or.inl ⟨hy', Or.inr hx⟩))))
          · refine Or.inr (Or.inr (Or.inr (Or.inr (Or.inr ⟨hy', ?_, ?_⟩)))) <;> omega
      obtain ⟨b1, b2, b3, b4, b5, b6, b7, b8⟩ := ih td1 info (x1 - 1) td' info' x1' buf1
        (by omega) (by omega) front1
        (by
          intro x h1 h2
          by_cases hx2 : x = x1 - 1
          · subst hx2
            exact (hsees _).2 (Or.inl rfl)
          · exact mono1 _ (pend x (by omega) h2))
        h
      exact ⟨b1, b2, by omega, b4, b5, fun a ha => b6 a (mono1 a ha), b7, b8⟩

theorem tileScanSkip_closes {k : TileId} (mask : QImage) {td0 td : List TileData} {s : Span}
    (hwf : referenceImage.WF) (hsv : seedValue < 256) (hW : 1 ≤ ts.width)
    (hH : 1 ≤ ts.height) (hk : InGrid ts referenceImage k)
    (hy : (tileRectOf ts referenceImage.rect k).top ≤ s.y ∧
      s.y ≤ (tileRectOf ts referenceImage.rect k).bottom)
    (buf : TileBuf ts referenceImage (tileRectOf ts referenceImage.rect k) td0 td) :
    ∀ (fuel : Nat) (x2 r : Int), (tileRectOf ts referenceImage.rect k).left ≤ x2 →
      tileScanSkip ts seedValue referenceImage.rect (tileRectOf ts referenceImage.rect k)
        threshold td s fuel x2 = .ok r →
      x2 ≤ r ∧ ∀ x, x2 ≤ x → x < r →
        TileSees ts (tileRectOf ts referenceImage.rect k) mask td ⟨x, s.y⟩ := by
  have hok := tileOK_of_inGrid hk hW hH
  intro fuel
  induction fuel with
  | zero =>
    intro x2 r _ h
    simp [tileScanSkip] at h
  | succ fuel ih =>
    intro x2 r hlo h
    unfold tileScanSkip at h
    by_cases hc : x2 < s.x2 ∧ x2 ≤ referenceImage.rect.right ∧
        x2 ≤ (tileRectOf ts referenceImage.rect k).right
    · rw [if_pos hc] at h
      have hpR : (tileRectOf ts referenceImage.rect k).has ⟨x2, s.y⟩ :=
        ⟨hlo, hc.2.2, hy.1, hy.2⟩
      obtain ⟨c1, c2, _, _⟩ := @closure_code ts referenceImage seedValue threshold _ mask td0
        td hwf hsv hok buf _ hpR
      simp only at c1 c2
      rw [c1] at h
      simp only at h
      by_cases hm : (td.getD ((s.y - (tileRectOf ts referenceImage.rect k).top) *
          (ts.width : Int) + (x2 - (tileRectOf ts referenceImage.rect k).left)).toNat
          ⟨0, 0⟩).fillMaskPixel > 0 ∧
          qAbs (td.getD ((s.y - (tileRectOf ts referenceImage.rect k).top) *
            (ts.width : Int) + (x2 - (tileRectOf ts referenceImage.rect k).left)).toNat
            ⟨0, 0⟩).referencePixel seedValue ≥ threshold
      · rw [if_pos hm] at h
        obtain ⟨h1, h2⟩ := ih (x2 + 1) r (by omega) h
        refine ⟨by omega, ?_⟩
        intro x hx1 hx2
        by_cases hx : x = x2
        · subst hx
          exact c2.1 hm.1
        · exact h2 x (by omega) hx2
      · rw [if_neg hm] at h
        simp only [Except.ok.injEq] at h
        subst h
        exact ⟨le_refl _, fun x h1 h2 => by omega⟩
    · rw [if_neg hc] at h
      simp only [Except.ok.injEq] at h
      subst h
      exact ⟨le_refl _, fun x h1 h2 => by omega⟩

end ScanClose

end FloodFill

namespace FloodFill

/-! ## `floodFillTileScanLine` keeps the marked pixels closed: the loop -/

section ScanCloseLoop

variable {ts : QSize} {referenceImage : QImage} {seedValue threshold : Nat}
  {X : QPoint → Prop}

/-- Placing a child span on the local stack or in the table keeps what was covered and
covers the child. -/
theorem child_place_covers (tileRect : QRect) (c : Span) (b1 b2 : Prop) [Decidable b1]
    [Decidable b2] (key1 key2 : TileId) (info : TilePropagationInfoScanLine)
    (spans : List Span) :
    (∀ q, Covered spans q →
      Covered (if b1 then (hashAppend key1 [c] info, spans)
        else if b2 then (hashAppend key2 [c] info, spans) else (info, c :: spans)).2 q) ∧
    (∀ q, Pending spanCov info q →
      Pending spanCov (if b1 then (hashAppend key1 [c] info, spans)
        else if b2 then (hashAppend key2 [c] info, spans) else (info, c :: spans)).1 q) ∧
    (∀ q, spanCov c q →
      Covered (if b1 then (hashAppend key1 [c] info, spans)
        else if b2 then (hashAppend key2 [c] info, spans) else (info, c :: spans)).2 q ∨
      Pending spanCov (if b1 then (hashAppend key1 [c] info, spans)
        else if b2 then (hashAppend key2 [c] info, spans) else (info, c :: spans)).1 q) ∧
    ((∀ a ∈ spans, SpanIn tileRect a) → (¬ b1 → ¬ b2 → SpanIn tileRect c) →
      ∀ a ∈ (if b1 then (hashAppend key1 [c] info, spans)
        else if b2 then (hashAppend key2 [c] info, spans) else (info, c :: spans)).2,
        SpanIn tileRect a) := by
  by_cases h1 : b1
  · simp only [if_pos h1]
    exact ⟨fun q h => h, fun q h => pending_hashAppend_old _ _ h,
      fun q h => Or.inr (pending_hashAppend_new _ _ (List.mem_singleton.2 rfl) h),
      fun h _ => h⟩
  · simp only [if_neg h1]
    by_cases h2 : b2
    · simp only [if_pos h2]
      exact ⟨fun q h => h, fun q h => pending_hashAppend_old _ _ h,
        fun q h => Or.inr (pending_hashAppend_new _ _ (List.mem_singleton.2 rfl) h),
        fun h _ => h⟩
    · simp only [if_neg h2]
      refine ⟨?_, fun q h => h, fun q h => Or.inl ⟨c, List.mem_cons_self _ _, h⟩, ?_⟩
      · rintro q ⟨a, ha, hc⟩
        exact ⟨a, List.mem_cons_of_mem _ ha, hc⟩
      · intro hs hc a ha
        rcases List.mem_cons.1 ha with rfl | ha
        · exact hc h1 h2
        · exact hs a ha

theorem tileScanChildren_covers (k : TileId) (tileRect : QRect) (s : Span) (x1 x2 : Int)
    (info : TilePropagationInfoScanLine) (spans : List Span)
    (hdy : s.dy = 1 ∨ s.dy = -1)
    (hcols : tileRect.left ≤ x1 ∧ x1 < x2 ∧ x2 - 1 ≤ tileRect.right) :
    (∀ q, Covered spans q → Covered (tileScanChildren k tileRect s x1 x2 info spans).2 q) ∧
    (∀ q, Pending spanCov info q →
      Pending spanCov (tileScanChildren k tileRect s x1 x2 info spans).1 q) ∧
    (∀ q, (q.y = s.y + 1 ∨ q.y = s.y - 1) → x1 ≤ q.x → q.x < x2 →
      Covered (tileScanChildren k tileRect s x1 x2 info spans).2 q ∨
      Pending spanCov (tileScanChildren k tileRect s x1 x2 info spans).1 q) ∧
    ((∀ a ∈ spans, SpanIn tileRect a) →
      ∀ a ∈ (tileScanChildren k tileRect s x1 x2 info spans).2, SpanIn tileRect a) := by
  have c1 := child_place_covers tileRect ⟨x1, x2 - 1, s.y - s.dy, -s.dy⟩
    (s.y - s.dy < tileRect.top) (s.y - s.dy > tileRect.bottom) ⟨k.x, k.y - 1⟩
    ⟨k.x, k.y + 1⟩ info spans
  generalize hr1 : (if s.y - s.dy < tileRect.top then
          (hashAppend ⟨k.x, k.y - 1⟩ [(⟨x1, x2 - 1, s.y - s.dy, -s.dy⟩ : Span)] info, spans)
        else if s.y - s.dy > tileRect.bottom then
          (hashAppend ⟨k.x, k.y + 1⟩ [(⟨x1, x2 - 1, s.y - s.dy, -s.dy⟩ : Span)] info, spans)
        else (info, (⟨x1, x2 - 1, s.y - s.dy, -s.dy⟩ : Span) :: spans)) = r1 at c1
  obtain ⟨info1, spans1⟩ := r1
  have c2 := child_place_covers tileRect ⟨x1, x2 - 1, s.y + s.dy, s.dy⟩
    (s.y + s.dy < tileRect.top) (s.y + s.dy > tileRect.bottom) ⟨k.x, k.y - 1⟩
    ⟨k.x, k.y + 1⟩ info1 spans1
  unfold tileScanChildren
  simp only
  rw [hr1]
  simp only
  simp only at c1
  obtain ⟨a1, a2, a3, a4⟩ := c1
  obtain ⟨b1, b2, b3, b4⟩ := c2
  refine ⟨fun q h => b1 q (a1 q h), fun q h => b2 q (a2 q h), ?_, ?_⟩
  · intro q hy hx1 hx2
    by_cases hfirst : q.y = s.y - s.dy
    · rcases a3 q ⟨hfirst.symm, hx1, by simp only; omega⟩ with h | h
      · exact Or.inl (b1 q h)
      · exact Or.inr (b2 q h)
    · exact b3 q ⟨by simp only; omega, hx1, by simp only; omega⟩
  · intro hs
    apply b4
    · apply a4 hs
      intro n1 n2
      exact ⟨hcols.1, by simp only; omega, hcols.2.2, by simp only; omega, by simp only; omega,
        by simp only; omega⟩
    · intro n1 n2
      exact ⟨hcols.1, by simp only; omega, hcols.2.2, by simp only; omega, by simp only; omega,
        hdy⟩

theorem tileScanOuter_closes {k : TileId} {mask : QImage} {td0 : List TileData} {s : Span}
    {Pend : QPoint → Prop}
    (hwf : referenceImage.WF) (hsv : seedValue < 256) (hW : 1 ≤ ts.width)
    (hH : 1 ≤ ts.height) (hk : InGrid ts referenceImage k)
    (hX : ∀ q, (tileRectOf ts referenceImage.rect k).has q →
      ¬ includable referenceImage seedValue threshold q → X q)
    (hs : SpanIn (tileRectOf ts referenceImage.rect k) s) :
    ∀ (fuel : Nat) (td : List TileData) (info : TilePropagationInfoScanLine)
      (spans : List Span) (x1 x2 : Int) (td' : List TileData)
      (info' : TilePropagationInfoScanLine) (spans' : List Span),
      TileBuf ts referenceImage (tileRectOf ts referenceImage.rect k) td0 td →
      (∀ a ∈ spans, SpanIn (tileRectOf ts referenceImage.rect k) a) →
      (tileRectOf ts referenceImage.rect k).left ≤ x1 → x1 ≤ x2 → s.x1 ≤ x2 →
      (x1 < x2 → x2 ≤ s.x2) →
      Front referenceImage X
        (TileSees ts (tileRectOf ts referenceImage.rect k) mask td)
        (fun q => (Pend q ∨ Covered spans q) ∨ Pending spanCov info q ∨
          RowExc s x1 x2 x2 (fun _ => False) q) →
      (∀ x, x1 ≤ x → x < x2 →
        TileSees ts (tileRectOf ts referenceImage.rect k) mask td ⟨x, s.y⟩) →
      TileLeftOK referenceImage seedValue threshold X
        (TileSees ts (tileRectOf ts referenceImage.rect k) mask td)
        (fun q => (Pend q ∨ Covered spans q) ∨ Pending spanCov info q) s.y x1 →
      tileScanOuter ts seedValue k referenceImage.rect (tileRectOf ts referenceImage.rect k)
        threshold s fuel td info spans x1 x2 = .ok (td', info', spans') →
      TileBuf ts referenceImage (tileRectOf ts referenceImage.rect k) td0 td' ∧
        (∀ a ∈ spans', SpanIn (tileRectOf ts referenceImage.rect k) a) ∧
        Front referenceImage X
          (TileSees ts (tileRectOf ts referenceImage.rect k) mask td')
          (fun q => Pend q ∨ Covered spans' q ∨ Pending spanCov info' q) := by
  obtain ⟨s1, s2, s3, s4, s5, s6⟩ := hs
  intro fuel
  induction fuel with
  | zero =>
    intro td info spans x1 x2 td' info' spans' _ _ _ _ _ _ _ _ _ h
    simp [tileScanOuter] at h
  | succ fuel ih =>
    intro td info spans x1 x2 td' info' spans' buf hspans hlo hle hslo hnext front pend
      leftOK h
    unfold tileScanOuter at h
    by_cases hx : x2 ≤ s.x2
    · rw [if_pos hx] at h
      cases hr : tileScanRight ts seedValue k referenceImage.rect
          (tileRectOf ts referenceImage.rect k) threshold s
          ((tileRectOf ts referenceImage.rect k).right + 1 - x2).toNat.succ td info x2 with
      | error e => rw [hr] at h; cases h
      | ok r =>
        obtain ⟨td1, info1, x2'⟩ := r
        rw [hr] at h
        simp only at h
        obtain ⟨buf1, r1, r2, front1, pend1, mono1, imono1, stop1⟩ :=
          tileScanRight_closes mask (fun q => Pend q ∨ Covered spans q)
            hwf hsv hW hH hk ⟨s4, s5⟩ hX hlo _ td info x2 td1 info1 x2' buf hle (by omega)
            (by
              apply front_weaken front
              intro q _ he
              rcases he with he | he | he
              · exact Or.inr (Or.inr (Or.inl he))
              · exact Or.inr (Or.inr (Or.inr (Or.inl he)))
              · refine Or.inr (Or.inr (Or.inr (Or.inr ?_)))
                unfold RowExc at he ⊢
                rcases he with ⟨hy', h' | h'⟩ | h'
                · exact Or.inl ⟨hy', Or.inl h'⟩
                · exact absurd h' id
                · exact Or.inr h')
            pend leftOK hr
        cases hch : (if x2' > x1 then
            tileScanChildren k (tileRectOf ts referenceImage.rect k) s x1 x2' info1 spans
            else (info1, spans)) with
        | mk info2 spans2 =>
          rw [hch] at h
          simp only at h
          -- the stack and the table after the children of the run
          have hchild : (∀ a ∈ spans2, SpanIn (tileRectOf ts referenceImage.rect k) a) ∧
              (∀ q, Covered spans q → Covered spans2 q) ∧
              (∀ q, Pending spanCov info1 q → Pending spanCov info2 q) ∧
              (∀ q, (q.y = s.y + 1 ∨ q.y = s.y - 1) → x1 ≤ q.x → q.x < x2' →
                Covered spans2 q ∨ Pending spanCov info2 q) := by
            by_cases hpush : x2' > x1
            · rw [if_pos hpush] at hch
              have c := tileScanChildren_covers k (tileRectOf ts referenceImage.rect k) s x1
                x2' info1 spans s6 ⟨hlo, hpush, by omega⟩
              rw [hch] at c
              exact ⟨c.2.2.2 hspans, c.1, c.2.1, c.2.2.1⟩
            · rw [if_neg hpush] at hch
              simp only [Prod.mk.injEq] at hch
              obtain ⟨rfl, rfl⟩ := hch
              exact ⟨hspans, fun _ h => h, fun _ h => h, fun q _ h1 h2 => by omega⟩
          obtain ⟨hspans2, cmono, imono2, hrows⟩ := hchild
          cases hsk : tileScanSkip ts seedValue referenceImage.rect
              (tileRectOf ts referenceImage.rect k) threshold td1 s
              (s.x2 - (x2' + 1)).toNat.succ (x2' + 1) with
          | error e => rw [hsk] at h; cases h
          | ok r =>
            rw [hsk] at h
            simp only at h
            obtain ⟨k1, k2⟩ := tileScanSkip_closes mask hwf hsv hW hH hk ⟨s4, s5⟩
              buf1 _ (x2' + 1) r (by omega) hsk
            apply ih td1 info2 spans2 r r td' info' spans' buf1 hspans2 (by omega)
              (le_refl _) (by omega) (fun hlt => absurd hlt (lt_irrefl _)) ?_
              (fun x h1 h2 => by omega) ?_ h
            · apply front_weaken front1
              intro q _ he
              rcases he with (he | he) | he | he
              · exact Or.inr (Or.inr (Or.inl (Or.inl he)))
              · exact Or.inr (Or.inr (Or.inl (Or.inr (cmono q he))))
              · exact Or.inr (Or.inr (Or.inr (Or.inl (imono2 q he))))
              · unfold RowExc at he
                rcases he with ⟨hy', h' | h'⟩ | ⟨hy', h1, h2⟩
                · by_cases hq : q.x < r
                  · have := k2 q.x h'.1 hq
                    rw [← hy'] at this
                    exact Or.inl this
                  · refine Or.inr (Or.inr (Or.inr (Or.inr (Or.inl ⟨hy', Or.inl ⟨?_, h'.2⟩⟩))))
                    omega
                · exact absurd h' id
                · rcases hrows q hy' h1 h2 with h' | h'
                  · exact Or.inr (Or.inr (Or.inl (Or.inr h')))
                  · exact Or.inr (Or.inr (Or.inr (Or.inl h')))
            · intro hin
              by_cases hr1 : r = x2' + 1
              · have hxx : r - 1 = x2' := by omega
                rw [hxx] at hin ⊢
                rcases stop1 hin with h' | h' | h'
                · exact Or.inr (Or.inl h')
                · exact Or.inr (Or.inr (Or.inl h'))
                · exact Or.inr (Or.inr (Or.inr (Or.inr (imono2 _ h'))))
              · exact Or.inr (Or.inl (k2 (r - 1) (by omega) (by omega)))
    · rw [if_neg hx] at h
      simp only [Except.ok.injEq, Prod.mk.injEq] at h
      obtain ⟨rfl, rfl, rfl⟩ := h
      refine ⟨buf, hspans, ?_⟩
      apply front_weaken front
      intro q _ he
      rcases he with (he | he) | he | he
      · exact Or.inr (Or.inr (Or.inl he))
      · exact Or.inr (Or.inr (Or.inr (Or.inl he)))
      · exact Or.inr (Or.inr (Or.inr (Or.inr he)))
      · unfold RowExc at he
        have hx12 : ¬ x1 < x2 := fun hlt => hx (hnext hlt)
        rcases he with ⟨_, h' | h'⟩ | ⟨_, h1, h2⟩
        · omega
        · exact absurd h' id
        · omega

theorem floodFillTileScanLineStep_closes {k : TileId} {mask : QImage}
    {td0 td td' : List TileData} {s : Span} {spans spans' : List Span}
    {info info' : TilePropagationInfoScanLine} {Pend : QPoint → Prop}
    (hwf : referenceImage.WF) (hsv : seedValue < 256) (hW : 1 ≤ ts.width)
    (hH : 1 ≤ ts.height) (hk : InGrid ts referenceImage k)
    (hX : ∀ q, (tileRectOf ts referenceImage.rect k).has q →
      ¬ includable referenceImage seedValue threshold q → X q)
    (buf : TileBuf ts referenceImage (tileRectOf ts referenceImage.rect k) td0 td)
    (hspans : ∀ a ∈ s :: spans, SpanIn (tileRectOf ts referenceImage.rect k) a)
    (front : Front referenceImage X
      (TileSees ts (tileRectOf ts referenceImage.rect k) mask td)
      (fun q => Pend q ∨ Covered (s :: spans) q ∨ Pending spanCov info q))
    (h : floodFillTileScanLineStep ts seedValue k referenceImage.rect
      (tileRectOf ts referenceImage.rect k) threshold td info s spans =
      .ok (td', info', spans')) :
    TileBuf ts referenceImage (tileRectOf ts referenceImage.rect k) td0 td' ∧
      (∀ a ∈ spans', SpanIn (tileRectOf ts referenceImage.rect k) a) ∧
      Front referenceImage X
        (TileSees ts (tileRectOf ts referenceImage.rect k) mask td')
        (fun q => Pend q ∨ Covered spans' q ∨ Pending spanCov info' q) := by
  have hok := tileOK_of_inGrid hk hW hH
  have hin := hspans s (List.mem_cons_self _ _)
  have hspans0 : ∀ a ∈ spans, SpanIn (tileRectOf ts referenceImage.rect k) a :=
    fun a ha => hspans a (List.mem_cons_of_mem _ ha)
  obtain ⟨s1, s2, s3, s4, s5, s6⟩ := hin
  -- the span itself, taken off the stack, is what is pending on its row
  have cover : ∀ q, Covered (s :: spans) q →
      Covered spans q ∨ (q.y = s.y ∧ s.x1 ≤ q.x ∧ q.x ≤ s.x2) := by
    rintro q ⟨a, ha, hc⟩
    rcases List.mem_cons.1 ha with rfl | ha
    · exact Or.inr ⟨hc.1.symm, hc.2.1, hc.2.2⟩
    · exact Or.inl ⟨a, ha, hc⟩
  unfold floodFillTileScanLineStep at h
  have hrow : ¬ (s.y < referenceImage.rect.top ∨ s.y > referenceImage.rect.bottom) := by
    rw [rect_eq]
    simp only
    have := hok.top0
    have := hok.bottomH
    omega
  rw [if_neg hrow] at h
  have hpR : (tileRectOf ts referenceImage.rect k).has ⟨s.x1, s.y⟩ :=
    ⟨s1, by simp only; omega, s4, s5⟩
  obtain ⟨c1, c2, _, c4⟩ := @closure_code ts referenceImage seedValue threshold _ mask td0 td
    hwf hsv hok buf _ hpR
  simp only at c1 c2 c4
  rw [c1] at h
  simp only at h
  by_cases hc : (td.getD ((s.y - (tileRectOf ts referenceImage.rect k).top) *
        (ts.width : Int) + (s.x1 - (tileRectOf ts referenceImage.rect k).left)).toNat
        ⟨0, 0⟩).fillMaskPixel = 0 ∧
      qAbs (td.getD ((s.y - (tileRectOf ts referenceImage.rect k).top) *
        (ts.width : Int) + (s.x1 - (tileRectOf ts referenceImage.rect k).left)).toNat
        ⟨0, 0⟩).referencePixel seedValue < threshold
  · rw [if_pos hc] at h
    cases hl : tileScanLeft ts seedValue k referenceImage.rect
        (tileRectOf ts referenceImage.rect k) threshold s
        (s.x1 - (tileRectOf ts referenceImage.rect k).left).toNat.succ.succ td info s.x1 with
    | error e => rw [hl] at h; cases h
    | ok r =>
      obtain ⟨td1, info1, x1'⟩ := r
      rw [hl] at h
      simp only at h
      obtain ⟨buf1, l1, l2, front1, pend1, mono1, imono1, stop1⟩ :=
        tileScanLeft_closes mask (fun q => Pend q ∨ Covered spans q)
          hwf hsv hW hH hk ⟨s4, s5⟩ hX s2 (by omega) _ td info s.x1 td1 info1 x1' buf s1
          (le_refl _)
          (by
            apply front_weaken front
            intro q _ he
            rcases he with he | he | he
            · exact Or.inr (Or.inr (Or.inl (Or.inl he)))
            · rcases cover q he with h' | h'
              · exact Or.inr (Or.inr (Or.inl (Or.inr h')))
              · exact Or.inr (Or.inr (Or.inr (Or.inr (Or.inl ⟨h'.1, Or.inl h'.2⟩))))
            · exact Or.inr (Or.inr (Or.inr (Or.inl he))))
          (fun x h1 h2 => by omega) hl
      exact tileScanOuter_closes hwf hsv hW hH hk hX ⟨s1, s2, s3, s4, s5, s6⟩ _ td1 info1 spans
        x1' s.x1 td' info' spans' buf1 hspans0 l1 l2 (le_refl _) (fun _ => s2) front1 pend1
        (fun hin => (stop1 hin).elim (fun h' => Or.inr (Or.inl h'))
          (fun h' => h'.elim (fun h'' => Or.inr (Or.inr (Or.inl h'')))
            (fun h'' => Or.inr (Or.inr (Or.inr (Or.inr h''))))))
        h
  · rw [if_neg hc] at h
    simp only at h
    have hdone : TileSees ts (tileRectOf ts referenceImage.rect k) mask td ⟨s.x1, s.y⟩ ∨
        ¬ includable referenceImage seedValue threshold ⟨s.x1, s.y⟩ := by
      by_cases hm : (td.getD ((s.y - (tileRectOf ts referenceImage.rect k).top) *
          (ts.width : Int) + (s.x1 - (tileRectOf ts referenceImage.rect k).left)).toNat
          ⟨0, 0⟩).fillMaskPixel = 0
      · right
        intro hi
        exact hc ⟨hm, c4.2 hi⟩
      · left
        exact c2.1 (by omega)
    exact tileScanOuter_closes hwf hsv hW hH hk hX ⟨s1, s2, s3, s4, s5, s6⟩ _ td info spans
      s.x1 s.x1 td' info' spans' buf hspans0 s1 (le_refl _) (le_refl _)
      (fun hlt => absurd hlt (lt_irrefl _))
      (by
        apply front_weaken front
        intro q _ he
        rcases he with he | he | he
        · exact Or.inr (Or.inr (Or.inl (Or.inl he)))
        · rcases cover q he with h' | h'
          · exact Or.inr (Or.inr (Or.inl (Or.inr h')))
          · exact Or.inr (Or.inr (Or.inr (Or.inr (Or.inl ⟨h'.1, Or.inl h'.2⟩))))
        · exact Or.inr (Or.inr (Or.inr (Or.inl he))))
      (fun x h1 h2 => by omega) (fun _ => Or.inl hdone) h

theorem floodFillTileScanLineLoop_closes {k : TileId} {mask : QImage} {td0 : List TileData}
    (Pend : QPoint → Prop)
    (hwf : referenceImage.WF) (hsv : seedValue < 256) (hW : 1 ≤ ts.width)
    (hH : 1 ≤ ts.height) (hk : InGrid ts referenceImage k)
    (hX : ∀ q, (tileRectOf ts referenceImage.rect k).has q →
      ¬ includable referenceImage seedValue threshold q → X q) :
    ∀ (fuel : Nat) (td : List TileData) (info : TilePropagationInfoScanLine)
      (spans : List Span) (td' : List TileData) (info' : TilePropagationInfoScanLine),
      TileBuf ts referenceImage (tileRectOf ts referenceImage.rect k) td0 td →
      (∀ a ∈ spans, SpanIn (tileRectOf ts referenceImage.rect k) a) →
      Front referenceImage X
        (TileSees ts (tileRectOf ts referenceImage.rect k) mask td)
        (fun q => Pend q ∨ Covered spans q ∨ Pending spanCov info q) →
      floodFillTileScanLineLoop ts seedValue k referenceImage.rect
        (tileRectOf ts referenceImage.rect k) threshold fuel td info spans =
        .ok (td', info') →
      TileBuf ts referenceImage (tileRectOf ts referenceImage.rect k) td0 td' ∧
        Front referenceImage X
          (TileSees ts (tileRectOf ts referenceImage.rect k) mask td')
          (fun q => Pend q ∨ Pending spanCov info' q) := by
  intro fuel
  have done : ∀ (td : List TileData) (info : TilePropagationInfoScanLine),
      Front referenceImage X
        (TileSees ts (tileRectOf ts referenceImage.rect k) mask td)
        (fun q => Pend q ∨ Covered ([] : List Span) q ∨ Pending spanCov info q) →
      Front referenceImage X
        (TileSees ts (tileRectOf ts referenceImage.rect k) mask td)
        (fun q => Pend q ∨ Pending spanCov info q) := by
    intro td info hf
    apply front_weaken hf
    intro q _ hq
    rcases hq with hq | ⟨a, ha, _⟩ | hq
    · exact Or.inr (Or.inr (Or.inl hq))
    · simp at ha
    · exact Or.inr (Or.inr (Or.inr hq))
  induction fuel with
  | zero =>
    intro td info spans td' info' buf hn hf h
    cases spans with
    | nil =>
      simp only [floodFillTileScanLineLoop, Except.ok.injEq, Prod.mk.injEq] at h
      obtain ⟨rfl, rfl⟩ := h
      exact ⟨buf, done _ _ hf⟩
    | cons p spans => simp [floodFillTileScanLineLoop] at h
  | succ fuel ih =>
    intro td info spans td' info' buf hn hf h
    cases spans with
    | nil =>
      simp only [floodFillTileScanLineLoop, Except.ok.injEq, Prod.mk.injEq] at h
      obtain ⟨rfl, rfl⟩ := h
      exact ⟨buf, done _ _ hf⟩
    | cons p spans =>
      simp only [floodFillTileScanLineLoop] at h
      cases hstep : floodFillTileScanLineStep ts seedValue k referenceImage.rect
          (tileRectOf ts referenceImage.rect k) threshold td info p spans with
      | error e => rw [hstep] at h; cases h
      | ok r =>
        obtain ⟨td1, info1, spans1⟩ := r
        rw [hstep] at h
        simp only at h
        obtain ⟨buf1, hn1, hf1⟩ :=
          floodFillTileScanLineStep_closes hwf hsv hW hH hk hX buf hn hf hstep
        exact ih td1 info1 spans1 td' info' buf1 hn1 hf1 h

/-- A call of `floodFillTileScanLine` for a tile of the grid with seed spans inside the tile
keeps the marked pixels closed: the pixels of the seed spans are settled, and what is
pending after the call are the pixels of the spans that the call has filed for tiles of the
grid. -/
theorem floodFillTileScanLine_closes {k : TileId} {mask mask' : QImage}
    {seeds : SeedSpanList} {info : TilePropagationInfoScanLine}
    (hwf : referenceImage.WF) (hsv : seedValue < 256) (hW : 1 ≤ ts.width)
    (hH : 1 ≤ ts.height) (hk : InGrid ts referenceImage k)
    (hg : SameGeometry referenceImage mask)
    (hX : ∀ q, (tileRectOf ts referenceImage.rect k).has q →
      ¬ includable referenceImage seedValue threshold q → X q)
    (hseeds : ∀ s ∈ seeds, SpanIn (tileRectOf ts referenceImage.rect k) s)
    (h : floodFillTileScanLine ts referenceImage mask seeds seedValue k referenceImage.rect
      (tileRectOf ts referenceImage.rect k) threshold = .ok (mask', info)) :
    TileCloses referenceImage X (tileGridSizeOf ts referenceImage.rect)
      spanCov mask seeds mask' info := by
  have hemit := okOr_ok (@floodFillTileScanLine_emits ts referenceImage seedValue threshold k
    mask seeds hW hH hk hseeds) h
  simp only at hemit
  intro Pend front
  unfold floodFillTileScanLine at h
  cases h1 : copyReference ts referenceImage (tileRectOf ts referenceImage.rect k)
      (newTileData ts) with
  | error e => rw [h1] at h; cases h
  | ok td1 =>
    rw [h1] at h
    simp only at h
    cases h2 : copyFillMask ts mask (tileRectOf ts referenceImage.rect k) td1 with
    | error e => rw [h2] at h; cases h
    | ok td0 =>
      rw [h2] at h
      simp only at h
      cases h3 : floodFillTileScanLineLoop ts seedValue k referenceImage.rect
          (tileRectOf ts referenceImage.rect k) threshold
          (seeds.length + 2 * (ts.width * ts.height) + 1) td0 [] seeds.reverse with
      | error e => rw [h3] at h; cases h
      | ok r =>
        obtain ⟨td', info'⟩ := r
        rw [h3] at h
        simp only at h
        cases h4 : writeBack ts mask (tileRectOf ts referenceImage.rect k) td' with
        | error e => rw [h4] at h; cases h
        | ok m =>
          rw [h4] at h
          simp only [Except.ok.injEq, Prod.mk.injEq] at h
          obtain ⟨rfl, rfl⟩ := h
          obtain ⟨buf0, hsees0⟩ := copyIn_buf mask hW hH hk h1 h2
          have front0 : Front referenceImage X
              (TileSees ts (tileRectOf ts referenceImage.rect k) mask td0)
              (fun q => Pend q ∨ Covered seeds.reverse q ∨
                Pending spanCov ([] : TilePropagationInfoScanLine) q) := by
            apply front_weaken (front_congr front (fun p _ => (hsees0 p).symm))
            intro q _ hq
            rcases hq with hq | ⟨a, ha, hc⟩
            · exact Or.inr (Or.inr (Or.inl hq))
            · exact Or.inr (Or.inr (Or.inr (Or.inl ⟨a, List.mem_reverse.2 ha, hc⟩)))
          obtain ⟨buf', front'⟩ := floodFillTileScanLineLoop_closes Pend hwf hsv hW
            hH hk hX _ td0 _ seeds.reverse td' info' buf0
            (fun n hn => hseeds n (List.mem_reverse.1 hn)) front0 h3
          have hsees' := writeBack_sees hW hH hwf.2.1 hk hg h2 buf' h4
          apply front_weaken (front_congr front' hsees')
          intro q hq hp
          rcases hp with hp | ⟨e, he, a, ha, hc⟩
          · exact Or.inr (Or.inr (Or.inl hp))
          · refine Or.inr (Or.inr (Or.inr ⟨e, he, ?_, a, ha, hc⟩))
            obtain ⟨_, _, _, hrow, _⟩ := emittedSpan_global hW hH hk (hemit e he a ha)
            apply (inGrid_iff_inFilter hW hH e.1).1
            apply hrow.2
            obtain ⟨_, _, q3, q4⟩ := hq
            rw [rect_eq]
            simp only
            have := hc.1
            omega

/-- The run of `floodFillScanLineMT` under a valid schedule, on a seed inside the image,
leaves a buffer or returns the mask of the finished fill. -/
theorem floodFillScanLineMTOrd_spec {seedPoint : QPoint} {sched : Schedule Span}
    (hv : sched.Valid) (hwf : referenceImage.WF) (ht : threshold ≤ 255)
    (hW : 1 ≤ ts.width) (hH : 1 ≤ ts.height) (hin : referenceImage.inImage seedPoint) :
    OkOr (floodFillScanLineMTOrd sched ts referenceImage seedPoint threshold)
      (FillResult referenceImage seedPoint threshold) := by
  unfold floodFillScanLineMTOrd
  obtain ⟨r0, r1⟩ := ref_offset_range hwf hin
  simp only [(contains_rect referenceImage seedPoint).2 hin, Bool.not_true, Bool.false_eq_true,
    if_false, getPixel_eq r0 r1]
  obtain ⟨hk, hhas⟩ := @home_tile ts referenceImage seedPoint hW hH hin
  have hg0 := blank_geometry referenceImage
  have hs0 : MaskSound referenceImage seedPoint threshold referenceImage.blank :=
    fun i hi => absurd (blank_getD _ i) hi
  have := @runRoundsOrd_spec _ referenceImage seedPoint threshold
    (fun q => ¬ includable referenceImage (referenceImage.pix seedPoint) threshold q)
    (SpanSeedOK ts referenceImage seedPoint threshold)
    (SpanDone referenceImage seedPoint threshold) spanCov
    (fun fillMaskImage tileId seedSpans =>
      floodFillTileScanLine ts referenceImage fillMaskImage seedSpans
        (referenceImage.pix seedPoint) tileId referenceImage.rect
        (tileRectOf ts referenceImage.rect tileId) threshold)
    (tileGridSizeOf ts referenceImage.rect) sched hv
    (fun m m' k a _ h => h)
    (fun m m' a hm h => done_mono hm h)
    (fun mask k seeds hg hs hf hne hseeds =>
      floodFillTileScanLine_spec hwf ht hW hH ((inGrid_iff_inFilter hW hH k).2 hf) hg hs
        hseeds)
    (fun mask k seeds mask' info hg hs hf hne hseeds h =>
      floodFillTileScanLine_closes hwf (pix_lt_256 hwf seedPoint) hW hH
        ((inGrid_iff_inFilter hW hH k).2 hf) hg (fun _ _ hn => hn)
        (fun s hs' => (hseeds s hs' ((inGrid_iff_inFilter hW hH k).2 hf)).1) h)
    (referenceImage.bytesPerLine * referenceImage.height + 1) referenceImage.blank
    [(⟨seedPoint.x.tdiv ts.width, seedPoint.y.tdiv ts.height⟩,
      [⟨seedPoint.x, seedPoint.x, seedPoint.y, 1⟩])] hg0 hs0
    (by
      intro e he
      rw [List.mem_singleton.1 he]
      refine ⟨(inGrid_iff_inFilter hW hH _).1 hk, by simp, ?_⟩
      intro a ha
      rw [List.mem_singleton.1 ha]
      intro _
      obtain ⟨a1, a2, a3, a4⟩ := hhas
      refine ⟨⟨a1, le_refl _, a2, a3, a4, Or.inl rfl⟩, ?_,
        ⟨seedPoint.x, le_refl _, le_refl _, Or.inl rfl⟩⟩
      intro x h1 h2 hi
      simp only at h1 h2
      have hx : x = seedPoint.x := by omega
      subst hx
      exact Connected.seed hin hi)
    (by
      intro _
      rw [blank_zeros]
      omega)
    (blank_front _ _ _)
  rcases this with h | ⟨mask, h, g, s, _, d, c⟩
  · exact Or.inl h
  · exact Or.inr ⟨mask, h, closed_fillResult g s
      (d _ (List.mem_singleton.2 rfl) _ (List.mem_singleton.2 rfl)) c⟩

end ScanCloseLoop

end FloodFill

namespace FloodFill

/-! ## The tile-parallel fills under a schedule and the serial fill -/

section Orders

variable {referenceImage : QImage} {seedPoint : QPoint} {threshold : Nat}

theorem floodFillMTOrd_listOrder (ts : QSize) (referenceImage : QImage) (seedPoint : QPoint)
    (threshold : Nat) :
    floodFillMTOrd (Schedule.listOrder QPoint) ts referenceImage seedPoint threshold =
      floodFillMTWith ts referenceImage seedPoint threshold := by
  unfold floodFillMTOrd floodFillMTWith
  simp only [runRoundsOrd_listOrder]

theorem floodFillScanLineMTOrd_listOrder (ts : QSize) (referenceImage : QImage)
    (seedPoint : QPoint) (threshold : Nat) :
    floodFillScanLineMTOrd (Schedule.listOrder Span) ts referenceImage seedPoint threshold =
      floodFillScanLineMTWith ts referenceImage seedPoint threshold := by
  unfold floodFillScanLineMTOrd floodFillScanLineMTWith
  simp only [runRoundsOrd_listOrder]

/-- Under every valid schedule the run of `floodFillMT` leaves a buffer or returns the mask
that `floodFill` returns. -/
theorem floodFillMTOrd_serial {ts : QSize} {sched : Schedule QPoint} (hv : sched.Valid)
    (hwf : referenceImage.WF) (ht : threshold ≤ 255) (hW : 1 ≤ ts.width)
    (hH : 1 ≤ ts.height) :
    OkOr (floodFillMTOrd sched ts referenceImage seedPoint threshold)
      (fun mask => floodFill referenceImage seedPoint threshold = .ok mask) := by
  by_cases hin : referenceImage.inImage seedPoint
  · obtain ⟨m, hm, rm⟩ := floodFill_result hwf ht hin
    apply okOr_mono (floodFillMTOrd_spec hv hwf ht hW hH hin)
    intro mask r
    rw [hm, FillResult.unique hwf.2.1 r rm]
  · obtain ⟨o1, _⟩ := outside_blank referenceImage seedPoint threshold hin
    have hc : referenceImage.rect.contains seedPoint = false := by
      cases h : referenceImage.rect.contains seedPoint with
      | false => rfl
      | true => exact absurd ((contains_rect _ _).1 h) hin
    refine Or.inr ⟨referenceImage.blank, ?_, o1⟩
    unfold floodFillMTOrd
    simp [hc]

/-- Under every valid schedule the run of `floodFillScanLineMT` leaves a buffer or returns
the mask that `floodFill` returns. -/
theorem floodFillScanLineMTOrd_serial {ts : QSize} {sched : Schedule Span} (hv : sched.Valid)
    (hwf : referenceImage.WF) (ht : threshold ≤ 255) (hW : 1 ≤ ts.width)
    (hH : 1 ≤ ts.height) :
    OkOr (floodFillScanLineMTOrd sched ts referenceImage seedPoint threshold)
      (fun mask => floodFill referenceImage seedPoint threshold = .ok mask) := by
  by_cases hin : referenceImage.inImage seedPoint
  · obtain ⟨m, hm, rm⟩ := floodFill_result hwf ht hin
    apply okOr_mono (floodFillScanLineMTOrd_spec hv hwf ht hW hH hin)
    intro mask r
    rw [hm, FillResult.unique hwf.2.1 r rm]
  · obtain ⟨o1, _⟩ := outside_blank referenceImage seedPoint threshold hin
    have hc : referenceImage.rect.contains seedPoint = false := by
      cases h : referenceImage.rect.contains seedPoint with
      | false => rfl
      | true => exact absurd ((contains_rect _ _).1 h) hin
    refine Or.inr ⟨referenceImage.blank, ?_, o1⟩
    unfold floodFillScanLineMTOrd
    simp [hc]

theorem same_of_serial {r r' s : Except Fault QImage}
    (h : OkOr r (fun mask => s = .ok mask)) (h' : OkOr r' (fun mask => s = .ok mask))
    {mask mask' : QImage} (hr : r = .ok mask) (hr' : r' = .ok mask') : mask = mask' := by
  have a := okOr_ok h hr
  have b := okOr_ok h' hr'
  simp only at a b
  rw [a] at b
  exact Except.ok.inj b

/-- The two tiles of a 128×1 image, walked backwards: the runs return the mask of the
serial fill. -/
theorem two_tile_row_backwards :
    floodFillMTOrd (Schedule.backwards QPoint) tileSize ⟨128, 1, 128, List.replicate 128 7⟩
        ⟨100, 0⟩ 1 = .ok ⟨128, 1, 128, List.replicate 128 255⟩ ∧
    floodFillScanLineMTOrd (Schedule.backwards Span) tileSizeScanLine
        ⟨128, 1, 128, List.replicate 128 7⟩ ⟨100, 0⟩ 1 =
      .ok ⟨128, 1, 128, List.replicate 128 255⟩ := by
  refine ⟨?_, ?_⟩ <;> decide!

end Orders

end FloodFill

namespace FloodFill

/-! ## When a call of a tile worker returns -/

section Fits

variable {ts : QSize} {referenceImage : QImage} {originalSeedValue threshold : Nat}

theorem foldlM_total {σ α : Type} (f : σ → α → Except Fault σ) (Inv : σ → Prop) :
    ∀ (l : List α), (∀ s a, a ∈ l → Inv s → ∃ s', f s a = .ok s' ∧ Inv s') →
      ∀ s, Inv s → ∃ s', l.foldlM f s = .ok s' ∧ Inv s' := by
  intro l
  induction l with
  | nil =>
    intro _ s hs
    exact ⟨s, rfl, hs⟩
  | cons a l ih =>
    intro hstep s hs
    obtain ⟨s1, h1, i1⟩ := hstep s a (List.mem_cons_self _ _) hs
    obtain ⟨s2, h2, i2⟩ := ih (fun s a ha hi => hstep s a (List.mem_cons_of_mem _ ha) hi) s1 i1
    refine ⟨s2, ?_, i2⟩
    rw [List.foldlM_cons, h1]
    exact h2

/-- A copy loop that ends has stayed in the buffer. -/
theorem copyReference_fits {tileRect : QRect} {td td' : List TileData}
    (hwf : referenceImage.WF)
    (h : copyReference ts referenceImage tileRect td = .ok td') :
    TileFits ts referenceImage tileRect := by
  unfold copyReference at h
  have key := foldlM_ok_induction _ _
    (fun (done : List (Int × Int)) (_ : List TileData) =>
      ∀ c ∈ done, 0 ≤ referenceImage.offset ⟨tileRect.left + c.2, c.1⟩ ∧
        referenceImage.offset ⟨tileRect.left + c.2, c.1⟩ <
          ((referenceImage.bytesPerLine * referenceImage.height : Nat) : Int))
    _ (tileCells_pairwise ts tileRect) _ _ (fun c hc => by simp at hc) ?_ h
  · exact key
  · intro done a s s1 hinv _ _ hf c hc
    rcases List.mem_append.1 hc with hc | hc
    · exact hinv c hc
    · rw [List.mem_singleton.1 hc]
      simp only at hf
      cases hg : getPixel referenceImage ⟨tileRect.left + a.2, a.1⟩ with
      | error e => rw [hg] at hf; cases hf
      | ok v =>
        obtain ⟨g0, g1, _⟩ := getPixel_ok hg
        rw [hwf.1] at g1
        exact ⟨g0, g1⟩

theorem copyReference_total {tileRect : QRect} (td : List TileData)
    (hok : TileOK ts referenceImage tileRect) (hwf : referenceImage.WF)
    (hlen : td.length = ts.width * ts.height)
    (hfit : TileFits ts referenceImage tileRect) :
    ∃ td', copyReference ts referenceImage tileRect td = .ok td' := by
  unfold copyReference
  have htb := hok.topBottom
  obtain ⟨td', h, _⟩ := foldlM_total
    (fun tileData (c : Int × Int) =>
      match getPixel referenceImage ⟨tileRect.left + c.2, c.1⟩ with
      | .error e => .error e
      | .ok v => tileSetReference tileData ((c.1 - tileRect.top) * ts.width + c.2) v)
    (fun td => td.length = ts.width * ts.height) (tileCells ts tileRect)
    (by
      intro s a ha hs
      obtain ⟨f0, f1⟩ := hfit a ha
      rw [← hwf.1] at f1
      obtain ⟨a1, a2, a3, a4⟩ := (mem_tileCells (by omega)).1 ha
      obtain ⟨r0, r1⟩ := cell_index_range (W := (ts.width : Int)) (H := (ts.height : Int))
        a1 a2 hok.rows a3 a4
      simp only
      rw [getPixel_eq f0 f1]
      simp only
      unfold tileSetReference
      rw [if_pos ⟨r0, by rw [hs]; push_cast; exact r1⟩]
      exact ⟨_, rfl, by rw [List.length_set]; exact hs⟩)
    td hlen
  exact ⟨td', h⟩

theorem copyFillMask_total {tileRect : QRect} (mask : QImage) (td : List TileData)
    (hok : TileOK ts referenceImage tileRect) (hg : SameGeometry referenceImage mask)
    (hlen : td.length = ts.width * ts.height)
    (hfit : TileFits ts referenceImage tileRect) :
    ∃ td', copyFillMask ts mask tileRect td = .ok td' := by
  unfold copyFillMask
  have htb := hok.topBottom
  obtain ⟨td', h, _⟩ := foldlM_total
    (fun tileData (c : Int × Int) =>
      match getPixel mask ⟨tileRect.left + c.2, c.1⟩ with
      | .error e => .error e
      | .ok v => tileSetFillMask tileData ((c.1 - tileRect.top) * ts.width + c.2) v)
    (fun td => td.length = ts.width * ts.height) (tileCells ts tileRect)
    (by
      intro s a ha hs
      obtain ⟨f0, f1⟩ := hfit a ha
      rw [← hg.2.2.2, ← offset_geometry hg.2.2.1] at f1
      rw [← offset_geometry hg.2.2.1] at f0
      obtain ⟨a1, a2, a3, a4⟩ := (mem_tileCells (by omega)).1 ha
      obtain ⟨r0, r1⟩ := cell_index_range (W := (ts.width : Int)) (H := (ts.height : Int))
        a1 a2 hok.rows a3 a4
      simp only
      rw [getPixel_eq f0 f1]
      simp only
      unfold tileSetFillMask
      rw [if_pos ⟨r0, by rw [hs]; push_cast; exact r1⟩]
      exact ⟨_, rfl, by rw [List.length_set]; exact hs⟩)
    td hlen
  exact ⟨td', h⟩

theorem writeBack_total {tileRect : QRect} (mask : QImage) (td : List TileData)
    (hok : TileOK ts referenceImage tileRect) (hg : SameGeometry referenceImage mask)
    (hlen : td.length = ts.width * ts.height)
    (hfit : TileFits ts referenceImage tileRect) :
    ∃ mask', writeBack ts mask tileRect td = .ok mask' := by
  unfold writeBack
  have htb := hok.topBottom
  obtain ⟨m', h, _⟩ := foldlM_total
    (fun fillMaskImage (c : Int × Int) =>
      match tileAt td ((c.1 - tileRect.top) * ts.width + c.2) with
      | .error e => .error e
      | .ok t => setPixel fillMaskImage ⟨tileRect.left + c.2, c.1⟩ t.fillMaskPixel)
    (fun m => SameGeometry referenceImage m) (tileCells ts tileRect)
    (by
      intro s a ha hs
      obtain ⟨f0, f1⟩ := hfit a ha
      rw [← hs.2.2.2, ← offset_geometry hs.2.2.1] at f1
      rw [← offset_geometry hs.2.2.1] at f0
      obtain ⟨a1, a2, a3, a4⟩ := (mem_tileCells (by omega)).1 ha
      obtain ⟨r0, r1⟩ := cell_index_range (W := (ts.width : Int)) (H := (ts.height : Int))
        a1 a2 hok.rows a3 a4
      simp only
      rw [tileAt_eq r0 (by rw [hlen]; push_cast; exact r1)]
      simp only
      rw [setPixel_eq _ f0 f1]
      exact ⟨_, rfl, mark_geometry hs _ _⟩)
    mask hg
  exact ⟨m', h⟩

/-- A call of `floodFillTile` for a tile of the grid whose loops stay in the buffer, with
seeds inside the tile, returns. -/
theorem floodFillTile_returns {k : TileId} {mask : QImage} {seeds : SeedPointList}
    (hwf : referenceImage.WF) (hW : 1 ≤ ts.width) (hH : 1 ≤ ts.height)
    (hk : InGrid ts referenceImage k) (hg : SameGeometry referenceImage mask)
    (hseeds : ∀ s ∈ seeds, (tileRectOf ts referenceImage.rect k).has s)
    (hfit : TileFits ts referenceImage (tileRectOf ts referenceImage.rect k)) :
    ∃ r, floodFillTile ts referenceImage mask seeds originalSeedValue k referenceImage.rect
      (tileRectOf ts referenceImage.rect k) threshold = .ok r := by
  have hok := tileOK_of_inGrid hk hW hH
  unfold floodFillTile
  simp only
  obtain ⟨td1, h1⟩ := copyReference_total (newTileData ts) hok hwf
    (by unfold newTileData; simp) hfit
  rw [h1]
  simp only
  obtain ⟨l1, _, _⟩ := copyReference_spec hok h1
  obtain ⟨td0, h2⟩ := copyFillMask_total mask td1 hok hg
    (by rw [l1]; unfold newTileData; simp) hfit
  rw [h2]
  simp only
  obtain ⟨l2, _, _⟩ := copyFillMask_spec hok h2
  have hlen : td0.length = ts.width * ts.height := by
    rw [l2, l1]; unfold newTileData; simp
  have inv0 : TileLight ts referenceImage k td0 td0 seeds.reverse
      [(⟨k.x - 1, k.y⟩, []), (⟨k.x + 1, k.y⟩, []), (⟨k.x, k.y - 1⟩, []),
        (⟨k.x, k.y + 1⟩, [])] := by
    refine ⟨hlen, TileMarked.refl _, fun _ _ => rfl,
      fun n hn => hseeds n (List.mem_reverse.1 hn), ?_⟩
    intro e he q hq
    simp only [List.mem_cons, List.mem_singleton, List.not_mem_nil, or_false] at he
    rcases he with rfl | rfl | rfl | rfl <;> simp at hq
  obtain ⟨td', info', hloop, inv'⟩ :=
    @floodFillTileLoop_light ts referenceImage originalSeedValue threshold k td0 hW hH hk
      (seeds.length + 4 * (ts.width * ts.height) + 1) td0 seeds.reverse _ inv0 (by
        have := tileZeros_le td0
        rw [hlen] at this
        simp only [List.length_reverse]
        omega)
  rw [hloop]
  simp only
  obtain ⟨m', h3⟩ := writeBack_total mask td' hok hg inv'.len hfit
  rw [h3]
  exact ⟨_, rfl⟩

/-- A call of `floodFillTileScanLine` for a tile of the grid whose loops stay in the buffer,
with seed spans inside the tile, returns. -/
theorem floodFillTileScanLine_returns {k : TileId} {mask : QImage} {seeds : SeedSpanList}
    (hwf : referenceImage.WF) (hW : 1 ≤ ts.width) (hH : 1 ≤ ts.height)
    (hk : InGrid ts referenceImage k) (hg : SameGeometry referenceImage mask)
    (hseeds : ∀ s ∈ seeds, SpanIn (tileRectOf ts referenceImage.rect k) s)
    (hfit : TileFits ts referenceImage (tileRectOf ts referenceImage.rect k)) :
    ∃ r, floodFillTileScanLine ts referenceImage mask seeds originalSeedValue k
      referenceImage.rect (tileRectOf ts referenceImage.rect k) threshold = .ok r := by
  have hok := tileOK_of_inGrid hk hW hH
  unfold floodFillTileScanLine
  obtain ⟨td1, h1⟩ := copyReference_total (newTileData ts) hok hwf
    (by unfold newTileData; simp) hfit
  rw [h1]
  simp only
  obtain ⟨l1, _, _⟩ := copyReference_spec hok h1
  obtain ⟨td0, h2⟩ := copyFillMask_total mask td1 hok hg
    (by rw [l1]; unfold newTileData; simp) hfit
  rw [h2]
  simp only
  obtain ⟨l2, _, _⟩ := copyFillMask_spec hok h2
  have hlen : td0.length = ts.width * ts.height := by
    rw [l2, l1]; unfold newTileData; simp
  have inv0 : ScanLight ts referenceImage k td0 td0 seeds.reverse [] :=
    ⟨hlen, TileMarked.refl _, fun s hs => hseeds s (List.mem_reverse.1 hs),
      fun e he => by simp at he⟩
  obtain ⟨td', info', hloop, inv'⟩ :=
    @floodFillTileScanLineLoop_light ts referenceImage originalSeedValue threshold k td0
      hW hH hk (seeds.length + 2 * (ts.width * ts.height) + 1) td0 seeds.reverse _ inv0 (by
        have := tileZeros_le td0
        rw [hlen] at this
        simp only [List.length_reverse]
        omega)
  rw [hloop]
  simp only
  obtain ⟨m', h3⟩ := writeBack_total mask td' hok hg inv'.len hfit
  rw [h3]
  exact ⟨_, rfl⟩

/-- A call of `floodFillTile` that returns has stayed in the buffer. -/
theorem floodFillTile_fits {mask mask' : QImage} {seeds : SeedPointList} {k : TileId}
    {globalRect tileRect : QRect} {info : TilePropagationInfo} (hwf : referenceImage.WF)
    (h : floodFillTile ts referenceImage mask seeds originalSeedValue k globalRect tileRect
      threshold = .ok (mask', info)) :
    TileFits ts referenceImage tileRect := by
  unfold floodFillTile at h
  simp only at h
  cases h1 : copyReference ts referenceImage tileRect (newTileData ts) with
  | error e => rw [h1] at h; cases h
  | ok td1 => exact copyReference_fits hwf h1

/-- A call of `floodFillTileScanLine` that returns has stayed in the buffer. -/
theorem floodFillTileScanLine_fits {mask mask' : QImage} {seeds : SeedSpanList} {k : TileId}
    {globalRect tileRect : QRect} {info : TilePropagationInfoScanLine}
    (hwf : referenceImage.WF)
    (h : floodFillTileScanLine ts referenceImage mask seeds originalSeedValue k globalRect
      tileRect threshold = .ok (mask', info)) :
    TileFits ts referenceImage tileRect := by
  unfold floodFillTileScanLine at h
  cases h1 : copyReference ts referenceImage tileRect (newTileData ts) with
  | error e => rw [h1] at h; cases h
  | ok td1 => exact copyReference_fits hwf h1

end Fits

end FloodFill

namespace FloodFill

/-! ## The rounds under a schedule: what every call keeps, and when the run returns -/

section RoundsFit

variable {α : Type} {referenceImage : QImage} {seedPoint : QPoint} {threshold : Nat}
  {SeedOK : QImage → TileId → α → Prop} {SeedDone : QImage → α → Prop}
  {tile : QImage → TileId → List α → Except Fault (QImage × List (TileId × List α))}
  {tileGridSize : QSize}

/-- A property of the mask that every call of the tile worker keeps is kept by a round. -/
theorem runRound_inv {I : QImage → Prop}
    (hOK : ∀ m m' k a, (∀ q, m.pix q ≠ 0 → m'.pix q ≠ 0) → SeedOK m k a → SeedOK m' k a)
    (htile : ∀ mask k seeds, SameGeometry referenceImage mask →
      MaskSound referenceImage seedPoint threshold mask → InFilter tileGridSize k →
      seeds ≠ [] → (∀ a ∈ seeds, SeedOK mask k a) →
      OkOr (tile mask k seeds) (fun r =>
        TilePost referenceImage seedPoint threshold SeedOK SeedDone mask seeds r.1 r.2))
    (hI : ∀ mask k seeds mask' info, SameGeometry referenceImage mask →
      MaskSound referenceImage seedPoint threshold mask → InFilter tileGridSize k →
      seeds ≠ [] → (∀ a ∈ seeds, SeedOK mask k a) → tile mask k seeds = .ok (mask', info) →
      I mask → I mask') :
    ∀ (queue : List (TileId × List α)) (mask mask' : QImage)
      (results : List (List (TileId × List α))),
      SameGeometry referenceImage mask →
      MaskSound referenceImage seedPoint threshold mask →
      (∀ e ∈ queue, InFilter tileGridSize e.1 ∧ e.2 ≠ [] ∧ ∀ a ∈ e.2, SeedOK mask e.1 a) →
      runRound tile mask queue = .ok (mask', results) → I mask → I mask' := by
  intro queue
  induction queue with
  | nil =>
    intro mask mask' results _ _ _ h hi
    simp only [runRound, Except.ok.injEq, Prod.mk.injEq] at h
    obtain ⟨rfl, rfl⟩ := h
    exact hi
  | cons entry rest ih =>
    intro mask mask' results hg hs hq h hi
    obtain ⟨k, seeds⟩ := entry
    have hk := hq (k, seeds) (List.mem_cons_self _ _)
    unfold runRound at h
    cases h1 : tile mask k seeds with
    | error e => rw [h1] at h; cases h
    | ok r1 =>
      obtain ⟨mask1, info1⟩ := r1
      rw [h1] at h
      simp only at h
      have post1 := okOr_ok (htile mask k seeds hg hs hk.1 hk.2.1 hk.2.2) h1
      simp only at post1
      have i1 := hI mask k seeds mask1 info1 hg hs hk.1 hk.2.1 hk.2.2 h1 hi
      have hq' : ∀ e ∈ rest, InFilter tileGridSize e.1 ∧ e.2 ≠ [] ∧
          ∀ a ∈ e.2, SeedOK mask1 e.1 a := fun e he =>
        ⟨(hq e (List.mem_cons_of_mem _ he)).1, (hq e (List.mem_cons_of_mem _ he)).2.1,
          fun a ha =>
            hOK mask mask1 e.1 a post1.mono ((hq e (List.mem_cons_of_mem _ he)).2.2 a ha)⟩
      cases h2 : runRound tile mask1 rest with
      | error e => rw [h2] at h; cases h
      | ok r2 =>
        obtain ⟨mask2, results2⟩ := r2
        rw [h2] at h
        simp only [Except.ok.injEq, Prod.mk.injEq] at h
        obtain ⟨rfl, rfl⟩ := h
        exact ih mask1 mask2 results2 post1.geometry post1.sound hq' h2 i1

/-- A round whose calls all return, returns. -/
theorem runRound_returns
    (hOK : ∀ m m' k a, (∀ q, m.pix q ≠ 0 → m'.pix q ≠ 0) → SeedOK m k a → SeedOK m' k a)
    (htile : ∀ mask k seeds, SameGeometry referenceImage mask →
      MaskSound referenceImage seedPoint threshold mask → InFilter tileGridSize k →
      seeds ≠ [] → (∀ a ∈ seeds, SeedOK mask k a) →
      OkOr (tile mask k seeds) (fun r =>
        TilePost referenceImage seedPoint threshold SeedOK SeedDone mask seeds r.1 r.2))
    (hret : ∀ mask k seeds, SameGeometry referenceImage mask →
      MaskSound referenceImage seedPoint threshold mask → InFilter tileGridSize k →
      seeds ≠ [] → (∀ a ∈ seeds, SeedOK mask k a) → ∃ r, tile mask k seeds = .ok r) :
    ∀ (queue : List (TileId × List α)) (mask : QImage),
      SameGeometry referenceImage mask →
      MaskSound referenceImage seedPoint threshold mask →
      (∀ e ∈ queue, InFilter tileGridSize e.1 ∧ e.2 ≠ [] ∧ ∀ a ∈ e.2, SeedOK mask e.1 a) →
      ∃ r, runRound tile mask queue = .ok r := by
  intro queue
  induction queue with
  | nil =>
    intro mask _ _ _
    exact ⟨(mask, []), rfl⟩
  | cons entry rest ih =>
    intro mask hg hs hq
    obtain ⟨k, seeds⟩ := entry
    have hk := hq (k, seeds) (List.mem_cons_self _ _)
    obtain ⟨⟨mask1, info1⟩, h1⟩ := hret mask k seeds hg hs hk.1 hk.2.1 hk.2.2
    have post1 := okOr_ok (htile mask k seeds hg hs hk.1 hk.2.1 hk.2.2) h1
    simp only at post1
    have hq' : ∀ e ∈ rest, InFilter tileGridSize e.1 ∧ e.2 ≠ [] ∧
        ∀ a ∈ e.2, SeedOK mask1 e.1 a := fun e he =>
      ⟨(hq e (List.mem_cons_of_mem _ he)).1, (hq e (List.mem_cons_of_mem _ he)).2.1,
        fun a ha =>
          hOK mask mask1 e.1 a post1.mono ((hq e (List.mem_cons_of_mem _ he)).2.2 a ha)⟩
    obtain ⟨⟨mask2, results2⟩, h2⟩ := ih mask1 post1.geometry post1.sound hq'
    unfold runRound
    rw [h1]
    simp only
    rw [h2]
    exact ⟨_, rfl⟩

/-- The state that the rounds under a valid schedule keep, in the form in which the two
theorems below use it: from the state before a round to the state before the next. -/
theorem runRoundsOrd_next {sched : Schedule α} (hv : sched.Valid)
    {fuel : Nat} {mask mask1 : QImage} {queue : List (TileId × List α)}
    {results : List (List (TileId × List α))}
    (post : RoundPost referenceImage seedPoint threshold SeedOK SeedDone mask
      (sched.queueOrder fuel queue) mask1 results) :
    ∀ e ∈ mergePropagation tileGridSize
        ((sched.resultOrder fuel results).map (sched.entryOrder fuel)),
      InFilter tileGridSize e.1 ∧ e.2 ≠ [] ∧ ∀ a ∈ e.2, SeedOK mask1 e.1 a := by
  obtain ⟨_, v2, v3⟩ := hv
  apply merge_all tileGridSize
    ((sched.resultOrder fuel results).map (sched.entryOrder fuel))
    (P := fun k a => SeedOK mask1 k a)
  intro info hi e he a ha
  obtain ⟨info', hi', rfl⟩ := List.mem_map.1 hi
  exact post.infoOK info' ((v2 fuel results).mem_iff.1 hi') e ((v3 fuel info').mem_iff.1 he)
    a ha

/-- A property of the mask that every call of the tile worker keeps holds for the mask that
the rounds return. -/
theorem runRoundsOrd_inv {I : QImage → Prop} {sched : Schedule α} (hv : sched.Valid)
    (hOK : ∀ m m' k a, (∀ q, m.pix q ≠ 0 → m'.pix q ≠ 0) → SeedOK m k a → SeedOK m' k a)
    (hDone : ∀ m m' a, (∀ q, m.pix q ≠ 0 → m'.pix q ≠ 0) → SeedDone m a → SeedDone m' a)
    (htile : ∀ mask k seeds, SameGeometry referenceImage mask →
      MaskSound referenceImage seedPoint threshold mask → InFilter tileGridSize k →
      seeds ≠ [] → (∀ a ∈ seeds, SeedOK mask k a) →
      OkOr (tile mask k seeds) (fun r =>
        TilePost referenceImage seedPoint threshold SeedOK SeedDone mask seeds r.1 r.2))
    (hI : ∀ mask k seeds mask' info, SameGeometry referenceImage mask →
      MaskSound referenceImage seedPoint threshold mask → InFilter tileGridSize k →
      seeds ≠ [] → (∀ a ∈ seeds, SeedOK mask k a) → tile mask k seeds = .ok (mask', info) →
      I mask → I mask') :
    ∀ (fuel : Nat) (mask : QImage) (queue : List (TileId × List α)) (mask' : QImage),
      SameGeometry referenceImage mask → MaskSound referenceImage seedPoint threshold mask →
      (∀ e ∈ queue, InFilter tileGridSize e.1 ∧ e.2 ≠ [] ∧ ∀ a ∈ e.2, SeedOK mask e.1 a) →
      runRoundsOrd sched tile tileGridSize fuel mask queue = .ok mask' → I mask → I mask' := by
  intro fuel
  induction fuel with
  | zero =>
    intro mask queue mask' _ _ _ h hi
    cases queue with
    | nil =>
      simp only [runRoundsOrd, Except.ok.injEq] at h
      rw [← h]; exact hi
    | cons entry rest => simp only [runRoundsOrd] at h; cases h
  | succ fuel ih =>
    intro mask queue mask' hg hs hq h hi
    cases queue with
    | nil =>
      simp only [runRoundsOrd, Except.ok.injEq] at h
      rw [← h]; exact hi
    | cons entry rest =>
      unfold runRoundsOrd at h
      have hperm := hv.1 fuel (entry :: rest)
      have hq0 : ∀ e ∈ sched.queueOrder fuel (entry :: rest),
          InFilter tileGridSize e.1 ∧ e.2 ≠ [] ∧ ∀ a ∈ e.2, SeedOK mask e.1 a :=
        fun e he => hq e (hperm.mem_iff.1 he)
      cases h1 : runRound tile mask (sched.queueOrder fuel (entry :: rest)) with
      | error e => rw [h1] at h; cases h
      | ok r =>
        obtain ⟨mask1, results⟩ := r
        rw [h1] at h
        simp only at h
        have post := okOr_ok (runRound_spec hOK hDone htile _ mask hg hs hq0) h1
        simp only at post
        have i1 := runRound_inv hOK htile hI _ mask mask1 results hg hs hq0 h1 hi
        exact ih mask1 _ mask' post.geometry post.sound (runRoundsOrd_next hv post) h i1

/-- The rounds under a valid schedule return when every call of the tile worker returns. -/
theorem runRoundsOrd_returns {sched : Schedule α} (hv : sched.Valid)
    (hOK : ∀ m m' k a, (∀ q, m.pix q ≠ 0 → m'.pix q ≠ 0) → SeedOK m k a → SeedOK m' k a)
    (hDone : ∀ m m' a, (∀ q, m.pix q ≠ 0 → m'.pix q ≠ 0) → SeedDone m a → SeedDone m' a)
    (htile : ∀ mask k seeds, SameGeometry referenceImage mask →
      MaskSound referenceImage seedPoint threshold mask → InFilter tileGridSize k →
      seeds ≠ [] → (∀ a ∈ seeds, SeedOK mask k a) →
      OkOr (tile mask k seeds) (fun r =>
        TilePost referenceImage seedPoint threshold SeedOK SeedDone mask seeds r.1 r.2))
    (hret : ∀ mask k seeds, SameGeometry referenceImage mask →
      MaskSound referenceImage seedPoint threshold mask → InFilter tileGridSize k →
      seeds ≠ [] → (∀ a ∈ seeds, SeedOK mask k a) → ∃ r, tile mask k seeds = .ok r) :
    ∀ (fuel : Nat) (mask : QImage) (queue : List (TileId × List α)),
      SameGeometry referenceImage mask → MaskSound referenceImage seedPoint threshold mask →
      (∀ e ∈ queue, InFilter tileGridSize e.1 ∧ e.2 ≠ [] ∧ ∀ a ∈ e.2, SeedOK mask e.1 a) →
      (queue ≠ [] → mask.zeros < fuel) →
      ∃ mask', runRoundsOrd sched tile tileGridSize fuel mask queue = .ok mask' := by
  intro fuel
  induction fuel with
  | zero =>
    intro mask queue _ _ _ hf
    cases queue with
    | nil => exact ⟨mask, rfl⟩
    | cons entry rest => exact absurd (hf (by simp)) (by omega)
  | succ fuel ih =>
    intro mask queue hg hs hq hf
    cases queue with
    | nil => exact ⟨mask, rfl⟩
    | cons entry rest =>
      unfold runRoundsOrd
      have hperm := hv.1 fuel (entry :: rest)
      have hq0 : ∀ e ∈ sched.queueOrder fuel (entry :: rest),
          InFilter tileGridSize e.1 ∧ e.2 ≠ [] ∧ ∀ a ∈ e.2, SeedOK mask e.1 a :=
        fun e he => hq e (hperm.mem_iff.1 he)
      obtain ⟨⟨mask1, results⟩, h1⟩ := runRound_returns hOK htile hret _ mask hg hs hq0
      have post := okOr_ok (runRound_spec hOK hDone htile _ mask hg hs hq0) h1
      simp only at post
      rw [h1]
      simp only
      apply ih mask1 _ post.geometry post.sound (runRoundsOrd_next hv post)
      intro hne
      obtain ⟨info, hi, e, he, hne'⟩ := merge_nonempty tileGridSize _ hne
      obtain ⟨info', hi', rfl⟩ := List.mem_map.1 hi
      have := post.progress ⟨info', (hv.2.1 fuel results).mem_iff.1 hi', e,
        (hv.2.2 fuel info').mem_iff.1 he, hne'⟩
      have := hf (by simp)
      omega

end RoundsFit

end FloodFill

namespace FloodFill

/-! ## The tiles that a run of `floodFillMT` visits -/

section Needs

variable {ts : QSize} {referenceImage : QImage} {seedPoint : QPoint} {threshold : Nat}

theorem Connected.seedIn {p : QPoint}
    (h : Connected referenceImage seedPoint threshold p) :
    referenceImage.inImage seedPoint := by
  induction h with
  | seed hi _ => exact hi
  | step _ _ _ _ _ _ ih => exact ih

/-- A call of `floodFillTile` changes no mask byte of a pixel outside the tile from zero. -/
theorem floodFillTile_frame {seedValue : Nat} {k : TileId} {mask mask' : QImage}
    {seeds : SeedPointList} {info : TilePropagationInfo}
    (hwf : referenceImage.WF) (hsv : seedValue < 256) (hW : 1 ≤ ts.width)
    (hH : 1 ≤ ts.height) (hk : InGrid ts referenceImage k)
    (hg : SameGeometry referenceImage mask)
    (hseeds : ∀ s ∈ seeds, (tileRectOf ts referenceImage.rect k).has s)
    (h : floodFillTile ts referenceImage mask seeds seedValue k referenceImage.rect
      (tileRectOf ts referenceImage.rect k) threshold = .ok (mask', info)) :
    ∀ q, referenceImage.inImage q → mask'.pix q ≠ 0 →
      mask.pix q ≠ 0 ∨ (tileRectOf ts referenceImage.rect k).has q := by
  unfold floodFillTile at h
  simp only at h
  cases h1 : copyReference ts referenceImage (tileRectOf ts referenceImage.rect k)
      (newTileData ts) with
  | error e => rw [h1] at h; cases h
  | ok td1 =>
    rw [h1] at h
    simp only at h
    cases h2 : copyFillMask ts mask (tileRectOf ts referenceImage.rect k) td1 with
    | error e => rw [h2] at h; cases h
    | ok td0 =>
      rw [h2] at h
      simp only at h
      cases h3 : floodFillTileLoop ts seedValue k referenceImage.rect
          (tileRectOf ts referenceImage.rect k) threshold
          (seeds.length + 4 * (ts.width * ts.height) + 1) td0
          [(⟨k.x - 1, k.y⟩, []), (⟨k.x + 1, k.y⟩, []), (⟨k.x, k.y - 1⟩, []),
            (⟨k.x, k.y + 1⟩, [])] seeds.reverse with
      | error e => rw [h3] at h; cases h
      | ok r =>
        obtain ⟨td', info'⟩ := r
        rw [h3] at h
        simp only at h
        cases h4 : writeBack ts mask (tileRectOf ts referenceImage.rect k) td' with
        | error e => rw [h4] at h; cases h
        | ok m =>
          rw [h4] at h
          simp only [Except.ok.injEq, Prod.mk.injEq] at h
          obtain ⟨rfl, rfl⟩ := h
          obtain ⟨buf0, _⟩ := copyIn_buf mask hW hH hk h1 h2
          have front0 : Front referenceImage (fun _ => True)
              (TileSees ts (tileRectOf ts referenceImage.rect k) mask td0)
              (fun q => (fun _ : QPoint => True) q ∨ q ∈ seeds.reverse ∨
                Pending pointCov ([(⟨k.x - 1, k.y⟩, []), (⟨k.x + 1, k.y⟩, []),
                  (⟨k.x, k.y - 1⟩, []), (⟨k.x, k.y + 1⟩, [])] : TilePropagationInfo) q) :=
            fun _ _ _ _ _ _ => Or.inr (Or.inl trivial)
          obtain ⟨buf', _⟩ := floodFillTileLoop_closes (fun _ => True) hwf hsv hW hH hk
            (fun _ _ _ => trivial) _ td0 _ seeds.reverse td' info' buf0
            (fun n hn => hseeds n (List.mem_reverse.1 hn)) front0 h3
          have hsees' := writeBack_sees hW hH hwf.2.1 hk hg h2 buf' h4
          intro q hq hm
          rcases (hsees' q hq).2 hm with ⟨hp, _⟩ | ⟨_, hm'⟩
          · exact Or.inr hp
          · exact Or.inl hm'

/-- A run of `floodFillMT` under a valid schedule that returns has stayed in the buffer in
every tile that the fill visits: the loops of the tile worker fit the buffer for every such
tile. -/
theorem floodFillMTOrd_needs {sched : Schedule QPoint} (hv : sched.Valid)
    (hwf : referenceImage.WF) (ht : threshold ≤ 255)
    (hW : 1 ≤ ts.width) (hH : 1 ≤ ts.height) {mask : QImage}
    (h : floodFillMTOrd sched ts referenceImage seedPoint threshold = .ok mask) :
    ∀ k, TileNeeded ts referenceImage seedPoint threshold k →
      TileFits ts referenceImage (tileRectOf ts referenceImage.rect k) := by
  intro k ⟨hkk, q, hqk, hq⟩
  have hqi : referenceImage.inImage q := has_inImage (tileOK_of_inGrid hkk hW hH) hqk
  have hin : referenceImage.inImage seedPoint := by
    rcases hq with rfl | ⟨p, hp, _⟩
    · exact hqi
    · exact hp.seedIn
  have hfill := okOr_ok (floodFillMTOrd_spec hv hwf ht hW hH hin) h
  unfold floodFillMTOrd at h
  simp only at h
  obtain ⟨r0, r1⟩ := ref_offset_range hwf hin
  simp only [(contains_rect referenceImage seedPoint).2 hin, Bool.not_true, Bool.false_eq_true,
    if_false, getPixel_eq r0 r1] at h
  obtain ⟨hk, hhas⟩ := @home_tile ts referenceImage seedPoint hW hH hin
  have hg0 := blank_geometry referenceImage
  have hs0 : MaskSound referenceImage seedPoint threshold referenceImage.blank :=
    fun i hi => absurd (blank_getD _ i) hi
  -- the tile of a pixel of a tile whose call has returned
  have home : ∀ (k' : TileId) (a : QPoint), InGrid ts referenceImage k' →
      (tileRectOf ts referenceImage.rect k').has a →
      TileFits ts referenceImage (tileRectOf ts referenceImage.rect k') →
      TileFits ts referenceImage (tileRectOf ts referenceImage.rect
        ⟨a.x.tdiv ts.width, a.y.tdiv ts.height⟩) := by
    intro k' a hk' ha hfit
    rw [← (has_iff_home hW hH hk' (has_inImage (tileOK_of_inGrid hk' hW hH) ha)).1 ha]
    exact hfit
  have hq0 : ∀ e ∈ [((⟨seedPoint.x.tdiv ts.width, seedPoint.y.tdiv ts.height⟩ : TileId),
      [seedPoint])],
      InFilter (tileGridSizeOf ts referenceImage.rect) e.1 ∧ e.2 ≠ [] ∧
        ∀ a ∈ e.2, PointOK ts referenceImage seedPoint referenceImage.blank e.1 a := by
    intro e he
    rw [List.mem_singleton.1 he]
    refine ⟨(inGrid_iff_inFilter hW hH _).1 hk, by simp, ?_⟩
    intro a ha
    rw [List.mem_singleton.1 ha]
    exact ⟨hk, hhas, Or.inl rfl⟩
  have htile : ∀ (m : QImage) (k' : TileId) (seeds : List QPoint),
      SameGeometry referenceImage m → MaskSound referenceImage seedPoint threshold m →
      InFilter (tileGridSizeOf ts referenceImage.rect) k' → seeds ≠ [] →
      (∀ a ∈ seeds, PointOK ts referenceImage seedPoint m k' a) →
      OkOr (floodFillTile ts referenceImage m seeds (referenceImage.pix seedPoint) k'
          referenceImage.rect (tileRectOf ts referenceImage.rect k') threshold)
        (fun r => TilePost referenceImage seedPoint threshold
          (PointOK ts referenceImage seedPoint)
          (fun _ a => TileFits ts referenceImage (tileRectOf ts referenceImage.rect
            ⟨a.x.tdiv ts.width, a.y.tdiv ts.height⟩)) m seeds r.1 r.2) := by
    intro m k' seeds hg hs hf hne hseeds
    have hk' := (inGrid_iff_inFilter hW hH k').2 hf
    rcases floodFillTile_spec hwf ht hW hH hk' hg hs hseeds with e | ⟨r, hr, post⟩
    · exact Or.inl e
    · refine Or.inr ⟨r, hr, post.geometry, post.sound, post.mono, post.zerosLe, post.infoOK,
        post.progress, ?_⟩
      intro a ha
      exact home k' a hk' (hseeds a ha).2.1 (floodFillTile_fits hwf hr)
  have hspec := @runRoundsOrd_spec _ referenceImage seedPoint threshold
    (fun q => TileFits ts referenceImage (tileRectOf ts referenceImage.rect
      ⟨q.x.tdiv ts.width, q.y.tdiv ts.height⟩))
    (PointOK ts referenceImage seedPoint)
    (fun _ a => TileFits ts referenceImage (tileRectOf ts referenceImage.rect
      ⟨a.x.tdiv ts.width, a.y.tdiv ts.height⟩)) pointCov
    (fun fillMaskImage tileId seedPoints =>
      floodFillTile ts referenceImage fillMaskImage seedPoints (referenceImage.pix seedPoint)
        tileId referenceImage.rect (tileRectOf ts referenceImage.rect tileId) threshold)
    (tileGridSizeOf ts referenceImage.rect) sched hv
    (fun m m' k a hm h => pointOK_mono hm h)
    (fun m m' a hm h => h)
    htile
    (fun mask k seeds mask' info hg hs hf hne hseeds h =>
      floodFillTile_closes hwf (pix_lt_256 hwf seedPoint) hW hH
        ((inGrid_iff_inFilter hW hH k).2 hf) hg
        (fun a ha _ => home k a ((inGrid_iff_inFilter hW hH k).2 hf) ha
          (floodFillTile_fits hwf h))
        (fun s hs' => (hseeds s hs').2.1) h)
    (referenceImage.bytesPerLine * referenceImage.height + 1) referenceImage.blank
    [(⟨seedPoint.x.tdiv ts.width, seedPoint.y.tdiv ts.height⟩, [seedPoint])] hg0 hs0 hq0
    (by
      intro _
      rw [blank_zeros]
      omega)
    (blank_front _ _ _)
  obtain ⟨_, _, _, hseed, hfront⟩ := okOr_ok hspec h
  have hown := @runRoundsOrd_inv _ referenceImage seedPoint threshold
    (PointOK ts referenceImage seedPoint)
    (fun _ a => TileFits ts referenceImage (tileRectOf ts referenceImage.rect
      ⟨a.x.tdiv ts.width, a.y.tdiv ts.height⟩))
    (fun fillMaskImage tileId seedPoints =>
      floodFillTile ts referenceImage fillMaskImage seedPoints (referenceImage.pix seedPoint)
        tileId referenceImage.rect (tileRectOf ts referenceImage.rect tileId) threshold)
    (tileGridSizeOf ts referenceImage.rect)
    (fun m => ∀ a, referenceImage.inImage a → m.pix a ≠ 0 →
      TileFits ts referenceImage (tileRectOf ts referenceImage.rect
        ⟨a.x.tdiv ts.width, a.y.tdiv ts.height⟩))
    sched hv
    (fun m m' k a hm h => pointOK_mono hm h)
    (fun m m' a hm h => h)
    htile
    (fun m k' seeds m' info hg hs hf hne hseeds hcall hi a ha hma => by
      have hk' := (inGrid_iff_inFilter hW hH k').2 hf
      rcases floodFillTile_frame hwf (pix_lt_256 hwf seedPoint) hW hH hk' hg
        (fun s hs' => (hseeds s hs').2.1) hcall a ha hma with hold | hhas
      · exact hi a ha hold
      · exact home k' a hk' hhas (floodFillTile_fits hwf hcall))
    (referenceImage.bytesPerLine * referenceImage.height + 1) referenceImage.blank
    [(⟨seedPoint.x.tdiv ts.width, seedPoint.y.tdiv ts.height⟩, [seedPoint])] mask hg0 hs0 hq0
    h (fun a _ hm => absurd (blank_pix referenceImage a) hm)
  have hhome := (has_iff_home hW hH hkk hqi).1 hqk
  rw [hhome]
  rcases hq with rfl | ⟨p, hp, hadj⟩
  · exact hseed _ (List.mem_singleton.2 rfl) _ (List.mem_singleton.2 rfl)
  · rcases hfront p q hp.inImage hqi hadj (hfill.complete p hp) with hm | hx | hf
    · exact hown q hqi hm
    · exact hx
    · exact absurd hf id

/-- A run of `floodFillMT` under a valid schedule returns when the loops of the tile worker
fit the buffer for every tile that the fill visits. -/
theorem floodFillMTOrd_returns {sched : Schedule QPoint} (hv : sched.Valid)
    (hwf : referenceImage.WF) (ht : threshold ≤ 255)
    (hW : 1 ≤ ts.width) (hH : 1 ≤ ts.height)
    (hN : ∀ k, TileNeeded ts referenceImage seedPoint threshold k →
      TileFits ts referenceImage (tileRectOf ts referenceImage.rect k)) :
    ∃ mask, floodFillMTOrd sched ts referenceImage seedPoint threshold = .ok mask := by
  by_cases hin : referenceImage.inImage seedPoint
  · unfold floodFillMTOrd
    simp only
    obtain ⟨r0, r1⟩ := ref_offset_range hwf hin
    simp only [(contains_rect referenceImage seedPoint).2 hin, Bool.not_true,
      Bool.false_eq_true, if_false, getPixel_eq r0 r1]
    obtain ⟨hk, hhas⟩ := @home_tile ts referenceImage seedPoint hW hH hin
    have hg0 := blank_geometry referenceImage
    have hs0 : MaskSound referenceImage seedPoint threshold referenceImage.blank :=
      fun i hi => absurd (blank_getD _ i) hi
    exact @runRoundsOrd_returns _ referenceImage seedPoint threshold
      (PointOK ts referenceImage seedPoint) (Done referenceImage seedPoint threshold)
      (fun fillMaskImage tileId seedPoints =>
        floodFillTile ts referenceImage fillMaskImage seedPoints
          (referenceImage.pix seedPoint) tileId referenceImage.rect
          (tileRectOf ts referenceImage.rect tileId) threshold)
      (tileGridSizeOf ts referenceImage.rect) sched hv
      (fun m m' k a hm h => pointOK_mono hm h)
      (fun m m' a hm h => done_mono hm h)
      (fun mask k seeds hg hs hf hne hseeds =>
        floodFillTile_spec hwf ht hW hH ((inGrid_iff_inFilter hW hH k).2 hf) hg hs hseeds)
      (fun m k seeds hg hs hf hne hseeds => by
        have hk' := (inGrid_iff_inFilter hW hH k).2 hf
        obtain ⟨a, ha⟩ := List.exists_mem_of_ne_nil seeds hne
        obtain ⟨_, hhas', hj⟩ := hseeds a ha
        apply floodFillTile_returns hwf hW hH hk' hg (fun s hs' => (hseeds s hs').2.1)
        apply hN k
        refine ⟨hk', a, hhas', ?_⟩
        rcases hj with hj | ⟨p, hp, hadj, hm⟩
        · exact Or.inl hj
        · exact Or.inr ⟨p, (sound_pix hg hwf.2.1 hs hp hm).1, hadj⟩)
      (referenceImage.bytesPerLine * referenceImage.height + 1) referenceImage.blank
      [(⟨seedPoint.x.tdiv ts.width, seedPoint.y.tdiv ts.height⟩, [seedPoint])] hg0 hs0
      (by
        intro e he
        rw [List.mem_singleton.1 he]
        refine ⟨(inGrid_iff_inFilter hW hH _).1 hk, by simp, ?_⟩
        intro a ha
        rw [List.mem_singleton.1 ha]
        exact ⟨hk, hhas, Or.inl rfl⟩)
      (by
        intro _
        rw [blank_zeros]
        omega)
  · have hc : referenceImage.rect.contains seedPoint = false := by
      cases h : referenceImage.rect.contains seedPoint with
      | false => rfl
      | true => exact absurd ((contains_rect _ _).1 h) hin
    refine ⟨referenceImage.blank, ?_⟩
    unfold floodFillMTOrd
    simp [hc]

/-- Two valid schedules give the same run of `floodFillMT`: both runs leave a buffer, or
both return, and then the same mask. -/
theorem floodFillMTOrd_order {sched sched' : Schedule QPoint} (hv : sched.Valid)
    (hv' : sched'.Valid) (hwf : referenceImage.WF) (ht : threshold ≤ 255)
    (hW : 1 ≤ ts.width) (hH : 1 ≤ ts.height) :
    floodFillMTOrd sched ts referenceImage seedPoint threshold =
      floodFillMTOrd sched' ts referenceImage seedPoint threshold := by
  have s1 : OkOr (floodFillMTOrd sched ts referenceImage seedPoint threshold)
      (fun mask => floodFill referenceImage seedPoint threshold = .ok mask) :=
    floodFillMTOrd_serial hv hwf ht hW hH
  have s2 : OkOr (floodFillMTOrd sched' ts referenceImage seedPoint threshold)
      (fun mask => floodFill referenceImage seedPoint threshold = .ok mask) :=
    floodFillMTOrd_serial hv' hwf ht hW hH
  rcases s1 with e1 | ⟨m1, h1, f1⟩
  · rcases s2 with e2 | ⟨m2, h2, f2⟩
    · rw [e1, e2]
    · obtain ⟨m, hm⟩ := floodFillMTOrd_returns hv hwf ht hW hH
        (floodFillMTOrd_needs hv' hwf ht hW hH h2)
      rw [e1] at hm
      cases hm
  · rcases s2 with e2 | ⟨m2, h2, f2⟩
    · obtain ⟨m, hm⟩ := floodFillMTOrd_returns hv' hwf ht hW hH
        (floodFillMTOrd_needs hv hwf ht hW hH h1)
      rw [e2] at hm
      cases hm
    · rw [h1, h2]
      rw [f1] at f2
      exact f2

end Needs

end FloodFill

namespace FloodFill

/-! ## The tiles that a run of `floodFillScanLineMT` visits -/

section NeedsScan

variable {ts : QSize} {referenceImage : QImage} {seedPoint : QPoint} {threshold : Nat}

/-- A call of `floodFillTileScanLine` changes no mask byte of a pixel outside the tile from
zero. -/
theorem floodFillTileScanLine_frame {seedValue : Nat} {k : TileId} {mask mask' : QImage}
    {seeds : SeedSpanList} {info : TilePropagationInfoScanLine}
    (hwf : referenceImage.WF) (hsv : seedValue < 256) (hW : 1 ≤ ts.width)
    (hH : 1 ≤ ts.height) (hk : InGrid ts referenceImage k)
    (hg : SameGeometry referenceImage mask)
    (hseeds : ∀ s ∈ seeds, SpanIn (tileRectOf ts referenceImage.rect k) s)
    (h : floodFillTileScanLine ts referenceImage mask seeds seedValue k referenceImage.rect
      (tileRectOf ts referenceImage.rect k) threshold = .ok (mask', info)) :
    ∀ q, referenceImage.inImage q → mask'.pix q ≠ 0 →
      mask.pix q ≠ 0 ∨ (tileRectOf ts referenceImage.rect k).has q := by
  unfold floodFillTileScanLine at h
  cases h1 : copyReference ts referenceImage (tileRectOf ts referenceImage.rect k)
      (newTileData ts) with
  | error e => rw [h1] at h; cases h
  | ok td1 =>
    rw [h1] at h
    simp only at h
    cases h2 : copyFillMask ts mask (tileRectOf ts referenceImage.rect k) td1 with
    | error e => rw [h2] at h; cases h
    | ok td0 =>
      rw [h2] at h
      simp only at h
      cases h3 : floodFillTileScanLineLoop ts seedValue k referenceImage.rect
          (tileRectOf ts referenceImage.rect k) threshold
          (seeds.length + 2 * (ts.width * ts.height) + 1) td0 [] seeds.reverse with
      | error e => rw [h3] at h; cases h
      | ok r =>
        obtain ⟨td', info'⟩ := r
        rw [h3] at h
        simp only at h
        cases h4 : writeBack ts mask (tileRectOf ts referenceImage.rect k) td' with
        | error e => rw [h4] at h; cases h
        | ok m =>
          rw [h4] at h
          simp only [Except.ok.injEq, Prod.mk.injEq] at h
          obtain ⟨rfl, rfl⟩ := h
          obtain ⟨buf0, _⟩ := copyIn_buf mask hW hH hk h1 h2
          have front0 : Front referenceImage (fun _ => True)
              (TileSees ts (tileRectOf ts referenceImage.rect k) mask td0)
              (fun q => (fun _ : QPoint => True) q ∨ Covered seeds.reverse q ∨
                Pending spanCov ([] : TilePropagationInfoScanLine) q) :=
            fun _ _ _ _ _ _ => Or.inr (Or.inl trivial)
          obtain ⟨buf', _⟩ := floodFillTileScanLineLoop_closes (fun _ => True) hwf hsv hW
            hH hk (fun _ _ _ => trivial) _ td0 _ seeds.reverse td' info' buf0
            (fun n hn => hseeds n (List.mem_reverse.1 hn)) front0 h3
          have hsees' := writeBack_sees hW hH hwf.2.1 hk hg h2 buf' h4
          intro q hq hm
          rcases (hsees' q hq).2 hm with ⟨hp, _⟩ | ⟨_, hm'⟩
          · exact Or.inr hp
          · exact Or.inl hm'

/-- A run of `floodFillScanLineMT` under a valid schedule that returns has stayed in the
buffer in every tile that the fill visits: the loops of the tile worker fit the buffer for
every such tile. -/
theorem floodFillScanLineMTOrd_needs {sched : Schedule Span} (hv : sched.Valid)
    (hwf : referenceImage.WF) (ht : threshold ≤ 255)
    (hW : 1 ≤ ts.width) (hH : 1 ≤ ts.height) {mask : QImage}
    (h : floodFillScanLineMTOrd sched ts referenceImage seedPoint threshold = .ok mask) :
    ∀ k, TileNeeded ts referenceImage seedPoint threshold k →
      TileFits ts referenceImage (tileRectOf ts referenceImage.rect k) := by
  intro k ⟨hkk, q, hqk, hq⟩
  have hqi : referenceImage.inImage q := has_inImage (tileOK_of_inGrid hkk hW hH) hqk
  have hin : referenceImage.inImage seedPoint := by
    rcases hq with rfl | ⟨p, hp, _⟩
    · exact hqi
    · exact hp.seedIn
  have hfill := okOr_ok (floodFillScanLineMTOrd_spec hv hwf ht hW hH hin) h
  unfold floodFillScanLineMTOrd at h
  simp only at h
  obtain ⟨r0, r1⟩ := ref_offset_range hwf hin
  simp only [(contains_rect referenceImage seedPoint).2 hin, Bool.not_true, Bool.false_eq_true,
    if_false, getPixel_eq r0 r1] at h
  obtain ⟨hk, hhas⟩ := @home_tile ts referenceImage seedPoint hW hH hin
  have hg0 := blank_geometry referenceImage
  have hs0 : MaskSound referenceImage seedPoint threshold referenceImage.blank :=
    fun i hi => absurd (blank_getD _ i) hi
  have home : ∀ (k' : TileId) (a : QPoint), InGrid ts referenceImage k' →
      (tileRectOf ts referenceImage.rect k').has a →
      TileFits ts referenceImage (tileRectOf ts referenceImage.rect k') →
      TileFits ts referenceImage (tileRectOf ts referenceImage.rect
        ⟨a.x.tdiv ts.width, a.y.tdiv ts.height⟩) := by
    intro k' a hk' ha hfit
    rw [← (has_iff_home hW hH hk' (has_inImage (tileOK_of_inGrid hk' hW hH) ha)).1 ha]
    exact hfit
  have first : ∀ (k' : TileId) (s : Span), SpanIn (tileRectOf ts referenceImage.rect k') s →
      (tileRectOf ts referenceImage.rect k').has ⟨s.x1, s.y⟩ := by
    intro k' s ⟨a1, a2, a3, a4, a5, _⟩
    exact ⟨a1, by simp only; omega, a4, a5⟩
  have hq0 : ∀ e ∈ [((⟨seedPoint.x.tdiv ts.width, seedPoint.y.tdiv ts.height⟩ : TileId),
      [(⟨seedPoint.x, seedPoint.x, seedPoint.y, 1⟩ : Span)])],
      InFilter (tileGridSizeOf ts referenceImage.rect) e.1 ∧ e.2 ≠ [] ∧
        ∀ a ∈ e.2, SpanSeedOK ts referenceImage seedPoint threshold referenceImage.blank
          e.1 a := by
    intro e he
    rw [List.mem_singleton.1 he]
    refine ⟨(inGrid_iff_inFilter hW hH _).1 hk, by simp, ?_⟩
    intro a ha
    rw [List.mem_singleton.1 ha]
    intro _
    obtain ⟨a1, a2, a3, a4⟩ := hhas
    refine ⟨⟨a1, le_refl _, a2, a3, a4, Or.inl rfl⟩, ?_,
      ⟨seedPoint.x, le_refl _, le_refl _, Or.inl rfl⟩⟩
    intro x h1 h2 hi
    simp only at h1 h2
    have hx : x = seedPoint.x := by omega
    subst hx
    exact Connected.seed hin hi
  have htile : ∀ (m : QImage) (k' : TileId) (seeds : List Span),
      SameGeometry referenceImage m → MaskSound referenceImage seedPoint threshold m →
      InFilter (tileGridSizeOf ts referenceImage.rect) k' → seeds ≠ [] →
      (∀ a ∈ seeds, SpanSeedOK ts referenceImage seedPoint threshold m k' a) →
      OkOr (floodFillTileScanLine ts referenceImage m seeds (referenceImage.pix seedPoint) k'
          referenceImage.rect (tileRectOf ts referenceImage.rect k') threshold)
        (fun r => TilePost referenceImage seedPoint threshold
          (SpanSeedOK ts referenceImage seedPoint threshold)
          (fun _ a => TileFits ts referenceImage (tileRectOf ts referenceImage.rect
            ⟨a.x1.tdiv ts.width, a.y.tdiv ts.height⟩)) m seeds r.1 r.2) := by
    intro m k' seeds hg hs hf hne hseeds
    have hk' := (inGrid_iff_inFilter hW hH k').2 hf
    rcases floodFillTileScanLine_spec hwf ht hW hH hk' hg hs hseeds with e | ⟨r, hr, post⟩
    · exact Or.inl e
    · refine Or.inr ⟨r, hr, post.geometry, post.sound, post.mono, post.zerosLe, post.infoOK,
        post.progress, ?_⟩
      intro a ha
      exact home k' ⟨a.x1, a.y⟩ hk' (first k' a (hseeds a ha hk').1)
        (floodFillTileScanLine_fits hwf hr)
  have hspec := @runRoundsOrd_spec _ referenceImage seedPoint threshold
    (fun q => TileFits ts referenceImage (tileRectOf ts referenceImage.rect
      ⟨q.x.tdiv ts.width, q.y.tdiv ts.height⟩))
    (SpanSeedOK ts referenceImage seedPoint threshold)
    (fun _ a => TileFits ts referenceImage (tileRectOf ts referenceImage.rect
      ⟨a.x1.tdiv ts.width, a.y.tdiv ts.height⟩)) spanCov
    (fun fillMaskImage tileId seedSpans =>
      floodFillTileScanLine ts referenceImage fillMaskImage seedSpans
        (referenceImage.pix seedPoint) tileId referenceImage.rect
        (tileRectOf ts referenceImage.rect tileId) threshold)
    (tileGridSizeOf ts referenceImage.rect) sched hv
    (fun m m' k a _ h => h)
    (fun m m' a hm h => h)
    htile
    (fun mask k seeds mask' info hg hs hf hne hseeds h =>
      floodFillTileScanLine_closes hwf (pix_lt_256 hwf seedPoint) hW hH
        ((inGrid_iff_inFilter hW hH k).2 hf) hg
        (fun a ha _ => home k a ((inGrid_iff_inFilter hW hH k).2 hf) ha
          (floodFillTileScanLine_fits hwf h))
        (fun s hs' => (hseeds s hs' ((inGrid_iff_inFilter hW hH k).2 hf)).1) h)
    (referenceImage.bytesPerLine * referenceImage.height + 1) referenceImage.blank
    [(⟨seedPoint.x.tdiv ts.width, seedPoint.y.tdiv ts.height⟩,
      [⟨seedPoint.x, seedPoint.x, seedPoint.y, 1⟩])] hg0 hs0 hq0
    (by
      intro _
      rw [blank_zeros]
      omega)
    (blank_front _ _ _)
  obtain ⟨_, _, _, hseed, hfront⟩ := okOr_ok hspec h
  have hown := @runRoundsOrd_inv _ referenceImage seedPoint threshold
    (SpanSeedOK ts referenceImage seedPoint threshold)
    (fun _ a => TileFits ts referenceImage (tileRectOf ts referenceImage.rect
      ⟨a.x1.tdiv ts.width, a.y.tdiv ts.height⟩))
    (fun fillMaskImage tileId seedSpans =>
      floodFillTileScanLine ts referenceImage fillMaskImage seedSpans
        (referenceImage.pix seedPoint) tileId referenceImage.rect
        (tileRectOf ts referenceImage.rect tileId) threshold)
    (tileGridSizeOf ts referenceImage.rect)
    (fun m => ∀ a, referenceImage.inImage a → m.pix a ≠ 0 →
      TileFits ts referenceImage (tileRectOf ts referenceImage.rect
        ⟨a.x.tdiv ts.width, a.y.tdiv ts.height⟩))
    sched hv
    (fun m m' k a _ h => h)
    (fun m m' a hm h => h)
    htile
    (fun m k' seeds m' info hg hs hf hne hseeds hcall hi a ha hma => by
      have hk' := (inGrid_iff_inFilter hW hH k').2 hf
      rcases floodFillTileScanLine_frame hwf (pix_lt_256 hwf seedPoint) hW hH hk' hg
        (fun s hs' => (hseeds s hs' hk').1) hcall a ha hma with hold | hhas
      · exact hi a ha hold
      · exact home k' a hk' hhas (floodFillTileScanLine_fits hwf hcall))
    (referenceImage.bytesPerLine * referenceImage.height + 1) referenceImage.blank
    [(⟨seedPoint.x.tdiv ts.width, seedPoint.y.tdiv ts.height⟩,
      [⟨seedPoint.x, seedPoint.x, seedPoint.y, 1⟩])] mask hg0 hs0 hq0
    h (fun a _ hm => absurd (blank_pix referenceImage a) hm)
  have hhome := (has_iff_home hW hH hkk hqi).1 hqk
  rw [hhome]
  rcases hq with hq | ⟨p, hp, hadj⟩
  · rw [hq]
    exact hseed (⟨seedPoint.x.tdiv ts.width, seedPoint.y.tdiv ts.height⟩,
      [⟨seedPoint.x, seedPoint.x, seedPoint.y, 1⟩]) (List.mem_singleton.2 rfl)
      ⟨seedPoint.x, seedPoint.x, seedPoint.y, 1⟩ (List.mem_singleton.2 rfl)
  · rcases hfront p q hp.inImage hqi hadj (hfill.complete p hp) with hm | hx | hf
    · exact hown q hqi hm
    · exact hx
    · exact absurd hf id

/-- A run of `floodFillScanLineMT` under a valid schedule returns when the loops of the tile
worker fit the buffer for every tile that the fill visits. -/
theorem floodFillScanLineMTOrd_returns {sched : Schedule Span} (hv : sched.Valid)
    (hwf : referenceImage.WF) (ht : threshold ≤ 255)
    (hW : 1 ≤ ts.width) (hH : 1 ≤ ts.height)
    (hN : ∀ k, TileNeeded ts referenceImage seedPoint threshold k →
      TileFits ts referenceImage (tileRectOf ts referenceImage.rect k)) :
    ∃ mask, floodFillScanLineMTOrd sched ts referenceImage seedPoint threshold = .ok mask := by
  by_cases hin : referenceImage.inImage seedPoint
  · unfold floodFillScanLineMTOrd
    simp only
    obtain ⟨r0, r1⟩ := ref_offset_range hwf hin
    simp only [(contains_rect referenceImage seedPoint).2 hin, Bool.not_true,
      Bool.false_eq_true, if_false, getPixel_eq r0 r1]
    obtain ⟨hk, hhas⟩ := @home_tile ts referenceImage seedPoint hW hH hin
    have hg0 := blank_geometry referenceImage
    have hs0 : MaskSound referenceImage seedPoint threshold referenceImage.blank :=
      fun i hi => absurd (blank_getD _ i) hi
    exact @runRoundsOrd_returns _ referenceImage seedPoint threshold
      (SpanSeedOK ts referenceImage seedPoint threshold)
      (SpanDone referenceImage seedPoint threshold)
      (fun fillMaskImage tileId seedSpans =>
        floodFillTileScanLine ts referenceImage fillMaskImage seedSpans
          (referenceImage.pix seedPoint) tileId referenceImage.rect
          (tileRectOf ts referenceImage.rect tileId) threshold)
      (tileGridSizeOf ts referenceImage.rect) sched hv
      (fun m m' k a _ h => h)
      (fun m m' a hm h => done_mono hm h)
      (fun mask k seeds hg hs hf hne hseeds =>
        floodFillTileScanLine_spec hwf ht hW hH ((inGrid_iff_inFilter hW hH k).2 hf) hg hs
          hseeds)
      (fun m k seeds hg hs hf hne hseeds => by
        have hk' := (inGrid_iff_inFilter hW hH k).2 hf
        obtain ⟨a, ha⟩ := List.exists_mem_of_ne_nil seeds hne
        obtain ⟨⟨a1, a2, a3, a4, a5, _⟩, _, x, hx1, hx2, hj⟩ := hseeds a ha hk'
        apply floodFillTileScanLine_returns hwf hW hH hk' hg
          (fun s hs' => (hseeds s hs' hk').1)
        apply hN k
        exact ⟨hk', ⟨x, a.y⟩, ⟨by simp only; omega, by simp only; omega, a4, a5⟩, hj⟩)
      (referenceImage.bytesPerLine * referenceImage.height + 1) referenceImage.blank
      [(⟨seedPoint.x.tdiv ts.width, seedPoint.y.tdiv ts.height⟩,
        [⟨seedPoint.x, seedPoint.x, seedPoint.y, 1⟩])] hg0 hs0
      (by
        intro e he
        rw [List.mem_singleton.1 he]
        refine ⟨(inGrid_iff_inFilter hW hH _).1 hk, by simp, ?_⟩
        intro a ha
        rw [List.mem_singleton.1 ha]
        intro _
        obtain ⟨a1, a2, a3, a4⟩ := hhas
        refine ⟨⟨a1, le_refl _, a2, a3, a4, Or.inl rfl⟩, ?_,
          ⟨seedPoint.x, le_refl _, le_refl _, Or.inl rfl⟩⟩
        intro x h1 h2 hi
        simp only at h1 h2
        have hx : x = seedPoint.x := by omega
        subst hx
        exact Connected.seed hin hi)
      (by
        intro _
        rw [blank_zeros]
        omega)
  · have hc : referenceImage.rect.contains seedPoint = false := by
      cases h : referenceImage.rect.contains seedPoint with
      | false => rfl
      | true => exact absurd ((contains_rect _ _).1 h) hin
    refine ⟨referenceImage.blank, ?_⟩
    unfold floodFillScanLineMTOrd
    simp [hc]

/-- Two valid schedules give the same run of `floodFillScanLineMT`: both runs leave a
buffer, or both return, and then the same mask. -/
theorem floodFillScanLineMTOrd_order {sched sched' : Schedule Span} (hv : sched.Valid)
    (hv' : sched'.Valid) (hwf : referenceImage.WF) (ht : threshold ≤ 255)
    (hW : 1 ≤ ts.width) (hH : 1 ≤ ts.height) :
    floodFillScanLineMTOrd sched ts referenceImage seedPoint threshold =
      floodFillScanLineMTOrd sched' ts referenceImage seedPoint threshold := by
  have s1 : OkOr (floodFillScanLineMTOrd sched ts referenceImage seedPoint threshold)
      (fun mask => floodFill referenceImage seedPoint threshold = .ok mask) :=
    floodFillScanLineMTOrd_serial hv hwf ht hW hH
  have s2 : OkOr (floodFillScanLineMTOrd sched' ts referenceImage seedPoint threshold)
      (fun mask => floodFill referenceImage seedPoint threshold = .ok mask) :=
    floodFillScanLineMTOrd_serial hv' hwf ht hW hH
  rcases s1 with e1 | ⟨m1, h1, f1⟩
  · rcases s2 with e2 | ⟨m2, h2, f2⟩
    · rw [e1, e2]
    · obtain ⟨m, hm⟩ := floodFillScanLineMTOrd_returns hv hwf ht hW hH
        (floodFillScanLineMTOrd_needs hv' hwf ht hW hH h2)
      rw [e1] at hm
      cases hm
  · rcases s2 with e2 | ⟨m2, h2, f2⟩
    · obtain ⟨m, hm⟩ := floodFillScanLineMTOrd_returns hv' hwf ht hW hH
        (floodFillScanLineMTOrd_needs hv hwf ht hW hH h1)
      rw [e2] at hm
      cases hm
    · rw [h1, h2]
      rw [f1] at f2
      exact f2

end NeedsScan

end FloodFill

namespace FloodFill

/-! ## `floodFillScanLine`: the runs of a row that one span yields -/

section Runs

variable {referenceImage : QImage} {threshold : Nat}

theorem inImage_at {x y : Int} (h0 : 0 ≤ x) (h1 : x < (referenceImage.width : Int))
    (hy : 0 ≤ y ∧ y < (referenceImage.height : Int)) : referenceImage.inImage ⟨x, y⟩ :=
  ⟨h0, h1, hy.1, hy.2⟩

theorem stops_of_frame (seedPoint : QPoint) {mask mask' : QImage} {y x : Int}
    (hfr : 0 ≤ x → x < (referenceImage.width : Int) → mask'.pix ⟨x, y⟩ = mask.pix ⟨x, y⟩)
    (h : Stops referenceImage (referenceImage.pix seedPoint) threshold mask y x) :
    Stops referenceImage (referenceImage.pix seedPoint) threshold mask' y x := by
  rcases h with h | h | h | h
  · exact Or.inl h
  · exact Or.inr (Or.inl h)
  · by_cases h0 : 0 ≤ x
    · by_cases h1 : x < (referenceImage.width : Int)
      · exact Or.inr (Or.inr (Or.inl (by rw [hfr h0 h1]; exact h)))
      · exact Or.inr (Or.inl (by omega))
    · exact Or.inl (by omega)
  · exact Or.inr (Or.inr (Or.inr h))

/-- The right extension from column `x2`: it returns, having marked the columns from `x2`
up to the column `x2'` at which it stops, and nothing else. -/
theorem scanLineRight_run (seedPoint : QPoint) (hwf : referenceImage.WF)
    (ht : threshold ≤ 255) {y : Int} (hy : 0 ≤ y ∧ y < (referenceImage.height : Int)) :
    ∀ (fuel : Nat) (mask : QImage) (x2 : Int), SameGeometry referenceImage mask → 0 ≤ x2 →
      ((referenceImage.width : Int) - x2).toNat < fuel →
      ∃ mask' x2',
        scanLineRight referenceImage (referenceImage.pix seedPoint) threshold y fuel mask x2 =
          .ok (mask', x2') ∧
        x2 ≤ x2' ∧ (x2' ≤ (referenceImage.width : Int) ∨ x2' = x2) ∧
        SameGeometry referenceImage mask' ∧
        (∀ x, x2 ≤ x → x < x2' →
          mask.pix ⟨x, y⟩ = 0 ∧
          includable referenceImage (referenceImage.pix seedPoint) threshold ⟨x, y⟩ ∧
          mask'.pix ⟨x, y⟩ =
            gradedValue (qAbs (referenceImage.pix ⟨x, y⟩) (referenceImage.pix seedPoint))
              threshold) ∧
        (∀ q, referenceImage.inImage q → ¬ (q.y = y ∧ x2 ≤ q.x ∧ q.x < x2') →
          mask'.pix q = mask.pix q) ∧
        (x2' = x2 → mask' = mask) ∧
        Stops referenceImage (referenceImage.pix seedPoint) threshold mask y x2' := by
  intro fuel
  induction fuel with
  | zero => intro mask x2 _ _ hf; omega
  | succ fuel ih =>
    intro mask x2 hg h0 hf
    have stay : ∀ (_ : Stops referenceImage (referenceImage.pix seedPoint) threshold mask y
        x2),
        ∃ mask' x2', (Except.ok (mask, x2) : Except Fault (QImage × Int)) = .ok (mask', x2') ∧
        x2 ≤ x2' ∧ (x2' ≤ (referenceImage.width : Int) ∨ x2' = x2) ∧
        SameGeometry referenceImage mask' ∧
        (∀ x, x2 ≤ x → x < x2' →
          mask.pix ⟨x, y⟩ = 0 ∧
          includable referenceImage (referenceImage.pix seedPoint) threshold ⟨x, y⟩ ∧
          mask'.pix ⟨x, y⟩ =
            gradedValue (qAbs (referenceImage.pix ⟨x, y⟩) (referenceImage.pix seedPoint))
              threshold) ∧
        (∀ q, referenceImage.inImage q → ¬ (q.y = y ∧ x2 ≤ q.x ∧ q.x < x2') →
          mask'.pix q = mask.pix q) ∧
        (x2' = x2 → mask' = mask) ∧
        Stops referenceImage (referenceImage.pix seedPoint) threshold mask y x2' :=
      fun hs => ⟨mask, x2, rfl, le_refl _, Or.inr rfl, hg, fun x a b => by omega,
        fun _ _ _ => rfl, fun _ => rfl, hs⟩
    unfold scanLineRight
    by_cases hx : x2 ≥ (referenceImage.width : Int)
    · rw [if_pos hx]
      exact stay (Or.inr (Or.inl hx))
    rw [if_neg hx]
    have hp : referenceImage.inImage ⟨x2, y⟩ := inImage_at h0 (by omega) hy
    obtain ⟨c1, c2, c3, c4, c5⟩ := mark_code seedPoint hwf ht hg hp
    rw [c1]
    simp only
    by_cases hm : mask.pix ⟨x2, y⟩ > 0
    · rw [if_pos hm]
      exact stay (Or.inr (Or.inr (Or.inl (by omega))))
    rw [if_neg hm, c2]
    simp only
    rw [c3]
    by_cases hd : qAbs (referenceImage.pix ⟨x2, y⟩) (referenceImage.pix seedPoint) ≥ threshold
    · rw [if_pos hd]
      exact stay (Or.inr (Or.inr (Or.inr (by unfold includable; omega))))
    rw [if_neg hd]
    have hincl : includable referenceImage (referenceImage.pix seedPoint) threshold
        ⟨x2, y⟩ := by unfold includable; omega
    have hz : mask.pix ⟨x2, y⟩ = 0 := by omega
    rw [c4 hincl]
    simp only
    rw [c5]
    simp only
    obtain ⟨m0, m1⟩ := mask_offset_range hg hwf.2.1 hp
    obtain ⟨mask', x2', hrun, hle, hw', hg', hmk, hfr, _, hstop⟩ :=
      ih (mask.mark ⟨x2, y⟩ (gradedValue (qAbs (referenceImage.pix ⟨x2, y⟩)
        (referenceImage.pix seedPoint)) threshold)) (x2 + 1) (mark_geometry hg _ _)
        (by omega) (by omega)
    have hw2 : x2' ≤ (referenceImage.width : Int) := by omega
    refine ⟨mask', x2', hrun, by omega, Or.inl hw2, hg', ?_, ?_, fun h => by omega, ?_⟩
    · intro x h1 h2
      by_cases hx2 : x = x2
      · subst hx2
        refine ⟨hz, hincl, ?_⟩
        rw [hfr _ hp (by simp only; omega)]
        exact mark_pix_self _ _ m0 m1
      · obtain ⟨k1, k2, k3⟩ := hmk x (by omega) h2
        refine ⟨?_, k2, k3⟩
        rw [← k1]
        exact (mark_pix_inImage_ne hg hwf.2.1 hp (inImage_at (by omega) (by omega) hy)
          (by intro he; injection he with he _; exact hx2 he)).symm
    · intro q hq hn
      rw [hfr q hq (by intro ⟨a, b, c⟩; exact hn ⟨a, by omega, c⟩)]
      apply mark_pix_inImage_ne hg hwf.2.1 hp hq
      intro he
      apply hn
      rw [he]
      exact ⟨rfl, le_refl _, by simp only; omega⟩
    · apply stops_of_frame seedPoint _ hstop
      intro a b
      exact (mark_pix_inImage_ne hg hwf.2.1 hp (inImage_at a b hy)
        (by intro he; injection he with he _; omega)).symm

/-- The left extension from column `x1`: it returns, having marked the columns from the
column `x1'` at which it stops up to `x1 − 1`, and nothing else. -/
theorem scanLineLeft_run (seedPoint : QPoint) (hwf : referenceImage.WF)
    (ht : threshold ≤ 255) {y : Int} (hy : 0 ≤ y ∧ y < (referenceImage.height : Int)) :
    ∀ (fuel : Nat) (mask : QImage) (x1 : Int), SameGeometry referenceImage mask → 0 ≤ x1 →
      x1 ≤ (referenceImage.width : Int) → x1.toNat < fuel →
      ∃ mask' x1',
        scanLineLeft referenceImage (referenceImage.pix seedPoint) threshold y fuel mask x1 =
          .ok (mask', x1') ∧
        0 ≤ x1' ∧ x1' ≤ x1 ∧ SameGeometry referenceImage mask' ∧
        (∀ x, x1' ≤ x → x < x1 →
          mask.pix ⟨x, y⟩ = 0 ∧
          includable referenceImage (referenceImage.pix seedPoint) threshold ⟨x, y⟩ ∧
          mask'.pix ⟨x, y⟩ =
            gradedValue (qAbs (referenceImage.pix ⟨x, y⟩) (referenceImage.pix seedPoint))
              threshold) ∧
        (∀ q, referenceImage.inImage q → ¬ (q.y = y ∧ x1' ≤ q.x ∧ q.x < x1) →
          mask'.pix q = mask.pix q) ∧
        (x1' = x1 → mask' = mask) ∧
        Stops referenceImage (referenceImage.pix seedPoint) threshold mask y (x1' - 1) := by
  intro fuel
  induction fuel with
  | zero => intro mask x1 _ _ _ hf; omega
  | succ fuel ih =>
    intro mask x1 hg h0 hw hf
    have stay : ∀ (_ : Stops referenceImage (referenceImage.pix seedPoint) threshold mask y
        (x1 - 1)),
        ∃ mask' x1', (Except.ok (mask, x1) : Except Fault (QImage × Int)) = .ok (mask', x1') ∧
        0 ≤ x1' ∧ x1' ≤ x1 ∧ SameGeometry referenceImage mask' ∧
        (∀ x, x1' ≤ x → x < x1 →
          mask.pix ⟨x, y⟩ = 0 ∧
          includable referenceImage (referenceImage.pix seedPoint) threshold ⟨x, y⟩ ∧
          mask'.pix ⟨x, y⟩ =
            gradedValue (qAbs (referenceImage.pix ⟨x, y⟩) (referenceImage.pix seedPoint))
              threshold) ∧
        (∀ q, referenceImage.inImage q → ¬ (q.y = y ∧ x1' ≤ q.x ∧ q.x < x1) →
          mask'.pix q = mask.pix q) ∧
        (x1' = x1 → mask' = mask) ∧
        Stops referenceImage (referenceImage.pix seedPoint) threshold mask y (x1' - 1) :=
      fun hs => ⟨mask, x1, rfl, h0, le_refl _, hg, fun x a b => by omega,
        fun _ _ _ => rfl, fun _ => rfl, hs⟩
    unfold scanLineLeft
    by_cases hx : x1 - 1 < 0
    · rw [if_pos hx]
      exact stay (Or.inl hx)
    rw [if_neg hx]
    have hp : referenceImage.inImage ⟨x1 - 1, y⟩ := inImage_at (by omega) (by omega) hy
    obtain ⟨c1, c2, c3, c4, c5⟩ := mark_code seedPoint hwf ht hg hp
    rw [c1]
    simp only
    by_cases hm : mask.pix ⟨x1 - 1, y⟩ > 0
    · rw [if_pos hm]
      exact stay (Or.inr (Or.inr (Or.inl (by omega))))
    rw [if_neg hm, c2]
    simp only
    rw [c3]
    by_cases hd : qAbs (referenceImage.pix ⟨x1 - 1, y⟩) (referenceImage.pix seedPoint) ≥
        threshold
    · rw [if_pos hd]
      exact stay (Or.inr (Or.inr (Or.inr (by unfold includable; omega))))
    rw [if_neg hd]
    have hincl : includable referenceImage (referenceImage.pix seedPoint) threshold
        ⟨x1 - 1, y⟩ := by unfold includable; omega
    have hz : mask.pix ⟨x1 - 1, y⟩ = 0 := by omega
    rw [c4 hincl]
    simp only
    rw [c5]
    simp only
    obtain ⟨m0, m1⟩ := mask_offset_range hg hwf.2.1 hp
    obtain ⟨mask', x1', hrun, hnn, hle, hg', hmk, hfr, _, hstop⟩ :=
      ih (mask.mark ⟨x1 - 1, y⟩ (gradedValue (qAbs (referenceImage.pix ⟨x1 - 1, y⟩)
        (referenceImage.pix seedPoint)) threshold)) (x1 - 1) (mark_geometry hg _ _)
        (by omega) (by omega) (by omega)
    refine ⟨mask', x1', hrun, hnn, by omega, hg', ?_, ?_, fun h => by omega, ?_⟩
    · intro x h1 h2
      by_cases hx2 : x = x1 - 1
      · subst hx2
        refine ⟨hz, hincl, ?_⟩
        rw [hfr _ hp (by simp only; omega)]
        exact mark_pix_self _ _ m0 m1
      · obtain ⟨k1, k2, k3⟩ := hmk x h1 (by omega)
        refine ⟨?_, k2, k3⟩
        rw [← k1]
        exact (mark_pix_inImage_ne hg hwf.2.1 hp (inImage_at (by omega) (by omega) hy)
          (by intro he; injection he with he _; exact hx2 he)).symm
    · intro q hq hn
      rw [hfr q hq (by intro ⟨a, b, c⟩; exact hn ⟨a, b, by omega⟩)]
      apply mark_pix_inImage_ne hg hwf.2.1 hp hq
      intro he
      apply hn
      rw [he]
      exact ⟨rfl, by simp only; omega, by simp only; omega⟩
    · apply stops_of_frame seedPoint _ hstop
      intro a b
      exact (mark_pix_inImage_ne hg hwf.2.1 hp (inImage_at a b hy)
        (by intro he; injection he with he _; omega)).symm

/-- The skip loop from column `x2`: it returns a column `x2'` from `x2` on, and every column
that it has passed holds a marked pixel of the image. -/
theorem scanLineSkip_run (seedPoint : QPoint) (hwf : referenceImage.WF)
    (ht : threshold ≤ 255) {span : Span}
    (hy : 0 ≤ span.y ∧ span.y < (referenceImage.height : Int))
    {mask : QImage} (hg : SameGeometry referenceImage mask) :
    ∀ (fuel : Nat) (x2 : Int), 0 ≤ x2 → (span.x2 - x2).toNat < fuel →
      ∃ x2', scanLineSkip referenceImage (referenceImage.pix seedPoint) threshold mask span
          fuel x2 = .ok x2' ∧ x2 ≤ x2' ∧
        ∀ x, x2 ≤ x → x < x2' →
          x < (referenceImage.width : Int) ∧ mask.pix ⟨x, span.y⟩ ≠ 0 ∧
            ¬ includable referenceImage (referenceImage.pix seedPoint) threshold
              ⟨x, span.y⟩ := by
  intro fuel
  induction fuel with
  | zero => intro x2 _ hf; omega
  | succ fuel ih =>
    intro x2 h0 hf
    unfold scanLineSkip
    by_cases hc : x2 < span.x2 ∧ x2 < (referenceImage.width : Int)
    · rw [if_pos hc]
      have hp : referenceImage.inImage ⟨x2, span.y⟩ := inImage_at h0 hc.2 hy
      obtain ⟨c1, c2, _, _, _⟩ := mark_code seedPoint hwf ht hg hp
      rw [c1]
      simp only
      by_cases hm : mask.pix ⟨x2, span.y⟩ > 0
      · rw [if_pos hm, c2]
        simp only
        by_cases hd : qAbs (referenceImage.pix ⟨x2, span.y⟩) (referenceImage.pix seedPoint) ≥
            threshold
        · rw [if_pos hd]
          obtain ⟨x2', hrun, hle, hall⟩ := ih (x2 + 1) (by omega) (by omega)
          refine ⟨x2', hrun, by omega, ?_⟩
          intro x h1 h2
          by_cases hx : x = x2
          · subst hx
            exact ⟨hc.2, by omega, by unfold includable; omega⟩
          · exact hall x (by omega) h2
        · rw [if_neg hd]
          exact ⟨x2, rfl, le_refl _, fun x h1 h2 => by omega⟩
      · rw [if_neg hm]
        exact ⟨x2, rfl, le_refl _, fun x h1 h2 => by omega⟩
    · rw [if_neg hc]
      exact ⟨x2, rfl, le_refl _, fun x h1 h2 => by omega⟩

end Runs

end FloodFill

namespace FloodFill

/-! ## `floodFillScanLine`: the runs and the child spans of one span -/

section Runs2

variable {referenceImage : QImage} {threshold : Nat}

/-- A run between the masks `mR` and `mask'` is a run between `m0` and `mask'` when `m0`
and `mR` agree on the row from the column `e` on, left of the run. -/
theorem MarkedRun.rebase (seedPoint : QPoint) {m0 mR mask' : QImage} {y a b e : Int}
    (h : MarkedRun referenceImage (referenceImage.pix seedPoint) threshold mR mask' y a b)
    (he : e < a)
    (hfr : ∀ x, e ≤ x → 0 ≤ x → x < (referenceImage.width : Int) →
      mR.pix ⟨x, y⟩ = m0.pix ⟨x, y⟩) :
    MarkedRun referenceImage (referenceImage.pix seedPoint) threshold m0 mask' y a b := by
  obtain ⟨b1, b2, b3⟩ := h.bounds
  refine ⟨h.bounds, ?_, ?_, ?_⟩
  · intro x h1 h2
    obtain ⟨k1, k2, k3⟩ := h.marked x h1 h2
    refine ⟨?_, k2, k3⟩
    rw [← hfr x (by omega) (by omega) (by omega)]
    exact k1
  · exact stops_of_frame seedPoint (fun p q => (hfr _ (by omega) p q).symm) h.left
  · exact stops_of_frame seedPoint (fun p q => (hfr _ (by omega) p q).symm) h.right

/-- The loop `while (x2 <= span.x2)` from the columns `x1 ≤ x2`, where the columns from
`x1` up to `x2` are the part of the current run that is marked already (`m0` is the mask
before that part was marked): it returns, and what it marks are runs, each with its two
child spans on the stack. -/
theorem scanLineOuter_runs (seedPoint : QPoint) (hwf : referenceImage.WF)
    (ht : threshold ≤ 255) {span : Span}
    (hy : 0 ≤ span.y ∧ span.y < (referenceImage.height : Int))
    (hxw : span.x2 < (referenceImage.width : Int)) :
    ∀ (fuel : Nat) (m0 mask : QImage) (spans : List Span) (x1 x2 : Int),
      SameGeometry referenceImage mask → 0 ≤ x1 → x1 ≤ x2 →
      (∀ x, x1 ≤ x → x < x2 →
        m0.pix ⟨x, span.y⟩ = 0 ∧
        includable referenceImage (referenceImage.pix seedPoint) threshold ⟨x, span.y⟩ ∧
        mask.pix ⟨x, span.y⟩ =
          gradedValue (qAbs (referenceImage.pix ⟨x, span.y⟩) (referenceImage.pix seedPoint))
            threshold) →
      (∀ q, referenceImage.inImage q → ¬ (q.y = span.y ∧ x1 ≤ q.x ∧ q.x < x2) →
        mask.pix q = m0.pix q) →
      (x1 = x2 → mask = m0) →
      (Stops referenceImage (referenceImage.pix seedPoint) threshold m0 span.y (x1 - 1) ∨
        (x1 = x2 ∧
          Stops referenceImage (referenceImage.pix seedPoint) threshold m0 span.y x1)) →
      (x1 < x2 → x2 ≤ span.x2) →
      (span.x2 + 1 - x2).toNat < fuel →
      ∃ mask' runs,
        scanLineOuter referenceImage (referenceImage.pix seedPoint) threshold span fuel mask
          spans x1 x2 = .ok (mask', runChildren span runs spans) ∧
        SameGeometry referenceImage mask' ∧
        (∀ r ∈ runs,
          MarkedRun referenceImage (referenceImage.pix seedPoint) threshold m0 mask' span.y
            r.1 r.2 ∧ x1 ≤ r.1) ∧
        runs.Pairwise (fun r r' => r.2 + 1 < r'.1) ∧
        (∀ q, referenceImage.inImage q →
          (¬ ∃ r ∈ runs, q.y = span.y ∧ r.1 ≤ q.x ∧ q.x ≤ r.2) → mask'.pix q = m0.pix q) ∧
        (runs = [] → mask' = m0) := by
  intro fuel
  induction fuel with
  | zero => intro m0 mask spans x1 x2 _ _ _ _ _ _ _ _ hf; omega
  | succ fuel ih =>
    intro m0 mask spans x1 x2 hg h1 h12 pend frame0 same0 start hnext hf
    unfold scanLineOuter
    by_cases hx : x2 ≤ span.x2
    · rw [if_pos hx]
      obtain ⟨mR, x2s, hright, r1, r2, gR, rmk, rfr, rsame, rstop⟩ :=
        scanLineRight_run seedPoint hwf ht hy
          ((referenceImage.width : Int) - x2).toNat.succ mask x2 hg (by omega)
          (Nat.lt_succ_self _)
      have r2' : x2s ≤ (referenceImage.width : Int) := by omega
      rw [hright]
      simp only
      obtain ⟨x2e, hskip, s1, sall⟩ := scanLineSkip_run seedPoint hwf ht hy gR
        (span.x2 - (x2s + 1)).toNat.succ (x2s + 1) (by omega) (Nat.lt_succ_self _)
      rw [hskip]
      simp only
      -- the pixel left of the next start stops a scan
      have startR : Stops referenceImage (referenceImage.pix seedPoint) threshold mR span.y
          (x2e - 1) := by
        by_cases hs : x2e = x2s + 1
        · have : x2e - 1 = x2s := by omega
          rw [this]
          apply stops_of_frame seedPoint _ rstop
          intro a b
          exact rfr _ (inImage_at a b hy) (by simp only; omega)
        · obtain ⟨_, k, _⟩ := sall (x2e - 1) (by omega) (by omega)
          exact Or.inr (Or.inr (Or.inl k))
      -- the masks agree right of the current run
      have hcomp : ∀ x, x2s ≤ x → 0 ≤ x → x < (referenceImage.width : Int) →
          mR.pix ⟨x, span.y⟩ = m0.pix ⟨x, span.y⟩ := by
        intro x a b c
        rw [rfr _ (inImage_at b c hy) (by simp only; omega)]
        exact frame0 _ (inImage_at b c hy) (by simp only; omega)
      obtain ⟨mask', runs', hrun', g', hruns', hpw', hfr', hsame'⟩ :=
        ih mR mR
          (if x2s > x1 then
            (⟨x1, x2s - 1, span.y + span.dy, span.dy⟩ : Span) ::
              ⟨x1, x2s - 1, span.y - span.dy, -span.dy⟩ :: spans
           else spans) x2e x2e gR (by omega) (le_refl _) (fun x a b => by omega)
          (fun _ _ _ => rfl) (fun _ => rfl) (Or.inl startR) (fun h => by omega) (by omega)
      by_cases hpush : x2s > x1
      · rw [if_pos hpush] at hrun' ⊢
        refine ⟨mask', (x1, x2s - 1) :: runs', hrun', g', ?_, ?_, ?_, fun h => by cases h⟩
        · intro r hr
          rcases List.mem_cons.1 hr with rfl | hr
          · refine ⟨⟨⟨h1, by simp only; omega, by simp only; omega⟩, ?_, ?_, ?_⟩, le_refl _⟩
            · intro x a b
              simp only at a b
              have hnot : ¬ ∃ r ∈ runs', (⟨x, span.y⟩ : QPoint).y = span.y ∧
                  r.1 ≤ (⟨x, span.y⟩ : QPoint).x ∧ (⟨x, span.y⟩ : QPoint).x ≤ r.2 := by
                intro ⟨r, hr, _, k, _⟩
                have := (hruns' r hr).2
                simp only at k
                omega
              have hin : referenceImage.inImage ⟨x, span.y⟩ :=
                inImage_at (by omega) (by omega) hy
              by_cases hxl : x < x2
              · obtain ⟨k1, k2, k3⟩ := pend x a hxl
                refine ⟨k1, k2, ?_⟩
                rw [hfr' _ hin hnot, rfr _ hin (by simp only; omega)]
                exact k3
              · obtain ⟨k1, k2, k3⟩ := rmk x (by omega) (by omega)
                refine ⟨?_, k2, ?_⟩
                · rw [← frame0 _ hin (by simp only; omega)]
                  exact k1
                · rw [hfr' _ hin hnot]
                  exact k3
            · rcases start with h | ⟨he, h⟩
              · exact h
              · exfalso
                obtain ⟨k1, k2, _⟩ := rmk x2 (le_refl _) (by omega)
                rw [same0 he] at k1
                rw [he] at h
                rcases h with h | h | h | h
                · omega
                · omega
                · exact h k1
                · exact h k2
            · have : x2s - 1 + 1 = x2s := by omega
              simp only
              rw [this]
              apply stops_of_frame seedPoint _ rstop
              intro a b
              exact (frame0 _ (inImage_at a b hy) (by simp only; omega)).symm
          · obtain ⟨hm, hl⟩ := hruns' r hr
            exact ⟨hm.rebase seedPoint (e := x2s) (by omega) hcomp, by omega⟩
        · rw [List.pairwise_cons]
          refine ⟨?_, hpw'⟩
          intro r hr
          have := (hruns' r hr).2
          simp only
          omega
        · intro q hq hn
          have hn' : ¬ ∃ r ∈ runs', q.y = span.y ∧ r.1 ≤ q.x ∧ q.x ≤ r.2 := by
            intro ⟨r, hr, k⟩
            exact hn ⟨r, List.mem_cons_of_mem _ hr, k⟩
          have hn0 : ¬ (q.y = span.y ∧ x1 ≤ q.x ∧ q.x ≤ x2s - 1) := by
            intro k
            exact hn ⟨(x1, x2s - 1), List.mem_cons_self _ _, k⟩
          rw [hfr' q hq hn', rfr q hq (by intro ⟨a, b, c⟩; exact hn0 ⟨a, by omega, by omega⟩)]
          exact frame0 q hq (by intro ⟨a, b, c⟩; exact hn0 ⟨a, b, by omega⟩)
      · rw [if_neg hpush] at hrun' ⊢
        have e1 : x2s = x2 := by omega
        have e2 : x1 = x2 := by omega
        have hm : mR = m0 := by rw [rsame e1]; exact same0 e2
        rw [hm] at hrun' hruns' hfr' hsame' ⊢
        refine ⟨mask', runs', hrun', g', ?_, hpw', hfr', hsame'⟩
        intro r hr
        obtain ⟨hm', hl⟩ := hruns' r hr
        exact ⟨hm', by omega⟩
    · rw [if_neg hx]
      have e2 : x1 = x2 := by
        by_contra hne
        have := hnext (by omega)
        omega
      refine ⟨mask, [], rfl, hg, (fun r hr => by cases hr), List.Pairwise.nil, ?_,
        fun _ => same0 e2⟩
      intro q _ _
      rw [same0 e2]

/-- One iteration of `while (!spans.isEmpty())` for a popped span inside the image: it
returns; what it has marked are runs of the row of the span, from left to right, each
maximal and each with its two child spans on the stack; it has stored to no other pixel and
pushed nothing else. -/
theorem floodFillScanLineStep_runs (seedPoint : QPoint) (hwf : referenceImage.WF)
    (ht : threshold ≤ 255) {mask : QImage} {span : Span} (spans : List Span)
    (hg : SameGeometry referenceImage mask)
    (hy : 0 ≤ span.y ∧ span.y < (referenceImage.height : Int))
    (hx : 0 ≤ span.x1 ∧ span.x1 ≤ span.x2 ∧ span.x2 < (referenceImage.width : Int)) :
    ∃ mask' runs,
      floodFillScanLineStep referenceImage (referenceImage.pix seedPoint) threshold mask span
        spans = .ok (mask', runChildren span runs spans) ∧
      SameGeometry referenceImage mask' ∧
      (∀ r ∈ runs,
        MarkedRun referenceImage (referenceImage.pix seedPoint) threshold mask mask' span.y
          r.1 r.2) ∧
      runs.Pairwise (fun r r' => r.2 + 1 < r'.1) ∧
      (∀ q, referenceImage.inImage q →
        (¬ ∃ r ∈ runs, q.y = span.y ∧ r.1 ≤ q.x ∧ q.x ≤ r.2) → mask'.pix q = mask.pix q) ∧
      (runs = [] → mask' = mask) := by
  unfold floodFillScanLineStep
  rw [if_neg (by omega)]
  have hp : referenceImage.inImage ⟨span.x1, span.y⟩ := inImage_at hx.1 (by omega) hy
  obtain ⟨c1, c2, _, _, _⟩ := mark_code seedPoint hwf ht hg hp
  rw [c1]
  simp only
  by_cases hext : mask.pix ⟨span.x1, span.y⟩ = 0 ∧
      includable referenceImage (referenceImage.pix seedPoint) threshold ⟨span.x1, span.y⟩
  · obtain ⟨hz, hincl⟩ := hext
    rw [if_pos hz, c2]
    simp only
    have hdec : decide (qAbs (referenceImage.pix ⟨span.x1, span.y⟩)
        (referenceImage.pix seedPoint) < threshold) = true := decide_eq_true hincl
    rw [hdec]
    simp only [if_true]
    obtain ⟨mL, x1L, hleft, l0, l1, gL, lmk, lfr, lsame, lstop⟩ :=
      scanLineLeft_run seedPoint hwf ht hy span.x1.toNat.succ mask span.x1 hg hx.1
        (by omega) (Nat.lt_succ_self _)
    rw [hleft]
    simp only
    obtain ⟨mask', runs, hrun, g', hruns, hpw, hfr, hsame⟩ :=
      scanLineOuter_runs seedPoint hwf ht hy hx.2.2 (span.x2 - span.x1 + 1).toNat.succ mask
        mL spans x1L span.x1 gL l0 l1 lmk lfr lsame (Or.inl lstop) (fun _ => hx.2.1)
        (by omega)
    exact ⟨mask', runs, hrun, g', fun r hr => (hruns r hr).1, hpw, hfr, hsame⟩
  · have hstop : Stops referenceImage (referenceImage.pix seedPoint) threshold mask span.y
        span.x1 := by
      by_cases hz : mask.pix ⟨span.x1, span.y⟩ = 0
      · exact Or.inr (Or.inr (Or.inr (fun hi => hext ⟨hz, hi⟩)))
      · exact Or.inr (Or.inr (Or.inl hz))
    have key : ∃ mask' runs,
        scanLineOuter referenceImage (referenceImage.pix seedPoint) threshold span
          (span.x2 - span.x1 + 1).toNat.succ mask spans span.x1 span.x1 =
          .ok (mask', runChildren span runs spans) ∧
        SameGeometry referenceImage mask' ∧
        (∀ r ∈ runs,
          MarkedRun referenceImage (referenceImage.pix seedPoint) threshold mask mask' span.y
            r.1 r.2) ∧
        runs.Pairwise (fun r r' => r.2 + 1 < r'.1) ∧
        (∀ q, referenceImage.inImage q →
          (¬ ∃ r ∈ runs, q.y = span.y ∧ r.1 ≤ q.x ∧ q.x ≤ r.2) → mask'.pix q = mask.pix q) ∧
        (runs = [] → mask' = mask) := by
      obtain ⟨mask', runs, hrun, g', hruns, hpw, hfr, hsame⟩ :=
        scanLineOuter_runs seedPoint hwf ht hy hx.2.2 (span.x2 - span.x1 + 1).toNat.succ mask
          mask spans span.x1 span.x1 hg hx.1 (le_refl _) (fun x a b => by omega)
          (fun _ _ _ => rfl) (fun _ => rfl) (Or.inr ⟨rfl, hstop⟩) (fun h => by omega)
          (by omega)
      exact ⟨mask', runs, hrun, g', fun r hr => (hruns r hr).1, hpw, hfr, hsame⟩
    by_cases hz : mask.pix ⟨span.x1, span.y⟩ = 0
    · rw [if_pos hz, c2]
      simp only
      have hdec : decide (qAbs (referenceImage.pix ⟨span.x1, span.y⟩)
          (referenceImage.pix seedPoint) < threshold) = false :=
        decide_eq_false (fun hi => hext ⟨hz, hi⟩)
      rw [hdec]
      simp only [Bool.false_eq_true, if_false]
      exact key
    · rw [if_neg hz]
      simp only [Bool.false_eq_true, if_false]
      exact key

end Runs2

end FloodFill

namespace FloodFill

/-! ## The serial fills pass only coordinates of the image to `getPixel` and `setPixel` -/

section Checked

variable {referenceImage : QImage} {threshold : Nat}

theorem getPixelChecked_eq {img : QImage} {p : QPoint} (hp : img.inImage p) :
    getPixelChecked img p = getPixel img p := by
  unfold getPixelChecked
  rw [if_pos ((contains_rect img p).2 hp)]

theorem setPixelChecked_eq {img : QImage} {p : QPoint} (v : Nat) (hp : img.inImage p) :
    setPixelChecked img p v = setPixel img p v := by
  unfold setPixelChecked
  rw [if_pos ((contains_rect img p).2 hp)]

theorem getPixelChecked_ok {img : QImage} {p : QPoint} {v : Nat}
    (h : getPixelChecked img p = .ok v) : img.inImage p := by
  unfold getPixelChecked at h
  by_cases hc : img.rect.contains p = true
  · exact (contains_rect img p).1 hc
  · rw [if_neg hc] at h
    cases h

theorem setPixelChecked_ok {img img' : QImage} {p : QPoint} {v : Nat}
    (h : setPixelChecked img p v = .ok img') : img.inImage p := by
  unfold setPixelChecked at h
  by_cases hc : img.rect.contains p = true
  · exact (contains_rect img p).1 hc
  · rw [if_neg hc] at h
    cases h

theorem pushChecked_ok {span : Span} {spans spans' : List Span}
    (h : pushChecked referenceImage span spans = .ok spans') :
    0 ≤ span.x1 ∧ span.x1 ≤ span.x2 ∧ span.x2 < (referenceImage.width : Int) := by
  unfold pushChecked at h
  by_cases hc : 0 ≤ span.x1 ∧ span.x1 ≤ span.x2 ∧ span.x2 < (referenceImage.width : Int)
  · exact hc
  · rw [if_neg hc] at h
    cases h

theorem inImage_geometry {mask : QImage} (hg : SameGeometry referenceImage mask) {p : QPoint}
    (hp : referenceImage.inImage p) : mask.inImage p := by
  obtain ⟨g1, g2, _, _⟩ := hg
  unfold QImage.inImage at hp ⊢
  rw [g1, g2]
  exact hp

theorem floodFillStepChecked_eq (seedValue : Nat) {mask : QImage} {p : QPoint}
    (nodes : List QPoint) (hg : SameGeometry referenceImage mask)
    (hp : referenceImage.inImage p) :
    floodFillStepChecked referenceImage seedValue threshold mask p nodes =
      floodFillStep referenceImage seedValue threshold mask p nodes := by
  unfold floodFillStepChecked floodFillStep
  simp only [getPixelChecked_eq (inImage_geometry hg hp), getPixelChecked_eq hp,
    setPixelChecked_eq _ (inImage_geometry hg hp)]

theorem floodFillLoopChecked_eq (seedPoint : QPoint) (hwf : referenceImage.WF)
    (ht : threshold ≤ 255) :
    ∀ (fuel : Nat) (mask : QImage) (nodes : List QPoint),
      NaiveInv referenceImage seedPoint threshold mask nodes →
      floodFillLoopChecked referenceImage (referenceImage.pix seedPoint) threshold fuel mask
          nodes =
        floodFillLoop referenceImage (referenceImage.pix seedPoint) threshold fuel mask
          nodes := by
  intro fuel
  induction fuel with
  | zero =>
    intro mask nodes _
    cases nodes with
    | nil => rfl
    | cons p nodes => rfl
  | succ fuel ih =>
    intro mask nodes inv
    cases nodes with
    | nil => rfl
    | cons p nodes =>
      unfold floodFillLoopChecked floodFillLoop
      rw [floodFillStepChecked_eq _ nodes inv.geometry
        (inv.nodesIn p (List.mem_cons_self _ _))]
      obtain ⟨mask', nodes', hstep, inv', _⟩ := floodFillStep_spec hwf ht inv
      rw [hstep]
      simp only
      exact ih mask' nodes' inv'

theorem floodFillChecked_eq (seedPoint : QPoint) (hwf : referenceImage.WF)
    (ht : threshold ≤ 255) (hin : referenceImage.inImage seedPoint) :
    floodFillChecked referenceImage seedPoint threshold =
      floodFill referenceImage seedPoint threshold := by
  obtain ⟨r0, r1⟩ := ref_offset_range hwf hin
  unfold floodFillChecked floodFill
  simp only [(contains_rect referenceImage seedPoint).2 hin, Bool.not_true, Bool.false_eq_true,
    if_false, getPixelChecked_eq hin, getPixel_eq r0 r1]
  exact floodFillLoopChecked_eq seedPoint hwf ht _ _ _
    (initial_naiveInv referenceImage seedPoint threshold hin)

theorem scanLineRightChecked_eq (seedPoint : QPoint) (hwf : referenceImage.WF)
    (ht : threshold ≤ 255) {y : Int} (hy : 0 ≤ y ∧ y < (referenceImage.height : Int)) :
    ∀ (fuel : Nat) (mask : QImage) (x2 : Int), SameGeometry referenceImage mask → 0 ≤ x2 →
      scanLineRightChecked referenceImage (referenceImage.pix seedPoint) threshold y fuel mask
          x2 =
        scanLineRight referenceImage (referenceImage.pix seedPoint) threshold y fuel mask
          x2 := by
  intro fuel
  induction fuel with
  | zero => intro mask x2 _ _; rfl
  | succ fuel ih =>
    intro mask x2 hg h0
    unfold scanLineRightChecked scanLineRight
    by_cases hx : x2 ≥ (referenceImage.width : Int)
    · rw [if_pos hx, if_pos hx]
    rw [if_neg hx, if_neg hx]
    have hp : referenceImage.inImage ⟨x2, y⟩ := inImage_at h0 (by omega) hy
    obtain ⟨c1, c2, c3, c4, c5⟩ := mark_code seedPoint hwf ht hg hp
    rw [getPixelChecked_eq (inImage_geometry hg hp), getPixelChecked_eq hp, c1]
    simp only
    by_cases hm : mask.pix ⟨x2, y⟩ > 0
    · rw [if_pos hm, if_pos hm]
    rw [if_neg hm, if_neg hm, c2]
    simp only
    rw [c3]
    by_cases hd : qAbs (referenceImage.pix ⟨x2, y⟩) (referenceImage.pix seedPoint) ≥ threshold
    · rw [if_pos hd, if_pos hd]
    rw [if_neg hd, if_neg hd]
    have hincl : includable referenceImage (referenceImage.pix seedPoint) threshold
        ⟨x2, y⟩ := by unfold includable; omega
    rw [c4 hincl]
    simp only
    rw [setPixelChecked_eq _ (inImage_geometry hg hp), c5]
    simp only
    exact ih _ _ (mark_geometry hg _ _) (by omega)

theorem scanLineLeftChecked_eq (seedPoint : QPoint) (hwf : referenceImage.WF)
    (ht : threshold ≤ 255) {y : Int} (hy : 0 ≤ y ∧ y < (referenceImage.height : Int)) :
    ∀ (fuel : Nat) (mask : QImage) (x1 : Int), SameGeometry referenceImage mask →
      x1 ≤ (referenceImage.width : Int) →
      scanLineLeftChecked referenceImage (referenceImage.pix seedPoint) threshold y fuel mask
          x1 =
        scanLineLeft referenceImage (referenceImage.pix seedPoint) threshold y fuel mask
          x1 := by
  intro fuel
  induction fuel with
  | zero => intro mask x1 _ _; rfl
  | succ fuel ih =>
    intro mask x1 hg hw
    unfold scanLineLeftChecked scanLineLeft
    by_cases hx : x1 - 1 < 0
    · rw [if_pos hx, if_pos hx]
    rw [if_neg hx, if_neg hx]
    have hp : referenceImage.inImage ⟨x1 - 1, y⟩ := inImage_at (by omega) (by omega) hy
    obtain ⟨c1, c2, c3, c4, c5⟩ := mark_code seedPoint hwf ht hg hp
    rw [getPixelChecked_eq (inImage_geometry hg hp), getPixelChecked_eq hp, c1]
    simp only
    by_cases hm : mask.pix ⟨x1 - 1, y⟩ > 0
    · rw [if_pos hm, if_pos hm]
    rw [if_neg hm, if_neg hm, c2]
    simp only
    rw [c3]
    by_cases hd : qAbs (referenceImage.pix ⟨x1 - 1, y⟩) (referenceImage.pix seedPoint) ≥
        threshold
    · rw [if_pos hd, if_pos hd]
    rw [if_neg hd, if_neg hd]
    have hincl : includable referenceImage (referenceImage.pix seedPoint) threshold
        ⟨x1 - 1, y⟩ := by unfold includable; omega
    rw [c4 hincl]
    simp only
    rw [setPixelChecked_eq _ (inImage_geometry hg hp), c5]
    simp only
    exact ih _ _ (mark_geometry hg _ _) (by omega)

theorem scanLineSkipChecked_eq (seedPoint : QPoint) (hwf : referenceImage.WF)
    (ht : threshold ≤ 255) {span : Span}
    (hy : 0 ≤ span.y ∧ span.y < (referenceImage.height : Int))
    {mask : QImage} (hg : SameGeometry referenceImage mask) :
    ∀ (fuel : Nat) (x2 : Int), 0 ≤ x2 →
      scanLineSkipChecked referenceImage (referenceImage.pix seedPoint) threshold mask span
          fuel x2 =
        scanLineSkip referenceImage (referenceImage.pix seedPoint) threshold mask span fuel
          x2 := by
  intro fuel
  induction fuel with
  | zero => intro x2 _; rfl
  | succ fuel ih =>
    intro x2 h0
    unfold scanLineSkipChecked scanLineSkip
    by_cases hc : x2 < span.x2 ∧ x2 < (referenceImage.width : Int)
    · rw [if_pos hc, if_pos hc]
      have hp : referenceImage.inImage ⟨x2, span.y⟩ := inImage_at h0 hc.2 hy
      obtain ⟨c1, c2, _, _, _⟩ := mark_code seedPoint hwf ht hg hp
      rw [getPixelChecked_eq (inImage_geometry hg hp), getPixelChecked_eq hp, c1]
      simp only
      by_cases hm : mask.pix ⟨x2, span.y⟩ > 0
      · rw [if_pos hm, if_pos hm, c2]
        simp only
        by_cases hd : qAbs (referenceImage.pix ⟨x2, span.y⟩) (referenceImage.pix seedPoint) ≥
            threshold
        · rw [if_pos hd, if_pos hd]
          exact ih _ (by omega)
        · rw [if_neg hd, if_neg hd]
      · rw [if_neg hm, if_neg hm]
    · rw [if_neg hc, if_neg hc]

theorem pushChecked_eq {span : Span} (spans : List Span)
    (h : 0 ≤ span.x1 ∧ span.x1 ≤ span.x2 ∧ span.x2 < (referenceImage.width : Int)) :
    pushChecked referenceImage span spans = .ok (span :: spans) := by
  unfold pushChecked
  rw [if_pos h]

theorem scanLineOuterChecked_eq (seedPoint : QPoint) (hwf : referenceImage.WF)
    (ht : threshold ≤ 255) {span : Span}
    (hy : 0 ≤ span.y ∧ span.y < (referenceImage.height : Int))
    (hxw : span.x2 < (referenceImage.width : Int)) :
    ∀ (fuel : Nat) (mask : QImage) (spans : List Span) (x1 x2 : Int),
      SameGeometry referenceImage mask → 0 ≤ x1 → x1 ≤ x2 →
      scanLineOuterChecked referenceImage (referenceImage.pix seedPoint) threshold span fuel
          mask spans x1 x2 =
        scanLineOuter referenceImage (referenceImage.pix seedPoint) threshold span fuel mask
          spans x1 x2 := by
  intro fuel
  induction fuel with
  | zero => intro mask spans x1 x2 _ _ _; rfl
  | succ fuel ih =>
    intro mask spans x1 x2 hg h1 h12
    unfold scanLineOuterChecked scanLineOuter
    by_cases hx : x2 ≤ span.x2
    · rw [if_pos hx, if_pos hx, scanLineRightChecked_eq seedPoint hwf ht hy _ _ _ hg
        (by omega)]
      obtain ⟨mR, x2s, hright, r1, r2, gR, _, _, _, _⟩ :=
        scanLineRight_run seedPoint hwf ht hy
          ((referenceImage.width : Int) - x2).toNat.succ mask x2 hg (by omega)
          (Nat.lt_succ_self _)
      have r2' : x2s ≤ (referenceImage.width : Int) := by omega
      rw [hright]
      simp only
      rw [scanLineSkipChecked_eq seedPoint hwf ht hy gR _ _ (by omega)]
      obtain ⟨x2e, hskip, s1, _⟩ := scanLineSkip_run seedPoint hwf ht hy gR
        (span.x2 - (x2s + 1)).toNat.succ (x2s + 1) (by omega) (Nat.lt_succ_self _)
      rw [hskip]
      by_cases hpush : x2s > x1
      · rw [if_pos hpush, if_pos hpush,
          pushChecked_eq _ ⟨h1, by simp only; omega, by simp only; omega⟩,
          ]
        simp only
        rw [pushChecked_eq _ ⟨h1, by simp only; omega, by simp only; omega⟩]
        simp only
        exact ih _ _ _ _ gR (by omega) (le_refl _)
      · rw [if_neg hpush, if_neg hpush]
        simp only
        exact ih _ _ _ _ gR (by omega) (le_refl _)
    · rw [if_neg hx, if_neg hx]

theorem floodFillScanLineStepChecked_eq (seedPoint : QPoint) (hwf : referenceImage.WF)
    (ht : threshold ≤ 255) {mask : QImage} {span : Span} (spans : List Span)
    (hg : SameGeometry referenceImage mask)
    (hx : 0 ≤ span.x1 ∧ span.x1 ≤ span.x2 ∧ span.x2 < (referenceImage.width : Int)) :
    floodFillScanLineStepChecked referenceImage (referenceImage.pix seedPoint) threshold mask
        span spans =
      floodFillScanLineStep referenceImage (referenceImage.pix seedPoint) threshold mask span
        spans := by
  unfold floodFillScanLineStepChecked floodFillScanLineStep
  by_cases hrow : span.y < 0 ∨ span.y ≥ (referenceImage.height : Int)
  · rw [if_pos hrow, if_pos hrow]
  rw [if_neg hrow, if_neg hrow]
  have hy : 0 ≤ span.y ∧ span.y < (referenceImage.height : Int) := by omega
  have hp : referenceImage.inImage ⟨span.x1, span.y⟩ := inImage_at hx.1 (by omega) hy
  obtain ⟨c1, c2, _, _, _⟩ := mark_code seedPoint hwf ht hg hp
  rw [getPixelChecked_eq (inImage_geometry hg hp), getPixelChecked_eq hp, c1, c2,
    scanLineLeftChecked_eq seedPoint hwf ht hy _ _ _ hg (by omega)]
  simp only
  obtain ⟨mL, x1L, hleft, l0, l1, gL, _, _, _, _⟩ :=
    scanLineLeft_run seedPoint hwf ht hy span.x1.toNat.succ mask span.x1 hg hx.1
      (by omega) (Nat.lt_succ_self _)
  rw [hleft]
  by_cases hz : mask.pix ⟨span.x1, span.y⟩ = 0
  · rw [if_pos hz]
    simp only
    by_cases hd : qAbs (referenceImage.pix ⟨span.x1, span.y⟩) (referenceImage.pix seedPoint) <
        threshold
    · rw [decide_eq_true hd]
      simp only [if_true]
      exact scanLineOuterChecked_eq seedPoint hwf ht hy hx.2.2 _ _ _ _ _ gL l0 l1
    · rw [decide_eq_false hd]
      simp only [Bool.false_eq_true, if_false]
      exact scanLineOuterChecked_eq seedPoint hwf ht hy hx.2.2 _ _ _ _ _ hg hx.1 (le_refl _)
  · rw [if_neg hz]
    simp only [Bool.false_eq_true, if_false]
    exact scanLineOuterChecked_eq seedPoint hwf ht hy hx.2.2 _ _ _ _ _ hg hx.1 (le_refl _)

end Checked

end FloodFill

namespace FloodFill

/-! ## The spans on the stack of `floodFillScanLine` -/

section Checked2

variable {referenceImage : QImage} {threshold : Nat}

theorem mem_runChildren {span : Span} :
    ∀ (runs : List (Int × Int)) (spans : List Span) (s : Span),
      s ∈ runChildren span runs spans →
      s ∈ spans ∨ ∃ r ∈ runs, s.x1 = r.1 ∧ s.x2 = r.2 ∧
        ((s.y = span.y + span.dy ∧ s.dy = span.dy) ∨
          (s.y = span.y - span.dy ∧ s.dy = -span.dy)) := by
  intro runs
  induction runs with
  | nil =>
    intro spans s hs
    exact Or.inl hs
  | cons r rs ih =>
    intro spans s hs
    have hs' : s ∈ runChildren span rs
        ((⟨r.1, r.2, span.y + span.dy, span.dy⟩ : Span) ::
          ⟨r.1, r.2, span.y - span.dy, -span.dy⟩ :: spans) := hs
    rcases ih _ s hs' with h | ⟨r', hr', k⟩
    · rcases List.mem_cons.1 h with rfl | h
      · exact Or.inr ⟨r, List.mem_cons_self _ _, rfl, rfl, Or.inl ⟨rfl, rfl⟩⟩
      · rcases List.mem_cons.1 h with rfl | h
        · exact Or.inr ⟨r, List.mem_cons_self _ _, rfl, rfl, Or.inr ⟨rfl, rfl⟩⟩
        · exact Or.inl h
    · exact Or.inr ⟨r', List.mem_cons_of_mem _ hr', k⟩

/-- One iteration of `while (!spans.isEmpty())` on a stack of spans whose columns lie in the
image: it returns, and the columns of the spans of the new stack lie in the image. -/
theorem floodFillScanLineStep_range (seedPoint : QPoint) (hwf : referenceImage.WF)
    (ht : threshold ≤ 255) {mask : QImage} {span : Span} {spans : List Span}
    (hg : SameGeometry referenceImage mask)
    (hr : ∀ s ∈ span :: spans,
      0 ≤ s.x1 ∧ s.x1 ≤ s.x2 ∧ s.x2 < (referenceImage.width : Int)) :
    ∃ mask' spans',
      floodFillScanLineStep referenceImage (referenceImage.pix seedPoint) threshold mask span
        spans = .ok (mask', spans') ∧
      SameGeometry referenceImage mask' ∧
      ∀ s ∈ spans', 0 ≤ s.x1 ∧ s.x1 ≤ s.x2 ∧ s.x2 < (referenceImage.width : Int) := by
  by_cases hrow : span.y < 0 ∨ span.y ≥ (referenceImage.height : Int)
  · refine ⟨mask, spans, ?_, hg, fun s hs => hr s (List.mem_cons_of_mem _ hs)⟩
    unfold floodFillScanLineStep
    rw [if_pos hrow]
  · obtain ⟨mask', runs, hrun, g', hruns, _, _, _⟩ :=
      floodFillScanLineStep_runs seedPoint hwf ht spans hg (by omega)
        (hr span (List.mem_cons_self _ _))
    refine ⟨mask', _, hrun, g', ?_⟩
    intro s hs
    rcases mem_runChildren runs spans s hs with h | ⟨r, hr', e1, e2, _⟩
    · exact hr s (List.mem_cons_of_mem _ h)
    · have := (hruns r hr').bounds
      rw [e1, e2]
      exact this

theorem floodFillScanLineLoopChecked_eq (seedPoint : QPoint) (hwf : referenceImage.WF)
    (ht : threshold ≤ 255) :
    ∀ (fuel : Nat) (mask : QImage) (spans : List Span), SameGeometry referenceImage mask →
      (∀ s ∈ spans, 0 ≤ s.x1 ∧ s.x1 ≤ s.x2 ∧ s.x2 < (referenceImage.width : Int)) →
      floodFillScanLineLoopChecked referenceImage (referenceImage.pix seedPoint) threshold
          fuel mask spans =
        floodFillScanLineLoop referenceImage (referenceImage.pix seedPoint) threshold fuel
          mask spans := by
  intro fuel
  induction fuel with
  | zero =>
    intro mask spans _ _
    cases spans with
    | nil => rfl
    | cons s spans => rfl
  | succ fuel ih =>
    intro mask spans hg hr
    cases spans with
    | nil => rfl
    | cons span spans =>
      unfold floodFillScanLineLoopChecked floodFillScanLineLoop
      rw [floodFillScanLineStepChecked_eq seedPoint hwf ht spans hg
        (hr span (List.mem_cons_self _ _))]
      obtain ⟨mask', spans', hstep, g', hr'⟩ :=
        floodFillScanLineStep_range seedPoint hwf ht hg hr
      rw [hstep]
      simp only
      exact ih mask' spans' g' hr'

theorem floodFillScanLineChecked_eq (seedPoint : QPoint) (hwf : referenceImage.WF)
    (ht : threshold ≤ 255) (hin : referenceImage.inImage seedPoint) :
    floodFillScanLineChecked referenceImage seedPoint threshold =
      floodFillScanLine referenceImage seedPoint threshold := by
  obtain ⟨r0, r1⟩ := ref_offset_range hwf hin
  have hseed : 0 ≤ (⟨seedPoint.x, seedPoint.x, seedPoint.y, 1⟩ : Span).x1 ∧
      (⟨seedPoint.x, seedPoint.x, seedPoint.y, 1⟩ : Span).x1 ≤
        (⟨seedPoint.x, seedPoint.x, seedPoint.y, 1⟩ : Span).x2 ∧
      (⟨seedPoint.x, seedPoint.x, seedPoint.y, 1⟩ : Span).x2 <
        (referenceImage.width : Int) := ⟨hin.1, le_refl _, hin.2.1⟩
  unfold floodFillScanLineChecked floodFillScanLine
  simp only [(contains_rect referenceImage seedPoint).2 hin, Bool.not_true, Bool.false_eq_true,
    if_false, getPixelChecked_eq hin, getPixel_eq r0 r1, pushChecked_eq [] hseed]
  apply floodFillScanLineLoopChecked_eq seedPoint hwf ht _ _ _ (blank_geometry _)
  intro s hs
  rw [List.mem_singleton.1 hs]
  exact hseed

end Checked2

end FloodFill

namespace FloodFill

/-! ## The states and the calls of a run of the rounds -/

section Reach

variable {α : Type} {referenceImage : QImage} {seedPoint : QPoint} {threshold : Nat}
  {SeedOK : QImage → TileId → α → Prop} {SeedDone : QImage → α → Prop}
  {tile : QImage → TileId → List α → Except Fault (QImage × List (TileId × List α))}
  {tileGridSize : QSize} {sched : Schedule α} {fuel0 : Nat} {mask0 : QImage}
  {queue0 : List (TileId × List α)}

/-- The run of the rounds from the start is the run of the rounds from each of its
states. -/
theorem roundsReach_run {n : Nat} {m : QImage} {q : List (TileId × List α)}
    (h : RoundsReach sched tile tileGridSize fuel0 mask0 queue0 n m q) :
    runRoundsOrd sched tile tileGridSize fuel0 mask0 queue0 =
      runRoundsOrd sched tile tileGridSize n m q := by
  induction h with
  | start => rfl
  | round _ hround ih =>
    rw [ih]
    simp only [runRoundsOrd, hround]

end Reach

end FloodFill

namespace FloodFill

/-! ## The calls of the tile workers in a run of `floodFillMT` and `floodFillScanLineMT` -/

section Called

variable {ts : QSize} {referenceImage : QImage} {seedPoint : QPoint} {threshold : Nat}

end Called

end FloodFill

namespace FloodFill

/-! ## `floodFillScanLine`: the skip loop never advances -/

section Strict

variable {referenceImage : QImage} {threshold : Nat}

end Strict

end FloodFill

namespace FloodFill

/-! ## `floodFillTileScanLine`: the skip loop never advances -/

section StrictTile

variable {ts : QSize} {referenceImage : QImage} {originalSeedValue threshold : Nat}

end StrictTile

end FloodFill

namespace FloodFill

/-! ## `floodFillTileScanLine`: the loop with the strict skip -/

section StrictTileLoop

variable {ts : QSize} {referenceImage : QImage} {originalSeedValue threshold : Nat}

end StrictTileLoop

end FloodFill

namespace FloodFill

/-! ## The two parts of a call of `floodFillTile` -/

section Parts

variable {ts : QSize} {referenceImage : QImage}

/-- A call of `floodFillTile` is its copy loops followed by the rest of the call on the same
mask. -/
theorem floodFillTile_split (ts : QSize) (referenceImage fillMaskImage : QImage)
    (seedPoints : SeedPointList) (originalSeedValue : Nat) (currentTileId : TileId)
    (globalRect tileRect : QRect) (threshold : Nat) :
    floodFillTile ts referenceImage fillMaskImage seedPoints originalSeedValue currentTileId
        globalRect tileRect threshold =
      match floodFillTileCopyIn ts referenceImage fillMaskImage tileRect with
      | .error e => .error e
      | .ok tileData =>
        floodFillTileFinish ts fillMaskImage tileData seedPoints originalSeedValue
          currentTileId globalRect tileRect threshold := by
  unfold floodFillTile floodFillTileCopyIn floodFillTileFinish
  cases copyReference ts referenceImage tileRect (newTileData ts) with
  | error e => rfl
  | ok td1 => rfl

/-- The write-back loop on two masks of the geometry of the image: it returns on both or on
none, every byte that it stores to is the same in both results, and every other byte is as
before. -/
theorem writeBack_pair {tileRect : QRect} {td : List TileData} {A B A' : QImage}
    (hA : SameGeometry referenceImage A) (hB : SameGeometry referenceImage B)
    (h : writeBack ts A tileRect td = .ok A') :
    ∃ B', writeBack ts B tileRect td = .ok B' ∧ SameGeometry referenceImage A' ∧
      SameGeometry referenceImage B' ∧
      ∀ i, ((∃ c ∈ tileCells ts tileRect,
            (referenceImage.offset ⟨tileRect.left + c.2, c.1⟩).toNat = i) →
          B'.bits.getD i 0 = A'.bits.getD i 0) ∧
        ((¬ ∃ c ∈ tileCells ts tileRect,
            (referenceImage.offset ⟨tileRect.left + c.2, c.1⟩).toNat = i) →
          B'.bits.getD i 0 = B.bits.getD i 0 ∧ A'.bits.getD i 0 = A.bits.getD i 0) := by
  unfold writeBack at h ⊢
  have main : ∀ (l : List (Int × Int)) (A B A' : QImage), SameGeometry referenceImage A →
      SameGeometry referenceImage B →
      l.foldlM (fun (fillMaskImage : QImage) (c : Int × Int) =>
        (match tileAt td ((c.1 - tileRect.top) * ts.width + c.2) with
        | .error e => .error e
        | .ok t => setPixel fillMaskImage ⟨tileRect.left + c.2, c.1⟩ t.fillMaskPixel :
          Except Fault QImage)) A =
        .ok A' →
      ∃ B', l.foldlM (fun (fillMaskImage : QImage) (c : Int × Int) =>
        (match tileAt td ((c.1 - tileRect.top) * ts.width + c.2) with
        | .error e => .error e
        | .ok t => setPixel fillMaskImage ⟨tileRect.left + c.2, c.1⟩ t.fillMaskPixel :
          Except Fault QImage)) B =
        .ok B' ∧ SameGeometry referenceImage A' ∧ SameGeometry referenceImage B' ∧
        ∀ i, ((∃ c ∈ l, (referenceImage.offset ⟨tileRect.left + c.2, c.1⟩).toNat = i) →
            B'.bits.getD i 0 = A'.bits.getD i 0) ∧
          ((¬ ∃ c ∈ l, (referenceImage.offset ⟨tileRect.left + c.2, c.1⟩).toNat = i) →
            B'.bits.getD i 0 = B.bits.getD i 0 ∧ A'.bits.getD i 0 = A.bits.getD i 0) := by
    intro l
    induction l with
    | nil =>
      intro A B A' hA hB h
      simp only [List.foldlM_nil, pure, Except.pure, Except.ok.injEq] at h
      subst h
      refine ⟨B, rfl, hA, hB, fun i => ⟨?_, fun _ => ⟨rfl, rfl⟩⟩⟩
      rintro ⟨c, hc, _⟩
      simp at hc
    | cons a l ih =>
      intro A B A' hA hB h
      rw [List.foldlM_cons] at h
      cases ht : tileAt td ((a.1 - tileRect.top) * ts.width + a.2) with
      | error e => simp only [ht] at h; cases h
      | ok t =>
        simp only [ht] at h
        cases hsA : setPixel A ⟨tileRect.left + a.2, a.1⟩ t.fillMaskPixel with
        | error e => rw [hsA] at h; cases h
        | ok A1 =>
          rw [hsA] at h
          obtain ⟨a0, a1, rfl⟩ := setPixel_ok hsA
          have hoA : A.offset ⟨tileRect.left + a.2, a.1⟩ =
              referenceImage.offset ⟨tileRect.left + a.2, a.1⟩ := offset_geometry hA.2.2.1 _
          have hoB : B.offset ⟨tileRect.left + a.2, a.1⟩ =
              referenceImage.offset ⟨tileRect.left + a.2, a.1⟩ := offset_geometry hB.2.2.1 _
          have b0 : 0 ≤ B.offset ⟨tileRect.left + a.2, a.1⟩ := by rw [hoB, ← hoA]; exact a0
          have b1 : B.offset ⟨tileRect.left + a.2, a.1⟩ < B.bits.length := by
            rw [hoB, ← hoA, hB.2.2.2, ← hA.2.2.2]; exact a1
          have hsB := setPixel_eq t.fillMaskPixel b0 b1
          obtain ⟨B', hB', gA', gB', hbytes⟩ :=
            ih (A.mark ⟨tileRect.left + a.2, a.1⟩ t.fillMaskPixel)
              (B.mark ⟨tileRect.left + a.2, a.1⟩ t.fillMaskPixel) A' (mark_geometry hA _ _)
              (mark_geometry hB _ _) h
          refine ⟨B', ?_, gA', gB', ?_⟩
          · rw [List.foldlM_cons]
            simp only [ht, hsB]
            exact hB'
          · intro i
            obtain ⟨h1, h2⟩ := hbytes i
            by_cases hl : ∃ c ∈ l, (referenceImage.offset ⟨tileRect.left + c.2, c.1⟩).toNat = i
            · refine ⟨fun _ => h1 hl, fun hno => ?_⟩
              exfalso
              obtain ⟨c, hc, e⟩ := hl
              exact hno ⟨c, List.mem_cons_of_mem _ hc, e⟩
            · obtain ⟨e1, e2⟩ := h2 hl
              rw [mark_getD _ _ _ b0 b1] at e1
              rw [mark_getD _ _ _ a0 a1] at e2
              rw [hoB] at e1
              rw [hoA] at e2
              constructor
              · rintro ⟨c, hc, e⟩
                rcases List.mem_cons.1 hc with rfl | hc
                · rw [if_pos e] at e1 e2
                  rw [e1, e2]
                · exact absurd ⟨c, hc, e⟩ hl
              · intro hno
                have hne : ¬ (referenceImage.offset ⟨tileRect.left + a.2, a.1⟩).toNat = i :=
                  fun e => hno ⟨a, List.mem_cons_self _ _, e⟩
                rw [if_neg hne] at e1 e2
                exact ⟨e1, e2⟩
  exact main _ A B A' hA hB h

/-- The rest of a call of `floodFillTile` on a working buffer, for two masks of the geometry
of the image on which the write-back loop stores: it returns on both or on none, with the
same table. -/
theorem floodFillTileFinish_pair {A B A' : QImage} {td0 : List TileData}
    {seeds : SeedPointList} {sv : Nat} {k : TileId} {globalRect tileRect : QRect}
    {threshold : Nat} {info : TilePropagationInfo}
    (hA : SameGeometry referenceImage A) (hB : SameGeometry referenceImage B)
    (h : floodFillTileFinish ts A td0 seeds sv k globalRect tileRect threshold =
      .ok (A', info)) :
    ∃ B', floodFillTileFinish ts B td0 seeds sv k globalRect tileRect threshold =
        .ok (B', info) ∧ SameGeometry referenceImage A' ∧ SameGeometry referenceImage B' ∧
      ∀ i, ((∃ c ∈ tileCells ts tileRect,
            (referenceImage.offset ⟨tileRect.left + c.2, c.1⟩).toNat = i) →
          B'.bits.getD i 0 = A'.bits.getD i 0) ∧
        ((¬ ∃ c ∈ tileCells ts tileRect,
            (referenceImage.offset ⟨tileRect.left + c.2, c.1⟩).toNat = i) →
          B'.bits.getD i 0 = B.bits.getD i 0 ∧ A'.bits.getD i 0 = A.bits.getD i 0) := by
  unfold floodFillTileFinish at h ⊢
  simp only at h ⊢
  cases hl : floodFillTileLoop ts sv k globalRect tileRect threshold
      (seeds.length + 4 * (ts.width * ts.height) + 1) td0
      [(⟨k.x - 1, k.y⟩, []), (⟨k.x + 1, k.y⟩, []), (⟨k.x, k.y - 1⟩, []),
        (⟨k.x, k.y + 1⟩, [])] seeds.reverse with
  | error e => rw [hl] at h; cases h
  | ok r =>
    obtain ⟨td, info1⟩ := r
    rw [hl] at h
    simp only at h ⊢
    cases hw : writeBack ts A tileRect td with
    | error e => rw [hw] at h; cases h
    | ok A1 =>
      rw [hw] at h
      have := Except.ok.inj h
      simp only [Prod.mk.injEq] at this
      obtain ⟨rfl, rfl⟩ := this
      obtain ⟨B', hB', gA, gB, hbytes⟩ := writeBack_pair hA hB hw
      exact ⟨B', by rw [hB'], gA, gB, hbytes⟩

end Parts

end FloodFill

namespace FloodFill

/-! ## The keys of the table that `floodFillTile` returns -/

section Keys

variable {ts : QSize} {originalSeedValue threshold : Nat} {k : TileId}
  {globalRect tileRect : QRect}

/-- The four keys of the table of a call for the tile `k`, in the order of lines 213-216. -/
theorem tileNeighbour_keys (inGlobal inTile : Bool) (q : QPoint) (key : TileId)
    (state : List QPoint × TilePropagationInfo)
    (hkey : key ∈ state.2.map (fun e => e.1)) :
    (tileNeighbour inGlobal inTile q key state).2.map (fun e => e.1) =
      state.2.map (fun e => e.1) := by
  unfold tileNeighbour
  cases inGlobal <;> cases inTile <;> simp only [Bool.false_eq_true, if_false, if_true]
  rw [keys_hashAppend, if_pos hkey]

theorem floodFillTileStep_keys {td td' : List TileData} {info info' : TilePropagationInfo}
    {p : QPoint} {nodes nodes' : List QPoint}
    (hkeys : info.map (fun e => e.1) =
      [⟨k.x - 1, k.y⟩, ⟨k.x + 1, k.y⟩, ⟨k.x, k.y - 1⟩, ⟨k.x, k.y + 1⟩])
    (h : floodFillTileStep ts originalSeedValue k globalRect tileRect threshold td info p
      nodes = .ok (td', info', nodes')) :
    info'.map (fun e => e.1) =
      [⟨k.x - 1, k.y⟩, ⟨k.x + 1, k.y⟩, ⟨k.x, k.y - 1⟩, ⟨k.x, k.y + 1⟩] := by
  unfold floodFillTileStep at h
  have stop : (Except.ok (td, info, nodes) :
      Except Fault (List TileData × TilePropagationInfo × List QPoint)) =
      .ok (td', info', nodes') →
      info'.map (fun e => e.1) =
        [⟨k.x - 1, k.y⟩, ⟨k.x + 1, k.y⟩, ⟨k.x, k.y - 1⟩, ⟨k.x, k.y + 1⟩] := by
    intro h
    have := Except.ok.inj h
    simp only [Prod.mk.injEq] at this
    rw [← this.2.1]
    exact hkeys
  cases ht : tileAt td ((p.y - tileRect.top) * ts.width + (p.x - tileRect.left)) with
  | error e => rw [ht] at h; cases h
  | ok t =>
    rw [ht] at h
    simp only at h
    by_cases hpos : t.fillMaskPixel > 0
    · rw [if_pos hpos] at h
      exact stop h
    rw [if_neg hpos] at h
    by_cases hd : difference8 t.referencePixel originalSeedValue ≥ threshold
    · rw [if_pos hd] at h
      exact stop h
    rw [if_neg hd] at h
    cases hs : selectionValue (difference8 t.referencePixel originalSeedValue) threshold with
    | error e => rw [hs] at h; cases h
    | ok sel =>
      rw [hs] at h
      simp only at h
      cases hset : tileSetFillMask td
          ((p.y - tileRect.top) * ts.width + (p.x - tileRect.left)) sel with
      | error e => rw [hset] at h; cases h
      | ok td1 =>
        rw [hset] at h
        simp only at h
        have := Except.ok.inj h
        simp only [Prod.mk.injEq] at this
        rw [← this.2.1]
        have k1 := tileNeighbour_keys (decide (p.y > globalRect.top))
          (decide (p.y > tileRect.top)) ⟨p.x, p.y - 1⟩ ⟨k.x, k.y - 1⟩ (nodes, info)
          (by rw [hkeys]; simp)
        have k2 := tileNeighbour_keys (decide (p.y < globalRect.bottom))
          (decide (p.y < tileRect.bottom)) ⟨p.x, p.y + 1⟩ ⟨k.x, k.y + 1⟩ _
          (by rw [k1, hkeys]; simp)
        have k3 := tileNeighbour_keys (decide (p.x > globalRect.left))
          (decide (p.x > tileRect.left)) ⟨p.x - 1, p.y⟩ ⟨k.x - 1, k.y⟩ _
          (by rw [k2, k1, hkeys]; simp)
        have k4 := tileNeighbour_keys (decide (p.x < globalRect.right))
          (decide (p.x < tileRect.right)) ⟨p.x + 1, p.y⟩ ⟨k.x + 1, k.y⟩ _
          (by rw [k3, k2, k1, hkeys]; simp)
        rw [k4, k3, k2, k1, hkeys]

theorem floodFillTileLoop_keys :
    ∀ (fuel : Nat) (td td' : List TileData) (info info' : TilePropagationInfo)
      (nodes : List QPoint),
      info.map (fun e => e.1) =
        [⟨k.x - 1, k.y⟩, ⟨k.x + 1, k.y⟩, ⟨k.x, k.y - 1⟩, ⟨k.x, k.y + 1⟩] →
      floodFillTileLoop ts originalSeedValue k globalRect tileRect threshold fuel td info
        nodes = .ok (td', info') →
      info'.map (fun e => e.1) =
        [⟨k.x - 1, k.y⟩, ⟨k.x + 1, k.y⟩, ⟨k.x, k.y - 1⟩, ⟨k.x, k.y + 1⟩] := by
  intro fuel
  induction fuel with
  | zero =>
    intro td td' info info' nodes hkeys h
    cases nodes with
    | nil =>
      have := Except.ok.inj h
      simp only [Prod.mk.injEq] at this
      rw [← this.2]
      exact hkeys
    | cons p nodes => cases h
  | succ fuel ih =>
    intro td td' info info' nodes hkeys h
    cases nodes with
    | nil =>
      have := Except.ok.inj h
      simp only [Prod.mk.injEq] at this
      rw [← this.2]
      exact hkeys
    | cons p nodes =>
      unfold floodFillTileLoop at h
      cases hs : floodFillTileStep ts originalSeedValue k globalRect tileRect threshold td
          info p nodes with
      | error e => rw [hs] at h; cases h
      | ok r =>
        obtain ⟨td1, info1, nodes1⟩ := r
        rw [hs] at h
        simp only at h
        exact ih td1 td' info1 info' nodes1 (floodFillTileStep_keys hkeys hs) h

/-- The table that a call of `floodFillTile` for the tile `k` returns has the four entries
of lines 213-216, for the tiles left, right, above and below, in this order. -/
theorem floodFillTile_keys {referenceImage mask mask' : QImage} {seeds : SeedPointList}
    {info : TilePropagationInfo}
    (h : floodFillTile ts referenceImage mask seeds originalSeedValue k globalRect tileRect
      threshold = .ok (mask', info)) :
    ∃ left right up down : SeedPointList,
      info = [(⟨k.x - 1, k.y⟩, left), (⟨k.x + 1, k.y⟩, right), (⟨k.x, k.y - 1⟩, up),
        (⟨k.x, k.y + 1⟩, down)] := by
  unfold floodFillTile at h
  simp only at h
  cases h1 : copyReference ts referenceImage tileRect (newTileData ts) with
  | error e => rw [h1] at h; cases h
  | ok td1 =>
    rw [h1] at h
    simp only at h
    cases h2 : copyFillMask ts mask tileRect td1 with
    | error e => rw [h2] at h; cases h
    | ok td0 =>
      rw [h2] at h
      simp only at h
      cases hl : floodFillTileLoop ts originalSeedValue k globalRect tileRect threshold
          (seeds.length + 4 * (ts.width * ts.height) + 1) td0
          [(⟨k.x - 1, k.y⟩, []), (⟨k.x + 1, k.y⟩, []), (⟨k.x, k.y - 1⟩, []),
            (⟨k.x, k.y + 1⟩, [])] seeds.reverse with
      | error e => rw [hl] at h; cases h
      | ok r =>
        obtain ⟨td, info1⟩ := r
        rw [hl] at h
        simp only at h
        cases hw : writeBack ts mask tileRect td with
        | error e => rw [hw] at h; cases h
        | ok m =>
          rw [hw] at h
          have := Except.ok.inj h
          simp only [Prod.mk.injEq] at this
          obtain ⟨_, rfl⟩ := this
          have hkeys := floodFillTileLoop_keys _ _ _ _ _ _ (by simp) hl
          match info1, hkeys with
          | [(a, la), (b, lb), (c, lc), (d, ld)], hk =>
            simp only [List.map_cons, List.map_nil, List.cons.injEq, and_true] at hk
            obtain ⟨rfl, rfl, rfl, rfl⟩ := hk
            exact ⟨la, lb, lc, ld, rfl⟩

end Keys

end FloodFill

namespace FloodFill

/-! ## The image `raceImage` -/

section RaceImage

theorem raceImage_eq :
    raceImage =
      ⟨65, 65, 68, (List.range 4420).map fun i => if i < 65 ∨ i % 68 = 0 then 7 else 0⟩ := by
  unfold raceImage
  rfl

theorem raceImage_bits :
    raceImage.bits =
      (List.range 4420).map (fun i => if i < 65 ∨ i % 68 = 0 then 7 else 0) := by
  rw [raceImage_eq]

theorem raceImage_wf : raceImage.WF := by
  unfold QImage.WF
  rw [raceImage_bits]
  refine ⟨?_, ?_, ?_⟩
  · rw [List.length_map, List.length_range]
    rfl
  · exact Nat.le_of_ble_eq_true rfl
  · intro v hv
    rw [List.mem_map] at hv
    obtain ⟨i, _, rfl⟩ := hv
    split <;> omega

theorem raceImage_byte (i : Nat) :
    raceImage.bits.getD i 0 =
      if i < 4420 then (if i < 65 ∨ i % 68 = 0 then 7 else 0) else 0 := by
  rw [raceImage_bits]
  simp only [List.getD_eq_getElem?_getD, List.getElem?_map]
  by_cases h : i < 4420
  · rw [List.getElem?_range h, if_pos h]
    rfl
  · rw [List.getElem?_eq_none (by simp; omega), if_neg h]
    rfl

theorem raceImage_pix {p : QPoint} (hp : raceImage.inImage p) :
    raceImage.pix p = if p.y = 0 ∨ p.x = 0 then 7 else 0 := by
  obtain ⟨h1, h2, h3, h4⟩ := hp
  have hw : (raceImage.width : Int) = 65 := rfl
  have hh : (raceImage.height : Int) = 65 := rfl
  rw [hw] at h2
  rw [hh] at h4
  unfold QImage.pix
  rw [raceImage_byte]
  have ho : raceImage.offset p = p.y * 68 + p.x := rfl
  rw [ho]
  by_cases hc : p.y = 0 ∨ p.x = 0
  · rw [if_pos hc, if_pos (by omega), if_pos (by omega)]
  · rw [if_neg hc, if_pos (by omega), if_neg (by omega)]

theorem raceImage_seed : raceImage.pix ⟨0, 0⟩ = 7 := by
  rw [raceImage_pix (by decide)]
  simp

theorem raceImage_includable {p : QPoint} (hp : raceImage.inImage p) :
    includable raceImage (raceImage.pix ⟨0, 0⟩) 1 p ↔ (p.y = 0 ∨ p.x = 0) := by
  unfold includable qAbs
  rw [raceImage_seed, raceImage_pix hp]
  by_cases hc : p.y = 0 ∨ p.x = 0
  · simp [hc]
  · simp [hc]

theorem raceImage_connected {p : QPoint} (h : Connected raceImage ⟨0, 0⟩ 1 p) :
    raceImage.inImage p ∧ (p.y = 0 ∨ p.x = 0) :=
  ⟨h.inImage, (raceImage_includable h.inImage).1 h.includable⟩

theorem raceImage_grid : tileGridSizeOf tileSize raceImage.rect = ⟨2, 2⟩ := by decide

theorem raceImage_rect00 : tileRectOf tileSize raceImage.rect ⟨0, 0⟩ = ⟨0, 0, 63, 63⟩ := by
  decide

theorem raceImage_rect10 : tileRectOf tileSize raceImage.rect ⟨1, 0⟩ = ⟨64, 0, 64, 63⟩ := by
  decide

theorem raceImage_rect01 : tileRectOf tileSize raceImage.rect ⟨0, 1⟩ = ⟨0, 64, 63, 64⟩ := by
  decide

theorem raceImage_rect11 : tileRectOf tileSize raceImage.rect ⟨1, 1⟩ = ⟨64, 64, 64, 64⟩ := by
  decide

theorem raceImage_inGrid (k : TileId) :
    InGrid tileSize raceImage k ↔ (k.x = 0 ∨ k.x = 1) ∧ (k.y = 0 ∨ k.y = 1) := by
  unfold InGrid
  have hw : (raceImage.width : Int) = 65 := rfl
  have hh : (raceImage.height : Int) = 65 := rfl
  have tw : (tileSize.width : Int) = 64 := rfl
  have th : (tileSize.height : Int) = 64 := rfl
  rw [hw, hh, tw, th]
  constructor <;> intro h <;> omega

theorem raceImage_fits00 :
    TileFits tileSize raceImage (tileRectOf tileSize raceImage.rect ⟨0, 0⟩) := by
  rw [raceImage_rect00]
  intro c hc
  obtain ⟨c1, c2, c3, c4⟩ := (mem_tileCells (by decide)).1 hc
  have tw : (tileSize.width : Int) = 64 := rfl
  rw [tw] at c4
  simp only at c1 c2
  have ho : raceImage.offset ⟨(0 : Int) + c.2, c.1⟩ = c.1 * 68 + (0 + c.2) := rfl
  have hb : ((raceImage.bytesPerLine * raceImage.height : Nat) : Int) = 4420 := rfl
  rw [ho, hb]
  omega

theorem raceImage_fits10 :
    TileFits tileSize raceImage (tileRectOf tileSize raceImage.rect ⟨1, 0⟩) := by
  rw [raceImage_rect10]
  intro c hc
  obtain ⟨c1, c2, c3, c4⟩ := (mem_tileCells (by decide)).1 hc
  have tw : (tileSize.width : Int) = 64 := rfl
  rw [tw] at c4
  simp only at c1 c2
  have ho : raceImage.offset ⟨(64 : Int) + c.2, c.1⟩ = c.1 * 68 + (64 + c.2) := rfl
  have hb : ((raceImage.bytesPerLine * raceImage.height : Nat) : Int) = 4420 := rfl
  rw [ho, hb]
  omega

theorem raceImage_fits01 :
    TileFits tileSize raceImage (tileRectOf tileSize raceImage.rect ⟨0, 1⟩) := by
  rw [raceImage_rect01]
  intro c hc
  obtain ⟨c1, c2, c3, c4⟩ := (mem_tileCells (by decide)).1 hc
  have tw : (tileSize.width : Int) = 64 := rfl
  rw [tw] at c4
  simp only at c1 c2
  have ho : raceImage.offset ⟨(0 : Int) + c.2, c.1⟩ = c.1 * 68 + (0 + c.2) := rfl
  have hb : ((raceImage.bytesPerLine * raceImage.height : Nat) : Int) = 4420 := rfl
  rw [ho, hb]
  omega

end RaceImage

end FloodFill

namespace FloodFill

/-! ## The first round on `raceImage`: the tile `(0, 0)` -/

section RaceRound1

theorem raceImage_in00 : InGrid tileSize raceImage ⟨0, 0⟩ :=
  (raceImage_inGrid _).2 ⟨Or.inl rfl, Or.inl rfl⟩

theorem raceImage_in10 : InGrid tileSize raceImage ⟨1, 0⟩ :=
  (raceImage_inGrid _).2 ⟨Or.inr rfl, Or.inl rfl⟩

theorem raceImage_in01 : InGrid tileSize raceImage ⟨0, 1⟩ :=
  (raceImage_inGrid _).2 ⟨Or.inl rfl, Or.inr rfl⟩

theorem raceImage_inImage {x y : Int} (h0 : 0 ≤ x) (h1 : x ≤ 64) (h2 : 0 ≤ y) (h3 : y ≤ 64) :
    raceImage.inImage ⟨x, y⟩ := by
  have hw : (raceImage.width : Int) = 65 := rfl
  have hh : (raceImage.height : Int) = 65 := rfl
  unfold QImage.inImage
  rw [hw, hh]
  simp only
  omega

/-- Where a seed point filed by a call for the tile `(0, 0)` of `raceImage` lies. -/
theorem raceImage_filed00 {mask mask' : QImage} {seeds : SeedPointList}
    {info : TilePropagationInfo} (hg : SameGeometry raceImage mask)
    (hseeds : ∀ q ∈ seeds, (tileRectOf tileSize raceImage.rect ⟨0, 0⟩).has q)
    (hcall : floodFillTile tileSize raceImage mask seeds (raceImage.pix ⟨0, 0⟩) ⟨0, 0⟩
      raceImage.rect (tileRectOf tileSize raceImage.rect ⟨0, 0⟩) 1 = .ok (mask', info)) :
    ∀ e ∈ info, ∀ q ∈ e.2,
      ((e.1 = ⟨1, 0⟩ ∧ q.x = 64 ∧ 0 ≤ q.y ∧ q.y ≤ 63) ∨
        (e.1 = ⟨0, 1⟩ ∧ q.y = 64 ∧ 0 ≤ q.x ∧ q.x ≤ 63)) ∧
      ∃ p, (tileRectOf tileSize raceImage.rect ⟨0, 0⟩).has p ∧ adjacent p q ∧
        mask.pix p = 0 ∧ mask'.pix p ≠ 0 := by
  have hem := @floodFillTile_emits tileSize raceImage (raceImage.pix ⟨0, 0⟩) 1 ⟨0, 0⟩ mask
    seeds tileSize_pos.1 tileSize_pos.2 raceImage_wf.2.1 raceImage_in00 hg hseeds
  rcases hem with hem | ⟨r, hr, hem⟩
  · rw [hcall] at hem; cases hem
  rw [hcall] at hr
  cases hr
  intro e he q hq
  obtain ⟨hin, hhas, hkey, hp⟩ := hem e he q hq
  refine ⟨?_, hp⟩
  rcases hkey with hk | hk | hk | hk
  · rw [hk, raceImage_inGrid] at hin
    simp only at hin
    omega
  · have hk' : e.1 = ⟨1, 0⟩ := by rw [hk]; rfl
    rw [hk', raceImage_rect10] at hhas
    obtain ⟨a1, a2, a3, a4⟩ := hhas
    simp only at a1 a2 a3 a4
    exact Or.inl ⟨hk', by omega, a3, a4⟩
  · rw [hk, raceImage_inGrid] at hin
    simp only at hin
    omega
  · have hk' : e.1 = ⟨0, 1⟩ := by rw [hk]; rfl
    rw [hk', raceImage_rect01] at hhas
    obtain ⟨a1, a2, a3, a4⟩ := hhas
    simp only at a1 a2 a3 a4
    exact Or.inr ⟨hk', by omega, a1, a2⟩

/-- The call for the tile `(0, 0)` in the first round: it marks the first row and the first
column of the tile and nothing outside the tile, and files `(64, 0)` for the tile `(1, 0)`
and `(0, 64)` for the tile `(0, 1)`. -/
theorem raceImage_round1 :
    ∃ (M1 : QImage) (left right up down : SeedPointList),
      floodFillTile tileSize raceImage raceImage.blank [⟨0, 0⟩] (raceImage.pix ⟨0, 0⟩) ⟨0, 0⟩
        raceImage.rect (tileRectOf tileSize raceImage.rect ⟨0, 0⟩) 1 =
        .ok (M1, [(⟨-1, 0⟩, left), (⟨1, 0⟩, right), (⟨0, -1⟩, up), (⟨0, 1⟩, down)]) ∧
      SameGeometry raceImage M1 ∧ MaskSound raceImage ⟨0, 0⟩ 1 M1 ∧
      (∀ n : Int, 0 ≤ n → n ≤ 63 → M1.pix ⟨n, 0⟩ ≠ 0 ∧ M1.pix ⟨0, n⟩ ≠ 0) ∧
      (∀ q, raceImage.inImage q → M1.pix q ≠ 0 →
        0 ≤ q.x ∧ q.x ≤ 63 ∧ 0 ≤ q.y ∧ q.y ≤ 63) ∧
      (⟨64, 0⟩ : QPoint) ∈ right ∧ (⟨0, 64⟩ : QPoint) ∈ down ∧
      (∀ q ∈ right, PointOK tileSize raceImage ⟨0, 0⟩ M1 ⟨1, 0⟩ q) ∧
      (∀ q ∈ down, PointOK tileSize raceImage ⟨0, 0⟩ M1 ⟨0, 1⟩ q) := by
  have hW := tileSize_pos.1
  have hH := tileSize_pos.2
  have hwf := raceImage_wf
  have hsv : raceImage.pix ⟨0, 0⟩ < 256 := pix_lt_256 hwf _
  have hseeds : ∀ q ∈ ([⟨0, 0⟩] : SeedPointList),
      (tileRectOf tileSize raceImage.rect ⟨0, 0⟩).has q := by
    intro q hq
    rw [List.mem_singleton.1 hq, raceImage_rect00]
    exact ⟨by decide, by decide, by decide, by decide⟩
  obtain ⟨⟨M1, info1⟩, hcall⟩ :=
    @floodFillTile_returns tileSize raceImage (raceImage.pix ⟨0, 0⟩) 1 ⟨0, 0⟩
      raceImage.blank [⟨0, 0⟩] hwf hW hH raceImage_in00 (blank_geometry _) hseeds
      raceImage_fits00
  obtain ⟨left, right, up, down, hinfo⟩ := floodFillTile_keys hcall
  have hspec := @floodFillTile_spec tileSize raceImage ⟨0, 0⟩ 1 ⟨0, 0⟩ raceImage.blank
    [⟨0, 0⟩] hwf (by decide) hW hH raceImage_in00 (blank_geometry _)
    (blank_sound _ _ _) (by
      intro q hq
      exact ⟨raceImage_in00, hseeds q hq, Or.inl (List.mem_singleton.1 hq)⟩)
  rcases hspec with hspec | ⟨r, hr, post⟩
  · rw [hcall] at hspec; cases hspec
  rw [hcall] at hr
  cases hr
  simp only at post
  have hfiled := raceImage_filed00 (blank_geometry _) hseeds hcall
  have hframe := floodFillTile_frame hwf hsv hW hH raceImage_in00 (blank_geometry _) hseeds
    hcall
  have hcl := @floodFillTile_closes tileSize raceImage (raceImage.pix ⟨0, 0⟩) 1
    (fun q => ¬ includable raceImage (raceImage.pix ⟨0, 0⟩) 1 q) ⟨0, 0⟩ raceImage.blank M1
    [⟨0, 0⟩] info1 hwf hsv hW hH raceImage_in00 (blank_geometry _) (fun q _ h => h) hseeds
    hcall
  have hfront := hcl (fun _ => False) (by
    intro p q _ _ _ hm
    exact absurd (blank_pix _ p) hm)
  -- nothing outside the tile is marked
  have hin : ∀ q, raceImage.inImage q → M1.pix q ≠ 0 →
      0 ≤ q.x ∧ q.x ≤ 63 ∧ 0 ≤ q.y ∧ q.y ≤ 63 := by
    intro q hq hm
    rcases hframe q hq hm with h | h
    · exact absurd (blank_pix _ q) h
    · rw [raceImage_rect00] at h
      obtain ⟨a1, a2, a3, a4⟩ := h
      exact ⟨a1, a2, a3, a4⟩
  -- a pixel of the first row or column next to a marked pixel is marked or filed
  have hnext : ∀ p q : QPoint, raceImage.inImage p → raceImage.inImage q → adjacent p q →
      M1.pix p ≠ 0 → (q.y = 0 ∨ q.x = 0) →
      M1.pix q ≠ 0 ∨ ∃ e ∈ info1, q ∈ e.2 := by
    intro p q hp hq hadj hm hrow
    rcases hfront p q hp hq hadj hm with h | h | h | ⟨e, he, _, a, ha, hcov⟩
    · exact Or.inl h
    · exact absurd ((raceImage_includable hq).2 hrow) h
    · exact absurd h id
    · unfold pointCov at hcov
      rw [hcov] at ha
      exact Or.inr ⟨e, he, ha⟩
  have hseedDone : M1.pix ⟨0, 0⟩ ≠ 0 := by
    rcases post.seedsDone ⟨0, 0⟩ (List.mem_singleton.2 rfl) with h | h
    · exact h
    · exact absurd ((raceImage_includable (by decide)).2 (Or.inl rfl)) h
  have hrow : ∀ n : Nat, n ≤ 63 → M1.pix ⟨(n : Int), 0⟩ ≠ 0 := by
    intro n
    induction n with
    | zero => intro _; exact hseedDone
    | succ n ih =>
      intro hn
      have hp := raceImage_inImage (x := (n : Int)) (y := 0) (by omega) (by omega)
        (by omega) (by omega)
      have hq := raceImage_inImage (x := ((n + 1 : Nat) : Int)) (y := 0) (by omega)
        (by omega) (by omega) (by omega)
      rcases hnext ⟨(n : Int), 0⟩ ⟨((n + 1 : Nat) : Int), 0⟩ hp hq
          (Or.inl ⟨rfl, Or.inl (by push_cast; rfl)⟩) (ih (by omega)) (Or.inl rfl) with
        h | ⟨e, he, hqe⟩
      · exact h
      · exfalso
        rcases (hfiled e he _ hqe).1 with ⟨_, h1, _⟩ | ⟨_, h1, _⟩
        · simp only at h1; omega
        · simp only at h1; omega
  have hcol : ∀ n : Nat, n ≤ 63 → M1.pix ⟨0, (n : Int)⟩ ≠ 0 := by
    intro n
    induction n with
    | zero => intro _; exact hseedDone
    | succ n ih =>
      intro hn
      have hp := raceImage_inImage (x := 0) (y := (n : Int)) (by omega) (by omega)
        (by omega) (by omega)
      have hq := raceImage_inImage (x := 0) (y := ((n + 1 : Nat) : Int)) (by omega)
        (by omega) (by omega) (by omega)
      rcases hnext ⟨0, (n : Int)⟩ ⟨0, ((n + 1 : Nat) : Int)⟩ hp hq
          (Or.inr ⟨rfl, Or.inl (by push_cast; rfl)⟩) (ih (by omega)) (Or.inr rfl) with
        h | ⟨e, he, hqe⟩
      · exact h
      · exfalso
        rcases (hfiled e he _ hqe).1 with ⟨_, h1, _⟩ | ⟨_, h1, _⟩
        · simp only at h1; omega
        · simp only at h1; omega
  have hmarks : ∀ n : Int, 0 ≤ n → n ≤ 63 → M1.pix ⟨n, 0⟩ ≠ 0 ∧ M1.pix ⟨0, n⟩ ≠ 0 := by
    intro n h0 h1
    have e : n = ((n.toNat : Nat) : Int) := by omega
    rw [e]
    exact ⟨hrow n.toNat (by omega), hcol n.toNat (by omega)⟩
  -- the two seeds filed for the tiles to the right and below
  have hright : (⟨64, 0⟩ : QPoint) ∈ right := by
    rcases hnext ⟨63, 0⟩ ⟨64, 0⟩ (by decide) (by decide) (Or.inl ⟨rfl, Or.inl rfl⟩)
        (hmarks 63 (by omega) (by omega)).1 (Or.inl rfl) with h | ⟨e, he, hqe⟩
    · have := hin _ (by decide) h
      simp only at this
      omega
    · rcases (hfiled e he _ hqe).1 with ⟨hk, _⟩ | ⟨_, h1, _⟩
      · rw [hinfo] at he
        simp only [List.mem_cons, List.mem_singleton, List.not_mem_nil, or_false] at he
        rcases he with rfl | rfl | rfl | rfl
        · cases hk
        · exact hqe
        · cases hk
        · cases hk
      · simp only at h1; omega
  have hdown : (⟨0, 64⟩ : QPoint) ∈ down := by
    rcases hnext ⟨0, 63⟩ ⟨0, 64⟩ (by decide) (by decide) (Or.inr ⟨rfl, Or.inl rfl⟩)
        (hmarks 63 (by omega) (by omega)).2 (Or.inr rfl) with h | ⟨e, he, hqe⟩
    · have := hin _ (by decide) h
      simp only at this
      omega
    · rcases (hfiled e he _ hqe).1 with ⟨_, h1, _⟩ | ⟨hk, _⟩
      · simp only at h1; omega
      · rw [hinfo] at he
        simp only [List.mem_cons, List.mem_singleton, List.not_mem_nil, or_false] at he
        rcases he with rfl | rfl | rfl | rfl
        · cases hk
        · cases hk
        · cases hk
        · exact hqe
  refine ⟨M1, left, right, up, down, ?_, post.geometry, post.sound, hmarks, hin, hright,
    hdown, ?_, ?_⟩
  · rw [hcall, hinfo]
    rfl
  · intro q hq
    exact post.infoOK (⟨1, 0⟩, right) (by rw [hinfo]; simp) q hq
  · intro q hq
    exact post.infoOK (⟨0, 1⟩, down) (by rw [hinfo]; simp) q hq

end RaceRound1

end FloodFill

namespace FloodFill

/-! ## A call of `floodFillTile` on `raceImage` -/

section RaceCall

theorem pix_eq_byte {referenceImage mask : QImage} (hg : SameGeometry referenceImage mask)
    (p : QPoint) : mask.pix p = mask.bits.getD (referenceImage.offset p).toNat 0 := by
  unfold QImage.pix
  rw [offset_geometry hg.2.2.1 p]

/-- Every byte is the byte of a point. -/
theorem byte_eq_pix {referenceImage mask : QImage} (hg : SameGeometry referenceImage mask)
    (i : Nat) : mask.bits.getD i 0 = mask.pix ⟨(i : Int), 0⟩ := by
  rw [pix_eq_byte hg]
  have : referenceImage.offset ⟨(i : Int), 0⟩ = (i : Int) := by
    unfold QImage.offset scanLine
    simp
  rw [this]
  simp

/-- What a call of `floodFillTile` on a sound mask of `raceImage` establishes. -/
theorem raceImage_call {k : TileId} {mask : QImage} {seeds : SeedPointList}
    (hk : InGrid tileSize raceImage k) (hg : SameGeometry raceImage mask)
    (hs : MaskSound raceImage ⟨0, 0⟩ 1 mask)
    (hseeds : ∀ q ∈ seeds, PointOK tileSize raceImage ⟨0, 0⟩ mask k q)
    (hfit : TileFits tileSize raceImage (tileRectOf tileSize raceImage.rect k)) :
    ∃ (mask' : QImage) (left right up down : SeedPointList),
      floodFillTile tileSize raceImage mask seeds (raceImage.pix ⟨0, 0⟩) k raceImage.rect
        (tileRectOf tileSize raceImage.rect k) 1 =
        .ok (mask', [(⟨k.x - 1, k.y⟩, left), (⟨k.x + 1, k.y⟩, right), (⟨k.x, k.y - 1⟩, up),
          (⟨k.x, k.y + 1⟩, down)]) ∧
      TilePost raceImage ⟨0, 0⟩ 1 (PointOK tileSize raceImage ⟨0, 0⟩)
        (Done raceImage ⟨0, 0⟩ 1) mask seeds mask'
        [(⟨k.x - 1, k.y⟩, left), (⟨k.x + 1, k.y⟩, right), (⟨k.x, k.y - 1⟩, up),
          (⟨k.x, k.y + 1⟩, down)] ∧
      (∀ q, raceImage.inImage q → mask'.pix q ≠ 0 →
        mask.pix q ≠ 0 ∨ (tileRectOf tileSize raceImage.rect k).has q) ∧
      ∀ e ∈ [((⟨k.x - 1, k.y⟩ : TileId), left), (⟨k.x + 1, k.y⟩, right),
          (⟨k.x, k.y - 1⟩, up), (⟨k.x, k.y + 1⟩, down)], ∀ q ∈ e.2,
        InGrid tileSize raceImage e.1 ∧ (tileRectOf tileSize raceImage.rect e.1).has q ∧
        ∃ p, (tileRectOf tileSize raceImage.rect k).has p ∧ adjacent p q ∧
          mask.pix p = 0 ∧ mask'.pix p ≠ 0 ∧ (p.y = 0 ∨ p.x = 0) := by
  have hW := tileSize_pos.1
  have hH := tileSize_pos.2
  have hwf := raceImage_wf
  have hsv : raceImage.pix ⟨0, 0⟩ < 256 := pix_lt_256 hwf _
  have hhas : ∀ q ∈ seeds, (tileRectOf tileSize raceImage.rect k).has q :=
    fun q hq => (hseeds q hq).2.1
  obtain ⟨⟨mask', info⟩, hcall⟩ :=
    @floodFillTile_returns tileSize raceImage (raceImage.pix ⟨0, 0⟩) 1 k mask seeds hwf hW hH
      hk hg hhas hfit
  obtain ⟨left, right, up, down, hinfo⟩ := floodFillTile_keys hcall
  have hspec := @floodFillTile_spec tileSize raceImage ⟨0, 0⟩ 1 k mask seeds hwf (by decide)
    hW hH hk hg hs hseeds
  rcases hspec with hspec | ⟨r, hr, post⟩
  · rw [hcall] at hspec; cases hspec
  rw [hcall] at hr
  cases hr
  simp only at post
  have hframe := floodFillTile_frame hwf hsv hW hH hk hg hhas hcall
  have hem := @floodFillTile_emits tileSize raceImage (raceImage.pix ⟨0, 0⟩) 1 k mask seeds
    hW hH hwf.2.1 hk hg hhas
  rcases hem with hem | ⟨r, hr, hem⟩
  · rw [hcall] at hem; cases hem
  rw [hcall] at hr
  cases hr
  simp only at hem
  subst hinfo
  refine ⟨mask', left, right, up, down, hcall, post, hframe, ?_⟩
  intro e he q hq
  obtain ⟨hin, hq', _, p, hp, hadj, h0, h1⟩ := hem e he q hq
  have hpi := has_inImage (tileOK_of_inGrid hk hW hH) hp
  have hconn := (sound_pix post.geometry hwf.2.1 post.sound hpi h1).1
  exact ⟨hin, hq', p, hp, hadj, h0, h1, (raceImage_connected hconn).2⟩

end RaceCall

end FloodFill

namespace FloodFill

/-! ## What a call for a tile without marked pixels files -/

section RaceFiles

variable {ts : QSize} {referenceImage : QImage} {seedValue threshold : Nat}

/-- A call of `floodFillTile` for a tile of the grid none of whose pixels is marked before
the call: every pixel outside the tile that passes the inclusion test and is next to a pixel
of the tile that the call has marked is filed in the returned table. -/
theorem floodFillTile_fresh {k : TileId} {mask mask' : QImage} {seeds : SeedPointList}
    {info : TilePropagationInfo}
    (hwf : referenceImage.WF) (hsv : seedValue < 256) (hW : 1 ≤ ts.width)
    (hH : 1 ≤ ts.height) (hk : InGrid ts referenceImage k)
    (hg : SameGeometry referenceImage mask)
    (hseeds : ∀ s ∈ seeds, (tileRectOf ts referenceImage.rect k).has s)
    (hfresh : ∀ p, (tileRectOf ts referenceImage.rect k).has p → mask.pix p = 0)
    (h : floodFillTile ts referenceImage mask seeds seedValue k referenceImage.rect
      (tileRectOf ts referenceImage.rect k) threshold = .ok (mask', info))
    {p q : QPoint} (hp : (tileRectOf ts referenceImage.rect k).has p)
    (hq : referenceImage.inImage q) (hadj : adjacent p q) (hm : mask'.pix p ≠ 0)
    (hout : ¬ (tileRectOf ts referenceImage.rect k).has q)
    (hi : includable referenceImage seedValue threshold q) :
    ∃ e ∈ info, q ∈ e.2 := by
  have hok := tileOK_of_inGrid hk hW hH
  have hpi := has_inImage hok hp
  unfold floodFillTile at h
  simp only at h
  cases h1 : copyReference ts referenceImage (tileRectOf ts referenceImage.rect k)
      (newTileData ts) with
  | error e => rw [h1] at h; cases h
  | ok td1 =>
    rw [h1] at h
    simp only at h
    cases h2 : copyFillMask ts mask (tileRectOf ts referenceImage.rect k) td1 with
    | error e => rw [h2] at h; cases h
    | ok td0 =>
      rw [h2] at h
      simp only at h
      cases h3 : floodFillTileLoop ts seedValue k referenceImage.rect
          (tileRectOf ts referenceImage.rect k) threshold
          (seeds.length + 4 * (ts.width * ts.height) + 1) td0
          [(⟨k.x - 1, k.y⟩, []), (⟨k.x + 1, k.y⟩, []), (⟨k.x, k.y - 1⟩, []),
            (⟨k.x, k.y + 1⟩, [])] seeds.reverse with
      | error e => rw [h3] at h; cases h
      | ok r =>
        obtain ⟨td', info'⟩ := r
        rw [h3] at h
        simp only at h
        cases h4 : writeBack ts mask (tileRectOf ts referenceImage.rect k) td' with
        | error e => rw [h4] at h; cases h
        | ok m =>
          rw [h4] at h
          simp only [Except.ok.injEq, Prod.mk.injEq] at h
          obtain ⟨rfl, rfl⟩ := h
          obtain ⟨buf0, hsees0⟩ := copyIn_buf mask hW hH hk h1 h2
          have front0 : Front referenceImage
              (fun q => ¬ includable referenceImage seedValue threshold q)
              (TileSees ts (tileRectOf ts referenceImage.rect k) referenceImage.blank td0)
              (fun q => False ∨ q ∈ seeds.reverse ∨
                Pending pointCov ([(⟨k.x - 1, k.y⟩, []), (⟨k.x + 1, k.y⟩, []),
                  (⟨k.x, k.y - 1⟩, []), (⟨k.x, k.y + 1⟩, [])] : TilePropagationInfo) q) := by
            intro a b _ _ _ hM
            rcases hM with ⟨hin, hcell⟩ | ⟨_, hb⟩
            · exact absurd (hfresh a hin) ((hsees0 a).1 (Or.inl ⟨hin, hcell⟩))
            · exact absurd (blank_pix referenceImage a) hb
          obtain ⟨buf', front'⟩ := floodFillTileLoop_closes (fun _ => False) hwf hsv hW hH hk
            (fun _ _ hx => hx) _ td0 _ seeds.reverse td' info' buf0
            (fun n hn => hseeds n (List.mem_reverse.1 hn)) front0 h3
          have hsees' := writeBack_sees hW hH hwf.2.1 hk hg h2 buf' h4
          have hcell : TileSees ts (tileRectOf ts referenceImage.rect k) referenceImage.blank
              td' p := by
            rcases (hsees' p hpi).2 hm with ⟨_, hc⟩ | ⟨hn, _⟩
            · exact Or.inl ⟨hp, hc⟩
            · exact absurd hp hn
          rcases front' p q hpi hq hadj hcell with hs | hx | hf | ⟨e, he, a, ha, hc⟩
          · rcases hs with ⟨hin, _⟩ | ⟨_, hb⟩
            · exact absurd hin hout
            · exact absurd (blank_pix referenceImage q) hb
          · exact absurd hi hx
          · exact hf.elim
          · unfold pointCov at hc
            subst hc
            exact ⟨e, he, ha⟩

end RaceFiles

end FloodFill

namespace FloodFill

/-! ## The second round on `raceImage`: the tiles `(1, 0)` and `(0, 1)` overlap -/

section RaceRound2

theorem gradedValue_seed : gradedValue (qAbs 7 7) 1 = 255 := by decide

/-- The second round with the copy loops of the task for the tile `(1, 0)` before, and its
write-back loop after, the whole task for the tile `(0, 1)`: the byte of the pixel `(0, 64)`
is 255 after the write-back of the task for `(0, 1)` and 0 after the write-back of the task
for `(1, 0)`, whose 64 columns from column 64 of row 63 on reach into row 64. -/
theorem raceImage_round2 {M1 : QImage} {right down : SeedPointList}
    (hg1 : SameGeometry raceImage M1) (hs1 : MaskSound raceImage ⟨0, 0⟩ 1 M1)
    (hmarks : ∀ n : Int, 0 ≤ n → n ≤ 63 → M1.pix ⟨n, 0⟩ ≠ 0 ∧ M1.pix ⟨0, n⟩ ≠ 0)
    (hin1 : ∀ q, raceImage.inImage q → M1.pix q ≠ 0 →
      0 ≤ q.x ∧ q.x ≤ 63 ∧ 0 ≤ q.y ∧ q.y ≤ 63)
    (hdown : (⟨0, 64⟩ : QPoint) ∈ down)
    (hrightOK : ∀ q ∈ right, PointOK tileSize raceImage ⟨0, 0⟩ M1 ⟨1, 0⟩ q)
    (hdownOK : ∀ q ∈ down, PointOK tileSize raceImage ⟨0, 0⟩ M1 ⟨0, 1⟩ q) :
    ∃ (td10 td01 : List TileData) (M2 M3 : QImage) (a1 b1 c1 a2 c2 d2 : SeedPointList),
      floodFillTileCopyIn tileSize raceImage M1 (tileRectOf tileSize raceImage.rect ⟨1, 0⟩) =
        .ok td10 ∧
      floodFillTileCopyIn tileSize raceImage M1 (tileRectOf tileSize raceImage.rect ⟨0, 1⟩) =
        .ok td01 ∧
      floodFillTileFinish tileSize M1 td01 down (raceImage.pix ⟨0, 0⟩) ⟨0, 1⟩ raceImage.rect
        (tileRectOf tileSize raceImage.rect ⟨0, 1⟩) 1 =
        .ok (M2, [(⟨-1, 1⟩, a2), (⟨1, 1⟩, []), (⟨0, 0⟩, c2), (⟨0, 2⟩, d2)]) ∧
      floodFillTileFinish tileSize M2 td10 right (raceImage.pix ⟨0, 0⟩) ⟨1, 0⟩ raceImage.rect
        (tileRectOf tileSize raceImage.rect ⟨1, 0⟩) 1 =
        .ok (M3, [(⟨0, 0⟩, a1), (⟨2, 0⟩, b1), (⟨1, -1⟩, c1), (⟨1, 1⟩, [])]) ∧
      M2.pix ⟨0, 64⟩ = 255 ∧ M3.pix ⟨0, 64⟩ = 0 ∧
      SameGeometry raceImage M3 ∧ MaskSound raceImage ⟨0, 0⟩ 1 M3 ∧
      (∀ q, M1.pix q ≠ 0 → M3.pix q ≠ 0) ∧
      (∀ q ∈ a1 ++ c2, PointOK tileSize raceImage ⟨0, 0⟩ M3 ⟨0, 0⟩ q) ∧
      (⟨0, 63⟩ : QPoint) ∈ c2 := by
  have hwf := raceImage_wf
  obtain ⟨M1', a1, b1, c1, d1, hcall10, post10, frame10, em10⟩ :=
    raceImage_call raceImage_in10 hg1 hs1 hrightOK raceImage_fits10
  obtain ⟨M2, a2, b2, c2, d2, hcall01, post01, frame01, em01⟩ :=
    raceImage_call raceImage_in01 hg1 hs1 hdownOK raceImage_fits01
  -- the keys
  have e10a : (⟨(⟨1, 0⟩ : TileId).x - 1, (⟨1, 0⟩ : TileId).y⟩ : TileId) = ⟨0, 0⟩ := rfl
  have e10b : (⟨(⟨1, 0⟩ : TileId).x + 1, (⟨1, 0⟩ : TileId).y⟩ : TileId) = ⟨2, 0⟩ := rfl
  have e10c : (⟨(⟨1, 0⟩ : TileId).x, (⟨1, 0⟩ : TileId).y - 1⟩ : TileId) = ⟨1, -1⟩ := rfl
  have e10d : (⟨(⟨1, 0⟩ : TileId).x, (⟨1, 0⟩ : TileId).y + 1⟩ : TileId) = ⟨1, 1⟩ := rfl
  have e01a : (⟨(⟨0, 1⟩ : TileId).x - 1, (⟨0, 1⟩ : TileId).y⟩ : TileId) = ⟨-1, 1⟩ := rfl
  have e01b : (⟨(⟨0, 1⟩ : TileId).x + 1, (⟨0, 1⟩ : TileId).y⟩ : TileId) = ⟨1, 1⟩ := rfl
  have e01c : (⟨(⟨0, 1⟩ : TileId).x, (⟨0, 1⟩ : TileId).y - 1⟩ : TileId) = ⟨0, 0⟩ := rfl
  have e01d : (⟨(⟨0, 1⟩ : TileId).x, (⟨0, 1⟩ : TileId).y + 1⟩ : TileId) = ⟨0, 2⟩ := rfl
  rw [e10a, e10b, e10c, e10d] at hcall10 post10 em10
  rw [e01a, e01b, e01c, e01d] at hcall01 post01 em01
  -- the task for the tile `(0, 1)` files the pixel above `(0, 64)`
  have h064 : raceImage.inImage ⟨0, 64⟩ := by decide
  have hc2 : (⟨0, 63⟩ : QPoint) ∈ c2 := by
    have hm : M2.pix ⟨0, 64⟩ ≠ 0 := by
      rcases post01.seedsDone ⟨0, 64⟩ hdown with h | h
      · exact h
      · exact absurd ((raceImage_includable h064).2 (Or.inr rfl)) h
    have h063 : raceImage.inImage ⟨0, 63⟩ := by decide
    have hfresh : ∀ p, (tileRectOf tileSize raceImage.rect ⟨0, 1⟩).has p → M1.pix p = 0 := by
      intro p hp
      rw [raceImage_rect01] at hp
      obtain ⟨p1, p2, p3, p4⟩ := hp
      simp only at p1 p2 p3 p4
      by_contra h
      have := hin1 p (by
        obtain ⟨x, y⟩ := p
        exact raceImage_inImage (by simpa using p1) (by simp only at p2; omega)
          (by simp only at p3; omega) (by simpa using p4)) h
      omega
    obtain ⟨e, he, hq⟩ := floodFillTile_fresh raceImage_wf
      (by rw [raceImage_seed]; decide) (by decide) (by decide) raceImage_in01 hg1
      (fun s hs => (hdownOK s hs).2.1) hfresh hcall01 (p := ⟨0, 64⟩) (q := ⟨0, 63⟩)
      (by rw [raceImage_rect01]; unfold QRect.has; decide) h063
      (by unfold adjacent; decide) hm
      (by rw [raceImage_rect01]; unfold QRect.has; decide)
      ((raceImage_includable h063).2 (Or.inr rfl))
    simp only [List.mem_cons, List.mem_singleton, List.not_mem_nil, or_false] at he
    rcases he with rfl | rfl | rfl | rfl
    · have := (raceImage_inGrid _).1 (em01 _ (by simp) _ hq).1
      simp only at this
      omega
    · have := (em01 (⟨1, 1⟩, b2) (by simp) _ hq).2.1
      rw [raceImage_rect11] at this
      obtain ⟨q1, _, _, _⟩ := this
      simp only at q1
      omega
    · exact hq
    · have := (raceImage_inGrid _).1 (em01 _ (by simp) _ hq).1
      simp only at this
      omega
  -- nothing is filed for the tile `(1, 1)`
  have hd1 : d1 = [] := by
    apply List.eq_nil_iff_forall_not_mem.2
    intro q hq
    obtain ⟨_, hq', p, hp, hadj, _, _, hrow⟩ := em10 (⟨1, 1⟩, d1) (by simp) q hq
    rw [raceImage_rect11] at hq'
    rw [raceImage_rect10] at hp
    obtain ⟨q1, q2, q3, q4⟩ := hq'
    obtain ⟨p1, p2, p3, p4⟩ := hp
    simp only at q1 q2 q3 q4 p1 p2 p3 p4
    unfold adjacent at hadj
    omega
  have hb2 : b2 = [] := by
    apply List.eq_nil_iff_forall_not_mem.2
    intro q hq
    obtain ⟨_, hq', p, hp, hadj, _, _, hrow⟩ := em01 (⟨1, 1⟩, b2) (by simp) q hq
    rw [raceImage_rect11] at hq'
    rw [raceImage_rect01] at hp
    obtain ⟨q1, q2, q3, q4⟩ := hq'
    obtain ⟨p1, p2, p3, p4⟩ := hp
    simp only at q1 q2 q3 q4 p1 p2 p3 p4
    unfold adjacent at hadj
    omega
  subst hd1 hb2
  -- the two parts of the calls
  rw [floodFillTile_split] at hcall10 hcall01
  cases hc10 : floodFillTileCopyIn tileSize raceImage M1
      (tileRectOf tileSize raceImage.rect ⟨1, 0⟩) with
  | error e => rw [hc10] at hcall10; cases hcall10
  | ok td10 =>
  cases hc01 : floodFillTileCopyIn tileSize raceImage M1
      (tileRectOf tileSize raceImage.rect ⟨0, 1⟩) with
  | error e => rw [hc01] at hcall01; cases hcall01
  | ok td01 =>
  rw [hc10] at hcall10
  rw [hc01] at hcall01
  simp only at hcall10 hcall01
  obtain ⟨M3, hfin, _, g3, hbytes⟩ := floodFillTileFinish_pair hg1 post01.geometry hcall10
  -- the byte of the pixel `(0, 64)`
  have hM1 : M1.pix ⟨0, 64⟩ = 0 := by
    by_contra h
    have := hin1 _ h064 h
    simp only at this
    omega
  have hM2 : M2.pix ⟨0, 64⟩ = 255 := by
    have hdone := post01.seedsDone ⟨0, 64⟩ hdown
    have hm : M2.pix ⟨0, 64⟩ ≠ 0 := by
      rcases hdone with h | h
      · exact h
      · exact absurd ((raceImage_includable h064).2 (Or.inr rfl)) h
    rw [(sound_pix post01.geometry hwf.2.1 post01.sound h064 hm).2, raceImage_seed,
      raceImage_pix h064]
    exact gradedValue_seed
  have hM1' : M1'.pix ⟨0, 64⟩ = 0 := by
    by_contra h
    rcases frame10 _ h064 h with h' | h'
    · exact h' hM1
    · rw [raceImage_rect10] at h'
      obtain ⟨p1, _, _, _⟩ := h'
      simp only at p1
      omega
  have hoff : raceImage.offset ⟨0, 64⟩ = 4352 := rfl
  have hM3 : M3.pix ⟨0, 64⟩ = 0 := by
    have hcov := (hbytes 4352).1 ⟨(63, 4), by
      rw [raceImage_rect10, mem_tileCells (by decide)]
      exact ⟨by decide, by decide, by decide, by decide⟩, by
      rw [raceImage_rect10]
      rfl⟩
    rw [pix_eq_byte g3, hoff]
    rw [pix_eq_byte post10.geometry, hoff] at hM1'
    exact hcov.trans hM1'
  -- the mask after the round
  have hmono : ∀ q, M1'.pix q ≠ 0 → M3.pix q ≠ 0 := by
    intro q hq
    rw [pix_eq_byte g3]
    rw [pix_eq_byte post10.geometry] at hq
    by_cases hcov : ∃ c ∈ tileCells tileSize (tileRectOf tileSize raceImage.rect ⟨1, 0⟩),
        (raceImage.offset ⟨(tileRectOf tileSize raceImage.rect ⟨1, 0⟩).left + c.2, c.1⟩).toNat =
          (raceImage.offset q).toNat
    · rw [(hbytes _).1 hcov]
      exact hq
    · obtain ⟨e1, e2⟩ := (hbytes _).2 hcov
      rw [e1]
      rw [e2, ← pix_eq_byte hg1] at hq
      have := post01.mono q hq
      rw [pix_eq_byte post01.geometry] at this
      exact this
  have hsound : MaskSound raceImage ⟨0, 0⟩ 1 M3 := by
    intro i hi
    by_cases hcov : ∃ c ∈ tileCells tileSize (tileRectOf tileSize raceImage.rect ⟨1, 0⟩),
        (raceImage.offset ⟨(tileRectOf tileSize raceImage.rect ⟨1, 0⟩).left + c.2, c.1⟩).toNat =
          i
    · have e := (hbytes i).1 hcov
      rw [e] at hi ⊢
      exact post10.sound i hi
    · have e := ((hbytes i).2 hcov).1
      rw [e] at hi ⊢
      exact post01.sound i hi
  have hmono1 : ∀ q, M1.pix q ≠ 0 → M3.pix q ≠ 0 := fun q hq => hmono q (post10.mono q hq)
  refine ⟨td10, td01, M2, M3, a1, b1, c1, a2, c2, d2, rfl, rfl, hcall01, hfin, hM2, hM3, g3,
    hsound, hmono1, ?_, hc2⟩
  intro q hq
  rcases List.mem_append.1 hq with hq | hq
  · exact pointOK_mono hmono (post10.infoOK (⟨0, 0⟩, a1) (by simp) q hq)
  · obtain ⟨_, hq', p, hp, hadj, _, _, hrow⟩ := em01 (⟨0, 0⟩, c2) (by simp) q hq
    refine ⟨raceImage_in00, hq', Or.inr ⟨⟨0, 62⟩, by decide, ?_,
      hmono1 _ (hmarks 62 (by omega) (by omega)).2⟩⟩
    rw [raceImage_rect00] at hq'
    rw [raceImage_rect01] at hp
    obtain ⟨q1, q2, q3, q4⟩ := hq'
    obtain ⟨p1, p2, p3, p4⟩ := hp
    simp only at q1 q2 q3 q4 p1 p2 p3 p4
    unfold adjacent at hadj ⊢
    simp only
    omega

end RaceRound2

end FloodFill

namespace FloodFill

/-! ## The second round on `raceImage`: one task after the other -/

section RaceRound2Seq

/-- The second round with the whole task for the tile `(1, 0)` before the task for the tile
`(0, 1)`: the byte of the pixel `(0, 64)` is 255 after the round. -/
theorem raceImage_round2_seq {M1 : QImage} {right down : SeedPointList}
    (hg1 : SameGeometry raceImage M1) (hs1 : MaskSound raceImage ⟨0, 0⟩ 1 M1)
    (hin1 : ∀ q, raceImage.inImage q → M1.pix q ≠ 0 →
      0 ≤ q.x ∧ q.x ≤ 63 ∧ 0 ≤ q.y ∧ q.y ≤ 63)
    (hright : (⟨64, 0⟩ : QPoint) ∈ right) (hdown : (⟨0, 64⟩ : QPoint) ∈ down)
    (hrightOK : ∀ q ∈ right, PointOK tileSize raceImage ⟨0, 0⟩ M1 ⟨1, 0⟩ q)
    (hdownOK : ∀ q ∈ down, PointOK tileSize raceImage ⟨0, 0⟩ M1 ⟨0, 1⟩ q) :
    ∃ (M1' M2 : QImage) (a1 b1 c1 a2 c2 d2 : SeedPointList),
      floodFillTile tileSize raceImage M1 right (raceImage.pix ⟨0, 0⟩) ⟨1, 0⟩ raceImage.rect
        (tileRectOf tileSize raceImage.rect ⟨1, 0⟩) 1 =
        .ok (M1', [(⟨0, 0⟩, a1), (⟨2, 0⟩, b1), (⟨1, -1⟩, c1), (⟨1, 1⟩, [])]) ∧
      floodFillTile tileSize raceImage M1' down (raceImage.pix ⟨0, 0⟩) ⟨0, 1⟩ raceImage.rect
        (tileRectOf tileSize raceImage.rect ⟨0, 1⟩) 1 =
        .ok (M2, [(⟨-1, 1⟩, a2), (⟨1, 1⟩, []), (⟨0, 0⟩, c2), (⟨0, 2⟩, d2)]) ∧
      M2.pix ⟨0, 64⟩ = 255 ∧
      SameGeometry raceImage M2 ∧ MaskSound raceImage ⟨0, 0⟩ 1 M2 ∧
      (∀ q, M1.pix q ≠ 0 → M2.pix q ≠ 0) ∧
      (∀ q ∈ a1 ++ c2, PointOK tileSize raceImage ⟨0, 0⟩ M2 ⟨0, 0⟩ q) ∧
      (⟨63, 0⟩ : QPoint) ∈ a1 := by
  have hwf := raceImage_wf
  obtain ⟨M1', a1, b1, c1, d1, hcall10, post10, frame10, em10⟩ :=
    raceImage_call raceImage_in10 hg1 hs1 hrightOK raceImage_fits10
  obtain ⟨M2, a2, b2, c2, d2, hcall01, post01, frame01, em01⟩ :=
    raceImage_call raceImage_in01 post10.geometry post10.sound
      (fun q hq => pointOK_mono post10.mono (hdownOK q hq)) raceImage_fits01
  have e10a : (⟨(⟨1, 0⟩ : TileId).x - 1, (⟨1, 0⟩ : TileId).y⟩ : TileId) = ⟨0, 0⟩ := rfl
  have e10b : (⟨(⟨1, 0⟩ : TileId).x + 1, (⟨1, 0⟩ : TileId).y⟩ : TileId) = ⟨2, 0⟩ := rfl
  have e10c : (⟨(⟨1, 0⟩ : TileId).x, (⟨1, 0⟩ : TileId).y - 1⟩ : TileId) = ⟨1, -1⟩ := rfl
  have e10d : (⟨(⟨1, 0⟩ : TileId).x, (⟨1, 0⟩ : TileId).y + 1⟩ : TileId) = ⟨1, 1⟩ := rfl
  have e01a : (⟨(⟨0, 1⟩ : TileId).x - 1, (⟨0, 1⟩ : TileId).y⟩ : TileId) = ⟨-1, 1⟩ := rfl
  have e01b : (⟨(⟨0, 1⟩ : TileId).x + 1, (⟨0, 1⟩ : TileId).y⟩ : TileId) = ⟨1, 1⟩ := rfl
  have e01c : (⟨(⟨0, 1⟩ : TileId).x, (⟨0, 1⟩ : TileId).y - 1⟩ : TileId) = ⟨0, 0⟩ := rfl
  have e01d : (⟨(⟨0, 1⟩ : TileId).x, (⟨0, 1⟩ : TileId).y + 1⟩ : TileId) = ⟨0, 2⟩ := rfl
  rw [e10a, e10b, e10c, e10d] at hcall10 post10 em10
  rw [e01a, e01b, e01c, e01d] at hcall01 post01 em01
  -- the task for the tile `(1, 0)` files the pixel left of `(64, 0)`
  have h640 : raceImage.inImage ⟨64, 0⟩ := by decide
  have h630 : raceImage.inImage ⟨63, 0⟩ := by decide
  have ha1 : (⟨63, 0⟩ : QPoint) ∈ a1 := by
    have hm : M1'.pix ⟨64, 0⟩ ≠ 0 := by
      rcases post10.seedsDone ⟨64, 0⟩ hright with h | h
      · exact h
      · exact absurd ((raceImage_includable h640).2 (Or.inl rfl)) h
    have hfresh : ∀ p, (tileRectOf tileSize raceImage.rect ⟨1, 0⟩).has p → M1.pix p = 0 := by
      intro p hp
      rw [raceImage_rect10] at hp
      obtain ⟨p1, p2, p3, p4⟩ := hp
      simp only at p1 p2 p3 p4
      by_contra h
      have := hin1 p (by
        obtain ⟨x, y⟩ := p
        exact raceImage_inImage (by simp only at p1; omega) (by simpa using p2)
          (by simpa using p3) (by simp only at p4; omega)) h
      omega
    obtain ⟨e, he, hq⟩ := floodFillTile_fresh raceImage_wf
      (by rw [raceImage_seed]; decide) (by decide) (by decide) raceImage_in10 hg1
      (fun s hs => (hrightOK s hs).2.1) hfresh hcall10 (p := ⟨64, 0⟩) (q := ⟨63, 0⟩)
      (by rw [raceImage_rect10]; unfold QRect.has; decide) h630
      (by unfold adjacent; decide) hm
      (by rw [raceImage_rect10]; unfold QRect.has; decide)
      ((raceImage_includable h630).2 (Or.inl rfl))
    simp only [List.mem_cons, List.mem_singleton, List.not_mem_nil, or_false] at he
    rcases he with rfl | rfl | rfl | rfl
    · exact hq
    · have := (raceImage_inGrid _).1 (em10 _ (by simp) _ hq).1
      simp only at this
      omega
    · have := (raceImage_inGrid _).1 (em10 _ (by simp) _ hq).1
      simp only at this
      omega
    · have := (em10 (⟨1, 1⟩, d1) (by simp) _ hq).2.1
      rw [raceImage_rect11] at this
      obtain ⟨q1, _, _, _⟩ := this
      simp only at q1
      omega
  -- nothing is filed for the tile `(1, 1)`
  have hd1 : d1 = [] := by
    apply List.eq_nil_iff_forall_not_mem.2
    intro q hq
    obtain ⟨_, hq', p, hp, hadj, _, _, hrow⟩ := em10 (⟨1, 1⟩, d1) (by simp) q hq
    rw [raceImage_rect11] at hq'
    rw [raceImage_rect10] at hp
    obtain ⟨q1, q2, q3, q4⟩ := hq'
    obtain ⟨p1, p2, p3, p4⟩ := hp
    simp only at q1 q2 q3 q4 p1 p2 p3 p4
    unfold adjacent at hadj
    omega
  have hb2 : b2 = [] := by
    apply List.eq_nil_iff_forall_not_mem.2
    intro q hq
    obtain ⟨_, hq', p, hp, hadj, _, _, hrow⟩ := em01 (⟨1, 1⟩, b2) (by simp) q hq
    rw [raceImage_rect11] at hq'
    rw [raceImage_rect01] at hp
    obtain ⟨q1, q2, q3, q4⟩ := hq'
    obtain ⟨p1, p2, p3, p4⟩ := hp
    simp only at q1 q2 q3 q4 p1 p2 p3 p4
    unfold adjacent at hadj
    omega
  subst hd1 hb2
  have h064 : raceImage.inImage ⟨0, 64⟩ := by decide
  have hM2 : M2.pix ⟨0, 64⟩ = 255 := by
    have hm : M2.pix ⟨0, 64⟩ ≠ 0 := by
      rcases post01.seedsDone ⟨0, 64⟩ hdown with h | h
      · exact h
      · exact absurd ((raceImage_includable h064).2 (Or.inr rfl)) h
    rw [(sound_pix post01.geometry hwf.2.1 post01.sound h064 hm).2, raceImage_seed,
      raceImage_pix h064]
    exact gradedValue_seed
  refine ⟨M1', M2, a1, b1, c1, a2, c2, d2, hcall10, hcall01, hM2, post01.geometry,
    post01.sound, fun q hq => post01.mono q (post10.mono q hq), ?_, ha1⟩
  intro q hq
  rcases List.mem_append.1 hq with hq | hq
  · exact pointOK_mono post01.mono (post10.infoOK (⟨0, 0⟩, a1) (by simp) q hq)
  · exact post01.infoOK (⟨0, 0⟩, c2) (by simp) q hq

end RaceRound2Seq

end FloodFill

namespace FloodFill

/-! ## Runs of the rounds on `raceImage` -/

section RaceRun

/-- A round of one task. -/
theorem runEvents_one {α β : Type} {copyIn : QImage → TileId → List α → Except Fault β}
    {finish : QImage → β → TileId → List α → Except Fault (QImage × List (TileId × List α))}
    {k : TileId} {seeds : List α} {m m' : QImage} {b : β} {info : List (TileId × List α)}
    (h1 : copyIn m k seeds = .ok b) (h2 : finish m b k seeds = .ok (m', info)) :
    runEvents copyIn finish [(k, seeds)] [TaskEvent.copyIn 0, TaskEvent.writeBack 0]
        ⟨m, [], []⟩ = .ok ⟨m', [(0, b)], [(0, info)]⟩ := by
  simp [runEvents, runEvent, h1, h2, List.lookup]

/-- A round of two tasks in which the first task has copied in before, and writes back
after, the whole second task: the state after the write-back of the second task, and the
state after the round. -/
theorem runEvents_overlap {α β : Type}
    {copyIn : QImage → TileId → List α → Except Fault β}
    {finish : QImage → β → TileId → List α → Except Fault (QImage × List (TileId × List α))}
    {k0 k1 : TileId} {s0 s1 : List α} {m m1 m2 : QImage} {b0 b1 : β}
    {info0 info1 : List (TileId × List α)}
    (h1 : copyIn m k0 s0 = .ok b0) (h2 : copyIn m k1 s1 = .ok b1)
    (h3 : finish m b1 k1 s1 = .ok (m1, info1)) (h4 : finish m1 b0 k0 s0 = .ok (m2, info0)) :
    runEvents copyIn finish [(k0, s0), (k1, s1)]
        [TaskEvent.copyIn 0, TaskEvent.copyIn 1, TaskEvent.writeBack 1] ⟨m, [], []⟩ =
        .ok ⟨m1, [(1, b1), (0, b0)], [(1, info1)]⟩ ∧
      runEvents copyIn finish [(k0, s0), (k1, s1)]
        [TaskEvent.copyIn 0, TaskEvent.copyIn 1, TaskEvent.writeBack 1, TaskEvent.writeBack 0]
        ⟨m, [], []⟩ = .ok ⟨m2, [(1, b1), (0, b0)], [(0, info0), (1, info1)]⟩ := by
  constructor <;> simp [runEvents, runEvent, h1, h2, h3, h4, List.lookup]

theorem roundResults_one {α β : Type} (m : QImage) (bs : List (Nat × β))
    (info : List (TileId × List α)) :
    roundResults 1 (⟨m, bs, [(0, info)]⟩ : RoundState α β) = [info] := rfl

theorem roundResults_two {α β : Type} (m : QImage) (bs : List (Nat × β))
    (info0 info1 : List (TileId × List α)) :
    roundResults 2 (⟨m, bs, [(0, info0), (1, info1)]⟩ : RoundState α β) = [info0, info1] :=
  rfl

/-- The queue of the second round. -/
theorem raceImage_merge1 {left right up down : SeedPointList} (hr : right ≠ [])
    (hd : down ≠ []) :
    mergePropagation (⟨2, 2⟩ : QSize)
        [[((⟨-1, 0⟩ : TileId), left), (⟨1, 0⟩, right), (⟨0, -1⟩, up), (⟨0, 1⟩, down)]] =
      [(⟨1, 0⟩, right), (⟨0, 1⟩, down)] := by
  cases right with
  | nil => exact absurd rfl hr
  | cons r rs =>
    cases down with
    | nil => exact absurd rfl hd
    | cons d ds => simp [mergePropagation, hashAppend]

/-- The queue of the third round. -/
theorem raceImage_merge2 (a1 b1 c1 a2 c2 d2 : SeedPointList) :
    mergePropagation (⟨2, 2⟩ : QSize)
        [[((⟨0, 0⟩ : TileId), a1), (⟨2, 0⟩, b1), (⟨1, -1⟩, c1), (⟨1, 1⟩, [])],
          [(⟨-1, 1⟩, a2), (⟨1, 1⟩, []), (⟨0, 0⟩, c2), (⟨0, 2⟩, d2)]] =
      if a1 ++ c2 = [] then [] else [(⟨0, 0⟩, a1 ++ c2)] := by
  cases a1 with
  | nil =>
    cases c2 with
    | nil => simp [mergePropagation, hashAppend]
    | cons y ys => simp [mergePropagation, hashAppend]
  | cons x xs =>
    cases c2 with
    | nil => simp [mergePropagation, hashAppend]
    | cons y ys => simp [mergePropagation, hashAppend]

/-- The queue after the third round. -/
theorem raceImage_merge3 (left up : SeedPointList) :
    mergePropagation (⟨2, 2⟩ : QSize)
        [[((⟨-1, 0⟩ : TileId), left), (⟨1, 0⟩, []), (⟨0, -1⟩, up), (⟨0, 1⟩, [])]] = [] := by
  simp [mergePropagation]

/-- The third round: the call for the tile `(0, 0)` with the seed points filed by the
second round marks nothing and files nothing, and leaves the byte of `(0, 64)` zero or
marked as it is. -/
theorem raceImage_round3 {M3 : QImage} {seeds : SeedPointList}
    (hg3 : SameGeometry raceImage M3) (hs3 : MaskSound raceImage ⟨0, 0⟩ 1 M3)
    (hmarks : ∀ n : Int, 0 ≤ n → n ≤ 63 → M3.pix ⟨n, 0⟩ ≠ 0 ∧ M3.pix ⟨0, n⟩ ≠ 0)
    (hseeds : ∀ q ∈ seeds, PointOK tileSize raceImage ⟨0, 0⟩ M3 ⟨0, 0⟩ q) :
    ∃ (M4 : QImage) (left up : SeedPointList),
      floodFillTile tileSize raceImage M3 seeds (raceImage.pix ⟨0, 0⟩) ⟨0, 0⟩ raceImage.rect
        (tileRectOf tileSize raceImage.rect ⟨0, 0⟩) 1 =
        .ok (M4, [(⟨-1, 0⟩, left), (⟨1, 0⟩, []), (⟨0, -1⟩, up), (⟨0, 1⟩, [])]) ∧
      (M3.pix ⟨0, 64⟩ = 0 → M4.pix ⟨0, 64⟩ = 0) ∧
      (M3.pix ⟨0, 64⟩ ≠ 0 → M4.pix ⟨0, 64⟩ = 255) := by
  obtain ⟨M4, left, right, up, down, hcall, post, frame, em⟩ :=
    raceImage_call raceImage_in00 hg3 hs3 hseeds raceImage_fits00
  have ea : (⟨(⟨0, 0⟩ : TileId).x - 1, (⟨0, 0⟩ : TileId).y⟩ : TileId) = ⟨-1, 0⟩ := rfl
  have eb : (⟨(⟨0, 0⟩ : TileId).x + 1, (⟨0, 0⟩ : TileId).y⟩ : TileId) = ⟨1, 0⟩ := rfl
  have ec : (⟨(⟨0, 0⟩ : TileId).x, (⟨0, 0⟩ : TileId).y - 1⟩ : TileId) = ⟨0, -1⟩ := rfl
  have ed : (⟨(⟨0, 0⟩ : TileId).x, (⟨0, 0⟩ : TileId).y + 1⟩ : TileId) = ⟨0, 1⟩ := rfl
  rw [ea, eb, ec, ed] at hcall em
  have hnone : ∀ e ∈ [((⟨-1, 0⟩ : TileId), left), (⟨1, 0⟩, right), (⟨0, -1⟩, up),
      (⟨0, 1⟩, down)], ∀ q ∈ e.2, False := by
    intro e he q hq
    obtain ⟨_, _, p, hp, _, h0, _, hrow⟩ := em e he q hq
    rw [raceImage_rect00] at hp
    obtain ⟨p1, p2, p3, p4⟩ := hp
    simp only at p1 p2 p3 p4
    rcases hrow with h | h
    · have := (hmarks p.x p1 p2).1
      rw [← h] at this
      exact this h0
    · have := (hmarks p.y p3 p4).2
      rw [← h] at this
      exact this h0
  have hr : right = [] :=
    List.eq_nil_iff_forall_not_mem.2 (fun q hq => hnone (⟨1, 0⟩, right) (by simp) q hq)
  have hd : down = [] :=
    List.eq_nil_iff_forall_not_mem.2 (fun q hq => hnone (⟨0, 1⟩, down) (by simp) q hq)
  subst hr hd
  have h064 : raceImage.inImage ⟨0, 64⟩ := by decide
  refine ⟨M4, left, up, hcall, ?_, ?_⟩
  · intro hz
    by_contra h
    rcases frame _ h064 h with h' | h'
    · exact h' hz
    · rw [raceImage_rect00] at h'
      obtain ⟨_, _, _, p4⟩ := h'
      simp only at p4
      omega
  · intro hm
    rw [(sound_pix post.geometry raceImage_wf.2.1 post.sound h064 (post.mono _ hm)).2,
      raceImage_seed, raceImage_pix h064]
    exact gradedValue_seed

/-- The run of `floodFillMTEvents` on `raceImage` is the run of the rounds from the queue
with the seed. -/
theorem raceImage_events (rounds : List (List TaskEvent)) :
    floodFillMTEvents rounds tileSize raceImage ⟨0, 0⟩ 1 =
      runRoundsEvents (tileTaskCopyIn tileSize raceImage)
        (tileTaskFinish tileSize raceImage (raceImage.pix ⟨0, 0⟩) 1)
        (⟨2, 2⟩ : QSize) rounds true raceImage.blank [(⟨0, 0⟩, [⟨0, 0⟩])] := by
  obtain ⟨r0, r1⟩ := ref_offset_range raceImage_wf (p := ⟨0, 0⟩) (by decide)
  unfold floodFillMTEvents
  simp only [(contains_rect raceImage ⟨0, 0⟩).2 (by decide), Bool.not_true,
    Bool.false_eq_true, if_false, getPixel_eq r0 r1, raceImage_grid]
  rfl

end RaceRun

end FloodFill

namespace FloodFill

/-! ## The run with overlapping tasks and the run with one task after another -/

section RaceRuns

/-- A listed round whose steps run: the loop goes on with the mask the steps leave and
the merged queue. -/
theorem runRoundsEvents_cons {α β : Type} {copyIn : QImage → TileId → List α → Except Fault β}
    {finish : QImage → β → TileId → List α → Except Fault (QImage × List (TileId × List α))}
    {tileGridSize : QSize} {events : List TaskEvent} {fillMaskImage : QImage}
    {queue : List (TileId × List α)} {state : RoundState α β}
    {rounds : List (List TaskEvent)} {valid : Bool}
    (h : runEvents copyIn finish queue events ⟨fillMaskImage, [], []⟩ = .ok state)
    (n : Nat) (hn : queue.length = n) :
    runRoundsEvents copyIn finish tileGridSize (events :: rounds) valid fillMaskImage queue =
      runRoundsEvents copyIn finish tileGridSize rounds
        (valid && decide (EventsValid n events)) state.fillMaskImage
        (mergePropagation tileGridSize (roundResults n state)) := by
  subst hn
  rw [runRoundsEvents, h]

/-- No listed round: the loop returns the mask and the queue it has. -/
theorem runRoundsEvents_nil {α β : Type} (copyIn : QImage → TileId → List α → Except Fault β)
    (finish : QImage → β → TileId → List α → Except Fault (QImage × List (TileId × List α)))
    (tileGridSize : QSize) (valid : Bool) (fillMaskImage : QImage)
    (queue : List (TileId × List α)) :
    runRoundsEvents copyIn finish tileGridSize [] valid fillMaskImage queue =
      .ok (fillMaskImage, queue, valid) := by
  rw [runRoundsEvents]

/-- The steps of the one task of a round are an execution of it. -/
theorem eventsValid_one :
    decide (EventsValid 1 [TaskEvent.copyIn 0, TaskEvent.writeBack 0]) = true := by
  decide

/-- The steps of two overlapping tasks are an execution of them. -/
theorem eventsValid_overlap :
    decide (EventsValid 2 [TaskEvent.copyIn 0, TaskEvent.copyIn 1, TaskEvent.writeBack 1,
      TaskEvent.writeBack 0]) = true := by
  decide

/-- Before the last write-back the steps are not yet an execution of the two tasks. -/
theorem eventsValid_prefix :
    decide (EventsValid 2 [TaskEvent.copyIn 0, TaskEvent.copyIn 1, TaskEvent.writeBack 1]) =
      false := by
  decide

/-- The steps of two tasks one after the other are an execution of them. -/
theorem eventsValid_seq :
    decide (EventsValid 2 [TaskEvent.copyIn 0, TaskEvent.writeBack 0, TaskEvent.copyIn 1,
      TaskEvent.writeBack 1]) = true := by
  decide

/-- A round of two tasks, the second started after the first has written back. -/
theorem runEvents_seq {α β : Type}
    {copyIn : QImage → TileId → List α → Except Fault β}
    {finish : QImage → β → TileId → List α → Except Fault (QImage × List (TileId × List α))}
    {k0 k1 : TileId} {s0 s1 : List α} {m m1 m2 : QImage} {b0 b1 : β}
    {info0 info1 : List (TileId × List α)}
    (h1 : copyIn m k0 s0 = .ok b0) (h2 : finish m b0 k0 s0 = .ok (m1, info0))
    (h3 : copyIn m1 k1 s1 = .ok b1) (h4 : finish m1 b1 k1 s1 = .ok (m2, info1)) :
    runEvents copyIn finish [(k0, s0), (k1, s1)]
        [TaskEvent.copyIn 0, TaskEvent.writeBack 0, TaskEvent.copyIn 1, TaskEvent.writeBack 1]
        ⟨m, [], []⟩ = .ok ⟨m2, [(1, b1), (0, b0)], [(1, info1), (0, info0)]⟩ := by
  simp [runEvents, runEvent, h1, h2, h3, h4, List.lookup]

theorem roundResults_swapped {α β : Type} (m : QImage) (bs : List (Nat × β))
    (info0 info1 : List (TileId × List α)) :
    roundResults 2 (⟨m, bs, [(1, info1), (0, info0)]⟩ : RoundState α β) = [info0, info1] :=
  rfl

/-- The two parts of the task for a tile, from the call of `floodFillTile` that it is. -/
theorem tileTask_parts {ts : QSize} {referenceImage : QImage}
    {originalSeedValue threshold : Nat} {mask mask' : QImage} {k : TileId}
    {seeds : SeedPointList} {info : TilePropagationInfo}
    (h : floodFillTile ts referenceImage mask seeds originalSeedValue k referenceImage.rect
      (tileRectOf ts referenceImage.rect k) threshold = .ok (mask', info)) :
    ∃ td, tileTaskCopyIn ts referenceImage mask k seeds = .ok td ∧
      tileTaskFinish ts referenceImage originalSeedValue threshold mask td k seeds =
        .ok (mask', info) := by
  rw [floodFillTile_split] at h
  unfold tileTaskCopyIn tileTaskFinish
  cases hc : floodFillTileCopyIn ts referenceImage mask (tileRectOf ts referenceImage.rect k)
    with
  | error e => rw [hc] at h; cases h
  | ok td =>
    rw [hc] at h
    exact ⟨td, rfl, h⟩

/-- The run on `raceImage` in which the task for the tile `(1, 0)` copies in before, and
writes back after, the whole task for the tile `(0, 1)`: the mask after the write-back of the
task for `(0, 1)`, the mask after the second round, and the mask that the run returns after
its third round, with the byte of the pixel `(0, 64)` in each. -/
theorem raceImage_overlap_run :
    ∃ (M2 M3 M4 : QImage) (queue2 queue3 : List (TileId × SeedPointList)),
      runRoundsEvents (tileTaskCopyIn tileSize raceImage)
          (tileTaskFinish tileSize raceImage (raceImage.pix ⟨0, 0⟩) 1) (⟨2, 2⟩ : QSize)
          [[TaskEvent.copyIn 0, TaskEvent.writeBack 0],
            [TaskEvent.copyIn 0, TaskEvent.copyIn 1, TaskEvent.writeBack 1]]
          true raceImage.blank [(⟨0, 0⟩, [⟨0, 0⟩])] = .ok (M2, queue2, false) ∧
      runRoundsEvents (tileTaskCopyIn tileSize raceImage)
          (tileTaskFinish tileSize raceImage (raceImage.pix ⟨0, 0⟩) 1) (⟨2, 2⟩ : QSize)
          [[TaskEvent.copyIn 0, TaskEvent.writeBack 0],
            [TaskEvent.copyIn 0, TaskEvent.copyIn 1, TaskEvent.writeBack 1,
              TaskEvent.writeBack 0]]
          true raceImage.blank [(⟨0, 0⟩, [⟨0, 0⟩])] = .ok (M3, queue3, true) ∧
      runRoundsEvents (tileTaskCopyIn tileSize raceImage)
          (tileTaskFinish tileSize raceImage (raceImage.pix ⟨0, 0⟩) 1) (⟨2, 2⟩ : QSize)
          [[TaskEvent.copyIn 0, TaskEvent.writeBack 0],
            [TaskEvent.copyIn 0, TaskEvent.copyIn 1, TaskEvent.writeBack 1,
              TaskEvent.writeBack 0],
            [TaskEvent.copyIn 0, TaskEvent.writeBack 0]]
          true raceImage.blank [(⟨0, 0⟩, [⟨0, 0⟩])] = .ok (M4, [], true) ∧
      M2.pix ⟨0, 64⟩ = 255 ∧ M3.pix ⟨0, 64⟩ = 0 ∧ M4.pix ⟨0, 64⟩ = 0 := by
  obtain ⟨M1, left, right, up, down, hcall1, g1, s1, hmarks, hin1, hr, hd, hrOK, hdOK⟩ :=
    raceImage_round1
  obtain ⟨td10, td01, M2, M3, a1, b1, c1, a2, c2, d2, hc10, hc01, hf01, hf10, hM2, hM3, g3,
    s3, hmono, hOK, hc2⟩ := raceImage_round2 g1 s1 hmarks hin1 hd hrOK hdOK
  have hmarks3 : ∀ n : Int, 0 ≤ n → n ≤ 63 → M3.pix ⟨n, 0⟩ ≠ 0 ∧ M3.pix ⟨0, n⟩ ≠ 0 :=
    fun n h0 h1 => ⟨hmono _ (hmarks n h0 h1).1, hmono _ (hmarks n h0 h1).2⟩
  obtain ⟨M4, left3, up3, hcall3, hz, _⟩ := raceImage_round3 g3 s3 hmarks3 hOK
  obtain ⟨td00, p1, p2⟩ := tileTask_parts hcall1
  obtain ⟨td3, p3, p4⟩ := tileTask_parts hcall3
  have e1 := runEvents_one p1 p2
  have e3 := runEvents_one p3 p4
  have e2 : runEvents (tileTaskCopyIn tileSize raceImage)
      (tileTaskFinish tileSize raceImage (raceImage.pix ⟨0, 0⟩) 1)
      [(⟨1, 0⟩, right), (⟨0, 1⟩, down)]
      [TaskEvent.copyIn 0, TaskEvent.copyIn 1, TaskEvent.writeBack 1] ⟨M1, [], []⟩ =
        .ok ⟨M2, [(1, td01), (0, td10)],
          [(1, [(⟨-1, 1⟩, a2), (⟨1, 1⟩, []), (⟨0, 0⟩, c2), (⟨0, 2⟩, d2)])]⟩ ∧
      runEvents (tileTaskCopyIn tileSize raceImage)
        (tileTaskFinish tileSize raceImage (raceImage.pix ⟨0, 0⟩) 1)
        [(⟨1, 0⟩, right), (⟨0, 1⟩, down)]
        [TaskEvent.copyIn 0, TaskEvent.copyIn 1, TaskEvent.writeBack 1, TaskEvent.writeBack 0]
        ⟨M1, [], []⟩ =
        .ok ⟨M3, [(1, td01), (0, td10)],
          [(0, [(⟨0, 0⟩, a1), (⟨2, 0⟩, b1), (⟨1, -1⟩, c1), (⟨1, 1⟩, [])]),
            (1, [(⟨-1, 1⟩, a2), (⟨1, 1⟩, []), (⟨0, 0⟩, c2), (⟨0, 2⟩, d2)])]⟩ :=
    runEvents_overlap hc10 hc01 hf01 hf10
  have hr' : right ≠ [] := List.ne_nil_of_mem hr
  have hd' : down ≠ [] := List.ne_nil_of_mem hd
  have hne : a1 ++ c2 ≠ [] := List.ne_nil_of_mem (List.mem_append_right a1 hc2)
  refine ⟨M2, M3, M4,
    mergePropagation (⟨2, 2⟩ : QSize)
      (roundResults 2 (⟨M2, [(1, td01), (0, td10)],
        [(1, [(⟨-1, 1⟩, a2), (⟨1, 1⟩, []), (⟨0, 0⟩, c2), (⟨0, 2⟩, d2)])]⟩ :
        RoundState QPoint (List TileData))),
    [(⟨0, 0⟩, a1 ++ c2)], ?_, ?_, ?_, hM2, hM3, hz hM3⟩
  · rw [runRoundsEvents_cons e1 1 rfl, roundResults_one, raceImage_merge1 hr' hd',
      runRoundsEvents_cons e2.1 2 rfl, runRoundsEvents_nil, eventsValid_one,
      eventsValid_prefix]
    rfl
  · rw [runRoundsEvents_cons e1 1 rfl, roundResults_one, raceImage_merge1 hr' hd',
      runRoundsEvents_cons e2.2 2 rfl, roundResults_two, raceImage_merge2, if_neg hne,
      runRoundsEvents_nil, eventsValid_one, eventsValid_overlap]
    rfl
  · rw [runRoundsEvents_cons e1 1 rfl, roundResults_one, raceImage_merge1 hr' hd',
      runRoundsEvents_cons e2.2 2 rfl, roundResults_two, raceImage_merge2, if_neg hne,
      runRoundsEvents_cons e3 1 rfl, roundResults_one, raceImage_merge3,
      runRoundsEvents_nil, eventsValid_one, eventsValid_overlap]
    rfl

/-- The run on `raceImage` in which the tasks of every round run one after the other: the
mask that the run returns has the byte 255 at the pixel `(0, 64)`. -/
theorem raceImage_sequential_run :
    ∃ M4 : QImage,
      runRoundsEvents (tileTaskCopyIn tileSize raceImage)
          (tileTaskFinish tileSize raceImage (raceImage.pix ⟨0, 0⟩) 1) (⟨2, 2⟩ : QSize)
          [[TaskEvent.copyIn 0, TaskEvent.writeBack 0],
            [TaskEvent.copyIn 0, TaskEvent.writeBack 0, TaskEvent.copyIn 1,
              TaskEvent.writeBack 1],
            [TaskEvent.copyIn 0, TaskEvent.writeBack 0]]
          true raceImage.blank [(⟨0, 0⟩, [⟨0, 0⟩])] = .ok (M4, [], true) ∧
      M4.pix ⟨0, 64⟩ = 255 := by
  obtain ⟨M1, left, right, up, down, hcall1, g1, s1, hmarks, hin1, hr, hd, hrOK, hdOK⟩ :=
    raceImage_round1
  obtain ⟨M1', M2, a1, b1, c1, a2, c2, d2, hcall10, hcall01, hM2, g2, s2, hmono, hOK, ha1⟩ :=
    raceImage_round2_seq g1 s1 hin1 hr hd hrOK hdOK
  have hmarks2 : ∀ n : Int, 0 ≤ n → n ≤ 63 → M2.pix ⟨n, 0⟩ ≠ 0 ∧ M2.pix ⟨0, n⟩ ≠ 0 :=
    fun n h0 h1 => ⟨hmono _ (hmarks n h0 h1).1, hmono _ (hmarks n h0 h1).2⟩
  obtain ⟨M4, left3, up3, hcall3, _, hz⟩ := raceImage_round3 g2 s2 hmarks2 hOK
  obtain ⟨td00, p1, p2⟩ := tileTask_parts hcall1
  obtain ⟨td10, q1, q2⟩ := tileTask_parts hcall10
  obtain ⟨td01, q3, q4⟩ := tileTask_parts hcall01
  obtain ⟨td3, p3, p4⟩ := tileTask_parts hcall3
  have e1 := runEvents_one p1 p2
  have e2 := runEvents_seq q1 q2 q3 q4
  have e3 := runEvents_one p3 p4
  have hr' : right ≠ [] := List.ne_nil_of_mem hr
  have hd' : down ≠ [] := List.ne_nil_of_mem hd
  have hne : a1 ++ c2 ≠ [] := List.ne_nil_of_mem (List.mem_append_left c2 ha1)
  refine ⟨M4, ?_, hz (by rw [hM2]; decide)⟩
  rw [runRoundsEvents_cons e1 1 rfl, roundResults_one, raceImage_merge1 hr' hd',
    runRoundsEvents_cons e2 2 rfl, roundResults_swapped, raceImage_merge2, if_neg hne,
    runRoundsEvents_cons e3 1 rfl, roundResults_one, raceImage_merge3,
    runRoundsEvents_nil, eventsValid_one, eventsValid_seq]
  rfl

/-- The pixels of the first column of `raceImage` are joined to the seed. -/
theorem raceImage_column (n : Nat) (hn : n ≤ 64) :
    Connected raceImage ⟨0, 0⟩ 1 ⟨0, (n : Int)⟩ := by
  induction n with
  | zero =>
    exact Connected.seed (by decide)
      ((raceImage_includable (p := ⟨0, 0⟩) (by decide)).2 (Or.inl rfl))
  | succ n ih =>
    have hin : raceImage.inImage ⟨0, ((n + 1 : Nat) : Int)⟩ :=
      raceImage_inImage (le_refl _) (by omega) (by omega) (by omega)
    refine Connected.step ⟨0, (n : Int)⟩ _ (ih (by omega)) ?_ hin
      ((raceImage_includable hin).2 (Or.inr rfl))
    exact Or.inr ⟨rfl, Or.inl (by simp only; omega)⟩

/-- The loops of the tile worker fit the buffer of `raceImage` for every tile that the fill
from `(0, 0)` visits. -/
theorem raceImage_needed (k : TileId) (h : TileNeeded tileSize raceImage ⟨0, 0⟩ 1 k) :
    TileFits tileSize raceImage (tileRectOf tileSize raceImage.rect k) := by
  obtain ⟨hk, q, hq, hn⟩ := h
  obtain ⟨x, y⟩ := k
  have hg := (raceImage_inGrid _).1 hk
  simp only at hg
  rcases hg with ⟨rfl | rfl, rfl | rfl⟩
  · exact raceImage_fits00
  · exact raceImage_fits01
  · exact raceImage_fits10
  · exfalso
    rw [raceImage_rect11] at hq
    obtain ⟨q1, q2, q3, q4⟩ := hq
    simp only at q1 q2 q3 q4
    rcases hn with rfl | ⟨p, hp, hadj⟩
    · simp only at q1
      omega
    · have := (raceImage_connected hp).2
      unfold adjacent at hadj
      omega

/-- The run of `floodFillMT` on `raceImage` with the tasks of every round one after the other
returns the mask of `floodFill`, with the byte 255 at the pixel `(0, 64)`. -/
theorem raceImage_serial :
    ∃ mask, floodFillMT raceImage ⟨0, 0⟩ 1 = .ok mask ∧
      floodFill raceImage ⟨0, 0⟩ 1 = .ok mask ∧ mask.pix ⟨0, 64⟩ = 255 := by
  have hv : (Schedule.listOrder QPoint).Valid :=
    ⟨fun _ l => List.Perm.refl l, fun _ l => List.Perm.refl l, fun _ l => List.Perm.refl l⟩
  have hwf := raceImage_wf
  obtain ⟨mask, hrun⟩ := @floodFillMTOrd_returns tileSize raceImage ⟨0, 0⟩ 1 _ hv hwf
    (by decide) tileSize_pos.1 tileSize_pos.2 raceImage_needed
  have hser := okOr_ok (@floodFillMTOrd_serial raceImage ⟨0, 0⟩ 1 tileSize _ hv hwf
    (by decide) tileSize_pos.1 tileSize_pos.2) hrun
  rw [floodFillMTOrd_listOrder] at hrun
  obtain ⟨m, hm, rm⟩ := @floodFill_result raceImage ⟨0, 0⟩ 1 hwf (by decide) (by decide)
  rw [hm] at hser
  obtain rfl : m = mask := Except.ok.inj hser
  have h064 : raceImage.inImage ⟨0, 64⟩ := by decide
  refine ⟨m, hrun, hm, ?_⟩
  rw [(sound_pix rm.geometry hwf.2.1 rm.sound h064 (rm.complete _ (raceImage_column 64
    (le_refl _)))).2, raceImage_seed, raceImage_pix h064]
  exact gradedValue_seed

end RaceRuns

end FloodFill

namespace FloodFill

/-! ## The run with one task after the other is one of the runs with concurrent tasks -/

section SequentialRuns

variable {α β : Type} {copyIn : QImage → TileId → List α → Except Fault β}
  {finish : QImage → β → TileId → List α → Except Fault (QImage × List (TileId × List α))}

theorem indexOf_sequential (n j i : Nat) (h0 : j ≤ i) (h1 : i < j + n) :
    ((List.range' j n).flatMap fun i => [TaskEvent.copyIn i, TaskEvent.writeBack i]).indexOf
        (TaskEvent.copyIn i) = 2 * (i - j) ∧
      ((List.range' j n).flatMap fun i => [TaskEvent.copyIn i, TaskEvent.writeBack i]).indexOf
        (TaskEvent.writeBack i) = 2 * (i - j) + 1 := by
  induction n generalizing j with
  | zero => omega
  | succ n ih =>
    rw [List.range'_succ, List.flatMap_cons]
    simp only [List.cons_append, List.nil_append, List.indexOf_cons]
    by_cases hij : i = j
    · subst hij
      have e3 : (TaskEvent.copyIn i == TaskEvent.writeBack i) = false := by simp
      simp only [beq_self_eq_true, cond_true, e3, cond_false]
      omega
    · obtain ⟨a, b⟩ := ih (j + 1) (by omega) (by omega)
      rw [a, b]
      have e1 : (TaskEvent.copyIn j == TaskEvent.copyIn i) = false := by
        simp; omega
      have e2 : (TaskEvent.writeBack j == TaskEvent.copyIn i) = false := by simp
      have e3 : (TaskEvent.copyIn j == TaskEvent.writeBack i) = false := by simp
      have e4 : (TaskEvent.writeBack j == TaskEvent.writeBack i) = false := by
        simp; omega
      rw [e1, e2, e3, e4]
      simp only [cond_false]
      omega

/-- The steps of `sequentialEvents` are an execution of the round. -/
theorem sequentialEvents_valid (n : Nat) : EventsValid n (sequentialEvents n) := by
  refine ⟨List.Perm.refl _, ?_⟩
  intro i hi
  unfold sequentialEvents
  rw [List.range_eq_range']
  obtain ⟨a, b⟩ := indexOf_sequential n 0 i (Nat.zero_le _) (by omega)
  rw [a, b]
  omega

/-- The tasks of the rest of a queue run one after the other, as steps on the state of the
round. -/
theorem runRound_steps :
    ∀ (rest done : List (TileId × List α)) (state : RoundState α β) (mask' : QImage)
      (results : List (List (TileId × List α))),
      runRound (runTask copyIn finish) state.fillMaskImage rest = .ok (mask', results) →
      ∃ state', runEvents copyIn finish (done ++ rest)
          ((List.range' done.length rest.length).flatMap fun i =>
            [TaskEvent.copyIn i, TaskEvent.writeBack i]) state = .ok state' ∧
        state'.fillMaskImage = mask' ∧
        (∀ i, i < done.length → state'.results.lookup i = state.results.lookup i) ∧
        (List.range' done.length rest.length).filterMap (fun i => state'.results.lookup i) =
          results := by
  intro rest
  induction rest with
  | nil =>
    intro done state mask' results h
    simp only [runRound, Except.ok.injEq, Prod.mk.injEq] at h
    obtain ⟨rfl, rfl⟩ := h
    exact ⟨state, rfl, rfl, fun _ _ => rfl, rfl⟩
  | cons entry rest ih =>
    intro done state mask' results h
    obtain ⟨k, s⟩ := entry
    simp only [runRound, runTask] at h
    cases hc : copyIn state.fillMaskImage k s with
    | error e => rw [hc] at h; cases h
    | ok b =>
      rw [hc] at h
      simp only at h
      cases hf : finish state.fillMaskImage b k s with
      | error e => rw [hf] at h; cases h
      | ok r =>
        obtain ⟨m1, result⟩ := r
        rw [hf] at h
        simp only at h
        cases hr : runRound (runTask copyIn finish) m1 rest with
        | error e => rw [hr] at h; cases h
        | ok r' =>
          obtain ⟨m2, results'⟩ := r'
          rw [hr] at h
          simp only [Except.ok.injEq, Prod.mk.injEq] at h
          obtain ⟨rfl, rfl⟩ := h
          obtain ⟨state', hrun, hm, hold, hnew⟩ := ih (done ++ [(k, s)])
            ⟨m1, (done.length, b) :: state.buffers, (done.length, result) :: state.results⟩
            m2 results' hr
          have hlen : (done ++ [(k, s)]).length = done.length + 1 := by simp
          rw [hlen] at hrun hold hnew
          rw [List.append_assoc, List.singleton_append] at hrun
          have hq : (done ++ (k, s) :: rest)[done.length]? = some (k, s) := by
            rw [List.getElem?_append_right (le_refl _)]
            simp
          refine ⟨state', ?_, hm, ?_, ?_⟩
          · rw [List.length_cons, List.range'_succ, List.flatMap_cons]
            simp only [List.cons_append, List.nil_append, runEvents, runEvent, hq, hc,
              List.lookup, beq_self_eq_true, hf]
            exact hrun
          · intro i hi
            rw [hold i (by omega)]
            have : (i == done.length) = false := by simp; omega
            simp only [List.lookup, this]
          · rw [List.length_cons, List.range'_succ, List.filterMap_cons,
              hold done.length (by omega)]
            simp only [List.lookup, beq_self_eq_true]
            rw [hnew]

/-- A round in which the tasks run one after the other is the round of the steps
`sequentialEvents`. -/
theorem runRound_events {queue : List (TileId × List α)} {mask mask' : QImage}
    {results : List (List (TileId × List α))}
    (h : runRound (runTask copyIn finish) mask queue = .ok (mask', results)) :
    ∃ state, runEvents copyIn finish queue (sequentialEvents queue.length) ⟨mask, [], []⟩ =
        .ok state ∧
      state.fillMaskImage = mask' ∧ roundResults queue.length state = results := by
  obtain ⟨state, hrun, hm, _, hres⟩ := runRound_steps queue [] ⟨mask, [], []⟩ mask' results h
  refine ⟨state, ?_, hm, ?_⟩
  · unfold sequentialEvents
    rw [List.range_eq_range']
    exact hrun
  · unfold roundResults
    rw [List.range_eq_range']
    exact hres

/-- A run of the rounds with the tasks of every round one after the other is a run of
`runRoundsEvents` to the empty queue, every round of which is an execution of its tasks. -/
theorem runRounds_events (tileGridSize : QSize) :
    ∀ (fuel : Nat) (valid : Bool) (mask : QImage) (queue : List (TileId × List α))
      (mask' : QImage),
      runRounds (runTask copyIn finish) tileGridSize fuel mask queue = .ok mask' →
      ∃ rounds, runRoundsEvents copyIn finish tileGridSize rounds valid mask queue =
        .ok (mask', [], valid) := by
  intro fuel
  induction fuel with
  | zero =>
    intro valid mask queue mask' h
    cases queue with
    | nil =>
      simp only [runRounds, Except.ok.injEq] at h
      subst h
      exact ⟨[], runRoundsEvents_nil _ _ _ _ _ _⟩
    | cons entry queue => simp [runRounds] at h
  | succ fuel ih =>
    intro valid mask queue mask' h
    cases queue with
    | nil =>
      simp only [runRounds, Except.ok.injEq] at h
      subst h
      exact ⟨[], runRoundsEvents_nil _ _ _ _ _ _⟩
    | cons entry queue =>
      simp only [runRounds] at h
      cases hr : runRound (runTask copyIn finish) mask (entry :: queue) with
      | error e => rw [hr] at h; cases h
      | ok r =>
        obtain ⟨m1, results⟩ := r
        rw [hr] at h
        simp only at h
        obtain ⟨state, hrun, hm, hres⟩ := runRound_events hr
        obtain ⟨rounds, hrounds⟩ := ih valid m1 _ mask' h
        refine ⟨sequentialEvents (entry :: queue).length :: rounds, ?_⟩
        rw [runRoundsEvents_cons hrun _ rfl, hm, hres,
          decide_eq_true (sequentialEvents_valid _), Bool.and_true]
        exact hrounds

/-- The mask that `floodFillMT` returns with the tasks of every round one after the other is
the mask of a run of `floodFillMTEvents` to the empty queue, every round of which is an
execution of its tasks. -/
theorem floodFillMT_events {referenceImage : QImage} {seedPoint : QPoint} {threshold : Nat}
    {mask : QImage} (h : floodFillMT referenceImage seedPoint threshold = .ok mask) :
    ∃ rounds, floodFillMTEvents rounds tileSize referenceImage seedPoint threshold =
      .ok (mask, [], true) := by
  unfold floodFillMT floodFillMTWith at h
  simp only at h
  by_cases hc : referenceImage.rect.contains seedPoint = true
  · simp only [hc, Bool.not_true, Bool.false_eq_true, if_false] at h
    cases hg : getPixel referenceImage seedPoint with
    | error e => rw [hg] at h; cases h
    | ok v =>
      rw [hg] at h
      simp only at h
      have htile : (fun (fillMaskImage : QImage) (tileId : TileId)
          (seedPoints : SeedPointList) =>
          floodFillTile tileSize referenceImage fillMaskImage seedPoints v tileId
            referenceImage.rect (tileRectOf tileSize referenceImage.rect tileId) threshold) =
          runTask (tileTaskCopyIn tileSize referenceImage)
            (tileTaskFinish tileSize referenceImage v threshold) := by
        funext m k s
        rw [floodFillTile_split]
        unfold runTask tileTaskCopyIn tileTaskFinish
        cases floodFillTileCopyIn tileSize referenceImage m
          (tileRectOf tileSize referenceImage.rect k) <;> rfl
      rw [htile] at h
      obtain ⟨rounds, hrounds⟩ := runRounds_events _ _ true _ _ _ h
      refine ⟨rounds, ?_⟩
      unfold floodFillMTEvents
      simp only [hc, Bool.not_true, Bool.false_eq_true, if_false, hg]
      exact hrounds
  · have hc' : referenceImage.rect.contains seedPoint = false := by
      cases hb : referenceImage.rect.contains seedPoint with
      | false => rfl
      | true => exact absurd hb hc
    simp only [hc', Bool.not_false, if_true, Except.ok.injEq] at h
    subst h
    refine ⟨[], ?_⟩
    unfold floodFillMTEvents
    simp only [hc', Bool.not_false, if_true]

end SequentialRuns

end FloodFill

namespace FloodFill

/-! ## The claims -/

/-- C1: for every 8-bit grayscale image, every seed inside the image and every threshold in
[0,255], `floodFill` returns a mask of the size of the image whose value at a pixel `p` is
`255 − (d × 255 / threshold)` (integer division, `d = |image[p] − image[seed]|`) when `p`
is joined to the seed by a 4-connected path of pixels that all satisfy `d < threshold`,
and `0` at every other pixel. -/
theorem floodFill_mask_of_joined (referenceImage : QImage) (seedPoint : QPoint)
    (threshold : Nat) (hwf : referenceImage.WF) (hseed : referenceImage.inImage seedPoint)
    (hthr : threshold ≤ 255) :
    ∃ mask, floodFill referenceImage seedPoint threshold = .ok mask ∧
      mask.width = referenceImage.width ∧ mask.height = referenceImage.height ∧
      ∀ p, referenceImage.inImage p →
        (Joined referenceImage seedPoint threshold p →
          getPixel mask p = .ok
            (255 - qAbs (referenceImage.pix p) (referenceImage.pix seedPoint) * 255 /
              threshold)) ∧
        (¬ Joined referenceImage seedPoint threshold p → getPixel mask p = .ok 0) := by
  obtain ⟨mask, hrun, res⟩ := floodFill_result hwf hthr hseed
  refine ⟨mask, hrun, res.geometry.1, res.geometry.2.1, ?_⟩
  intro p hp
  obtain ⟨m0, m1⟩ := mask_offset_range res.geometry hwf.2.1 hp
  rw [getPixel_eq m0 m1]
  constructor
  · intro hj
    have hc := connected_iff_joined.2 hj
    rw [(sound_pix res.geometry hwf.2.1 res.sound hp (res.complete p hc)).2]
    rfl
  · intro hj
    by_cases hm : mask.pix p = 0
    · rw [hm]
    · exact absurd (connected_iff_joined.1 (sound_pix res.geometry hwf.2.1 res.sound hp hm).1) hj

/-- Witness of C1: the 3×1 image `[10, 200, 10]` with seed `(0,0)` and threshold 50. -/
theorem floodFill_mask_of_joined_witness :
    ∃ mask, floodFill ⟨3, 1, 4, [10, 200, 10, 0]⟩ ⟨0, 0⟩ 50 = .ok mask ∧
      mask.width = 3 ∧ mask.height = 1 ∧
      ∀ p, QImage.inImage ⟨3, 1, 4, [10, 200, 10, 0]⟩ p →
        (Joined ⟨3, 1, 4, [10, 200, 10, 0]⟩ ⟨0, 0⟩ 50 p →
          getPixel mask p = .ok
            (255 - qAbs (QImage.pix ⟨3, 1, 4, [10, 200, 10, 0]⟩ p)
              (QImage.pix ⟨3, 1, 4, [10, 200, 10, 0]⟩ ⟨0, 0⟩) * 255 / 50)) ∧
        (¬ Joined ⟨3, 1, 4, [10, 200, 10, 0]⟩ ⟨0, 0⟩ 50 p → getPixel mask p = .ok 0) :=
  floodFill_mask_of_joined ⟨3, 1, 4, [10, 200, 10, 0]⟩ ⟨0, 0⟩ 50 (by decide) (by decide)
    (by decide)

/-- C2: for every image, every seed (inside or outside the image) and every threshold in
[0,255], `floodFillScanLine` returns a mask, and it is the very mask, byte for byte, that
`floodFill` returns. -/
theorem floodFillScanLine_eq_floodFill (referenceImage : QImage) (seedPoint : QPoint)
    (threshold : Nat) (hwf : referenceImage.WF) (hthr : threshold ≤ 255) :
    ∃ mask, floodFill referenceImage seedPoint threshold = .ok mask ∧
      floodFillScanLine referenceImage seedPoint threshold = .ok mask := by
  by_cases hseed : referenceImage.inImage seedPoint
  · obtain ⟨m₁, h₁, r₁⟩ := floodFill_result hwf hthr hseed
    obtain ⟨m₂, h₂, r₂⟩ := floodFillScanLine_result hwf hthr hseed
    exact ⟨m₁, h₁, by rw [h₂, FillResult.unique hwf.2.1 r₂ r₁]⟩
  · have hc : referenceImage.rect.contains seedPoint = false := by
      cases h : referenceImage.rect.contains seedPoint with
      | false => rfl
      | true => exact absurd ((contains_rect _ _).1 h) hseed
    refine ⟨referenceImage.blank, ?_, ?_⟩
    · unfold floodFill; simp [hc]
    · unfold floodFillScanLine; simp [hc]

/-- Witness of C2: the 3×1 image `[10, 200, 10]` with seed `(0,0)` and threshold 50. -/
theorem floodFillScanLine_eq_floodFill_witness :
    ∃ mask, floodFill ⟨3, 1, 4, [10, 200, 10, 0]⟩ ⟨0, 0⟩ 50 = .ok mask ∧
      floodFillScanLine ⟨3, 1, 4, [10, 200, 10, 0]⟩ ⟨0, 0⟩ 50 = .ok mask :=
  floodFillScanLine_eq_floodFill ⟨3, 1, 4, [10, 200, 10, 0]⟩ ⟨0, 0⟩ 50 (by decide) (by decide)

/-- C3 fails on the 1×1 image with seed `(0,0)` and threshold 1: `floodFill` returns the mask
`[255]`, while the copy loop of `floodFillTile` called by `floodFillMT` runs over 64
columns of the single 4-byte scan line and leaves the buffer. -/
theorem floodFillMT_small_image_leaves_buffer :
    floodFill ⟨1, 1, 4, [7, 0, 0, 0]⟩ ⟨0, 0⟩ 1 = .ok ⟨1, 1, 4, [255, 0, 0, 0]⟩ ∧
      floodFillMT ⟨1, 1, 4, [7, 0, 0, 0]⟩ ⟨0, 0⟩ 1 = .error .outOfBounds := by
  constructor
  · decide
  · decide!

/-- C4 fails on the 1×1 image with seed `(0,0)` and threshold 1: `floodFill` returns the mask
`[255]`, while the copy loop of `floodFillTileScanLine` called by `floodFillScanLineMT`
runs over 64 columns of the single 4-byte scan line and leaves the buffer. -/
theorem floodFillScanLineMT_small_image_leaves_buffer :
    floodFill ⟨1, 1, 4, [7, 0, 0, 0]⟩ ⟨0, 0⟩ 1 = .ok ⟨1, 1, 4, [255, 0, 0, 0]⟩ ∧
      floodFillScanLineMT ⟨1, 1, 4, [7, 0, 0, 0]⟩ ⟨0, 0⟩ 1 = .error .outOfBounds := by
  constructor
  · decide
  · decide!

/-- C5: for every image and every threshold, when the seed lies outside the image
rectangle each of the four fills returns the zero-filled mask of the image's width and
height. -/
theorem seed_outside_gives_zero_mask (referenceImage : QImage) (seedPoint : QPoint)
    (threshold : Nat)
    (hout : seedPoint.x < 0 ∨ seedPoint.y < 0 ∨ seedPoint.x ≥ (referenceImage.width : Int) ∨
      seedPoint.y ≥ (referenceImage.height : Int)) :
    floodFill referenceImage seedPoint threshold = .ok referenceImage.blank ∧
    floodFillScanLine referenceImage seedPoint threshold = .ok referenceImage.blank ∧
    floodFillMT referenceImage seedPoint threshold = .ok referenceImage.blank ∧
    floodFillScanLineMT referenceImage seedPoint threshold = .ok referenceImage.blank ∧
    referenceImage.blank.width = referenceImage.width ∧
    referenceImage.blank.height = referenceImage.height ∧
    ∀ v ∈ referenceImage.blank.bits, v = 0 := by
  have hc : referenceImage.rect.contains seedPoint = false := by
    cases h : referenceImage.rect.contains seedPoint with
    | false => rfl
    | true =>
      obtain ⟨h1, h2, h3, h4⟩ := (contains_rect _ _).1 h
      omega
  refine ⟨?_, ?_, ?_, ?_, rfl, rfl, ?_⟩
  · unfold floodFill; simp [hc]
  · unfold floodFillScanLine; simp [hc]
  · unfold floodFillMT floodFillMTWith; simp [hc]
  · unfold floodFillScanLineMT floodFillScanLineMTWith; simp [hc]
  · intro v hv
    unfold QImage.blank at hv
    exact (List.mem_replicate.1 hv).2

/-- Witness of C5: the 3×1 image `[10, 200, 10]` with seed `(3,0)` and threshold 50. -/
theorem seed_outside_gives_zero_mask_witness :
    floodFill ⟨3, 1, 4, [10, 200, 10, 0]⟩ ⟨3, 0⟩ 50 = .ok (QImage.blank ⟨3, 1, 4, [10, 200, 10, 0]⟩) ∧
    floodFillScanLine ⟨3, 1, 4, [10, 200, 10, 0]⟩ ⟨3, 0⟩ 50 =
      .ok (QImage.blank ⟨3, 1, 4, [10, 200, 10, 0]⟩) ∧
    floodFillMT ⟨3, 1, 4, [10, 200, 10, 0]⟩ ⟨3, 0⟩ 50 =
      .ok (QImage.blank ⟨3, 1, 4, [10, 200, 10, 0]⟩) ∧
    floodFillScanLineMT ⟨3, 1, 4, [10, 200, 10, 0]⟩ ⟨3, 0⟩ 50 =
      .ok (QImage.blank ⟨3, 1, 4, [10, 200, 10, 0]⟩) ∧
    (QImage.blank ⟨3, 1, 4, [10, 200, 10, 0]⟩).width = 3 ∧
    (QImage.blank ⟨3, 1, 4, [10, 200, 10, 0]⟩).height = 1 ∧
    ∀ v ∈ (QImage.blank ⟨3, 1, 4, [10, 200, 10, 0]⟩).bits, v = 0 :=
  seed_outside_gives_zero_mask ⟨3, 1, 4, [10, 200, 10, 0]⟩ ⟨3, 0⟩ 50 (by decide)

/-- C6 fails for the two tile-parallel fills on the 1×1 image with seed `(0,0)` and
threshold 0: `floodFill` and `floodFillScanLine` return the all-zero mask without
evaluating the division, while the copy loop of `floodFillTile` and of
`floodFillTileScanLine`, run by `floodFillMT` and `floodFillScanLineMT`, covers 64 columns
of the single 4-byte scan line and leaves the buffer, so that no mask is returned. -/
theorem threshold_zero_small_image_leaves_buffer :
    floodFill ⟨1, 1, 4, [7, 0, 0, 0]⟩ ⟨0, 0⟩ 0 = .ok ⟨1, 1, 4, [0, 0, 0, 0]⟩ ∧
      floodFillScanLine ⟨1, 1, 4, [7, 0, 0, 0]⟩ ⟨0, 0⟩ 0 = .ok ⟨1, 1, 4, [0, 0, 0, 0]⟩ ∧
      floodFillMT ⟨1, 1, 4, [7, 0, 0, 0]⟩ ⟨0, 0⟩ 0 = .error .outOfBounds ∧
      floodFillScanLineMT ⟨1, 1, 4, [7, 0, 0, 0]⟩ ⟨0, 0⟩ 0 = .error .outOfBounds := by
  refine ⟨by decide, by decide, ?_, ?_⟩
  · decide!
  · decide!

/-- C10 fails for the tile `(1,0)` of a 100×100 image, clipped to the columns 64..99: the
write-back loop of `floodFillTile` and `floodFillTileScanLine` runs over 64 columns and
stores to the position `(100, 0)`, right of `tileRect.right = 99`; with a 100-byte scan
line that byte is the pixel `(0, 1)` of the tile `(0,0)`. -/
theorem writeBack_stores_right_of_tileRect :
    (tileRectOf tileSize (QRect.mk4 0 0 100 100) ⟨1, 0⟩) = ⟨64, 0, 99, 63⟩ ∧
      (⟨100, 0⟩ : QPoint) ∈
        writeBackPositions tileSize (tileRectOf tileSize (QRect.mk4 0 0 100 100) ⟨1, 0⟩) ∧
      QImage.offset ⟨100, 100, 100, []⟩ ⟨100, 0⟩ = QImage.offset ⟨100, 100, 100, []⟩ ⟨0, 1⟩ := by
  refine ⟨by decide, ?_, by decide⟩
  have hrect : tileRectOf tileSize (QRect.mk4 0 0 100 100) ⟨1, 0⟩ = ⟨64, 0, 99, 63⟩ := by decide
  rw [hrect]
  unfold writeBackPositions tileCells
  simp only [List.mem_map, List.mem_flatMap, List.mem_range]
  exact ⟨(0, 36), ⟨0, by decide, 36, by decide, rfl⟩, rfl⟩

end FloodFill

namespace FloodFill

/-- C11: for every image, each rectangle `QRect(tx·64, ty·64, 64, 64) ∩ imageRect` of a
tile id inside the grid `0 ≤ tx < ceil(w/64)`, `0 ≤ ty < ceil(h/64)` holds a point and lies
inside the image, and every pixel `(x, y)` of the image lies in the rectangle of exactly one
tile of the grid, the one with the id `(x / 64, y / 64)` that `floodFillMT` and
`floodFillScanLineMT` compute for the seed; so two distinct tiles of the grid share no
pixel. -/
theorem tiles_partition_the_image (referenceImage : QImage) :
    (∀ k, InFilter (tileGridSizeOf tileSize referenceImage.rect) k →
      (∃ p, (tileRectOf tileSize referenceImage.rect k).contains p = true) ∧
      ∀ p, (tileRectOf tileSize referenceImage.rect k).contains p = true →
        referenceImage.rect.contains p = true) ∧
    (∀ p, referenceImage.rect.contains p = true →
      InFilter (tileGridSizeOf tileSize referenceImage.rect)
        ⟨p.x.tdiv tileSize.width, p.y.tdiv tileSize.height⟩ ∧
      ∀ k, InFilter (tileGridSizeOf tileSize referenceImage.rect) k →
        ((tileRectOf tileSize referenceImage.rect k).contains p = true ↔
          k = ⟨p.x.tdiv tileSize.width, p.y.tdiv tileSize.height⟩)) ∧
    (∀ k k', InFilter (tileGridSizeOf tileSize referenceImage.rect) k →
      InFilter (tileGridSizeOf tileSize referenceImage.rect) k' → k ≠ k' →
      ∀ p, ¬ ((tileRectOf tileSize referenceImage.rect k).contains p = true ∧
        (tileRectOf tileSize referenceImage.rect k').contains p = true)) := by
  have hW := tileSize_pos.1
  have hH := tileSize_pos.2
  have inside : ∀ k, InFilter (tileGridSizeOf tileSize referenceImage.rect) k →
      ∀ p, (tileRectOf tileSize referenceImage.rect k).contains p = true →
        referenceImage.inImage p := by
    intro k hk p hp
    exact has_inImage (tileOK_of_inGrid ((inGrid_iff_inFilter hW hH k).2 hk) hW hH)
      ((contains_iff_has _ _).1 hp)
  have home : ∀ k, InFilter (tileGridSizeOf tileSize referenceImage.rect) k →
      ∀ p, (tileRectOf tileSize referenceImage.rect k).contains p = true →
        k = ⟨p.x.tdiv tileSize.width, p.y.tdiv tileSize.height⟩ := by
    intro k hk p hp
    exact (has_iff_home hW hH ((inGrid_iff_inFilter hW hH k).2 hk) (inside k hk p hp)).1
      ((contains_iff_has _ _).1 hp)
  refine ⟨?_, ?_, ?_⟩
  · intro k hk
    have hg := (inGrid_iff_inFilter hW hH k).2 hk
    have hok := tileOK_of_inGrid hg hW hH
    refine ⟨⟨⟨(tileRectOf tileSize referenceImage.rect k).left,
      (tileRectOf tileSize referenceImage.rect k).top⟩, ?_⟩, ?_⟩
    · rw [contains_iff_has]
      exact ⟨le_refl _, hok.leftRight, le_refl _, hok.topBottom⟩
    · intro p hp
      exact (contains_rect _ _).2 (inside k hk p hp)
  · intro p hp
    have hpi := (contains_rect _ _).1 hp
    obtain ⟨hk0, hhas⟩ := @home_tile tileSize referenceImage p hW hH hpi
    refine ⟨(inGrid_iff_inFilter hW hH _).1 hk0, ?_⟩
    intro k hk
    rw [contains_iff_has]
    exact has_iff_home hW hH ((inGrid_iff_inFilter hW hH k).2 hk) hpi
  · intro k k' hk hk' hne p hp
    exact hne ((home k hk p hp.1).trans (home k' hk' p hp.2).symm)

/-- C13 fails on the 4×4 image of C14 with seed `(0,0)` and threshold 50: with the tile
size 1×1 no tile is clipped and both tile-parallel fills return the mask of `floodFill`,
while with the tile sizes 17×23 and 64×64 the copy loop of the tile worker covers 17 or 64
columns of the 4-byte scan lines and leaves the 16-byte buffer, so that no mask is
returned. -/
theorem tile_size_changes_the_result :
    floodFillMTWith ⟨1, 1⟩
        ⟨4, 4, 4, [100, 100, 100, 100, 100, 100, 100, 100, 100, 100, 100, 100, 100, 100, 100,
          200]⟩ ⟨0, 0⟩ 50 =
      .ok ⟨4, 4, 4, [255, 255, 255, 255, 255, 255, 255, 255, 255, 255, 255, 255, 255, 255, 255,
        0]⟩ ∧
    floodFillMTWith ⟨17, 23⟩
        ⟨4, 4, 4, [100, 100, 100, 100, 100, 100, 100, 100, 100, 100, 100, 100, 100, 100, 100,
          200]⟩ ⟨0, 0⟩ 50 = .error .outOfBounds ∧
    floodFillMTWith ⟨64, 64⟩
        ⟨4, 4, 4, [100, 100, 100, 100, 100, 100, 100, 100, 100, 100, 100, 100, 100, 100, 100,
          200]⟩ ⟨0, 0⟩ 50 = .error .outOfBounds ∧
    floodFillScanLineMTWith ⟨1, 1⟩
        ⟨4, 4, 4, [100, 100, 100, 100, 100, 100, 100, 100, 100, 100, 100, 100, 100, 100, 100,
          200]⟩ ⟨0, 0⟩ 50 =
      .ok ⟨4, 4, 4, [255, 255, 255, 255, 255, 255, 255, 255, 255, 255, 255, 255, 255, 255, 255,
        0]⟩ ∧
    floodFillScanLineMTWith ⟨64, 64⟩
        ⟨4, 4, 4, [100, 100, 100, 100, 100, 100, 100, 100, 100, 100, 100, 100, 100, 100, 100,
          200]⟩ ⟨0, 0⟩ 50 = .error .outOfBounds := by
  refine ⟨?_, ?_, ?_, ?_, ?_⟩ <;> decide!

/-- C14 fails for the two tile-parallel fills: on the 4×4 image whose pixels are 100 except
`(3,3) = 200`, with seed `(0,0)` and threshold 50, `floodFill` and `floodFillScanLine`
return the mask that is 255 everywhere except 0 at `(3,3)`, while the copy loop of the tile
worker of `floodFillMT` and `floodFillScanLineMT` covers 64 columns of the 4-byte scan
lines and leaves the 16-byte buffer, so that no mask is returned. -/
theorem scenario_4x4 :
    floodFill
        ⟨4, 4, 4, [100, 100, 100, 100, 100, 100, 100, 100, 100, 100, 100, 100, 100, 100, 100,
          200]⟩ ⟨0, 0⟩ 50 =
      .ok ⟨4, 4, 4, [255, 255, 255, 255, 255, 255, 255, 255, 255, 255, 255, 255, 255, 255, 255,
        0]⟩ ∧
    floodFillScanLine
        ⟨4, 4, 4, [100, 100, 100, 100, 100, 100, 100, 100, 100, 100, 100, 100, 100, 100, 100,
          200]⟩ ⟨0, 0⟩ 50 =
      .ok ⟨4, 4, 4, [255, 255, 255, 255, 255, 255, 255, 255, 255, 255, 255, 255, 255, 255, 255,
        0]⟩ ∧
    floodFillMT
        ⟨4, 4, 4, [100, 100, 100, 100, 100, 100, 100, 100, 100, 100, 100, 100, 100, 100, 100,
          200]⟩ ⟨0, 0⟩ 50 = .error .outOfBounds ∧
    floodFillScanLineMT
        ⟨4, 4, 4, [100, 100, 100, 100, 100, 100, 100, 100, 100, 100, 100, 100, 100, 100, 100,
          200]⟩ ⟨0, 0⟩ 50 = .error .outOfBounds := by
  refine ⟨?_, ?_, ?_, ?_⟩ <;> decide!

/-- C15 fails for the two tile-parallel fills on the uniform 2×2 image of value 128 (4-byte
scan lines) with seed `(1,1)` and threshold 1: `floodFill` and `floodFillScanLine` return
the mask that is 255 at every pixel, while the copy loop of the tile worker of `floodFillMT`
and `floodFillScanLineMT` covers 64 columns of the 4-byte scan lines and leaves the 8-byte
buffer, so that no mask is returned. -/
theorem uniform_small_image_leaves_buffer :
    floodFill ⟨2, 2, 4, [128, 128, 0, 0, 128, 128, 0, 0]⟩ ⟨1, 1⟩ 1 =
      .ok ⟨2, 2, 4, [255, 255, 0, 0, 255, 255, 0, 0]⟩ ∧
    floodFillScanLine ⟨2, 2, 4, [128, 128, 0, 0, 128, 128, 0, 0]⟩ ⟨1, 1⟩ 1 =
      .ok ⟨2, 2, 4, [255, 255, 0, 0, 255, 255, 0, 0]⟩ ∧
    floodFillMT ⟨2, 2, 4, [128, 128, 0, 0, 128, 128, 0, 0]⟩ ⟨1, 1⟩ 1 =
      .error .outOfBounds ∧
    floodFillScanLineMT ⟨2, 2, 4, [128, 128, 0, 0, 128, 128, 0, 0]⟩ ⟨1, 1⟩ 1 =
      .error .outOfBounds := by
  refine ⟨?_, ?_, ?_, ?_⟩ <;> decide!

/-- C16 fails for the tile `(0,0)` of the 2×2 image (4-byte scan lines), clipped to the
columns 0..1: the copy loops and the write-back loop of `floodFillTile` and
`floodFillTileScanLine` run over 64 columns and access the position `(2,0)`, which has
`x ≥ width`; further on they leave the 8-byte buffer, and the call ends there. -/
theorem tile_loops_access_outside_image :
    tileRectOf tileSize (QImage.rect ⟨2, 2, 4, [7, 7, 0, 0, 7, 7, 0, 0]⟩) ⟨0, 0⟩ =
      ⟨0, 0, 1, 1⟩ ∧
    (⟨2, 0⟩ : QPoint) ∈ copyInPositions tileSize ⟨0, 0, 1, 1⟩ ∧
    (⟨2, 0⟩ : QPoint) ∈ writeBackPositions tileSize ⟨0, 0, 1, 1⟩ ∧
    (QImage.rect ⟨2, 2, 4, [7, 7, 0, 0, 7, 7, 0, 0]⟩).contains ⟨2, 0⟩ = false ∧
    floodFillTile tileSize ⟨2, 2, 4, [7, 7, 0, 0, 7, 7, 0, 0]⟩
        (QImage.blank ⟨2, 2, 4, [7, 7, 0, 0, 7, 7, 0, 0]⟩) [⟨0, 0⟩] 7 ⟨0, 0⟩
        (QImage.rect ⟨2, 2, 4, [7, 7, 0, 0, 7, 7, 0, 0]⟩) ⟨0, 0, 1, 1⟩ 1 =
      .error .outOfBounds ∧
    floodFillTileScanLine tileSizeScanLine ⟨2, 2, 4, [7, 7, 0, 0, 7, 7, 0, 0]⟩
        (QImage.blank ⟨2, 2, 4, [7, 7, 0, 0, 7, 7, 0, 0]⟩) [⟨0, 0, 0, 1⟩] 7 ⟨0, 0⟩
        (QImage.rect ⟨2, 2, 4, [7, 7, 0, 0, 7, 7, 0, 0]⟩) ⟨0, 0, 1, 1⟩ 1 =
      .error .outOfBounds := by
  refine ⟨by decide, ?_, ?_, by decide, ?_, ?_⟩
  · unfold copyInPositions tileCells
    simp only [List.mem_map, List.mem_flatMap, List.mem_range]
    exact ⟨(0, 2), ⟨0, by decide, 2, by decide, rfl⟩, rfl⟩
  · unfold writeBackPositions tileCells
    simp only [List.mem_map, List.mem_flatMap, List.mem_range]
    exact ⟨(0, 2), ⟨0, by decide, 2, by decide, rfl⟩, rfl⟩
  · decide!
  · decide!

/-- In `floodFill` and `floodFillScanLine` the mask at the end of the loop arises from the
mask of any state of the loop by stores that each hit a byte that is 0 at that time and
each write a non-zero value; the same holds for the assignments to `fillMaskPixel` in the
working buffers of `floodFillTile` and `floodFillTileScanLine`. So a byte that is not zero
is never stored to again and keeps its value in the buffers, and in the shared mask over the
rounds of calls of the tile workers for tiles of the grid when the tasks of every round run
one after another. -/
theorem stores_hit_zero_bytes (referenceImage : QImage) (seedValue threshold : Nat) :
    (∀ fuel mask nodes mask',
      floodFillLoop referenceImage seedValue threshold fuel mask nodes = .ok mask' →
      Marked mask mask') ∧
    (∀ fuel mask spans mask',
      floodFillScanLineLoop referenceImage seedValue threshold fuel mask spans = .ok mask' →
      Marked mask mask') ∧
    (∀ currentTileId globalRect tileRect fuel td info nodes td' info',
      floodFillTileLoop tileSize seedValue currentTileId globalRect tileRect threshold fuel td
        info nodes = .ok (td', info') →
      TileMarked td td') ∧
    (∀ currentTileId globalRect tileRect fuel td info spans td' info',
      floodFillTileScanLineLoop tileSizeScanLine seedValue currentTileId globalRect tileRect
        threshold fuel td info spans = .ok (td', info') →
      TileMarked td td') ∧
    (∀ mask mask', Marked mask mask' → Keeps mask mask') ∧
    (∀ td td', TileMarked td td' →
      ∀ j, (td.getD j ⟨0, 0⟩).fillMaskPixel ≠ 0 →
        (td'.getD j ⟨0, 0⟩).fillMaskPixel = (td.getD j ⟨0, 0⟩).fillMaskPixel) ∧
    (∀ fuel mask queue mask',
      (∀ e ∈ queue, InFilter (tileGridSizeOf tileSize referenceImage.rect) e.1) →
      runRounds
        (fun fillMaskImage tileId seedPoints =>
          floodFillTile tileSize referenceImage fillMaskImage seedPoints seedValue tileId
            referenceImage.rect (tileRectOf tileSize referenceImage.rect tileId) threshold)
        (tileGridSizeOf tileSize referenceImage.rect) fuel mask queue = .ok mask' →
      Keeps mask mask') ∧
    (∀ fuel mask queue mask',
      (∀ e ∈ queue, InFilter (tileGridSizeOf tileSizeScanLine referenceImage.rect) e.1) →
      runRounds
        (fun fillMaskImage tileId seedSpans =>
          floodFillTileScanLine tileSizeScanLine referenceImage fillMaskImage seedSpans
            seedValue tileId referenceImage.rect
            (tileRectOf tileSizeScanLine referenceImage.rect tileId) threshold)
        (tileGridSizeOf tileSizeScanLine referenceImage.rect) fuel mask queue = .ok mask' →
      Keeps mask mask') := by
  refine ⟨fun fuel mask nodes mask' h => floodFillLoop_marked fuel mask mask' nodes h,
    fun fuel mask spans mask' h => floodFillScanLineLoop_marked fuel mask mask' spans h,
    fun _ _ _ fuel td info nodes td' info' h =>
      floodFillTileLoop_marked fuel td td' info info' nodes h,
    fun _ _ _ fuel td info spans td' info' h =>
      floodFillTileScanLineLoop_marked fuel td td' info info' spans h,
    fun mask mask' h => marked_keeps h, fun td td' h => (tileMarked_keeps h).2.2, ?_, ?_⟩
  · intro fuel mask queue mask' hq h
    exact runRounds_keeps
      (fun m k seeds m' info hk ht =>
        floodFillTile_keeps tileSize_pos.1 tileSize_pos.2
          ((inGrid_iff_inFilter tileSize_pos.1 tileSize_pos.2 k).2 hk) ht)
      fuel mask mask' queue hq h
  · intro fuel mask queue mask' hq h
    exact runRounds_keeps
      (fun m k seeds m' info hk ht =>
        floodFillTileScanLine_keeps tileSizeScanLine_pos.1 tileSizeScanLine_pos.2
          ((inGrid_iff_inFilter tileSizeScanLine_pos.1 tileSizeScanLine_pos.2 k).2 hk) ht)
      fuel mask mask' queue hq h

/-- C20: the queue that the merge step of a round of `floodFillMT` and
`floodFillScanLineMT` builds from the results of the round's workers has one entry for each
key; each entry has a tile id inside the grid and a non-empty list, which is the list of
all the seeds that the results hold under that id, in the order of the results; and every
tile id inside the grid under which a result holds a seed has an entry. Entries for tile
ids outside the grid and empty lists leave no trace. -/
theorem merge_builds_the_queue {α : Type} (tileGridSize : QSize)
    (results : List (List (TileId × List α))) :
    ((mergePropagation tileGridSize results).map (fun e => e.1)).Nodup ∧
    (∀ e ∈ mergePropagation tileGridSize results,
      (0 ≤ e.1.x ∧ e.1.x < (tileGridSize.width : Int) ∧
        0 ≤ e.1.y ∧ e.1.y < (tileGridSize.height : Int)) ∧
      e.2 ≠ [] ∧ e.2 = seedsFor e.1 results.flatten) ∧
    (∀ key : TileId, 0 ≤ key.x → key.x < (tileGridSize.width : Int) → 0 ≤ key.y →
      key.y < (tileGridSize.height : Int) → seedsFor key results.flatten ≠ [] →
      ∃ e ∈ mergePropagation tileGridSize results, e.1 = key) := by
  obtain ⟨h1, h2, h3⟩ := merge_exact tileGridSize results
  exact ⟨h1, fun e he => h2 e he, fun key a b c d hne => h3 key ⟨a, b, c, d⟩ hne⟩

end FloodFill

namespace FloodFill

/-- C18: for every call of `floodFillTile` for a tile `currentTileId` of the grid, with
`tileRect` the rectangle of that tile clipped to `globalRect` and every seed inside
`tileRect`, the call leaves a buffer or returns, and when it returns every point `q` that
it emitted under a key lies inside `globalRect` and inside the rectangle of the tile of the
key, the key is a tile of the grid and one of the four neighbours of `currentTileId`, and
`q` is the 4-neighbour of a pixel `p` of `tileRect` whose mask byte was 0 before the call
and is not 0 after it. -/
theorem floodFillTile_emitted_points (referenceImage fillMaskImage : QImage)
    (seeds : SeedPointList) (originalSeedValue threshold : Nat) (currentTileId : TileId)
    (hw : referenceImage.width ≤ referenceImage.bytesPerLine)
    (hg : SameGeometry referenceImage fillMaskImage)
    (hk : InFilter (tileGridSizeOf tileSize referenceImage.rect) currentTileId)
    (hseeds : ∀ s ∈ seeds,
      (tileRectOf tileSize referenceImage.rect currentTileId).contains s = true) :
    OkOr (floodFillTile tileSize referenceImage fillMaskImage seeds originalSeedValue
        currentTileId referenceImage.rect
        (tileRectOf tileSize referenceImage.rect currentTileId) threshold)
      (fun r => ∀ e ∈ r.2, ∀ q ∈ e.2,
        referenceImage.rect.contains q = true ∧
        (tileRectOf tileSize referenceImage.rect e.1).contains q = true ∧
        InFilter (tileGridSizeOf tileSize referenceImage.rect) e.1 ∧
        (e.1 = ⟨currentTileId.x - 1, currentTileId.y⟩ ∨
          e.1 = ⟨currentTileId.x + 1, currentTileId.y⟩ ∨
          e.1 = ⟨currentTileId.x, currentTileId.y - 1⟩ ∨
          e.1 = ⟨currentTileId.x, currentTileId.y + 1⟩) ∧
        ∃ p, (tileRectOf tileSize referenceImage.rect currentTileId).contains p = true ∧
          adjacent p q ∧ getPixel fillMaskImage p = .ok 0 ∧
          ∃ v, v ≠ 0 ∧ getPixel r.1 p = .ok v) := by
  have hW := tileSize_pos.1
  have hH := tileSize_pos.2
  have hk' := (inGrid_iff_inFilter hW hH currentTileId).2 hk
  have hok := tileOK_of_inGrid hk' hW hH
  have key := @floodFillTile_emits tileSize referenceImage originalSeedValue threshold
    currentTileId fillMaskImage seeds hW hH hw hk' hg
    (fun s hs => (contains_iff_has _ _).1 (hseeds s hs))
  rcases key with herr | ⟨r, hr, hall⟩
  · exact Or.inl herr
  refine Or.inr ⟨r, hr, ?_⟩
  obtain ⟨mask', info⟩ := r
  obtain ⟨g1, g2, g3, g4, _⟩ := floodFillTile_keeps hW hH hk' hr
  intro e he q hq
  obtain ⟨hin, hq', hnb, p, hp, hadj, hp0, hp1⟩ := hall e he q hq
  have hokE := tileOK_of_inGrid hin hW hH
  have hqI := has_inImage hokE hq'
  have hpI := has_inImage hok hp
  have hqR : referenceImage.rect.has q := by
    obtain ⟨q1, q2, q3, q4⟩ := hqI
    rw [rect_eq]
    exact ⟨q1, by simp only; omega, q3, by simp only; omega⟩
  obtain ⟨s1, s2, s3, s4⟩ := hg
  have o0 := offset_nonneg hpI
  have o1 := offset_lt hpI hw
  have eM : fillMaskImage.offset p = referenceImage.offset p := offset_geometry s3 p
  have eM' : (mask', info).1.offset p = referenceImage.offset p :=
    offset_geometry (g3.trans s3) p
  have lenM : (fillMaskImage.bits.length : Int) =
      (referenceImage.bytesPerLine : Int) * referenceImage.height := by
    rw [s4]; push_cast; ring
  have lenM' : ((mask', info).1.bits.length : Int) =
      (referenceImage.bytesPerLine : Int) * referenceImage.height := by
    simp only
    rw [g4, s4]; push_cast; ring
  refine ⟨(contains_iff_has _ _).2 hqR, (contains_iff_has _ _).2 hq',
    (inGrid_iff_inFilter hW hH e.1).1 hin, hnb, p, (contains_iff_has _ _).2 hp, hadj, ?_,
    (mask', info).1.pix p, hp1, ?_⟩
  · rw [getPixel_eq (by omega) (by omega), hp0]
  · exact getPixel_eq (by omega) (by omega)

theorem floodFillTile_emitted_points_witness :
    (128 : Nat) ≤ 128 ∧
    SameGeometry ⟨128, 1, 128, List.replicate 128 7⟩
      (QImage.blank ⟨128, 1, 128, List.replicate 128 7⟩) ∧
    InFilter (tileGridSizeOf tileSize (QImage.rect ⟨128, 1, 128, List.replicate 128 7⟩))
      ⟨0, 0⟩ ∧
    OkOr (floodFillTile tileSize ⟨128, 1, 128, List.replicate 128 7⟩
        (QImage.blank ⟨128, 1, 128, List.replicate 128 7⟩) [⟨0, 0⟩] 7 ⟨0, 0⟩
        (QImage.rect ⟨128, 1, 128, List.replicate 128 7⟩)
        (tileRectOf tileSize (QImage.rect ⟨128, 1, 128, List.replicate 128 7⟩) ⟨0, 0⟩) 1)
      (fun r => ∀ e ∈ r.2, ∀ q ∈ e.2,
        (QImage.rect ⟨128, 1, 128, List.replicate 128 7⟩).contains q = true ∧
        (tileRectOf tileSize (QImage.rect ⟨128, 1, 128, List.replicate 128 7⟩)
          e.1).contains q = true ∧
        InFilter (tileGridSizeOf tileSize (QImage.rect ⟨128, 1, 128, List.replicate 128 7⟩))
          e.1 ∧
        (e.1 = ⟨0 - 1, 0⟩ ∨ e.1 = ⟨0 + 1, 0⟩ ∨ e.1 = ⟨0, 0 - 1⟩ ∨ e.1 = ⟨0, 0 + 1⟩) ∧
        ∃ p, (tileRectOf tileSize (QImage.rect ⟨128, 1, 128, List.replicate 128 7⟩)
            ⟨0, 0⟩).contains p = true ∧
          adjacent p q ∧
          getPixel (QImage.blank ⟨128, 1, 128, List.replicate 128 7⟩) p = .ok 0 ∧
          ∃ v, v ≠ 0 ∧ getPixel r.1 p = .ok v) :=
  ⟨by decide, by simp [SameGeometry, QImage.blank], by decide,
    floodFillTile_emitted_points ⟨128, 1, 128, List.replicate 128 7⟩
      (QImage.blank ⟨128, 1, 128, List.replicate 128 7⟩) [⟨0, 0⟩] 7 1 ⟨0, 0⟩ (by decide)
      (by simp [SameGeometry, QImage.blank]) (by decide) (by decide)⟩

/-- Counterexample to C19. On the 64×1 image with every pixel 7, the call of
`floodFillTileScanLine` for the only tile `(0,0)` with the seed span `{0, 0, 0, 1}` of
`floodFillScanLineMT` and threshold 1 returns with the span `{0, 63, −1, −1}` filed under the
id `(0,−1)` and the span `{0, 63, 1, 1}` under `(0,1)`: their rows −1 and 1 are outside
`globalRect` (rows 0..0) and their ids are outside the 1×1 grid. On the 64×3 image whose
pixels are 7 except `(63,0)`, which is 200, the call for the tile `(0,0)` with the seed span
`{−1, −1, 2, 1}`, which is not inside `tileRect`, files the span `{−1, 63, 3, 1}`, whose column
−1 is outside `globalRect`. -/
theorem floodFillTileScanLine_emits_outside_grid :
    (SpanIn (tileRectOf tileSizeScanLine (QImage.rect ⟨64, 1, 64, List.replicate 64 7⟩)
        ⟨0, 0⟩) ⟨0, 0, 0, 1⟩ ∧
      (floodFillTileScanLine tileSizeScanLine ⟨64, 1, 64, List.replicate 64 7⟩
        (QImage.blank ⟨64, 1, 64, List.replicate 64 7⟩) [⟨0, 0, 0, 1⟩] 7 ⟨0, 0⟩
        (QImage.rect ⟨64, 1, 64, List.replicate 64 7⟩)
        (tileRectOf tileSizeScanLine (QImage.rect ⟨64, 1, 64, List.replicate 64 7⟩)
          ⟨0, 0⟩) 1).map Prod.snd =
        .ok [(⟨0, -1⟩, [⟨0, 63, -1, -1⟩]), (⟨0, 1⟩, [⟨0, 63, 1, 1⟩])] ∧
      (QImage.rect ⟨64, 1, 64, List.replicate 64 7⟩).top = 0 ∧
      (QImage.rect ⟨64, 1, 64, List.replicate 64 7⟩).bottom = 0 ∧
      ¬ InFilter (tileGridSizeOf tileSizeScanLine
        (QImage.rect ⟨64, 1, 64, List.replicate 64 7⟩)) ⟨0, -1⟩ ∧
      ¬ InFilter (tileGridSizeOf tileSizeScanLine
        (QImage.rect ⟨64, 1, 64, List.replicate 64 7⟩)) ⟨0, 1⟩) ∧
    (¬ SpanIn (tileRectOf tileSizeScanLine
        (QImage.rect ⟨64, 3, 64, List.replicate 63 7 ++ 200 :: List.replicate 128 7⟩)
        ⟨0, 0⟩) ⟨-1, -1, 2, 1⟩ ∧
      (floodFillTileScanLine tileSizeScanLine
        ⟨64, 3, 64, List.replicate 63 7 ++ 200 :: List.replicate 128 7⟩
        (QImage.blank ⟨64, 3, 64, List.replicate 63 7 ++ 200 :: List.replicate 128 7⟩)
        [⟨-1, -1, 2, 1⟩] 7 ⟨0, 0⟩
        (QImage.rect ⟨64, 3, 64, List.replicate 63 7 ++ 200 :: List.replicate 128 7⟩)
        (tileRectOf tileSizeScanLine
          (QImage.rect ⟨64, 3, 64, List.replicate 63 7 ++ 200 :: List.replicate 128 7⟩)
          ⟨0, 0⟩) 1).map Prod.snd =
        .ok [(⟨0, 1⟩, [⟨-1, 63, 3, 1⟩]), (⟨0, -1⟩, [⟨0, 62, -1, -1⟩])] ∧
      (QImage.rect
        ⟨64, 3, 64, List.replicate 63 7 ++ 200 :: List.replicate 128 7⟩).left = 0) := by
  refine ⟨⟨by decide, by decide!, by decide, by decide, by decide, by decide⟩,
    by decide, by decide!, by decide⟩

/-- C19, amended: for every call of `floodFillTileScanLine` for a tile `currentTileId` of
the grid, with `tileRect` the rectangle of that tile clipped to `globalRect` and every seed
span inside `tileRect`, the call leaves a buffer or returns, and when it returns every span
that it emitted has its columns within `globalRect.left..globalRect.right`; a span emitted
for the tile on the left or right has its row within `globalRect.top..globalRect.bottom` and
a tile id inside the grid; a span emitted for the tile above or below is on the row
`tileRect.top − 1` or `tileRect.bottom + 1`, and its row is within
`globalRect.top..globalRect.bottom` exactly when its tile id is inside the grid. -/
theorem floodFillTileScanLine_emitted_spans (referenceImage fillMaskImage : QImage)
    (seeds : SeedSpanList) (originalSeedValue threshold : Nat) (currentTileId : TileId)
    (hk : InFilter (tileGridSizeOf tileSizeScanLine referenceImage.rect) currentTileId)
    (hseeds : ∀ s ∈ seeds,
      SpanIn (tileRectOf tileSizeScanLine referenceImage.rect currentTileId) s) :
    OkOr (floodFillTileScanLine tileSizeScanLine referenceImage fillMaskImage seeds
        originalSeedValue currentTileId referenceImage.rect
        (tileRectOf tileSizeScanLine referenceImage.rect currentTileId) threshold)
      (fun r => ∀ e ∈ r.2, ∀ s ∈ e.2,
        referenceImage.rect.left ≤ s.x1 ∧ s.x1 ≤ s.x2 ∧ s.x2 ≤ referenceImage.rect.right ∧
        (((e.1 = ⟨currentTileId.x - 1, currentTileId.y⟩ ∨
              e.1 = ⟨currentTileId.x + 1, currentTileId.y⟩) ∧
            InFilter (tileGridSizeOf tileSizeScanLine referenceImage.rect) e.1 ∧
            referenceImage.rect.top ≤ s.y ∧ s.y ≤ referenceImage.rect.bottom) ∨
          ((e.1 = ⟨currentTileId.x, currentTileId.y - 1⟩ ∧
                s.y = (tileRectOf tileSizeScanLine referenceImage.rect currentTileId).top - 1 ∨
              e.1 = ⟨currentTileId.x, currentTileId.y + 1⟩ ∧
                s.y =
                  (tileRectOf tileSizeScanLine referenceImage.rect currentTileId).bottom + 1) ∧
            (InFilter (tileGridSizeOf tileSizeScanLine referenceImage.rect) e.1 ↔
              referenceImage.rect.top ≤ s.y ∧ s.y ≤ referenceImage.rect.bottom)))) := by
  have hW := tileSizeScanLine_pos.1
  have hH := tileSizeScanLine_pos.2
  have hk' := (inGrid_iff_inFilter hW hH currentTileId).2 hk
  have key := @floodFillTileScanLine_emits tileSizeScanLine referenceImage originalSeedValue
    threshold currentTileId fillMaskImage seeds hW hH hk' hseeds
  rcases key with herr | ⟨r, hr, hall⟩
  · exact Or.inl herr
  refine Or.inr ⟨r, hr, ?_⟩
  intro e he s hs
  have hem := hall e he s hs
  obtain ⟨c1, c2, c3, hrow, _⟩ := emittedSpan_global hW hH hk' hem
  refine ⟨c1, c2, c3, ?_⟩
  obtain ⟨_, h | h⟩ := hem
  · obtain ⟨hside, hin, _⟩ := h
    exact Or.inl ⟨hside, (inGrid_iff_inFilter hW hH e.1).1 hin, hrow.1 hin⟩
  · obtain ⟨hvert, _⟩ := h
    exact Or.inr ⟨hvert, (inGrid_iff_inFilter hW hH e.1).symm.trans hrow⟩

theorem floodFillTileScanLine_emitted_spans_witness :
    InFilter (tileGridSizeOf tileSizeScanLine (QImage.rect ⟨64, 1, 64, List.replicate 64 7⟩))
      ⟨0, 0⟩ ∧
    OkOr (floodFillTileScanLine tileSizeScanLine ⟨64, 1, 64, List.replicate 64 7⟩
        (QImage.blank ⟨64, 1, 64, List.replicate 64 7⟩) [⟨0, 0, 0, 1⟩] 7 ⟨0, 0⟩
        (QImage.rect ⟨64, 1, 64, List.replicate 64 7⟩)
        (tileRectOf tileSizeScanLine (QImage.rect ⟨64, 1, 64, List.replicate 64 7⟩)
          ⟨0, 0⟩) 1)
      (fun r => ∀ e ∈ r.2, ∀ s ∈ e.2,
        (QImage.rect ⟨64, 1, 64, List.replicate 64 7⟩).left ≤ s.x1 ∧ s.x1 ≤ s.x2 ∧
        s.x2 ≤ (QImage.rect ⟨64, 1, 64, List.replicate 64 7⟩).right ∧
        (((e.1 = ⟨0 - 1, 0⟩ ∨ e.1 = ⟨0 + 1, 0⟩) ∧
            InFilter (tileGridSizeOf tileSizeScanLine
              (QImage.rect ⟨64, 1, 64, List.replicate 64 7⟩)) e.1 ∧
            (QImage.rect ⟨64, 1, 64, List.replicate 64 7⟩).top ≤ s.y ∧
            s.y ≤ (QImage.rect ⟨64, 1, 64, List.replicate 64 7⟩).bottom) ∨
          ((e.1 = ⟨0, 0 - 1⟩ ∧
                s.y = (tileRectOf tileSizeScanLine
                  (QImage.rect ⟨64, 1, 64, List.replicate 64 7⟩) ⟨0, 0⟩).top - 1 ∨
              e.1 = ⟨0, 0 + 1⟩ ∧
                s.y = (tileRectOf tileSizeScanLine
                  (QImage.rect ⟨64, 1, 64, List.replicate 64 7⟩) ⟨0, 0⟩).bottom + 1) ∧
            (InFilter (tileGridSizeOf tileSizeScanLine
                (QImage.rect ⟨64, 1, 64, List.replicate 64 7⟩)) e.1 ↔
              (QImage.rect ⟨64, 1, 64, List.replicate 64 7⟩).top ≤ s.y ∧
                s.y ≤ (QImage.rect ⟨64, 1, 64, List.replicate 64 7⟩).bottom)))) :=
  ⟨by decide,
    floodFillTileScanLine_emitted_spans ⟨64, 1, 64, List.replicate 64 7⟩
      (QImage.blank ⟨64, 1, 64, List.replicate 64 7⟩) [⟨0, 0, 0, 1⟩] 7 1 ⟨0, 0⟩ (by decide)
      (by decide)⟩

end FloodFill

namespace FloodFill

/-- When the tasks of every round run one after another, the mask that `floodFillMT` and
`floodFillScanLineMT` return for an image, a seed and a threshold in [0,255] does not depend
on the order in which the tiles of a round are processed nor on the order in which the
results of the workers and their entries are merged. Under any two schedules, each of which
walks the queue, the results and the entries of a result in some order of its own in every
round, the two runs have the same outcome: both end with the fault of the memory model (a
copy loop of a tile worker leaves the buffer), or both return, and then the same mask, byte
for byte. A run that returns returns the mask of `floodFill`, and no run exhausts its
rounds. The runs in the order of the lists are `floodFillMT` and `floodFillScanLineMT`. -/
theorem sequential_rounds_agree (referenceImage : QImage) (seedPoint : QPoint)
    (threshold : Nat) (sched sched' : Schedule QPoint) (scan scan' : Schedule Span)
    (hwf : referenceImage.WF) (ht : threshold ≤ 255)
    (hv : sched.Valid) (hv' : sched'.Valid) (hs : scan.Valid) (hs' : scan'.Valid) :
    floodFillMTOrd sched tileSize referenceImage seedPoint threshold =
      floodFillMTOrd sched' tileSize referenceImage seedPoint threshold ∧
    floodFillScanLineMTOrd scan tileSizeScanLine referenceImage seedPoint threshold =
      floodFillScanLineMTOrd scan' tileSizeScanLine referenceImage seedPoint threshold ∧
    OkOr (floodFillMTOrd sched tileSize referenceImage seedPoint threshold)
      (fun mask => floodFill referenceImage seedPoint threshold = .ok mask) ∧
    OkOr (floodFillScanLineMTOrd scan tileSizeScanLine referenceImage seedPoint threshold)
      (fun mask => floodFill referenceImage seedPoint threshold = .ok mask) ∧
    floodFillMTOrd (Schedule.listOrder QPoint) tileSize referenceImage seedPoint threshold =
      floodFillMT referenceImage seedPoint threshold ∧
    floodFillScanLineMTOrd (Schedule.listOrder Span) tileSizeScanLine referenceImage seedPoint
        threshold =
      floodFillScanLineMT referenceImage seedPoint threshold :=
  ⟨floodFillMTOrd_order hv hv' hwf ht tileSize_pos.1 tileSize_pos.2,
    floodFillScanLineMTOrd_order hs hs' hwf ht tileSizeScanLine_pos.1 tileSizeScanLine_pos.2,
    floodFillMTOrd_serial hv hwf ht tileSize_pos.1 tileSize_pos.2,
    floodFillScanLineMTOrd_serial hs hwf ht tileSizeScanLine_pos.1 tileSizeScanLine_pos.2,
    floodFillMTOrd_listOrder _ _ _ _, floodFillScanLineMTOrd_listOrder _ _ _ _⟩

theorem sequential_rounds_agree_witness :
    QImage.WF ⟨128, 1, 128, List.replicate 128 7⟩ ∧ (1 : Nat) ≤ 255 ∧
    (Schedule.listOrder QPoint).Valid ∧ (Schedule.backwards QPoint).Valid ∧
    (Schedule.listOrder Span).Valid ∧ (Schedule.backwards Span).Valid ∧
    floodFillMTOrd (Schedule.listOrder QPoint) tileSize
        ⟨128, 1, 128, List.replicate 128 7⟩ ⟨100, 0⟩ 1 =
      floodFillMTOrd (Schedule.backwards QPoint) tileSize
        ⟨128, 1, 128, List.replicate 128 7⟩ ⟨100, 0⟩ 1 ∧
    floodFillScanLineMTOrd (Schedule.listOrder Span) tileSizeScanLine
        ⟨128, 1, 128, List.replicate 128 7⟩ ⟨100, 0⟩ 1 =
      floodFillScanLineMTOrd (Schedule.backwards Span) tileSizeScanLine
        ⟨128, 1, 128, List.replicate 128 7⟩ ⟨100, 0⟩ 1 ∧
    OkOr (floodFillMTOrd (Schedule.listOrder QPoint) tileSize
        ⟨128, 1, 128, List.replicate 128 7⟩ ⟨100, 0⟩ 1)
      (fun mask => floodFill ⟨128, 1, 128, List.replicate 128 7⟩ ⟨100, 0⟩ 1 = .ok mask) ∧
    OkOr (floodFillScanLineMTOrd (Schedule.listOrder Span) tileSizeScanLine
        ⟨128, 1, 128, List.replicate 128 7⟩ ⟨100, 0⟩ 1)
      (fun mask => floodFill ⟨128, 1, 128, List.replicate 128 7⟩ ⟨100, 0⟩ 1 = .ok mask) ∧
    floodFillMTOrd (Schedule.listOrder QPoint) tileSize ⟨128, 1, 128, List.replicate 128 7⟩
        ⟨100, 0⟩ 1 =
      floodFillMT ⟨128, 1, 128, List.replicate 128 7⟩ ⟨100, 0⟩ 1 ∧
    floodFillScanLineMTOrd (Schedule.listOrder Span) tileSizeScanLine
        ⟨128, 1, 128, List.replicate 128 7⟩ ⟨100, 0⟩ 1 =
      floodFillScanLineMT ⟨128, 1, 128, List.replicate 128 7⟩ ⟨100, 0⟩ 1 :=
  ⟨by simp [QImage.WF], by decide,
    ⟨fun _ l => List.Perm.refl l, fun _ l => List.Perm.refl l, fun _ l => List.Perm.refl l⟩,
    ⟨fun _ l => List.reverse_perm l, fun _ l => List.reverse_perm l,
      fun _ l => List.reverse_perm l⟩,
    ⟨fun _ l => List.Perm.refl l, fun _ l => List.Perm.refl l, fun _ l => List.Perm.refl l⟩,
    ⟨fun _ l => List.reverse_perm l, fun _ l => List.reverse_perm l,
      fun _ l => List.reverse_perm l⟩,
    sequential_rounds_agree ⟨128, 1, 128, List.replicate 128 7⟩ ⟨100, 0⟩ 1
      (Schedule.listOrder QPoint) (Schedule.backwards QPoint) (Schedule.listOrder Span)
      (Schedule.backwards Span) (by simp [QImage.WF]) (by decide)
      ⟨fun _ l => List.Perm.refl l, fun _ l => List.Perm.refl l, fun _ l => List.Perm.refl l⟩
      ⟨fun _ l => List.reverse_perm l, fun _ l => List.reverse_perm l,
        fun _ l => List.reverse_perm l⟩
      ⟨fun _ l => List.Perm.refl l, fun _ l => List.Perm.refl l, fun _ l => List.Perm.refl l⟩
      ⟨fun _ l => List.reverse_perm l, fun _ l => List.reverse_perm l,
        fun _ l => List.reverse_perm l⟩⟩

end FloodFill

namespace FloodFill

/-- C21: in `floodFillScanLine`, the processing of a popped span `(x1, x2, y, dy)` inside
the image (`0 ≤ y < height`, `0 ≤ x1 ≤ x2 < width`), on any mask of the size of the image,
returns and yields a list of runs `[a, b]` of row `y`, from left to right and pairwise
apart: the pixels of each run were unmarked, pass the inclusion test and are marked with
their selection value; each run is maximal (the pixels at `a − 1` and `b + 1` are outside
the image, marked before, or excluded); for each run exactly the two child spans
`(a, b, y − dy, −dy)` and `(a, b, y + dy, dy)` are pushed, in this order, and nothing else
is pushed; no pixel outside the runs is stored to; nothing is pushed exactly when no pixel
is marked. One span can yield several runs, each with its pair of children: the span
`(0, 2, 1, 1)` on the second row `10 200 10` of a 3×2 image yields the runs `[0, 0]` and
`[2, 2]`. -/
theorem scanLine_span_yields_runs (referenceImage : QImage) (seedPoint : QPoint)
    (threshold : Nat) (mask : QImage) (span : Span) (spans : List Span)
    (hwf : referenceImage.WF) (ht : threshold ≤ 255) (hg : SameGeometry referenceImage mask)
    (hy : 0 ≤ span.y ∧ span.y < (referenceImage.height : Int))
    (hx : 0 ≤ span.x1 ∧ span.x1 ≤ span.x2 ∧ span.x2 < (referenceImage.width : Int)) :
    (∃ mask' runs,
      floodFillScanLineStep referenceImage (referenceImage.pix seedPoint) threshold mask span
        spans = .ok (mask', runChildren span runs spans) ∧
      (∀ r ∈ runs,
        MarkedRun referenceImage (referenceImage.pix seedPoint) threshold mask mask' span.y
          r.1 r.2) ∧
      runs.Pairwise (fun r r' => r.2 + 1 < r'.1) ∧
      (∀ q, referenceImage.inImage q →
        (¬ ∃ r ∈ runs, q.y = span.y ∧ r.1 ≤ q.x ∧ q.x ≤ r.2) → mask'.pix q = mask.pix q) ∧
      (runs = [] ↔ mask' = mask)) ∧
    floodFillScanLineStep ⟨3, 2, 4, [10, 10, 10, 0, 10, 200, 10, 0]⟩ 10 50
        ⟨3, 2, 4, [255, 255, 255, 0, 0, 0, 0, 0]⟩ ⟨0, 2, 1, 1⟩ [⟨0, 2, -1, -1⟩] =
      .ok (⟨3, 2, 4, [255, 255, 255, 0, 255, 0, 255, 0]⟩,
        [⟨2, 2, 2, 1⟩, ⟨2, 2, 0, -1⟩, ⟨0, 0, 2, 1⟩, ⟨0, 0, 0, -1⟩, ⟨0, 2, -1, -1⟩]) := by
  refine ⟨?_, by decide⟩
  obtain ⟨mask', runs, hrun, _, hruns, hpw, hfr, hsame⟩ :=
    floodFillScanLineStep_runs seedPoint hwf ht spans hg hy hx
  refine ⟨mask', runs, hrun, hruns, hpw, hfr, hsame, ?_⟩
  intro he
  by_contra hne
  obtain ⟨r, hr⟩ := List.exists_mem_of_ne_nil runs hne
  have hm := hruns r hr
  obtain ⟨b1, b2, _⟩ := hm.bounds
  obtain ⟨k1, k2, k3⟩ := hm.marked r.1 (le_refl _) b2
  rw [he, k1] at k3
  have := (gradedValue_bounds k2 ht).1
  omega

/-- Witness of C21: the span `(0, 2, 1, 1)` on the 3×2 image with the rows `10 10 10` and
`10 200 10`, the first row marked, seed `(0, 0)` and threshold 50. -/
theorem scanLine_span_yields_runs_witness :
    QImage.WF ⟨3, 2, 4, [10, 10, 10, 0, 10, 200, 10, 0]⟩ ∧ (50 : Nat) ≤ 255 ∧
    SameGeometry ⟨3, 2, 4, [10, 10, 10, 0, 10, 200, 10, 0]⟩
      ⟨3, 2, 4, [255, 255, 255, 0, 0, 0, 0, 0]⟩ ∧
    (∃ mask' runs,
      floodFillScanLineStep ⟨3, 2, 4, [10, 10, 10, 0, 10, 200, 10, 0]⟩
        (QImage.pix ⟨3, 2, 4, [10, 10, 10, 0, 10, 200, 10, 0]⟩ ⟨0, 0⟩) 50
        ⟨3, 2, 4, [255, 255, 255, 0, 0, 0, 0, 0]⟩ ⟨0, 2, 1, 1⟩ [⟨0, 2, -1, -1⟩] =
        .ok (mask', runChildren ⟨0, 2, 1, 1⟩ runs [⟨0, 2, -1, -1⟩]) ∧
      (∀ r ∈ runs,
        MarkedRun ⟨3, 2, 4, [10, 10, 10, 0, 10, 200, 10, 0]⟩
          (QImage.pix ⟨3, 2, 4, [10, 10, 10, 0, 10, 200, 10, 0]⟩ ⟨0, 0⟩) 50
          ⟨3, 2, 4, [255, 255, 255, 0, 0, 0, 0, 0]⟩ mask' 1 r.1 r.2) ∧
      runs.Pairwise (fun r r' => r.2 + 1 < r'.1) ∧
      (∀ q, QImage.inImage ⟨3, 2, 4, [10, 10, 10, 0, 10, 200, 10, 0]⟩ q →
        (¬ ∃ r ∈ runs, q.y = 1 ∧ r.1 ≤ q.x ∧ q.x ≤ r.2) →
        mask'.pix q = QImage.pix ⟨3, 2, 4, [255, 255, 255, 0, 0, 0, 0, 0]⟩ q) ∧
      (runs = [] ↔ mask' = ⟨3, 2, 4, [255, 255, 255, 0, 0, 0, 0, 0]⟩)) :=
  ⟨by decide, by decide, by decide,
    (scanLine_span_yields_runs ⟨3, 2, 4, [10, 10, 10, 0, 10, 200, 10, 0]⟩ ⟨0, 0⟩ 50
      ⟨3, 2, 4, [255, 255, 255, 0, 0, 0, 0, 0]⟩ ⟨0, 2, 1, 1⟩ [⟨0, 2, -1, -1⟩]
      (by decide) (by decide) (by decide) (by decide) (by decide)).1⟩

/-- C22: in the runs of `floodFill` and of `floodFillScanLine` on a well-formed image with
a seed inside the image, every coordinate passed to `getPixel` or `setPixel` lies in the
image, and every span pushed by `floodFillScanLine` has `0 ≤ x1 ≤ x2 < width`: the checked
forms of both fills, in which an access outside `0 ≤ x < width`, `0 ≤ y < height` and a
push of a span outside `0 ≤ x1 ≤ x2 < width` are faults, return, and return the mask of the
plain forms. The read at `(span.x1, span.y)` after the row check of `floodFillScanLine` is
one of the checked accesses. -/
theorem serial_accesses_stay_in_image (referenceImage : QImage) (seedPoint : QPoint)
    (threshold : Nat) (hwf : referenceImage.WF) (ht : threshold ≤ 255)
    (hin : referenceImage.inImage seedPoint) :
    (∃ mask, floodFillChecked referenceImage seedPoint threshold = .ok mask ∧
      floodFill referenceImage seedPoint threshold = .ok mask) ∧
    (∃ mask, floodFillScanLineChecked referenceImage seedPoint threshold = .ok mask ∧
      floodFillScanLine referenceImage seedPoint threshold = .ok mask) ∧
    (∀ (image : QImage) (point : QPoint) (value : Nat),
      getPixelChecked image point = .ok value →
        0 ≤ point.x ∧ point.x < (image.width : Int) ∧
          0 ≤ point.y ∧ point.y < (image.height : Int)) ∧
    (∀ (image image' : QImage) (point : QPoint) (value : Nat),
      setPixelChecked image point value = .ok image' →
        0 ≤ point.x ∧ point.x < (image.width : Int) ∧
          0 ≤ point.y ∧ point.y < (image.height : Int)) ∧
    (∀ (span : Span) (spans spans' : List Span),
      pushChecked referenceImage span spans = .ok spans' →
        0 ≤ span.x1 ∧ span.x1 ≤ span.x2 ∧ span.x2 < (referenceImage.width : Int)) := by
  obtain ⟨m1, h1, _⟩ := @floodFill_result referenceImage seedPoint threshold hwf ht hin
  obtain ⟨m2, h2, _⟩ := @floodFillScanLine_result referenceImage seedPoint threshold hwf ht hin
  refine ⟨⟨m1, ?_, h1⟩, ⟨m2, ?_, h2⟩, ?_, ?_, ?_⟩
  · rw [floodFillChecked_eq seedPoint hwf ht hin, h1]
  · rw [floodFillScanLineChecked_eq seedPoint hwf ht hin, h2]
  · intro image point value h
    exact getPixelChecked_ok h
  · intro image image' point value h
    exact setPixelChecked_ok h
  · intro span spans spans' h
    exact pushChecked_ok h

/-- Witness of C22: the 3×1 image `10 200 10` with the seed `(0, 0)` and threshold 50. -/
theorem serial_accesses_stay_in_image_witness :
    (⟨3, 1, 4, [10, 200, 10, 0]⟩ : QImage).WF ∧ (50 : Nat) ≤ 255 ∧
    (⟨3, 1, 4, [10, 200, 10, 0]⟩ : QImage).inImage ⟨0, 0⟩ ∧
    ∃ mask, floodFillScanLineChecked ⟨3, 1, 4, [10, 200, 10, 0]⟩ ⟨0, 0⟩ 50 = .ok mask ∧
      floodFillScanLine ⟨3, 1, 4, [10, 200, 10, 0]⟩ ⟨0, 0⟩ 50 = .ok mask :=
  ⟨by decide, by decide, by decide,
    (serial_accesses_stay_in_image ⟨3, 1, 4, [10, 200, 10, 0]⟩ ⟨0, 0⟩ 50 (by decide)
      (by decide) (by decide)).2.1⟩

end FloodFill

namespace FloodFill

/-- C12: the mask that `floodFillMT` returns depends on how the tasks of a round overlap. On
`raceImage` (65 x 65, 68 bytes per line, first row and first column 7, every other pixel 0)
with the seed `(0, 0)` and the threshold 1, the second round has the tasks for the tiles
`(1, 0)` and `(0, 1)`. When the tasks of every round run one after the other the run
returns a mask with the byte 255 at the pixel `(0, 64)`, as `floodFillMT` in the order of the
lists and `floodFill` do. When the task for `(1, 0)` runs its copy loops before, and its
write-back loop after, the whole task for `(0, 1)`, the run returns a mask with the byte 0
at `(0, 64)`: the write-back loop of the task for `(1, 0)` runs over 64 columns from column
64 on, reaches into the next row and stores the zero it copied in. Both are runs to the
empty queue in which every task of every round copies in once and writes back once. -/
theorem mask_depends_on_interleaving :
    (floodFillMTEvents
        [[TaskEvent.copyIn 0, TaskEvent.writeBack 0],
          [TaskEvent.copyIn 0, TaskEvent.writeBack 0, TaskEvent.copyIn 1,
            TaskEvent.writeBack 1],
          [TaskEvent.copyIn 0, TaskEvent.writeBack 0]]
        tileSize raceImage ⟨0, 0⟩ 1).map (fun r => (r.1.pix ⟨0, 64⟩, r.2)) =
      .ok (255, [], true) ∧
    (floodFillMTEvents
        [[TaskEvent.copyIn 0, TaskEvent.writeBack 0],
          [TaskEvent.copyIn 0, TaskEvent.copyIn 1, TaskEvent.writeBack 1,
            TaskEvent.writeBack 0],
          [TaskEvent.copyIn 0, TaskEvent.writeBack 0]]
        tileSize raceImage ⟨0, 0⟩ 1).map (fun r => (r.1.pix ⟨0, 64⟩, r.2)) =
      .ok (0, [], true) ∧
    (floodFillMT raceImage ⟨0, 0⟩ 1).map (fun mask => mask.pix ⟨0, 64⟩) = .ok 255 ∧
    floodFillMT raceImage ⟨0, 0⟩ 1 = floodFill raceImage ⟨0, 0⟩ 1 := by
  obtain ⟨S4, hs, hS4⟩ := raceImage_sequential_run
  obtain ⟨M2, M3, M4, queue2, queue3, _, _, h3, _, _, hM4⟩ := raceImage_overlap_run
  obtain ⟨mask, hmt, hff, hmask⟩ := raceImage_serial
  refine ⟨?_, ?_, ?_, ?_⟩
  · rw [raceImage_events, hs]
    show Except.ok (S4.pix ⟨0, 64⟩, _) = _
    rw [hS4]
  · rw [raceImage_events, h3]
    show Except.ok (M4.pix ⟨0, 64⟩, _) = _
    rw [hM4]
  · rw [hmt]
    show Except.ok (mask.pix ⟨0, 64⟩) = _
    rw [hmask]
  · rw [hmt, hff]

/-- C17: in the shared mask of `floodFillMT` a marked byte does not keep its value when the
tasks of a round overlap. On `raceImage` (65 x 65, 68 bytes per line, first row and first
column 7, every other pixel 0) with the seed `(0, 0)` and the threshold 1, in the second
round the task for the tile `(1, 0)` runs its copy loops, then the task for the tile
`(0, 1)` runs and writes back: the byte of the pixel `(0, 64)` is 255. Then the task for
`(1, 0)` writes back over 64 columns from column 64 on, which reach into row 64: the byte is
0 after the round, in which both tasks have copied in once and written back once, and it is
0 in the mask that the run returns after its third round. -/
theorem marked_byte_is_reset :
    (floodFillMTEvents
        [[TaskEvent.copyIn 0, TaskEvent.writeBack 0],
          [TaskEvent.copyIn 0, TaskEvent.copyIn 1, TaskEvent.writeBack 1]]
        tileSize raceImage ⟨0, 0⟩ 1).map (fun r => r.1.pix ⟨0, 64⟩) = .ok 255 ∧
    (floodFillMTEvents
        [[TaskEvent.copyIn 0, TaskEvent.writeBack 0],
          [TaskEvent.copyIn 0, TaskEvent.copyIn 1, TaskEvent.writeBack 1,
            TaskEvent.writeBack 0]]
        tileSize raceImage ⟨0, 0⟩ 1).map (fun r => (r.1.pix ⟨0, 64⟩, r.2.2)) =
      .ok (0, true) ∧
    (floodFillMTEvents
        [[TaskEvent.copyIn 0, TaskEvent.writeBack 0],
          [TaskEvent.copyIn 0, TaskEvent.copyIn 1, TaskEvent.writeBack 1,
            TaskEvent.writeBack 0],
          [TaskEvent.copyIn 0, TaskEvent.writeBack 0]]
        tileSize raceImage ⟨0, 0⟩ 1).map (fun r => (r.1.pix ⟨0, 64⟩, r.2)) =
      .ok (0, [], true) := by
  obtain ⟨M2, M3, M4, queue2, queue3, h1, h2, h3, hM2, hM3, hM4⟩ := raceImage_overlap_run
  refine ⟨?_, ?_, ?_⟩
  · rw [raceImage_events, h1]
    show Except.ok (M2.pix ⟨0, 64⟩) = _
    rw [hM2]
  · rw [raceImage_events, h2]
    show Except.ok (M3.pix ⟨0, 64⟩, _) = _
    rw [hM3]
  · rw [raceImage_events, h3]
    show Except.ok (M4.pix ⟨0, 64⟩, _) = _
    rw [hM4]

end FloodFill
